import Mathlib

/-! # CASE influence-analysis engine: indexed heap, RR store, greedy coverage, peelers

Shallow embedding of `iheap.h`, `infgraph.h` and `community.h`, followed by the
properties established about them.

Conventions of the embedding
* C++ arrays reached through a raw pointer (`iVector::m_data`, `iMap::m_data`) are
  functions `Nat → T` together with the element count kept by the class.
* Node ids and heap keys are natural numbers (the sources index arrays with them).
* Loops are structural recursions on a fuel argument; the fuel handed over by the
  caller is the loop variant, and the lemmas named `*_fuel` show that a larger fuel
  gives the same result, so the bound is never what ends a loop.
-/

set_option autoImplicit false

namespace CASE

/-! ## iheap.h -/

/-- The class `iVector<T>`: the storage pointer and the number of live entries. The
capacity `m_size` only drives re-allocation and is not represented. -/
structure iVector (T : Type) where
  m_data : Nat → T
  m_num : Nat

namespace iVector

variable {T : Type}

/-- Method `push_back`: `m_data[m_num++] = d`. -/
def push_back (v : iVector T) (d : T) : iVector T :=
  { m_data := Function.update v.m_data v.m_num d, m_num := v.m_num + 1 }

/-- Method `clean`: `m_num = 0`. -/
def clean (v : iVector T) : iVector T :=
  { v with m_num := 0 }

end iVector

/-- The struct `iMap<int>`: a key-indexed array of positions and the occurrence log. -/
structure iMap where
  m_data : Nat → Int
  m_num : Nat
  occur : List Nat

namespace iMap

/-- The constant `SENTINEL = (T)-1`. -/
def SENTINEL : Int := -1

/-- Method `initialize` of the source (the name is reserved here): a fresh array of
`n` sentinels and an empty log. -/
def init (_m : iMap) (n : Nat) : iMap :=
  { m_data := fun _ => SENTINEL, m_num := n, occur := [] }

/-- Method `get`. -/
def get (m : iMap) (p : Nat) : Int := m.m_data p

/-- Method `erase`: `m_data[p] = SENTINEL`. -/
def erase (m : iMap) (p : Nat) : iMap :=
  { m with m_data := Function.update m.m_data p SENTINEL }

/-- Method `notexist`: `m_data[p] == SENTINEL`. -/
def notexist (m : iMap) (p : Nat) : Bool := m.m_data p == SENTINEL

/-- Method `insert`: log the key when its slot was free, then store `d`. -/
def insert (m : iMap) (p : Nat) (d : Int) : iMap :=
  { m with
    m_data := Function.update m.m_data p d
    occur := if m.m_data p = SENTINEL then m.occur ++ [p] else m.occur }

end iMap

/-- The struct `KeyValue<int, Value>`. -/
structure KeyValue (V : Type) where
  key : Nat
  value : V

/-- The struct `iHeap<Value>`. -/
structure iHeap (V : Type) where
  pos : iMap
  m_data : iVector (KeyValue V)

namespace iHeap

variable {V : Type} [LinearOrder V]

/-- Method `initialize` of the source (the name is reserved here):
`pos.initialize(n); m_data.clean();`. -/
def init (h : iHeap V) (n : Nat) : iHeap V :=
  { pos := h.pos.init n, m_data := h.m_data.clean }

/-- Assignment `m_data[p] = d` on the heap array. -/
def store (h : iHeap V) (p : Nat) (d : KeyValue V) : iHeap V :=
  { h with m_data := { h.m_data with m_data := Function.update h.m_data.m_data p d } }

/-- The two statements `m_data[p] = d; pos.insert(m_data[p].key, p);` that every
sift step and every sift exit perform. -/
def place (h : iHeap V) (p : Nat) (d : KeyValue V) : iHeap V :=
  { pos := h.pos.insert d.key (p : Int),
    m_data := { h.m_data with m_data := Function.update h.m_data.m_data p d } }

/-- The loop of `up`, started at `p` with the saved entry `x`. -/
def up_loop : Nat → Nat → KeyValue V → iHeap V → iHeap V
  | 0, p, x, h => place h p x
  | fuel + 1, p, x, h =>
    if 0 < p ∧ x.value < (h.m_data.m_data ((p - 1) / 2)).value then
      up_loop fuel ((p - 1) / 2) x (place h p (h.m_data.m_data ((p - 1) / 2)))
    else
      place h p x

/-- Method `up`. The variant of the loop is `p`. -/
def up (h : iHeap V) (p : Nat) : iHeap V :=
  up_loop p p (h.m_data.m_data p) h

/-- The child that `down` compares with: the right one when it exists and is strictly
smaller than the left one. -/
def pick_child (h : iHeap V) (p : Nat) : Nat :=
  if 2 * p + 1 + 1 < h.m_data.m_num ∧
      (h.m_data.m_data (2 * p + 1 + 1)).value < (h.m_data.m_data (2 * p + 1)).value then
    2 * p + 1 + 1
  else
    2 * p + 1

/-- The loop of `down`, started at `p` with the saved entry `tmp`. -/
def down_loop : Nat → Nat → KeyValue V → iHeap V → iHeap V
  | 0, p, tmp, h => place h p tmp
  | fuel + 1, p, tmp, h =>
    if 2 * p + 1 < h.m_data.m_num then
      if (h.m_data.m_data (pick_child h p)).value < tmp.value then
        down_loop fuel (pick_child h p) tmp (place h p (h.m_data.m_data (pick_child h p)))
      else
        place h p tmp
    else
      place h p tmp

/-- Method `down`. The variant of the loop is `m_num - p`. -/
def down (h : iHeap V) (p : Nat) : iHeap V :=
  down_loop (h.m_data.m_num - p) p (h.m_data.m_data p) h

/-- Method `insert`. -/
def insert (h : iHeap V) (key : Nat) (value : V) : iHeap V :=
  if h.pos.notexist key then
    let h1 : iHeap V := { h with m_data := h.m_data.push_back ⟨key, value⟩ }
    let h2 : iHeap V := { h1 with pos := h1.pos.insert key ((h1.m_data.m_num - 1 : Nat) : Int) }
    up h2 (h2.m_data.m_num - 1)
  else
    let p := (h.pos.get key).toNat
    let h1 := store h p { h.m_data.m_data p with value := value }
    if 0 < p ∧ value < (h1.m_data.m_data ((p - 1) / 2)).value then
      up h1 p
    else
      down h1 p

/-- Method `empty`. -/
def empty (h : iHeap V) : Bool := h.m_data.m_num == 0

/-- Method `top_key`; `none` stands for the failed assertion. -/
def top_key (h : iHeap V) : Option Nat :=
  if 0 < h.m_data.m_num then some (h.m_data.m_data 0).key else none

/-- Method `top_value`; `none` stands for the failed assertion. -/
def top_value (h : iHeap V) : Option V :=
  if 0 < h.m_data.m_num then some (h.m_data.m_data 0).value else none

/-- Method `pop`; `none` stands for the failed assertion `m_num > 0`. The sift runs
before `m_num` is decremented, exactly as in the source. -/
def pop (h : iHeap V) : Option (Nat × iHeap V) :=
  if 0 < h.m_data.m_num then
    let top_key := (h.m_data.m_data 0).key
    let h1 : iHeap V := { h with pos := h.pos.erase top_key }
    let h2 : iHeap V :=
      if 1 < h1.m_data.m_num then
        let h3 := store h1 0 (h1.m_data.m_data (h1.m_data.m_num - 1))
        let h4 : iHeap V := { h3 with pos := h3.pos.insert (h3.m_data.m_data 0).key 0 }
        down h4 0
      else
        h1
    some (top_key, { h2 with m_data := { h2.m_data with m_num := h2.m_data.m_num - 1 } })
  else
    none

/-- Membership test used by the callers: `!pos.notexist(k)`. -/
def contains (h : iHeap V) (k : Nat) : Prop := h.pos.notexist k = false

/-- Value lookup used by the callers: `m_data[pos.get(k)].value`. -/
def value_of (h : iHeap V) (k : Nat) : V := (h.m_data.m_data (h.pos.get k).toNat).value

end iHeap

/-- A heap object with integer values as the constructor leaves it: the object on
which the selectors call `initialize`. Its array contents are never read before being written. -/
def blankHeap : iHeap Int :=
  { pos := { m_data := fun _ => 0, m_num := 0, occur := [] },
    m_data := { m_data := fun _ => ⟨0, 0⟩, m_num := 0 } }
/-! ## Invariants of the indexed heap -/

section HeapPredicates

variable {V : Type}

/-- The first `L` entries of the array `a` and the position index `P` describe each
other: stored keys are in range, `P` sends a stored key to its position, and a key
that is not stored carries the sentinel. -/
structure Indexed (n L : Nat) (a : Nat → KeyValue V) (P : Nat → Int) : Prop where
  key_lt : ∀ i, i < L → (a i).key < n
  pos_key : ∀ i, i < L → P (a i).key = (i : Int)
  absent_or : ∀ k, k < n → P k = iMap.SENTINEL ∨ ∃ i, i < L ∧ P k = (i : Int) ∧ (a i).key = k

/-- Min-heap order on the first `L` entries: no entry is smaller than its parent. -/
def Ordered [LinearOrder V] (L : Nat) (a : Nat → KeyValue V) : Prop :=
  ∀ i, 0 < i → i < L → (a ((i - 1) / 2)).value ≤ (a i).value

/-- Exchange of the entries at `p` and `c`. -/
def swapAt (b : Nat → KeyValue V) (p c : Nat) : Nat → KeyValue V :=
  Function.update (Function.update b p (b c)) c (b p)

/-- State of a sift in progress, seen on the array `b` in which the saved entry already
sits in the hole `p`: keys are in range and pairwise distinct, and the index is right
for every position but the hole. -/
structure HoleIndexed (n L p : Nat) (b : Nat → KeyValue V) (P : Nat → Int) : Prop where
  hole_lt : p < L
  key_lt : ∀ i, i < L → (b i).key < n
  inj : ∀ i j, i < L → j < L → (b i).key = (b j).key → i = j
  pos_key : ∀ i, i < L → i ≠ p → P (b i).key = (i : Int)
  absent_or : ∀ k, k < n → k ≠ (b p).key →
    P k = iMap.SENTINEL ∨ ∃ i, i < L ∧ P k = (i : Int) ∧ (b i).key = k

/-- A heap state is well formed for the key space `[0, n)`. -/
structure WellFormed [LinearOrder V] (n : Nat) (h : iHeap V) : Prop where
  key_space : h.pos.m_num = n
  indexed : Indexed n h.m_data.m_num h.m_data.m_data h.pos.m_data
  ordered : Ordered h.m_data.m_num h.m_data.m_data

/-- The transposition of the positions `p` and `c`. -/
def tr (p c i : Nat) : Nat := if i = c then p else if i = p then c else i

/-- Order invariant of `up` on the array with the saved entry in the hole `p`: the
heap order holds at every position but the hole, and the entries below the hole are
not smaller than the entry above it. -/
structure UpOrd [LinearOrder V] (L p : Nat) (b : Nat → KeyValue V) : Prop where
  ord : ∀ i, 0 < i → i < L → i ≠ p → (b ((i - 1) / 2)).value ≤ (b i).value
  grand : ∀ c, 0 < c → c < L → (c - 1) / 2 = p → 0 < p →
    (b ((p - 1) / 2)).value ≤ (b c).value

/-- Order invariant of `down` on the array with the saved entry in the hole `p`: the
heap order holds between every entry and its parent unless the parent is the hole, the
entries below the hole are not smaller than the entry above it, and the entries at the
positions `L ≤ i < m` that the loop can still see are not smaller than the saved
entry. -/
structure DownOrd [LinearOrder V] (m L p : Nat) (b : Nat → KeyValue V) : Prop where
  ord : ∀ i, 0 < i → i < L → (i - 1) / 2 ≠ p → (b ((i - 1) / 2)).value ≤ (b i).value
  grand : ∀ c, 0 < c → c < L → (c - 1) / 2 = p → 0 < p →
    (b ((p - 1) / 2)).value ≤ (b c).value
  stale : ∀ i, L ≤ i → i < m → (b p).value ≤ (b i).value

/-- The child index chosen by `down`, as a function of the array. -/
def pickc [LinearOrder V] (m : Nat) (b : Nat → KeyValue V) (p : Nat) : Nat :=
  if 2 * p + 1 + 1 < m ∧ (b (2 * p + 1 + 1)).value < (b (2 * p + 1)).value then
    2 * p + 1 + 1
  else
    2 * p + 1

/-- What a finished sift guarantees, relative to the array `b` it started from (saved
entry in the hole) and to the logical length `L`. -/
structure SiftResult [LinearOrder V] (n L : Nat) (b : Nat → KeyValue V) (h r : iHeap V) : Prop where
  num : r.m_data.m_num = h.m_data.m_num
  key_space : r.pos.m_num = h.pos.m_num
  indexed : Indexed n L r.m_data.m_data r.pos.m_data
  ordered : Ordered L r.m_data.m_data
  content : ∀ e, (∃ i, i < L ∧ r.m_data.m_data i = e) ↔ ∃ i, i < L ∧ b i = e

/-- The entry `e` is one of the live entries of the heap array. -/
def Stored (h : iHeap V) (e : KeyValue V) : Prop :=
  ∃ i, i < h.m_data.m_num ∧ h.m_data.m_data i = e

/-- The heap states that can be reached from `initialize(n)` by `insert` calls with keys
in `[0, n)` and by `pop` calls that pass the assertion `m_num > 0`. -/
inductive Reachable [LinearOrder V] (n : Nat) : iHeap V → Prop
  | init (h0 : iHeap V) : Reachable n (h0.init n)
  | insert {h : iHeap V} (key : Nat) (value : V) :
      Reachable n h → key < n → Reachable n (h.insert key value)
  | pop {h h' : iHeap V} {k : Nat} :
      Reachable n h → h.pop = some (k, h') → Reachable n h'

end HeapPredicates

/-! ## graph.h and infgraph.h: graph snapshot, PRNG and RR-set sampler

Vectors are lists. A `double` that holds a probability or a PRNG draw is a rational
number; the properties below do not depend on how the comparisons come out. An array
access outside the bounds (undefined in the source) reads a default value and writes
nothing. -/

/-- Modelled from the spec: the PRNG that the core consumes (`sfmt/SFMT.h` is not among
the sources). The state holds the stream of 32-bit outputs, as a function of the draw
number, and the number of draws made so far; every stream is allowed. -/
structure Sfmt where
  stream : Nat → Nat
  drawn : Nat

/-- Modelled from the spec: `sfmt_genrand_uint32`, the next 32-bit output of the
PRNG. -/
def sfmt_genrand_uint32 (s : Sfmt) : Nat × Sfmt :=
  (s.stream s.drawn % 4294967296, { s with drawn := s.drawn + 1 })

/-- Modelled from the spec: `sfmt_genrand_real1`, the next output of the PRNG scaled to
the closed interval from 0 to 1. -/
def sfmt_genrand_real1 (s : Sfmt) : ℚ × Sfmt :=
  (((s.stream s.drawn % 4294967296 : Nat) : ℚ) / 4294967295, { s with drawn := s.drawn + 1 })

/-- The class `Graph`: forward and transposed adjacency with the probability tables. -/
structure Graph where
  n : Nat
  m : Nat
  g : List (List Nat)
  prob_fwd_wc : List (List ℚ)
  prob_fwd_tr : List (List ℚ)
  prob_fwd_co : List (List ℚ)
  gT : List (List Nat)
  inDeg : List Nat
  prob_wc : List (List ℚ)
  prob_tr : List (List ℚ)
  prob_co : List (List ℚ)

/-- The enum `InfluModel`. -/
inductive InfluModel where
  | IC
  | LT
  | WC
deriving DecidableEq, Repr

/-- The class `InfGraph`. The pointers `active_probT` and `active_probFwd` aim at one of
the immutable tables of the graph, so they are held as the table itself; `none` is the
null pointer. -/
structure InfGraph extends Graph where
  sfmt : Sfmt
  influModel : InfluModel
  active_probT : Option (List (List ℚ))
  hyperG : List (List Nat)
  hyperGT : List (List Nat)
  result_node_set : List Nat
  active_probFwd : Option (List (List ℚ))

/-- The statement `xs[i].push_back(v)` on a vector of vectors. -/
def pushAt : List (List Nat) → Nat → Nat → List (List Nat)
  | [], _, _ => []
  | x :: xs, 0, v => (x ++ [v]) :: xs
  | x :: xs, i + 1, v => x :: pushAt xs i v

/-- The local variables of one RR-set generation together with the members it writes:
the queue `q`, the `visited` flags, the two sides of the RR store and the PRNG. -/
structure RRWalk where
  q : List Nat
  visited : List Bool
  hyperG : List (List Nat)
  hyperGT : List (List Nat)
  sfmt : Sfmt

namespace RRWalk

/-- The four statements executed for a newly reached node `v`:
`visited[v] = true; q.push_back(v); hyperGT[rr].push_back(v); hyperG[v].push_back(rr);`. -/
def visit (st : RRWalk) (rr v : Nat) : RRWalk :=
  { st with
    visited := st.visited.set v true
    q := st.q ++ [v]
    hyperGT := pushAt st.hyperGT rr v
    hyperG := pushAt st.hyperG v rr }

/-- The statements before the loop of a generator: the start node is queued, recorded
on both sides of the store and marked in a fresh `visited` array of size `n`. -/
def start (n : Nat) (hyperG hyperGT : List (List Nat)) (sfmt : Sfmt)
    (start_node rr : Nat) : RRWalk :=
  { q := [start_node]
    visited := (List.replicate n false).set start_node true
    hyperGT := pushAt hyperGT rr start_node
    hyperG := pushAt hyperG start_node rr
    sfmt := sfmt }

end RRWalk

namespace InfGraph

/-- Method `setInfuModel`. -/
def setInfuModel (g : InfGraph) (p : InfluModel) : InfGraph :=
  { g with influModel := p }

/-- Method `setActiveProbabilityModel`; `none` stands for the exception thrown on an
unknown name. -/
def setActiveProbabilityModel (g : InfGraph) (model_name : String) : Option InfGraph :=
  if model_name = "WC" then
    some { g with active_probT := some g.prob_wc, active_probFwd := some g.prob_fwd_wc }
  else if model_name = "TR" then
    some { g with active_probT := some g.prob_tr, active_probFwd := some g.prob_fwd_tr }
  else if model_name = "CO" then
    some { g with active_probT := some g.prob_co, active_probFwd := some g.prob_fwd_co }
  else
    none

/-- The table behind `*active_probT`, row `u`. -/
def probT (g : InfGraph) (u : Nat) : List ℚ :=
  (g.active_probT.getD []).getD u []

/-- Method `init_hyper_graph`. -/
def init_hyper_graph (g : InfGraph) : InfGraph :=
  { g with hyperG := List.replicate g.n [], hyperGT := [] }

/-- The `for` loop over the in-edges of `u` in `generate_rr_set_ic`: `i` is the index of
the head of the remaining edge list. The PRNG is drawn only for an unvisited `v`. -/
def ic_edges (probs : List ℚ) (rr : Nat) : List Nat → Nat → RRWalk → RRWalk
  | [], _, st => st
  | v :: rest, i, st =>
    if st.visited.getD v false = false then
      if (sfmt_genrand_real1 st.sfmt).1 < probs.getD i 0 then
        ic_edges probs rr rest (i + 1)
          ({ st with sfmt := (sfmt_genrand_real1 st.sfmt).2 }.visit rr v)
      else
        ic_edges probs rr rest (i + 1) { st with sfmt := (sfmt_genrand_real1 st.sfmt).2 }
    else
      ic_edges probs rr rest (i + 1) st

/-- The `while (head < q.size())` loop of `generate_rr_set_ic`. -/
def ic_loop (g : InfGraph) (rr : Nat) : Nat → Nat → RRWalk → RRWalk
  | 0, _, st => st
  | fuel + 1, head, st =>
    if head < st.q.length then
      ic_loop g rr fuel (head + 1)
        (ic_edges (g.probT (st.q.getD head 0)) rr (g.gT.getD (st.q.getD head 0) []) 0 st)
    else
      st

/-- Writes the members touched by a generation back into the object. -/
def commit (g : InfGraph) (st : RRWalk) : InfGraph :=
  { g with hyperG := st.hyperG, hyperGT := st.hyperGT, sfmt := st.sfmt }

/-- Method `generate_rr_set_ic`. Every pass of the loop takes one queue entry and a
node enters the queue at most once, so `n` passes are enough. -/
def generate_rr_set_ic (g : InfGraph) (start_node rr_set_idx : Nat) : InfGraph :=
  g.commit (ic_loop g rr_set_idx g.n 0
    (RRWalk.start g.n g.hyperG g.hyperGT g.sfmt start_node rr_set_idx))

/-- The roulette of `generate_rr_set_lt`: walks the in-edges, subtracting each weight
from `rand_val`, and returns the neighbour at which `rand_val <= 0` first holds. -/
def lt_pick (probs : List ℚ) : List Nat → Nat → ℚ → Option Nat
  | [], _, _ => none
  | v :: rest, i, rand_val =>
    if rand_val - probs.getD i 0 ≤ 0 then some v
    else lt_pick probs rest (i + 1) (rand_val - probs.getD i 0)

/-- One pass of the `while` loop of `generate_rr_set_lt` for the queue entry `u`. -/
def lt_hop (g : InfGraph) (rr u : Nat) (st : RRWalk) : RRWalk :=
  if (g.gT.getD u []).isEmpty then st
  else
    match lt_pick (g.probT u) (g.gT.getD u []) 0 (sfmt_genrand_real1 st.sfmt).1 with
    | some v =>
      if st.visited.getD v false = false then
        { st with sfmt := (sfmt_genrand_real1 st.sfmt).2 }.visit rr v
      else
        { st with sfmt := (sfmt_genrand_real1 st.sfmt).2 }
    | none => { st with sfmt := (sfmt_genrand_real1 st.sfmt).2 }

/-- The `while (head < q.size())` loop of `generate_rr_set_lt`. -/
def lt_loop (g : InfGraph) (rr : Nat) : Nat → Nat → RRWalk → RRWalk
  | 0, _, st => st
  | fuel + 1, head, st =>
    if head < st.q.length then
      lt_loop g rr fuel (head + 1) (lt_hop g rr (st.q.getD head 0) st)
    else
      st

/-- Method `generate_rr_set_lt`. -/
def generate_rr_set_lt (g : InfGraph) (start_node rr_set_idx : Nat) : InfGraph :=
  g.commit (lt_loop g rr_set_idx g.n 0
    (RRWalk.start g.n g.hyperG g.hyperGT g.sfmt start_node rr_set_idx))

/-- One pass of the `for` loop of `build_hyper_graph_r`, with loop counter `i`. The RR
set is written at index `i`, as in the source. -/
def build_r_step (g : InfGraph) (i : Nat) : InfGraph :=
  match g.influModel with
  | InfluModel.LT =>
    generate_rr_set_lt
      { g with hyperGT := g.hyperGT ++ [[]], sfmt := (sfmt_genrand_uint32 g.sfmt).2 }
      ((sfmt_genrand_uint32 g.sfmt).1 % g.n) i
  | _ =>
    generate_rr_set_ic
      { g with hyperGT := g.hyperGT ++ [[]], sfmt := (sfmt_genrand_uint32 g.sfmt).2 }
      ((sfmt_genrand_uint32 g.sfmt).1 % g.n) i

/-- Method `build_hyper_graph_r`. `none` stands for the failed assertion on
`active_probT` and for the `length_error` that `reserve((size_t)R)` throws when `R` is
negative. -/
def build_hyper_graph_r (g : InfGraph) (R : Int) : Option InfGraph :=
  if g.active_probT.isNone then none
  else if R < 0 then none
  else some ((List.range R.toNat).foldl build_r_step g)

/-- The `for` loop over the in-edges of `u` in `generate_rr_set_ic_stoppable`; the flag
of the result tells that the function has returned from inside the loop. -/
def ic_edges_stoppable (probs : List ℚ) (rr : Nat) (is_target : List Bool) :
    List Nat → Nat → RRWalk → RRWalk × Bool
  | [], _, st => (st, false)
  | v :: rest, i, st =>
    if st.visited.getD v false = false then
      if (sfmt_genrand_real1 st.sfmt).1 < probs.getD i 0 then
        if is_target.getD v false then
          ({ st with sfmt := (sfmt_genrand_real1 st.sfmt).2 }.visit rr v, true)
        else
          ic_edges_stoppable probs rr is_target rest (i + 1)
            ({ st with sfmt := (sfmt_genrand_real1 st.sfmt).2 }.visit rr v)
      else
        ic_edges_stoppable probs rr is_target rest (i + 1)
          { st with sfmt := (sfmt_genrand_real1 st.sfmt).2 }
    else
      ic_edges_stoppable probs rr is_target rest (i + 1) st

/-- The `while` loop of `generate_rr_set_ic_stoppable`. -/
def ic_loop_stoppable (g : InfGraph) (rr : Nat) (is_target : List Bool) :
    Nat → Nat → RRWalk → RRWalk
  | 0, _, st => st
  | fuel + 1, head, st =>
    if head < st.q.length then
      if (ic_edges_stoppable (g.probT (st.q.getD head 0)) rr is_target
            (g.gT.getD (st.q.getD head 0) []) 0 st).2 then
        (ic_edges_stoppable (g.probT (st.q.getD head 0)) rr is_target
            (g.gT.getD (st.q.getD head 0) []) 0 st).1
      else
        ic_loop_stoppable g rr is_target fuel (head + 1)
          (ic_edges_stoppable (g.probT (st.q.getD head 0)) rr is_target
            (g.gT.getD (st.q.getD head 0) []) 0 st).1
    else
      st

/-- Method `generate_rr_set_ic_stoppable`. -/
def generate_rr_set_ic_stoppable (g : InfGraph) (start_node rr_set_idx : Nat)
    (is_target : List Bool) : InfGraph :=
  if is_target.getD start_node false then
    { g with
      hyperGT := pushAt g.hyperGT rr_set_idx start_node
      hyperG := pushAt g.hyperG start_node rr_set_idx }
  else
    g.commit (ic_loop_stoppable g rr_set_idx is_target g.n 0
      (RRWalk.start g.n g.hyperG g.hyperGT g.sfmt start_node rr_set_idx))

/-- One pass of the `while` loop of `generate_rr_set_lt_stoppable` for the queue entry
`u`; the flag tells that the function has returned. -/
def lt_hop_stoppable (g : InfGraph) (rr : Nat) (is_target : List Bool) (u : Nat)
    (st : RRWalk) : RRWalk × Bool :=
  if (g.gT.getD u []).isEmpty then (st, false)
  else
    match lt_pick (g.probT u) (g.gT.getD u []) 0 (sfmt_genrand_real1 st.sfmt).1 with
    | some v =>
      if st.visited.getD v false = false then
        ({ st with sfmt := (sfmt_genrand_real1 st.sfmt).2 }.visit rr v,
          is_target.getD v false)
      else
        ({ st with sfmt := (sfmt_genrand_real1 st.sfmt).2 }, false)
    | none => ({ st with sfmt := (sfmt_genrand_real1 st.sfmt).2 }, false)

/-- The `while` loop of `generate_rr_set_lt_stoppable`. -/
def lt_loop_stoppable (g : InfGraph) (rr : Nat) (is_target : List Bool) :
    Nat → Nat → RRWalk → RRWalk
  | 0, _, st => st
  | fuel + 1, head, st =>
    if head < st.q.length then
      if (lt_hop_stoppable g rr is_target (st.q.getD head 0) st).2 then
        (lt_hop_stoppable g rr is_target (st.q.getD head 0) st).1
      else
        lt_loop_stoppable g rr is_target fuel (head + 1)
          (lt_hop_stoppable g rr is_target (st.q.getD head 0) st).1
    else
      st

/-- Method `generate_rr_set_lt_stoppable`. -/
def generate_rr_set_lt_stoppable (g : InfGraph) (start_node rr_set_idx : Nat)
    (is_target : List Bool) : InfGraph :=
  if is_target.getD start_node false then
    { g with
      hyperGT := pushAt g.hyperGT rr_set_idx start_node
      hyperG := pushAt g.hyperG start_node rr_set_idx }
  else
    g.commit (lt_loop_stoppable g rr_set_idx is_target g.n 0
      (RRWalk.start g.n g.hyperG g.hyperGT g.sfmt start_node rr_set_idx))

/-- The flag array built from a node list by the loops
`for (int x : nodes) if (x >= 0 && x < n) flags[x] = true;`. -/
def flag_nodes (n : Nat) (nodes : List Int) : List Bool :=
  nodes.foldl (fun flags x => if 0 ≤ x ∧ x < (n : Int) then flags.set x.toNat true else flags)
    (List.replicate n false)

/-- One pass of the `for` loop of `build_hyper_graph_for_minimization`. -/
def build_min_step (is_negative_seed : List Bool) (g : InfGraph) (i : Nat) : InfGraph :=
  match g.influModel with
  | InfluModel.LT =>
    generate_rr_set_lt_stoppable
      { g with hyperGT := g.hyperGT ++ [[]], sfmt := (sfmt_genrand_uint32 g.sfmt).2 }
      ((sfmt_genrand_uint32 g.sfmt).1 % g.n) i is_negative_seed
  | _ =>
    generate_rr_set_ic_stoppable
      { g with hyperGT := g.hyperGT ++ [[]], sfmt := (sfmt_genrand_uint32 g.sfmt).2 }
      ((sfmt_genrand_uint32 g.sfmt).1 % g.n) i is_negative_seed

/-- Method `build_hyper_graph_for_minimization`; `none` as for `build_hyper_graph_r`. -/
def build_hyper_graph_for_minimization (g : InfGraph) (R : Int)
    (negative_seeds : List Int) : Option InfGraph :=
  if g.active_probT.isNone then none
  else if R < 0 then none
  else some ((List.range R.toNat).foldl (build_min_step (flag_nodes g.n negative_seeds)) g)

end InfGraph

/-! ## Predicates on the graph snapshot and the RR store -/

/-- What the loader guarantees about the adjacency lists: there is at least one node,
both adjacency arrays have one row per node and every neighbour is a node id. -/
structure GraphOK (G : Graph) : Prop where
  n_pos : 0 < G.n
  g_len : G.g.length = G.n
  g_lt : ∀ u v, v ∈ G.g.getD u [] → v < G.n
  gT_len : G.gT.length = G.n
  gT_lt : ∀ u v, v ∈ G.gT.getD u [] → v < G.n

/-- The two sides of the RR store agree with multiplicity: the RR index `i` occurs in
`hyperG[v]` as often as the node `v` occurs in `hyperGT[i]`. -/
def RRBij (hyperG hyperGT : List (List Nat)) : Prop :=
  ∀ i v, (hyperG.getD v []).count i = (hyperGT.getD i []).count v

/-- The states of an `InfGraph` over a loaded graph that are reached from
`init_hyper_graph` by any sequence of `build_hyper_graph_r`,
`build_hyper_graph_for_minimization`, `setInfuModel` and `setActiveProbabilityModel`
calls. -/
inductive RRReached : InfGraph → Prop
  | init (g : InfGraph) : GraphOK g.toGraph → RRReached g.init_hyper_graph
  | build_r {g g' : InfGraph} (R : Int) :
      RRReached g → g.build_hyper_graph_r R = some g' → RRReached g'
  | build_min {g g' : InfGraph} (R : Int) (negative_seeds : List Int) :
      RRReached g → g.build_hyper_graph_for_minimization R negative_seeds = some g' →
      RRReached g'
  | set_model {g : InfGraph} (p : InfluModel) : RRReached g → RRReached (g.setInfuModel p)
  | set_prob {g g' : InfGraph} (model_name : String) :
      RRReached g → g.setActiveProbabilityModel model_name = some g' → RRReached g'

/-- Invariant of an RR-set generation that writes the RR set number `rr` over a graph
of `n` nodes. -/
structure StoreInv (n rr : Nat) (hyperG hyperGT : List (List Nat)) : Prop where
  len : hyperG.length = n
  idx_lt : rr < hyperGT.length
  bij : RRBij hyperG hyperGT

/-- The walk state `st'` comes from `st` by PRNG draws and by visits of nodes below `n`
that were not yet marked visited, all recorded for the RR set number `rr`. -/
inductive WalkSteps (n rr : Nat) : RRWalk → RRWalk → Prop
  | refl (st : RRWalk) : WalkSteps n rr st st
  | draw {st st' : RRWalk} (s : Sfmt) :
      WalkSteps n rr st st' → WalkSteps n rr st { st' with sfmt := s }
  | visit {st st' : RRWalk} (v : Nat) :
      WalkSteps n rr st st' → v < n → st'.visited.getD v false = false →
      WalkSteps n rr st (st'.visit rr v)

/-- Invariant of the RR store of an `InfGraph`: the graph is a loaded one, `hyperG` has
one row per node and the two sides of the store agree. -/
structure RRInv (g : InfGraph) : Prop where
  graph : GraphOK g.toGraph
  len : g.hyperG.length = g.n
  bij : RRBij g.hyperG g.hyperGT

/-- What one RR-set generation keeps: the graph, the model, the probability pointers,
the store invariant and the number of RR sets. -/
structure GenKeeps (g g' : InfGraph) (rr : Nat) : Prop where
  graph : g'.toGraph = g.toGraph
  model : g'.influModel = g.influModel
  probT : g'.active_probT = g.active_probT
  inv : StoreInv g.n rr g'.hyperG g'.hyperGT
  count : g'.hyperGT.length = g.hyperGT.length

/-- The queue of a generation holds exactly the nodes marked visited, each once: its
length is the number of marks among the `n` flags. -/
structure QueueOK (n : Nat) (st : RRWalk) : Prop where
  flags : st.visited.length = n
  queued : st.q.length = st.visited.count true

/-- A two-node snapshot with the single edge `0 → 1`, weighted-cascade probabilities
bound, model IC, and a PRNG whose every output is 0: used in the worked instances. -/
def demoInfGraph : InfGraph :=
  { n := 2, m := 1, g := [[1], []],
    prob_fwd_wc := [[1], []], prob_fwd_tr := [[1 / 10], []], prob_fwd_co := [[1 / 10], []],
    gT := [[], [0]], inDeg := [0, 1],
    prob_wc := [[], [1]], prob_tr := [[], [1 / 10]], prob_co := [[], [1 / 10]],
    sfmt := { stream := fun _ => 0, drawn := 0 },
    influModel := InfluModel.IC,
    active_probT := some [[], [1]],
    hyperG := [], hyperGT := [], result_node_set := [],
    active_probFwd := some [[1], []] }

/-! ## infgraph.h: greedy maximum coverage

The values of the `iHeap<double>` used by the selector are the negated coverage counts;
they are whole numbers far below `2 ^ 53` in magnitude, held exactly by a `double`, and
are integers here. -/

namespace InfGraph

/-- The innermost loop of `build_max_coverage_set`, over the nodes of one newly covered
RR set: every node that is not excluded and still in the heap gets its value raised by
one. -/
def cover_nodes (is_excluded : List Bool) : List Nat → iHeap Int → iHeap Int
  | [], h => h
  | node_in_rr_set :: rest, h =>
    if is_excluded.getD node_in_rr_set false || h.pos.notexist node_in_rr_set then
      cover_nodes is_excluded rest h
    else
      cover_nodes is_excluded rest
        (h.insert node_in_rr_set (h.value_of node_in_rr_set + 1))

/-- The loop of `build_max_coverage_set` over the RR sets of the selected node: a set
that is not yet covered is marked and its nodes are updated. -/
def cover_sets (hyperGT : List (List Nat)) (is_excluded : List Bool) :
    List Nat → List Bool × iHeap Int → List Bool × iHeap Int
  | [], s => s
  | rr_set_idx :: rest, s =>
    if s.1.getD rr_set_idx false = false then
      cover_sets hyperGT is_excluded rest
        (s.1.set rr_set_idx true,
          cover_nodes is_excluded (hyperGT.getD rr_set_idx []) s.2)
    else
      cover_sets hyperGT is_excluded rest s

/-- The local state of the selection loop: the heap, the `covered` flags and the result
built so far. -/
structure Greedy where
  degree_heap : iHeap Int
  covered : List Bool
  result_node_set : List Nat

/-- One pass of the selection loop for a non-empty heap: pop the best node, append it
to the result and update the coverage counts. A failed assertion in `pop` leaves the
state as it is (the loop guard excludes it). -/
def greedy_step (hyperG hyperGT : List (List Nat)) (is_excluded : List Bool)
    (s : Greedy) : Greedy :=
  match s.degree_heap.pop with
  | none => s
  | some (max_node, h) =>
    { degree_heap :=
        (cover_sets hyperGT is_excluded (hyperG.getD max_node []) (s.covered, h)).2
      covered :=
        (cover_sets hyperGT is_excluded (hyperG.getD max_node []) (s.covered, h)).1
      result_node_set := s.result_node_set ++ [max_node] }

/-- The selection loop `for (int i = 0; i < k && !degree_heap.empty(); i++)`; the first
argument is the number of passes that `k` still allows. -/
def greedy_loop (hyperG hyperGT : List (List Nat)) (is_excluded : List Bool) :
    Nat → Greedy → Greedy
  | 0, s => s
  | k + 1, s =>
    if s.degree_heap.empty then s
    else greedy_loop hyperG hyperGT is_excluded k (greedy_step hyperG hyperGT is_excluded s)

/-- The loop that fills the heap: every node that is neither excluded nor without
coverage enters with the negated size of `hyperG[i]`. -/
def fill_heap (hyperG : List (List Nat)) (is_excluded : List Bool) :
    List Nat → iHeap Int → iHeap Int
  | [], h => h
  | i :: rest, h =>
    if is_excluded.getD i false || (hyperG.getD i []).isEmpty then
      fill_heap hyperG is_excluded rest h
    else
      fill_heap hyperG is_excluded rest (h.insert i (-((hyperG.getD i []).length : Int)))

/-- The state in which `build_max_coverage_set` enters its selection loop. -/
def greedy_start (g : InfGraph) (excluded_nodes : List Int) : Greedy :=
  { degree_heap :=
      fill_heap g.hyperG (flag_nodes g.n excluded_nodes) (List.range g.n) (blankHeap.init g.n)
    covered := List.replicate g.hyperGT.length false
    result_node_set := [] }

/-- Method `build_max_coverage_set`. -/
def build_max_coverage_set (g : InfGraph) (k : Int) (excluded_nodes : List Int) : InfGraph :=
  { g with
    result_node_set :=
      (greedy_loop g.hyperG g.hyperGT (flag_nodes g.n excluded_nodes) k.toNat
        (greedy_start g excluded_nodes)).result_node_set }

/-- The counting loops of `InfluenceHyperGraph` over the RR sets of one node. -/
def count_sets : List Nat → List Bool × Nat → List Bool × Nat
  | [], s => s
  | rr_set_idx :: rest, s =>
    if s.1.getD rr_set_idx false = false then
      count_sets rest (s.1.set rr_set_idx true, s.2 + 1)
    else
      count_sets rest s

/-- The number `count` that `InfluenceHyperGraph` computes before scaling: `none` when
the method takes its early return with 0. -/
def covered_count (g : InfGraph) : Option Nat :=
  if g.result_node_set.isEmpty || g.hyperGT.isEmpty then none
  else
    some (g.result_node_set.foldl (fun s node => count_sets (g.hyperG.getD node []) s)
      (List.replicate g.hyperGT.length false, 0)).2

/-- Method `InfluenceHyperGraph`, with the quotient taken in the rationals. -/
def InfluenceHyperGraph (g : InfGraph) : ℚ :=
  match g.covered_count with
  | none => 0
  | some count => (count : ℚ) / (g.hyperGT.length : ℚ) * (g.n : ℚ)

end InfGraph

/-! ## Predicates on the greedy selection -/

/-- A well-formed RR store over `n` nodes: `hyperG` has one row per node, the two sides
agree, and no RR set contains a node twice. -/
structure StoreOK (n : Nat) (hyperG hyperGT : List (List Nat)) : Prop where
  len : hyperG.length = n
  bij : RRBij hyperG hyperGT
  nodup : ∀ i, (hyperGT.getD i []).Nodup

/-- The test that lets node `w` into the heap: not excluded and with some coverage. -/
def candb (hyperG : List (List Nat)) (is_excluded : List Bool) (w : Nat) : Bool :=
  !(is_excluded.getD w false) && !(hyperG.getD w []).isEmpty

/-- The number of entries of the list `rrs` of RR indices that are not yet covered. -/
def uncovered (covered : List Bool) (rrs : List Nat) : Nat :=
  (rrs.filter (fun rr => covered.getD rr false = false)).length

/-- The residual coverage of node `w`: the entries of `hyperG[w]` not yet covered. -/
def residual (hyperG : List (List Nat)) (covered : List Bool) (w : Nat) : Nat :=
  uncovered covered (hyperG.getD w [])

/-- Loop invariant of the selection loop of `build_max_coverage_set`, for the key space
`n`, the flags `excl` and the number `c` of candidates. -/
structure GInv (n : Nat) (hyperG hyperGT : List (List Nat)) (excl : List Bool) (c : Nat)
    (s : InfGraph.Greedy) : Prop where
  wf : WellFormed n s.degree_heap
  cov_len : s.covered.length = hyperGT.length
  mem : ∀ w, w < n →
    (s.degree_heap.contains w ↔ (candb hyperG excl w = true ∧ w ∉ s.result_node_set))
  value : ∀ w, w < n → s.degree_heap.contains w →
    s.degree_heap.value_of w = -((residual hyperG s.covered w : Nat) : Int)
  nodup : s.result_node_set.Nodup
  res_cand : ∀ u, u ∈ s.result_node_set → u < n ∧ candb hyperG excl u = true
  covered_iff : ∀ i, s.covered.getD i false = true ↔
    (i < hyperGT.length ∧ ∃ u, u ∈ s.result_node_set ∧ i ∈ hyperG.getD u [])
  count : s.degree_heap.m_data.m_num + s.result_node_set.length = c

/-- The nodes that `build_max_coverage_set` can select: the node ids that are not in
the excluded list and belong to at least one RR set. -/
def coverable (g : InfGraph) (excluded_nodes : List Int) : List Nat :=
  (List.range g.n).filter
    (fun v => !(excluded_nodes.contains (v : Int)) && g.hyperGT.any (fun rr => rr.contains v))

/-- The RR sets, by index, that contain at least one node of `S`. -/
def coveredBy (hyperGT : List (List Nat)) (S : Finset Nat) : Finset Nat :=
  (Finset.range hyperGT.length).filter (fun i => ∃ v, v ∈ S ∧ v ∈ hyperGT.getD i [])

/-- The RR sets of node `v`, by index, that are not yet covered. -/
def openSets (hyperG : List (List Nat)) (covered : List Bool) (v : Nat) : Finset Nat :=
  (hyperG.getD v []).toFinset.filter (fun i => covered.getD i false = false)

/-- Decision procedure for `RRBij` on a concrete store: the counts agree for all row
indices of the two sides, and every entry of one side is a row index of the other. -/
def checkBij (hyperG hyperGT : List (List Nat)) : Bool :=
  (List.range hyperG.length).all (fun v =>
    (List.range hyperGT.length).all (fun i =>
      (hyperG.getD v []).count i == (hyperGT.getD i []).count v)) &&
  hyperG.all (fun row => row.all (fun i => decide (i < hyperGT.length))) &&
  hyperGT.all (fun row => row.all (fun v => decide (v < hyperG.length)))

/-- A four-node snapshot (edges `0 → 1` and `1 → 2`, node 3 isolated) with an RR store
of four sets, `[1, 0]`, `[0]`, `[2, 1]` and `[3]`: used in the worked instances. -/
def demoStore : InfGraph :=
  { n := 4, m := 2, g := [[1], [2], [], []],
    prob_fwd_wc := [[1], [1], [], []], prob_fwd_tr := [[1 / 10], [1 / 10], [], []],
    prob_fwd_co := [[1 / 10], [1 / 10], [], []],
    gT := [[], [0], [1], []], inDeg := [0, 1, 1, 0],
    prob_wc := [[], [1], [1], []], prob_tr := [[], [1 / 10], [1 / 10], []],
    prob_co := [[], [1 / 10], [1 / 10], []],
    sfmt := { stream := fun _ => 0, drawn := 0 },
    influModel := InfluModel.IC,
    active_probT := some [[], [1], [1], []],
    hyperG := [[0, 1], [0, 2], [2], [3]],
    hyperGT := [[1, 0], [0], [2, 1], [3]],
    result_node_set := [],
    active_probFwd := some [[1], [1], [], []] }

/-! ## community.h: cohesive-subgraph peelers

An `unordered_set<int>` is the list of its elements in insertion order, without
repetition; the order in which the library iterates over such a set is not fixed by the
language and is the parameter `enum` of the functions below, which lists a set in some
order. An `unordered_map` with default-constructed missing values is a function. A
`std::set` is a strictly increasing list, and a `std::map` is the increasing list of
its keys with a function for the values.

Node identifiers are natural numbers. The source indexes `g.g` and `g.gT` without a
bounds check, so its behaviour is defined for identifiers below `n` only; here the row
of any other identifier is empty. -/

/-- The struct `NodeState`. -/
structure NodeState where
  id : Nat
  state : String
  probability : ℚ

/-- The struct `CommunityResult`. -/
structure CommunityResult where
  node_ids : List Nat
  average_influence_prob : ℚ
  node_count : Nat

namespace CommunitySearcher

/-- The call `s.insert(x)` on an `unordered_set<int>`. -/
def uset_insert (s : List Nat) (x : Nat) : List Nat :=
  if x ∈ s then s else s ++ [x]

/-- The call `s.erase(x)` on an `unordered_set<int>`. -/
def uset_erase (s : List Nat) (x : Nat) : List Nat :=
  s.filter (fun y => y ≠ x)

/-- The call `s.insert(x)` on a `std::set<int>`. -/
def set_insert (x : Nat) : List Nat → List Nat
  | [] => [x]
  | y :: ys =>
    if x < y then x :: y :: ys
    else if x = y then y :: ys
    else y :: set_insert x ys

/-- The type `map<int, set<int>>`. -/
structure AdjMap where
  keys : List Nat
  nbrs : Nat → List Nat

namespace AdjMap

/-- The empty map. -/
def empty : AdjMap := { keys := [], nbrs := fun _ => [] }

/-- The expression statement `adj[u];`, which creates the key. -/
def touch (adj : AdjMap) (u : Nat) : AdjMap :=
  { adj with keys := set_insert u adj.keys }

/-- The statement `adj[u].insert(v);`. -/
def insert (adj : AdjMap) (u v : Nat) : AdjMap :=
  { keys := set_insert u adj.keys
    nbrs := Function.update adj.nbrs u (set_insert v (adj.nbrs u)) }

/-- The neighbours visited by `if (adj.count(u)) for (int v : adj.at(u))`. -/
def row (adj : AdjMap) (u : Nat) : List Nat :=
  if u ∈ adj.keys then adj.nbrs u else []

end AdjMap

/-- The body shared by the two inner loops of `build_undirected_adj`. -/
def link_all (node_set : List Nat) (u : Nat) : List Nat → AdjMap → AdjMap
  | [], adj => adj
  | v :: rest, adj =>
    if v ∈ node_set then link_all node_set u rest ((adj.insert u v).insert v u)
    else link_all node_set u rest adj

/-- Function `build_undirected_adj`. -/
def build_undirected_adj (enum : List Nat → List Nat) (g : InfGraph)
    (node_set : List Nat) : AdjMap :=
  (enum node_set).foldl
    (fun adj u =>
      link_all node_set u (g.gT.getD u [])
        (link_all node_set u (g.g.getD u []) (adj.touch u)))
    AdjMap.empty

/-- Function `make_edge`. -/
def make_edge (u v : Nat) : Nat × Nat := (min u v, max u v)

/-- The inner loops of the three breadth-first searches, which all have the body
`if (ok(v) && !component.count(v)) { component.insert(v); q.push(v); }`; the state is
the queue and the set. Two consecutive loops with this body over `g.g[u]` and `g.gT[u]`
are one loop over the concatenation. -/
def bfs_scan (ok : Nat → Bool) : List Nat → List Nat × List Nat → List Nat × List Nat
  | [], s => s
  | v :: rest, s =>
    if ok v && !(s.2.contains v) then bfs_scan ok rest (s.1 ++ [v], s.2 ++ [v])
    else bfs_scan ok rest s

/-- The `while (!q.empty())` loop of a breadth-first search over the neighbour lists
`nbrs`. -/
def bfs_loop (nbrs : Nat → List Nat) (ok : Nat → Bool) :
    Nat → List Nat × List Nat → List Nat × List Nat
  | 0, s => s
  | fuel + 1, s =>
    match s.1 with
    | [] => s
    | u :: q => bfs_loop nbrs ok fuel (bfs_scan ok (nbrs u) (q, s.2))

/-- Function `extract_connected_component`. Every pass of the loop takes one queue
entry and a candidate enters the queue at most once. -/
def extract_connected_component (start_node : Nat) (adj : AdjMap)
    (candidates : List Nat) : List Nat :=
  (bfs_loop adj.row (fun v => candidates.contains v) candidates.length
    (if candidates.contains start_node then ([start_node], [start_node]) else ([], []))).2

/-- What `prepare_search_space` hands back through its reference parameters. -/
structure SearchPrep where
  search_space : List Nat
  valid_query_nodes : List Nat
  node_probs : Nat → Option ℚ

/-- The map `node_probs` after the first loop of `prepare_search_space`: the last
state recorded for an id wins. -/
def collect_probs (final_states : List NodeState) : Nat → Option ℚ :=
  final_states.foldl (fun m ns => Function.update m ns.id (some ns.probability))
    (fun _ => none)

/-- Function `prepare_search_space`; `none` is the return value `false`. The search
runs over at most as many nodes as there are states. -/
def prepare_search_space (final_states : List NodeState) (g : InfGraph)
    (query_nodes : List Nat) : Option SearchPrep :=
  match query_nodes.filter (fun qn => (final_states.map NodeState.id).contains qn) with
  | [] => none
  | q0 :: qs =>
    some
      { search_space :=
          (bfs_loop (fun u => g.g.getD u [] ++ g.gT.getD u [])
            (fun v => (final_states.map NodeState.id).contains v) final_states.length
            ([q0], [q0])).2
        valid_query_nodes := q0 :: qs
        node_probs := collect_probs final_states }

/-- Function `package_result`. -/
def package_result (enum : List Nat → List Nat) (final_component : List Nat)
    (node_probs : Nat → Option ℚ) : CommunityResult :=
  { node_ids := enum final_component
    node_count := (enum final_component).length
    average_influence_prob :=
      if 0 < (enum final_component).length then
        ((enum final_component).foldl
          (fun prob_sum node =>
            match node_probs node with
            | some p => prob_sum + p
            | none => prob_sum) 0) / ((enum final_component).length : ℚ)
      else 0 }

/-- The result `{{}, 0.0, 0}` of the failure exits. -/
def empty_result : CommunityResult :=
  { node_ids := [], average_influence_prob := 0, node_count := 0 }

/-- The number of entries of an adjacency row that lie in the set `s`. -/
def count_in (s : List Nat) (row : List Nat) : Nat :=
  (row.filter (fun v => s.contains v)).length

/-- The first surviving query node, as found by the loop with `break`. -/
def first_surviving (valid_query_nodes candidates : List Nat) : Option Nat :=
  valid_query_nodes.find? (fun qn => candidates.contains qn)

/-! ### The directed (k,l)-core -/

/-- The local state of the peeling in `find_most_influenced_community_local`. -/
structure KLPeel where
  candidates : List Nat
  removal_q : List Nat
  already_in_removal_q : List Nat
  internal_in_degrees : Nat → Int
  internal_out_degrees : Nat → Int

/-- The loop that computes the initial internal degrees and queues the violators. -/
def kl_init (k_core l_core : Int) (g : InfGraph) (candidates : List Nat) :
    List Nat → KLPeel → KLPeel
  | [], s => s
  | u :: rest, s =>
    kl_init k_core l_core g candidates rest
      { s with
        internal_in_degrees :=
          Function.update s.internal_in_degrees u (count_in candidates (g.gT.getD u []) : Int)
        internal_out_degrees :=
          Function.update s.internal_out_degrees u (count_in candidates (g.g.getD u []) : Int)
        removal_q :=
          if (count_in candidates (g.gT.getD u []) : Int) < k_core ∨
              (count_in candidates (g.g.getD u []) : Int) < l_core then
            s.removal_q ++ [u]
          else s.removal_q }

/-- The loop over the in-neighbours of a removed node: their out-degree drops. -/
def kl_drop_out (l_core : Int) : List Nat → KLPeel → KLPeel
  | [], s => s
  | v :: rest, s =>
    if s.candidates.contains v then
      kl_drop_out l_core rest
        { s with
          internal_out_degrees :=
            Function.update s.internal_out_degrees v (s.internal_out_degrees v - 1)
          removal_q :=
            if s.internal_out_degrees v - 1 < l_core ∧ ¬ v ∈ s.already_in_removal_q then
              s.removal_q ++ [v]
            else s.removal_q
          already_in_removal_q :=
            if s.internal_out_degrees v - 1 < l_core ∧ ¬ v ∈ s.already_in_removal_q then
              uset_insert s.already_in_removal_q v
            else s.already_in_removal_q }
    else kl_drop_out l_core rest s

/-- The loop over the out-neighbours of a removed node: their in-degree drops. -/
def kl_drop_in (k_core : Int) : List Nat → KLPeel → KLPeel
  | [], s => s
  | v :: rest, s =>
    if s.candidates.contains v then
      kl_drop_in k_core rest
        { s with
          internal_in_degrees :=
            Function.update s.internal_in_degrees v (s.internal_in_degrees v - 1)
          removal_q :=
            if s.internal_in_degrees v - 1 < k_core ∧ ¬ v ∈ s.already_in_removal_q then
              s.removal_q ++ [v]
            else s.removal_q
          already_in_removal_q :=
            if s.internal_in_degrees v - 1 < k_core ∧ ¬ v ∈ s.already_in_removal_q then
              uset_insert s.already_in_removal_q v
            else s.already_in_removal_q }
    else kl_drop_in k_core rest s

/-- The peeling loop `while (!removal_q.empty())` of the (k,l)-core. -/
def kl_peel (k_core l_core : Int) (g : InfGraph) : Nat → KLPeel → KLPeel
  | 0, s => s
  | fuel + 1, s =>
    match s.removal_q with
    | [] => s
    | u :: q =>
      if s.candidates.contains u then
        kl_peel k_core l_core g fuel
          (kl_drop_in k_core (g.g.getD u [])
            (kl_drop_out l_core (g.gT.getD u [])
              { s with removal_q := q, candidates := uset_erase s.candidates u }))
      else
        kl_peel k_core l_core g fuel { s with removal_q := q }

/-- The state after the peeling of the (k,l)-core on the search space. A node enters
the removal queue at most once, so as many passes as there are nodes are enough. -/
def kl_core_candidates (enum : List Nat → List Nat) (k_core l_core : Int) (g : InfGraph)
    (search_space : List Nat) : KLPeel :=
  kl_peel k_core l_core g search_space.length
    ((fun s : KLPeel => { s with already_in_removal_q := s.removal_q.foldl uset_insert [] })
      (kl_init k_core l_core g search_space (enum search_space)
        { candidates := search_space, removal_q := [], already_in_removal_q := [],
          internal_in_degrees := fun _ => 0, internal_out_degrees := fun _ => 0 }))

/-- Function `find_most_influenced_community_local`. -/
def find_most_influenced_community_local (enum : List Nat → List Nat) (k_core l_core : Int)
    (final_states : List NodeState) (g : InfGraph) (query_nodes : List Nat) :
    CommunityResult :=
  if final_states.isEmpty ∨ k_core < 0 ∨ l_core < 0 then empty_result
  else
    match prepare_search_space final_states g query_nodes with
    | none => empty_result
    | some prep =>
      if (kl_core_candidates enum k_core l_core g prep.search_space).candidates.isEmpty then
        empty_result
      else
        match first_surviving prep.valid_query_nodes
            (kl_core_candidates enum k_core l_core g prep.search_space).candidates with
        | none => empty_result
        | some surviving_query_node =>
          package_result enum
            (bfs_loop (fun u => g.g.getD u [] ++ g.gT.getD u [])
              (fun v =>
                (kl_core_candidates enum k_core l_core g prep.search_space).candidates.contains v)
              (kl_core_candidates enum k_core l_core g prep.search_space).candidates.length
              ([surviving_query_node], [surviving_query_node])).2
            prep.node_probs

/-! ### The undirected k-core -/

/-- The local state of the peeling in `find_k_core_community`. -/
structure KPeel where
  candidates : List Nat
  removal_q : List Nat
  already_in_removal_q : List Nat
  internal_degrees : Nat → Int

/-- The loop that computes the initial internal degrees and queues the violators. -/
def k_init (k_core : Int) (adj : AdjMap) : List Nat → KPeel → KPeel
  | [], s => s
  | u :: rest, s =>
    k_init k_core adj rest
      { s with
        internal_degrees :=
          Function.update s.internal_degrees u ((adj.nbrs u).length : Int)
        removal_q :=
          if ((adj.nbrs u).length : Int) < k_core then s.removal_q ++ [u] else s.removal_q }

/-- The loop over the neighbours of a removed node: their degree drops. -/
def k_drop (k_core : Int) : List Nat → KPeel → KPeel
  | [], s => s
  | v :: rest, s =>
    if s.candidates.contains v then
      k_drop k_core rest
        { s with
          internal_degrees := Function.update s.internal_degrees v (s.internal_degrees v - 1)
          removal_q :=
            if s.internal_degrees v - 1 < k_core ∧ ¬ v ∈ s.already_in_removal_q then
              s.removal_q ++ [v]
            else s.removal_q
          already_in_removal_q :=
            if s.internal_degrees v - 1 < k_core ∧ ¬ v ∈ s.already_in_removal_q then
              uset_insert s.already_in_removal_q v
            else s.already_in_removal_q }
    else k_drop k_core rest s

/-- The peeling loop `while (!removal_q.empty())` of the k-core. -/
def k_peel (k_core : Int) (adj : AdjMap) : Nat → KPeel → KPeel
  | 0, s => s
  | fuel + 1, s =>
    match s.removal_q with
    | [] => s
    | u :: q =>
      if s.candidates.contains u then
        k_peel k_core adj fuel
          (k_drop k_core (adj.nbrs u)
            { s with removal_q := q, candidates := uset_erase s.candidates u })
      else
        k_peel k_core adj fuel { s with removal_q := q }

/-- The state after the peeling of the k-core on the search space. A node enters the
removal queue at most once, so as many passes as there are nodes are enough. -/
def k_core_candidates (enum : List Nat → List Nat) (k_core : Int) (adj : AdjMap)
    (search_space : List Nat) : KPeel :=
  k_peel k_core adj search_space.length
    ((fun s : KPeel => { s with already_in_removal_q := s.removal_q.foldl uset_insert [] })
      (k_init k_core adj (enum search_space)
        { candidates := search_space, removal_q := [], already_in_removal_q := [],
          internal_degrees := fun _ => 0 }))

/-- Function `find_k_core_community`. -/
def find_k_core_community (enum : List Nat → List Nat) (k_core : Int)
    (final_states : List NodeState) (g : InfGraph) (query_nodes : List Nat) :
    CommunityResult :=
  if final_states.isEmpty ∨ k_core < 0 then empty_result
  else
    match prepare_search_space final_states g query_nodes with
    | none => empty_result
    | some prep =>
      if (k_core_candidates enum k_core (build_undirected_adj enum g prep.search_space)
            prep.search_space).candidates.isEmpty then
        empty_result
      else
        match first_surviving prep.valid_query_nodes
            (k_core_candidates enum k_core (build_undirected_adj enum g prep.search_space)
              prep.search_space).candidates with
        | none => empty_result
        | some surviving_query_node =>
          package_result enum
            (extract_connected_component surviving_query_node
              (build_undirected_adj enum g prep.search_space)
              (k_core_candidates enum k_core (build_undirected_adj enum g prep.search_space)
                prep.search_space).candidates)
            prep.node_probs

/-! ### The undirected k-truss -/

/-- The order of `std::pair<int,int>`. -/
def pair_lt (a b : Nat × Nat) : Bool :=
  a.1 < b.1 || (a.1 == b.1 && a.2 < b.2)

/-- The call `s.insert(e)` on a `std::set<pair<int,int>>`. -/
def eset_insert (e : Nat × Nat) : List (Nat × Nat) → List (Nat × Nat)
  | [] => [e]
  | y :: ys =>
    if pair_lt e y then e :: y :: ys
    else if e = y then y :: ys
    else y :: eset_insert e ys

/-- The three containers filled by the triangle enumeration of
`find_k_truss_community`, and the removal queue of its peeling. -/
structure Truss where
  edge_supports : Nat × Nat → Int
  triangle_witnesses : Nat × Nat → List Nat
  current_edges : List (Nat × Nat)
  removal_q : List (Nat × Nat)

/-- The nine statements executed for a triangle `(u, v, w)` found from `u`. -/
def tri_record (u v w : Nat) (t : Truss) : Truss :=
  { t with
    edge_supports :=
      (fun s2 : Nat × Nat → Int =>
          Function.update s2 (make_edge v w) (s2 (make_edge v w) + 1))
        ((fun s1 : Nat × Nat → Int =>
            Function.update s1 (make_edge u w) (s1 (make_edge u w) + 1))
          (Function.update t.edge_supports (make_edge u v)
            (t.edge_supports (make_edge u v) + 1)))
    triangle_witnesses :=
      (fun w2 : Nat × Nat → List Nat =>
          Function.update w2 (make_edge v w) (w2 (make_edge v w) ++ [u]))
        ((fun w1 : Nat × Nat → List Nat =>
            Function.update w1 (make_edge u w) (w1 (make_edge u w) ++ [v]))
          (Function.update t.triangle_witnesses (make_edge u v)
            (t.triangle_witnesses (make_edge u v) ++ [w])))
    current_edges :=
      eset_insert (make_edge v w)
        (eset_insert (make_edge u w) (eset_insert (make_edge u v) t.current_edges)) }

/-- The loop over `j > i` of the triangle enumeration, for the fixed `v = neighbors[i]`. -/
def tri_inner (adj : AdjMap) (u v : Nat) : List Nat → Truss → Truss
  | [], t => t
  | w :: rest, t =>
    if (adj.nbrs v).contains w then tri_inner adj u v rest (tri_record u v w t)
    else tri_inner adj u v rest t

/-- The loop over `i` of the triangle enumeration, for the map entry of `u`. -/
def tri_outer (adj : AdjMap) (u : Nat) : List Nat → Truss → Truss
  | [], t => t
  | v :: rest, t => tri_outer adj u rest (tri_inner adj u v rest t)

/-- The triangle enumeration over all entries of the adjacency map, in key order. -/
def truss_supports (adj : AdjMap) : Truss :=
  adj.keys.foldl (fun t u => tri_outer adj u (adj.nbrs u) t)
    { edge_supports := fun _ => 0, triangle_witnesses := fun _ => [],
      current_edges := [], removal_q := [] }

/-- The two decrements made for one witness `w` of the removed edge `(u, v)`. -/
def truss_drop_one (min_support : Int) (u v w : Nat) (t : Truss) : Truss :=
  (fun t1 : Truss =>
      if t1.current_edges.contains (make_edge v w) then
        { t1 with
          edge_supports :=
            Function.update t1.edge_supports (make_edge v w)
              (t1.edge_supports (make_edge v w) - 1)
          removal_q :=
            if t1.edge_supports (make_edge v w) - 1 < min_support then
              t1.removal_q ++ [make_edge v w]
            else t1.removal_q }
      else t1)
    (if t.current_edges.contains (make_edge u w) then
      { t with
        edge_supports :=
          Function.update t.edge_supports (make_edge u w)
            (t.edge_supports (make_edge u w) - 1)
        removal_q :=
          if t.edge_supports (make_edge u w) - 1 < min_support then
            t.removal_q ++ [make_edge u w]
          else t.removal_q }
    else t)

/-- The peeling loop `while (!removal_q.empty())` of the k-truss. -/
def truss_peel (min_support : Int) : Nat → Truss → Truss
  | 0, t => t
  | fuel + 1, t =>
    match t.removal_q with
    | [] => t
    | edge_uv :: q =>
      if t.current_edges.contains edge_uv then
        truss_peel min_support fuel
          ((t.triangle_witnesses edge_uv).foldl
            (fun t1 w => truss_drop_one min_support edge_uv.1 edge_uv.2 w t1)
            { t with removal_q := q
                     current_edges := t.current_edges.filter (fun e => e ≠ edge_uv) })
      else
        truss_peel min_support fuel { t with removal_q := q }

/-- A bound on the number of passes of the peeling loop: every pass takes one queue
entry, and the removal of an edge adds at most two entries per witness of that edge. -/
def truss_fuel (t : Truss) : Nat :=
  t.removal_q.length +
    2 * (t.current_edges.map (fun e => (t.triangle_witnesses e).length)).sum

/-- The edges that survive the peeling in `find_k_truss_community`. -/
def k_truss_edges (min_support : Int) (adj : AdjMap) : Truss :=
  (fun t : Truss => truss_peel min_support (truss_fuel t) t)
    ((fun t : Truss =>
        { t with removal_q := t.current_edges.filter (fun e => t.edge_supports e < min_support) })
      (truss_supports adj))

/-- The node set `k_truss_candidates` built from the surviving edges. -/
def truss_nodes (edges : List (Nat × Nat)) : List Nat :=
  edges.foldl (fun c e => uset_insert (uset_insert c e.1) e.2) []

/-- The map `k_truss_adj` built from the surviving edges. -/
def truss_adj (edges : List (Nat × Nat)) : AdjMap :=
  edges.foldl (fun adj e => (adj.insert e.1 e.2).insert e.2 e.1) AdjMap.empty

/-- Function `find_k_truss_community`. -/
def find_k_truss_community (enum : List Nat → List Nat) (k_truss : Int)
    (final_states : List NodeState) (g : InfGraph) (query_nodes : List Nat) :
    CommunityResult :=
  if final_states.isEmpty ∨ k_truss < 2 then empty_result
  else
    match prepare_search_space final_states g query_nodes with
    | none => empty_result
    | some prep =>
      if (truss_nodes (k_truss_edges (k_truss - 2)
            (build_undirected_adj enum g prep.search_space)).current_edges).isEmpty then
        empty_result
      else
        match first_surviving prep.valid_query_nodes
            (truss_nodes (k_truss_edges (k_truss - 2)
              (build_undirected_adj enum g prep.search_space)).current_edges) with
        | none => empty_result
        | some surviving_query_node =>
          package_result enum
            (extract_connected_component surviving_query_node
              (truss_adj (k_truss_edges (k_truss - 2)
                (build_undirected_adj enum g prep.search_space)).current_edges)
              (truss_nodes (k_truss_edges (k_truss - 2)
                (build_undirected_adj enum g prep.search_space)).current_edges))
            prep.node_probs

end CommunitySearcher

/-! ## Predicates on graphs and communities -/

/-- The cross-index invariant of a loaded snapshot: `v` occurs in `g[u]` as often as
`u` occurs in `gT[v]`. -/
def GraphCross (g : InfGraph) : Prop :=
  ∀ u v, (g.g.getD u []).count v = (g.gT.getD v []).count u

/-- The nodes `a` and `b` are joined by an edge of the graph, in either direction. -/
def Joined (g : InfGraph) (a b : Nat) : Prop :=
  b ∈ g.g.getD a [] ∨ b ∈ g.gT.getD a [] ∨ a ∈ g.g.getD b [] ∨ a ∈ g.gT.getD b []

/-- The nodes `a` and `b` are joined by a path of graph edges, taken in either
direction, all of whose nodes lie in `S`. -/
def ConnectedIn (g : InfGraph) (S : List Nat) (a b : Nat) : Prop :=
  Relation.ReflTransGen (fun x y => x ∈ S ∧ y ∈ S ∧ Joined g x y) a b

/-- Reachability from a start node inside the set `comp` along the neighbour lists
`nbrs`. -/
def ReachIn (nbrs : Nat → List Nat) (comp : List Nat) (a b : Nat) : Prop :=
  Relation.ReflTransGen (fun x y => x ∈ comp ∧ y ∈ comp ∧ y ∈ nbrs x) a b

/-- Loop invariant of a breadth-first search from `s0` with the universe `U` of the
admissible nodes. -/
structure BfsInv (nbrs : Nat → List Nat) (ok : Nat → Bool) (U : List Nat) (s0 : Nat)
    (fuel : Nat) (s : List Nat × List Nat) : Prop where
  queued : ∀ x, x ∈ s.1 → x ∈ s.2
  nodup : s.2.Nodup
  inU : ∀ x, x ∈ s.2 → x ∈ U
  start : s0 ∈ s.2
  okay : ∀ x, x ∈ s.2 → x = s0 ∨ ok x = true
  closed : ∀ x, x ∈ s.2 → x ∉ s.1 → ∀ y, y ∈ nbrs x → ok y = true → y ∈ s.2
  reach : ∀ x, x ∈ s.2 → ReachIn nbrs s.2 s0 x
  budget : s.1.length + U.length ≤ fuel + s.2.length

/-- What a finished breadth-first search guarantees. -/
structure BfsDone (nbrs : Nat → List Nat) (ok : Nat → Bool) (s0 : Nat) (comp : List Nat) :
    Prop where
  nodup : comp.Nodup
  start : s0 ∈ comp
  okay : ∀ x, x ∈ comp → x = s0 ∨ ok x = true
  closed : ∀ x, x ∈ comp → ∀ y, y ∈ nbrs x → ok y = true → y ∈ comp
  reach : ∀ x, x ∈ comp → ReachIn nbrs comp s0 x

/-- The shape shared by the three loops that lower the degrees of the neighbours of a
removed node: the state is the degree map, the removal queue and the set of nodes
already queued. -/
def drop_gen (thr : Int) (cands : List Nat) :
    List Nat → (Nat → Int) × List Nat × List Nat → (Nat → Int) × List Nat × List Nat
  | [], s => s
  | v :: rest, s =>
    if cands.contains v then
      drop_gen thr cands rest
        (Function.update s.1 v (s.1 v - 1),
          if s.1 v - 1 < thr ∧ ¬ v ∈ s.2.2 then s.2.1 ++ [v] else s.2.1,
          if s.1 v - 1 < thr ∧ ¬ v ∈ s.2.2 then CommunitySearcher.uset_insert s.2.2 v
          else s.2.2)
    else drop_gen thr cands rest s

/-- Loop invariant of the peeling of the (k,l)-core over the search space `ss`. -/
structure KLInv (k_core l_core : Int) (g : InfGraph) (ss : List Nat) (fuel : Nat)
    (s : CommunitySearcher.KLPeel) : Prop where
  cand_sub : ∀ x, x ∈ s.candidates → x ∈ ss
  in_deg : ∀ u, u ∈ s.candidates →
    s.internal_in_degrees u
      = (CommunitySearcher.count_in s.candidates (g.gT.getD u []) : Int)
  out_deg : ∀ u, u ∈ s.candidates →
    s.internal_out_degrees u
      = (CommunitySearcher.count_in s.candidates (g.g.getD u []) : Int)
  viol : ∀ u, u ∈ s.candidates →
    (s.internal_in_degrees u < k_core ∨ s.internal_out_degrees u < l_core) →
    u ∈ s.already_in_removal_q
  pending : ∀ u, u ∈ s.already_in_removal_q → u ∈ s.candidates → u ∈ s.removal_q
  q_sub : ∀ x, x ∈ s.removal_q → x ∈ s.already_in_removal_q
  al_sub : ∀ x, x ∈ s.already_in_removal_q → x ∈ ss
  al_nodup : s.already_in_removal_q.Nodup
  budget : s.removal_q.length + ss.length ≤ fuel + s.already_in_removal_q.length

/-- The number of distinct entries of an adjacency row that lie in the set `s`. -/
def distinct_in (s : List Nat) (row : List Nat) : Nat :=
  CommunitySearcher.count_in s row.dedup

/-- A two-node snapshot as loaded from the edge lines `0 1`, `0 1`, `1 0`, `1 0`: each
edge is stored twice. -/
def dupGraph : InfGraph :=
  { n := 2, m := 4, g := [[1, 1], [0, 0]],
    prob_fwd_wc := [[1 / 2, 1 / 2], [1 / 2, 1 / 2]],
    prob_fwd_tr := [[1 / 10, 1 / 10], [1 / 10, 1 / 10]],
    prob_fwd_co := [[1 / 10, 1 / 10], [1 / 10, 1 / 10]],
    gT := [[1, 1], [0, 0]], inDeg := [2, 2],
    prob_wc := [[1 / 2, 1 / 2], [1 / 2, 1 / 2]],
    prob_tr := [[1 / 10, 1 / 10], [1 / 10, 1 / 10]],
    prob_co := [[1 / 10, 1 / 10], [1 / 10, 1 / 10]],
    sfmt := { stream := fun _ => 0, drawn := 0 },
    influModel := InfluModel.IC,
    active_probT := none,
    hyperG := [], hyperGT := [], result_node_set := [],
    active_probFwd := none }

/-- A three-node snapshot as loaded from the edge lines `0 1`, `0 2`, `1 2`: one
triangle. -/
def triGraph : InfGraph :=
  { n := 3, m := 3, g := [[1, 2], [2], []],
    prob_fwd_wc := [[1, 1 / 2], [1 / 2], []],
    prob_fwd_tr := [[1 / 10, 1 / 10], [1 / 10], []],
    prob_fwd_co := [[1 / 10, 1 / 10], [1 / 10], []],
    gT := [[], [0], [0, 1]], inDeg := [0, 1, 2],
    prob_wc := [[], [1], [1 / 2, 1 / 2]],
    prob_tr := [[], [1 / 10], [1 / 10, 1 / 10]],
    prob_co := [[], [1 / 10], [1 / 10, 1 / 10]],
    sfmt := { stream := fun _ => 0, drawn := 0 },
    influModel := InfluModel.IC,
    active_probT := none,
    hyperG := [], hyperGT := [], result_node_set := [],
    active_probFwd := none }

/-- Final states in which the nodes `0 .. n-1` are all active with probability 1. -/
def allActive (n : Nat) : List NodeState :=
  (List.range n).map (fun i => { id := i, state := "active", probability := 1 })

/-- Whether `a` and `b` are joined by an edge of the graph, in either direction. -/
def joinedb (g : InfGraph) (a b : Nat) : Bool :=
  (g.g.getD a []).contains b || (g.gT.getD a []).contains b ||
    (g.g.getD b []).contains a || (g.gT.getD b []).contains a

/-- The number of nodes of the set `S` that are joined to `u` by an edge of the graph,
in either direction. -/
def undirected_degree_in (g : InfGraph) (S : List Nat) (u : Nat) : Nat :=
  (S.dedup.filter (fun w => joinedb g u w)).length

/-- Well-formedness of the undirected view of the graph on the node set `S`. -/
structure AdjOK (g : InfGraph) (S : List Nat) (adj : CommunitySearcher.AdjMap) : Prop where
  sorted : ∀ u, (adj.nbrs u).Pairwise (fun a b => a < b)
  sym : ∀ u v, v ∈ adj.nbrs u → u ∈ adj.nbrs v
  sound : ∀ u v, v ∈ adj.nbrs u → u ∈ S ∧ v ∈ S ∧ Joined g u v
  keyed : ∀ u v, v ∈ adj.nbrs u → u ∈ adj.keys

/-- Loop invariant of the peeling of the k-core over the search space `ss`. -/
structure KInv (k_core : Int) (adj : CommunitySearcher.AdjMap) (ss : List Nat) (fuel : Nat)
    (s : CommunitySearcher.KPeel) : Prop where
  cand_sub : ∀ x, x ∈ s.candidates → x ∈ ss
  deg : ∀ u, u ∈ s.candidates →
    s.internal_degrees u = (CommunitySearcher.count_in s.candidates (adj.nbrs u) : Int)
  viol : ∀ u, u ∈ s.candidates → s.internal_degrees u < k_core →
    u ∈ s.already_in_removal_q
  pending : ∀ u, u ∈ s.already_in_removal_q → u ∈ s.candidates → u ∈ s.removal_q
  q_sub : ∀ x, x ∈ s.removal_q → x ∈ s.already_in_removal_q
  al_sub : ∀ x, x ∈ s.already_in_removal_q → x ∈ ss
  al_nodup : s.already_in_removal_q.Nodup
  budget : s.removal_q.length + ss.length ≤ fuel + s.already_in_removal_q.length

/-- What the connectivity contract asks of a returned node list `R`: when it is not
empty it holds a query node, and any two of its nodes are joined by a path inside it. -/
def CommunityConnected (g : InfGraph) (query_nodes R : List Nat) : Prop :=
  R ≠ [] →
    (∃ q, q ∈ query_nodes ∧ q ∈ R) ∧ ∀ a b, a ∈ R → b ∈ R → ConnectedIn g R a b

/-- Every edge of the current set is the normal form of a pair of the undirected
view. -/
def EdgesOf (adj : CommunitySearcher.AdjMap) (t : CommunitySearcher.Truss) : Prop :=
  ∀ e, e ∈ t.current_edges →
    ∃ a b, b ∈ adj.nbrs a ∧ e = CommunitySearcher.make_edge a b

/-- The number of nodes `w` that close a triangle over the edge `e` inside the edge set
`E`: both `(e.1, w)` and `(e.2, w)` are edges of `E`. -/
def triangle_count (E : List (Nat × Nat)) (e : Nat × Nat) : Nat :=
  ((CommunitySearcher.truss_nodes E).filter (fun w =>
    E.contains (CommunitySearcher.make_edge e.1 w) &&
      E.contains (CommunitySearcher.make_edge e.2 w))).length

/-- A two-node snapshot as loaded from the edge lines `0 1`, `1 0`: a directed cycle. -/
def cycleGraph : InfGraph :=
  { n := 2, m := 2, g := [[1], [0]],
    prob_fwd_wc := [[1], [1]],
    prob_fwd_tr := [[1 / 10], [1 / 10]],
    prob_fwd_co := [[1 / 10], [1 / 10]],
    gT := [[1], [0]], inDeg := [1, 1],
    prob_wc := [[1], [1]],
    prob_tr := [[1 / 10], [1 / 10]],
    prob_co := [[1 / 10], [1 / 10]],
    sfmt := { stream := fun _ => 0, drawn := 0 },
    influModel := InfluModel.IC,
    active_probT := none,
    hyperG := [], hyperGT := [], result_node_set := [],
    active_probFwd := none }

/-! ## Predicates for the maximality of the cores -/

/-- Every node of `D` lies in the search space `ss` and has at least `k_core` entries of
its in-row and `l_core` entries of its out-row inside `D`. -/
def KLCoreLike (k_core l_core : Int) (g : InfGraph) (ss D : List Nat) : Prop :=
  ∀ u, u ∈ D → u ∈ ss ∧
    k_core ≤ (CommunitySearcher.count_in D (g.gT.getD u []) : Int) ∧
    l_core ≤ (CommunitySearcher.count_in D (g.g.getD u []) : Int)

/-- Second loop invariant of the peeling of the (k,l)-core, for a set `D` that meets
the degree bounds: `D` has lost no node, and every candidate that was ever queued
violates a bound. -/
structure KLMax (k_core l_core : Int) (D : List Nat) (s : CommunitySearcher.KLPeel) :
    Prop where
  keeps : ∀ x, x ∈ D → x ∈ s.candidates
  queued : ∀ u, u ∈ s.already_in_removal_q → u ∈ s.candidates →
    s.internal_in_degrees u < k_core ∨ s.internal_out_degrees u < l_core

/-! ## graph.h: the loader

The edge file is the list of the pairs `u v` that `file >> u >> v` reads. Node ids are
natural numbers below `2 ^ 31 - 1` (the source holds them in an `int`, indexes the
adjacency vectors with them and adds one to the largest). The draws of the
`uniform_int_distribution<>(0, 2)` made while the probability tables are filled are a
parameter: `draws k` is the outcome of the call number `k`. -/

namespace Graph

/-- The variable `max_node_id` after the reading loop. -/
def max_node_id (edges : List (Nat × Nat)) : Int :=
  edges.foldl
    (fun m e =>
      (fun m1 : Int => if (e.2 : Int) > m1 then (e.2 : Int) else m1)
        (if (e.1 : Int) > m then (e.1 : Int) else m))
    (-1)

/-- The statement `inDeg[v]++`. -/
def bump (inDeg : List Nat) (v : Nat) : List Nat :=
  inDeg.set v (inDeg.getD v 0 + 1)

/-- The adjacency members written by the loop `for (const auto& edge : edges)`. -/
structure Adjacency where
  g : List (List Nat)
  gT : List (List Nat)
  inDeg : List Nat

/-- The loop `for (const auto& edge : edges)` of `loadGraphFromEdgeList`, started on
vectors of `n` empty rows. -/
def build_adjacency (n : Nat) (edges : List (Nat × Nat)) : Adjacency :=
  edges.foldl
    (fun a e =>
      { g := pushAt a.g e.1 e.2, gT := pushAt a.gT e.2 e.1, inDeg := bump a.inDeg e.2 })
    { g := List.replicate n [], gT := List.replicate n [], inDeg := List.replicate n 0 }

/-- Method `loadGraphFromEdgeList`, on the pairs read from the file; `none` is the
failed assertion `n > 0 && m > 0`. -/
def loadGraphFromEdgeList (edges : List (Nat × Nat)) : Option Graph :=
  if 0 < (max_node_id edges + 1).toNat ∧ 0 < edges.length then
    some
      { n := (max_node_id edges + 1).toNat
        m := edges.length
        g := (build_adjacency (max_node_id edges + 1).toNat edges).g
        gT := (build_adjacency (max_node_id edges + 1).toNat edges).gT
        inDeg := (build_adjacency (max_node_id edges + 1).toNat edges).inDeg
        prob_wc := List.replicate (max_node_id edges + 1).toNat []
        prob_fwd_wc := List.replicate (max_node_id edges + 1).toNat []
        prob_tr := List.replicate (max_node_id edges + 1).toNat []
        prob_fwd_tr := List.replicate (max_node_id edges + 1).toNat []
        prob_co := List.replicate (max_node_id edges + 1).toNat []
        prob_fwd_co := List.replicate (max_node_id edges + 1).toNat [] }
  else none

/-- The array `tr_probs`. -/
def tr_probs (d : Fin 3) : ℚ :=
  match d with
  | 0 => 1 / 10
  | 1 => 1 / 100
  | 2 => 1 / 1000

/-- The expression `(inDeg[v] > 0) ? (1.0 / inDeg[v]) : 0`. -/
def wc_prob (inDeg : List Nat) (v : Nat) : ℚ :=
  if 0 < inDeg.getD v 0 then 1 / (inDeg.getD v 0 : ℚ) else 0

/-- A loop nest `for (row ...) for (i < row.size()) out[row][i] = tr_probs[distrib(gen)]`
over the rows of an adjacency array, with the number `c` of draws made before it; the
result holds the table and the number of draws made after it. -/
def draw_rows (draws : Nat → Fin 3) : List (List Nat) → Nat → List (List ℚ) × Nat
  | [], c => ([], c)
  | row :: rest, c =>
    ((List.range row.length).map (fun i => tr_probs (draws (c + i)))
        :: (draw_rows draws rest (c + row.length)).1,
      (draw_rows draws rest (c + row.length)).2)

/-- The rows `0 .. n-1` of an adjacency array, as the loops `for (v = 0; v < n; ++v)`
visit them. -/
def rows_upto (n : Nat) (adj : List (List Nat)) : List (List Nat) :=
  (List.range n).map (fun v => adj.getD v [])

/-- Method `precompute_all_probabilities`, on a graph whose tables have `n` rows as
`loadGraphFromEdgeList` leaves them. The draws for the transposed side are made first,
then those for the forward side. -/
def precompute_all_probabilities (draws : Nat → Fin 3) (G : Graph) : Graph :=
  { G with
    prob_wc :=
      (List.range G.n).map (fun v =>
        List.replicate (G.gT.getD v []).length (wc_prob G.inDeg v))
    prob_co :=
      (List.range G.n).map (fun v => List.replicate (G.gT.getD v []).length (1 / 10))
    prob_tr := (draw_rows draws (rows_upto G.n G.gT) 0).1
    prob_fwd_co :=
      (List.range G.n).map (fun u => List.replicate (G.g.getD u []).length (1 / 10))
    prob_fwd_wc :=
      (List.range G.n).map (fun u => (G.g.getD u []).map (fun v => wc_prob G.inDeg v))
    prob_fwd_tr :=
      (draw_rows draws (rows_upto G.n G.g)
        (draw_rows draws (rows_upto G.n G.gT) 0).2).1 }

/-- The constructor `Graph(const string&)`, on the pairs read from the file. -/
def construct (draws : Nat → Fin 3) (edges : List (Nat × Nat)) : Option Graph :=
  (loadGraphFromEdgeList edges).map (precompute_all_probabilities draws)

end Graph

/-- The entry `table[r][i]` of a probability table. -/
def probAt (table : List (List ℚ)) (r i : Nat) : ℚ :=
  (table.getD r []).getD i 0

/-- The edge file with the lines `0 1`, `0 1`, `1 0`, `1 0`. -/
def dupEdges : List (Nat × Nat) := [(0, 1), (0, 1), (1, 0), (1, 0)]

/-- Draws of the load-time generator whose first outcome is 0 and whose later outcomes
are 1. -/
def firstZeroDraws (k : Nat) : Fin 3 := if k = 0 then 0 else 1

/-! ## Predicates on the shape of the RR sets -/

/-- Invariant of an RR-set generation that started on an empty row `rr`: the row holds
the queue, and the queue holds marked nodes below `n`, each once. -/
structure SetInv (n rr : Nat) (st : RRWalk) : Prop where
  flags : st.visited.length = n
  idx : rr < st.hyperGT.length
  row : st.hyperGT.getD rr [] = st.q
  marked : ∀ x, x ∈ st.q → st.visited.getD x false = true
  nodup : st.q.Nodup
  lt : ∀ x, x ∈ st.q → x < n

/-- The shape of one RR set over `n` nodes with the root `root`: the root comes first,
every element is a node id and no node occurs twice. -/
structure RowShape (n root : Nat) (row : List Nat) : Prop where
  head : row.head? = some root
  lt : ∀ x, x ∈ row → x < n
  nodup : row.Nodup

/-- The state of the object when pass `i` of a build loop with the body `step` starts,
the loop having started in the state `g0`. -/
def state_before_pass (step : InfGraph → Nat → InfGraph) (g0 : InfGraph) (i : Nat) :
    InfGraph :=
  (List.range i).foldl step g0

/-- The root `sfmt_genrand_uint32(&sfmt) % n` drawn in pass `i` of a build loop. -/
def root_of_pass (step : InfGraph → Nat → InfGraph) (g0 : InfGraph) (i : Nat) : Nat :=
  (sfmt_genrand_uint32 (state_before_pass step g0 i).sfmt).1 % g0.n

/-- No node of the list is flagged, or only its last node is. -/
def StopsAtTarget (is_target : List Bool) (row : List Nat) : Prop :=
  (∀ x, x ∈ row → is_target.getD x false = false) ∨
    ∃ q0 t, row = q0 ++ [t] ∧ is_target.getD t false = true ∧
      ∀ x, x ∈ q0 → is_target.getD x false = false

/-- The two-node snapshot `demoInfGraph` with a PRNG whose every output is 1. -/
def demoInfGraphOnes : InfGraph :=
  { demoInfGraph with sfmt := { stream := fun _ => 1, drawn := 0 } }

/-! ## infgraph.h: greedy blocker selection -/

namespace InfGraph

/-- The loop of `build_blocking_set` over the RR sets of one negative seed: an index
not yet flagged is flagged in `is_rr_risky` and appended to `risky_rr_indices`. -/
def mark_risky : List Nat → List Bool × List Nat → List Bool × List Nat
  | [], s => s
  | rr_idx :: rest, s =>
    if s.1.getD rr_idx false = false then
      mark_risky rest (s.1.set rr_idx true, s.2 ++ [rr_idx])
    else
      mark_risky rest s

/-- The row `hyperG[seed]` read for a negative seed; the row of a seed outside the
store (an access outside the vector in the source) is empty. -/
def seed_row (hyperG : List (List Nat)) (seed : Int) : List Nat :=
  if 0 ≤ seed then hyperG.getD seed.toNat [] else []

/-- The pair `(is_rr_risky, risky_rr_indices)` after the second loop nest of
`build_blocking_set`. -/
def risky_sets (g : InfGraph) (negative_seeds : List Int) : List Bool × List Nat :=
  negative_seeds.foldl (fun s seed => mark_risky (seed_row g.hyperG seed) s)
    (List.replicate g.hyperGT.length false, [])

/-- The loop over the nodes of one risky RR set: `node_degrees[node]++` for every node
that is not a negative seed. -/
def count_risky (is_negative_seed : List Bool) : List Nat → List Nat → List Nat
  | [], node_degrees => node_degrees
  | node :: rest, node_degrees =>
    if is_negative_seed.getD node false = false then
      count_risky is_negative_seed rest
        (node_degrees.set node (node_degrees.getD node 0 + 1))
    else
      count_risky is_negative_seed rest node_degrees

/-- The array `node_degrees` after the counting loop nest. -/
def risky_degrees (g : InfGraph) (is_negative_seed : List Bool)
    (risky_rr_indices : List Nat) : List Nat :=
  risky_rr_indices.foldl
    (fun d rr_idx => count_risky is_negative_seed (g.hyperGT.getD rr_idx []) d)
    (List.replicate g.n 0)

/-- The loop that fills the heap of `build_blocking_set`: every node that is not a
negative seed and has a positive degree enters with the negated degree. -/
def fill_block_heap (is_negative_seed : List Bool) (node_degrees : List Nat) :
    List Nat → iHeap Int → iHeap Int
  | [], h => h
  | i :: rest, h =>
    if is_negative_seed.getD i false = false ∧ 0 < node_degrees.getD i 0 then
      fill_block_heap is_negative_seed node_degrees rest
        (h.insert i (-((node_degrees.getD i 0 : Nat) : Int)))
    else
      fill_block_heap is_negative_seed node_degrees rest h

/-- The loop of `build_blocking_set` over the RR sets of the selected node: a risky set
that is not yet covered is marked and its nodes are updated. -/
def block_sets (hyperGT : List (List Nat)) (is_negative_seed is_rr_risky : List Bool) :
    List Nat → List Bool × iHeap Int → List Bool × iHeap Int
  | [], s => s
  | rr_idx :: rest, s =>
    if is_rr_risky.getD rr_idx false = true ∧ s.1.getD rr_idx false = false then
      block_sets hyperGT is_negative_seed is_rr_risky rest
        (s.1.set rr_idx true,
          cover_nodes is_negative_seed (hyperGT.getD rr_idx []) s.2)
    else
      block_sets hyperGT is_negative_seed is_rr_risky rest s

/-- One pass of the selection loop of `build_blocking_set` for a non-empty heap. -/
def block_step (hyperG hyperGT : List (List Nat)) (is_negative_seed is_rr_risky : List Bool)
    (s : Greedy) : Greedy :=
  match s.degree_heap.pop with
  | none => s
  | some (max_node, h) =>
    { degree_heap :=
        (block_sets hyperGT is_negative_seed is_rr_risky (hyperG.getD max_node [])
          (s.covered, h)).2
      covered :=
        (block_sets hyperGT is_negative_seed is_rr_risky (hyperG.getD max_node [])
          (s.covered, h)).1
      result_node_set := s.result_node_set ++ [max_node] }

/-- The selection loop `for (int i = 0; i < k && !degree_heap.empty(); i++)` of
`build_blocking_set`. -/
def block_loop (hyperG hyperGT : List (List Nat)) (is_negative_seed is_rr_risky : List Bool) :
    Nat → Greedy → Greedy
  | 0, s => s
  | k + 1, s =>
    if s.degree_heap.empty then s
    else
      block_loop hyperG hyperGT is_negative_seed is_rr_risky k
        (block_step hyperG hyperGT is_negative_seed is_rr_risky s)

/-- The state in which `build_blocking_set` enters its selection loop. -/
def block_start (g : InfGraph) (negative_seeds : List Int) : Greedy :=
  { degree_heap :=
      fill_block_heap (flag_nodes g.n negative_seeds)
        (risky_degrees g (flag_nodes g.n negative_seeds) (risky_sets g negative_seeds).2)
        (List.range g.n) (blankHeap.init g.n)
    covered := List.replicate g.hyperGT.length false
    result_node_set := [] }

/-- Method `build_blocking_set`. -/
def build_blocking_set (g : InfGraph) (k : Int) (negative_seeds : List Int) : InfGraph :=
  { g with
    result_node_set :=
      (block_loop g.hyperG g.hyperGT (flag_nodes g.n negative_seeds)
        (risky_sets g negative_seeds).1 k.toNat (block_start g negative_seeds)).result_node_set }

end InfGraph

/-- The nodes that `build_blocking_set` can select: the node ids that are not in the
negative-seed list and belong to an RR set that holds a negative seed. -/
def blockable (g : InfGraph) (negative_seeds : List Int) : List Nat :=
  (List.range g.n).filter (fun v =>
    !(negative_seeds.contains (v : Int)) &&
      g.hyperGT.any (fun rr =>
        rr.contains v && rr.any (fun s => negative_seeds.contains (s : Int))))

/-- Loop invariant of the selection loop of `build_blocking_set`, for the key space `n`,
the candidate test `cand` and the number `c` of candidates. -/
structure BInv (n : Nat) (cand : Nat → Prop) (excl : List Bool) (c : Nat)
    (s : InfGraph.Greedy) : Prop where
  wf : WellFormed n s.degree_heap
  mem : ∀ w, w < n → (s.degree_heap.contains w ↔ (cand w ∧ w ∉ s.result_node_set))
  unflagged : ∀ w, cand w → excl.getD w false = false
  nodup : s.result_node_set.Nodup
  res_cand : ∀ u, u ∈ s.result_node_set → u < n ∧ cand u
  count : s.degree_heap.m_data.m_num + s.result_node_set.length = c

/-! ## infgraph.h: the probability iterator

`run_probability_simulation` iterates the activation probabilities of all nodes. The
member `result_id` of `ApiSimulationResult` holds a random identifier and is left out;
the member `newly_recovered_nodes` of `SimulationStep` is never written by this method
and keeps its initial value, the empty vector. -/

/-- The struct `SimulationStep`. -/
structure SimulationStep where
  step : Nat
  newly_activated_nodes : List Nat
  newly_recovered_nodes : List Nat := []
  node_states : List NodeState

/-- The struct `ApiSimulationResult`. -/
structure ApiSimulationResult where
  total_steps : Nat
  simulation_steps : List SimulationStep

namespace InfGraph

/-- The loop over `initial_nodes` that builds step 0: every seed inside the graph that
is not blocked gets probability 1 and a node state; the state is the pair of
`next_prob` and `step0.node_states`. -/
def seed_step0 (n : Nat) (is_blocked : List Bool) :
    List Int → List ℚ × List NodeState → List ℚ × List NodeState
  | [], s => s
  | seed :: rest, s =>
    if 0 ≤ seed ∧ seed < (n : Int) ∧ is_blocked.getD seed.toNat false = false then
      seed_step0 n is_blocked rest
        (s.1.set seed.toNat 1,
          s.2 ++ [{ id := seed.toNat, state := "active", probability := 1 }])
    else
      seed_step0 n is_blocked rest s

/-- The loop of the IC branch over the in-edges of `v`, with the edge index `j`:
`p_not_activated *= 1.0 - current_prob[u] * edge_prob`. -/
def p_not_activated (current_prob probs : List ℚ) : List Nat → Nat → ℚ → ℚ
  | [], _, acc => acc
  | u :: rest, j, acc =>
    p_not_activated current_prob probs rest (j + 1)
      (acc * (1 - current_prob.getD u 0 * probs.getD j 0))

/-- The loop of the LT branch over the in-edges of `v`, with the edge index `j`:
`sum_prob += current_prob[u] * edge_weight`. -/
def sum_prob (current_prob probs : List ℚ) : List Nat → Nat → ℚ → ℚ
  | [], _, acc => acc
  | u :: rest, j, acc =>
    sum_prob current_prob probs rest (j + 1)
      (acc + current_prob.getD u 0 * probs.getD j 0)

/-- The test `is_blocked[v] || current_prob[v] > 1.0 - stop_delta` that leaves the
probability of `v` as it is. -/
def sim_skip (is_blocked : List Bool) (stop_delta : ℚ) (current_prob : List ℚ) (v : Nat) :
    Bool :=
  is_blocked.getD v false || decide (current_prob.getD v 0 > 1 - stop_delta)

/-- The vector `next_prob` after the loop over all nodes of one iteration. Under a
model other than IC and LT no branch runs and the vector keeps its value, which is that
of `current_prob`. -/
def next_prob_of (g : InfGraph) (is_blocked : List Bool) (stop_delta : ℚ)
    (current_prob : List ℚ) : List ℚ :=
  match g.influModel with
  | InfluModel.IC =>
    (List.range g.n).map (fun v =>
      if sim_skip is_blocked stop_delta current_prob v then current_prob.getD v 0
      else 1 - p_not_activated current_prob (g.probT v) (g.gT.getD v []) 0 1)
  | InfluModel.LT =>
    (List.range g.n).map (fun v =>
      if sim_skip is_blocked stop_delta current_prob v then current_prob.getD v 0
      else min 1 (sum_prob current_prob (g.probT v) (g.gT.getD v []) 0 0))
  | InfluModel.WC => current_prob

/-- The flag `changed` after the loop over all nodes of one iteration. -/
def changed_of (g : InfGraph) (is_blocked : List Bool) (stop_delta : ℚ)
    (current_prob next_prob : List ℚ) : Bool :=
  match g.influModel with
  | InfluModel.WC => false
  | _ =>
    (List.range g.n).any (fun v =>
      !(sim_skip is_blocked stop_delta current_prob v) &&
        decide (abs (next_prob.getD v 0 - current_prob.getD v 0) > stop_delta))

/-- The snapshot `current_step` recorded for iteration `i`. -/
def record_step (n : Nat) (threshold stop_delta : ℚ) (i : Nat)
    (current_prob next_prob : List ℚ) : SimulationStep :=
  { step := i
    node_states :=
      (List.range n).filterMap (fun node_id =>
        if abs (next_prob.getD node_id 0 - current_prob.getD node_id 0) > stop_delta ∨
            (current_prob.getD node_id 0 < threshold ∧ next_prob.getD node_id 0 ≥ threshold)
        then
          some
            { id := node_id
              state := if next_prob.getD node_id 0 ≥ threshold then "active" else "inactive"
              probability := next_prob.getD node_id 0 }
        else none)
    newly_activated_nodes :=
      (List.range n).filter (fun node_id =>
        decide (current_prob.getD node_id 0 < threshold ∧
          next_prob.getD node_id 0 ≥ threshold)) }

/-- The statement `if (!current_step.node_states.empty()) { ... }` that appends the
snapshot to the result. -/
def push_step (result : ApiSimulationResult) (i : Nat) (current_step : SimulationStep) :
    ApiSimulationResult :=
  if current_step.node_states.isEmpty then result
  else
    { total_steps := i
      simulation_steps := result.simulation_steps ++ [current_step] }

/-- The loop `for (int i = 1; i < max_steps; ++i)` with its two early exits; the first
argument is the number of passes that `max_steps` still allows, and `next_prob` is the
vector with which the pass `i` starts. -/
def sim_loop (g : InfGraph) (is_blocked : List Bool) (threshold stop_delta : ℚ) :
    Nat → Nat → List ℚ → ApiSimulationResult → ApiSimulationResult
  | 0, _, _, result => result
  | fuel + 1, i, next_prob, result =>
    if changed_of g is_blocked stop_delta next_prob
        (next_prob_of g is_blocked stop_delta next_prob) = false then
      result
    else if (record_step g.n threshold stop_delta i next_prob
        (next_prob_of g is_blocked stop_delta next_prob)).newly_activated_nodes.isEmpty then
      push_step result i
        (record_step g.n threshold stop_delta i next_prob
          (next_prob_of g is_blocked stop_delta next_prob))
    else
      sim_loop g is_blocked threshold stop_delta fuel (i + 1)
        (next_prob_of g is_blocked stop_delta next_prob)
        (push_step result i
          (record_step g.n threshold stop_delta i next_prob
            (next_prob_of g is_blocked stop_delta next_prob)))

/-- Method `run_probability_simulation`; `none` is the failed assertion on
`active_probT`. -/
def run_probability_simulation (g : InfGraph) (initial_nodes blocking_nodes : List Int)
    (max_steps : Int) (threshold stop_delta : ℚ) : Option ApiSimulationResult :=
  if g.active_probT.isNone then none
  else
    some
      (sim_loop g (flag_nodes g.n blocking_nodes) threshold stop_delta
        (max_steps - 1).toNat 1
        (seed_step0 g.n (flag_nodes g.n blocking_nodes) initial_nodes
          (List.replicate g.n 0, [])).1
        { total_steps := 0
          simulation_steps :=
            [{ step := 0
               newly_activated_nodes := []
               node_states :=
                 (seed_step0 g.n (flag_nodes g.n blocking_nodes) initial_nodes
                   (List.replicate g.n 0, [])).2 }] })

/-- The vector `next_prob` after `k` iterations of the update, from the vector that
step 0 leaves. -/
def prob_after (g : InfGraph) (initial_nodes blocking_nodes : List Int) (stop_delta : ℚ)
    (k : Nat) : List ℚ :=
  (next_prob_of g (flag_nodes g.n blocking_nodes) stop_delta)^[k]
    (seed_step0 g.n (flag_nodes g.n blocking_nodes) initial_nodes
      (List.replicate g.n 0, [])).1

end InfGraph

/-- A vector of `n` activation probabilities in which blocked nodes have probability
0. -/
structure ProbVec (n : Nat) (is_blocked : List Bool) (p : List ℚ) : Prop where
  len : p.length = n
  bounds : ∀ v, 0 ≤ p.getD v 0 ∧ p.getD v 0 ≤ 1
  blocked : ∀ v, is_blocked.getD v false = true → p.getD v 0 = 0

/-- Every entry of the probability table lies between 0 and 1. -/
def TableIn01 (table : List (List ℚ)) : Prop :=
  ∀ row, row ∈ table → ∀ p, p ∈ row → 0 ≤ p ∧ p ≤ 1

/-- Every node state recorded in the result holds a node of the graph with the
probability that the iteration numbered by its step has produced. -/
def StepsOK (g : InfGraph) (initial_nodes blocking_nodes : List Int) (stop_delta : ℚ)
    (result : ApiSimulationResult) : Prop :=
  ∀ st, st ∈ result.simulation_steps → ∀ ns, ns ∈ st.node_states →
    ns.id < g.n ∧
    ns.probability
      = (InfGraph.prob_after g initial_nodes blocking_nodes stop_delta st.step).getD ns.id 0

/-! ## infgraph.h: the forward Monte-Carlo estimate

`calculate_final_probabilities` runs `num_simulations` forward cascades from the seeds
and returns, for every node, the share of cascades that activated it. A `std::queue` is
a list whose head is the front. -/

/-- The local variables of one cascade of the IC branch together with the PRNG. -/
structure TrialIC where
  activated : List Bool
  q : List Nat
  sfmt : Sfmt

/-- The local variables of one cascade of the LT branch after the thresholds are
drawn. -/
structure TrialLT where
  activated : List Bool
  total_weights : List ℚ
  lt_q : List Nat

namespace InfGraph

/-- The table behind `*active_probFwd`, row `u`. -/
def probFwd (g : InfGraph) (u : Nat) : List ℚ :=
  (g.active_probFwd.getD []).getD u []

/-- The loop over `initial_nodes` at the start of a cascade: a seed inside the graph
that is neither blocked nor activated yet is activated and queued; the state is the
pair of `activated` and `q`. -/
def seed_trial (n : Nat) (is_blocked : List Bool) :
    List Int → List Bool × List Nat → List Bool × List Nat
  | [], s => s
  | seed :: rest, s =>
    if 0 ≤ seed ∧ seed < (n : Int) ∧ is_blocked.getD seed.toNat false = false ∧
        s.1.getD seed.toNat false = false then
      seed_trial n is_blocked rest (s.1.set seed.toNat true, s.2 ++ [seed.toNat])
    else
      seed_trial n is_blocked rest s

/-- The loop `for (int j = 0; j < n; ++j) thresholds[j] = sfmt_genrand_real1(&sfmt);`. -/
def draw_thresholds (n : Nat) (sfmt : Sfmt) : List ℚ × Sfmt :=
  (List.range n).foldl
    (fun s j => (s.1.set j (sfmt_genrand_real1 s.2).1, (sfmt_genrand_real1 s.2).2))
    (List.replicate n 0, sfmt)

/-- The `for` loop of the LT branch over the out-edges of `u`, with the edge index
`j`. -/
def lt_fwd_edges (is_blocked : List Bool) (thresholds probs : List ℚ) :
    List Nat → Nat → TrialLT → TrialLT
  | [], _, st => st
  | v :: rest, j, st =>
    if st.activated.getD v false || is_blocked.getD v false then
      lt_fwd_edges is_blocked thresholds probs rest (j + 1) st
    else if (st.total_weights.set v (st.total_weights.getD v 0 + probs.getD j 0)).getD v 0
        ≥ thresholds.getD v 0 then
      lt_fwd_edges is_blocked thresholds probs rest (j + 1)
        { activated := st.activated.set v true
          total_weights := st.total_weights.set v (st.total_weights.getD v 0 + probs.getD j 0)
          lt_q := st.lt_q ++ [v] }
    else
      lt_fwd_edges is_blocked thresholds probs rest (j + 1)
        { st with
          total_weights :=
            st.total_weights.set v (st.total_weights.getD v 0 + probs.getD j 0) }

/-- The loop `while (!lt_q.empty())` of the LT branch. -/
def lt_fwd_loop (g : InfGraph) (is_blocked : List Bool) (thresholds : List ℚ) :
    Nat → TrialLT → TrialLT
  | 0, st => st
  | fuel + 1, st =>
    match st.lt_q with
    | [] => st
    | u :: rest =>
      lt_fwd_loop g is_blocked thresholds fuel
        (lt_fwd_edges is_blocked thresholds (g.probFwd u) (g.g.getD u []) 0
          { st with lt_q := rest })

/-- The `for` loop of the IC branch over the out-edges of `u`, with the edge index `j`.
The PRNG is drawn only for a neighbour that is neither activated nor blocked. -/
def ic_fwd_edges (is_blocked : List Bool) (probs : List ℚ) :
    List Nat → Nat → TrialIC → TrialIC
  | [], _, st => st
  | v :: rest, j, st =>
    if st.activated.getD v false || is_blocked.getD v false then
      ic_fwd_edges is_blocked probs rest (j + 1) st
    else if (sfmt_genrand_real1 st.sfmt).1 < probs.getD j 0 then
      ic_fwd_edges is_blocked probs rest (j + 1)
        { activated := st.activated.set v true
          q := st.q ++ [v]
          sfmt := (sfmt_genrand_real1 st.sfmt).2 }
    else
      ic_fwd_edges is_blocked probs rest (j + 1)
        { st with sfmt := (sfmt_genrand_real1 st.sfmt).2 }

/-- The loop `while (!q.empty())` of the IC branch. -/
def ic_fwd_loop (g : InfGraph) (is_blocked : List Bool) : Nat → TrialIC → TrialIC
  | 0, st => st
  | fuel + 1, st =>
    match st.q with
    | [] => st
    | u :: rest =>
      ic_fwd_loop g is_blocked fuel
        (ic_fwd_edges is_blocked (g.probFwd u) (g.g.getD u []) 0 { st with q := rest })

/-- The state in which the `while` loop of the LT branch of one cascade ends. Every
pass takes one queue entry and a node is queued at most once, so `n` passes are
enough. -/
def lt_trial (g : InfGraph) (is_blocked : List Bool) (initial_nodes : List Int)
    (sfmt : Sfmt) : TrialLT :=
  lt_fwd_loop g is_blocked (draw_thresholds g.n sfmt).1 g.n
    { activated := (seed_trial g.n is_blocked initial_nodes (List.replicate g.n false, [])).1
      total_weights := List.replicate g.n 0
      lt_q := (seed_trial g.n is_blocked initial_nodes (List.replicate g.n false, [])).2 }

/-- The state in which the `while` loop of the IC branch of one cascade ends; `n`
passes are enough here too. -/
def ic_trial (g : InfGraph) (is_blocked : List Bool) (initial_nodes : List Int)
    (sfmt : Sfmt) : TrialIC :=
  ic_fwd_loop g is_blocked g.n
    { activated := (seed_trial g.n is_blocked initial_nodes (List.replicate g.n false, [])).1
      q := (seed_trial g.n is_blocked initial_nodes (List.replicate g.n false, [])).2
      sfmt := sfmt }

/-- One pass of the main loop up to the counting: the flags `activated` at the end of
the cascade and the PRNG. The branch `else` serves every model other than LT. -/
def run_trial (g : InfGraph) (is_blocked : List Bool) (initial_nodes : List Int)
    (sfmt : Sfmt) : List Bool × Sfmt :=
  match g.influModel with
  | InfluModel.LT =>
    ((lt_trial g is_blocked initial_nodes sfmt).activated, (draw_thresholds g.n sfmt).2)
  | _ =>
    ((ic_trial g is_blocked initial_nodes sfmt).activated,
      (ic_trial g is_blocked initial_nodes sfmt).sfmt)

/-- The queue with which the `while` loop of a cascade ends. -/
def trial_queue_left (g : InfGraph) (is_blocked : List Bool) (initial_nodes : List Int)
    (sfmt : Sfmt) : List Nat :=
  match g.influModel with
  | InfluModel.LT => (lt_trial g is_blocked initial_nodes sfmt).lt_q
  | _ => (ic_trial g is_blocked initial_nodes sfmt).q

/-- The loop `for (int j = 0; j < n; ++j) if (activated[j]) influence_counts[j]++;`. -/
def count_trial (n : Nat) (activated : List Bool) (influence_counts : List ℚ) : List ℚ :=
  (List.range n).foldl
    (fun c j => if activated.getD j false then c.set j (c.getD j 0 + 1) else c)
    influence_counts

/-- The main loop `for (int i = 0; i < num_simulations; ++i)`; the first argument is the
number of cascades still to run and the state is the pair of `influence_counts` and the
PRNG. -/
def trials_loop (g : InfGraph) (is_blocked : List Bool) (initial_nodes : List Int) :
    Nat → List ℚ × Sfmt → List ℚ × Sfmt
  | 0, s => s
  | k + 1, s =>
    trials_loop g is_blocked initial_nodes k
      (count_trial g.n (run_trial g is_blocked initial_nodes s.2).1 s.1,
        (run_trial g is_blocked initial_nodes s.2).2)

/-- The loop `for (int j = 0; j < n; ++j) influence_counts[j] /= num_simulations;`. -/
def divide_counts (n : Nat) (num_simulations : Int) (influence_counts : List ℚ) : List ℚ :=
  (List.range n).foldl (fun c j => c.set j (c.getD j 0 / (num_simulations : ℚ)))
    influence_counts

/-- Method `calculate_final_probabilities`; `none` is one of the two failed assertions.
The result is the returned vector together with the object, whose PRNG has advanced. -/
def calculate_final_probabilities (g : InfGraph) (initial_nodes : List Int)
    (num_simulations : Int) (blocking_nodes : List Int) : Option (List ℚ × InfGraph) :=
  if g.active_probFwd.isNone then none
  else if num_simulations ≤ 0 then none
  else
    some
      (divide_counts g.n num_simulations
        (trials_loop g (flag_nodes g.n blocking_nodes) initial_nodes num_simulations.toNat
          (List.replicate g.n 0, g.sfmt)).1,
        { g with
          sfmt :=
            (trials_loop g (flag_nodes g.n blocking_nodes) initial_nodes
              num_simulations.toNat (List.replicate g.n 0, g.sfmt)).2 })

/-- The PRNG with which the cascade number `i` of a call starts. -/
def sfmt_before_trial (g : InfGraph) (initial_nodes blocking_nodes : List Int) (i : Nat) :
    Sfmt :=
  (fun s => (run_trial g (flag_nodes g.n blocking_nodes) initial_nodes s).2)^[i] g.sfmt

/-- The flags `activated` at the end of the cascade number `i` of a call. -/
def activated_in_trial (g : InfGraph) (initial_nodes blocking_nodes : List Int) (i : Nat) :
    List Bool :=
  (run_trial g (flag_nodes g.n blocking_nodes) initial_nodes
    (sfmt_before_trial g initial_nodes blocking_nodes i)).1

/-- The number of cascades among the first `T` of a call that activated the node
`j`. -/
def activation_count (g : InfGraph) (initial_nodes blocking_nodes : List Int) (T j : Nat) :
    Nat :=
  (List.range T).countP
    (fun i => (activated_in_trial g initial_nodes blocking_nodes i).getD j false)

end InfGraph

/-- How the flags `activated` change while a cascade runs: no flag is cleared, no
blocked node is flagged, and every new flag comes with one new queue entry. -/
structure Grows (is_blocked : List Bool) (a : List Bool) (q : List Nat) (a' : List Bool)
    (q' : List Nat) : Prop where
  len : a'.length = a.length
  keeps : ∀ v, a.getD v false = true → a'.getD v false = true
  unblocked : ∀ v, a'.getD v false = true →
    a.getD v false = true ∨ is_blocked.getD v false = false
  queue : q'.length + a.count true = q.length + a'.count true

/-- What the flags `activated` satisfy at the end of a cascade: one flag per node, none
for a blocked node, and one for every seed inside the graph that is not blocked. -/
structure TrialOK (n : Nat) (is_blocked : List Bool) (initial_nodes : List Int)
    (a : List Bool) : Prop where
  len : a.length = n
  blocked : ∀ v, is_blocked.getD v false = true → a.getD v false = false
  seeds : ∀ v, v < n → (v : Int) ∈ initial_nodes → is_blocked.getD v false = false →
    a.getD v false = true

/-! ## iheap.h: sequences of heap operations -/

/-- One call on a heap: `insert(key, value)` or `pop()`. -/
inductive HeapOp (V : Type) where
  | insert (key : Nat) (value : V)
  | pop

section HeapOps

variable {V : Type} [LinearOrder V]

/-- The values of the entries that the `pop` calls of a sequence of calls return, in
the order of the calls; the value of the entry that a `pop` returns is the one that
`top_value` shows right before. `none` stands for a failed assertion of `pop`. -/
def popped_values : List (HeapOp V) → iHeap V → Option (List V)
  | [], _ => some []
  | HeapOp.insert key value :: rest, h => popped_values rest (h.insert key value)
  | HeapOp.pop :: rest, h =>
    match h.top_value, h.pop with
    | some v, some (_, h') => (popped_values rest h').map (fun vs => v :: vs)
    | _, _ => none

/-- The test on a sequence of calls run from the heap `h`: the keys are in `[0, n)`,
no `pop` meets an empty heap, and every value inserted after a `pop` is not less than
the value that the latest `pop` before it returned; `last` is that value, if any. -/
def inserts_above (n : Nat) : Option V → List (HeapOp V) → iHeap V → Bool
  | _, [], _ => true
  | last, HeapOp.insert key value :: rest, h =>
    decide (key < n) &&
      (match last with
        | some m => decide (m ≤ value)
        | none => true) &&
      inserts_above n last rest (h.insert key value)
  | _, HeapOp.pop :: rest, h =>
    match h.top_value, h.pop with
    | some v, some (_, h') => inserts_above n (some v) rest h'
    | _, _ => false

end HeapOps

/-! ## influence_calculator.cpp: configuration of a query

Every query operation loads the graph and then runs the two statements
`g.setInfuModel(model_str_to_enum(propagation_model));` and
`g.setActiveProbabilityModel(probability_model);`. -/

/-- Function `model_str_to_enum`; `none` is the exception `std::invalid_argument`. -/
def model_str_to_enum (model_str : String) : Option InfluModel :=
  if model_str = "IC" then some InfluModel.IC
  else if model_str = "LT" then some InfluModel.LT
  else none

/-- The two statements that configure the loaded graph of a query; `none` is an
exception thrown by one of them. -/
def configure_query (g : InfGraph) (propagation_model probability_model : String) :
    Option InfGraph :=
  match model_str_to_enum propagation_model with
  | none => none
  | some model => (g.setInfuModel model).setActiveProbabilityModel probability_model

/-- The chain `0 → 1 → 2` with probability one half on each edge, under the model IC. -/
def chainGraph : InfGraph :=
  { n := 3, m := 2, g := [[1], [2], []],
    prob_fwd_wc := [[1], [1], []], prob_fwd_tr := [[1 / 10], [1 / 10], []],
    prob_fwd_co := [[1 / 10], [1 / 10], []],
    gT := [[], [0], [1]], inDeg := [0, 1, 1],
    prob_wc := [[], [1], [1]], prob_tr := [[], [1 / 10], [1 / 10]],
    prob_co := [[], [1 / 10], [1 / 10]],
    sfmt := { stream := fun _ => 0, drawn := 0 },
    influModel := InfluModel.IC,
    active_probT := some [[], [1 / 2], [1 / 2]],
    hyperG := [], hyperGT := [], result_node_set := [],
    active_probFwd := some [[1 / 2], [1 / 2], []] }

/-! ## Predicates on the packaged community result -/

/-- What the packaging guarantees about a community result: `node_count` is the number
of returned nodes, every returned node is the id of one of the `final_states`, and
`average_influence_prob` is the arithmetic mean of the probabilities that the
`final_states` record for the returned nodes (0 when no node is returned). -/
def WellPackaged (final_states : List NodeState) (r : CommunityResult) : Prop :=
  r.node_count = r.node_ids.length ∧
  (∀ v, v ∈ r.node_ids → v ∈ final_states.map NodeState.id) ∧
  ∃ probs : List ℚ,
    List.Forall₂ (fun v p => ∃ ns, ns ∈ final_states ∧ ns.id = v ∧ ns.probability = p)
      r.node_ids probs ∧
    r.average_influence_prob
      = if r.node_ids = [] then 0 else probs.sum / (r.node_ids.length : ℚ)

/-- The failure exits of a peeler, for its result `r`: the result is the empty community
when there is no state, when a parameter is invalid, when no query node is the id of a
state, and when no query node is among the candidates `cands` that the peeling leaves
on the search space. -/
def EmptyOnFailure (final_states : List NodeState) (g : InfGraph) (query_nodes : List Nat)
    (invalid : Prop) (cands : CommunitySearcher.SearchPrep → List Nat)
    (r : CommunityResult) : Prop :=
  (final_states = [] → r = CommunitySearcher.empty_result) ∧
  (invalid → r = CommunitySearcher.empty_result) ∧
  ((∀ q, q ∈ query_nodes → q ∉ final_states.map NodeState.id) →
    r = CommunitySearcher.empty_result) ∧
  (∀ prep, CommunitySearcher.prepare_search_space final_states g query_nodes = some prep →
    (∀ q, q ∈ query_nodes → q ∉ cands prep) → r = CommunitySearcher.empty_result)

/-! ## influence_calculator.cpp: final influence and blocker animation

The query operations take the identifier of a data set and load the graph from its
file; here the loaded graph object is the argument `dataset`. The number of cascades of
every estimate is 10000. -/

/-- The struct `ApiFinalInfluence`. -/
structure ApiFinalInfluence where
  result_id : String
  final_states : List NodeState
  total_influence : ℚ

/-- The loop of `get_final_influence` over the estimated probabilities: a node with a
probability above one millionth gets a state, `"active"` from the threshold one half
on; the state of the loop is the pair of `final_states` and `total_prob_sum`. -/
def final_states_of (final_probs : List ℚ) : List NodeState × ℚ :=
  (List.range final_probs.length).foldl
    (fun s i =>
      if final_probs.getD i 0 > 1 / 1000000 then
        (s.1 ++ [{ id := i
                   state := if final_probs.getD i 0 ≥ 1 / 2 then "active" else "inactive"
                   probability := final_probs.getD i 0 }],
          s.2 + final_probs.getD i 0)
      else s)
    ([], 0)

/-- Function `get_final_influence`; `none` is an exception or a failed assertion. -/
def get_final_influence (dataset : InfGraph) (propagation_model probability_model : String)
    (initial_nodes blocking_nodes : List Int) : Option ApiFinalInfluence :=
  match configure_query dataset propagation_model probability_model with
  | none => none
  | some g =>
    match g.calculate_final_probabilities initial_nodes 10000 blocking_nodes with
    | none => none
    | some (final_probs, _) =>
      some
        { result_id := "final_influence_result"
          final_states := (final_states_of final_probs).1
          total_influence := (final_states_of final_probs).2 }

/-- The loop of `get_blocking_animation` over the estimated probabilities of one step:
a node with a probability above one half gets the state `"active"` and enters the set
of active ids, any other node with a probability above one millionth gets the state
`"inactive"`; the state of the loop is the pair of `node_states` and the set. -/
def animation_states (probs : List ℚ) : List NodeState × List Nat :=
  (List.range probs.length).foldl
    (fun s i =>
      if probs.getD i 0 > 1 / 2 then
        (s.1 ++ [{ id := i, state := "active", probability := probs.getD i 0 }],
          CommunitySearcher.set_insert i s.2)
      else if probs.getD i 0 > 1 / 1000000 then
        (s.1 ++ [{ id := i, state := "inactive", probability := probs.getD i 0 }], s.2)
      else s)
    ([], [])

/-- The loop of `get_blocking_animation` over `previously_active_ids`: a node that is
not active now and was never recorded as recovered is appended to
`newly_recovered_nodes` and recorded; the state of the loop is the pair of
`newly_recovered_nodes` and `all_recovered_ids`. -/
def recovered_scan (current_active_ids : List Nat) :
    List Nat → List Nat × List Nat → List Nat × List Nat
  | [], s => s
  | node_id :: rest, s =>
    if ¬ node_id ∈ current_active_ids ∧ ¬ node_id ∈ s.2 then
      recovered_scan current_active_ids rest
        (s.1 ++ [node_id], CommunitySearcher.set_insert node_id s.2)
    else
      recovered_scan current_active_ids rest s

/-- The variables of `get_blocking_animation` that live across the passes of its main
loop: the graph object with its PRNG, the two sets and the steps recorded so far. -/
structure BlockAnim where
  g : InfGraph
  previously_active_ids : List Nat
  all_recovered_ids : List Nat
  simulation_steps : List SimulationStep

/-- One pass of the main loop of `get_blocking_animation`, with the loop counter `i`;
`none` is a failed assertion of the estimate. -/
def animation_step (initial_nodes blocking_nodes : List Int) (s : BlockAnim) (i : Nat) :
    Option BlockAnim :=
  match s.g.calculate_final_probabilities initial_nodes 10000 (blocking_nodes.take (i + 1)) with
  | none => none
  | some (current_probs, g') =>
    some
      { g := g'
        previously_active_ids := (animation_states current_probs).2
        all_recovered_ids :=
          (recovered_scan (animation_states current_probs).2 s.previously_active_ids
            ([], s.all_recovered_ids)).2
        simulation_steps :=
          s.simulation_steps ++
            [{ step := i + 1
               newly_activated_nodes := []
               newly_recovered_nodes :=
                 (recovered_scan (animation_states current_probs).2 s.previously_active_ids
                   ([], s.all_recovered_ids)).1
               node_states := (animation_states current_probs).1 }] }

/-- The main loop `for (size_t i = 0; i < blocking_nodes.size(); ++i)` of
`get_blocking_animation`, over the list of the values of `i` still to come. -/
def animation_loop (initial_nodes blocking_nodes : List Int) :
    List Nat → BlockAnim → Option BlockAnim
  | [], s => some s
  | i :: rest, s =>
    match animation_step initial_nodes blocking_nodes s i with
    | none => none
    | some s' => animation_loop initial_nodes blocking_nodes rest s'

/-- Function `get_blocking_animation`; `none` is an exception or a failed assertion. -/
def get_blocking_animation (dataset : InfGraph) (propagation_model probability_model : String)
    (initial_nodes blocking_nodes : List Int) : Option ApiSimulationResult :=
  match configure_query dataset propagation_model probability_model with
  | none => none
  | some g =>
    match g.calculate_final_probabilities initial_nodes 10000 [] with
    | none => none
    | some (probs_before, g0) =>
      match animation_loop initial_nodes blocking_nodes (List.range blocking_nodes.length)
          { g := g0
            previously_active_ids := (animation_states probs_before).2
            all_recovered_ids := []
            simulation_steps :=
              [{ step := 0
                 newly_activated_nodes := []
                 newly_recovered_nodes := []
                 node_states := (animation_states probs_before).1 }] } with
      | none => none
      | some s =>
        some
          { total_steps := s.simulation_steps.length - 1
            simulation_steps := s.simulation_steps }

/-- The node `x` is reported with the state `"active"` in the step `st`. -/
def ActiveIn (st : SimulationStep) (x : Nat) : Prop :=
  ∃ ns, ns ∈ st.node_states ∧ ns.id = x ∧ ns.state = "active"

/-- What the recovery lists of two consecutive steps satisfy: a node recovered in the
later step is active in the earlier one and not in the later one. -/
def RecoveredBetween (a b : SimulationStep) : Prop :=
  ∀ x, x ∈ b.newly_recovered_nodes → ActiveIn a x ∧ ¬ ActiveIn b x

/-- Loop invariant of the main loop of `get_blocking_animation`. -/
structure AnimInv (s : BlockAnim) : Prop where
  bound : s.g.active_probFwd ≠ none
  last_active : ∀ st, s.simulation_steps.getLast? = some st →
    ∀ x, x ∈ s.previously_active_ids ↔ ActiveIn st x
  recorded : ∀ st, st ∈ s.simulation_steps → ∀ x, x ∈ st.newly_recovered_nodes →
    x ∈ s.all_recovered_ids
  disjoint : (s.simulation_steps.map SimulationStep.newly_recovered_nodes).Pairwise
    List.Disjoint
  nodup : ∀ st, st ∈ s.simulation_steps → st.newly_recovered_nodes.Nodup
  consecutive : s.simulation_steps.Chain' RecoveredBetween

/-- The two-node snapshot with the edge `0 → 1` as the loader leaves it, with a PRNG
whose outputs alternate between 0 and the largest 32-bit value. -/
def alternatingGraph : InfGraph :=
  { demoInfGraph with
    sfmt := { stream := fun k => if k % 2 = 0 then 0 else 4294967295, drawn := 0 }
    active_probT := none
    active_probFwd := none }

/-! ## infgraph.h: the cascades that record parents

`run_forward_simulation_with_parent_tracking` and `run_forward_simulation_with_tracking`
run one forward cascade and record, for every activated node, the node that activated
it (and, in the second method, the probability of the edge). A `std::map<int, V>` is
the increasing list of its keys with a function for the values; the keys are node ids,
and where the source passes a stored parent other than `-1` as a key the model goes
through `Int.toNat`. -/

/-- The struct `Edge`. -/
structure Edge where
  source : Int
  target : Int
deriving DecidableEq

/-- The type `std::map<int, V>`; `val` holds the value that `operator[]` has written
for a key and is not read for other arguments. -/
structure OrdMap (V : Type) where
  keys : List Nat
  val : Nat → V

namespace OrdMap

variable {V : Type}

/-- The empty map; `d` is the value that `val` shows where nothing was written. -/
def empty (d : V) : OrdMap V := { keys := [], val := fun _ => d }

/-- The test `m.count(k)`. -/
def count (m : OrdMap V) (k : Nat) : Bool := m.keys.contains k

/-- The assignment `m[k] = x`. -/
def assign (m : OrdMap V) (k : Nat) (x : V) : OrdMap V :=
  { keys := CommunitySearcher.set_insert k m.keys, val := Function.update m.val k x }

end OrdMap

/-- The local variables of one recorded cascade together with the PRNG. In the LT
branch `q` is the copy `lt_q` and the PRNG is drawn before the loop only; in the other
branch `total_weights` does not exist and stays as it is. -/
structure Track (V : Type) where
  activated : List Bool
  q : List Nat
  parent_map : OrdMap V
  sfmt : Sfmt
  total_weights : List ℚ

namespace InfGraph

variable {V : Type}

/-- The `for` loop over the out-edges of `u` in the branch for IC and WC of the two
recording cascades, with the edge index `j`; `entry prob` is the value written for a
newly activated node: `u` in one method, `{u, prob}` in the other. -/
def ic_track_edges (is_blocked : List Bool) (probs : List ℚ) (entry : ℚ → V) :
    List Nat → Nat → Track V → Track V
  | [], _, st => st
  | v :: rest, j, st =>
    if st.activated.getD v false || is_blocked.getD v false then
      ic_track_edges is_blocked probs entry rest (j + 1) st
    else if (sfmt_genrand_real1 st.sfmt).1 < probs.getD j 0 then
      ic_track_edges is_blocked probs entry rest (j + 1)
        { st with
          activated := st.activated.set v true
          q := st.q ++ [v]
          parent_map := st.parent_map.assign v (entry (probs.getD j 0))
          sfmt := (sfmt_genrand_real1 st.sfmt).2 }
    else
      ic_track_edges is_blocked probs entry rest (j + 1)
        { st with sfmt := (sfmt_genrand_real1 st.sfmt).2 }

/-- The loop `while (!q.empty())` of the branch for IC and WC; `entry u prob` is the
value written for a node that `u` activates. -/
def ic_track_loop (g : InfGraph) (is_blocked : List Bool) (entry : Nat → ℚ → V) :
    Nat → Track V → Track V
  | 0, st => st
  | fuel + 1, st =>
    match st.q with
    | [] => st
    | u :: rest =>
      ic_track_loop g is_blocked entry fuel
        (ic_track_edges is_blocked (g.probFwd u) (entry u) (g.g.getD u []) 0
          { st with q := rest })

/-- The `for` loop over the out-edges of `u` in the LT branch of the two recording
cascades, with the edge index `j`. The value is written only when the map has no entry
for the node yet. -/
def lt_track_edges (is_blocked : List Bool) (thresholds probs : List ℚ) (entry : ℚ → V) :
    List Nat → Nat → Track V → Track V
  | [], _, st => st
  | v :: rest, j, st =>
    if st.activated.getD v false || is_blocked.getD v false then
      lt_track_edges is_blocked thresholds probs entry rest (j + 1) st
    else if (st.total_weights.set v (st.total_weights.getD v 0 + probs.getD j 0)).getD v 0
        ≥ thresholds.getD v 0 then
      lt_track_edges is_blocked thresholds probs entry rest (j + 1)
        { st with
          activated := st.activated.set v true
          q := st.q ++ [v]
          parent_map :=
            if st.parent_map.count v then st.parent_map
            else st.parent_map.assign v (entry (probs.getD j 0))
          total_weights :=
            st.total_weights.set v (st.total_weights.getD v 0 + probs.getD j 0) }
    else
      lt_track_edges is_blocked thresholds probs entry rest (j + 1)
        { st with
          total_weights :=
            st.total_weights.set v (st.total_weights.getD v 0 + probs.getD j 0) }

/-- The loop `while (!lt_q.empty())` of the LT branch. -/
def lt_track_loop (g : InfGraph) (is_blocked : List Bool) (thresholds : List ℚ)
    (entry : Nat → ℚ → V) : Nat → Track V → Track V
  | 0, st => st
  | fuel + 1, st =>
    match st.q with
    | [] => st
    | u :: rest =>
      lt_track_loop g is_blocked thresholds entry fuel
        (lt_track_edges is_blocked thresholds (g.probFwd u) (entry u) (g.g.getD u []) 0
          { st with q := rest })

/-- The two branches of a recording cascade, from the state `st` in which the seeds are
queued; `fuel` bounds the passes of the `while` loop. -/
def track_cascade (g : InfGraph) (is_blocked : List Bool) (entry : Nat → ℚ → V)
    (fuel : Nat) (st : Track V) : Track V :=
  match g.influModel with
  | InfluModel.LT =>
    lt_track_loop g is_blocked (draw_thresholds g.n st.sfmt).1 entry fuel
      { st with
        sfmt := (draw_thresholds g.n st.sfmt).2
        total_weights := List.replicate g.n 0 }
  | _ => ic_track_loop g is_blocked entry fuel st

/-- The loop over `initial_nodes` of `run_forward_simulation_with_parent_tracking`: a
seed inside the graph that is neither blocked nor activated yet is activated, queued
and recorded with the parent `-1`. -/
def parent_seeds (n : Nat) (is_blocked : List Bool) : List Int → Track Int → Track Int
  | [], st => st
  | seed :: rest, st =>
    if 0 ≤ seed ∧ seed < (n : Int) ∧ is_blocked.getD seed.toNat false = false ∧
        st.activated.getD seed.toNat false = false then
      parent_seeds n is_blocked rest
        { st with
          activated := st.activated.set seed.toNat true
          q := st.q ++ [seed.toNat]
          parent_map := st.parent_map.assign seed.toNat (-1) }
    else
      parent_seeds n is_blocked rest st

/-- The state in which the cascade of `run_forward_simulation_with_parent_tracking`
ends. Every pass of the `while` loop takes one queue entry and a node is queued at most
once, so `n` passes are enough. -/
def parent_trial (g : InfGraph) (initial_nodes blocking_nodes : List Int) : Track Int :=
  track_cascade g (flag_nodes g.n blocking_nodes) (fun u _ => (u : Int)) g.n
    (parent_seeds g.n (flag_nodes g.n blocking_nodes) initial_nodes
      { activated := List.replicate g.n false
        q := []
        parent_map := OrdMap.empty (-1)
        sfmt := g.sfmt
        total_weights := [] })

/-- Method `run_forward_simulation_with_parent_tracking`; `none` is the failed
assertion on `active_probFwd`. The result is the returned map together with the object,
whose PRNG has advanced. -/
def run_forward_simulation_with_parent_tracking (g : InfGraph)
    (initial_nodes blocking_nodes : List Int) : Option (OrdMap Int × InfGraph) :=
  if initial_nodes.isEmpty then some (OrdMap.empty (-1), g)
  else if g.active_probFwd.isNone then none
  else
    some ((g.parent_trial initial_nodes blocking_nodes).parent_map,
      { g with sfmt := (g.parent_trial initial_nodes blocking_nodes).sfmt })

/-- The loop over `initial_nodes` of `run_forward_simulation_with_tracking`: a seed that
is not blocked is queued, activated and recorded with the parent `-1` and the
probability 1. -/
def witness_seeds (is_blocked : List Bool) :
    List Int → Track (Int × ℚ) → Track (Int × ℚ)
  | [], st => st
  | seed :: rest, st =>
    if is_blocked.getD seed.toNat false = false then
      witness_seeds is_blocked rest
        { st with
          q := st.q ++ [seed.toNat]
          activated := st.activated.set seed.toNat true
          parent_map := st.parent_map.assign seed.toNat (-1, 1) }
    else
      witness_seeds is_blocked rest st

/-- The state in which the cascade of `run_forward_simulation_with_tracking` ends. A
seed is queued as often as it is listed, so the `while` loop makes at most as many
passes as there are seeds and nodes together. -/
def witness_trial (g : InfGraph) (initial_nodes blocking_nodes : List Int) :
    Track (Int × ℚ) :=
  track_cascade g
    (blocking_nodes.foldl (fun flags node => flags.set node.toNat true)
      (List.replicate g.n false))
    (fun u prob => ((u : Int), prob)) (initial_nodes.length + g.n)
    (witness_seeds
      (blocking_nodes.foldl (fun flags node => flags.set node.toNat true)
        (List.replicate g.n false))
      initial_nodes
      { activated := List.replicate g.n false
        q := []
        parent_map := OrdMap.empty (-1, 1)
        sfmt := g.sfmt
        total_weights := [] })

/-- Method `run_forward_simulation_with_tracking`. The method indexes its arrays with
the seeds and the blockers and follows `active_probFwd` without a check; `none` stands
for a seed or a blocker outside `[0, n)` and for the null pointer, where the source has
no defined behaviour. -/
def run_forward_simulation_with_tracking (g : InfGraph)
    (initial_nodes blocking_nodes : List Int) : Option (OrdMap (Int × ℚ) × InfGraph) :=
  if initial_nodes.isEmpty then some (OrdMap.empty (-1, 1), g)
  else if (initial_nodes ++ blocking_nodes).all (fun x => decide (0 ≤ x ∧ x < (g.n : Int)))
      = false then none
  else if g.active_probFwd.isNone then none
  else
    some ((g.witness_trial initial_nodes blocking_nodes).parent_map,
      { g with sfmt := (g.witness_trial initial_nodes blocking_nodes).sfmt })

/-- Method `find_main_propagation_paths`. The order in which `std::sort` leaves entries
that its comparison does not separate is not fixed by the language; `sort` is the
sorting function of the library. -/
def find_main_propagation_paths (sort : List (ℚ × Edge) → List (ℚ × Edge)) (g : InfGraph)
    (seed_nodes : List Int) : Option (List Edge × InfGraph) :=
  if seed_nodes.isEmpty then some ([], g)
  else
    match g.run_forward_simulation_with_tracking seed_nodes [] with
    | none => none
    | some (parent_prob_map, g') =>
      some
        (((sort
            (parent_prob_map.keys.filterMap (fun child =>
              if (parent_prob_map.val child).1 ≠ -1 then
                some ((parent_prob_map.val child).2,
                  ({ source := (parent_prob_map.val child).1, target := (child : Int) } : Edge))
              else none))).take 50).map Prod.snd,
          g')

/-- The loop of `find_cut_off_edges` that thresholds the estimate:
`if (after_probs[j] > 0.5) is_activated_after_blocking[j] = true;`. -/
def mark_activated (n : Nat) (after_probs : List ℚ) : List Bool :=
  (List.range after_probs.length).foldl
    (fun flags j => if after_probs.getD j 0 > 1 / 2 then flags.set j true else flags)
    (List.replicate n false)

/-- Method `find_cut_off_edges`; `none` is a failed assertion of one of the two
simulations. -/
def find_cut_off_edges (g : InfGraph) (negative_seeds blocking_nodes : List Int) :
    Option (List Edge × InfGraph) :=
  if negative_seeds.isEmpty then some ([], g)
  else
    match g.run_forward_simulation_with_parent_tracking negative_seeds [] with
    | none => none
    | some (original_parent_map, g1) =>
      if original_parent_map.keys.isEmpty then some ([], g1)
      else
        match g1.calculate_final_probabilities negative_seeds 1 blocking_nodes with
        | none => none
        | some (after_probs, g2) =>
          some
            (original_parent_map.keys.filterMap (fun child =>
              if original_parent_map.val child = -1 then none
              else if (mark_activated g.n after_probs).getD child false = false then
                some ({ source := original_parent_map.val child, target := (child : Int) } : Edge)
              else none),
              g2)

end InfGraph

/-! ## Predicates on the recorded cascades -/

section TrackingPreds

variable {V : Type}

/-- The depth of a recorded node in the forest that the parent map describes: a node
recorded with the value `root` has depth 0, and a node recorded with the value
`entry u p` lies one level below `u`. -/
inductive Depth (root : V) (entry : Nat → ℚ → V) (pm : OrdMap V) : Nat → Nat → Prop
  | base (v : Nat) : v ∈ pm.keys → pm.val v = root → Depth root entry pm v 0
  | step (v u : Nat) (p : ℚ) (d : Nat) : v ∈ pm.keys → pm.val v = entry u p →
      Depth root entry pm u d → Depth root entry pm v (d + 1)

/-- Invariant of a recorded cascade over the graph `g` with the accepted seeds `S`: the
recorded nodes are the activated ones, the queue holds recorded nodes, every accepted
seed is recorded, and every recorded node is either an accepted seed recorded with the
value `root`, or a node that is no accepted seed, recorded with the value `entry u p`
for a recorded node `u` and the probability `p` of an edge from `u` to the node; every
recorded node has a depth below the number of recorded nodes. -/
structure TInv (g : InfGraph) (S : Nat → Prop) (root : V) (entry : Nat → ℚ → V)
    (a : List Bool) (q : List Nat) (pm : OrdMap V) : Prop where
  len : a.length = g.n
  keys_iff : ∀ v, v ∈ pm.keys ↔ a.getD v false = true
  sorted : pm.keys.Pairwise (fun x y => x < y)
  q_keys : ∀ u, u ∈ q → u ∈ pm.keys
  seeds_in : ∀ v, S v → v ∈ pm.keys
  recorded : ∀ v, v ∈ pm.keys →
    (pm.val v = root ∧ S v) ∨
      ∃ u j, pm.val v = entry u ((g.probFwd u).getD j 0) ∧ u ∈ pm.keys ∧
        (g.g.getD u [])[j]? = some v ∧ ¬ S v
  depth : ∀ v, v ∈ pm.keys → ∃ d, Depth root entry pm v d ∧ d < pm.keys.length

/-- The seeds that `run_forward_simulation_with_parent_tracking` accepts: inside the
graph and not blocked. -/
def AcceptedSeed (n : Nat) (is_blocked : List Bool) (initial_nodes : List Int) (v : Nat) :
    Prop :=
  (v : Int) ∈ initial_nodes ∧ v < n ∧ is_blocked.getD v false = false

end TrackingPreds

/-- A sorting function with the contract of `std::sort` for the comparison
`a.first > b.first`: here insertion sort by descending probability. -/
def sort_desc (l : List (ℚ × Edge)) : List (ℚ × Edge) :=
  l.insertionSort (fun a b => b.1 ≤ a.1)

/-- The contract of `std::sort` with the comparison `a.first > b.first`: the result is
a rearrangement of the argument in which no later entry compares before an earlier
one. -/
def SortsDescending (sort : List (ℚ × Edge) → List (ℚ × Edge)) : Prop :=
  ∀ l, (sort l).Perm l ∧ (sort l).Pairwise (fun a b => ¬ (b.1 > a.1))

/-- The entries that `find_main_propagation_paths` sorts: one for every recorded node
whose parent is not `-1`, in the order of the keys. -/
def weighted_edges (pm : OrdMap (Int × ℚ)) : List (ℚ × Edge) :=
  pm.keys.filterMap (fun child =>
    if (pm.val child).1 ≠ -1 then
      some ((pm.val child).2, ({ source := (pm.val child).1, target := (child : Int) } : Edge))
    else none)

/-! ## influence_calculator.cpp: the critical-path query

`find_critical_paths` runs one recorded cascade, computes the depth of every recorded
node and walks from a deepest node back to its seed. The recursion of
`get_node_depth_for_critical_path` and the `while` loop of the walk follow the recorded
parents, so the model gives them a bound on the number of steps; `none` stands for a
run that does not come to an end within the bound, and for the exceptions of the
configuration and of the cascade. The field `result_id` is copied from the request and
is left out. -/

/-- The struct `CriticalPath`; the field `score` is a `double`. -/
structure CriticalPath where
  nodes : List Int
  score : ℚ
  type : String

/-- The struct `ApiCriticalPathResult`. -/
structure ApiCriticalPathResult where
  critical_paths : List CriticalPath
  message : String

/-- Function `get_node_depth_for_critical_path`; the result is the returned depth
together with `memo`, which the function writes. -/
def get_node_depth_for_critical_path (parent_map : OrdMap Int) :
    Nat → Nat → OrdMap Int → Option (Int × OrdMap Int)
  | 0, _, _ => none
  | fuel + 1, node, memo =>
    if memo.count node then some (memo.val node, memo)
    else if !parent_map.count node || parent_map.val node == -1 then
      some (0, memo.assign node 0)
    else
      match get_node_depth_for_critical_path parent_map fuel (parent_map.val node).toNat memo with
      | none => none
      | some (depth, memo') => some (1 + depth, memo'.assign node (1 + depth))

/-- The variables `depth_memo`, `max_depth` and `deepest_node` of `find_critical_paths`. -/
structure DeepScan where
  depth_memo : OrdMap Int
  max_depth : Int
  deepest_node : Int

/-- The loop `for (auto const& [child, parent] : parent_map)` of `find_critical_paths`
over the remaining keys. -/
def deepest_scan (parent_map : OrdMap Int) (fuel : Nat) : List Nat → DeepScan → Option DeepScan
  | [], s => some s
  | child :: rest, s =>
    match get_node_depth_for_critical_path parent_map fuel child s.depth_memo with
    | none => none
    | some (depth, memo) =>
      if depth > s.max_depth then
        deepest_scan parent_map fuel rest
          { depth_memo := memo, max_depth := depth, deepest_node := (child : Int) }
      else
        deepest_scan parent_map fuel rest { s with depth_memo := memo }

/-- The loop `while (current_node != -1)` of `find_critical_paths`. -/
def backtrack (parent_map : OrdMap Int) : Nat → Int → List Int → Option (List Int)
  | 0, _, _ => none
  | fuel + 1, current_node, node_sequence =>
    if current_node ≠ -1 then
      if !parent_map.count current_node.toNat then some (node_sequence ++ [current_node])
      else
        backtrack parent_map fuel (parent_map.val current_node.toNat)
          (node_sequence ++ [current_node])
    else some node_sequence

/-- Function `find_critical_paths`, with the loaded graph in place of the dataset id. -/
def find_critical_paths (dataset : InfGraph) (propagation_model probability_model : String)
    (initial_nodes : List Int) : Option ApiCriticalPathResult :=
  match configure_query dataset propagation_model probability_model with
  | none => none
  | some g =>
    match g.run_forward_simulation_with_parent_tracking initial_nodes [] with
    | none => none
    | some (parent_map, _) =>
      if parent_map.keys.isEmpty then
        some { critical_paths := [], message := "模拟未产生任何激活节点，无法找到路径。" }
      else
        match deepest_scan parent_map (parent_map.keys.length + 1) parent_map.keys
            { depth_memo := OrdMap.empty 0, max_depth := -1, deepest_node := -1 } with
        | none => none
        | some s =>
          if s.deepest_node = -1 then
            some { critical_paths := [], message := "未能确定最深路径。" }
          else
            match backtrack parent_map (parent_map.keys.length + 1) s.deepest_node [] with
            | none => none
            | some node_sequence =>
              some
                { critical_paths :=
                    [{ type := "deepest", score := (s.max_depth : ℚ),
                       nodes := node_sequence.reverse }],
                  message := "Successfully found a deepest propagation path with length "
                    ++ toString s.max_depth ++ "." }

/-- The depth of a recorded node in the forest of `run_forward_simulation_with_parent_tracking`,
where a seed is recorded with the parent `-1`. -/
def TreeDepth (pm : OrdMap Int) (v d : Nat) : Prop :=
  Depth (-1) (fun u _ => (u : Int)) pm v d

/-- The memo of `get_node_depth_for_critical_path` holds depths of the forest. -/
def MemoOK (pm memo : OrdMap Int) : Prop :=
  ∀ k, k ∈ memo.keys → ∃ d : Nat, TreeDepth pm k d ∧ memo.val k = (d : Int)

/-- Invariant of the loop that looks for a deepest node, after the keys `done`: no key
seen so far lies deeper than `max_depth`, and unless no key has been seen
`deepest_node` is a key seen so far of the depth `max_depth`. -/
structure Best (pm : OrdMap Int) (done : List Nat) (s : DeepScan) : Prop where
  memo : MemoOK pm s.depth_memo
  bound : ∀ w, w ∈ done → ∃ dw : Nat, TreeDepth pm w dw ∧ (dw : Int) ≤ s.max_depth
  best : (done = [] ∧ s.max_depth = -1 ∧ s.deepest_node = -1) ∨
    ∃ v d : Nat, v ∈ done ∧ s.deepest_node = (v : Int) ∧ s.max_depth = (d : Int) ∧
      TreeDepth pm v d

/-! ## Predicates on one pass of the greedy selection -/

/-- The number of RR sets that contain the node `w` and are not yet covered. -/
def open_count (hyperGT : List (List Nat)) (covered : List Bool) (w : Nat) : Nat :=
  ((List.range hyperGT.length).filter
    (fun i => covered.getD i false = false && (hyperGT.getD i []).contains w)).length

/-! ## The forest of a recorded cascade -/

section ForestPreds

variable {V : Type}

/-- What a recorded map `pm` of a cascade over `g` with the given seeds and blockers
is: a forest whose roots are the seeds inside the graph that are not blocked. `root` is
the value recorded for a seed and `entry u p` the one recorded for a node activated by
`u` over an edge of probability `p`. -/
structure Forest (g : InfGraph) (seeds blockers : List Int) (root : V)
    (entry : Nat → ℚ → V) (pm : OrdMap V) : Prop where
  seed_root : ∀ s : Nat, (s : Int) ∈ seeds → s < g.n → (s : Int) ∉ blockers →
    pm.count s = true ∧ pm.val s = root
  unblocked : ∀ v, pm.count v = true → v < g.n ∧ (v : Int) ∉ blockers
  parent_edge : ∀ v, pm.count v = true →
    (pm.val v = root ∧ (v : Int) ∈ seeds) ∨
      ((v : Int) ∉ seeds ∧ ∃ u j, pm.val v = entry u ((g.probFwd u).getD j 0) ∧
        pm.count u = true ∧ (g.g.getD u [])[j]? = some v)
  reaches_seed : ∀ v, pm.count v = true →
    ∃ d, Depth root entry pm v d ∧ d < pm.keys.length

end ForestPreds

/-! ## imm.h: the helper class `Math` and phase 1 of IMM

The arithmetic on `double` is arithmetic in an ordered field `R`; the functions of
`<cmath>` are handed in, so that the definitions can be run over the rationals with any
tabulated functions and read over the real numbers with the real logarithm and square
root. `pow(2.0, x)` is the power `2 ^ x`. -/

/-- The functions of `<cmath>` that the IMM driver calls, and the conversion of a
`double` to `int64_t`. -/
structure Libm (R : Type) where
  log : R → R
  sqrt : R → R
  to_int64 : R → Int

/-- The struct `Argument`. -/
structure Argument (R : Type) where
  k : Int
  epsilon : R
  dataset : String
  model : String

namespace Math

variable {R : Type} [LinearOrderedField R]

/-- Function `Math::log2`. -/
def log2 (log : R → R) (n : Int) : R :=
  log (n : R) / log 2

/-- Function `Math::logcnk`; the loop `for (int i = 1; i <= k; i++)` runs over
`i = j + 1` for `j` in `[0, k)`. -/
def logcnk (log : R → R) (n k : Int) : R :=
  if k < 0 ∨ k > n then -1
  else if k = 0 ∨ k = n then 0
  else
    (List.range (if k > n.tdiv 2 then n - k else k).toNat).foldl
      (fun (res : R) (j : Nat) =>
        res + (log ((n - ((j : Int) + 1) + 1 : Int) : R) - log ((((j : Int) + 1 : Int)) : R)))
      0

end Math

/-- The ways in which a bounded run of `Imm::step1` ends: the function has returned
`OPT_prime`; an assertion or a library call has failed; or the loop is still running
and about to start the pass with counter `x`. -/
inductive Step1 (R : Type) where
  | returned (OPT_prime : R) (g : InfGraph)
  | failed
  | running (x : Nat) (g : InfGraph)

namespace Imm

variable {R : Type} [LinearOrderedField R]

/-- The number `ci` of RR sets that pass `x` of `Imm::step1` asks for. -/
def sample_count (lib : Libm R) (arg : Argument R) (n : Nat) (x : Nat) : Int :=
  lib.to_int64
    ((2 + 2 / 3 * (arg.epsilon * lib.sqrt 2))
        * (lib.log (((n : Int)) : R) + Math.logcnk lib.log (n : Int) arg.k
            + lib.log (Math.log2 lib.log (n : Int)))
        * 2 ^ x
      / (arg.epsilon * lib.sqrt 2 * (arg.epsilon * lib.sqrt 2)))

/-- The first three statements of the loop body of `Imm::step1` for the counter `x`:
sampling, greedy selection and the value `ept`. The result is the object after the
calls and `ept`; `none` is a failure of `build_hyper_graph_r`. -/
def step1_pass (lib : Libm R) (arg : Argument R) (x : Nat) (g : InfGraph) :
    Option (InfGraph × R) :=
  match g.build_hyper_graph_r (sample_count lib arg g.n x) with
  | none => none
  | some g1 =>
    some (g1.build_max_coverage_set arg.k [],
      (((g1.build_max_coverage_set arg.k []).InfluenceHyperGraph : ℚ) : R)
        / (((g1.build_max_coverage_set arg.k []).n : Int) : R))

/-- The loop `for (int x = 1; ; x++)` of `Imm::step1` from the counter `x`, for at most
`fuel` passes. -/
def step1_loop (lib : Libm R) (arg : Argument R) : Nat → Nat → InfGraph → Step1 R
  | 0, x, g => Step1.running x g
  | fuel + 1, x, g =>
    match step1_pass lib arg x g with
    | none => Step1.failed
    | some (g', ept) =>
      if ept > 1 / 2 ^ x then
        Step1.returned (ept * (((g'.n : Int)) : R) / (1 + arg.epsilon * lib.sqrt 2)) g'
      else step1_loop lib arg fuel (x + 1) g'

/-- Function `Imm::step1`, for at most `fuel` passes of its loop. -/
def step1 (lib : Libm R) (arg : Argument R) (fuel : Nat) (g : InfGraph) : Step1 R :=
  step1_loop lib arg fuel 1 g

/-- The object and the value `ept` after `j` passes of the loop of `Imm::step1` started
on `g` with the counter `x`, whatever the tests of the passes before; `none` if one of
the passes has failed. For `j = 0` this is the object before the first pass. -/
def step1_trace (lib : Libm R) (arg : Argument R) (x : Nat) (g : InfGraph) :
    Nat → Option (InfGraph × R)
  | 0 => some (g, 0)
  | j + 1 => (step1_trace lib arg x g j).bind (fun r => step1_pass lib arg (x + j) r.1)

end Imm

/-- The two-node snapshot after the first pass of the loop of `Imm::step1` for the
budget 1 and 13 RR sets. -/
def demoPhase1 : InfGraph :=
  ((List.range 13).foldl InfGraph.build_r_step demoInfGraph.init_hyper_graph).build_max_coverage_set
    1 []

/-! ## Snapshots for the probability iterator -/

/-- The chain `0 → 1 → 2` under the model IC with the trivalency table bound, in which
both edges have probability one tenth. -/
def chainGraphTR : InfGraph :=
  { chainGraph with
    active_probT := some chainGraph.prob_tr
    active_probFwd := some chainGraph.prob_fwd_tr }

/-! ## The scenario of the two joined triangles -/

/-- The ordered pairs of nodes joined in the two triangles `(u, v, w)` and `(v, w, x)`,
which share the edge `(v, w)`. -/
def two_triangles_pairs (u v w x : Nat) : List (Nat × Nat) :=
  [(u, v), (v, u), (u, w), (w, u), (v, w), (w, v), (v, x), (x, v), (w, x), (x, w)]

/-- The snapshot `g` consists of the two triangles `(u, v, w)` and `(v, w, x)`: the
neighbours of a node, over its out-edges and its in-edges together, are its neighbours
in the two triangles, whatever the direction in which each of the five edges is
stored. -/
def TwoTriangles (g : InfGraph) (u v w x : Nat) : Prop :=
  ∀ a b, (b ∈ g.g.getD a [] ∨ b ∈ g.gT.getD a []) ↔ (a, b) ∈ two_triangles_pairs u v w x

/-- Invariant of the triangle enumeration of the k-truss: no support is negative and
every recorded edge has a support of at least one. -/
def SupportsPos (t : CommunitySearcher.Truss) : Prop :=
  (∀ e, 0 ≤ t.edge_supports e) ∧ ∀ e, e ∈ t.current_edges → 1 ≤ t.edge_supports e

/-- A four-node snapshot as loaded from the edge lines `0 1`, `1 2`, `2 0`, `1 3`,
`3 2`: the triangles `(0, 1, 2)` and `(1, 2, 3)`. -/
def twoTriGraph : InfGraph :=
  { n := 4, m := 5, g := [[1], [2, 3], [0], [2]],
    prob_fwd_wc := [[1], [1 / 2, 1], [1], [1 / 2]],
    prob_fwd_tr := [[1 / 10], [1 / 10, 1 / 10], [1 / 10], [1 / 10]],
    prob_fwd_co := [[1 / 10], [1 / 10, 1 / 10], [1 / 10], [1 / 10]],
    gT := [[2], [0], [1, 3], [1]], inDeg := [1, 1, 2, 1],
    prob_wc := [[1], [1], [1 / 2, 1 / 2], [1]],
    prob_tr := [[1 / 10], [1 / 10], [1 / 10, 1 / 10], [1 / 10]],
    prob_co := [[1 / 10], [1 / 10], [1 / 10, 1 / 10], [1 / 10]],
    sfmt := { stream := fun _ => 0, drawn := 0 },
    influModel := InfluModel.IC,
    active_probT := none,
    hyperG := [], hyperGT := [], result_node_set := [],
    active_probFwd := none }

/-! ## The scenario of the minimization on a chain -/

/-- The chain `0 → 1 → 2 → 3 → 4` as loaded, under the model IC with the tables of the
weighted cascade bound and with the PRNG `s`: every node but node 0 has one in-edge, so
every edge has the probability 1. -/
def chainFive (s : Sfmt) : InfGraph :=
  { n := 5, m := 4, g := [[1], [2], [3], [4], []],
    prob_fwd_wc := [[1], [1], [1], [1], []],
    prob_fwd_tr := [[1 / 10], [1 / 10], [1 / 10], [1 / 10], []],
    prob_fwd_co := [[1 / 10], [1 / 10], [1 / 10], [1 / 10], []],
    gT := [[], [0], [1], [2], [3]], inDeg := [0, 1, 1, 1, 1],
    prob_wc := [[], [1], [1], [1], [1]],
    prob_tr := [[], [1 / 10], [1 / 10], [1 / 10], [1 / 10]],
    prob_co := [[], [1 / 10], [1 / 10], [1 / 10], [1 / 10]],
    sfmt := s,
    influModel := InfluModel.IC,
    active_probT := some [[], [1], [1], [1], [1]],
    hyperG := [], hyperGT := [], result_node_set := [],
    active_probFwd := some [[1], [1], [1], [1], []] }

/-- The output number `p` of the stream of `s`, scaled as `sfmt_genrand_real1` scales
it, falls below `prob`. -/
def draw_below (s : Sfmt) (p : Nat) (prob : ℚ) : Prop :=
  (sfmt_genrand_real1 { stream := s.stream, drawn := p }).1 < prob

/-- The node list holds, with every node other than 0, the node before it. -/
def DownClosed (row : List Nat) : Prop :=
  ∀ j, j ∈ row → j ≠ 0 → j - 1 ∈ row

/-! # Lemmas and theorems -/

/-! ## The indexed heap keeps its invariants -/

section HeapLemmas

variable {V : Type}

theorem tr_lt {L p c i : Nat} (hp : p < L) (hc : c < L) (hi : i < L) : tr p c i < L := by
  unfold tr; split_ifs <;> assumption

theorem tr_inj {p c i j : Nat} (h : tr p c i = tr p c j) : i = j := by
  unfold tr at h; split_ifs at h <;> omega

theorem tr_tr (p c i : Nat) : tr p c (tr p c i) = i := by
  unfold tr; split_ifs <;> omega

theorem tr_hole {p c : Nat} : tr p c p = c := by
  unfold tr; split_ifs <;> omega

theorem tr_child {p c : Nat} : tr p c c = p := by
  unfold tr; split_ifs <;> omega

theorem tr_other {p c i : Nat} (hp : i ≠ p) (hc : i ≠ c) : tr p c i = i := by
  unfold tr; split_ifs <;> omega

theorem swapAt_eq (b : Nat → KeyValue V) (p c i : Nat) : swapAt b p c i = b (tr p c i) := by
  unfold swapAt tr
  by_cases h1 : i = c
  · subst h1; simp
  · by_cases h2 : i = p
    · subst h2; simp [Function.update_apply, h1]
    · simp [Function.update_apply, h1, h2]

theorem Indexed.inj {n L : Nat} {a : Nat → KeyValue V} {P : Nat → Int}
    (hI : Indexed n L a P) {i j : Nat} (hi : i < L) (hj : j < L)
    (hk : (a i).key = (a j).key) : i = j := by
  have h1 := hI.pos_key i hi
  have h2 := hI.pos_key j hj
  rw [hk] at h1
  have : (i : Int) = (j : Int) := h1.symm.trans h2
  exact_mod_cast this

/-- Opening a hole at a stored position keeps the index right elsewhere, provided the
entry put there carries the key that was there. -/
theorem Indexed.toHole {n L p : Nat} {a : Nat → KeyValue V} {P : Nat → Int}
    (hI : Indexed n L a P) (hp : p < L) (x : KeyValue V) (hx : x.key = (a p).key) :
    HoleIndexed n L p (Function.update a p x) P := by
  have hkey : ∀ i, (Function.update a p x i).key = (a i).key := by
    intro i
    by_cases h : i = p
    · subst h; simp [hx]
    · simp [Function.update_apply, h]
  refine ⟨hp, ?_, ?_, ?_, ?_⟩
  · intro i hi; rw [hkey]; exact hI.key_lt i hi
  · intro i j hi hj hk
    rw [hkey, hkey] at hk
    exact hI.inj hi hj hk
  · intro i hi _; rw [hkey]; exact hI.pos_key i hi
  · intro k hk _
    rcases hI.absent_or k hk with h | ⟨i, hi, h1, h2⟩
    · exact Or.inl h
    · exact Or.inr ⟨i, hi, h1, by rw [hkey]; exact h2⟩

/-- Closing the hole: writing the hole position into the index makes it right
everywhere. -/
theorem HoleIndexed.fill {n L p : Nat} {b : Nat → KeyValue V} {P : Nat → Int}
    (hH : HoleIndexed n L p b P) :
    Indexed n L b (Function.update P (b p).key (p : Int)) := by
  refine ⟨hH.key_lt, ?_, ?_⟩
  · intro i hi
    by_cases h : i = p
    · subst h; simp
    · have hne : (b i).key ≠ (b p).key := fun hk => h (hH.inj i p hi hH.hole_lt hk)
      simp only [Function.update_apply, hne, if_false]
      exact hH.pos_key i hi h
  · intro k hk
    by_cases h : k = (b p).key
    · subst h
      exact Or.inr ⟨p, hH.hole_lt, by simp, rfl⟩
    · simp only [Function.update_apply, h, if_false]
      exact hH.absent_or k hk h

/-- One sift step: the entry at `c` moves into the hole and the hole moves to `c`. -/
theorem HoleIndexed.move {n L p c : Nat} {b : Nat → KeyValue V} {P : Nat → Int}
    (hH : HoleIndexed n L p b P) (hc : c < L) (hcp : c ≠ p) :
    HoleIndexed n L c (swapAt b p c) (Function.update P (b c).key (p : Int)) := by
  have hp := hH.hole_lt
  refine ⟨hc, ?_, ?_, ?_, ?_⟩
  · intro i hi
    rw [swapAt_eq]
    exact hH.key_lt _ (tr_lt hp hc hi)
  · intro i j hi hj hk
    rw [swapAt_eq, swapAt_eq] at hk
    exact tr_inj (hH.inj _ _ (tr_lt hp hc hi) (tr_lt hp hc hj) hk)
  · intro i hi hic
    rw [swapAt_eq]
    by_cases h2 : i = p
    · subst h2; rw [tr_hole]; simp
    · rw [tr_other h2 hic]
      have hne : (b i).key ≠ (b c).key := fun hk => hic (hH.inj i c hi hc hk)
      simp only [Function.update_apply, hne, if_false]
      exact hH.pos_key i hi h2
  · intro k hk hkx
    rw [swapAt_eq, tr_child] at hkx
    by_cases h : k = (b c).key
    · subst h
      refine Or.inr ⟨p, hp, by simp, ?_⟩
      rw [swapAt_eq, tr_hole]
    · simp only [Function.update_apply, h, if_false]
      rcases hH.absent_or k hk hkx with h1 | ⟨i, hi, h1, h2⟩
      · exact Or.inl h1
      · refine Or.inr ⟨i, hi, h1, ?_⟩
        have hip : i ≠ p := fun e => hkx (by rw [← h2, e])
        have hic : i ≠ c := fun e => h (by rw [← h2, e])
        rw [swapAt_eq, tr_other hip hic]; exact h2

/-- The index slot of the key that sits in the hole is not constrained. -/
theorem HoleIndexed.set_hole {n L p : Nat} {b : Nat → KeyValue V} {P : Nat → Int}
    (hH : HoleIndexed n L p b P) (v : Int) :
    HoleIndexed n L p b (Function.update P (b p).key v) := by
  refine ⟨hH.hole_lt, hH.key_lt, hH.inj, ?_, ?_⟩
  · intro i hi hip
    have hne : (b i).key ≠ (b p).key := fun hk => hip (hH.inj i p hi hH.hole_lt hk)
    simp only [Function.update_apply, hne, if_false]
    exact hH.pos_key i hi hip
  · intro k hk hkp
    have hPk : Function.update P (b p).key v k = P k := by
      simp [Function.update_apply, hkp]
    rw [hPk]
    exact hH.absent_or k hk hkp

/-- The exchange keeps the collection of stored entries. -/
theorem swapAt_content (b : Nat → KeyValue V) {L p c : Nat} (hp : p < L) (hc : c < L)
    (e : KeyValue V) :
    (∃ i, i < L ∧ swapAt b p c i = e) ↔ ∃ i, i < L ∧ b i = e := by
  constructor
  · rintro ⟨i, hi, h⟩
    rw [swapAt_eq] at h
    exact ⟨_, tr_lt hp hc hi, h⟩
  · rintro ⟨i, hi, h⟩
    exact ⟨tr p c i, tr_lt hp hc hi, by rw [swapAt_eq, tr_tr]; exact h⟩

@[simp] theorem place_arr (h : iHeap V) (p : Nat) (d : KeyValue V) :
    (iHeap.place h p d).m_data.m_data = Function.update h.m_data.m_data p d := rfl

@[simp] theorem place_num (h : iHeap V) (p : Nat) (d : KeyValue V) :
    (iHeap.place h p d).m_data.m_num = h.m_data.m_num := rfl

@[simp] theorem place_pos (h : iHeap V) (p : Nat) (d : KeyValue V) :
    (iHeap.place h p d).pos.m_data = Function.update h.pos.m_data d.key (p : Int) := rfl

@[simp] theorem place_key_space (h : iHeap V) (p : Nat) (d : KeyValue V) :
    (iHeap.place h p d).pos.m_num = h.pos.m_num := rfl

/-- Moving the entry at `c` into the hole `p` and saving `x` for position `c` is the
exchange of `p` and `c` on the array that has `x` in the hole. -/
theorem hole_step (a : Nat → KeyValue V) (p c : Nat) (x : KeyValue V) (hcp : c ≠ p) :
    Function.update (Function.update a p (a c)) c x
      = swapAt (Function.update a p x) p c := by
  funext i
  rw [swapAt_eq]
  by_cases h1 : i = c
  · subst h1; rw [tr_child]; simp
  · by_cases h2 : i = p
    · subst h2; rw [tr_hole]; simp [Function.update_apply, h1, hcp]
    · rw [tr_other h2 h1]; simp [Function.update_apply, h1, h2]

theorem notexist_iff (h : iHeap V) (k : Nat) :
    h.pos.notexist k = true ↔ h.pos.m_data k = iMap.SENTINEL := by
  simp [iMap.notexist]

theorem contains_iff (h : iHeap V) (k : Nat) :
    h.contains k ↔ h.pos.m_data k ≠ iMap.SENTINEL := by
  simp [iHeap.contains, iMap.notexist]

theorem sentinel_ne_nat (i : Nat) : (i : Int) ≠ iMap.SENTINEL := by
  unfold iMap.SENTINEL; omega

variable [LinearOrder V]

theorem pick_child_eq (h : iHeap V) (p : Nat) :
    iHeap.pick_child h p = pickc h.m_data.m_num h.m_data.m_data p := rfl

theorem pickc_update (m : Nat) (a : Nat → KeyValue V) (p : Nat) (x : KeyValue V) :
    pickc m (Function.update a p x) p = pickc m a p := by
  have h1 : 2 * p + 1 + 1 ≠ p := by omega
  have h2 : 2 * p + 1 ≠ p := by omega
  simp [pickc, Function.update_apply, h1, h2]

theorem pickc_cases (m : Nat) (b : Nat → KeyValue V) (p : Nat) :
    (pickc m b p = 2 * p + 1 ∧
      (2 * p + 1 + 1 < m → (b (2 * p + 1)).value ≤ (b (2 * p + 1 + 1)).value)) ∨
    (pickc m b p = 2 * p + 1 + 1 ∧ 2 * p + 1 + 1 < m ∧
      (b (2 * p + 1 + 1)).value < (b (2 * p + 1)).value) := by
  unfold pickc
  split_ifs with h
  · exact Or.inr ⟨rfl, h.1, h.2⟩
  · refine Or.inl ⟨rfl, fun hlt => ?_⟩
    exact not_lt.mp fun hv => h ⟨hlt, hv⟩

theorem UpOrd.up_done {L p : Nat} {b : Nat → KeyValue V} (hU : UpOrd L p b)
    (hstop : ¬ (0 < p ∧ (b p).value < (b ((p - 1) / 2)).value)) : Ordered L b := by
  intro i hi hiL
  by_cases h : i = p
  · subst h
    exact not_lt.mp fun hv => hstop ⟨hi, hv⟩
  · exact hU.ord i hi hiL h

theorem UpOrd.up_step {L p : Nat} {b : Nat → KeyValue V} (hU : UpOrd L p b) (hp : 0 < p)
    (hpL : p < L) (hlt : (b p).value < (b ((p - 1) / 2)).value) :
    UpOrd L ((p - 1) / 2) (swapAt b p ((p - 1) / 2)) := by
  have hqp : (p - 1) / 2 ≠ p := by omega
  constructor
  · intro i hi hiL hiq
    rw [swapAt_eq, swapAt_eq]
    by_cases h1 : i = p
    · subst h1
      rw [tr_child, tr_hole]
      exact le_of_lt hlt
    · rw [tr_other h1 hiq]
      by_cases h2 : (i - 1) / 2 = p
      · rw [h2, tr_hole]
        exact hU.grand i hi hiL h2 hp
      · by_cases h3 : (i - 1) / 2 = (p - 1) / 2
        · rw [h3, tr_child]
          exact le_trans (le_of_lt hlt) (h3 ▸ hU.ord i hi hiL h1)
        · rw [tr_other h2 h3]
          exact hU.ord i hi hiL h1
  · intro c hc hcL hcq hq
    rw [swapAt_eq, swapAt_eq]
    have hqL : (p - 1) / 2 < L := by omega
    have e1 : ((p - 1) / 2 - 1) / 2 ≠ p := by omega
    have e2 : ((p - 1) / 2 - 1) / 2 ≠ (p - 1) / 2 := by omega
    rw [tr_other e1 e2]
    have hgq := hU.ord ((p - 1) / 2) hq hqL hqp
    by_cases h1 : c = p
    · subst h1
      rw [tr_hole]; exact hgq
    · have h2 : c ≠ (p - 1) / 2 := by omega
      rw [tr_other h1 h2]
      exact le_trans hgq (hcq ▸ hU.ord c hc hcL h1)

theorem pickc_range (m : Nat) (b : Nat → KeyValue V) (p : Nat) (hm : 2 * p + 1 < m) :
    pickc m b p < m ∧ (pickc m b p = 2 * p + 1 ∨ pickc m b p = 2 * p + 1 + 1) := by
  rcases pickc_cases m b p with ⟨e, _⟩ | ⟨e, hs1, _⟩
  · exact ⟨by omega, Or.inl e⟩
  · exact ⟨by omega, Or.inr e⟩

theorem pickc_min (m : Nat) (b : Nat → KeyValue V) (p : Nat) (i : Nat) (hi : 0 < i)
    (him : i < m) (hpar : (i - 1) / 2 = p) :
    (b (pickc m b p)).value ≤ (b i).value := by
  have hi2 : i = 2 * p + 1 ∨ i = 2 * p + 1 + 1 := by omega
  rcases pickc_cases m b p with ⟨e, hs⟩ | ⟨e, _, hs2⟩
  · rw [e]
    rcases hi2 with hi2 | hi2
    · rw [hi2]
    · rw [hi2]; exact hs (by omega)
  · rw [e]
    rcases hi2 with hi2 | hi2
    · rw [hi2]; exact le_of_lt hs2
    · rw [hi2]

theorem DownOrd.down_done {m L p : Nat} {b : Nat → KeyValue V} (hD : DownOrd m L p b)
    (hLm : L ≤ m)
    (hstop : 2 * p + 1 < m → ¬ (b (pickc m b p)).value < (b p).value) : Ordered L b := by
  intro i hi hiL
  by_cases h : (i - 1) / 2 = p
  · rw [h]
    have hlt : 2 * p + 1 < m := by omega
    exact le_trans (not_lt.mp (hstop hlt)) (pickc_min m b p i hi (by omega) h)
  · exact hD.ord i hi hiL h

theorem DownOrd.child_lt {m L p : Nat} {b : Nat → KeyValue V} (hD : DownOrd m L p b)
    (hm : 2 * p + 1 < m) (hlt : (b (pickc m b p)).value < (b p).value) :
    pickc m b p < L := by
  by_contra hge
  have hcm := (pickc_range m b p hm).1
  exact absurd hlt (not_lt.mpr (hD.stale _ (by omega) hcm))

theorem DownOrd.down_step {m L p : Nat} {b : Nat → KeyValue V} (hD : DownOrd m L p b)
    (hLm : L ≤ m) (hm : 2 * p + 1 < m)
    (hlt : (b (pickc m b p)).value < (b p).value) :
    DownOrd m L (pickc m b p) (swapAt b p (pickc m b p)) := by
  have hcL := hD.child_lt hm hlt
  have hc2 := (pickc_range m b p hm).2
  have hmin := pickc_min m b p
  generalize pickc m b p = c at *
  have hpar : (c - 1) / 2 = p := by omega
  have hcp : c ≠ p := by omega
  have hc0 : 0 < c := by omega
  constructor
  · intro i hi hiL hic
    rw [swapAt_eq, swapAt_eq]
    by_cases h1 : i = p
    · subst h1
      rw [tr_hole]
      have e1 : (i - 1) / 2 ≠ i := by omega
      rw [tr_other e1 hic]
      exact hD.grand c hc0 hcL hpar hi
    · by_cases h2 : i = c
      · subst h2
        rw [tr_child, hpar, tr_hole]
        exact le_of_lt hlt
      · rw [tr_other h1 h2]
        by_cases h3 : (i - 1) / 2 = p
        · rw [h3, tr_hole]
          exact hmin i hi (by omega) h3
        · rw [tr_other h3 hic]
          exact hD.ord i hi hiL h3
  · intro d hd hdL hdc _
    rw [swapAt_eq, swapAt_eq, hpar, tr_hole]
    have e1 : d ≠ p := by omega
    have e2 : d ≠ c := by omega
    rw [tr_other e1 e2]
    have := hD.ord d hd hdL (by omega)
    rw [hdc] at this
    exact this
  · intro i hiL him
    rw [swapAt_eq, swapAt_eq, tr_child]
    have e1 : i ≠ p := by omega
    have e2 : i ≠ c := by omega
    rw [tr_other e1 e2]
    exact hD.stale i hiL him

theorem SiftResult.of_place {n L m p : Nat} {h : iHeap V} {x : KeyValue V}
    (hH : HoleIndexed n L p (Function.update h.m_data.m_data p x) h.pos.m_data)
    (hO : Ordered L (Function.update h.m_data.m_data p x)) (_hm : h.m_data.m_num = m) :
    SiftResult n L (Function.update h.m_data.m_data p x) h (iHeap.place h p x) := by
  refine ⟨rfl, rfl, ?_, hO, fun e => Iff.rfl⟩
  have := hH.fill
  simpa using this

theorem SiftResult.of_step {n L p c : Nat} {b : Nat → KeyValue V} {h r : iHeap V}
    (h1 : iHeap V) (hp : p < L) (hc : c < L) (hnum : h1.m_data.m_num = h.m_data.m_num)
    (hks : h1.pos.m_num = h.pos.m_num) (hr : SiftResult n L (swapAt b p c) h1 r) :
    SiftResult n L b h r :=
  ⟨hr.num.trans hnum, hr.key_space.trans hks, hr.indexed, hr.ordered,
    fun e => (hr.content e).trans (swapAt_content b hp hc e)⟩

theorem up_loop_fuel (x : KeyValue V) :
    ∀ (f1 f2 p : Nat) (h : iHeap V), p ≤ f1 → p ≤ f2 →
      iHeap.up_loop f1 p x h = iHeap.up_loop f2 p x h := by
  intro f1
  induction f1 with
  | zero =>
    intro f2 p h h1 _
    have hp : p = 0 := by omega
    subst hp
    cases f2 with
    | zero => rfl
    | succ f2 => simp [iHeap.up_loop]
  | succ f1 ih =>
    intro f2 p h h1 h2
    cases f2 with
    | zero =>
      have hp : p = 0 := by omega
      subst hp
      simp [iHeap.up_loop]
    | succ f2 =>
      simp only [iHeap.up_loop]
      split_ifs with hc
      · exact ih f2 _ _ (by omega) (by omega)
      · rfl

theorem down_loop_num (tmp : KeyValue V) :
    ∀ (f p : Nat) (h : iHeap V), (iHeap.down_loop f p tmp h).m_data.m_num = h.m_data.m_num := by
  intro f
  induction f with
  | zero => intro p h; rfl
  | succ f ih =>
    intro p h
    simp only [iHeap.down_loop]
    split_ifs
    · rw [ih]; rfl
    · rfl
    · rfl

theorem down_loop_fuel (tmp : KeyValue V) :
    ∀ (f1 f2 p : Nat) (h : iHeap V), h.m_data.m_num - p ≤ f1 → h.m_data.m_num - p ≤ f2 →
      iHeap.down_loop f1 p tmp h = iHeap.down_loop f2 p tmp h := by
  intro f1
  induction f1 with
  | zero =>
    intro f2 p h h1 _
    cases f2 with
    | zero => rfl
    | succ f2 =>
      have : ¬ 2 * p + 1 < h.m_data.m_num := by omega
      simp [iHeap.down_loop, this]
  | succ f1 ih =>
    intro f2 p h h1 h2
    cases f2 with
    | zero =>
      have : ¬ 2 * p + 1 < h.m_data.m_num := by omega
      simp [iHeap.down_loop, this]
    | succ f2 =>
      simp only [iHeap.down_loop]
      split_ifs with hc hv
      · have hr := (pickc_range h.m_data.m_num h.m_data.m_data p hc).2
        rw [← pick_child_eq] at hr
        exact ih f2 _ _ (by simp only [place_num]; omega) (by simp only [place_num]; omega)
      · rfl
      · rfl

/-- The loop of `up` re-establishes the invariants. -/
theorem up_loop_spec {n L : Nat} :
    ∀ (fuel p : Nat) (x : KeyValue V) (h : iHeap V), p ≤ fuel → h.m_data.m_num = L →
      HoleIndexed n L p (Function.update h.m_data.m_data p x) h.pos.m_data →
      UpOrd L p (Function.update h.m_data.m_data p x) →
      SiftResult n L (Function.update h.m_data.m_data p x) h (iHeap.up_loop fuel p x h) := by
  intro fuel
  induction fuel with
  | zero =>
    intro p x h hp hm hH hU
    have hp0 : p = 0 := by omega
    subst hp0
    exact SiftResult.of_place hH (hU.up_done (by simp)) hm
  | succ fuel ih =>
    intro p x h hp hm hH hU
    have hpL := hH.hole_lt
    simp only [iHeap.up_loop]
    split_ifs with hc
    · have hqp : (p - 1) / 2 ≠ p := by omega
      have hqL : (p - 1) / 2 < L := by omega
      have hbq : Function.update h.m_data.m_data p x ((p - 1) / 2)
          = h.m_data.m_data ((p - 1) / 2) := by
        simp [Function.update_apply, hqp]
      have hH1 := hH.move hqL hqp
      have hU1 := hU.up_step hc.1 hpL (by rw [hbq]; simpa using hc.2)
      rw [hbq] at hH1
      rw [← hole_step _ _ _ _ hqp] at hH1 hU1
      have hr := ih ((p - 1) / 2) x (iHeap.place h p (h.m_data.m_data ((p - 1) / 2)))
        (by omega) (by simpa using hm) (by simpa using hH1) (by simpa using hU1)
      simp only [place_arr] at hr
      rw [hole_step _ _ _ _ hqp] at hr
      exact SiftResult.of_step (iHeap.place h p (h.m_data.m_data ((p - 1) / 2)))
        hpL hqL rfl rfl hr
    · refine SiftResult.of_place hH (hU.up_done ?_) hm
      have hpp : Function.update h.m_data.m_data p x p = x := by simp
      rw [hpp]
      intro hcon
      apply hc
      refine ⟨hcon.1, ?_⟩
      have hqp : (p - 1) / 2 ≠ p := by omega
      have := hcon.2
      simpa [Function.update_apply, hqp] using this

/-- The loop of `down` re-establishes the invariants on the first `L` entries. -/
theorem down_loop_spec {n L m : Nat} (hLm : L ≤ m) :
    ∀ (fuel p : Nat) (x : KeyValue V) (h : iHeap V), m - p ≤ fuel → h.m_data.m_num = m →
      HoleIndexed n L p (Function.update h.m_data.m_data p x) h.pos.m_data →
      DownOrd m L p (Function.update h.m_data.m_data p x) →
      SiftResult n L (Function.update h.m_data.m_data p x) h (iHeap.down_loop fuel p x h) := by
  intro fuel
  induction fuel with
  | zero =>
    intro p x h hf hm hH hD
    refine SiftResult.of_place hH (hD.down_done hLm ?_) hm
    intro hlt; omega
  | succ fuel ih =>
    intro p x h hf hm hH hD
    have hpL := hH.hole_lt
    have hpp : Function.update h.m_data.m_data p x p = x := by simp
    have hpk : pickc m (Function.update h.m_data.m_data p x) p = iHeap.pick_child h p := by
      rw [pickc_update, pick_child_eq, hm]
    simp only [iHeap.down_loop]
    split_ifs with hc hv
    · rw [hm] at hc
      have hr2 := (pickc_range m (Function.update h.m_data.m_data p x) p hc).2
      rw [hpk] at hr2
      have hcp : iHeap.pick_child h p ≠ p := by omega
      have hbc : Function.update h.m_data.m_data p x (iHeap.pick_child h p)
          = h.m_data.m_data (iHeap.pick_child h p) := by
        simp [Function.update_apply, hcp]
      have hlt : (Function.update h.m_data.m_data p x
            (pickc m (Function.update h.m_data.m_data p x) p)).value
          < (Function.update h.m_data.m_data p x p).value := by
        rw [hpk, hbc, hpp]; exact hv
      have hcL := hD.child_lt hc hlt
      have hD1 := hD.down_step hLm hc hlt
      rw [hpk] at hcL hD1
      have hH1 := hH.move hcL hcp
      rw [hbc] at hH1
      rw [← hole_step _ _ _ _ hcp] at hH1 hD1
      have hr := ih (iHeap.pick_child h p) x
        (iHeap.place h p (h.m_data.m_data (iHeap.pick_child h p)))
        (by omega) (by simpa using hm) (by simpa using hH1) (by simpa using hD1)
      simp only [place_arr] at hr
      rw [hole_step _ _ _ _ hcp] at hr
      exact SiftResult.of_step (iHeap.place h p (h.m_data.m_data (iHeap.pick_child h p)))
        hpL hcL rfl rfl hr
    · refine SiftResult.of_place hH (hD.down_done hLm ?_) hm
      intro _
      rw [hpk, hpp]
      have hr2 := (pickc_range m (Function.update h.m_data.m_data p x) p (hm ▸ hc)).2
      rw [hpk] at hr2
      have hcp : iHeap.pick_child h p ≠ p := by omega
      simpa [Function.update_apply, hcp] using hv
    · refine SiftResult.of_place hH (hD.down_done hLm ?_) hm
      intro hlt
      exact absurd (hm ▸ hlt) hc

theorem WellFormed.stored_of_contains {n : Nat} {h : iHeap V} (hW : WellFormed n h)
    {k : Nat} (hk : k < n) (hc : h.contains k) : Stored h ⟨k, h.value_of k⟩ := by
  rw [contains_iff] at hc
  rcases hW.indexed.absent_or k hk with h1 | ⟨i, hi, h1, h2⟩
  · exact absurd h1 hc
  · refine ⟨i, hi, ?_⟩
    have : h.value_of k = (h.m_data.m_data i).value := by
      simp [iHeap.value_of, iMap.get, h1]
    rw [this, ← h2]

theorem WellFormed.contains_of_stored {n : Nat} {h : iHeap V} (hW : WellFormed n h)
    {e : KeyValue V} (hs : Stored h e) :
    e.key < n ∧ h.contains e.key ∧ h.value_of e.key = e.value := by
  obtain ⟨i, hi, rfl⟩ := hs
  have h1 := hW.indexed.pos_key i hi
  refine ⟨hW.indexed.key_lt i hi, ?_, ?_⟩
  · rw [contains_iff, h1]; exact sentinel_ne_nat i
  · simp [iHeap.value_of, iMap.get, h1]

/-- In a well-formed heap the root carries a minimal value. -/
theorem Ordered.root_le {L : Nat} {a : Nat → KeyValue V} (hO : Ordered L a) :
    ∀ i, i < L → (a 0).value ≤ (a i).value := by
  intro i
  induction i using Nat.strong_induction_on with
  | _ i ih =>
    intro hi
    by_cases h0 : i = 0
    · subst h0; exact le_refl _
    · exact le_trans (ih ((i - 1) / 2) (by omega) (by omega)) (hO i (by omega) hi)

theorem wellFormed_init (h0 : iHeap V) (n : Nat) : WellFormed n (h0.init n) := by
  refine ⟨rfl, ⟨?_, ?_, ?_⟩, ?_⟩
  · intro i hi; exact absurd hi (Nat.not_lt_zero i)
  · intro i hi; exact absurd hi (Nat.not_lt_zero i)
  · intro k _; exact Or.inl rfl
  · intro i _ hi; exact absurd hi (Nat.not_lt_zero i)

theorem insert_new_eq (h : iHeap V) (key : Nat) (value : V)
    (hne : h.pos.notexist key = true) :
    h.insert key value = iHeap.up_loop h.m_data.m_num h.m_data.m_num ⟨key, value⟩
      { pos := h.pos.insert key (h.m_data.m_num : Int),
        m_data := h.m_data.push_back ⟨key, value⟩ } := by
  simp [iHeap.insert, hne, iHeap.up, iVector.push_back]

theorem insert_new_spec {n : Nat} {h : iHeap V} (hW : WellFormed n h) {key : Nat}
    (hk : key < n) (value : V) (hne : h.pos.notexist key = true) :
    WellFormed n (h.insert key value) ∧
    (h.insert key value).m_data.m_num = h.m_data.m_num + 1 ∧
    ∀ e, Stored (h.insert key value) e ↔ e = ⟨key, value⟩ ∨ Stored h e := by
  rw [insert_new_eq h key value hne]
  rw [notexist_iff] at hne
  obtain ⟨hks, hI, hO⟩ := hW
  generalize hm : h.m_data.m_num = m at *
  generalize ha : h.m_data.m_data = a at *
  generalize hP : h.pos.m_data = P at *
  set h2 : iHeap V := { pos := h.pos.insert key (m : Int),
                        m_data := h.m_data.push_back ⟨key, value⟩ } with hh2
  have e1 : h2.m_data.m_data = Function.update a m ⟨key, value⟩ := by
    simp [hh2, iVector.push_back, hm, ha]
  have e2 : h2.m_data.m_num = m + 1 := by simp [hh2, iVector.push_back, hm]
  have e3 : h2.pos.m_data = Function.update P key (m : Int) := by
    simp [hh2, iMap.insert, hP]
  have e4 : h2.pos.m_num = n := by simp [hh2, iMap.insert, hks]
  have e5 : Function.update h2.m_data.m_data m ⟨key, value⟩
      = Function.update a m ⟨key, value⟩ := by
    rw [e1, Function.update_idem]
  have hb : ∀ i, i ≠ m → Function.update a m (⟨key, value⟩ : KeyValue V) i = a i := by
    intro i hi; simp [Function.update_apply, hi]
  have hbm : Function.update a m (⟨key, value⟩ : KeyValue V) m = ⟨key, value⟩ := by simp
  have hkne : ∀ i, i < m → (a i).key ≠ key := by
    intro i hi hkey
    have := hI.pos_key i hi
    rw [hkey, hne] at this
    exact sentinel_ne_nat i this.symm
  have hH : HoleIndexed n (m + 1) m (Function.update a m ⟨key, value⟩)
      (Function.update P key (m : Int)) := by
    refine ⟨by omega, ?_, ?_, ?_, ?_⟩
    · intro i hi
      by_cases h1 : i = m
      · subst h1; rw [hbm]; exact hk
      · rw [hb i h1]; exact hI.key_lt i (by omega)
    · intro i j hi hj hkey
      by_cases h1 : i = m
      · by_cases h2 : j = m
        · rw [h1, h2]
        · subst h1; rw [hbm, hb j h2] at hkey
          exact absurd hkey.symm (hkne j (by omega))
      · by_cases h2 : j = m
        · subst h2; rw [hbm, hb i h1] at hkey
          exact absurd hkey (hkne i (by omega))
        · rw [hb i h1, hb j h2] at hkey
          exact hI.inj (by omega) (by omega) hkey
    · intro i hi h1
      rw [hb i h1]
      have := hkne i (by omega)
      simp only [Function.update_apply, this, if_false]
      exact hI.pos_key i (by omega)
    · intro k hkn hkk
      rw [hbm] at hkk
      have hPk : Function.update P key (m : Int) k = P k := by
        simp [Function.update_apply, hkk]
      rw [hPk]
      rcases hI.absent_or k hkn with h1 | ⟨i, hi, h1, h2⟩
      · exact Or.inl h1
      · exact Or.inr ⟨i, by omega, h1, by rw [hb i (by omega)]; exact h2⟩
  have hU : UpOrd (m + 1) m (Function.update a m ⟨key, value⟩) := by
    constructor
    · intro i hi hiL him
      rw [hb i him, hb _ (by omega)]
      exact hO i hi (by omega)
    · intro c hc hcL hpar hm0
      omega
  have hr := up_loop_spec (n := n) (L := m + 1) m m ⟨key, value⟩ h2 (le_refl m) e2
    (by rw [e5, e3]; exact hH) (by rw [e5]; exact hU)
  rw [e5] at hr
  refine ⟨⟨hr.key_space.trans e4, ?_, ?_⟩, hr.num.trans e2, ?_⟩
  · rw [hr.num, e2]; exact hr.indexed
  · rw [hr.num, e2]; exact hr.ordered
  · intro e
    unfold Stored
    rw [hr.num, e2, hr.content e, ← hm, ← ha] 
    constructor
    · rintro ⟨i, hi, h1⟩
      by_cases h2 : i = h.m_data.m_num
      · subst h2; left; rw [← h1]; simp
      · right; exact ⟨i, by omega, by rw [← h1]; simp [Function.update_apply, h2]⟩
    · rintro (h1 | ⟨i, hi, h1⟩)
      · exact ⟨h.m_data.m_num, by omega, by rw [h1]; simp⟩
      · exact ⟨i, by omega, by rw [← h1]; simp [Function.update_apply, Nat.ne_of_lt hi]⟩

theorem insert_old_spec {n : Nat} {h : iHeap V} (hW : WellFormed n h) {key : Nat}
    (hk : key < n) (value : V) (hne : h.pos.notexist key = false) :
    WellFormed n (h.insert key value) ∧
    (h.insert key value).m_data.m_num = h.m_data.m_num ∧
    ∀ e, Stored (h.insert key value) e ↔ e = ⟨key, value⟩ ∨ (Stored h e ∧ e.key ≠ key) := by
  have hc : h.contains key := hne
  rw [contains_iff] at hc
  obtain ⟨hks, hI, hO⟩ := hW
  obtain ⟨p, hp, hPk, hkey⟩ : ∃ i, i < h.m_data.m_num ∧ h.pos.m_data key = (i : Int) ∧
      (h.m_data.m_data i).key = key := by
    rcases hI.absent_or key hk with h1 | h1
    · exact absurd h1 hc
    · exact h1
  have hp' : (h.pos.get key).toNat = p := by simp [iMap.get, hPk]
  have hx : ({ h.m_data.m_data p with value := value } : KeyValue V) = ⟨key, value⟩ := by
    rw [← hkey]
  simp only [iHeap.insert, hne, hp', hx, Bool.false_eq_true, if_false]
  set h1 : iHeap V := iHeap.store h p ⟨key, value⟩ with hh1
  set a := h.m_data.m_data with ha
  set m := h.m_data.m_num with hm
  have e1 : h1.m_data.m_data = Function.update a p ⟨key, value⟩ := rfl
  have e2 : h1.m_data.m_num = m := rfl
  have e3 : h1.pos.m_data = h.pos.m_data := rfl
  have e4 : h1.pos.m_num = n := hks
  have e5 : Function.update h1.m_data.m_data p (h1.m_data.m_data p)
      = Function.update a p ⟨key, value⟩ := by
    rw [Function.update_eq_self, e1]
  have hb : ∀ i, i ≠ p → Function.update a p (⟨key, value⟩ : KeyValue V) i = a i := by
    intro i hi; simp [Function.update_apply, hi]
  have hbp : Function.update a p (⟨key, value⟩ : KeyValue V) p = ⟨key, value⟩ := by simp
  have hH : HoleIndexed n m p (Function.update a p ⟨key, value⟩) h.pos.m_data :=
    hI.toHole hp ⟨key, value⟩ hkey.symm
  have hgrand : ∀ c, 0 < c → c < m → (c - 1) / 2 = p → 0 < p →
      ((Function.update a p (⟨key, value⟩ : KeyValue V)) ((p - 1) / 2)).value
        ≤ ((Function.update a p (⟨key, value⟩ : KeyValue V)) c).value := by
    intro c hc0 hcm hpar hp0
    rw [hb _ (by omega), hb c (by omega)]
    have := hO c hc0 hcm
    rw [hpar] at this
    exact le_trans (hO p hp0 hp) this
  have hcontent : ∀ e, (∃ i, i < m ∧ Function.update a p (⟨key, value⟩ : KeyValue V) i = e) ↔
      e = ⟨key, value⟩ ∨ (Stored h e ∧ e.key ≠ key) := by
    intro e
    constructor
    · rintro ⟨i, hi, h2⟩
      by_cases h3 : i = p
      · subst h3; left; rw [← h2]; simp
      · right
        rw [hb i h3] at h2
        refine ⟨⟨i, hi, h2⟩, ?_⟩
        rw [← h2, ← hkey]
        exact fun hk2 => h3 (hI.inj hi hp hk2)
    · rintro (h2 | ⟨⟨i, hi, h2⟩, h3⟩)
      · exact ⟨p, hp, by rw [h2]; simp⟩
      · have hip : i ≠ p := by
          intro hip; apply h3; rw [← h2, hip]; exact hkey
        exact ⟨i, hi, by rw [hb i hip]; exact h2⟩
  have hfin : ∀ r, SiftResult n m (Function.update a p ⟨key, value⟩) h1 r →
      WellFormed n r ∧ r.m_data.m_num = m ∧
      ∀ e, Stored r e ↔ e = ⟨key, value⟩ ∨ (Stored h e ∧ e.key ≠ key) := by
    intro r hr
    refine ⟨⟨hr.key_space.trans e4, ?_, ?_⟩, hr.num.trans e2, ?_⟩
    · rw [hr.num, e2]; exact hr.indexed
    · rw [hr.num, e2]; exact hr.ordered
    · intro e
      unfold Stored
      rw [hr.num, e2, hr.content e]
      exact hcontent e
  split_ifs with hcond
  · apply hfin
    have hU : UpOrd m p (Function.update a p ⟨key, value⟩) := by
      constructor
      · intro i hi hiL hip
        rw [hb i hip]
        by_cases h2 : (i - 1) / 2 = p
        · rw [h2, hbp]
          have h3 : value < (a ((p - 1) / 2)).value := by
            have := hcond.2
            rw [e1, hb _ (by omega)] at this
            exact this
          have h4 := hO i hi hiL
          rw [h2] at h4
          exact le_trans (le_of_lt h3) (le_trans (hO p hcond.1 hp) h4)
        · rw [hb _ h2]; exact hO i hi hiL
      · exact hgrand
    have hr := up_loop_spec (n := n) (L := m) p p (h1.m_data.m_data p) h1 (le_refl p) e2
      (by rw [e5, e3]; exact hH) (by rw [e5]; exact hU)
    rw [e5] at hr
    exact hr
  · apply hfin
    have hD : DownOrd m m p (Function.update a p ⟨key, value⟩) := by
      constructor
      · intro i hi hiL hpar
        rw [hb _ hpar]
        by_cases h2 : i = p
        · subst h2
          rw [hbp]
          apply not_lt.mp
          intro hv
          apply hcond
          refine ⟨hi, ?_⟩
          rw [e1, hb _ hpar]
          exact hv
        · rw [hb i h2]; exact hO i hi hiL
      · exact hgrand
      · intro i h2 h3; omega
    have hr := down_loop_spec (n := n) (L := m) (m := m) (le_refl m) (m - p) p
      (h1.m_data.m_data p) h1 (le_refl _) e2
      (by rw [e5, e3]; exact hH) (by rw [e5]; exact hD)
    rw [e5] at hr
    exact hr

theorem pop_spec {n : Nat} {h : iHeap V} (hW : WellFormed n h)
    (hpos : 0 < h.m_data.m_num) :
    ∃ h', h.pop = some ((h.m_data.m_data 0).key, h') ∧ WellFormed n h' ∧
      h'.m_data.m_num + 1 = h.m_data.m_num ∧
      ∀ e, Stored h' e ↔ (Stored h e ∧ e.key ≠ (h.m_data.m_data 0).key) := by
  obtain ⟨hks, hI, hO⟩ := hW
  simp only [iHeap.pop, hpos, if_true]
  refine ⟨_, rfl, ?_⟩
  set a := h.m_data.m_data with ha
  set m := h.m_data.m_num with hm
  set P := h.pos.m_data with hP
  by_cases h1 : 1 < m
  · simp only [h1, if_true]
    set h4 : iHeap V :=
      { pos := ((iHeap.store { pos := h.pos.erase (a 0).key, m_data := h.m_data } 0
                  (a (m - 1))).pos).insert
                ((iHeap.store { pos := h.pos.erase (a 0).key, m_data := h.m_data } 0
                  (a (m - 1))).m_data.m_data 0).key 0,
        m_data := (iHeap.store { pos := h.pos.erase (a 0).key, m_data := h.m_data } 0
                  (a (m - 1))).m_data } with hh4
    have e1 : h4.m_data.m_data = Function.update a 0 (a (m - 1)) := rfl
    have e2 : h4.m_data.m_num = m := rfl
    have e3 : h4.pos.m_data
        = Function.update (Function.update P (a 0).key iMap.SENTINEL) (a (m - 1)).key 0 := by
      simp [hh4, iMap.insert, iMap.erase, iHeap.store]
    have e4 : h4.pos.m_num = n := hks
    have e5 : Function.update h4.m_data.m_data 0 (h4.m_data.m_data 0)
        = Function.update a 0 (a (m - 1)) := by
      rw [Function.update_eq_self, e1]
    have e6 : h4.m_data.m_data 0 = a (m - 1) := by rw [e1]; simp
    have hb : ∀ i, i ≠ 0 → Function.update a 0 (a (m - 1)) i = a i := by
      intro i hi; simp [Function.update_apply, hi]
    have hb0 : Function.update a 0 (a (m - 1)) 0 = a (m - 1) := by simp
    have hkne : ∀ i j, i < m → j < m → i ≠ j → (a i).key ≠ (a j).key :=
      fun i j hi hj hij hk => hij (hI.inj hi hj hk)
    have hH : HoleIndexed n (m - 1) 0 (Function.update a 0 (a (m - 1)))
        (Function.update P (a 0).key iMap.SENTINEL) := by
      refine ⟨by omega, ?_, ?_, ?_, ?_⟩
      · intro i hi
        by_cases h2 : i = 0
        · subst h2; rw [hb0]; exact hI.key_lt _ (by omega)
        · rw [hb i h2]; exact hI.key_lt i (by omega)
      · intro i j hi hj hkey
        by_cases h2 : i = 0
        · by_cases h3 : j = 0
          · rw [h2, h3]
          · subst h2; rw [hb0, hb j h3] at hkey
            exact absurd hkey (hkne _ _ (by omega) (by omega) (by omega))
        · by_cases h3 : j = 0
          · subst h3; rw [hb0, hb i h2] at hkey
            exact absurd hkey (hkne _ _ (by omega) (by omega) (by omega))
          · rw [hb i h2, hb j h3] at hkey
            exact hI.inj (by omega) (by omega) hkey
      · intro i hi h2
        rw [hb i h2]
        have := hkne i 0 (by omega) (by omega) h2
        simp only [Function.update_apply, this, if_false]
        exact hI.pos_key i (by omega)
      · intro k hkn hkk
        rw [hb0] at hkk
        by_cases h2 : k = (a 0).key
        · left; simp [Function.update_apply, h2]
        · have hPk : Function.update P (a 0).key iMap.SENTINEL k = P k := by
            simp [Function.update_apply, h2]
          rw [hPk]
          rcases hI.absent_or k hkn with h3 | ⟨i, hi, h3, h4'⟩
          · exact Or.inl h3
          · have hi0 : i ≠ 0 := fun e => h2 (by rw [← h4', e])
            have him : i ≠ m - 1 := fun e => hkk (by rw [← h4', e])
            exact Or.inr ⟨i, by omega, h3, by rw [hb i hi0]; exact h4'⟩
    have hD : DownOrd m (m - 1) 0 (Function.update a 0 (a (m - 1))) := by
      constructor
      · intro i hi hiL hpar
        rw [hb _ hpar, hb i (by omega)]
        exact hO i hi (by omega)
      · intro c _ _ _ h0; exact absurd h0 (lt_irrefl 0)
      · intro i h2 h3
        have : i = m - 1 := by omega
        rw [this, hb0, hb _ (by omega)]
    have hr := down_loop_spec (n := n) (L := m - 1) (m := m) (by omega) (m - 0) 0
      (h4.m_data.m_data 0) h4 (le_refl _) e2
      (by
        rw [e5, e3]
        have := hH.set_hole 0
        rw [hb0] at this
        exact_mod_cast this) (by rw [e5]; exact hD)
    rw [e5] at hr
    change WellFormed n { (iHeap.down h4 0) with
        m_data := { (iHeap.down h4 0).m_data with m_num := (iHeap.down h4 0).m_data.m_num - 1 } } ∧ _
    have hdown : iHeap.down h4 0 = iHeap.down_loop (m - 0) 0 (h4.m_data.m_data 0) h4 := rfl
    rw [hdown]
    generalize iHeap.down_loop (m - 0) 0 (h4.m_data.m_data 0) h4 = r at hr ⊢
    have hnum : r.m_data.m_num = m := hr.num.trans e2
    refine ⟨⟨hr.key_space.trans e4, ?_, ?_⟩, ?_, ?_⟩
    · simp only [hnum]; exact hr.indexed
    · simp only [hnum]; exact hr.ordered
    · simp only [hnum]; omega
    · intro e
      unfold Stored
      simp only [hnum]
      rw [hr.content e]
      constructor
      · rintro ⟨i, hi, h2⟩
        by_cases h3 : i = 0
        · subst h3
          rw [hb0] at h2
          refine ⟨⟨m - 1, by omega, h2⟩, ?_⟩
          rw [← h2]
          exact hkne _ _ (by omega) (by omega) (by omega)
        · rw [hb i h3] at h2
          refine ⟨⟨i, by omega, h2⟩, ?_⟩
          rw [← h2]
          exact hkne _ _ (by omega) (by omega) h3
      · rintro ⟨⟨i, hi, h2⟩, h3⟩
        have hi0 : i ≠ 0 := by
          intro hi0; apply h3; rw [← h2, hi0]
        by_cases h4' : i = m - 1
        · exact ⟨0, by omega, by rw [hb0, ← h4']; exact h2⟩
        · exact ⟨i, by omega, by rw [hb i hi0]; exact h2⟩
  · have hm1 : m = 1 := by omega
    simp only [h1, if_false]
    refine ⟨⟨hks, ⟨?_, ?_, ?_⟩, ?_⟩, ?_, ?_⟩
    · intro i hi; simp only [hm1] at hi; omega
    · intro i hi; simp only [hm1] at hi; omega
    · intro k hkn
      left
      by_cases h2 : k = (a 0).key
      · simp [iMap.erase, Function.update_apply, h2]
      · rcases hI.absent_or k hkn with h3 | ⟨i, hi, h3, h4'⟩
        · simp only [iMap.erase, Function.update_apply, h2, if_false]; exact h3
        · have : i = 0 := by omega
          subst this
          exact absurd h4'.symm h2
    · intro i _ hi; simp only [hm1] at hi; omega
    · show m - 1 + 1 = m
      omega
    · intro e
      unfold Stored
      show (∃ i, i < m - 1 ∧ _) ↔ _
      constructor
      · rintro ⟨i, hi, _⟩; omega
      · rintro ⟨⟨i, hi, h2⟩, h3⟩
        have : i = 0 := by omega
        subst this
        exact absurd (by rw [← h2]) h3

/-- Both branches of `insert` at once. -/
theorem insert_spec {n : Nat} {h : iHeap V} (hW : WellFormed n h) {key : Nat}
    (hk : key < n) (value : V) :
    WellFormed n (h.insert key value) ∧
    (h.contains key → (h.insert key value).m_data.m_num = h.m_data.m_num) ∧
    (¬ h.contains key → (h.insert key value).m_data.m_num = h.m_data.m_num + 1) ∧
    ∀ e, Stored (h.insert key value) e ↔ e = ⟨key, value⟩ ∨ (Stored h e ∧ e.key ≠ key) := by
  cases hne : h.pos.notexist key with
  | true =>
    obtain ⟨h1, h2, h3⟩ := insert_new_spec hW hk value hne
    have hnc : ¬ h.contains key := by
      unfold iHeap.contains; rw [hne]; exact Bool.noConfusion
    refine ⟨h1, fun hc => absurd hc hnc, fun _ => h2, fun e => ?_⟩
    rw [h3 e]
    constructor
    · rintro (h4 | h4)
      · exact Or.inl h4
      · exact Or.inr ⟨h4, fun hkey => hnc (hkey ▸ (hW.contains_of_stored h4).2.1)⟩
    · rintro (h4 | h4)
      · exact Or.inl h4
      · exact Or.inr h4.1
  | false =>
    obtain ⟨h1, h2, h3⟩ := insert_old_spec hW hk value hne
    exact ⟨h1, fun _ => h2, fun hc => absurd hne hc, h3⟩

/-- How the membership test and the value lookup of two well-formed heaps are related
when the entries of the second are those of the first without the key `k0`. -/
theorem frame_of_content {n : Nat} {h h' : iHeap V} (hW : WellFormed n h)
    (hW' : WellFormed n h') (k0 : Nat)
    (hcont : ∀ e, Stored h' e → (Stored h e ∧ e.key ≠ k0) ∨ e.key = k0)
    (hback : ∀ e, Stored h e → e.key ≠ k0 → Stored h' e) :
    ∀ j, j < n → j ≠ k0 →
      (h'.contains j ↔ h.contains j) ∧ (h.contains j → h'.value_of j = h.value_of j) := by
  intro j hj hjk
  have hfwd : h.contains j → h'.contains j ∧ h'.value_of j = h.value_of j := by
    intro hc
    have h1 := hback _ (hW.stored_of_contains hj hc) hjk
    have h2 := hW'.contains_of_stored h1
    exact ⟨h2.2.1, h2.2.2⟩
  refine ⟨⟨fun hc => ?_, fun hc => (hfwd hc).1⟩, fun hc => (hfwd hc).2⟩
  have h1 := hW'.stored_of_contains hj hc
  rcases hcont _ h1 with h2 | h2
  · exact (hW.contains_of_stored h2.1).2.1
  · exact absurd h2 hjk

/-- The effect of `insert` on a well-formed heap, in terms of the membership test and
the value lookup. -/
theorem WellFormed.insert_abs {n : Nat} {h : iHeap V} (hW : WellFormed n h) {k : Nat}
    (hk : k < n) (v : V) :
    WellFormed n (h.insert k v) ∧ (h.insert k v).contains k ∧
      (h.insert k v).value_of k = v ∧
      (∀ j, j < n → j ≠ k →
        ((h.insert k v).contains j ↔ h.contains j) ∧
        (h.contains j → (h.insert k v).value_of j = h.value_of j)) ∧
      (¬ h.contains k → (h.insert k v).m_data.m_num = h.m_data.m_num + 1) ∧
      (h.contains k → (h.insert k v).m_data.m_num = h.m_data.m_num) := by
  obtain ⟨hW', hsame, hgrow, hcont⟩ := insert_spec hW hk v
  have hnew : Stored (h.insert k v) ⟨k, v⟩ := (hcont _).2 (Or.inl rfl)
  obtain ⟨_, hc, hv⟩ := hW'.contains_of_stored hnew
  refine ⟨hW', hc, hv, ?_, hgrow, hsame⟩
  refine frame_of_content hW hW' k ?_ ?_
  · intro e he
    rcases (hcont e).1 he with h1 | h1
    · right; rw [h1]
    · left; exact h1
  · intro e he hke
    exact (hcont e).2 (Or.inr ⟨he, hke⟩)

/-- The effect of `pop` on a well-formed non-empty heap, in terms of the membership
test and the value lookup. -/
theorem WellFormed.pop_abs {n : Nat} {h : iHeap V} (hW : WellFormed n h)
    (hpos : 0 < h.m_data.m_num) :
    ∃ k h', h.pop = some (k, h') ∧ WellFormed n h' ∧ k < n ∧ h.contains k ∧
      (∀ j, j < n → h.contains j → h.value_of k ≤ h.value_of j) ∧
      ¬ h'.contains k ∧
      (∀ j, j < n → j ≠ k →
        (h'.contains j ↔ h.contains j) ∧ (h.contains j → h'.value_of j = h.value_of j)) ∧
      h'.m_data.m_num + 1 = h.m_data.m_num := by
  obtain ⟨h', e, hW', hnum, hcont⟩ := pop_spec hW hpos
  have hroot : Stored h (h.m_data.m_data 0) := ⟨0, hpos, rfl⟩
  obtain ⟨hkn, hkc, hkv⟩ := hW.contains_of_stored hroot
  refine ⟨_, h', e, hW', hkn, hkc, ?_, ?_, ?_, hnum⟩
  · intro j hj hc
    obtain ⟨i, hi, hs⟩ := hW.stored_of_contains hj hc
    rw [hkv]
    have := hW.ordered.root_le i hi
    rw [hs] at this
    exact this
  · intro hc
    have hs := hW'.stored_of_contains hkn hc
    exact ((hcont _).1 hs).2 rfl
  · exact frame_of_content hW hW' (h.m_data.m_data 0).key
      (fun e he => Or.inl ((hcont e).1 he)) (fun e he hk => (hcont e).2 ⟨he, hk⟩)

end HeapLemmas

/-! ## The RR store keeps both sides in step -/

section RRLemmas

theorem pushAt_length (xs : List (List Nat)) (i v : Nat) :
    (pushAt xs i v).length = xs.length := by
  induction xs generalizing i with
  | nil => rfl
  | cons x xs ih =>
    cases i with
    | zero => rfl
    | succ i => simp [pushAt, ih]

theorem getD_pushAt (xs : List (List Nat)) (i v j : Nat) :
    (pushAt xs i v).getD j [] =
      if j = i ∧ i < xs.length then xs.getD i [] ++ [v] else xs.getD j [] := by
  induction xs generalizing i j with
  | nil => simp [pushAt]
  | cons x xs ih =>
    cases i with
    | zero =>
      cases j with
      | zero => simp [pushAt]
      | succ j => simp [pushAt]
    | succ i =>
      cases j with
      | zero => simp [pushAt]
      | succ j =>
        simp only [pushAt, List.getD_cons_succ, ih, List.length_cons]
        simp

theorem count_snoc (l : List Nat) (a b : Nat) :
    (l ++ [a]).count b = l.count b + if a = b then 1 else 0 := by
  rw [List.count_append]
  by_cases h : a = b
  · subst h; simp
  · rw [if_neg h, List.count_singleton]
    have h2 : ¬ (a == b) = true := by simpa using h
    simp [h2]

theorem RRBij.push {hG hGT : List (List Nat)} (hB : RRBij hG hGT) {v rr : Nat}
    (hv : v < hG.length) (hr : rr < hGT.length) :
    RRBij (pushAt hG v rr) (pushAt hGT rr v) := by
  intro i w
  rw [getD_pushAt, getD_pushAt]
  have := hB i w
  by_cases h1 : w = v
  · by_cases h2 : i = rr
    · subst h1; subst h2
      rw [if_pos ⟨rfl, hv⟩, if_pos ⟨rfl, hr⟩, count_snoc, count_snoc, this]
      simp
    · subst h1
      rw [if_pos ⟨rfl, hv⟩, if_neg (fun h => h2 h.1), count_snoc, this,
        if_neg (fun h => h2 h.symm)]
      rfl
  · by_cases h2 : i = rr
    · subst h2
      rw [if_neg (fun h => h1 h.1), if_pos ⟨rfl, hr⟩, count_snoc, this,
        if_neg (fun h => h1 h.symm)]
      rfl
    · rw [if_neg (fun h => h1 h.1), if_neg (fun h => h2 h.1)]
      exact this

theorem RRBij.push_empty {hG hGT : List (List Nat)} (hB : RRBij hG hGT) :
    RRBij hG (hGT ++ [[]]) := by
  intro i v
  rw [hB i v]
  congr 1
  by_cases h : i < hGT.length
  · simp [List.getD_eq_getElem?_getD, List.getElem?_append_left h]
  · have h1 : hGT.length ≤ i := Nat.le_of_not_lt h
    rw [List.getD_eq_getElem?_getD, List.getD_eq_getElem?_getD,
      List.getElem?_eq_none h1]
    rcases Nat.eq_or_lt_of_le h1 with h2 | h2
    · subst h2; simp
    · rw [List.getElem?_eq_none (by simp; omega)]

theorem WalkSteps.trans {n rr : Nat} {a b c : RRWalk} (h1 : WalkSteps n rr a b)
    (h2 : WalkSteps n rr b c) : WalkSteps n rr a c := by
  induction h2 with
  | refl => exact h1
  | draw s _ ih => exact WalkSteps.draw s ih
  | visit v _ hv hnv ih => exact WalkSteps.visit v ih hv hnv

theorem WalkSteps.draw_one {n rr : Nat} (st : RRWalk) (s : Sfmt) :
    WalkSteps n rr st { st with sfmt := s } :=
  WalkSteps.draw s (WalkSteps.refl st)

theorem WalkSteps.visit_one {n rr : Nat} (st : RRWalk) (s : Sfmt) {v : Nat} (hv : v < n)
    (hnv : st.visited.getD v false = false) :
    WalkSteps n rr st ({ st with sfmt := s }.visit rr v) :=
  WalkSteps.visit v (WalkSteps.draw s (WalkSteps.refl st)) hv hnv

theorem ic_edges_steps {n : Nat} (probs : List ℚ) (rr : Nat) :
    ∀ (vs : List Nat) (i : Nat) (st : RRWalk), (∀ v, v ∈ vs → v < n) →
      WalkSteps n rr st (InfGraph.ic_edges probs rr vs i st) := by
  intro vs
  induction vs with
  | nil => intro i st _; exact WalkSteps.refl st
  | cons v rest ih =>
    intro i st hvs
    have hv : v < n := hvs v (List.mem_cons_self v rest)
    have hrest : ∀ w, w ∈ rest → w < n := fun w hw => hvs w (List.mem_cons_of_mem v hw)
    simp only [InfGraph.ic_edges]
    split_ifs with h1 h2
    · exact (WalkSteps.visit_one st _ hv h1).trans (ih _ _ hrest)
    · exact (WalkSteps.draw_one st _).trans (ih _ _ hrest)
    · exact ih _ _ hrest

theorem ic_loop_steps {n : Nat} (g : InfGraph) (hg : ∀ u v, v ∈ g.gT.getD u [] → v < n)
    (rr : Nat) :
    ∀ (fuel head : Nat) (st : RRWalk), WalkSteps n rr st (InfGraph.ic_loop g rr fuel head st) := by
  intro fuel
  induction fuel with
  | zero => intro head st; exact WalkSteps.refl st
  | succ fuel ih =>
    intro head st
    simp only [InfGraph.ic_loop]
    split_ifs with h1
    · exact (ic_edges_steps _ rr _ 0 st (hg _)).trans (ih _ _)
    · exact WalkSteps.refl st

theorem lt_pick_mem (probs : List ℚ) :
    ∀ (vs : List Nat) (i : Nat) (r : ℚ) (v : Nat),
      InfGraph.lt_pick probs vs i r = some v → v ∈ vs := by
  intro vs
  induction vs with
  | nil => intro i r v h; simp [InfGraph.lt_pick] at h
  | cons w rest ih =>
    intro i r v h
    simp only [InfGraph.lt_pick] at h
    split_ifs at h with h1
    · cases h; exact List.mem_cons_self _ _
    · exact List.mem_cons_of_mem _ (ih _ _ _ h)

theorem lt_hop_steps {n : Nat} (g : InfGraph) (hg : ∀ u v, v ∈ g.gT.getD u [] → v < n)
    (rr u : Nat) (st : RRWalk) : WalkSteps n rr st (InfGraph.lt_hop g rr u st) := by
  unfold InfGraph.lt_hop
  split_ifs with h1
  · exact WalkSteps.refl st
  · cases hp : InfGraph.lt_pick (g.probT u) (g.gT.getD u []) 0 (sfmt_genrand_real1 st.sfmt).1 with
    | none => exact WalkSteps.draw_one st _
    | some v =>
      have hv : v < n := hg u v (lt_pick_mem _ _ _ _ _ hp)
      simp only
      split_ifs with h2
      · exact WalkSteps.visit_one st _ hv h2
      · exact WalkSteps.draw_one st _

theorem lt_loop_steps {n : Nat} (g : InfGraph) (hg : ∀ u v, v ∈ g.gT.getD u [] → v < n)
    (rr : Nat) :
    ∀ (fuel head : Nat) (st : RRWalk), WalkSteps n rr st (InfGraph.lt_loop g rr fuel head st) := by
  intro fuel
  induction fuel with
  | zero => intro head st; exact WalkSteps.refl st
  | succ fuel ih =>
    intro head st
    simp only [InfGraph.lt_loop]
    split_ifs with h1
    · exact (lt_hop_steps g hg rr _ st).trans (ih _ _)
    · exact WalkSteps.refl st

theorem ic_edges_stoppable_steps {n : Nat} (probs : List ℚ) (rr : Nat)
    (is_target : List Bool) :
    ∀ (vs : List Nat) (i : Nat) (st : RRWalk), (∀ v, v ∈ vs → v < n) →
      WalkSteps n rr st (InfGraph.ic_edges_stoppable probs rr is_target vs i st).1 := by
  intro vs
  induction vs with
  | nil => intro i st _; exact WalkSteps.refl st
  | cons v rest ih =>
    intro i st hvs
    have hv : v < n := hvs v (List.mem_cons_self v rest)
    have hrest : ∀ w, w ∈ rest → w < n := fun w hw => hvs w (List.mem_cons_of_mem v hw)
    simp only [InfGraph.ic_edges_stoppable]
    split_ifs with h1 h2 h3
    · exact WalkSteps.visit_one st _ hv h1
    · exact (WalkSteps.visit_one st _ hv h1).trans (ih _ _ hrest)
    · exact (WalkSteps.draw_one st _).trans (ih _ _ hrest)
    · exact ih _ _ hrest

theorem ic_loop_stoppable_steps {n : Nat} (g : InfGraph)
    (hg : ∀ u v, v ∈ g.gT.getD u [] → v < n) (rr : Nat) (is_target : List Bool) :
    ∀ (fuel head : Nat) (st : RRWalk),
      WalkSteps n rr st (InfGraph.ic_loop_stoppable g rr is_target fuel head st) := by
  intro fuel
  induction fuel with
  | zero => intro head st; exact WalkSteps.refl st
  | succ fuel ih =>
    intro head st
    simp only [InfGraph.ic_loop_stoppable]
    split_ifs with h1 h2
    · exact ic_edges_stoppable_steps _ rr _ _ 0 st (hg _)
    · exact (ic_edges_stoppable_steps _ rr _ _ 0 st (hg _)).trans (ih _ _)
    · exact WalkSteps.refl st

theorem lt_hop_stoppable_steps {n : Nat} (g : InfGraph)
    (hg : ∀ u v, v ∈ g.gT.getD u [] → v < n) (rr : Nat) (is_target : List Bool) (u : Nat)
    (st : RRWalk) : WalkSteps n rr st (InfGraph.lt_hop_stoppable g rr is_target u st).1 := by
  unfold InfGraph.lt_hop_stoppable
  split_ifs with h1
  · exact WalkSteps.refl st
  · cases hp : InfGraph.lt_pick (g.probT u) (g.gT.getD u []) 0 (sfmt_genrand_real1 st.sfmt).1 with
    | none => exact WalkSteps.draw_one st _
    | some v =>
      have hv : v < n := hg u v (lt_pick_mem _ _ _ _ _ hp)
      simp only
      split_ifs with h2
      · exact WalkSteps.visit_one st _ hv h2
      · exact WalkSteps.draw_one st _

theorem lt_loop_stoppable_steps {n : Nat} (g : InfGraph)
    (hg : ∀ u v, v ∈ g.gT.getD u [] → v < n) (rr : Nat) (is_target : List Bool) :
    ∀ (fuel head : Nat) (st : RRWalk),
      WalkSteps n rr st (InfGraph.lt_loop_stoppable g rr is_target fuel head st) := by
  intro fuel
  induction fuel with
  | zero => intro head st; exact WalkSteps.refl st
  | succ fuel ih =>
    intro head st
    simp only [InfGraph.lt_loop_stoppable]
    split_ifs with h1 h2
    · exact lt_hop_stoppable_steps g hg rr _ _ st
    · exact (lt_hop_stoppable_steps g hg rr _ _ st).trans (ih _ _)
    · exact WalkSteps.refl st

/-- Visits keep the store invariant. -/
theorem WalkSteps.storeInv {n rr : Nat} {st st' : RRWalk} (h : WalkSteps n rr st st')
    (hI : StoreInv n rr st.hyperG st.hyperGT) : StoreInv n rr st'.hyperG st'.hyperGT := by
  induction h with
  | refl => exact hI
  | draw s _ ih => exact ih
  | @visit a v _ hv _ ih =>
    refine ⟨?_, ?_, ?_⟩
    · show (pushAt a.hyperG v rr).length = n
      rw [pushAt_length]; exact ih.len
    · show rr < (pushAt a.hyperGT rr v).length
      rw [pushAt_length]; exact ih.idx_lt
    · exact ih.bij.push (by rw [ih.len]; exact hv) ih.idx_lt

theorem StoreInv.start {n rr : Nat} {hG hGT : List (List Nat)} (hI : StoreInv n rr hG hGT)
    (s : Sfmt) {v : Nat} (hv : v < n) :
    StoreInv n rr (RRWalk.start n hG hGT s v rr).hyperG
      (RRWalk.start n hG hGT s v rr).hyperGT := by
  refine ⟨?_, ?_, ?_⟩
  · show (pushAt hG v rr).length = n
    rw [pushAt_length]; exact hI.len
  · show rr < (pushAt hGT rr v).length
    rw [pushAt_length]; exact hI.idx_lt
  · exact hI.bij.push (by rw [hI.len]; exact hv) hI.idx_lt

theorem WalkSteps.hyperGT_length {n rr : Nat} {st st' : RRWalk}
    (h : WalkSteps n rr st st') : st'.hyperGT.length = st.hyperGT.length := by
  induction h with
  | refl => rfl
  | draw s _ ih => exact ih
  | @visit a v _ _ _ ih =>
    show (pushAt a.hyperGT rr v).length = _
    rw [pushAt_length]; exact ih

theorem foldl_range_inv {α : Type} (f : α → Nat → α) (P : Nat → α → Prop) (a : α)
    (h0 : P 0 a) (hs : ∀ k x, P k x → P (k + 1) (f x k)) :
    ∀ R, P R ((List.range R).foldl f a) := by
  intro R
  induction R with
  | zero => simpa using h0
  | succ R ih =>
    rw [List.range_succ, List.foldl_append]
    exact hs R _ ih

theorem GenKeeps.of_walk {g : InfGraph} {rr v : Nat} {st : RRWalk}
    (hI : StoreInv g.n rr g.hyperG g.hyperGT) (hv : v < g.n)
    (hw : WalkSteps g.n rr (RRWalk.start g.n g.hyperG g.hyperGT g.sfmt v rr) st) :
    GenKeeps g (g.commit st) rr := by
  refine ⟨rfl, rfl, rfl, hw.storeInv (hI.start g.sfmt hv), ?_⟩
  show st.hyperGT.length = _
  rw [hw.hyperGT_length]
  show (pushAt g.hyperGT rr v).length = _
  rw [pushAt_length]

theorem GenKeeps.of_target {g : InfGraph} {rr v : Nat}
    (hI : StoreInv g.n rr g.hyperG g.hyperGT) (hv : v < g.n) :
    GenKeeps g { g with hyperGT := pushAt g.hyperGT rr v, hyperG := pushAt g.hyperG v rr }
      rr := by
  refine ⟨rfl, rfl, rfl, ⟨?_, ?_, ?_⟩, ?_⟩
  · show (pushAt g.hyperG v rr).length = _
    rw [pushAt_length]; exact hI.len
  · show rr < (pushAt g.hyperGT rr v).length
    rw [pushAt_length]; exact hI.idx_lt
  · exact hI.bij.push (by rw [hI.len]; exact hv) hI.idx_lt
  · show (pushAt g.hyperGT rr v).length = _
    rw [pushAt_length]

theorem generate_rr_set_ic_keeps {g : InfGraph} (hG : GraphOK g.toGraph) {rr v : Nat}
    (hI : StoreInv g.n rr g.hyperG g.hyperGT) (hv : v < g.n) :
    GenKeeps g (g.generate_rr_set_ic v rr) rr :=
  GenKeeps.of_walk hI hv (ic_loop_steps g hG.gT_lt rr _ _ _)

theorem generate_rr_set_lt_keeps {g : InfGraph} (hG : GraphOK g.toGraph) {rr v : Nat}
    (hI : StoreInv g.n rr g.hyperG g.hyperGT) (hv : v < g.n) :
    GenKeeps g (g.generate_rr_set_lt v rr) rr :=
  GenKeeps.of_walk hI hv (lt_loop_steps g hG.gT_lt rr _ _ _)

theorem generate_rr_set_ic_stoppable_keeps {g : InfGraph} (hG : GraphOK g.toGraph)
    {rr v : Nat} (is_target : List Bool)
    (hI : StoreInv g.n rr g.hyperG g.hyperGT) (hv : v < g.n) :
    GenKeeps g (g.generate_rr_set_ic_stoppable v rr is_target) rr := by
  unfold InfGraph.generate_rr_set_ic_stoppable
  split_ifs
  · exact GenKeeps.of_target hI hv
  · exact GenKeeps.of_walk hI hv (ic_loop_stoppable_steps g hG.gT_lt rr _ _ _ _)

theorem generate_rr_set_lt_stoppable_keeps {g : InfGraph} (hG : GraphOK g.toGraph)
    {rr v : Nat} (is_target : List Bool)
    (hI : StoreInv g.n rr g.hyperG g.hyperGT) (hv : v < g.n) :
    GenKeeps g (g.generate_rr_set_lt_stoppable v rr is_target) rr := by
  unfold InfGraph.generate_rr_set_lt_stoppable
  split_ifs
  · exact GenKeeps.of_target hI hv
  · exact GenKeeps.of_walk hI hv (lt_loop_stoppable_steps g hG.gT_lt rr _ _ _ _)

/-- The state handed to a generator by pass `i` of a build loop satisfies the store
invariant for the index `i`, as long as the store already holds at least `i` sets. -/
theorem StoreInv.of_push {g : InfGraph} (hI : RRInv g) {i : Nat}
    (hi : i ≤ g.hyperGT.length) (s : Sfmt) :
    StoreInv ({ g with hyperGT := g.hyperGT ++ [[]], sfmt := s } : InfGraph).n i
      ({ g with hyperGT := g.hyperGT ++ [[]], sfmt := s } : InfGraph).hyperG
      ({ g with hyperGT := g.hyperGT ++ [[]], sfmt := s } : InfGraph).hyperGT := by
  refine ⟨hI.len, ?_, hI.bij.push_empty⟩
  show i < (g.hyperGT ++ [[]]).length
  simp; omega

/-- One pass of either build loop. -/
theorem build_step_keeps {g g' : InfGraph} {i : Nat} (hI : RRInv g) (s : Sfmt)
    (hk : GenKeeps { g with hyperGT := g.hyperGT ++ [[]], sfmt := s } g' i) :
    RRInv g' ∧ g'.hyperGT.length = g.hyperGT.length + 1 ∧ g'.toGraph = g.toGraph := by
  have hgr : g'.toGraph = g.toGraph := hk.graph
  refine ⟨⟨hgr ▸ hI.graph, ?_, hk.inv.bij⟩, ?_, hgr⟩
  · rw [hk.inv.len, hgr]
  · rw [hk.count]; simp

theorem build_r_step_keeps {g : InfGraph} {i : Nat} (hI : RRInv g)
    (hi : i ≤ g.hyperGT.length) :
    RRInv (g.build_r_step i) ∧ (g.build_r_step i).hyperGT.length = g.hyperGT.length + 1 ∧
      (g.build_r_step i).toGraph = g.toGraph := by
  have hv : (sfmt_genrand_uint32 g.sfmt).1 % g.n < g.n := Nat.mod_lt _ hI.graph.n_pos
  have hS := StoreInv.of_push hI hi (sfmt_genrand_uint32 g.sfmt).2
  unfold InfGraph.build_r_step
  split
  · exact build_step_keeps hI _ (generate_rr_set_lt_keeps
      (g := { g with hyperGT := g.hyperGT ++ [[]], sfmt := (sfmt_genrand_uint32 g.sfmt).2 })
      hI.graph hS hv)
  · exact build_step_keeps hI _ (generate_rr_set_ic_keeps
      (g := { g with hyperGT := g.hyperGT ++ [[]], sfmt := (sfmt_genrand_uint32 g.sfmt).2 })
      hI.graph hS hv)

theorem build_min_step_keeps {g : InfGraph} {i : Nat} (is_target : List Bool)
    (hI : RRInv g) (hi : i ≤ g.hyperGT.length) :
    RRInv (InfGraph.build_min_step is_target g i) ∧
      (InfGraph.build_min_step is_target g i).hyperGT.length = g.hyperGT.length + 1 ∧
      (InfGraph.build_min_step is_target g i).toGraph = g.toGraph := by
  have hv : (sfmt_genrand_uint32 g.sfmt).1 % g.n < g.n := Nat.mod_lt _ hI.graph.n_pos
  have hS := StoreInv.of_push hI hi (sfmt_genrand_uint32 g.sfmt).2
  unfold InfGraph.build_min_step
  split
  · exact build_step_keeps hI _ (generate_rr_set_lt_stoppable_keeps
      (g := { g with hyperGT := g.hyperGT ++ [[]], sfmt := (sfmt_genrand_uint32 g.sfmt).2 })
      hI.graph _ hS hv)
  · exact build_step_keeps hI _ (generate_rr_set_ic_stoppable_keeps
      (g := { g with hyperGT := g.hyperGT ++ [[]], sfmt := (sfmt_genrand_uint32 g.sfmt).2 })
      hI.graph _ hS hv)

theorem build_hyper_graph_r_inv {g g' : InfGraph} (R : Int) (hI : RRInv g)
    (hb : g.build_hyper_graph_r R = some g') : RRInv g' := by
  unfold InfGraph.build_hyper_graph_r at hb
  split_ifs at hb
  cases hb
  have := foldl_range_inv InfGraph.build_r_step
    (fun k x => RRInv x ∧ k ≤ x.hyperGT.length) g ⟨hI, Nat.zero_le _⟩
    (fun k x hx => by
      obtain ⟨h1, h2, _⟩ := build_r_step_keeps hx.1 hx.2
      exact ⟨h1, by omega⟩) R.toNat
  exact this.1

theorem build_hyper_graph_for_minimization_inv {g g' : InfGraph} (R : Int)
    (negative_seeds : List Int) (hI : RRInv g)
    (hb : g.build_hyper_graph_for_minimization R negative_seeds = some g') : RRInv g' := by
  unfold InfGraph.build_hyper_graph_for_minimization at hb
  split_ifs at hb
  cases hb
  have := foldl_range_inv (InfGraph.build_min_step (InfGraph.flag_nodes g.n negative_seeds))
    (fun k x => RRInv x ∧ k ≤ x.hyperGT.length) g ⟨hI, Nat.zero_le _⟩
    (fun k x hx => by
      obtain ⟨h1, h2, _⟩ := build_min_step_keeps _ hx.1 hx.2
      exact ⟨h1, by omega⟩) R.toNat
  exact this.1

theorem init_hyper_graph_inv (g : InfGraph) (hG : GraphOK g.toGraph) :
    RRInv g.init_hyper_graph := by
  refine ⟨hG, ?_, ?_⟩
  · show (List.replicate g.n ([] : List Nat)).length = g.n
    simp
  · intro i v
    show ((List.replicate g.n ([] : List Nat)).getD v []).count i = (([] : List (List Nat)).getD i []).count v
    have : (List.replicate g.n ([] : List Nat)).getD v [] = [] := by
      rw [List.getD_eq_getElem?_getD]
      by_cases h : v < g.n
      · simp [List.getElem?_replicate, h]
      · simp [List.getElem?_replicate, h]
    rw [this]
    simp

theorem RRReached.inv {g : InfGraph} (h : RRReached g) : RRInv g := by
  induction h with
  | init g hG => exact init_hyper_graph_inv g hG
  | build_r R _ hb ih => exact build_hyper_graph_r_inv R ih hb
  | build_min R seeds _ hb ih => exact build_hyper_graph_for_minimization_inv R seeds ih hb
  | set_model p _ ih => exact ⟨ih.graph, ih.len, ih.bij⟩
  | @set_prob g g' name _ hs ih =>
    unfold InfGraph.setActiveProbabilityModel at hs
    split_ifs at hs <;> cases hs <;> exact ⟨ih.graph, ih.len, ih.bij⟩

end RRLemmas

/-! ### The bound on the passes of a generation -/

section RRFuel

theorem count_set_true : ∀ (l : List Bool) (v : Nat), v < l.length →
    l.getD v false = false → (l.set v true).count true = l.count true + 1
  | [], v, h, _ => absurd h (Nat.not_lt_zero v)
  | b :: l, 0, _, h0 => by
    have hb : b = false := h0
    subst hb
    simp
  | b :: l, v + 1, h, h0 => by
    have ih := count_set_true l v (Nat.lt_of_succ_lt_succ h) h0
    rw [List.set_cons_succ, List.count_cons, List.count_cons, ih]
    omega

theorem queueOK_start (n : Nat) (hG hGT : List (List Nat)) (s : Sfmt) {v : Nat}
    (hv : v < n) (rr : Nat) : QueueOK n (RRWalk.start n hG hGT s v rr) := by
  refine ⟨?_, ?_⟩
  · simp [RRWalk.start]
  · show [v].length = ((List.replicate n false).set v true).count true
    have h0 : (List.replicate n false).getD v false = false := by
      rw [List.getD_eq_getElem?_getD, List.getElem?_replicate]
      split_ifs
      all_goals rfl
    have h1 : List.count true (List.replicate n false) = 0 := by
      rw [List.count_replicate]; simp
    rw [count_set_true _ v (by simpa using hv) h0, h1]
    rfl

theorem WalkSteps.queueOK {n rr : Nat} {st st' : RRWalk} (h : WalkSteps n rr st st')
    (hI : QueueOK n st) : QueueOK n st' := by
  induction h with
  | refl => exact hI
  | draw s _ ih => exact ⟨ih.flags, ih.queued⟩
  | visit v _ hv hnv ih =>
    refine ⟨?_, ?_⟩
    · show (List.set _ v true).length = n
      rw [List.length_set]; exact ih.flags
    · show (_ ++ [v]).length = (List.set _ v true).count true
      rw [count_set_true _ v (by rw [ih.flags]; exact hv) hnv, List.length_append,
        List.length_singleton, ih.queued]

theorem QueueOK.length_le {n : Nat} {st : RRWalk} (h : QueueOK n st) : st.q.length ≤ n := by
  rw [h.queued, ← h.flags]
  exact List.count_le_length _ _

/-- More than `n` passes change nothing in `generate_rr_set_ic`: the loop has stopped
by then. -/
theorem ic_loop_fuel {n : Nat} (g : InfGraph) (hg : ∀ u v, v ∈ g.gT.getD u [] → v < n)
    (rr : Nat) :
    ∀ (fuel head : Nat) (st : RRWalk), QueueOK n st → n ≤ fuel + head → ∀ k,
      InfGraph.ic_loop g rr (fuel + k) head st = InfGraph.ic_loop g rr fuel head st := by
  intro fuel
  induction fuel with
  | zero =>
    intro head st hI hn k
    have hle := hI.length_le
    cases k with
    | zero => rfl
    | succ k =>
      show InfGraph.ic_loop g rr (0 + k + 1) head st = st
      rw [InfGraph.ic_loop, if_neg (by omega)]
  | succ fuel ih =>
    intro head st hI hn k
    have e : fuel + 1 + k = (fuel + k) + 1 := by omega
    rw [e, InfGraph.ic_loop, InfGraph.ic_loop]
    split_ifs with h
    · exact ih _ _ ((ic_edges_steps _ rr _ 0 st (hg _)).queueOK hI) (by omega) k
    · rfl

/-- More than `n` passes change nothing in `generate_rr_set_lt`. -/
theorem lt_loop_fuel {n : Nat} (g : InfGraph) (hg : ∀ u v, v ∈ g.gT.getD u [] → v < n)
    (rr : Nat) :
    ∀ (fuel head : Nat) (st : RRWalk), QueueOK n st → n ≤ fuel + head → ∀ k,
      InfGraph.lt_loop g rr (fuel + k) head st = InfGraph.lt_loop g rr fuel head st := by
  intro fuel
  induction fuel with
  | zero =>
    intro head st hI hn k
    have hle := hI.length_le
    cases k with
    | zero => rfl
    | succ k =>
      show InfGraph.lt_loop g rr (0 + k + 1) head st = st
      rw [InfGraph.lt_loop, if_neg (by omega)]
  | succ fuel ih =>
    intro head st hI hn k
    have e : fuel + 1 + k = (fuel + k) + 1 := by omega
    rw [e, InfGraph.lt_loop, InfGraph.lt_loop]
    split_ifs with h
    · exact ih _ _ ((lt_hop_steps g hg rr _ st).queueOK hI) (by omega) k
    · rfl

/-- More than `n` passes change nothing in `generate_rr_set_ic_stoppable`. -/
theorem ic_loop_stoppable_fuel {n : Nat} (g : InfGraph)
    (hg : ∀ u v, v ∈ g.gT.getD u [] → v < n) (rr : Nat) (is_target : List Bool) :
    ∀ (fuel head : Nat) (st : RRWalk), QueueOK n st → n ≤ fuel + head → ∀ k,
      InfGraph.ic_loop_stoppable g rr is_target (fuel + k) head st
        = InfGraph.ic_loop_stoppable g rr is_target fuel head st := by
  intro fuel
  induction fuel with
  | zero =>
    intro head st hI hn k
    have hle := hI.length_le
    cases k with
    | zero => rfl
    | succ k =>
      show InfGraph.ic_loop_stoppable g rr is_target (0 + k + 1) head st = st
      rw [InfGraph.ic_loop_stoppable, if_neg (by omega)]
  | succ fuel ih =>
    intro head st hI hn k
    have e : fuel + 1 + k = (fuel + k) + 1 := by omega
    rw [e, InfGraph.ic_loop_stoppable, InfGraph.ic_loop_stoppable]
    split_ifs with h h2
    · rfl
    · exact ih _ _ ((ic_edges_stoppable_steps _ rr is_target _ 0 st (hg _)).queueOK hI)
        (by omega) k
    · rfl

/-- More than `n` passes change nothing in `generate_rr_set_lt_stoppable`. -/
theorem lt_loop_stoppable_fuel {n : Nat} (g : InfGraph)
    (hg : ∀ u v, v ∈ g.gT.getD u [] → v < n) (rr : Nat) (is_target : List Bool) :
    ∀ (fuel head : Nat) (st : RRWalk), QueueOK n st → n ≤ fuel + head → ∀ k,
      InfGraph.lt_loop_stoppable g rr is_target (fuel + k) head st
        = InfGraph.lt_loop_stoppable g rr is_target fuel head st := by
  intro fuel
  induction fuel with
  | zero =>
    intro head st hI hn k
    have hle := hI.length_le
    cases k with
    | zero => rfl
    | succ k =>
      show InfGraph.lt_loop_stoppable g rr is_target (0 + k + 1) head st = st
      rw [InfGraph.lt_loop_stoppable, if_neg (by omega)]
  | succ fuel ih =>
    intro head st hI hn k
    have e : fuel + 1 + k = (fuel + k) + 1 := by omega
    rw [e, InfGraph.lt_loop_stoppable, InfGraph.lt_loop_stoppable]
    split_ifs with h h2
    · rfl
    · exact ih _ _ ((lt_hop_stoppable_steps g hg rr is_target _ st).queueOK hI) (by omega) k
    · rfl

end RRFuel

/-! ## The greedy selection -/

section GreedyLemmas

theorem cover_nodes_spec {n : Nat} (excl : List Bool) :
    ∀ (nodes : List Nat) (h : iHeap Int), WellFormed n h → (∀ v, v ∈ nodes → v < n) →
      (∀ j, j < n → h.contains j → excl.getD j false = false) →
      WellFormed n (InfGraph.cover_nodes excl nodes h) ∧
      (InfGraph.cover_nodes excl nodes h).m_data.m_num = h.m_data.m_num ∧
      (∀ j, j < n → ((InfGraph.cover_nodes excl nodes h).contains j ↔ h.contains j)) ∧
      (∀ j, j < n → h.contains j →
        (InfGraph.cover_nodes excl nodes h).value_of j = h.value_of j + (nodes.count j : Int)) := by
  intro nodes
  induction nodes with
  | nil =>
    intro h hW _ _
    exact ⟨hW, rfl, fun _ _ => Iff.rfl, fun j _ _ => by simp [InfGraph.cover_nodes]⟩
  | cons v rest ih =>
    intro h hW hlt hex
    have hv : v < n := hlt v (List.mem_cons_self v rest)
    have hrest : ∀ w, w ∈ rest → w < n := fun w hw => hlt w (List.mem_cons_of_mem v hw)
    simp only [InfGraph.cover_nodes]
    split_ifs with hskip
    · obtain ⟨h1, h2, h3, h4⟩ := ih h hW hrest hex
      refine ⟨h1, h2, h3, ?_⟩
      intro j hj hc
      rw [h4 j hj hc]
      have hjv : v ≠ j := by
        intro e
        subst e
        rw [Bool.or_eq_true] at hskip
        rcases hskip with h5 | h5
        · rw [hex v hj hc] at h5; exact Bool.noConfusion h5
        · unfold iHeap.contains at hc; rw [hc] at h5; exact Bool.noConfusion h5
      rw [List.count_cons_of_ne (fun e => hjv e.symm)]
    · rw [Bool.or_eq_true, not_or] at hskip
      have hcv : h.contains v := by
        unfold iHeap.contains
        cases hb : h.pos.notexist v with
        | true => exact absurd hb hskip.2
        | false => rfl
      obtain ⟨hW1, hc1, hv1, hfr, _, hsame⟩ := hW.insert_abs hv (h.value_of v + 1)
      have hex1 : ∀ j, j < n → (h.insert v (h.value_of v + 1)).contains j →
          excl.getD j false = false := by
        intro j hj hc
        by_cases hjv : j = v
        · subst hjv; exact hex j hj hcv
        · exact hex j hj ((hfr j hj hjv).1.1 hc)
      obtain ⟨h1, h2, h3, h4⟩ := ih _ hW1 hrest hex1
      refine ⟨h1, h2.trans (hsame hcv), ?_, ?_⟩
      · intro j hj
        rw [h3 j hj]
        by_cases hjv : j = v
        · subst hjv; exact ⟨fun _ => hcv, fun _ => hc1⟩
        · exact (hfr j hj hjv).1
      · intro j hj hc
        by_cases hjv : j = v
        · subst hjv
          rw [h4 j hj hc1, hv1, List.count_cons_self]
          push_cast
          ring
        · rw [h4 j hj ((hfr j hj hjv).1.2 hc), (hfr j hj hjv).2 hc,
            List.count_cons_of_ne hjv]

theorem getD_set_bool (l : List Bool) (i j : Nat) (a d : Bool) :
    (l.set i a).getD j d = if i = j ∧ i < l.length then a else l.getD j d := by
  induction l generalizing i j with
  | nil => simp
  | cons x xs ih =>
    cases i with
    | zero =>
      cases j with
      | zero => simp
      | succ j => simp
    | succ i =>
      cases j with
      | zero => simp
      | succ j =>
        simp only [List.set_cons_succ, List.getD_cons_succ, ih, List.length_cons]
        simp

theorem uncovered_cons (c : List Bool) (x : Nat) (l : List Nat) :
    uncovered c (x :: l) = (if c.getD x false = false then 1 else 0) + uncovered c l := by
  unfold uncovered
  rw [List.filter_cons]
  by_cases h : c.getD x false = false
  · rw [if_pos (decide_eq_true h), if_pos h, List.length_cons]; omega
  · rw [if_neg (fun hd => h (of_decide_eq_true hd)), if_neg h]; omega

theorem uncovered_set (c : List Bool) (rr : Nat) (hrr : c.getD rr false = false)
    (hlt : rr < c.length) (l : List Nat) :
    uncovered (c.set rr true) l + l.count rr = uncovered c l := by
  induction l with
  | nil => rfl
  | cons x l ih =>
    rw [uncovered_cons, uncovered_cons]
    by_cases hx : x = rr
    · subst hx
      have h1 : ¬ (c.set x true).getD x false = false := by
        rw [getD_set_bool, if_pos ⟨rfl, hlt⟩]; exact Bool.noConfusion
      rw [if_neg h1, if_pos hrr, List.count_cons_self]
      omega
    · have h1 : (c.set rr true).getD x false = c.getD x false := by
        rw [getD_set_bool, if_neg (fun h => hx h.1.symm)]
      rw [h1, List.count_cons_of_ne (fun e => hx e.symm)]
      omega

theorem getD_ne_nil_lt {l : List (List Nat)} {v : Nat} (h : l.getD v [] ≠ []) :
    v < l.length := by
  by_contra hge
  apply h
  rw [List.getD_eq_getElem?_getD, List.getElem?_eq_none (Nat.le_of_not_lt hge)]
  rfl

/-- In a store whose two sides agree, a member of an RR set is a row index of
`hyperG`. -/
theorem RRBij.node_lt {hG hGT : List (List Nat)} (hB : RRBij hG hGT) {i v : Nat}
    (hv : v ∈ hGT.getD i []) : v < hG.length := by
  apply getD_ne_nil_lt
  intro he
  have h1 : 0 < (hGT.getD i []).count v := List.count_pos_iff.mpr hv
  rw [← hB i v, he] at h1
  simp at h1

/-- In a store whose two sides agree, an entry of a row of `hyperG` is the index of an
RR set. -/
theorem RRBij.idx_lt {hG hGT : List (List Nat)} (hB : RRBij hG hGT) {i v : Nat}
    (hi : i ∈ hG.getD v []) : i < hGT.length := by
  apply getD_ne_nil_lt
  intro he
  have h1 : 0 < (hG.getD v []).count i := List.count_pos_iff.mpr hi
  rw [hB i v, he] at h1
  simp at h1

theorem cover_sets_spec {n : Nat} {hyperG hyperGT : List (List Nat)}
    (hlen : hyperG.length = n) (hbij : RRBij hyperG hyperGT) (excl : List Bool) :
    ∀ (rrs : List Nat) (covered : List Bool) (h : iHeap Int), WellFormed n h →
      covered.length = hyperGT.length → (∀ rr, rr ∈ rrs → rr < hyperGT.length) →
      (∀ j, j < n → h.contains j → excl.getD j false = false) →
      (∀ j, j < n → h.contains j → h.value_of j = -((residual hyperG covered j : Nat) : Int)) →
      WellFormed n (InfGraph.cover_sets hyperGT excl rrs (covered, h)).2 ∧
      (InfGraph.cover_sets hyperGT excl rrs (covered, h)).1.length = hyperGT.length ∧
      (InfGraph.cover_sets hyperGT excl rrs (covered, h)).2.m_data.m_num = h.m_data.m_num ∧
      (∀ j, j < n →
        ((InfGraph.cover_sets hyperGT excl rrs (covered, h)).2.contains j ↔ h.contains j)) ∧
      (∀ j, j < n → h.contains j →
        (InfGraph.cover_sets hyperGT excl rrs (covered, h)).2.value_of j =
          -((residual hyperG (InfGraph.cover_sets hyperGT excl rrs (covered, h)).1 j : Nat)
              : Int)) ∧
      (∀ i, (InfGraph.cover_sets hyperGT excl rrs (covered, h)).1.getD i false = true ↔
        (covered.getD i false = true ∨ i ∈ rrs)) := by
  intro rrs
  induction rrs with
  | nil =>
    intro covered h hW hcl _ _ hval
    exact ⟨hW, hcl, rfl, fun _ _ => Iff.rfl, hval, fun i => by simp [InfGraph.cover_sets]⟩
  | cons rr rest ih =>
    intro covered h hW hcl hlt hex hval
    have hrr : rr < hyperGT.length := hlt rr (List.mem_cons_self rr rest)
    have hrest : ∀ w, w ∈ rest → w < hyperGT.length :=
      fun w hw => hlt w (List.mem_cons_of_mem rr hw)
    simp only [InfGraph.cover_sets]
    split_ifs with hunc
    · have hnodes : ∀ v, v ∈ hyperGT.getD rr [] → v < n :=
        fun v hv => hlen ▸ hbij.node_lt hv
      obtain ⟨hW1, hn1, hc1, hv1⟩ := cover_nodes_spec excl _ h hW hnodes hex
      have hex1 : ∀ j, j < n →
          (InfGraph.cover_nodes excl (hyperGT.getD rr []) h).contains j →
          excl.getD j false = false := fun j hj hc => hex j hj ((hc1 j hj).1 hc)
      have hval1 : ∀ j, j < n →
          (InfGraph.cover_nodes excl (hyperGT.getD rr []) h).contains j →
          (InfGraph.cover_nodes excl (hyperGT.getD rr []) h).value_of j
            = -((residual hyperG (covered.set rr true) j : Nat) : Int) := by
        intro j hj hc
        have hcj := (hc1 j hj).1 hc
        rw [hv1 j hj hcj, hval j hj hcj, ← hbij rr j]
        have := uncovered_set covered rr hunc (by rw [hcl]; exact hrr) (hyperG.getD j [])
        unfold residual
        omega
      obtain ⟨h1, h2, h3, h4, h5, h6⟩ := ih (covered.set rr true) _ hW1
        (by rw [List.length_set]; exact hcl) hrest hex1 hval1
      refine ⟨h1, h2, h3.trans hn1, fun j hj => (h4 j hj).trans (hc1 j hj),
        fun j hj hc => h5 j hj ((hc1 j hj).2 hc), ?_⟩
      intro i
      rw [h6 i, getD_set_bool]
      by_cases hi : rr = i
      · subst hi
        simp [hcl, hrr]
      · rw [if_neg (fun h => hi h.1)]
        simp [List.mem_cons, Ne.symm hi]
    · obtain ⟨h1, h2, h3, h4, h5, h6⟩ := ih covered h hW hcl hrest hex hval
      refine ⟨h1, h2, h3, h4, h5, ?_⟩
      intro i
      rw [h6 i]
      have hcov : covered.getD rr false = true := by
        cases hb : covered.getD rr false with
        | true => rfl
        | false => exact absurd hb hunc
      constructor
      · rintro (h7 | h7)
        · exact Or.inl h7
        · exact Or.inr (List.mem_cons_of_mem rr h7)
      · rintro (h7 | h7)
        · exact Or.inl h7
        · rcases List.mem_cons.mp h7 with h8 | h8
          · subst h8; exact Or.inl hcov
          · exact Or.inr h8

theorem candb_iff (hyperG : List (List Nat)) (excl : List Bool) (w : Nat) :
    candb hyperG excl w = true ↔ excl.getD w false = false ∧ hyperG.getD w [] ≠ [] := by
  unfold candb
  cases excl.getD w false <;> cases h : hyperG.getD w [] <;> simp

theorem fill_skip_iff (hyperG : List (List Nat)) (excl : List Bool) (w : Nat) :
    (excl.getD w false || (hyperG.getD w []).isEmpty) = true ↔ candb hyperG excl w = false := by
  unfold candb
  cases excl.getD w false <;> cases h : hyperG.getD w [] <;> simp

theorem fill_heap_spec {n : Nat} (hyperG : List (List Nat)) (excl : List Bool) :
    ∀ (l : List Nat) (h : iHeap Int), WellFormed n h → l.Nodup → (∀ i, i ∈ l → i < n) →
      (∀ i, i ∈ l → ¬ h.contains i) →
      WellFormed n (InfGraph.fill_heap hyperG excl l h) ∧
      (InfGraph.fill_heap hyperG excl l h).m_data.m_num
        = h.m_data.m_num + (l.filter (candb hyperG excl)).length ∧
      (∀ j, j < n → ((InfGraph.fill_heap hyperG excl l h).contains j ↔
        (h.contains j ∨ (j ∈ l ∧ candb hyperG excl j = true)))) ∧
      (∀ j, j < n → j ∈ l → candb hyperG excl j = true →
        (InfGraph.fill_heap hyperG excl l h).value_of j
          = -(((hyperG.getD j []).length : Nat) : Int)) ∧
      (∀ j, j < n → h.contains j →
        (InfGraph.fill_heap hyperG excl l h).value_of j = h.value_of j) := by
  intro l
  induction l with
  | nil =>
    intro h hW _ _ _
    refine ⟨hW, by simp [InfGraph.fill_heap], fun j _ => by simp [InfGraph.fill_heap], ?_,
      fun _ _ _ => rfl⟩
    intro j _ hj; exact absurd hj (List.not_mem_nil j)
  | cons i rest ih =>
    intro h hW hnd hlt hnc
    have hi : i < n := hlt i (List.mem_cons_self i rest)
    have hrest : ∀ w, w ∈ rest → w < n := fun w hw => hlt w (List.mem_cons_of_mem i hw)
    have hnd' := (List.nodup_cons.mp hnd)
    simp only [InfGraph.fill_heap]
    split_ifs with hskip
    · rw [fill_skip_iff] at hskip
      obtain ⟨h1, h2, h3, h4, h4'⟩ := ih h hW hnd'.2 hrest
        (fun w hw => hnc w (List.mem_cons_of_mem i hw))
      refine ⟨h1, ?_, ?_, ?_, h4'⟩
      · rw [h2, List.filter_cons, if_neg (by rw [hskip]; exact Bool.noConfusion)]
      · intro j hj
        rw [h3 j hj]
        constructor
        · rintro (h5 | h5)
          · exact Or.inl h5
          · exact Or.inr ⟨List.mem_cons_of_mem i h5.1, h5.2⟩
        · rintro (h5 | ⟨h5, h6⟩)
          · exact Or.inl h5
          · rcases List.mem_cons.mp h5 with h7 | h7
            · subst h7; rw [hskip] at h6; exact Bool.noConfusion h6
            · exact Or.inr ⟨h7, h6⟩
      · intro j hj hjl hc
        rcases List.mem_cons.mp hjl with h7 | h7
        · subst h7; rw [hskip] at hc; exact Bool.noConfusion hc
        · exact h4 j hj h7 hc
    · have hcand : candb hyperG excl i = true := by
        cases hb : candb hyperG excl i with
        | true => rfl
        | false => exact absurd ((fill_skip_iff hyperG excl i).2 hb) hskip
      have hnci := hnc i (List.mem_cons_self i rest)
      obtain ⟨hW1, hc1, hv1, hfr, hgrow, _⟩ :=
        hW.insert_abs hi (-(((hyperG.getD i []).length : Nat) : Int))
      have hnc1 : ∀ w, w ∈ rest →
          ¬ (h.insert i (-(((hyperG.getD i []).length : Nat) : Int))).contains w := by
        intro w hw hc
        have hwi : w ≠ i := fun e => hnd'.1 (e ▸ hw)
        exact hnc w (List.mem_cons_of_mem i hw) ((hfr w (hrest w hw) hwi).1.1 hc)
      obtain ⟨h1, h2, h3, h4, h4'⟩ := ih _ hW1 hnd'.2 hrest hnc1
      refine ⟨h1, ?_, ?_, ?_, ?_⟩
      · rw [h2, hgrow hnci, List.filter_cons, if_pos hcand, List.length_cons]
        omega
      · intro j hj
        rw [h3 j hj]
        by_cases hji : j = i
        · subst hji
          constructor
          · intro _; exact Or.inr ⟨List.mem_cons_self _ _, hcand⟩
          · intro _; exact Or.inl hc1
        · rw [(hfr j hj hji).1]
          constructor
          · rintro (h5 | h5)
            · exact Or.inl h5
            · exact Or.inr ⟨List.mem_cons_of_mem i h5.1, h5.2⟩
          · rintro (h5 | ⟨h5, h6⟩)
            · exact Or.inl h5
            · rcases List.mem_cons.mp h5 with h7 | h7
              · exact absurd h7 hji
              · exact Or.inr ⟨h7, h6⟩
      · intro j hj hjl hc
        rcases List.mem_cons.mp hjl with h7 | h7
        · subst h7
          rw [h4' j hj hc1, hv1]
        · exact h4 j hj h7 hc
      · intro j hj hcj
        have hji : j ≠ i := fun e => hnci (e ▸ hcj)
        rw [h4' j hj ((hfr j hj hji).1.2 hcj), (hfr j hj hji).2 hcj]

theorem uncovered_replicate (R : Nat) (l : List Nat) :
    uncovered (List.replicate R false) l = l.length := by
  induction l with
  | nil => rfl
  | cons x l ih =>
    rw [uncovered_cons, ih, List.length_cons]
    have : (List.replicate R false).getD x false = false := by
      rw [List.getD_eq_getElem?_getD]
      by_cases h : x < R
      · simp [List.getElem?_replicate, h]
      · simp [List.getElem?_replicate, h]
    rw [if_pos this]
    omega

theorem blank_init_contains (n j : Nat) : ¬ (blankHeap.init n).contains j := by
  intro h
  simp [iHeap.contains, iHeap.init, iMap.init, iMap.notexist] at h

/-- The state in which the selection loop is entered satisfies the invariant. -/
theorem greedy_start_inv (g : InfGraph) (X : List Int) :
    GInv g.n g.hyperG g.hyperGT (InfGraph.flag_nodes g.n X)
      ((List.range g.n).filter (candb g.hyperG (InfGraph.flag_nodes g.n X))).length
      (g.greedy_start X) := by
  obtain ⟨h1, h2, h3, h4, _⟩ := fill_heap_spec (n := g.n) g.hyperG
    (InfGraph.flag_nodes g.n X) (List.range g.n) (blankHeap.init g.n)
    (wellFormed_init blankHeap g.n) (List.nodup_range g.n)
    (fun i hi => List.mem_range.mp hi) (fun i _ => blank_init_contains g.n i)
  refine ⟨h1, by simp [InfGraph.greedy_start], ?_, ?_, List.nodup_nil, ?_, ?_, ?_⟩
  · intro w hw
    show (InfGraph.fill_heap _ _ _ _).contains w ↔ _
    rw [h3 w hw]
    constructor
    · rintro (h5 | h5)
      · exact absurd h5 (blank_init_contains g.n w)
      · exact ⟨h5.2, List.not_mem_nil w⟩
    · rintro ⟨h5, _⟩
      exact Or.inr ⟨List.mem_range.mpr hw, h5⟩
  · intro w hw hc
    have hc' := (h3 w hw).1 hc
    rcases hc' with h5 | h5
    · exact absurd h5 (blank_init_contains g.n w)
    · show (InfGraph.fill_heap _ _ _ _).value_of w = _
      rw [h4 w hw h5.1 h5.2]
      show _ = -((uncovered (List.replicate g.hyperGT.length false) (g.hyperG.getD w []) : Nat) : Int)
      rw [uncovered_replicate]
  · intro u hu; exact absurd hu (List.not_mem_nil u)
  · intro i
    show (List.replicate g.hyperGT.length false).getD i false = true ↔ _
    have : (List.replicate g.hyperGT.length false).getD i false = false := by
      rw [List.getD_eq_getElem?_getD]
      by_cases h : i < g.hyperGT.length
      · simp [List.getElem?_replicate, h]
      · simp [List.getElem?_replicate, h]
    rw [this]
    constructor
    · intro h; exact Bool.noConfusion h
    · rintro ⟨_, u, hu, _⟩; exact absurd hu (List.not_mem_nil u)
  · show (InfGraph.fill_heap _ _ _ _).m_data.m_num + 0 = _
    rw [h2]
    show 0 + _ + 0 = _
    omega

/-- One pass of the selection loop on a non-empty heap: the node taken is in the heap,
has the largest residual coverage among the nodes of the heap, is appended to the
result, its RR sets become covered, and the invariant is kept. -/
theorem greedy_step_spec {n c : Nat} {hyperG hyperGT : List (List Nat)} {excl : List Bool}
    (hlen : hyperG.length = n) (hbij : RRBij hyperG hyperGT) (s : InfGraph.Greedy)
    (hI : GInv n hyperG hyperGT excl c s) (hne : 0 < s.degree_heap.m_data.m_num) :
    ∃ u, (InfGraph.greedy_step hyperG hyperGT excl s).result_node_set
          = s.result_node_set ++ [u] ∧
      u < n ∧ s.degree_heap.contains u ∧
      (∀ w, w < n → s.degree_heap.contains w →
        residual hyperG s.covered w ≤ residual hyperG s.covered u) ∧
      GInv n hyperG hyperGT excl c (InfGraph.greedy_step hyperG hyperGT excl s) ∧
      (InfGraph.greedy_step hyperG hyperGT excl s).degree_heap.m_data.m_num + 1
        = s.degree_heap.m_data.m_num ∧
      (∀ i, (InfGraph.greedy_step hyperG hyperGT excl s).covered.getD i false = true ↔
        (s.covered.getD i false = true ∨ i ∈ hyperG.getD u [])) := by
  obtain ⟨u, h1, hpop, hW1, hu, hcu, hmin, hncu, hfr, hnum⟩ := hI.wf.pop_abs hne
  have hex1 : ∀ j, j < n → h1.contains j → excl.getD j false = false := by
    intro j hj hc
    have hju : j ≠ u := fun e => hncu (e ▸ hc)
    exact ((candb_iff hyperG excl j).1 ((hI.mem j hj).1 ((hfr j hj hju).1.1 hc)).1).1
  have hval1 : ∀ j, j < n → h1.contains j →
      h1.value_of j = -((residual hyperG s.covered j : Nat) : Int) := by
    intro j hj hc
    have hju : j ≠ u := fun e => hncu (e ▸ hc)
    have hcj := (hfr j hj hju).1.1 hc
    rw [(hfr j hj hju).2 hcj]
    exact hI.value j hj hcj
  obtain ⟨c1, c2, c3, c4, c5, c6⟩ := cover_sets_spec hlen hbij excl (hyperG.getD u [])
    s.covered h1 hW1 hI.cov_len (fun rr hrr => hbij.idx_lt hrr) hex1 hval1
  have hstep : InfGraph.greedy_step hyperG hyperGT excl s =
      { degree_heap := (InfGraph.cover_sets hyperGT excl (hyperG.getD u []) (s.covered, h1)).2
        covered := (InfGraph.cover_sets hyperGT excl (hyperG.getD u []) (s.covered, h1)).1
        result_node_set := s.result_node_set ++ [u] } := by
    simp only [InfGraph.greedy_step, hpop]
  rw [hstep]
  have hures : u ∉ s.result_node_set := ((hI.mem u hu).1 hcu).2
  have hucand : candb hyperG excl u = true := ((hI.mem u hu).1 hcu).1
  refine ⟨u, rfl, hu, hcu, ?_, ⟨c1, c2, ?_, ?_, ?_, ?_, ?_, ?_⟩, ?_, c6⟩
  · intro w hw hcw
    have h2 := hmin w hw hcw
    rw [hI.value w hw hcw, hI.value u hu hcu] at h2
    omega
  · intro w hw
    show (InfGraph.cover_sets _ _ _ _).2.contains w ↔ _
    rw [c4 w hw]
    by_cases hwu : w = u
    · subst hwu
      constructor
      · intro h; exact absurd h hncu
      · rintro ⟨_, h⟩; exact absurd (List.mem_append_right _ (List.mem_singleton_self w)) h
    · rw [(hfr w hw hwu).1, hI.mem w hw]
      constructor
      · rintro ⟨h2, h3⟩
        refine ⟨h2, fun h4 => ?_⟩
        rcases List.mem_append.mp h4 with h5 | h5
        · exact h3 h5
        · exact hwu (List.mem_singleton.mp h5)
      · rintro ⟨h2, h3⟩
        exact ⟨h2, fun h4 => h3 (List.mem_append_left _ h4)⟩
  · intro w hw hc
    exact c5 w hw ((c4 w hw).1 hc)
  · show (s.result_node_set ++ [u]).Nodup
    rw [List.nodup_append]
    refine ⟨hI.nodup, List.nodup_singleton u, ?_⟩
    intro a ha hb
    rw [List.mem_singleton] at hb
    subst hb
    exact hures ha
  · intro v hv
    rcases List.mem_append.mp hv with h5 | h5
    · exact hI.res_cand v h5
    · rw [List.mem_singleton] at h5; subst h5; exact ⟨hu, hucand⟩
  · intro i
    show (InfGraph.cover_sets _ _ _ _).1.getD i false = true ↔ _
    rw [c6 i, hI.covered_iff i]
    constructor
    · rintro (⟨h2, v, hv, hiv⟩ | h2)
      · exact ⟨h2, v, List.mem_append_left _ hv, hiv⟩
      · exact ⟨hbij.idx_lt h2, u, List.mem_append_right _ (List.mem_singleton_self u), h2⟩
    · rintro ⟨h2, v, hv, hiv⟩
      rcases List.mem_append.mp hv with h5 | h5
      · exact Or.inl ⟨h2, v, h5, hiv⟩
      · rw [List.mem_singleton] at h5; subst h5; exact Or.inr hiv
  · show (InfGraph.cover_sets _ _ _ _).2.m_data.m_num + (s.result_node_set ++ [u]).length = c
    rw [c3, List.length_append, List.length_singleton, ← hI.count]
    omega
  · show (InfGraph.cover_sets _ _ _ _).2.m_data.m_num + 1 = _
    rw [c3]; exact hnum

theorem empty_iff (h : iHeap Int) : h.empty = true ↔ h.m_data.m_num = 0 := by
  simp [iHeap.empty]

/-- The selection loop keeps the invariant and makes as many passes as `k` and the
heap allow. -/
theorem greedy_loop_spec {n c : Nat} {hyperG hyperGT : List (List Nat)} {excl : List Bool}
    (hlen : hyperG.length = n) (hbij : RRBij hyperG hyperGT) :
    ∀ (k : Nat) (s : InfGraph.Greedy), GInv n hyperG hyperGT excl c s →
      GInv n hyperG hyperGT excl c (InfGraph.greedy_loop hyperG hyperGT excl k s) ∧
      (InfGraph.greedy_loop hyperG hyperGT excl k s).result_node_set.length
        = s.result_node_set.length + min k s.degree_heap.m_data.m_num := by
  intro k
  induction k with
  | zero => intro s hI; exact ⟨hI, by simp [InfGraph.greedy_loop]⟩
  | succ k ih =>
    intro s hI
    simp only [InfGraph.greedy_loop]
    split_ifs with he
    · rw [empty_iff] at he
      exact ⟨hI, by rw [he]; simp⟩
    · rw [empty_iff] at he
      have hne : 0 < s.degree_heap.m_data.m_num := Nat.pos_of_ne_zero he
      obtain ⟨u, hres, _, _, _, hI', hnum, _⟩ := greedy_step_spec hlen hbij s hI hne
      obtain ⟨h1, h2⟩ := ih _ hI'
      refine ⟨h1, ?_⟩
      rw [h2, hres, List.length_append, List.length_singleton]
      omega

theorem flag_fold_spec (n : Nat) :
    ∀ (nodes : List Int) (f : List Bool) (v : Nat), v < f.length → f.length = n →
      ((nodes.foldl
          (fun flags x => if 0 ≤ x ∧ x < (n : Int) then flags.set x.toNat true else flags)
          f).getD v false = true ↔ (f.getD v false = true ∨ (v : Int) ∈ nodes)) := by
  intro nodes
  induction nodes with
  | nil => intro f v _ _; simp
  | cons x rest ih =>
    intro f v hv hf
    rw [List.foldl_cons]
    by_cases hx : 0 ≤ x ∧ x < (n : Int)
    · rw [if_pos hx, ih _ v (by rw [List.length_set]; exact hv) (by rw [List.length_set]; exact hf),
        getD_set_bool]
      have hxlt : x.toNat < f.length := by omega
      by_cases hxv : x.toNat = v
      · rw [if_pos ⟨hxv, hxlt⟩]
        have : (v : Int) = x := by omega
        simp [this]
      · rw [if_neg (fun h => hxv h.1)]
        have : (v : Int) ≠ x := by omega
        simp [this]
    · rw [if_neg hx, ih f v hv hf]
      have : (v : Int) ≠ x := by omega
      simp [this]

theorem flag_nodes_spec (n : Nat) (X : List Int) (v : Nat) (hv : v < n) :
    (InfGraph.flag_nodes n X).getD v false = true ↔ (v : Int) ∈ X := by
  unfold InfGraph.flag_nodes
  rw [flag_fold_spec n X (List.replicate n false) v (by simpa using hv) (by simp)]
  have : (List.replicate n false).getD v false = false := by
    rw [List.getD_eq_getElem?_getD]; simp [List.getElem?_replicate, hv]
  rw [this]
  simp

theorem row_ne_nil_iff {hG hGT : List (List Nat)} (hB : RRBij hG hGT) (v : Nat) :
    hG.getD v [] ≠ [] ↔ ∃ rr, rr ∈ hGT ∧ v ∈ rr := by
  constructor
  · intro h
    obtain ⟨i, hi⟩ := List.exists_mem_of_ne_nil _ h
    have h1 : 0 < (hG.getD v []).count i := List.count_pos_iff.mpr hi
    rw [hB i v] at h1
    have h2 : v ∈ hGT.getD i [] := List.count_pos_iff.mp h1
    have h3 : i < hGT.length := hB.idx_lt hi
    refine ⟨hGT.getD i [], ?_, h2⟩
    rw [List.getD_eq_getElem?_getD, List.getElem?_eq_getElem h3]
    exact List.getElem_mem h3
  · rintro ⟨rr, hrr, hv⟩ he
    obtain ⟨i, hi, hget⟩ := List.getElem_of_mem hrr
    have h1 : v ∈ hGT.getD i [] := by
      rw [List.getD_eq_getElem?_getD, List.getElem?_eq_getElem hi]
      simpa [hget] using hv
    have h2 : 0 < (hGT.getD i []).count v := List.count_pos_iff.mpr h1
    rw [← hB i v, he] at h2
    simp at h2

theorem candb_eq_coverable (g : InfGraph) (hbij : RRBij g.hyperG g.hyperGT) (X : List Int)
    (v : Nat) (hv : v < g.n) :
    candb g.hyperG (InfGraph.flag_nodes g.n X) v
      = (!(X.contains (v : Int)) && g.hyperGT.any (fun rr => rr.contains v)) := by
  rw [Bool.eq_iff_iff, candb_iff, row_ne_nil_iff hbij]
  have h1 := flag_nodes_spec g.n X v hv
  have h0 : (!(X.contains (v : Int)) && g.hyperGT.any (fun rr => rr.contains v)) = true ↔
      ((v : Int) ∉ X ∧ ∃ rr, rr ∈ g.hyperGT ∧ v ∈ rr) := by
    simp
  rw [h0]
  constructor
  · rintro ⟨h2, h3⟩
    refine ⟨?_, h3⟩
    intro h4
    rw [h1.2 h4] at h2
    exact Bool.noConfusion h2
  · rintro ⟨h2, h3⟩
    refine ⟨?_, h3⟩
    cases hb : (InfGraph.flag_nodes g.n X).getD v false with
    | false => rfl
    | true => exact absurd (h1.1 hb) h2

theorem candidates_eq_coverable (g : InfGraph) (hbij : RRBij g.hyperG g.hyperGT)
    (X : List Int) :
    (List.range g.n).filter (candb g.hyperG (InfGraph.flag_nodes g.n X)) = coverable g X := by
  unfold coverable
  apply List.filter_congr
  intro v hv
  exact candb_eq_coverable g hbij X v (List.mem_range.mp hv)

theorem getD_mem_of_lt {l : List (List Nat)} {i : Nat} (h : i < l.length) :
    l.getD i [] ∈ l := by
  rw [List.getD_eq_getElem?_getD, List.getElem?_eq_getElem h]
  exact List.getElem_mem h

theorem getD_nil_of_ge {l : List (List Nat)} {i : Nat} (h : l.length ≤ i) :
    l.getD i [] = [] := by
  rw [List.getD_eq_getElem?_getD, List.getElem?_eq_none h]
  rfl

theorem RRBij.of_check {hG hGT : List (List Nat)} (h : checkBij hG hGT = true) :
    RRBij hG hGT := by
  unfold checkBij at h
  simp only [Bool.and_eq_true, List.all_eq_true, List.mem_range, beq_iff_eq,
    decide_eq_true_eq] at h
  obtain ⟨⟨h1, h2⟩, h3⟩ := h
  intro i v
  by_cases hv : v < hG.length
  · by_cases hi : i < hGT.length
    · exact h1 v hv i hi
    · rw [getD_nil_of_ge (Nat.le_of_not_lt hi), List.count_nil]
      apply List.count_eq_zero_of_not_mem
      intro hmem
      exact hi (h2 _ (getD_mem_of_lt hv) i hmem)
  · rw [getD_nil_of_ge (Nat.le_of_not_lt hv), List.count_nil]
    symm
    apply List.count_eq_zero_of_not_mem
    intro hmem
    by_cases hi : i < hGT.length
    · exact hv (h3 _ (getD_mem_of_lt hi) v hmem)
    · rw [getD_nil_of_ge (Nat.le_of_not_lt hi)] at hmem
      exact absurd hmem (List.not_mem_nil v)

/-! ### Coverage accounting -/

theorem RRBij.mem_iff {hG hGT : List (List Nat)} (hB : RRBij hG hGT) (i v : Nat) :
    i ∈ hG.getD v [] ↔ v ∈ hGT.getD i [] := by
  rw [← List.count_pos_iff, ← List.count_pos_iff, hB i v]

theorem StoreOK.row_nodup {n : Nat} {hG hGT : List (List Nat)} (hS : StoreOK n hG hGT)
    (v : Nat) : (hG.getD v []).Nodup := by
  rw [List.nodup_iff_count_le_one]
  intro i
  rw [hS.bij i v]
  exact List.nodup_iff_count_le_one.mp (hS.nodup i) v

theorem residual_eq_card {n : Nat} {hG hGT : List (List Nat)} (hS : StoreOK n hG hGT)
    (covered : List Bool) (v : Nat) :
    residual hG covered v = (openSets hG covered v).card := by
  unfold residual uncovered openSets
  rw [← List.toFinset_card_of_nodup ((hS.row_nodup v).filter _), List.toFinset_filter]
  congr 1
  ext i
  simp

/-- Under the loop invariant the covered RR sets are those that contain a selected
node. -/
theorem GInv.covered_eq {n c : Nat} {hG hGT : List (List Nat)} {excl : List Bool}
    {s : InfGraph.Greedy} (hI : GInv n hG hGT excl c s) (hB : RRBij hG hGT) (i : Nat) :
    i ∈ coveredBy hGT s.result_node_set.toFinset ↔ s.covered.getD i false = true := by
  rw [hI.covered_iff i]
  unfold coveredBy
  simp only [Finset.mem_filter, Finset.mem_range, List.mem_toFinset]
  constructor
  · rintro ⟨h1, v, hv, h2⟩
    exact ⟨h1, v, hv, (hB.mem_iff i v).2 h2⟩
  · rintro ⟨h1, v, hv, h2⟩
    exact ⟨h1, v, hv, (hB.mem_iff i v).1 h2⟩

/-- The RR sets covered by any node set `S` and not yet covered are at most `|S|` times
the largest residual coverage. -/
theorem coveredBy_le {n : Nat} {hG hGT : List (List Nat)} (hS : StoreOK n hG hGT)
    (covered : List Bool) (A : Finset Nat)
    (hA : ∀ i, i ∈ A ↔ (i < hGT.length ∧ covered.getD i false = true))
    (S : Finset Nat) (r : Nat) (hr : ∀ v, residual hG covered v ≤ r) :
    (coveredBy hGT S).card ≤ A.card + S.card * r := by
  have hsub : coveredBy hGT S ⊆ A ∪ S.biUnion (fun v => openSets hG covered v) := by
    intro i hi
    unfold coveredBy at hi
    simp only [Finset.mem_filter, Finset.mem_range] at hi
    obtain ⟨h1, v, hv, h2⟩ := hi
    rw [Finset.mem_union]
    by_cases hc : covered.getD i false = true
    · exact Or.inl ((hA i).2 ⟨h1, hc⟩)
    · right
      rw [Finset.mem_biUnion]
      refine ⟨v, hv, ?_⟩
      unfold openSets
      simp only [Finset.mem_filter, List.mem_toFinset]
      refine ⟨(hS.bij.mem_iff i v).2 h2, ?_⟩
      cases hb : covered.getD i false with
      | false => rfl
      | true => exact absurd hb hc
  calc (coveredBy hGT S).card
      ≤ (A ∪ S.biUnion (fun v => openSets hG covered v)).card := Finset.card_le_card hsub
    _ ≤ A.card + (S.biUnion (fun v => openSets hG covered v)).card := Finset.card_union_le _ _
    _ ≤ A.card + ∑ v in S, (openSets hG covered v).card :=
        Nat.add_le_add_left Finset.card_biUnion_le _
    _ ≤ A.card + ∑ _v in S, r := by
        apply Nat.add_le_add_left
        apply Finset.sum_le_sum
        intro v _
        rw [← residual_eq_card hS]
        exact hr v
    _ = A.card + S.card * r := by rw [Finset.sum_const, smul_eq_mul]

theorem WellFormed.not_contains_of_empty {n : Nat} {h : iHeap Int} (hW : WellFormed n h)
    (he : h.m_data.m_num = 0) {v : Nat} (hv : v < n) : ¬ h.contains v := by
  intro hc
  obtain ⟨i, hi, _⟩ := hW.stored_of_contains hv hc
  omega

/-- With no node excluded, a node outside the heap has no residual coverage. -/
theorem GInv.residual_zero {n c : Nat} {hG hGT : List (List Nat)} {excl : List Bool}
    {s : InfGraph.Greedy} (hI : GInv n hG hGT excl c s) (hlen : hG.length = n)
    (hB : RRBij hG hGT) (hex : ∀ v, excl.getD v false = false) (v : Nat)
    (hv : ¬ (v < n ∧ s.degree_heap.contains v)) : residual hG s.covered v = 0 := by
  unfold residual uncovered
  rw [List.length_eq_zero, List.filter_eq_nil_iff]
  intro i hi
  have hne : hG.getD v [] ≠ [] := List.ne_nil_of_mem hi
  have hvn : v < n := hlen ▸ getD_ne_nil_lt hne
  have hnc : ¬ s.degree_heap.contains v := fun hc => hv ⟨hvn, hc⟩
  have hcand : candb hG excl v = true := (candb_iff hG excl v).2 ⟨hex v, hne⟩
  have hres : v ∈ s.result_node_set := by
    by_contra hnr
    exact hnc ((hI.mem v hvn).2 ⟨hcand, hnr⟩)
  have hcov : s.covered.getD i false = true :=
    (hI.covered_iff i).2 ⟨hB.idx_lt hi, v, hres, hi⟩
  intro h
  rw [decide_eq_true_eq, hcov] at h
  exact Bool.noConfusion h

/-- With no node excluded, one pass of the selection loop raises the number of covered
RR sets by the residual coverage of the node taken, and no node has a larger residual
coverage. -/
theorem greedy_step_gain {n c : Nat} {hG hGT : List (List Nat)} {excl : List Bool}
    (hS : StoreOK n hG hGT) (hex : ∀ v, excl.getD v false = false) (s : InfGraph.Greedy)
    (hI : GInv n hG hGT excl c s) (hne : 0 < s.degree_heap.m_data.m_num) :
    ∃ r, (∀ v, residual hG s.covered v ≤ r) ∧
      (coveredBy hGT (InfGraph.greedy_step hG hGT excl s).result_node_set.toFinset).card
        = (coveredBy hGT s.result_node_set.toFinset).card + r := by
  obtain ⟨u, _, hu, hcu, hmax, hI', _, hcov'⟩ := greedy_step_spec hS.len hS.bij s hI hne
  refine ⟨residual hG s.covered u, ?_, ?_⟩
  · intro v
    by_cases hv : v < n ∧ s.degree_heap.contains v
    · exact hmax v hv.1 hv.2
    · rw [hI.residual_zero hS.len hS.bij hex v hv]
      exact Nat.zero_le _
  · rw [residual_eq_card hS]
    have hU : coveredBy hGT (InfGraph.greedy_step hG hGT excl s).result_node_set.toFinset
        = coveredBy hGT s.result_node_set.toFinset ∪ openSets hG s.covered u := by
      ext i
      rw [hI'.covered_eq hS.bij, hcov' i, Finset.mem_union, hI.covered_eq hS.bij]
      unfold openSets
      simp only [Finset.mem_filter, List.mem_toFinset]
      constructor
      · rintro (h1 | h1)
        · exact Or.inl h1
        · cases hb : s.covered.getD i false with
          | true => exact Or.inl rfl
          | false => exact Or.inr ⟨h1, rfl⟩
      · rintro (h1 | h1)
        · exact Or.inl h1
        · exact Or.inr h1.1
    rw [hU]
    apply Finset.card_union_of_disjoint
    rw [Finset.disjoint_left]
    intro i h1 h2
    rw [hI.covered_eq hS.bij] at h1
    unfold openSets at h2
    simp only [Finset.mem_filter] at h2
    rw [h1] at h2
    exact Bool.noConfusion h2.2

/-- With no node excluded and an empty heap, the selected nodes cover every RR set that
any node set covers. -/
theorem coveredBy_le_of_empty {n c : Nat} {hG hGT : List (List Nat)} {excl : List Bool}
    (hS : StoreOK n hG hGT) (hex : ∀ v, excl.getD v false = false) (s : InfGraph.Greedy)
    (hI : GInv n hG hGT excl c s) (he : s.degree_heap.m_data.m_num = 0) (S : Finset Nat) :
    (coveredBy hGT S).card ≤ (coveredBy hGT s.result_node_set.toFinset).card := by
  apply Finset.card_le_card
  intro i hi
  rw [hI.covered_eq hS.bij]
  unfold coveredBy at hi
  simp only [Finset.mem_filter, Finset.mem_range] at hi
  obtain ⟨h1, v, _, h2⟩ := hi
  have h3 : i ∈ hG.getD v [] := (hS.bij.mem_iff i v).2 h2
  have hne : hG.getD v [] ≠ [] := List.ne_nil_of_mem h3
  have hvn : v < n := hS.len ▸ getD_ne_nil_lt hne
  have hcand : candb hG excl v = true := (candb_iff hG excl v).2 ⟨hex v, hne⟩
  have hres : v ∈ s.result_node_set := by
    by_contra hnr
    exact hI.wf.not_contains_of_empty he hvn ((hI.mem v hvn).2 ⟨hcand, hnr⟩)
  exact (hI.covered_iff i).2 ⟨h1, v, hres, h3⟩

theorem one_sub_inv_pow_le (K : Nat) (hK : 1 ≤ K) :
    (1 - 1 / (K : ℝ)) ^ K ≤ Real.exp (-1) := by
  have hKpos : (0 : ℝ) < K := by exact_mod_cast hK
  have h0 : (0 : ℝ) ≤ 1 - 1 / (K : ℝ) := by
    rw [sub_nonneg, div_le_one hKpos]
    exact_mod_cast hK
  have h1 : 1 - 1 / (K : ℝ) ≤ Real.exp (-(1 / (K : ℝ))) := by
    have := Real.add_one_le_exp (-(1 / (K : ℝ)))
    linarith
  calc (1 - 1 / (K : ℝ)) ^ K ≤ Real.exp (-(1 / (K : ℝ))) ^ K := pow_le_pow_left₀ h0 h1 K
    _ = Real.exp ((K : ℝ) * (-(1 / (K : ℝ)))) := (Real.exp_nat_mul _ K).symm
    _ = Real.exp (-1) := by
        congr 1
        field_simp

/-- The distance between the coverage of a fixed node set `S` of at most `K` nodes and
the coverage of the greedy result shrinks by the factor `1 - 1/K` with every pass that
`k` allows, or has vanished. -/
theorem greedy_loop_approx {n c : Nat} {hG hGT : List (List Nat)} {excl : List Bool}
    (hS : StoreOK n hG hGT) (hex : ∀ v, excl.getD v false = false) (S : Finset Nat)
    (K : Nat) (hK : 1 ≤ K) (hSK : S.card ≤ K) :
    ∀ (k : Nat) (s : InfGraph.Greedy), GInv n hG hGT excl c s →
      ((coveredBy hGT S).card : ℝ)
          - ((coveredBy hGT (InfGraph.greedy_loop hG hGT excl k s).result_node_set.toFinset).card : ℝ)
        ≤ (1 - 1 / (K : ℝ)) ^ k *
          max (((coveredBy hGT S).card : ℝ)
            - ((coveredBy hGT s.result_node_set.toFinset).card : ℝ)) 0 := by
  have hKpos : (0 : ℝ) < K := by exact_mod_cast hK
  have h0 : (0 : ℝ) ≤ 1 - 1 / (K : ℝ) := by
    rw [sub_nonneg, div_le_one hKpos]
    exact_mod_cast hK
  intro k
  induction k with
  | zero =>
    intro s _
    simp only [InfGraph.greedy_loop, pow_zero, one_mul]
    exact le_max_left _ _
  | succ k ih =>
    intro s hI
    simp only [InfGraph.greedy_loop]
    split_ifs with he
    · rw [empty_iff] at he
      have h1 := coveredBy_le_of_empty hS hex s hI he S
      have h2 : ((coveredBy hGT S).card : ℝ)
          ≤ ((coveredBy hGT s.result_node_set.toFinset).card : ℝ) := by exact_mod_cast h1
      have h3 : (0 : ℝ) ≤ (1 - 1 / (K : ℝ)) ^ (k + 1) *
          max (((coveredBy hGT S).card : ℝ)
            - ((coveredBy hGT s.result_node_set.toFinset).card : ℝ)) 0 :=
        mul_nonneg (pow_nonneg h0 _) (le_max_right _ _)
      linarith
    · rw [empty_iff] at he
      have hne : 0 < s.degree_heap.m_data.m_num := Nat.pos_of_ne_zero he
      obtain ⟨r, hr, hgain⟩ := greedy_step_gain hS hex s hI hne
      obtain ⟨u, _, _, _, _, hI', _, _⟩ := greedy_step_spec hS.len hS.bij s hI hne
      have hle := coveredBy_le hS s.covered (coveredBy hGT s.result_node_set.toFinset)
        (fun i => by
          rw [hI.covered_eq hS.bij]
          exact ⟨fun h => ⟨((hI.covered_iff i).1 h).1, h⟩, fun h => h.2⟩) S r hr
      have hle' : (coveredBy hGT S).card
          ≤ (coveredBy hGT s.result_node_set.toFinset).card + K * r :=
        le_trans hle (Nat.add_le_add_left (Nat.mul_le_mul_right r hSK) _)
      have hleR : ((coveredBy hGT S).card : ℝ)
          ≤ ((coveredBy hGT s.result_node_set.toFinset).card : ℝ) + (K : ℝ) * (r : ℝ) := by
        exact_mod_cast hle'
      have hgainR : ((coveredBy hGT
            (InfGraph.greedy_step hG hGT excl s).result_node_set.toFinset).card : ℝ)
          = ((coveredBy hGT s.result_node_set.toFinset).card : ℝ) + (r : ℝ) := by
        exact_mod_cast hgain
      have ihs := ih _ hI'
      rw [hgainR] at ihs
      generalize ((coveredBy hGT S).card : ℝ) = cS at *
      generalize ((coveredBy hGT s.result_node_set.toFinset).card : ℝ) = a at *
      generalize ((coveredBy hGT (InfGraph.greedy_loop hG hGT excl k
        (InfGraph.greedy_step hG hGT excl s)).result_node_set.toFinset).card : ℝ) = af at *
      have hdiv : (cS - a) / (K : ℝ) ≤ (r : ℝ) := by
        rw [div_le_iff₀ hKpos]
        linarith
      have hstep : cS - (a + (r : ℝ)) ≤ (1 - 1 / (K : ℝ)) * (cS - a) := by
        have : (1 - 1 / (K : ℝ)) * (cS - a) = (cS - a) - (cS - a) / (K : ℝ) := by ring
        rw [this]
        linarith
      have hmax : max (cS - (a + (r : ℝ))) 0 ≤ (1 - 1 / (K : ℝ)) * max (cS - a) 0 := by
        apply max_le
        · exact le_trans hstep (mul_le_mul_of_nonneg_left (le_max_left _ _) h0)
        · exact mul_nonneg h0 (le_max_right _ _)
      calc cS - af ≤ (1 - 1 / (K : ℝ)) ^ k * max (cS - (a + (r : ℝ))) 0 := ihs
        _ ≤ (1 - 1 / (K : ℝ)) ^ k * ((1 - 1 / (K : ℝ)) * max (cS - a) 0) :=
            mul_le_mul_of_nonneg_left hmax (pow_nonneg h0 _)
        _ = (1 - 1 / (K : ℝ)) ^ (k + 1) * max (cS - a) 0 := by ring

theorem flag_nodes_nil (n v : Nat) : (InfGraph.flag_nodes n []).getD v false = false := by
  unfold InfGraph.flag_nodes
  rw [List.foldl_nil, List.getD_eq_getElem?_getD]
  by_cases h : v < n
  · simp [List.getElem?_replicate, h]
  · simp [List.getElem?_replicate, h]

theorem coveredBy_empty (hGT : List (List Nat)) : coveredBy hGT ∅ = ∅ := by
  unfold coveredBy
  simp

end GreedyLemmas

/-! ## Breadth-first search -/

section BfsLemmas

open CommunitySearcher

theorem ReachIn.mono {nbrs : Nat → List Nat} {c c' : List Nat} (h : ∀ x, x ∈ c → x ∈ c')
    {a b : Nat} (hr : ReachIn nbrs c a b) : ReachIn nbrs c' a b := by
  unfold ReachIn at *
  exact Relation.ReflTransGen.mono (fun x y hxy => ⟨h x hxy.1, h y hxy.2.1, hxy.2.2⟩) hr

/-- One scan of a neighbour list `vs` of a node `u` that is in the set and has left the
queue keeps everything but the closure at `u`, and closes the part of `vs` scanned. -/
theorem bfs_scan_spec (nbrs : Nat → List Nat) (ok : Nat → Bool) (U : List Nat)
    (hU : ∀ x, ok x = true → x ∈ U) (s0 u : Nat) :
    ∀ (vs : List Nat) (s : List Nat × List Nat), (∀ y, y ∈ vs → y ∈ nbrs u) →
      u ∈ s.2 → (∀ x, x ∈ s.1 → x ∈ s.2) → s.2.Nodup → (∀ x, x ∈ s.2 → x ∈ U) →
      (∀ x, x ∈ s.2 → x = s0 ∨ ok x = true) → (∀ x, x ∈ s.2 → ReachIn nbrs s.2 s0 x) →
      (∀ x, x ∈ (bfs_scan ok vs s).1 → x ∈ (bfs_scan ok vs s).2) ∧
      (bfs_scan ok vs s).2.Nodup ∧
      (∀ x, x ∈ (bfs_scan ok vs s).2 → x ∈ U) ∧
      (∀ x, x ∈ (bfs_scan ok vs s).2 → x = s0 ∨ ok x = true) ∧
      (∀ x, x ∈ (bfs_scan ok vs s).2 → ReachIn nbrs (bfs_scan ok vs s).2 s0 x) ∧
      (∀ x, x ∈ s.2 → x ∈ (bfs_scan ok vs s).2) ∧
      (∀ x, x ∈ s.1 → x ∈ (bfs_scan ok vs s).1) ∧
      (∀ x, x ∈ (bfs_scan ok vs s).1 → x ∈ s.1 ∨ x ∉ s.2) ∧
      (∀ y, y ∈ vs → ok y = true → y ∈ (bfs_scan ok vs s).2) ∧
      (bfs_scan ok vs s).1.length + s.2.length = s.1.length + (bfs_scan ok vs s).2.length ∧
      (∀ x, x ∈ (bfs_scan ok vs s).2 → x ∈ s.2 ∨ x ∈ (bfs_scan ok vs s).1) := by
  intro vs
  induction vs with
  | nil =>
    intro s _ _ h1 h2 h3 h4 h5
    exact ⟨h1, h2, h3, h4, h5, fun _ h => h, fun _ h => h, fun _ h => Or.inl h,
      fun y hy => absurd hy (List.not_mem_nil y), rfl, fun _ h => Or.inl h⟩
  | cons v rest ih =>
    intro s hvs hu h1 h2 h3 h4 h5
    have hrest : ∀ y, y ∈ rest → y ∈ nbrs u := fun y hy => hvs y (List.mem_cons_of_mem v hy)
    simp only [bfs_scan]
    split_ifs with hc
    · rw [Bool.and_eq_true] at hc
      have hok : ok v = true := hc.1
      have hnew : v ∉ s.2 := by
        have := hc.2
        simpa using this
      have hsub : ∀ x, x ∈ s.2 → x ∈ s.2 ++ [v] := fun x hx => List.mem_append_left _ hx
      have hvin : v ∈ s.2 ++ [v] := List.mem_append_right _ (List.mem_singleton_self v)
      obtain ⟨r1, r2, r3, r4, r5, r6, r7, r8, r9, r10, r11⟩ := ih (s.1 ++ [v], s.2 ++ [v]) hrest
        (hsub u hu)
        (by
          intro x hx
          rcases List.mem_append.mp hx with h | h
          · exact hsub x (h1 x h)
          · exact List.mem_append_right _ h)
        (by
          rw [List.nodup_append]
          refine ⟨h2, List.nodup_singleton v, ?_⟩
          intro a ha hb
          rw [List.mem_singleton] at hb
          subst hb
          exact hnew ha)
        (by
          intro x hx
          rcases List.mem_append.mp hx with h | h
          · exact h3 x h
          · rw [List.mem_singleton] at h; subst h; exact hU x hok)
        (by
          intro x hx
          rcases List.mem_append.mp hx with h | h
          · exact h4 x h
          · rw [List.mem_singleton] at h; subst h; exact Or.inr hok)
        (by
          intro x hx
          rcases List.mem_append.mp hx with h | h
          · exact (h5 x h).mono hsub
          · rw [List.mem_singleton] at h
            subst h
            exact Relation.ReflTransGen.tail ((h5 u hu).mono hsub)
              ⟨hsub u hu, hvin, hvs x (List.mem_cons_self x rest)⟩)
      refine ⟨r1, r2, r3, r4, r5, fun x hx => r6 x (hsub x hx),
        fun x hx => r7 x (List.mem_append_left _ hx), ?_, ?_, ?_, ?_⟩
      · intro x hx
        rcases r8 x hx with h | h
        · rcases List.mem_append.mp h with h' | h'
          · exact Or.inl h'
          · rw [List.mem_singleton] at h'; subst h'; exact Or.inr hnew
        · exact Or.inr (fun hx2 => h (hsub x hx2))
      · intro y hy hoky
        rcases List.mem_cons.mp hy with h | h
        · subst h; exact r6 y hvin
        · exact r9 y h hoky
      · simp only [List.length_append, List.length_singleton] at r10 ⊢
        omega
      · intro x hx
        rcases r11 x hx with h | h
        · rcases List.mem_append.mp h with h' | h'
          · exact Or.inl h'
          · rw [List.mem_singleton] at h'
            subst h'
            exact Or.inr (r7 x (List.mem_append_right _ (List.mem_singleton_self x)))
        · exact Or.inr h
    · obtain ⟨r1, r2, r3, r4, r5, r6, r7, r8, r9, r10, r11⟩ := ih s hrest hu h1 h2 h3 h4 h5
      refine ⟨r1, r2, r3, r4, r5, r6, r7, r8, ?_, r10, r11⟩
      intro y hy hoky
      rcases List.mem_cons.mp hy with h | h
      · subst h
        apply r6
        by_contra hn
        apply hc
        rw [Bool.and_eq_true]
        exact ⟨hoky, by simpa using hn⟩
      · exact r9 y h hoky

theorem nodup_length_le {l U : List Nat} (hl : l.Nodup) (hsub : ∀ x, x ∈ l → x ∈ U) :
    l.length ≤ U.length := by
  have h1 : l.toFinset ⊆ U.toFinset := by
    intro x hx
    rw [List.mem_toFinset] at hx ⊢
    exact hsub x hx
  have h2 := Finset.card_le_card h1
  rw [List.toFinset_card_of_nodup hl] at h2
  exact le_trans h2 (List.toFinset_card_le U)

/-- The search loop runs until the queue is empty and then the set is closed under the
admissible neighbours. -/
theorem bfs_loop_spec (nbrs : Nat → List Nat) (ok : Nat → Bool) (U : List Nat)
    (hU : ∀ x, ok x = true → x ∈ U) (s0 : Nat) :
    ∀ (fuel : Nat) (s : List Nat × List Nat), BfsInv nbrs ok U s0 fuel s →
      (bfs_loop nbrs ok fuel s).1 = [] ∧ BfsDone nbrs ok s0 (bfs_loop nbrs ok fuel s).2 := by
  intro fuel
  induction fuel with
  | zero =>
    intro s hI
    have h1 := nodup_length_le hI.nodup hI.inU
    have h2 := hI.budget
    have hq : s.1 = [] := List.length_eq_zero.mp (by omega)
    refine ⟨hq, hI.nodup, hI.start, hI.okay, ?_, hI.reach⟩
    intro x hx
    exact hI.closed x hx (by rw [hq]; exact List.not_mem_nil x)
  | succ fuel ih =>
    intro s hI
    obtain ⟨q0, comp⟩ := s
    cases q0 with
    | nil =>
      refine ⟨rfl, hI.nodup, hI.start, hI.okay, ?_, hI.reach⟩
      intro x hx
      exact hI.closed x hx (List.not_mem_nil x)
    | cons u q =>
      show (bfs_loop nbrs ok fuel (bfs_scan ok (nbrs u) (q, comp))).1 = [] ∧ _
      have hu : u ∈ comp := hI.queued u (List.mem_cons_self u q)
      obtain ⟨r1, r2, r3, r4, r5, r6, r7, r8, r9, r10, r11⟩ :=
        bfs_scan_spec nbrs ok U hU s0 u (nbrs u) (q, comp) (fun _ h => h) hu
          (fun x hx => hI.queued x (List.mem_cons_of_mem u hx)) hI.nodup hI.inU hI.okay
          hI.reach
      apply ih
      refine ⟨r1, r2, r3, r6 s0 hI.start, r4, ?_, r5, ?_⟩
      · intro x hx hxq y hy hoky
        by_cases hxu : x = u
        · subst hxu; exact r9 y hy hoky
        · rcases r11 x hx with h | h
          · have hxq0 : x ∉ u :: q := by
              intro hmem
              rcases List.mem_cons.mp hmem with h' | h'
              · exact hxu h'
              · exact hxq (r7 x h')
            exact r6 y (hI.closed x h hxq0 y hy hoky)
          · exact absurd h hxq
      · have hb := hI.budget
        simp only [List.length_cons] at hb
        simp only at r10
        omega

end BfsLemmas

/-! ## Peeling -/

section PeelLemmas

open CommunitySearcher

theorem count_in_cons (S : List Nat) (x : Nat) (row : List Nat) :
    count_in S (x :: row) = (if x ∈ S then 1 else 0) + count_in S row := by
  unfold count_in
  rw [List.filter_cons]
  by_cases h : x ∈ S
  · have : S.contains x = true := by simpa using h
    rw [if_pos this, if_pos h, List.length_cons]; omega
  · have : ¬ S.contains x = true := by simpa using h
    rw [if_neg this, if_neg h]; omega

theorem mem_uset_erase (S : List Nat) (u x : Nat) : x ∈ uset_erase S u ↔ x ∈ S ∧ x ≠ u := by
  unfold uset_erase
  simp

theorem count_in_erase (S : List Nat) (u : Nat) (hu : u ∈ S) (row : List Nat) :
    count_in (uset_erase S u) row + row.count u = count_in S row := by
  induction row with
  | nil => rfl
  | cons x row ih =>
    rw [count_in_cons, count_in_cons]
    by_cases hx : x = u
    · subst hx
      have h1 : ¬ x ∈ uset_erase S x := by rw [mem_uset_erase]; exact fun h => h.2 rfl
      rw [if_neg h1, if_pos hu, List.count_cons_self]
      omega
    · have h1 : x ∈ uset_erase S u ↔ x ∈ S := by
        rw [mem_uset_erase]; exact ⟨fun h => h.1, fun h => ⟨h, hx⟩⟩
      rw [List.count_cons_of_ne (fun e => hx e.symm)]
      by_cases hxs : x ∈ S
      · rw [if_pos (h1.2 hxs), if_pos hxs]; omega
      · rw [if_neg (fun h => hxs (h1.1 h)), if_neg hxs]; omega

theorem mem_uset_insert (S : List Nat) (v x : Nat) : x ∈ uset_insert S v ↔ x ∈ S ∨ x = v := by
  unfold uset_insert
  split_ifs with h
  · constructor
    · exact fun hx => Or.inl hx
    · rintro (hx | hx)
      · exact hx
      · rw [hx]; exact h
  · simp

theorem uset_insert_of_not_mem {S : List Nat} {v : Nat} (h : v ∉ S) :
    uset_insert S v = S ++ [v] := by
  unfold uset_insert
  rw [if_neg h]

/-- The effect of a degree-lowering loop over the neighbour list `vs`. -/
theorem drop_gen_spec (thr : Int) (C : List Nat) :
    ∀ (vs : List Nat) (s : (Nat → Int) × List Nat × List Nat),
      (∀ w, (drop_gen thr C vs s).1 w = s.1 w - (if w ∈ C then (vs.count w : Int) else 0)) ∧
      (∃ ext : List Nat, (drop_gen thr C vs s).2.1 = s.2.1 ++ ext ∧
        (∀ x, x ∈ ext → x ∉ s.2.2 ∧ x ∈ C) ∧
        (∀ x, x ∈ (drop_gen thr C vs s).2.2 ↔ x ∈ s.2.2 ∨ x ∈ ext) ∧
        (s.2.2.Nodup → (drop_gen thr C vs s).2.2.Nodup) ∧
        (drop_gen thr C vs s).2.2.length = s.2.2.length + ext.length) ∧
      (∀ w, w ∈ C → 0 < vs.count w → (drop_gen thr C vs s).1 w < thr →
        w ∈ (drop_gen thr C vs s).2.2) := by
  intro vs
  induction vs with
  | nil =>
    intro s
    refine ⟨fun w => by simp [drop_gen], ⟨[], by simp [drop_gen], ?_, ?_, fun h => h, rfl⟩, ?_⟩
    · intro x hx; exact absurd hx (List.not_mem_nil x)
    · intro x; simp [drop_gen]
    · intro w _ h; simp at h
  | cons v rest ih =>
    intro s
    simp only [drop_gen]
    by_cases hv : C.contains v = true
    · rw [if_pos hv]
      have hvC : v ∈ C := by simpa using hv
      have hcount : ∀ w, w ≠ v → (v :: rest).count w = rest.count w :=
        fun w hw => List.count_cons_of_ne hw _
      by_cases hpush : s.1 v - 1 < thr ∧ ¬ v ∈ s.2.2
      · rw [if_pos hpush, if_pos hpush]
        obtain ⟨i1, ⟨ext, i2, i3, i4, i5, i6⟩, i7⟩ := ih
          (Function.update s.1 v (s.1 v - 1), s.2.1 ++ [v], uset_insert s.2.2 v)
        simp only at i1 i2 i3 i4 i5 i6 i7
        refine ⟨?_, ⟨v :: ext, ?_, ?_, ?_, ?_, ?_⟩, ?_⟩
        · intro w
          rw [i1 w]
          by_cases hwv : w = v
          · subst hwv
            rw [if_pos hvC, if_pos hvC, List.count_cons_self]
            simp only [Function.update_same]
            push_cast
            ring
          · rw [hcount w hwv]
            simp only [Function.update_apply, hwv, if_false]
        · rw [i2]; simp
        · intro x hx
          rcases List.mem_cons.mp hx with h | h
          · subst h; exact ⟨hpush.2, hvC⟩
          · exact ⟨fun hx2 => (i3 x h).1 ((mem_uset_insert _ _ _).2 (Or.inl hx2)), (i3 x h).2⟩
        · intro x
          rw [i4 x, mem_uset_insert, List.mem_cons]
          tauto
        · intro hnd
          apply i5
          rw [uset_insert_of_not_mem hpush.2, List.nodup_append]
          refine ⟨hnd, List.nodup_singleton v, ?_⟩
          intro a ha hb
          rw [List.mem_singleton] at hb
          subst hb
          exact hpush.2 ha
        · have h6 : (uset_insert s.2.2 v).length = s.2.2.length + 1 := by
            rw [uset_insert_of_not_mem hpush.2, List.length_append, List.length_singleton]
          rw [i6, h6, List.length_cons]
          omega
        · intro w hwC hcnt hlt
          by_cases hwv : w = v
          · subst hwv
            rw [i4 w, mem_uset_insert]
            exact Or.inl (Or.inr rfl)
          · rw [hcount w hwv] at hcnt
            exact i7 w hwC hcnt hlt
      · rw [if_neg hpush, if_neg hpush]
        obtain ⟨i1, ⟨ext, i2, i3, i4, i5, i6⟩, i7⟩ := ih
          (Function.update s.1 v (s.1 v - 1), s.2.1, s.2.2)
        simp only at i1 i2 i3 i4 i5 i6 i7
        refine ⟨?_, ⟨ext, i2, i3, i4, i5, i6⟩, ?_⟩
        · intro w
          rw [i1 w]
          by_cases hwv : w = v
          · subst hwv
            rw [if_pos hvC, if_pos hvC, List.count_cons_self]
            simp only [Function.update_same]
            push_cast
            ring
          · rw [hcount w hwv]
            simp only [Function.update_apply, hwv, if_false]
        · intro w hwC hcnt hlt
          by_cases hrest : 0 < rest.count w
          · exact i7 w hwC hrest hlt
          · have hwv : w = v := by
              by_contra hne
              rw [hcount w hne] at hcnt
              exact hrest hcnt
            subst hwv
            have h0 : rest.count w = 0 := by omega
            have hval := i1 w
            rw [if_pos hvC, h0] at hval
            simp only [Function.update_same, Nat.cast_zero, sub_zero] at hval
            rw [hval] at hlt
            rw [i4 w]
            left
            by_contra hal
            exact hpush ⟨hlt, hal⟩
    · rw [if_neg hv]
      have hvC : ¬ v ∈ C := by simpa using hv
      obtain ⟨i1, i2, i7⟩ := ih s
      refine ⟨?_, i2, ?_⟩
      · intro w
        rw [i1 w]
        by_cases hwv : w = v
        · subst hwv; rw [if_neg hvC, if_neg hvC]
        · rw [List.count_cons_of_ne hwv]
      · intro w hwC hcnt hlt
        have hwv : w ≠ v := fun e => hvC (e ▸ hwC)
        rw [List.count_cons_of_ne hwv] at hcnt
        exact i7 w hwC hcnt hlt

theorem kl_drop_out_eq (l_core : Int) :
    ∀ (vs : List Nat) (s : KLPeel),
      kl_drop_out l_core vs s =
        { s with
          internal_out_degrees :=
            (drop_gen l_core s.candidates vs
              (s.internal_out_degrees, s.removal_q, s.already_in_removal_q)).1
          removal_q :=
            (drop_gen l_core s.candidates vs
              (s.internal_out_degrees, s.removal_q, s.already_in_removal_q)).2.1
          already_in_removal_q :=
            (drop_gen l_core s.candidates vs
              (s.internal_out_degrees, s.removal_q, s.already_in_removal_q)).2.2 } := by
  intro vs
  induction vs with
  | nil => intro s; rfl
  | cons v rest ih =>
    intro s
    simp only [kl_drop_out, drop_gen]
    by_cases hv : s.candidates.contains v = true
    · rw [if_pos hv, if_pos hv, ih]
    · rw [if_neg hv, if_neg hv, ih]

theorem kl_drop_in_eq (k_core : Int) :
    ∀ (vs : List Nat) (s : KLPeel),
      kl_drop_in k_core vs s =
        { s with
          internal_in_degrees :=
            (drop_gen k_core s.candidates vs
              (s.internal_in_degrees, s.removal_q, s.already_in_removal_q)).1
          removal_q :=
            (drop_gen k_core s.candidates vs
              (s.internal_in_degrees, s.removal_q, s.already_in_removal_q)).2.1
          already_in_removal_q :=
            (drop_gen k_core s.candidates vs
              (s.internal_in_degrees, s.removal_q, s.already_in_removal_q)).2.2 } := by
  intro vs
  induction vs with
  | nil => intro s; rfl
  | cons v rest ih =>
    intro s
    simp only [kl_drop_in, drop_gen]
    by_cases hv : s.candidates.contains v = true
    · rw [if_pos hv, if_pos hv, ih]
    · rw [if_neg hv, if_neg hv, ih]

/-- One pass of the (k,l)-core peeling loop that removes the candidate `u`. -/
theorem kl_remove_inv {k_core l_core : Int} {g : InfGraph} (hg : GraphCross g)
    {ss : List Nat} {fuel : Nat} {s : KLPeel} {u : Nat} {q : List Nat}
    (hI : KLInv k_core l_core g ss (fuel + 1) s) (hq : s.removal_q = u :: q)
    (hu : u ∈ s.candidates) :
    KLInv k_core l_core g ss fuel
      (kl_drop_in k_core (g.g.getD u [])
        (kl_drop_out l_core (g.gT.getD u [])
          { s with removal_q := q, candidates := uset_erase s.candidates u })) := by
  rw [kl_drop_out_eq, kl_drop_in_eq]
  simp only
  obtain ⟨o1, ⟨ext1, o2, o3, o4, o5, o6⟩, o7⟩ := drop_gen_spec l_core
    (uset_erase s.candidates u) (g.gT.getD u [])
    (s.internal_out_degrees, q, s.already_in_removal_q)
  obtain ⟨n1, ⟨ext2, n2, n3, n4, n5, n6⟩, n7⟩ := drop_gen_spec k_core
    (uset_erase s.candidates u) (g.g.getD u [])
    (s.internal_in_degrees,
      (drop_gen l_core (uset_erase s.candidates u) (g.gT.getD u [])
        (s.internal_out_degrees, q, s.already_in_removal_q)).2.1,
      (drop_gen l_core (uset_erase s.candidates u) (g.gT.getD u [])
        (s.internal_out_degrees, q, s.already_in_removal_q)).2.2)
  simp only at o1 o2 o3 o4 o5 o6 o7 n1 n2 n3 n4 n5 n6 n7
  have hsubC : ∀ x, x ∈ uset_erase s.candidates u → x ∈ s.candidates :=
    fun x hx => ((mem_uset_erase _ _ _).1 hx).1
  have hneu : ∀ x, x ∈ uset_erase s.candidates u → x ≠ u :=
    fun x hx => ((mem_uset_erase _ _ _).1 hx).2
  have hal_mono : ∀ x, x ∈ s.already_in_removal_q →
      x ∈ (drop_gen k_core (uset_erase s.candidates u) (g.g.getD u [])
        (s.internal_in_degrees,
          (drop_gen l_core (uset_erase s.candidates u) (g.gT.getD u [])
            (s.internal_out_degrees, q, s.already_in_removal_q)).2.1,
          (drop_gen l_core (uset_erase s.candidates u) (g.gT.getD u [])
            (s.internal_out_degrees, q, s.already_in_removal_q)).2.2)).2.2 :=
    fun x hx => (n4 x).2 (Or.inl ((o4 x).2 (Or.inl hx)))
  refine ⟨fun x hx => hI.cand_sub x (hsubC x hx), ?_, ?_, ?_, ?_, ?_, ?_, ?_, ?_⟩
  all_goals dsimp only
  · intro w hw
    rw [n1 w, if_pos hw, hI.in_deg w (hsubC w hw)]
    have h1 := count_in_erase s.candidates u hu (g.gT.getD w [])
    have h2 := hg u w
    omega
  · intro w hw
    rw [o1 w, if_pos hw, hI.out_deg w (hsubC w hw)]
    have h1 := count_in_erase s.candidates u hu (g.g.getD w [])
    have h2 := hg w u
    omega
  · intro w hw hviol
    rcases hviol with hin | hout
    · by_cases hc : 0 < (g.g.getD u []).count w
      · exact n7 w hw hc hin
      · have h0 : (g.g.getD u []).count w = 0 := by omega
        rw [n1 w, if_pos hw, h0] at hin
        simp only [Nat.cast_zero, sub_zero] at hin
        exact hal_mono w (hI.viol w (hsubC w hw) (Or.inl hin))
    · by_cases hc : 0 < (g.gT.getD u []).count w
      · exact (n4 w).2 (Or.inl (o7 w hw hc hout))
      · have h0 : (g.gT.getD u []).count w = 0 := by omega
        rw [o1 w, if_pos hw, h0] at hout
        simp only [Nat.cast_zero, sub_zero] at hout
        exact hal_mono w (hI.viol w (hsubC w hw) (Or.inr hout))
  · intro w hw hwC
    rw [n2, o2]
    rcases (n4 w).1 hw with h | h
    · rcases (o4 w).1 h with h' | h'
      · have := hI.pending w h' (hsubC w hwC)
        rw [hq] at this
        rcases List.mem_cons.mp this with h'' | h''
        · exact absurd h'' (hneu w hwC)
        · exact List.mem_append_left _ (List.mem_append_left _ h'')
      · exact List.mem_append_left _ (List.mem_append_right _ h')
    · exact List.mem_append_right _ h
  · intro x hx
    rw [n2, o2] at hx
    rcases List.mem_append.mp hx with h | h
    · rcases List.mem_append.mp h with h' | h'
      · exact hal_mono x (hI.q_sub x (by rw [hq]; exact List.mem_cons_of_mem u h'))
      · exact (n4 x).2 (Or.inl ((o4 x).2 (Or.inr h')))
    · exact (n4 x).2 (Or.inr h)
  · intro x hx
    rcases (n4 x).1 hx with h | h
    · rcases (o4 x).1 h with h' | h'
      · exact hI.al_sub x h'
      · exact hI.cand_sub x (hsubC x (o3 x h').2)
    · exact hI.cand_sub x (hsubC x (n3 x h).2)
  · exact n5 (o5 hI.al_nodup)
  · rw [n6, o6, n2, o2]
    have hb := hI.budget
    rw [hq] at hb
    simp only [List.length_cons, List.length_append] at hb ⊢
    omega

/-- One pass of the (k,l)-core peeling loop on a queue entry that is no longer a
candidate. -/
theorem kl_skip_inv {k_core l_core : Int} {g : InfGraph}
    {ss : List Nat} {fuel : Nat} {s : KLPeel} {u : Nat} {q : List Nat}
    (hI : KLInv k_core l_core g ss (fuel + 1) s) (hq : s.removal_q = u :: q)
    (hu : u ∉ s.candidates) :
    KLInv k_core l_core g ss fuel { s with removal_q := q } := by
  refine ⟨hI.cand_sub, hI.in_deg, hI.out_deg, hI.viol, ?_, ?_, hI.al_sub, hI.al_nodup, ?_⟩
  all_goals dsimp only
  · intro w hw hwC
    have := hI.pending w hw hwC
    rw [hq] at this
    rcases List.mem_cons.mp this with h | h
    · exact absurd (h ▸ hwC) hu
    · exact h
  · intro x hx
    exact hI.q_sub x (by rw [hq]; exact List.mem_cons_of_mem u hx)
  · have hb := hI.budget
    rw [hq] at hb
    simp only [List.length_cons] at hb
    omega

theorem kl_peel_nil (k_core l_core : Int) (g : InfGraph) (fuel : Nat) (s : KLPeel)
    (h : s.removal_q = []) : kl_peel k_core l_core g (fuel + 1) s = s := by
  simp only [kl_peel, h]

theorem kl_peel_cons (k_core l_core : Int) (g : InfGraph) (fuel : Nat) (s : KLPeel)
    (u : Nat) (q : List Nat) (h : s.removal_q = u :: q) :
    kl_peel k_core l_core g (fuel + 1) s =
      if s.candidates.contains u then
        kl_peel k_core l_core g fuel
          (kl_drop_in k_core (g.g.getD u [])
            (kl_drop_out l_core (g.gT.getD u [])
              { s with removal_q := q, candidates := uset_erase s.candidates u }))
      else
        kl_peel k_core l_core g fuel { s with removal_q := q } := by
  simp only [kl_peel, h]

/-- The peeling loop of the (k,l)-core runs until the queue is empty and keeps the
invariant. -/
theorem kl_peel_spec {k_core l_core : Int} {g : InfGraph} (hg : GraphCross g)
    {ss : List Nat} :
    ∀ (fuel : Nat) (s : KLPeel), KLInv k_core l_core g ss fuel s →
      (kl_peel k_core l_core g fuel s).removal_q = [] ∧
      KLInv k_core l_core g ss fuel (kl_peel k_core l_core g fuel s) := by
  intro fuel
  induction fuel with
  | zero =>
    intro s hI
    have h1 := nodup_length_le hI.al_nodup hI.al_sub
    have h2 := hI.budget
    show s.removal_q = [] ∧ _
    exact ⟨List.length_eq_zero.mp (by omega), hI⟩
  | succ fuel ih =>
    intro s hI
    cases hq : s.removal_q with
    | nil =>
      rw [kl_peel_nil _ _ _ _ _ hq]
      exact ⟨hq, hI⟩
    | cons u q =>
      rw [kl_peel_cons _ _ _ _ _ u q hq]
      by_cases hu : s.candidates.contains u = true
      · rw [if_pos hu]
        obtain ⟨h1, h2⟩ := ih _ (kl_remove_inv hg hI hq (by simpa using hu))
        exact ⟨h1, { h2 with budget := Nat.le_trans h2.budget (by omega) }⟩
      · rw [if_neg hu]
        obtain ⟨h1, h2⟩ := ih _ (kl_skip_inv hI hq (by simpa using hu))
        exact ⟨h1, { h2 with budget := Nat.le_trans h2.budget (by omega) }⟩

/-- What the finished peeling of the (k,l)-core guarantees for its candidates. -/
theorem kl_peel_sound {k_core l_core : Int} {g : InfGraph} (hg : GraphCross g)
    {ss : List Nat} {fuel : Nat} {s : KLPeel} (hI : KLInv k_core l_core g ss fuel s) :
    ∀ u, u ∈ (kl_peel k_core l_core g fuel s).candidates →
      k_core ≤ (count_in (kl_peel k_core l_core g fuel s).candidates (g.gT.getD u []) : Int) ∧
      l_core ≤ (count_in (kl_peel k_core l_core g fuel s).candidates (g.g.getD u []) : Int) := by
  intro u hu
  obtain ⟨hq, hJ⟩ := kl_peel_spec hg fuel s hI
  rw [← hJ.in_deg u hu, ← hJ.out_deg u hu]
  by_contra hcon
  have hv : (kl_peel k_core l_core g fuel s).internal_in_degrees u < k_core ∨
      (kl_peel k_core l_core g fuel s).internal_out_degrees u < l_core := by
    by_contra hno
    push_neg at hno
    exact hcon ⟨hno.1, hno.2⟩
  have := hJ.pending u (hJ.viol u hu hv) hu
  rw [hq] at this
  exact List.not_mem_nil u this

theorem foldl_uset_insert_nodup :
    ∀ (q acc : List Nat), (acc ++ q).Nodup → q.foldl uset_insert acc = acc ++ q := by
  intro q
  induction q with
  | nil => intro acc _; simp
  | cons x q ih =>
    intro acc h
    have hx : x ∉ acc := by
      intro hmem
      have h2 := (List.nodup_append.mp h).2.2
      exact h2 hmem (List.mem_cons_self x q) 
    rw [List.foldl_cons, uset_insert_of_not_mem hx, ih]
    · simp
    · simpa using h

/-- The effect of the loop that computes the initial degrees of the (k,l)-core. -/
theorem kl_init_spec (k_core l_core : Int) (g : InfGraph) (C : List Nat) :
    ∀ (vs : List Nat) (s : KLPeel),
      (kl_init k_core l_core g C vs s).candidates = s.candidates ∧
      (kl_init k_core l_core g C vs s).already_in_removal_q = s.already_in_removal_q ∧
      (kl_init k_core l_core g C vs s).removal_q =
        s.removal_q ++ vs.filter (fun u =>
          decide ((count_in C (g.gT.getD u []) : Int) < k_core ∨
            (count_in C (g.g.getD u []) : Int) < l_core)) ∧
      (∀ w, (kl_init k_core l_core g C vs s).internal_in_degrees w =
        if w ∈ vs then (count_in C (g.gT.getD w []) : Int) else s.internal_in_degrees w) ∧
      (∀ w, (kl_init k_core l_core g C vs s).internal_out_degrees w =
        if w ∈ vs then (count_in C (g.g.getD w []) : Int) else s.internal_out_degrees w) := by
  intro vs
  induction vs with
  | nil =>
    intro s
    refine ⟨rfl, rfl, ?_, ?_, ?_⟩
    · simp [kl_init]
    · intro w; simp [kl_init]
    · intro w; simp [kl_init]
  | cons v rest ih =>
    intro s
    simp only [kl_init]
    obtain ⟨h1, h2, h3, h4, h5⟩ := ih
      { s with
        internal_in_degrees :=
          Function.update s.internal_in_degrees v (count_in C (g.gT.getD v []) : Int)
        internal_out_degrees :=
          Function.update s.internal_out_degrees v (count_in C (g.g.getD v []) : Int)
        removal_q :=
          if (count_in C (g.gT.getD v []) : Int) < k_core ∨
              (count_in C (g.g.getD v []) : Int) < l_core then
            s.removal_q ++ [v]
          else s.removal_q }
    refine ⟨h1, h2, ?_, ?_, ?_⟩
    · rw [h3, List.filter_cons]
      dsimp only
      by_cases hv : (count_in C (g.gT.getD v []) : Int) < k_core ∨
          (count_in C (g.g.getD v []) : Int) < l_core
      · rw [if_pos hv, if_pos (decide_eq_true hv)]; simp
      · rw [if_neg hv, if_neg (by simpa using hv)]
    · intro w
      rw [h4 w]
      dsimp only
      by_cases hw : w ∈ rest
      · rw [if_pos hw, if_pos (List.mem_cons_of_mem v hw)]
      · rw [if_neg hw]
        by_cases hwv : w = v
        · subst hwv
          rw [if_pos (List.mem_cons_self w rest), Function.update_same]
        · rw [Function.update_noteq hwv, if_neg]
          intro hmem
          rcases List.mem_cons.mp hmem with h | h
          · exact hwv h
          · exact hw h
    · intro w
      rw [h5 w]
      dsimp only
      by_cases hw : w ∈ rest
      · rw [if_pos hw, if_pos (List.mem_cons_of_mem v hw)]
      · rw [if_neg hw]
        by_cases hwv : w = v
        · subst hwv
          rw [if_pos (List.mem_cons_self w rest), Function.update_same]
        · rw [Function.update_noteq hwv, if_neg]
          intro hmem
          rcases List.mem_cons.mp hmem with h | h
          · exact hwv h
          · exact hw h

/-- The invariant holds when the peeling loop of the (k,l)-core is entered. -/
theorem kl_start_inv (enum : List Nat → List Nat) (henum : ∀ l, (enum l).Perm l)
    (k_core l_core : Int) (g : InfGraph) (ss : List Nat) (hnd : ss.Nodup) :
    KLInv k_core l_core g ss ss.length
      ((fun s : KLPeel => { s with already_in_removal_q := s.removal_q.foldl uset_insert [] })
        (kl_init k_core l_core g ss (enum ss)
          { candidates := ss, removal_q := [], already_in_removal_q := [],
            internal_in_degrees := fun _ => 0, internal_out_degrees := fun _ => 0 })) := by
  obtain ⟨h1, _, h3, h4, h5⟩ := kl_init_spec k_core l_core g ss (enum ss)
    { candidates := ss, removal_q := [], already_in_removal_q := [],
      internal_in_degrees := fun _ => 0, internal_out_degrees := fun _ => 0 }
  simp only [List.nil_append] at h1 h3 h4 h5
  have hmem : ∀ x, x ∈ enum ss ↔ x ∈ ss := fun x => (henum ss).mem_iff
  have hqnd : ((enum ss).filter (fun u =>
      decide ((count_in ss (g.gT.getD u []) : Int) < k_core ∨
        (count_in ss (g.g.getD u []) : Int) < l_core))).Nodup :=
    ((henum ss).nodup_iff.mpr hnd).filter _
  have hal := foldl_uset_insert_nodup _ [] (by rw [List.nil_append]; exact hqnd)
  rw [List.nil_append] at hal
  dsimp only
  rw [h3, hal]
  refine ⟨?_, ?_, ?_, ?_, ?_, ?_, ?_, ?_, ?_⟩
  all_goals dsimp only
  · intro x hx; rw [h1] at hx; exact hx
  · intro u hu
    rw [h1] at hu ⊢
    rw [h4 u, if_pos ((hmem u).2 hu)]
  · intro u hu
    rw [h1] at hu ⊢
    rw [h5 u, if_pos ((hmem u).2 hu)]
  · intro u hu hv
    rw [h1] at hu
    rw [h4 u, h5 u, if_pos ((hmem u).2 hu), if_pos ((hmem u).2 hu)] at hv
    rw [List.mem_filter]
    exact ⟨(hmem u).2 hu, decide_eq_true hv⟩
  · intro u hu _
    exact hu
  · intro x hx
    exact hx
  · intro x hx
    exact (hmem x).1 (List.mem_filter.mp hx).1
  · exact hqnd
  · omega

end PeelLemmas

/-! ## The community searches -/

section CommunityLemmas

open CommunitySearcher

theorem count_in_congr {S T : List Nat} {row : List Nat}
    (h : ∀ v, v ∈ row → (v ∈ S ↔ v ∈ T)) : count_in S row = count_in T row := by
  unfold count_in
  congr 1
  apply List.filter_congr
  intro v hv
  have := h v hv
  by_cases hs : v ∈ S
  · have ht := this.1 hs
    simp [hs, ht]
  · have ht : v ∉ T := fun ht => hs (this.2 ht)
    simp [hs, ht]

theorem distinct_in_of_nodup (S : List Nat) {row : List Nat} (h : row.Nodup) :
    distinct_in S row = count_in S row := by
  unfold distinct_in
  rw [h.dedup]

theorem distinct_in_le (S row : List Nat) : distinct_in S row ≤ count_in S row := by
  unfold distinct_in count_in
  exact ((List.dedup_sublist row).filter _).length_le

/-- A breadth-first search from a start node of the universe finishes within as many
passes as the universe has nodes. -/
theorem bfs_from_spec (nbrs : Nat → List Nat) (ok : Nat → Bool) (U : List Nat)
    (hU : ∀ x, ok x = true → x ∈ U) (s0 : Nat) (h0 : s0 ∈ U) :
    BfsDone nbrs ok s0 (bfs_loop nbrs ok U.length ([s0], [s0])).2 := by
  refine (bfs_loop_spec nbrs ok U hU s0 U.length ([s0], [s0]) ?_).2
  refine ⟨fun x hx => hx, List.nodup_singleton s0, ?_, List.mem_singleton_self s0, ?_, ?_, ?_, ?_⟩
  · intro x hx
    rw [List.mem_singleton.mp hx]; exact h0
  · intro x hx
    exact Or.inl (List.mem_singleton.mp hx)
  · intro x hx hnx
    exact absurd hx hnx
  · intro x hx
    rw [List.mem_singleton.mp hx]
    exact Relation.ReflTransGen.refl
  · simp only [List.length_singleton]
    omega

theorem first_surviving_spec {vq cands : List Nat} {q : Nat}
    (h : first_surviving vq cands = some q) : q ∈ vq ∧ q ∈ cands := by
  unfold first_surviving at h
  refine ⟨List.mem_of_find?_eq_some h, ?_⟩
  have := List.find?_some h
  simpa using this

/-- What `prepare_search_space` guarantees when it succeeds. -/
theorem prepare_search_space_spec {final_states : List NodeState} {g : InfGraph}
    {query_nodes : List Nat} {prep : SearchPrep}
    (h : prepare_search_space final_states g query_nodes = some prep) :
    prep.search_space.Nodup ∧
      (∀ q, q ∈ prep.valid_query_nodes → q ∈ query_nodes) ∧
      (∀ x, x ∈ prep.search_space → x ∈ final_states.map NodeState.id) := by
  unfold prepare_search_space at h
  cases hf : query_nodes.filter
      (fun qn => (final_states.map NodeState.id).contains qn) with
  | nil => rw [hf] at h; exact absurd h (by simp)
  | cons q0 qs =>
    rw [hf] at h
    simp only [Option.some.injEq] at h
    have hq0 : q0 ∈ query_nodes.filter
        (fun qn => (final_states.map NodeState.id).contains qn) := by
      rw [hf]; exact List.mem_cons_self q0 qs
    have hq0U : q0 ∈ final_states.map NodeState.id := by
      have := (List.mem_filter.mp hq0).2
      simpa using this
    have hD := bfs_from_spec (fun u => g.g.getD u [] ++ g.gT.getD u [])
      (fun v => (final_states.map NodeState.id).contains v) (final_states.map NodeState.id)
      (fun x hx => by simpa using hx) q0 hq0U
    rw [List.length_map] at hD
    subst h
    refine ⟨hD.nodup, ?_, ?_⟩
    · intro q hq
      have : q ∈ query_nodes.filter
          (fun qn => (final_states.map NodeState.id).contains qn) := by
        rw [hf]; exact hq
      exact (List.mem_filter.mp this).1
    · intro x hx
      rcases hD.okay x hx with h1 | h1
      · rw [h1]; exact hq0U
      · simpa using h1

/-- The shape of the result of `find_most_influenced_community_local`: empty, or the
listing of the component of a surviving query node among the candidates. -/
theorem kl_result_cases (enum : List Nat → List Nat) (k_core l_core : Int)
    (final_states : List NodeState) (g : InfGraph) (query_nodes : List Nat) :
    (find_most_influenced_community_local enum k_core l_core final_states g
        query_nodes).node_ids = [] ∨
      ∃ prep sq, prepare_search_space final_states g query_nodes = some prep ∧
        first_surviving prep.valid_query_nodes
          (kl_core_candidates enum k_core l_core g prep.search_space).candidates = some sq ∧
        (find_most_influenced_community_local enum k_core l_core final_states g
            query_nodes).node_ids =
          enum (bfs_loop (fun u => g.g.getD u [] ++ g.gT.getD u [])
            (fun v =>
              (kl_core_candidates enum k_core l_core g prep.search_space).candidates.contains v)
            (kl_core_candidates enum k_core l_core g prep.search_space).candidates.length
            ([sq], [sq])).2 := by
  unfold find_most_influenced_community_local
  split_ifs with h1
  · exact Or.inl rfl
  · cases hp : prepare_search_space final_states g query_nodes with
    | none => exact Or.inl rfl
    | some prep =>
      dsimp only
      split_ifs with h2
      · exact Or.inl rfl
      · cases hs : first_surviving prep.valid_query_nodes
            (kl_core_candidates enum k_core l_core g prep.search_space).candidates with
        | none => exact Or.inl rfl
        | some sq => exact Or.inr ⟨prep, sq, rfl, hs, rfl⟩

/-- The candidates left by the peeling of the (k,l)-core keep the degree bounds. -/
theorem kl_core_candidates_sound (enum : List Nat → List Nat)
    (henum : ∀ l, (enum l).Perm l) (k_core l_core : Int) (g : InfGraph)
    (hg : GraphCross g) (ss : List Nat) (hnd : ss.Nodup) :
    ∀ u, u ∈ (kl_core_candidates enum k_core l_core g ss).candidates →
      k_core ≤ (count_in (kl_core_candidates enum k_core l_core g ss).candidates
        (g.gT.getD u []) : Int) ∧
      l_core ≤ (count_in (kl_core_candidates enum k_core l_core g ss).candidates
        (g.g.getD u []) : Int) :=
  kl_peel_sound hg (kl_start_inv enum henum k_core l_core g ss hnd)

/-- Inside a component that is closed under the admissible neighbours, the entries of a
row of a member that lie in the component are those that lie in the candidate set. -/
theorem count_in_component {nbrs : Nat → List Nat} {C comp : List Nat} {s0 : Nat}
    (hD : BfsDone nbrs (fun v => C.contains v) s0 comp) (h0 : s0 ∈ C) {u : Nat}
    (hu : u ∈ comp) (row : List Nat) (hrow : ∀ v, v ∈ row → v ∈ nbrs u) :
    count_in comp row = count_in C row := by
  apply count_in_congr
  intro v hv
  constructor
  · intro hvc
    rcases hD.okay v hvc with h | h
    · rw [h]; exact h0
    · simpa using h
  · intro hvC
    exact hD.closed u hu v (hrow v hv) (by simpa using hvC)

theorem BfsDone.sub {nbrs : Nat → List Nat} {C comp : List Nat} {s0 : Nat}
    (hD : BfsDone nbrs (fun v => C.contains v) s0 comp) (h0 : s0 ∈ C) :
    ∀ x, x ∈ comp → x ∈ C := by
  intro x hx
  rcases hD.okay x hx with h | h
  · rw [h]; exact h0
  · simpa using h

/-! ### The undirected view -/

theorem mem_set_insert (x : Nat) : ∀ (l : List Nat) (y : Nat),
    y ∈ set_insert x l ↔ y = x ∨ y ∈ l := by
  intro l
  induction l with
  | nil => intro y; simp [set_insert]
  | cons a l ih =>
    intro y
    unfold set_insert
    split_ifs with h1 h2
    · simp
    · subst h2; simp
    · rw [List.mem_cons, ih, List.mem_cons]; tauto

theorem set_insert_sorted (x : Nat) : ∀ (l : List Nat),
    l.Pairwise (fun a b => a < b) → (set_insert x l).Pairwise (fun a b => a < b) := by
  intro l
  induction l with
  | nil => intro _; simp [set_insert]
  | cons a l ih =>
    intro h
    unfold set_insert
    split_ifs with h1 h2
    · rw [List.pairwise_cons]
      refine ⟨?_, h⟩
      intro b hb
      rcases List.mem_cons.mp hb with hb | hb
      · rw [hb]; exact h1
      · exact Nat.lt_trans h1 ((List.pairwise_cons.mp h).1 b hb)
    · exact h
    · rw [List.pairwise_cons] at h ⊢
      refine ⟨?_, ih h.2⟩
      intro b hb
      rcases (mem_set_insert x l b).1 hb with hb | hb
      · rw [hb]; omega
      · exact h.1 b hb

theorem sorted_nodup {l : List Nat} (h : l.Pairwise (fun a b => a < b)) : l.Nodup :=
  h.imp (fun hab => Nat.ne_of_lt hab)

/-- The rows after the two statements `adj[u].insert(v); adj[v].insert(u);`. -/
theorem mem_insert_pair (adj : AdjMap) (u v x y : Nat) :
    y ∈ ((adj.insert u v).insert v u).nbrs x ↔
      y ∈ adj.nbrs x ∨ (x = u ∧ y = v) ∨ (x = v ∧ y = u) := by
  simp only [AdjMap.insert]
  by_cases hxv : x = v
  · subst hxv
    rw [Function.update_same, mem_set_insert]
    by_cases hxu : x = u
    · subst hxu
      rw [Function.update_same, mem_set_insert]
      tauto
    · rw [Function.update_noteq hxu]
      tauto
  · rw [Function.update_noteq hxv]
    by_cases hxu : x = u
    · subst hxu
      rw [Function.update_same, mem_set_insert]
      tauto
    · rw [Function.update_noteq hxu]
      tauto

theorem sorted_insert_pair (adj : AdjMap) (u v : Nat)
    (h : ∀ x, (adj.nbrs x).Pairwise (fun a b => a < b)) :
    ∀ x, (((adj.insert u v).insert v u).nbrs x).Pairwise (fun a b => a < b) := by
  intro x
  simp only [AdjMap.insert]
  by_cases hxv : x = v
  · subst hxv
    rw [Function.update_same]
    apply set_insert_sorted
    by_cases hxu : x = u
    · subst hxu
      rw [Function.update_same]
      exact set_insert_sorted _ _ (h x)
    · rw [Function.update_noteq hxu]
      exact h x
  · rw [Function.update_noteq hxv]
    by_cases hxu : x = u
    · subst hxu
      rw [Function.update_same]
      exact set_insert_sorted _ _ (h x)
    · rw [Function.update_noteq hxu]
      exact h x

theorem keys_insert_pair (adj : AdjMap) (u v x : Nat) :
    x ∈ ((adj.insert u v).insert v u).keys ↔ x ∈ adj.keys ∨ x = u ∨ x = v := by
  simp only [AdjMap.insert]
  rw [mem_set_insert, mem_set_insert]
  tauto

theorem joined_symm {g : InfGraph} {a b : Nat} (h : Joined g a b) : Joined g b a := by
  unfold Joined at *
  tauto

theorem AdjOK.insert_pair {g : InfGraph} {S : List Nat} {adj : AdjMap}
    (h : AdjOK g S adj) {u v : Nat} (hu : u ∈ S) (hv : v ∈ S) (hj : Joined g u v) :
    AdjOK g S ((adj.insert u v).insert v u) := by
  refine ⟨sorted_insert_pair adj u v h.sorted, ?_, ?_, ?_⟩
  · intro x y hy
    rw [mem_insert_pair] at hy ⊢
    rcases hy with hy | hy | hy
    · exact Or.inl (h.sym x y hy)
    · exact Or.inr (Or.inr ⟨hy.2, hy.1⟩)
    · exact Or.inr (Or.inl ⟨hy.2, hy.1⟩)
  · intro x y hy
    rw [mem_insert_pair] at hy
    rcases hy with hy | hy | hy
    · exact h.sound x y hy
    · rw [hy.1, hy.2]; exact ⟨hu, hv, hj⟩
    · rw [hy.1, hy.2]; exact ⟨hv, hu, joined_symm hj⟩
  · intro x y hy
    rw [mem_insert_pair] at hy
    rw [keys_insert_pair]
    rcases hy with hy | hy | hy
    · exact Or.inl (h.keyed x y hy)
    · exact Or.inr (Or.inl hy.1)
    · exact Or.inr (Or.inr hy.1)

theorem AdjOK.link_all {g : InfGraph} {S : List Nat} {u : Nat} (hu : u ∈ S) :
    ∀ (vs : List Nat) (adj : AdjMap), (∀ v, v ∈ vs → Joined g u v) → AdjOK g S adj →
      AdjOK g S (link_all S u vs adj) := by
  intro vs
  induction vs with
  | nil => intro adj _ h; exact h
  | cons v rest ih =>
    intro adj hj h
    unfold CommunitySearcher.link_all
    have hrest : ∀ w, w ∈ rest → Joined g u w := fun w hw => hj w (List.mem_cons_of_mem v hw)
    split_ifs with hv
    · exact ih _ hrest (h.insert_pair hu hv (hj v (List.mem_cons_self v rest)))
    · exact ih _ hrest h

theorem AdjOK.touch {g : InfGraph} {S : List Nat} {adj : AdjMap} (h : AdjOK g S adj)
    (u : Nat) : AdjOK g S (adj.touch u) := by
  refine ⟨h.sorted, h.sym, h.sound, ?_⟩
  intro x y hy
  simp only [AdjMap.touch]
  rw [mem_set_insert]
  exact Or.inr (h.keyed x y hy)

theorem foldl_inv {α β : Type} (P : β → Prop) (f : β → α → β) (l : List α)
    (hstep : ∀ b a, a ∈ l → P b → P (f b a)) : ∀ b, P b → P (l.foldl f b) := by
  induction l with
  | nil => intro b hb; exact hb
  | cons a l ih =>
    intro b hb
    rw [List.foldl_cons]
    exact ih (fun b a' ha' hP => hstep b a' (List.mem_cons_of_mem a ha') hP) _
      (hstep b a (List.mem_cons_self a l) hb)

/-- The undirected view built by `build_undirected_adj` is well formed. -/
theorem build_undirected_adj_ok (enum : List Nat → List Nat)
    (henum : ∀ l, (enum l).Perm l) (g : InfGraph) (S : List Nat) :
    AdjOK g S (build_undirected_adj enum g S) := by
  unfold build_undirected_adj
  apply foldl_inv (AdjOK g S)
  · intro adj u hu h
    have huS : u ∈ S := (henum S).mem_iff.mp hu
    apply AdjOK.link_all huS
    · intro v hv; exact Or.inr (Or.inl hv)
    · apply AdjOK.link_all huS
      · intro v hv; exact Or.inl hv
      · exact h.touch u
  · refine ⟨fun u => List.Pairwise.nil, ?_, ?_, ?_⟩
    · intro u v hv; exact absurd hv (List.not_mem_nil v)
    · intro u v hv; exact absurd hv (List.not_mem_nil v)
    · intro u v hv; exact absurd hv (List.not_mem_nil v)

theorem AdjOK.row_eq {g : InfGraph} {S : List Nat} {adj : AdjMap} (h : AdjOK g S adj)
    (u : Nat) : adj.row u = adj.nbrs u := by
  unfold AdjMap.row
  split_ifs with hk
  · rfl
  · cases hn : adj.nbrs u with
    | nil => rfl
    | cons y ys =>
      exact absurd (h.keyed u y (by rw [hn]; exact List.mem_cons_self y ys)) hk

theorem AdjOK.count_sym {g : InfGraph} {S : List Nat} {adj : AdjMap} (h : AdjOK g S adj)
    (u v : Nat) : (adj.nbrs u).count v = (adj.nbrs v).count u := by
  by_cases huv : v ∈ adj.nbrs u
  · rw [List.count_eq_one_of_mem (sorted_nodup (h.sorted u)) huv,
      List.count_eq_one_of_mem (sorted_nodup (h.sorted v)) (h.sym u v huv)]
  · have hvu : u ∉ adj.nbrs v := fun hm => huv (h.sym v u hm)
    rw [List.count_eq_zero_of_not_mem huv, List.count_eq_zero_of_not_mem hvu]

end CommunityLemmas

/-! ## Peeling of the k-core -/

section KCoreLemmas

open CommunitySearcher

theorem k_drop_eq (k_core : Int) :
    ∀ (vs : List Nat) (s : KPeel),
      k_drop k_core vs s =
        { s with
          internal_degrees :=
            (drop_gen k_core s.candidates vs
              (s.internal_degrees, s.removal_q, s.already_in_removal_q)).1
          removal_q :=
            (drop_gen k_core s.candidates vs
              (s.internal_degrees, s.removal_q, s.already_in_removal_q)).2.1
          already_in_removal_q :=
            (drop_gen k_core s.candidates vs
              (s.internal_degrees, s.removal_q, s.already_in_removal_q)).2.2 } := by
  intro vs
  induction vs with
  | nil => intro s; rfl
  | cons v rest ih =>
    intro s
    simp only [k_drop, drop_gen]
    by_cases hv : s.candidates.contains v = true
    · rw [if_pos hv, if_pos hv, ih]
    · rw [if_neg hv, if_neg hv, ih]

/-- One pass of the k-core peeling loop that removes the candidate `u`. -/
theorem k_remove_inv {k_core : Int} {g : InfGraph} {adj : AdjMap} {ss : List Nat}
    (hA : AdjOK g ss adj) {fuel : Nat} {s : KPeel} {u : Nat} {q : List Nat}
    (hI : KInv k_core adj ss (fuel + 1) s) (hq : s.removal_q = u :: q)
    (hu : u ∈ s.candidates) :
    KInv k_core adj ss fuel
      (k_drop k_core (adj.nbrs u)
        { s with removal_q := q, candidates := uset_erase s.candidates u }) := by
  rw [k_drop_eq]
  simp only
  obtain ⟨o1, ⟨ext1, o2, o3, o4, o5, o6⟩, o7⟩ := drop_gen_spec k_core
    (uset_erase s.candidates u) (adj.nbrs u)
    (s.internal_degrees, q, s.already_in_removal_q)
  simp only at o1 o2 o3 o4 o5 o6 o7
  have hsubC : ∀ x, x ∈ uset_erase s.candidates u → x ∈ s.candidates :=
    fun x hx => ((mem_uset_erase _ _ _).1 hx).1
  have hneu : ∀ x, x ∈ uset_erase s.candidates u → x ≠ u :=
    fun x hx => ((mem_uset_erase _ _ _).1 hx).2
  refine ⟨fun x hx => hI.cand_sub x (hsubC x hx), ?_, ?_, ?_, ?_, ?_, ?_, ?_⟩
  all_goals dsimp only
  · intro w hw
    rw [o1 w, if_pos hw, hI.deg w (hsubC w hw)]
    have h1 := count_in_erase s.candidates u hu (adj.nbrs w)
    have h2 := hA.count_sym u w
    omega
  · intro w hw hviol
    by_cases hc : 0 < (adj.nbrs u).count w
    · exact o7 w hw hc hviol
    · have h0 : (adj.nbrs u).count w = 0 := by omega
      rw [o1 w, if_pos hw, h0] at hviol
      simp only [Nat.cast_zero, sub_zero] at hviol
      exact (o4 w).2 (Or.inl (hI.viol w (hsubC w hw) hviol))
  · intro w hw hwC
    rw [o2]
    rcases (o4 w).1 hw with h' | h'
    · have := hI.pending w h' (hsubC w hwC)
      rw [hq] at this
      rcases List.mem_cons.mp this with h'' | h''
      · exact absurd h'' (hneu w hwC)
      · exact List.mem_append_left _ h''
    · exact List.mem_append_right _ h'
  · intro x hx
    rw [o2] at hx
    rcases List.mem_append.mp hx with h' | h'
    · exact (o4 x).2 (Or.inl (hI.q_sub x (by rw [hq]; exact List.mem_cons_of_mem u h')))
    · exact (o4 x).2 (Or.inr h')
  · intro x hx
    rcases (o4 x).1 hx with h' | h'
    · exact hI.al_sub x h'
    · exact hI.cand_sub x (hsubC x (o3 x h').2)
  · exact o5 hI.al_nodup
  · rw [o6, o2]
    have hb := hI.budget
    rw [hq] at hb
    simp only [List.length_cons, List.length_append] at hb ⊢
    omega

/-- One pass of the k-core peeling loop on a queue entry that is no longer a
candidate. -/
theorem k_skip_inv {k_core : Int} {adj : AdjMap} {ss : List Nat} {fuel : Nat} {s : KPeel}
    {u : Nat} {q : List Nat} (hI : KInv k_core adj ss (fuel + 1) s)
    (hq : s.removal_q = u :: q) (hu : u ∉ s.candidates) :
    KInv k_core adj ss fuel { s with removal_q := q } := by
  refine ⟨hI.cand_sub, hI.deg, hI.viol, ?_, ?_, hI.al_sub, hI.al_nodup, ?_⟩
  all_goals dsimp only
  · intro w hw hwC
    have := hI.pending w hw hwC
    rw [hq] at this
    rcases List.mem_cons.mp this with h | h
    · exact absurd (h ▸ hwC) hu
    · exact h
  · intro x hx
    exact hI.q_sub x (by rw [hq]; exact List.mem_cons_of_mem u hx)
  · have hb := hI.budget
    rw [hq] at hb
    simp only [List.length_cons] at hb
    omega

theorem k_peel_nil (k_core : Int) (adj : AdjMap) (fuel : Nat) (s : KPeel)
    (h : s.removal_q = []) : k_peel k_core adj (fuel + 1) s = s := by
  simp only [k_peel, h]

theorem k_peel_cons (k_core : Int) (adj : AdjMap) (fuel : Nat) (s : KPeel)
    (u : Nat) (q : List Nat) (h : s.removal_q = u :: q) :
    k_peel k_core adj (fuel + 1) s =
      if s.candidates.contains u then
        k_peel k_core adj fuel
          (k_drop k_core (adj.nbrs u)
            { s with removal_q := q, candidates := uset_erase s.candidates u })
      else
        k_peel k_core adj fuel { s with removal_q := q } := by
  simp only [k_peel, h]

/-- The peeling loop of the k-core runs until the queue is empty and keeps the
invariant. -/
theorem k_peel_spec {k_core : Int} {g : InfGraph} {adj : AdjMap} {ss : List Nat}
    (hA : AdjOK g ss adj) :
    ∀ (fuel : Nat) (s : KPeel), KInv k_core adj ss fuel s →
      (k_peel k_core adj fuel s).removal_q = [] ∧
      KInv k_core adj ss fuel (k_peel k_core adj fuel s) := by
  intro fuel
  induction fuel with
  | zero =>
    intro s hI
    have h1 := nodup_length_le hI.al_nodup hI.al_sub
    have h2 := hI.budget
    show s.removal_q = [] ∧ _
    exact ⟨List.length_eq_zero.mp (by omega), hI⟩
  | succ fuel ih =>
    intro s hI
    cases hq : s.removal_q with
    | nil =>
      rw [k_peel_nil _ _ _ _ hq]
      exact ⟨hq, hI⟩
    | cons u q =>
      rw [k_peel_cons _ _ _ _ u q hq]
      by_cases hu : s.candidates.contains u = true
      · rw [if_pos hu]
        obtain ⟨h1, h2⟩ := ih _ (k_remove_inv hA hI hq (by simpa using hu))
        exact ⟨h1, { h2 with budget := Nat.le_trans h2.budget (by omega) }⟩
      · rw [if_neg hu]
        obtain ⟨h1, h2⟩ := ih _ (k_skip_inv hI hq (by simpa using hu))
        exact ⟨h1, { h2 with budget := Nat.le_trans h2.budget (by omega) }⟩

/-- What the finished peeling of the k-core guarantees for its candidates. -/
theorem k_peel_sound {k_core : Int} {g : InfGraph} {adj : AdjMap} {ss : List Nat}
    (hA : AdjOK g ss adj) {fuel : Nat} {s : KPeel} (hI : KInv k_core adj ss fuel s) :
    ∀ u, u ∈ (k_peel k_core adj fuel s).candidates →
      k_core ≤ (count_in (k_peel k_core adj fuel s).candidates (adj.nbrs u) : Int) := by
  intro u hu
  obtain ⟨hq, hJ⟩ := k_peel_spec hA fuel s hI
  rw [← hJ.deg u hu]
  by_contra hcon
  have := hJ.pending u (hJ.viol u hu (by omega)) hu
  rw [hq] at this
  exact List.not_mem_nil u this

/-- The effect of the loop that computes the initial degrees of the k-core. -/
theorem k_init_spec (k_core : Int) (adj : AdjMap) :
    ∀ (vs : List Nat) (s : KPeel),
      (k_init k_core adj vs s).candidates = s.candidates ∧
      (k_init k_core adj vs s).removal_q =
        s.removal_q ++ vs.filter (fun u => decide (((adj.nbrs u).length : Int) < k_core)) ∧
      (∀ w, (k_init k_core adj vs s).internal_degrees w =
        if w ∈ vs then ((adj.nbrs w).length : Int) else s.internal_degrees w) := by
  intro vs
  induction vs with
  | nil =>
    intro s
    refine ⟨rfl, ?_, ?_⟩
    · simp [k_init]
    · intro w; simp [k_init]
  | cons v rest ih =>
    intro s
    simp only [k_init]
    obtain ⟨h1, h3, h4⟩ := ih
      { s with
        internal_degrees :=
          Function.update s.internal_degrees v ((adj.nbrs v).length : Int)
        removal_q :=
          if ((adj.nbrs v).length : Int) < k_core then s.removal_q ++ [v]
          else s.removal_q }
    refine ⟨h1, ?_, ?_⟩
    · rw [h3, List.filter_cons]
      dsimp only
      by_cases hv : ((adj.nbrs v).length : Int) < k_core
      · rw [if_pos hv, if_pos (decide_eq_true hv)]; simp
      · rw [if_neg hv, if_neg (by simpa using hv)]
    · intro w
      rw [h4 w]
      dsimp only
      by_cases hw : w ∈ rest
      · rw [if_pos hw, if_pos (List.mem_cons_of_mem v hw)]
      · rw [if_neg hw]
        by_cases hwv : w = v
        · subst hwv
          rw [if_pos (List.mem_cons_self w rest), Function.update_same]
        · rw [Function.update_noteq hwv, if_neg]
          intro hmem
          rcases List.mem_cons.mp hmem with h | h
          · exact hwv h
          · exact hw h

theorem count_in_all {S row : List Nat} (h : ∀ v, v ∈ row → v ∈ S) :
    count_in S row = row.length := by
  unfold count_in
  rw [List.filter_eq_self.mpr]
  intro v hv
  simpa using h v hv

/-- The invariant holds when the peeling loop of the k-core is entered. -/
theorem k_start_inv (enum : List Nat → List Nat) (henum : ∀ l, (enum l).Perm l)
    (k_core : Int) {g : InfGraph} {adj : AdjMap} {ss : List Nat} (hA : AdjOK g ss adj)
    (hnd : ss.Nodup) :
    KInv k_core adj ss ss.length
      ((fun s : KPeel => { s with already_in_removal_q := s.removal_q.foldl uset_insert [] })
        (k_init k_core adj (enum ss)
          { candidates := ss, removal_q := [], already_in_removal_q := [],
            internal_degrees := fun _ => 0 })) := by
  obtain ⟨h1, h3, h4⟩ := k_init_spec k_core adj (enum ss)
    { candidates := ss, removal_q := [], already_in_removal_q := [],
      internal_degrees := fun _ => 0 }
  simp only [List.nil_append] at h1 h3 h4
  have hmem : ∀ x, x ∈ enum ss ↔ x ∈ ss := fun x => (henum ss).mem_iff
  have hqnd : ((enum ss).filter
      (fun u => decide (((adj.nbrs u).length : Int) < k_core))).Nodup :=
    ((henum ss).nodup_iff.mpr hnd).filter _
  have hal := foldl_uset_insert_nodup _ [] (by rw [List.nil_append]; exact hqnd)
  rw [List.nil_append] at hal
  dsimp only
  rw [h3, hal]
  refine ⟨?_, ?_, ?_, ?_, ?_, ?_, ?_, ?_⟩
  all_goals dsimp only
  · intro x hx; rw [h1] at hx; exact hx
  · intro u hu
    rw [h1] at hu ⊢
    rw [h4 u, if_pos ((hmem u).2 hu), count_in_all (fun v hv => (hA.sound u v hv).2.1)]
  · intro u hu hv
    rw [h1] at hu
    rw [h4 u, if_pos ((hmem u).2 hu)] at hv
    rw [List.mem_filter]
    exact ⟨(hmem u).2 hu, decide_eq_true hv⟩
  · intro u hu _
    exact hu
  · intro x hx
    exact hx
  · intro x hx
    exact (hmem x).1 (List.mem_filter.mp hx).1
  · exact hqnd
  · omega

/-- The candidates left by the peeling of the k-core keep the degree bound. -/
theorem k_core_candidates_sound (enum : List Nat → List Nat)
    (henum : ∀ l, (enum l).Perm l) (k_core : Int) {g : InfGraph} {adj : AdjMap}
    {ss : List Nat} (hA : AdjOK g ss adj) (hnd : ss.Nodup) :
    ∀ u, u ∈ (k_core_candidates enum k_core adj ss).candidates →
      k_core ≤ (count_in (k_core_candidates enum k_core adj ss).candidates
        (adj.nbrs u) : Int) :=
  k_peel_sound hA (k_start_inv enum henum k_core hA hnd)

/-- The candidates left by the peeling of the k-core lie in the search space. -/
theorem k_core_candidates_sub (enum : List Nat → List Nat)
    (henum : ∀ l, (enum l).Perm l) (k_core : Int) {g : InfGraph} {adj : AdjMap}
    {ss : List Nat} (hA : AdjOK g ss adj) (hnd : ss.Nodup) :
    ∀ u, u ∈ (k_core_candidates enum k_core adj ss).candidates → u ∈ ss :=
  (k_peel_spec hA _ _ (k_start_inv enum henum k_core hA hnd)).2.cand_sub

/-- The shape of the result of `find_k_core_community`: empty, or the listing of the
component of a surviving query node among the candidates. -/
theorem k_result_cases (enum : List Nat → List Nat) (k_core : Int)
    (final_states : List NodeState) (g : InfGraph) (query_nodes : List Nat) :
    (find_k_core_community enum k_core final_states g query_nodes).node_ids = [] ∨
      ∃ prep sq, prepare_search_space final_states g query_nodes = some prep ∧
        first_surviving prep.valid_query_nodes
          (k_core_candidates enum k_core (build_undirected_adj enum g prep.search_space)
            prep.search_space).candidates = some sq ∧
        (find_k_core_community enum k_core final_states g query_nodes).node_ids =
          enum (extract_connected_component sq
            (build_undirected_adj enum g prep.search_space)
            (k_core_candidates enum k_core (build_undirected_adj enum g prep.search_space)
              prep.search_space).candidates) := by
  unfold find_k_core_community
  split_ifs with h1
  · exact Or.inl rfl
  · cases hp : prepare_search_space final_states g query_nodes with
    | none => exact Or.inl rfl
    | some prep =>
      dsimp only
      split_ifs with h2
      · exact Or.inl rfl
      · cases hs : first_surviving prep.valid_query_nodes
            (k_core_candidates enum k_core (build_undirected_adj enum g prep.search_space)
              prep.search_space).candidates with
        | none => exact Or.inl rfl
        | some sq => exact Or.inr ⟨prep, sq, rfl, hs, rfl⟩

/-- The component extracted from a start node that is a candidate. -/
theorem extract_connected_component_spec (adj : AdjMap) (C : List Nat) (s0 : Nat)
    (h0 : s0 ∈ C) :
    BfsDone adj.row (fun v => C.contains v) s0 (extract_connected_component s0 adj C) := by
  unfold extract_connected_component
  have hc : C.contains s0 = true := by simpa using h0
  rw [if_pos hc]
  exact bfs_from_spec adj.row (fun v => C.contains v) C (fun x hx => by simpa using hx) s0 h0

theorem joinedb_iff (g : InfGraph) (a b : Nat) : joinedb g a b = true ↔ Joined g a b := by
  have hc : ∀ (l : List Nat) (x : Nat), l.contains x = true ↔ x ∈ l := by
    intro l x; simp
  unfold joinedb Joined
  rw [Bool.or_eq_true, Bool.or_eq_true, Bool.or_eq_true, hc, hc, hc, hc]
  tauto

/-- The entries of a row of the undirected view that lie in `R` are nodes of `R` joined
to the owner of the row. -/
theorem count_in_le_undirected {g : InfGraph} {ss : List Nat} {adj : AdjMap}
    (hA : AdjOK g ss adj) (R : List Nat) (u : Nat) :
    count_in R (adj.nbrs u) ≤ undirected_degree_in g R u := by
  unfold count_in undirected_degree_in
  have h1 : ((adj.nbrs u).filter (fun v => R.contains v)).Nodup :=
    (sorted_nodup (hA.sorted u)).filter _
  have h2 : (R.dedup.filter (fun w => joinedb g u w)).Nodup := (List.nodup_dedup R).filter _
  rw [← List.toFinset_card_of_nodup h1, ← List.toFinset_card_of_nodup h2]
  apply Finset.card_le_card
  intro v hv
  rw [List.mem_toFinset, List.mem_filter] at hv ⊢
  refine ⟨List.mem_dedup.mpr (by simpa using hv.2), ?_⟩
  exact (joinedb_iff g u v).2 (hA.sound u v hv.1).2.2

end KCoreLemmas

/-! ## The k-truss and connectivity -/

section TrussLemmas

open CommunitySearcher

theorem mem_eset_insert (e : Nat × Nat) : ∀ (l : List (Nat × Nat)) (x : Nat × Nat),
    x ∈ eset_insert e l ↔ x = e ∨ x ∈ l := by
  intro l
  induction l with
  | nil => intro x; simp [eset_insert]
  | cons a l ih =>
    intro x
    unfold eset_insert
    split_ifs with h1 h2
    · simp
    · subst h2; simp
    · rw [List.mem_cons, ih, List.mem_cons]; tauto

theorem make_edge_cases (a b : Nat) :
    make_edge a b = (a, b) ∨ make_edge a b = (b, a) := by
  unfold make_edge
  rcases Nat.le_total a b with h | h
  · left; rw [min_eq_left h, max_eq_right h]
  · right; rw [min_eq_right h, max_eq_left h]

theorem tri_record_edges {adj : AdjMap} {u v w : Nat} {t : Truss} (h : EdgesOf adj t)
    (hv : v ∈ adj.nbrs u) (hw : w ∈ adj.nbrs u) (hvw : w ∈ adj.nbrs v) :
    EdgesOf adj (tri_record u v w t) := by
  intro e he
  simp only [tri_record] at he
  rw [mem_eset_insert, mem_eset_insert, mem_eset_insert] at he
  rcases he with he | he | he | he
  · exact ⟨v, w, hvw, he⟩
  · exact ⟨u, w, hw, he⟩
  · exact ⟨u, v, hv, he⟩
  · exact h e he

theorem tri_inner_edges {adj : AdjMap} {u v : Nat} (hv : v ∈ adj.nbrs u) :
    ∀ (ws : List Nat) (t : Truss), (∀ w, w ∈ ws → w ∈ adj.nbrs u) → EdgesOf adj t →
      EdgesOf adj (tri_inner adj u v ws t) := by
  intro ws
  induction ws with
  | nil => intro t _ h; exact h
  | cons w rest ih =>
    intro t hws h
    unfold tri_inner
    have hrest : ∀ x, x ∈ rest → x ∈ adj.nbrs u :=
      fun x hx => hws x (List.mem_cons_of_mem w hx)
    split_ifs with hc
    · exact ih _ hrest (tri_record_edges h hv (hws w (List.mem_cons_self w rest))
        (by simpa using hc))
    · exact ih _ hrest h

theorem tri_outer_edges {adj : AdjMap} {u : Nat} :
    ∀ (vs : List Nat) (t : Truss), (∀ v, v ∈ vs → v ∈ adj.nbrs u) → EdgesOf adj t →
      EdgesOf adj (tri_outer adj u vs t) := by
  intro vs
  induction vs with
  | nil => intro t _ h; exact h
  | cons v rest ih =>
    intro t hvs h
    unfold tri_outer
    have hrest : ∀ x, x ∈ rest → x ∈ adj.nbrs u :=
      fun x hx => hvs x (List.mem_cons_of_mem v hx)
    exact ih _ hrest (tri_inner_edges (hvs v (List.mem_cons_self v rest)) rest t hrest h)

theorem truss_supports_edges (adj : AdjMap) : EdgesOf adj (truss_supports adj) := by
  unfold truss_supports
  apply foldl_inv (EdgesOf adj)
  · intro t u _ h
    exact tri_outer_edges (adj.nbrs u) t (fun v hv => hv) h
  · intro e he
    exact absurd he (List.not_mem_nil e)

theorem truss_drop_one_edges (min_support : Int) (u v w : Nat) (t : Truss) :
    (truss_drop_one min_support u v w t).current_edges = t.current_edges := by
  unfold truss_drop_one
  dsimp only
  split_ifs <;> rfl

theorem truss_drop_fold_edges (min_support : Int) (u v : Nat) :
    ∀ (ws : List Nat) (t : Truss),
      (ws.foldl (fun t1 w => truss_drop_one min_support u v w t1) t).current_edges
        = t.current_edges := by
  intro ws
  induction ws with
  | nil => intro t; rfl
  | cons w rest ih =>
    intro t
    rw [List.foldl_cons, ih, truss_drop_one_edges]

/-- The peeling of the k-truss only removes edges. -/
theorem truss_peel_sub (min_support : Int) :
    ∀ (fuel : Nat) (t : Truss) (e : Nat × Nat),
      e ∈ (truss_peel min_support fuel t).current_edges → e ∈ t.current_edges := by
  intro fuel
  induction fuel with
  | zero => intro t e he; exact he
  | succ fuel ih =>
    intro t e he
    cases hq : t.removal_q with
    | nil =>
      simp only [truss_peel, hq] at he
      exact he
    | cons edge_uv q =>
      simp only [truss_peel, hq] at he
      split_ifs at he with hc
      · have h1 := ih _ e he
        rw [truss_drop_fold_edges] at h1
        exact (List.mem_filter.mp h1).1
      · have h1 := ih _ e he
        exact h1

theorem truss_drop_one_witnesses (min_support : Int) (u v w : Nat) (t : Truss) :
    (truss_drop_one min_support u v w t).triangle_witnesses = t.triangle_witnesses := by
  unfold truss_drop_one
  dsimp only
  split_ifs <;> rfl

theorem truss_drop_one_queue (min_support : Int) (u v w : Nat) (t : Truss) :
    (truss_drop_one min_support u v w t).removal_q.length ≤ t.removal_q.length + 2 := by
  unfold truss_drop_one
  dsimp only
  split_ifs <;> (try simp only [List.length_append, List.length_singleton]) <;> omega

theorem truss_drop_fold_witnesses (min_support : Int) (u v : Nat) :
    ∀ (ws : List Nat) (t : Truss),
      (ws.foldl (fun t1 w => truss_drop_one min_support u v w t1) t).triangle_witnesses
        = t.triangle_witnesses := by
  intro ws
  induction ws with
  | nil => intro t; rfl
  | cons w rest ih =>
    intro t
    rw [List.foldl_cons, ih, truss_drop_one_witnesses]

theorem truss_drop_fold_queue (min_support : Int) (u v : Nat) :
    ∀ (ws : List Nat) (t : Truss),
      (ws.foldl (fun t1 w => truss_drop_one min_support u v w t1) t).removal_q.length
        ≤ t.removal_q.length + 2 * ws.length := by
  intro ws
  induction ws with
  | nil => intro t; simp
  | cons w rest ih =>
    intro t
    rw [List.foldl_cons, List.length_cons]
    have h1 := ih (truss_drop_one min_support u v w t)
    have h2 := truss_drop_one_queue min_support u v w t
    omega

theorem sum_filter_ne_add (f : Nat × Nat → Nat) (x : Nat × Nat) :
    ∀ (l : List (Nat × Nat)), x ∈ l →
      ((l.filter (fun e => e ≠ x)).map f).sum + f x ≤ (l.map f).sum := by
  have hle : ∀ (l : List (Nat × Nat)),
      ((l.filter (fun e => e ≠ x)).map f).sum ≤ (l.map f).sum := by
    intro l
    induction l with
    | nil => simp
    | cons a l ih =>
      rw [List.filter_cons]
      split_ifs <;> simp only [List.map_cons, List.sum_cons] <;> omega
  intro l
  induction l with
  | nil => intro h; exact absurd h (List.not_mem_nil x)
  | cons a l ih =>
    intro h
    rw [List.filter_cons]
    by_cases hax : a = x
    · subst hax
      rw [if_neg (by simp)]
      simp only [List.map_cons, List.sum_cons]
      have := hle l
      omega
    · rw [if_pos (by simpa using hax)]
      simp only [List.map_cons, List.sum_cons]
      have hm : x ∈ l := by
        rcases List.mem_cons.mp h with h1 | h1
        · exact absurd h1.symm hax
        · exact h1
      have := ih hm
      omega

/-- The bound `truss_fuel` is enough: the peeling loop of the k-truss stops with an
empty queue. -/
theorem truss_peel_done (min_support : Int) :
    ∀ (fuel : Nat) (t : Truss), truss_fuel t ≤ fuel →
      (truss_peel min_support fuel t).removal_q = [] := by
  intro fuel
  induction fuel with
  | zero =>
    intro t h
    unfold truss_fuel at h
    show t.removal_q = []
    exact List.length_eq_zero.mp (by omega)
  | succ fuel ih =>
    intro t h
    cases hq : t.removal_q with
    | nil =>
      simp only [truss_peel, hq]
    | cons edge_uv q =>
      simp only [truss_peel, hq]
      unfold truss_fuel at h
      rw [hq, List.length_cons] at h
      split_ifs with hc
      · apply ih
        unfold truss_fuel
        rw [truss_drop_fold_edges, truss_drop_fold_witnesses]
        have h1 := truss_drop_fold_queue min_support edge_uv.1 edge_uv.2
          (t.triangle_witnesses edge_uv)
          { t with removal_q := q
                   current_edges := t.current_edges.filter (fun e => e ≠ edge_uv) }
        have h2 := sum_filter_ne_add (fun e => (t.triangle_witnesses e).length) edge_uv
          t.current_edges (by simpa using hc)
        dsimp only at h1 h2 ⊢
        omega
      · apply ih
        unfold truss_fuel
        dsimp only
        omega

/-- The peeling in `find_k_truss_community` ends with an empty removal queue. -/
theorem k_truss_edges_done (min_support : Int) (adj : AdjMap) :
    (k_truss_edges min_support adj).removal_q = [] := by
  unfold k_truss_edges
  exact truss_peel_done min_support _ _ (Nat.le_refl _)

theorem k_truss_edges_of (min_support : Int) (adj : AdjMap) :
    EdgesOf adj (k_truss_edges min_support adj) := by
  intro e he
  unfold k_truss_edges at he
  have h1 := truss_peel_sub _ _ _ e he
  exact truss_supports_edges adj e h1

/-- The rows of the map built from the surviving edges hold only ends of those edges. -/
theorem mem_truss_adj (E : List (Nat × Nat)) :
    ∀ x y, y ∈ (truss_adj E).nbrs x → (x, y) ∈ E ∨ (y, x) ∈ E := by
  unfold truss_adj
  apply foldl_inv (fun adj : AdjMap => ∀ x y, y ∈ adj.nbrs x → (x, y) ∈ E ∨ (y, x) ∈ E)
  · intro adj e he h x y hy
    rw [mem_insert_pair] at hy
    rcases hy with hy | hy | hy
    · exact h x y hy
    · left; rw [hy.1, hy.2]; exact he
    · right; rw [hy.1, hy.2]; exact he
  · intro x y hy
    exact absurd hy (List.not_mem_nil y)

theorem mem_row {adj : AdjMap} {x y : Nat} (h : y ∈ adj.row x) : y ∈ adj.nbrs x := by
  unfold AdjMap.row at h
  split_ifs at h
  · exact h
  · exact absurd h (List.not_mem_nil y)

/-- Neighbours in the map of the surviving edges are joined by an edge of the graph. -/
theorem truss_adj_joined {g : InfGraph} {ss : List Nat} {adj : AdjMap}
    (hA : AdjOK g ss adj) (min_support : Int) (x y : Nat)
    (h : y ∈ (truss_adj (k_truss_edges min_support adj).current_edges).row x) :
    Joined g x y := by
  rcases mem_truss_adj _ x y (mem_row h) with he | he
  · obtain ⟨a, b, hab, hE⟩ := k_truss_edges_of min_support adj _ he
    rcases make_edge_cases a b with hm | hm
    · rw [hm] at hE
      have h1 : x = a := congrArg Prod.fst hE
      have h2 : y = b := congrArg Prod.snd hE
      rw [h1, h2]; exact (hA.sound a b hab).2.2
    · rw [hm] at hE
      have h1 : x = b := congrArg Prod.fst hE
      have h2 : y = a := congrArg Prod.snd hE
      rw [h1, h2]; exact joined_symm (hA.sound a b hab).2.2
  · obtain ⟨a, b, hab, hE⟩ := k_truss_edges_of min_support adj _ he
    rcases make_edge_cases a b with hm | hm
    · rw [hm] at hE
      have h1 : y = a := congrArg Prod.fst hE
      have h2 : x = b := congrArg Prod.snd hE
      rw [h1, h2]; exact joined_symm (hA.sound a b hab).2.2
    · rw [hm] at hE
      have h1 : y = b := congrArg Prod.fst hE
      have h2 : x = a := congrArg Prod.snd hE
      rw [h1, h2]; exact (hA.sound a b hab).2.2

/-- The shape of the result of `find_k_truss_community`: empty, or the listing of the
component of a surviving query node in the map of the surviving edges. -/
theorem truss_result_cases (enum : List Nat → List Nat) (k_truss : Int)
    (final_states : List NodeState) (g : InfGraph) (query_nodes : List Nat) :
    (find_k_truss_community enum k_truss final_states g query_nodes).node_ids = [] ∨
      ∃ prep sq, prepare_search_space final_states g query_nodes = some prep ∧
        first_surviving prep.valid_query_nodes
          (truss_nodes (k_truss_edges (k_truss - 2)
            (build_undirected_adj enum g prep.search_space)).current_edges) = some sq ∧
        (find_k_truss_community enum k_truss final_states g query_nodes).node_ids =
          enum (extract_connected_component sq
            (truss_adj (k_truss_edges (k_truss - 2)
              (build_undirected_adj enum g prep.search_space)).current_edges)
            (truss_nodes (k_truss_edges (k_truss - 2)
              (build_undirected_adj enum g prep.search_space)).current_edges)) := by
  unfold find_k_truss_community
  split_ifs with h1
  · exact Or.inl rfl
  · cases hp : prepare_search_space final_states g query_nodes with
    | none => exact Or.inl rfl
    | some prep =>
      dsimp only
      split_ifs with h2
      · exact Or.inl rfl
      · cases hs : first_surviving prep.valid_query_nodes
            (truss_nodes (k_truss_edges (k_truss - 2)
              (build_undirected_adj enum g prep.search_space)).current_edges) with
        | none => exact Or.inl rfl
        | some sq => exact Or.inr ⟨prep, sq, rfl, hs, rfl⟩

theorem connectedIn_symm {g : InfGraph} {S : List Nat} {a b : Nat}
    (h : ConnectedIn g S a b) : ConnectedIn g S b a := by
  unfold ConnectedIn at *
  exact Relation.ReflTransGen.symmetric (fun x y hxy => ⟨hxy.2.1, hxy.1, joined_symm hxy.2.2⟩) h

/-- The listing of a finished breadth-first search along graph edges meets the
connectivity contract. -/
theorem connected_of_bfs {g : InfGraph} {nbrs : Nat → List Nat} {ok : Nat → Bool}
    {s0 : Nat} {comp : List Nat} (hD : BfsDone nbrs ok s0 comp)
    (hn : ∀ x y, y ∈ nbrs x → Joined g x y) {query_nodes : List Nat}
    (hq : s0 ∈ query_nodes) {R : List Nat} (hR : ∀ x, x ∈ R ↔ x ∈ comp) :
    CommunityConnected g query_nodes R := by
  intro _
  refine ⟨⟨s0, hq, (hR s0).2 hD.start⟩, ?_⟩
  have hreach : ∀ x, x ∈ R → ConnectedIn g R s0 x := by
    intro x hx
    have h1 := hD.reach x ((hR x).1 hx)
    unfold ReachIn at h1
    unfold ConnectedIn
    exact Relation.ReflTransGen.mono
      (fun a b hab => ⟨(hR a).2 hab.1, (hR b).2 hab.2.1, hn a b hab.2.2⟩) h1
  intro a b ha hb
  exact Relation.ReflTransGen.trans (connectedIn_symm (hreach a ha)) (hreach b hb)

end TrussLemmas

/-! ## Maximality of the (k,l)-core -/

section KLMaxLemmas

open CommunitySearcher

theorem count_in_mono {S T : List Nat} (h : ∀ x, x ∈ S → x ∈ T) (row : List Nat) :
    count_in S row ≤ count_in T row := by
  induction row with
  | nil => exact Nat.le_refl _
  | cons x row ih =>
    rw [count_in_cons, count_in_cons]
    by_cases hx : x ∈ S
    · rw [if_pos hx, if_pos (h x hx)]; omega
    · rw [if_neg hx]
      split_ifs <;> omega

/-- A node that a degree-lowering loop has put into the queued set ends below the
threshold. -/
theorem drop_gen_pushed (thr : Int) (C : List Nat) :
    ∀ (vs : List Nat) (s : (Nat → Int) × List Nat × List Nat) (x : Nat),
      x ∈ (drop_gen thr C vs s).2.2 → x ∈ s.2.2 ∨ (drop_gen thr C vs s).1 x < thr := by
  intro vs
  induction vs with
  | nil => intro s x hx; exact Or.inl hx
  | cons v rest ih =>
    intro s x hx
    simp only [drop_gen] at hx ⊢
    by_cases hv : C.contains v = true
    · rw [if_pos hv] at hx ⊢
      by_cases hpush : s.1 v - 1 < thr ∧ ¬ v ∈ s.2.2
      · rw [if_pos hpush, if_pos hpush] at hx ⊢
        rcases ih _ x hx with h | h
        · rcases (mem_uset_insert _ _ _).1 h with h' | h'
          · exact Or.inl h'
          · right
            subst h'
            have h1 := (drop_gen_spec thr C rest
              (Function.update s.1 x (s.1 x - 1), s.2.1 ++ [x], uset_insert s.2.2 x)).1 x
            rw [h1]
            simp only [Function.update_same]
            have h2 : (0 : Int) ≤ (if x ∈ C then (rest.count x : Int) else 0) := by
              split_ifs
              · exact Int.natCast_nonneg _
              · exact le_refl _
            have h3 := hpush.1
            omega
        · exact Or.inr h
      · rw [if_neg hpush, if_neg hpush] at hx ⊢
        exact ih _ x hx
    · rw [if_neg hv] at hx ⊢
      exact ih _ x hx

theorem drop_gen_le (thr : Int) (C : List Nat) (vs : List Nat)
    (s : (Nat → Int) × List Nat × List Nat) (w : Nat) :
    (drop_gen thr C vs s).1 w ≤ s.1 w := by
  rw [(drop_gen_spec thr C vs s).1 w]
  have h2 : (0 : Int) ≤ (if w ∈ C then (vs.count w : Int) else 0) := by
    split_ifs
    · exact Int.natCast_nonneg _
    · exact le_refl _
  omega

/-- One pass of the (k,l)-core peeling loop that removes the candidate `u` keeps the
second invariant. -/
theorem kl_remove_max {k_core l_core : Int} {g : InfGraph} {ss D : List Nat}
    (hD : KLCoreLike k_core l_core g ss D) {fuel : Nat} {s : KLPeel} {u : Nat}
    {q : List Nat} (hI : KLInv k_core l_core g ss fuel s) (hM : KLMax k_core l_core D s)
    (hq : s.removal_q = u :: q) (hu : u ∈ s.candidates) :
    KLMax k_core l_core D
      (kl_drop_in k_core (g.g.getD u [])
        (kl_drop_out l_core (g.gT.getD u [])
          { s with removal_q := q, candidates := uset_erase s.candidates u })) := by
  rw [kl_drop_out_eq, kl_drop_in_eq]
  simp only
  have hual : u ∈ s.already_in_removal_q :=
    hI.q_sub u (by rw [hq]; exact List.mem_cons_self u q)
  have huD : u ∉ D := by
    intro hmem
    have hb := hD u hmem
    have h1 := count_in_mono hM.keeps (g.gT.getD u [])
    have h2 := count_in_mono hM.keeps (g.g.getD u [])
    have h3 := hI.in_deg u hu
    have h4 := hI.out_deg u hu
    rcases hM.queued u hual hu with h | h <;> omega
  refine ⟨?_, ?_⟩
  all_goals dsimp only
  · intro x hx
    rw [mem_uset_erase]
    exact ⟨hM.keeps x hx, fun e => huD (e ▸ hx)⟩
  · intro w hw hwC
    have hwc : w ∈ s.candidates := ((mem_uset_erase _ _ _).1 hwC).1
    have hle_in := drop_gen_le k_core (uset_erase s.candidates u) (g.g.getD u [])
      (s.internal_in_degrees,
        (drop_gen l_core (uset_erase s.candidates u) (g.gT.getD u [])
          (s.internal_out_degrees, q, s.already_in_removal_q)).2.1,
        (drop_gen l_core (uset_erase s.candidates u) (g.gT.getD u [])
          (s.internal_out_degrees, q, s.already_in_removal_q)).2.2) w
    have hle_out := drop_gen_le l_core (uset_erase s.candidates u) (g.gT.getD u [])
      (s.internal_out_degrees, q, s.already_in_removal_q) w
    dsimp only at hle_in hle_out
    rcases drop_gen_pushed _ _ _ _ w hw with h | h
    · dsimp only at h
      rcases drop_gen_pushed _ _ _ _ w h with h' | h'
      · dsimp only at h'
        rcases hM.queued w h' hwc with h'' | h''
        · left; omega
        · right; omega
      · exact Or.inr h'
    · exact Or.inl h

/-- The peeling loop of the (k,l)-core keeps the second invariant. -/
theorem kl_peel_max {k_core l_core : Int} {g : InfGraph} {ss D : List Nat}
    (hg : GraphCross g) (hD : KLCoreLike k_core l_core g ss D) :
    ∀ (fuel : Nat) (s : KLPeel), KLInv k_core l_core g ss fuel s →
      KLMax k_core l_core D s → KLMax k_core l_core D (kl_peel k_core l_core g fuel s) := by
  intro fuel
  induction fuel with
  | zero => intro s _ hM; exact hM
  | succ fuel ih =>
    intro s hI hM
    cases hq : s.removal_q with
    | nil =>
      rw [kl_peel_nil _ _ _ _ _ hq]
      exact hM
    | cons u q =>
      rw [kl_peel_cons _ _ _ _ _ u q hq]
      by_cases hu : s.candidates.contains u = true
      · rw [if_pos hu]
        have hu' : u ∈ s.candidates := by simpa using hu
        exact ih _ (kl_remove_inv hg hI hq hu') (kl_remove_max hD hI hM hq hu')
      · rw [if_neg hu]
        exact ih _ (kl_skip_inv hI hq (by simpa using hu)) ⟨hM.keeps, hM.queued⟩

/-- The second invariant holds when the peeling loop of the (k,l)-core is entered. -/
theorem kl_start_max (enum : List Nat → List Nat) (henum : ∀ l, (enum l).Perm l)
    (k_core l_core : Int) (g : InfGraph) (ss D : List Nat) (hnd : ss.Nodup)
    (hD : KLCoreLike k_core l_core g ss D) :
    KLMax k_core l_core D
      ((fun s : KLPeel => { s with already_in_removal_q := s.removal_q.foldl uset_insert [] })
        (kl_init k_core l_core g ss (enum ss)
          { candidates := ss, removal_q := [], already_in_removal_q := [],
            internal_in_degrees := fun _ => 0, internal_out_degrees := fun _ => 0 })) := by
  obtain ⟨h1, _, h3, h4, h5⟩ := kl_init_spec k_core l_core g ss (enum ss)
    { candidates := ss, removal_q := [], already_in_removal_q := [],
      internal_in_degrees := fun _ => 0, internal_out_degrees := fun _ => 0 }
  simp only [List.nil_append] at h1 h3 h4 h5
  have hmem : ∀ x, x ∈ enum ss ↔ x ∈ ss := fun x => (henum ss).mem_iff
  have hqnd : ((enum ss).filter (fun u =>
      decide ((count_in ss (g.gT.getD u []) : Int) < k_core ∨
        (count_in ss (g.g.getD u []) : Int) < l_core))).Nodup :=
    ((henum ss).nodup_iff.mpr hnd).filter _
  have hal := foldl_uset_insert_nodup _ [] (by rw [List.nil_append]; exact hqnd)
  rw [List.nil_append] at hal
  dsimp only
  rw [h3, hal]
  refine ⟨?_, ?_⟩
  all_goals dsimp only
  · intro x hx
    rw [h1]; exact (hD x hx).1
  · intro u hu _
    have hf := List.mem_filter.mp hu
    rw [h4 u, h5 u, if_pos hf.1, if_pos hf.1]
    exact of_decide_eq_true hf.2

/-- The candidates left by the peeling of the (k,l)-core contain every set that meets
the degree bounds. -/
theorem kl_core_candidates_max (enum : List Nat → List Nat)
    (henum : ∀ l, (enum l).Perm l) (k_core l_core : Int) (g : InfGraph)
    (hg : GraphCross g) (ss D : List Nat) (hnd : ss.Nodup)
    (hD : KLCoreLike k_core l_core g ss D) :
    ∀ x, x ∈ D → x ∈ (kl_core_candidates enum k_core l_core g ss).candidates :=
  (kl_peel_max hg hD _ _ (kl_start_inv enum henum k_core l_core g ss hnd)
    (kl_start_max enum henum k_core l_core g ss D hnd hD)).keeps

/-- The candidates left by the peeling of the (k,l)-core lie in the search space. -/
theorem kl_core_candidates_sub (enum : List Nat → List Nat)
    (henum : ∀ l, (enum l).Perm l) (k_core l_core : Int) (g : InfGraph)
    (hg : GraphCross g) (ss : List Nat) (hnd : ss.Nodup) :
    ∀ u, u ∈ (kl_core_candidates enum k_core l_core g ss).candidates → u ∈ ss :=
  (kl_peel_spec hg _ _ (kl_start_inv enum henum k_core l_core g ss hnd)).2.cand_sub

/-- The set found by a breadth-first search from a candidate is the set of the nodes
reachable from it inside the candidates. -/
theorem mem_comp_iff {nbrs : Nat → List Nat} {C comp : List Nat} {s0 : Nat}
    (hD : BfsDone nbrs (fun v => C.contains v) s0 comp) (h0 : s0 ∈ C) (x : Nat) :
    x ∈ comp ↔ ReachIn nbrs C s0 x := by
  constructor
  · intro hx
    exact ReachIn.mono (hD.sub h0) (hD.reach x hx)
  · intro hr
    unfold ReachIn at hr
    induction hr with
    | refl => exact hD.start
    | tail _ hbc ih =>
      exact hD.closed _ ih _ hbc.2.2 (by simpa using hbc.2.1)

theorem joined_iff_nbrs {g : InfGraph} (hg : GraphCross g) (a b : Nat) :
    Joined g a b ↔ b ∈ g.g.getD a [] ++ g.gT.getD a [] := by
  have h1 : a ∈ g.g.getD b [] ↔ b ∈ g.gT.getD a [] := by
    rw [← List.count_pos_iff, ← List.count_pos_iff, hg b a]
  have h2 : a ∈ g.gT.getD b [] ↔ b ∈ g.g.getD a [] := by
    rw [← List.count_pos_iff, ← List.count_pos_iff, hg a b]
  unfold Joined
  rw [List.mem_append, h1, h2]
  tauto

theorem connectedIn_iff_reach {g : InfGraph} (hg : GraphCross g) (C : List Nat)
    (a b : Nat) :
    ConnectedIn g C a b ↔ ReachIn (fun u => g.g.getD u [] ++ g.gT.getD u []) C a b := by
  unfold ConnectedIn ReachIn
  constructor
  · intro h
    exact Relation.ReflTransGen.mono
      (fun x y hxy => ⟨hxy.1, hxy.2.1, (joined_iff_nbrs hg x y).1 hxy.2.2⟩) h
  · intro h
    exact Relation.ReflTransGen.mono
      (fun x y hxy => ⟨hxy.1, hxy.2.1, (joined_iff_nbrs hg x y).2 hxy.2.2⟩) h

/-- The first surviving valid query node is the first query node among the
candidates, when every candidate is an influenced node. -/
theorem first_surviving_filter (ids query_nodes C : List Nat)
    (hC : ∀ x, x ∈ C → x ∈ ids) :
    first_surviving (query_nodes.filter (fun qn => ids.contains qn)) C
      = query_nodes.find? (fun qn => C.contains qn) := by
  unfold first_surviving
  induction query_nodes with
  | nil => rfl
  | cons q rest ih =>
    rw [List.filter_cons]
    by_cases hq : ids.contains q = true
    · rw [if_pos hq, List.find?_cons, List.find?_cons, ih]
    · rw [if_neg hq, ih, List.find?_cons]
      have hqC : C.contains q = false := by
        cases hb : C.contains q with
        | false => rfl
        | true =>
          exact absurd (by simpa using hC q (by simpa using hb)) hq
      rw [hqC]

theorem prepare_valid_eq {final_states : List NodeState} {g : InfGraph}
    {query_nodes : List Nat} {prep : SearchPrep}
    (h : prepare_search_space final_states g query_nodes = some prep) :
    prep.valid_query_nodes
      = query_nodes.filter (fun qn => (final_states.map NodeState.id).contains qn) ∧
    final_states ≠ [] := by
  unfold prepare_search_space at h
  cases hf : query_nodes.filter
      (fun qn => (final_states.map NodeState.id).contains qn) with
  | nil => rw [hf] at h; exact absurd h (by simp)
  | cons q0 qs =>
    rw [hf] at h
    simp only [Option.some.injEq] at h
    subst h
    refine ⟨rfl, ?_⟩
    intro he
    have hq0 : q0 ∈ query_nodes.filter
        (fun qn => (final_states.map NodeState.id).contains qn) := by
      rw [hf]; exact List.mem_cons_self q0 qs
    have := (List.mem_filter.mp hq0).2
    rw [he] at this
    simp at this

theorem first_surviving_nil (vq : List Nat) : first_surviving vq [] = none := by
  unfold first_surviving
  induction vq with
  | nil => rfl
  | cons q rest ih => rw [List.find?_cons]; exact ih

/-- The result of `find_most_influenced_community_local` once its guards are passed, in
terms of the first query node among the candidates. -/
theorem kl_result_eq (enum : List Nat → List Nat) (k_core l_core : Int)
    (hk : 0 ≤ k_core) (hl : 0 ≤ l_core) (final_states : List NodeState) (g : InfGraph)
    (query_nodes : List Nat) (prep : SearchPrep)
    (hp : prepare_search_space final_states g query_nodes = some prep) :
    (find_most_influenced_community_local enum k_core l_core final_states g
        query_nodes).node_ids =
      match first_surviving prep.valid_query_nodes
          (kl_core_candidates enum k_core l_core g prep.search_space).candidates with
      | none => []
      | some sq =>
        enum (bfs_loop (fun u => g.g.getD u [] ++ g.gT.getD u [])
          (fun v =>
            (kl_core_candidates enum k_core l_core g prep.search_space).candidates.contains v)
          (kl_core_candidates enum k_core l_core g prep.search_space).candidates.length
          ([sq], [sq])).2 := by
  have hfs := (prepare_valid_eq hp).2
  have hguard : ¬ (final_states.isEmpty = true ∨ k_core < 0 ∨ l_core < 0) := by
    rintro (h | h | h)
    · exact hfs (List.isEmpty_iff.mp h)
    · omega
    · omega
  unfold find_most_influenced_community_local
  rw [if_neg hguard, hp]
  dsimp only
  by_cases hE : (kl_core_candidates enum k_core l_core g
      prep.search_space).candidates.isEmpty = true
  · rw [if_pos hE]
    rw [List.isEmpty_iff.mp hE, first_surviving_nil]
    rfl
  · rw [if_neg hE]
    cases first_surviving prep.valid_query_nodes
        (kl_core_candidates enum k_core l_core g prep.search_space).candidates with
    | none => rfl
    | some sq => rfl

end KLMaxLemmas

/-! ## The loader -/

section LoaderLemmas

theorem foldl_max_spec :
    ∀ (edges : List (Nat × Nat)) (m0 : Int),
      m0 ≤ edges.foldl
        (fun m e =>
          (fun m1 : Int => if (e.2 : Int) > m1 then (e.2 : Int) else m1)
            (if (e.1 : Int) > m then (e.1 : Int) else m)) m0 ∧
      (∀ e, e ∈ edges →
        (e.1 : Int) ≤ edges.foldl
          (fun m e =>
            (fun m1 : Int => if (e.2 : Int) > m1 then (e.2 : Int) else m1)
              (if (e.1 : Int) > m then (e.1 : Int) else m)) m0 ∧
        (e.2 : Int) ≤ edges.foldl
          (fun m e =>
            (fun m1 : Int => if (e.2 : Int) > m1 then (e.2 : Int) else m1)
              (if (e.1 : Int) > m then (e.1 : Int) else m)) m0) ∧
      (edges.foldl
          (fun m e =>
            (fun m1 : Int => if (e.2 : Int) > m1 then (e.2 : Int) else m1)
              (if (e.1 : Int) > m then (e.1 : Int) else m)) m0 = m0 ∨
        ∃ e, e ∈ edges ∧
          (edges.foldl
              (fun m e =>
                (fun m1 : Int => if (e.2 : Int) > m1 then (e.2 : Int) else m1)
                  (if (e.1 : Int) > m then (e.1 : Int) else m)) m0 = (e.1 : Int) ∨
            edges.foldl
              (fun m e =>
                (fun m1 : Int => if (e.2 : Int) > m1 then (e.2 : Int) else m1)
                  (if (e.1 : Int) > m then (e.1 : Int) else m)) m0 = (e.2 : Int))) := by
  intro edges
  induction edges with
  | nil =>
    intro m0
    refine ⟨le_refl _, ?_, Or.inl rfl⟩
    intro e he; exact absurd he (List.not_mem_nil e)
  | cons e rest ih =>
    intro m0
    rw [List.foldl_cons]
    obtain ⟨h1, h2, h3⟩ := ih
      ((fun m1 : Int => if (e.2 : Int) > m1 then (e.2 : Int) else m1)
        (if (e.1 : Int) > m0 then (e.1 : Int) else m0))
    have hstep : m0 ≤ (fun m1 : Int => if (e.2 : Int) > m1 then (e.2 : Int) else m1)
          (if (e.1 : Int) > m0 then (e.1 : Int) else m0) ∧
        (e.1 : Int) ≤ (fun m1 : Int => if (e.2 : Int) > m1 then (e.2 : Int) else m1)
          (if (e.1 : Int) > m0 then (e.1 : Int) else m0) ∧
        (e.2 : Int) ≤ (fun m1 : Int => if (e.2 : Int) > m1 then (e.2 : Int) else m1)
          (if (e.1 : Int) > m0 then (e.1 : Int) else m0) ∧
        ((fun m1 : Int => if (e.2 : Int) > m1 then (e.2 : Int) else m1)
            (if (e.1 : Int) > m0 then (e.1 : Int) else m0) = m0 ∨
          (fun m1 : Int => if (e.2 : Int) > m1 then (e.2 : Int) else m1)
            (if (e.1 : Int) > m0 then (e.1 : Int) else m0) = (e.1 : Int) ∨
          (fun m1 : Int => if (e.2 : Int) > m1 then (e.2 : Int) else m1)
            (if (e.1 : Int) > m0 then (e.1 : Int) else m0) = (e.2 : Int)) := by
      dsimp only
      split_ifs <;> omega
    refine ⟨le_trans hstep.1 h1, ?_, ?_⟩
    · intro x hx
      rcases List.mem_cons.mp hx with hx | hx
      · subst hx
        exact ⟨le_trans hstep.2.1 h1, le_trans hstep.2.2.1 h1⟩
      · exact h2 x hx
    · rcases h3 with h3 | ⟨x, hx, h3⟩
      · rw [h3]
        rcases hstep.2.2.2 with h | h | h
        · exact Or.inl h
        · exact Or.inr ⟨e, List.mem_cons_self e rest, Or.inl h⟩
        · exact Or.inr ⟨e, List.mem_cons_self e rest, Or.inr h⟩
      · exact Or.inr ⟨x, List.mem_cons_of_mem e hx, h3⟩

/-- The number `max_node_id + 1` is above every node id of the file and, when the file
is not empty, one above some node id. -/
theorem max_node_id_spec (edges : List (Nat × Nat)) :
    (∀ e, e ∈ edges →
      e.1 < (Graph.max_node_id edges + 1).toNat ∧ e.2 < (Graph.max_node_id edges + 1).toNat) ∧
    (edges ≠ [] → ∃ e, e ∈ edges ∧
      ((Graph.max_node_id edges + 1).toNat = e.1 + 1 ∨
        (Graph.max_node_id edges + 1).toNat = e.2 + 1)) := by
  obtain ⟨h1, h2, h3⟩ := foldl_max_spec edges (-1)
  unfold Graph.max_node_id
  refine ⟨?_, ?_⟩
  · intro e he
    have := h2 e he
    omega
  · intro hne
    rcases h3 with h3 | ⟨e, he, h3⟩
    · cases edges with
      | nil => exact absurd rfl hne
      | cons e rest =>
        have := (h2 e (List.mem_cons_self e rest)).1
        omega
    · refine ⟨e, he, ?_⟩
      rcases h3 with h3 | h3
      · left; omega
      · right; omega

theorem getD_set_nat (l : List Nat) (i j a d : Nat) :
    (l.set i a).getD j d = if i = j ∧ i < l.length then a else l.getD j d := by
  induction l generalizing i j with
  | nil => simp
  | cons x xs ih =>
    cases i with
    | zero =>
      cases j with
      | zero => simp
      | succ j => simp
    | succ i =>
      cases j with
      | zero => simp
      | succ j =>
        simp only [List.set_cons_succ, List.getD_cons_succ, ih, List.length_cons]
        simp

theorem getD_bump (l : List Nat) (v j : Nat) :
    (Graph.bump l v).getD j 0 = if v = j ∧ v < l.length then l.getD v 0 + 1 else l.getD j 0 := by
  unfold Graph.bump
  exact getD_set_nat l v j _ 0

theorem getD_replicate_nil (n u : Nat) :
    (List.replicate n ([] : List Nat)).getD u [] = [] := by
  rw [List.getD_eq_getElem?_getD, List.getElem?_replicate]
  split_ifs
  all_goals rfl

theorem getD_replicate_zero (n v : Nat) : (List.replicate n 0).getD v 0 = 0 := by
  rw [List.getD_eq_getElem?_getD, List.getElem?_replicate]
  split_ifs
  all_goals rfl

/-- The effect of the loop that fills the adjacency vectors, from any state with `n`
rows. -/
theorem build_adjacency_fold (n : Nat) :
    ∀ (edges : List (Nat × Nat)) (a : Graph.Adjacency),
      a.g.length = n → a.gT.length = n → a.inDeg.length = n →
      (∀ e, e ∈ edges → e.1 < n ∧ e.2 < n) →
      (edges.foldl
        (fun a e =>
          ({ g := pushAt a.g e.1 e.2, gT := pushAt a.gT e.2 e.1,
             inDeg := Graph.bump a.inDeg e.2 } : Graph.Adjacency)) a).g.length = n ∧
      (edges.foldl
        (fun a e =>
          ({ g := pushAt a.g e.1 e.2, gT := pushAt a.gT e.2 e.1,
             inDeg := Graph.bump a.inDeg e.2 } : Graph.Adjacency)) a).gT.length = n ∧
      (edges.foldl
        (fun a e =>
          ({ g := pushAt a.g e.1 e.2, gT := pushAt a.gT e.2 e.1,
             inDeg := Graph.bump a.inDeg e.2 } : Graph.Adjacency)) a).inDeg.length = n ∧
      (∀ u v, ((edges.foldl
        (fun a e =>
          ({ g := pushAt a.g e.1 e.2, gT := pushAt a.gT e.2 e.1,
             inDeg := Graph.bump a.inDeg e.2 } : Graph.Adjacency)) a).g.getD u []).count v
          = (a.g.getD u []).count v + edges.count (u, v)) ∧
      (∀ u v, ((edges.foldl
        (fun a e =>
          ({ g := pushAt a.g e.1 e.2, gT := pushAt a.gT e.2 e.1,
             inDeg := Graph.bump a.inDeg e.2 } : Graph.Adjacency)) a).gT.getD v []).count u
          = (a.gT.getD v []).count u + edges.count (u, v)) ∧
      (∀ v, (edges.foldl
        (fun a e =>
          ({ g := pushAt a.g e.1 e.2, gT := pushAt a.gT e.2 e.1,
             inDeg := Graph.bump a.inDeg e.2 } : Graph.Adjacency)) a).inDeg.getD v 0
            + (a.gT.getD v []).length
          = a.inDeg.getD v 0 + ((edges.foldl
        (fun a e =>
          ({ g := pushAt a.g e.1 e.2, gT := pushAt a.gT e.2 e.1,
             inDeg := Graph.bump a.inDeg e.2 } : Graph.Adjacency)) a).gT.getD v []).length) := by
  intro edges
  induction edges with
  | nil =>
    intro a hg hgT hd _
    refine ⟨hg, hgT, hd, ?_, ?_, ?_⟩
    · intro u v; simp
    · intro u v; simp
    · intro v; simp [Nat.add_comm]
  | cons e rest ih =>
    intro a hg hgT hd hlt
    have he := hlt e (List.mem_cons_self e rest)
    rw [List.foldl_cons]
    obtain ⟨h1, h2, h3, h4, h5, h6⟩ := ih
      { g := pushAt a.g e.1 e.2, gT := pushAt a.gT e.2 e.1, inDeg := Graph.bump a.inDeg e.2 }
      (by rw [pushAt_length]; exact hg) (by rw [pushAt_length]; exact hgT)
      (by unfold Graph.bump; rw [List.length_set]; exact hd)
      (fun x hx => hlt x (List.mem_cons_of_mem e hx))
    refine ⟨h1, h2, h3, ?_, ?_, ?_⟩
    · intro u v
      rw [h4 u v, getD_pushAt, List.count_cons]
      by_cases hu : u = e.1
      · subst hu
        rw [if_pos ⟨rfl, by rw [hg]; exact he.1⟩, count_snoc]
        by_cases hv : e.2 = v
        · subst hv
          rw [if_pos rfl, if_pos (by simp)]
          omega
        · rw [if_neg hv, if_neg]
          · omega
          · intro hbeq
            have := of_decide_eq_true (by simpa using hbeq : decide (e = (e.1, v)) = true)
            exact hv (congrArg Prod.snd this)
      · rw [if_neg (fun h => hu h.1), if_neg]
        · rfl
        · intro hbeq
          have := of_decide_eq_true (by simpa using hbeq : decide (e = (u, v)) = true)
          exact hu (congrArg Prod.fst this).symm
    · intro u v
      rw [h5 u v, getD_pushAt, List.count_cons]
      by_cases hv : v = e.2
      · subst hv
        rw [if_pos ⟨rfl, by rw [hgT]; exact he.2⟩, count_snoc]
        by_cases hu : e.1 = u
        · subst hu
          rw [if_pos rfl, if_pos (by simp)]
          omega
        · rw [if_neg hu, if_neg]
          · omega
          · intro hbeq
            have := of_decide_eq_true (by simpa using hbeq : decide (e = (u, e.2)) = true)
            exact hu (congrArg Prod.fst this)
      · rw [if_neg (fun h => hv h.1), if_neg]
        · rfl
        · intro hbeq
          have := of_decide_eq_true (by simpa using hbeq : decide (e = (u, v)) = true)
          exact hv (congrArg Prod.snd this).symm
    · intro v
      have h7 := h6 v
      dsimp only at h7
      rw [getD_bump, getD_pushAt] at h7
      by_cases hv : v = e.2
      · subst hv
        rw [if_pos ⟨rfl, by rw [hgT]; exact he.2⟩, if_pos ⟨rfl, by rw [hd]; exact he.2⟩,
          List.length_append, List.length_singleton] at h7
        omega
      · rw [if_neg (fun h => hv h.1), if_neg (fun h => hv h.1.symm)] at h7
        exact h7

/-- What `loadGraphFromEdgeList` leaves in the object. -/
theorem loadGraph_spec {edges : List (Nat × Nat)} {G : Graph}
    (h : Graph.loadGraphFromEdgeList edges = some G) :
    (∀ e, e ∈ edges → e.1 < G.n ∧ e.2 < G.n) ∧
    (∃ e, e ∈ edges ∧ (G.n = e.1 + 1 ∨ G.n = e.2 + 1)) ∧
    G.m = edges.length ∧ G.g.length = G.n ∧ G.gT.length = G.n ∧
    (∀ u v, (G.g.getD u []).count v = edges.count (u, v)) ∧
    (∀ u v, (G.gT.getD v []).count u = edges.count (u, v)) ∧
    (∀ v, G.inDeg.getD v 0 = (G.gT.getD v []).length) := by
  unfold Graph.loadGraphFromEdgeList at h
  split_ifs at h with hc
  simp only [Option.some.injEq] at h
  subst h
  dsimp only
  obtain ⟨hlt, hmax⟩ := max_node_id_spec edges
  have hne : edges ≠ [] := by
    intro he
    rw [he] at hc
    exact absurd hc.2 (by simp)
  obtain ⟨h1, h2, _, h4, h5, h6⟩ := build_adjacency_fold (Graph.max_node_id edges + 1).toNat
    edges
    { g := List.replicate (Graph.max_node_id edges + 1).toNat [],
      gT := List.replicate (Graph.max_node_id edges + 1).toNat [],
      inDeg := List.replicate (Graph.max_node_id edges + 1).toNat 0 }
    (List.length_replicate _ _) (List.length_replicate _ _) (List.length_replicate _ _) hlt
  refine ⟨hlt, hmax hne, rfl, h1, h2, ?_, ?_, ?_⟩
  · intro u v
    unfold Graph.build_adjacency
    rw [h4 u v]
    dsimp only
    rw [getD_replicate_nil, List.count_nil, Nat.zero_add]
  · intro u v
    unfold Graph.build_adjacency
    rw [h5 u v]
    dsimp only
    rw [getD_replicate_nil, List.count_nil, Nat.zero_add]
  · intro v
    unfold Graph.build_adjacency
    have h7 := h6 v
    dsimp only at h7
    rw [getD_replicate_nil, getD_replicate_zero] at h7
    simpa using h7

theorem getD_map_range (n u : Nat) (f : Nat → List ℚ) (h : u < n) :
    ((List.range n).map f).getD u [] = f u := by
  rw [List.getD_eq_getElem?_getD, List.getElem?_map, List.getElem?_range h]
  rfl

theorem getD_map_rat (l : List Nat) (f : Nat → ℚ) (i : Nat) (h : i < l.length) :
    (l.map f).getD i 0 = f (l.getD i 0) := by
  rw [List.getD_eq_getElem?_getD, List.getD_eq_getElem?_getD, List.getElem?_map,
    List.getElem?_eq_getElem h]
  rfl

theorem getD_replicate_rat (k i : Nat) (c : ℚ) (h : i < k) :
    (List.replicate k c).getD i 0 = c := by
  rw [List.getD_eq_getElem?_getD, List.getElem?_replicate, if_pos h]
  rfl

/-- The constructor keeps the adjacency that `loadGraphFromEdgeList` has built. -/
theorem construct_spec {draws : Nat → Fin 3} {edges : List (Nat × Nat)} {G : Graph}
    (h : Graph.construct draws edges = some G) :
    ∃ G0, Graph.loadGraphFromEdgeList edges = some G0 ∧
      G = Graph.precompute_all_probabilities draws G0 ∧
      G.n = G0.n ∧ G.m = G0.m ∧ G.g = G0.g ∧ G.gT = G0.gT ∧ G.inDeg = G0.inDeg := by
  unfold Graph.construct at h
  cases h0 : Graph.loadGraphFromEdgeList edges with
  | none => rw [h0] at h; exact absurd h (by simp)
  | some G0 =>
    rw [h0] at h
    simp only [Option.map_some', Option.some.injEq] at h
    subst h
    exact ⟨G0, rfl, rfl, rfl, rfl, rfl, rfl, rfl⟩

/-- The loader succeeds on every edge file that is not empty. -/
theorem loadGraph_some {edges : List (Nat × Nat)} (hne : edges ≠ []) :
    ∃ G, Graph.loadGraphFromEdgeList edges = some G := by
  obtain ⟨e, _, he⟩ := (max_node_id_spec edges).2 hne
  have hlen : 0 < edges.length := List.length_pos.mpr hne
  unfold Graph.loadGraphFromEdgeList
  rw [if_pos ⟨by omega, hlen⟩]
  exact ⟨_, rfl⟩

end LoaderLemmas

/-! ## The shape of the RR sets -/

section RRShapeLemmas

theorem WalkSteps.setInv {n rr : Nat} {st st' : RRWalk} (h : WalkSteps n rr st st')
    (hI : SetInv n rr st) : SetInv n rr st' := by
  induction h with
  | refl => exact hI
  | draw s _ ih => exact ⟨ih.flags, ih.idx, ih.row, ih.marked, ih.nodup, ih.lt⟩
  | @visit a v _ hv hnv ih =>
    have hvl : v < a.visited.length := by rw [ih.flags]; exact hv
    refine ⟨?_, ?_, ?_, ?_, ?_, ?_⟩
    · show (List.set _ v true).length = n
      rw [List.length_set]; exact ih.flags
    · show rr < (pushAt a.hyperGT rr v).length
      rw [pushAt_length]; exact ih.idx
    · show (pushAt a.hyperGT rr v).getD rr [] = a.q ++ [v]
      rw [getD_pushAt, if_pos ⟨rfl, ih.idx⟩, ih.row]
    · intro x hx
      show (List.set a.visited v true).getD x false = true
      rw [getD_set_bool]
      by_cases hvx : v = x
      · rw [if_pos ⟨hvx, hvl⟩]
      · rw [if_neg (fun h => hvx h.1)]
        have hx' : x ∈ a.q ++ [v] := hx
        rcases List.mem_append.mp hx' with h1 | h1
        · exact ih.marked x h1
        · exact absurd (List.mem_singleton.mp h1).symm hvx
    · show (a.q ++ [v]).Nodup
      rw [List.nodup_append]
      refine ⟨ih.nodup, List.nodup_singleton v, ?_⟩
      intro x hx hxv
      rw [List.mem_singleton] at hxv
      subst hxv
      have := ih.marked x hx
      rw [hnv] at this
      exact Bool.noConfusion this
    · intro x hx
      have hx' : x ∈ a.q ++ [v] := hx
      rcases List.mem_append.mp hx' with h1 | h1
      · exact ih.lt x h1
      · rw [List.mem_singleton.mp h1]; exact hv

theorem WalkSteps.other_rows {n rr : Nat} {st st' : RRWalk} (h : WalkSteps n rr st st') :
    ∀ j, j ≠ rr → st'.hyperGT.getD j [] = st.hyperGT.getD j [] := by
  induction h with
  | refl => intro j _; rfl
  | draw s _ ih => exact ih
  | @visit a v _ _ _ ih =>
    intro j hj
    show (pushAt a.hyperGT rr v).getD j [] = _
    rw [getD_pushAt, if_neg (fun h => hj h.1)]
    exact ih j hj

theorem WalkSteps.q_prefix {n rr : Nat} {st st' : RRWalk} (h : WalkSteps n rr st st') :
    ∃ ext, st'.q = st.q ++ ext := by
  induction h with
  | refl => exact ⟨[], by simp⟩
  | draw s _ ih => exact ih
  | @visit a v _ _ _ ih =>
    obtain ⟨ext, he⟩ := ih
    refine ⟨ext ++ [v], ?_⟩
    show a.q ++ [v] = _
    rw [he, List.append_assoc]

theorem setInv_start {n rr : Nat} {hG hGT : List (List Nat)} (s : Sfmt) {v : Nat}
    (hv : v < n) (hidx : rr < hGT.length) (hempty : hGT.getD rr [] = []) :
    SetInv n rr (RRWalk.start n hG hGT s v rr) := by
  have hvl : v < (List.replicate n false).length := by simpa using hv
  refine ⟨?_, ?_, ?_, ?_, List.nodup_singleton v, ?_⟩
  · show (List.set _ v true).length = n
    simp
  · show rr < (pushAt hGT rr v).length
    rw [pushAt_length]; exact hidx
  · show (pushAt hGT rr v).getD rr [] = [v]
    rw [getD_pushAt, if_pos ⟨rfl, hidx⟩, hempty]
    rfl
  · intro x hx
    show (List.set (List.replicate n false) v true).getD x false = true
    rw [getD_set_bool, if_pos ⟨(List.mem_singleton.mp hx).symm, hvl⟩]
  · intro x hx
    rw [List.mem_singleton.mp hx]; exact hv

/-- What a finished generation leaves in the store when it started on an empty row. -/
theorem row_of_walk {g : InfGraph} {rr v : Nat} {st : RRWalk}
    (hv : v < g.n) (hidx : rr < g.hyperGT.length) (hempty : g.hyperGT.getD rr [] = [])
    (hw : WalkSteps g.n rr (RRWalk.start g.n g.hyperG g.hyperGT g.sfmt v rr) st) :
    RowShape g.n v ((g.commit st).hyperGT.getD rr []) ∧
      (g.commit st).hyperGT.getD rr [] = st.q ∧
      ∀ j, j ≠ rr → (g.commit st).hyperGT.getD j [] = g.hyperGT.getD j [] := by
  have hS := hw.setInv (setInv_start g.sfmt hv hidx hempty)
  obtain ⟨ext, he⟩ := hw.q_prefix
  have hrow : (g.commit st).hyperGT.getD rr [] = st.q := hS.row
  refine ⟨⟨?_, ?_, ?_⟩, hrow, ?_⟩
  · rw [hrow, he]
    rfl
  · rw [hrow]; exact hS.lt
  · rw [hrow]; exact hS.nodup
  · intro j hj
    show st.hyperGT.getD j [] = _
    rw [hw.other_rows j hj]
    show (pushAt g.hyperGT rr v).getD j [] = _
    rw [getD_pushAt, if_neg (fun h => hj h.1)]

theorem generate_rr_set_ic_row {g : InfGraph} (hG : GraphOK g.toGraph) {rr v : Nat}
    (hv : v < g.n) (hidx : rr < g.hyperGT.length) (hempty : g.hyperGT.getD rr [] = []) :
    RowShape g.n v ((g.generate_rr_set_ic v rr).hyperGT.getD rr []) ∧
      ∀ j, j ≠ rr → (g.generate_rr_set_ic v rr).hyperGT.getD j [] = g.hyperGT.getD j [] := by
  obtain ⟨h1, _, h3⟩ := row_of_walk hv hidx hempty (ic_loop_steps g hG.gT_lt rr g.n 0 _)
  exact ⟨h1, h3⟩

theorem generate_rr_set_lt_row {g : InfGraph} (hG : GraphOK g.toGraph) {rr v : Nat}
    (hv : v < g.n) (hidx : rr < g.hyperGT.length) (hempty : g.hyperGT.getD rr [] = []) :
    RowShape g.n v ((g.generate_rr_set_lt v rr).hyperGT.getD rr []) ∧
      ∀ j, j ≠ rr → (g.generate_rr_set_lt v rr).hyperGT.getD j [] = g.hyperGT.getD j [] := by
  obtain ⟨h1, _, h3⟩ := row_of_walk hv hidx hempty (lt_loop_steps g hG.gT_lt rr g.n 0 _)
  exact ⟨h1, h3⟩

theorem getD_snoc_nil_lt (l : List (List Nat)) (j : Nat) (h : j < l.length) :
    (l ++ [[]]).getD j [] = l.getD j [] :=
  List.getD_append _ _ _ _ h

theorem getD_snoc_nil_last (l : List (List Nat)) : (l ++ [[]]).getD l.length [] = [] := by
  rw [List.getD_append_right _ _ _ _ (Nat.le_refl _)]
  simp

/-- Pass `i` of the loop of `build_hyper_graph_r`, entered with `i` RR sets in the
store, writes a well-shaped set at index `i` and leaves the earlier sets alone. -/
theorem build_r_step_row {g : InfGraph} {i : Nat} (hI : RRInv g)
    (hi : g.hyperGT.length = i) :
    RowShape g.n ((sfmt_genrand_uint32 g.sfmt).1 % g.n)
        ((g.build_r_step i).hyperGT.getD i []) ∧
      ∀ j, j < i → (g.build_r_step i).hyperGT.getD j [] = g.hyperGT.getD j [] := by
  have hv : (sfmt_genrand_uint32 g.sfmt).1 % g.n < g.n := Nat.mod_lt _ hI.graph.n_pos
  have hidx : i < (g.hyperGT ++ [[]]).length := by
    rw [List.length_append, List.length_singleton]; omega
  have hempty : (g.hyperGT ++ [[]]).getD i [] = [] := by
    rw [← hi]; exact getD_snoc_nil_last _
  have hold : ∀ j, j < i → (g.hyperGT ++ [[]]).getD j [] = g.hyperGT.getD j [] :=
    fun j hj => getD_snoc_nil_lt _ j (by omega)
  unfold InfGraph.build_r_step
  split
  · obtain ⟨h1, h3⟩ := generate_rr_set_lt_row
      (g := { g with hyperGT := g.hyperGT ++ [[]], sfmt := (sfmt_genrand_uint32 g.sfmt).2 })
      hI.graph hv hidx hempty
    exact ⟨h1, fun j hj => (h3 j (by omega)).trans (hold j hj)⟩
  · obtain ⟨h1, h3⟩ := generate_rr_set_ic_row
      (g := { g with hyperGT := g.hyperGT ++ [[]], sfmt := (sfmt_genrand_uint32 g.sfmt).2 })
      hI.graph hv hidx hempty
    exact ⟨h1, fun j hj => (h3 j (by omega)).trans (hold j hj)⟩

theorem state_before_pass_succ (step : InfGraph → Nat → InfGraph) (g0 : InfGraph)
    (i : Nat) :
    state_before_pass step g0 (i + 1) = step (state_before_pass step g0 i) i := by
  unfold state_before_pass
  rw [List.range_succ, List.foldl_append]
  rfl

/-- The store after `R` passes of the loop of `build_hyper_graph_r` on an empty
store. -/
theorem build_r_rows {g0 : InfGraph} (hI : RRInv g0) (h0 : g0.hyperGT = []) :
    ∀ R, RRInv (state_before_pass InfGraph.build_r_step g0 R) ∧
      (state_before_pass InfGraph.build_r_step g0 R).toGraph = g0.toGraph ∧
      (state_before_pass InfGraph.build_r_step g0 R).hyperGT.length = R ∧
      ∀ i, i < R →
        RowShape g0.n (root_of_pass InfGraph.build_r_step g0 i)
          ((state_before_pass InfGraph.build_r_step g0 R).hyperGT.getD i []) := by
  intro R
  induction R with
  | zero =>
    refine ⟨hI, rfl, ?_, ?_⟩
    · show g0.hyperGT.length = 0
      rw [h0]; rfl
    · intro i hi; exact absurd hi (Nat.not_lt_zero i)
  | succ R ih =>
    obtain ⟨i1, i2, i3, i4⟩ := ih
    rw [state_before_pass_succ]
    obtain ⟨k1, k2, k3⟩ := build_r_step_keeps i1 (Nat.le_of_eq i3.symm)
    obtain ⟨r1, r2⟩ := build_r_step_row i1 i3
    have hn : (state_before_pass InfGraph.build_r_step g0 R).n = g0.n :=
      congrArg Graph.n i2
    refine ⟨k1, k3.trans i2, by rw [k2, i3], ?_⟩
    intro i hi
    by_cases hiR : i < R
    · rw [r2 i hiR]; exact i4 i hiR
    · have hiR' : i = R := by omega
      subst hiR'
      rw [hn] at r1
      exact r1

/-! ### Early termination at a flagged node -/

theorem ic_edges_stoppable_target (probs : List ℚ) (rr : Nat) (is_target : List Bool) :
    ∀ (vs : List Nat) (i : Nat) (st : RRWalk),
      (∀ x, x ∈ st.q → is_target.getD x false = false) →
      ((InfGraph.ic_edges_stoppable probs rr is_target vs i st).2 = false →
        ∀ x, x ∈ (InfGraph.ic_edges_stoppable probs rr is_target vs i st).1.q →
          is_target.getD x false = false) ∧
      ((InfGraph.ic_edges_stoppable probs rr is_target vs i st).2 = true →
        ∃ q0 t, (InfGraph.ic_edges_stoppable probs rr is_target vs i st).1.q = q0 ++ [t] ∧
          is_target.getD t false = true ∧ ∀ x, x ∈ q0 → is_target.getD x false = false) := by
  intro vs
  induction vs with
  | nil =>
    intro i st h
    exact ⟨fun _ => h, fun hf => absurd hf (by simp [InfGraph.ic_edges_stoppable])⟩
  | cons v rest ih =>
    intro i st h
    simp only [InfGraph.ic_edges_stoppable]
    split_ifs with h1 h2 h3
    · exact ⟨fun hf => absurd hf (by simp), fun _ => ⟨st.q, v, rfl, h3, h⟩⟩
    · apply ih
      intro x hx
      have hx' : x ∈ st.q ++ [v] := hx
      rcases List.mem_append.mp hx' with h4 | h4
      · exact h x h4
      · rw [List.mem_singleton.mp h4]
        cases hb : is_target.getD v false with
        | false => rfl
        | true => exact absurd hb h3
    · exact ih _ _ h
    · exact ih _ _ h

theorem ic_loop_stoppable_target (g : InfGraph) (rr : Nat) (is_target : List Bool) :
    ∀ (fuel head : Nat) (st : RRWalk),
      (∀ x, x ∈ st.q → is_target.getD x false = false) →
      StopsAtTarget is_target (InfGraph.ic_loop_stoppable g rr is_target fuel head st).q := by
  intro fuel
  induction fuel with
  | zero => intro head st h; exact Or.inl h
  | succ fuel ih =>
    intro head st h
    rw [InfGraph.ic_loop_stoppable]
    obtain ⟨e1, e2⟩ := ic_edges_stoppable_target (g.probT (st.q.getD head 0)) rr is_target
      (g.gT.getD (st.q.getD head 0) []) 0 st h
    split_ifs with h1 h2
    · exact Or.inr (e2 h2)
    · exact ih _ _ (e1 (by simpa using h2))
    · exact Or.inl h

theorem lt_hop_stoppable_target (g : InfGraph) (rr : Nat) (is_target : List Bool)
    (u : Nat) (st : RRWalk) (h : ∀ x, x ∈ st.q → is_target.getD x false = false) :
    ((InfGraph.lt_hop_stoppable g rr is_target u st).2 = false →
        ∀ x, x ∈ (InfGraph.lt_hop_stoppable g rr is_target u st).1.q →
          is_target.getD x false = false) ∧
      ((InfGraph.lt_hop_stoppable g rr is_target u st).2 = true →
        ∃ q0 t, (InfGraph.lt_hop_stoppable g rr is_target u st).1.q = q0 ++ [t] ∧
          is_target.getD t false = true ∧ ∀ x, x ∈ q0 → is_target.getD x false = false) := by
  unfold InfGraph.lt_hop_stoppable
  split_ifs with h1
  · exact ⟨fun _ => h, fun hf => absurd hf (by simp)⟩
  · split
    · rename_i v _
      split_ifs with h2
      · refine ⟨?_, ?_⟩
        · intro hf x hx
          have hx' : x ∈ st.q ++ [v] := hx
          rcases List.mem_append.mp hx' with h4 | h4
          · exact h x h4
          · rw [List.mem_singleton.mp h4]; exact hf
        · intro hf
          exact ⟨st.q, v, rfl, hf, h⟩
      · exact ⟨fun _ => h, fun hf => absurd hf (by simp)⟩
    · exact ⟨fun _ => h, fun hf => absurd hf (by simp)⟩

theorem lt_loop_stoppable_target (g : InfGraph) (rr : Nat) (is_target : List Bool) :
    ∀ (fuel head : Nat) (st : RRWalk),
      (∀ x, x ∈ st.q → is_target.getD x false = false) →
      StopsAtTarget is_target (InfGraph.lt_loop_stoppable g rr is_target fuel head st).q := by
  intro fuel
  induction fuel with
  | zero => intro head st h; exact Or.inl h
  | succ fuel ih =>
    intro head st h
    rw [InfGraph.lt_loop_stoppable]
    obtain ⟨e1, e2⟩ := lt_hop_stoppable_target g rr is_target (st.q.getD head 0) st h
    split_ifs with h1 h2
    · exact Or.inr (e2 h2)
    · exact ih _ _ (e1 (by simpa using h2))
    · exact Or.inl h

theorem row_of_target {g : InfGraph} {rr v : Nat} (is_target : List Bool)
    (hv : v < g.n) (hidx : rr < g.hyperGT.length) (hempty : g.hyperGT.getD rr [] = [])
    (ht : is_target.getD v false = true) :
    RowShape g.n v ((pushAt g.hyperGT rr v).getD rr []) ∧
      StopsAtTarget is_target ((pushAt g.hyperGT rr v).getD rr []) ∧
      ∀ j, j ≠ rr → (pushAt g.hyperGT rr v).getD j [] = g.hyperGT.getD j [] := by
  have hrow : (pushAt g.hyperGT rr v).getD rr [] = [v] := by
    rw [getD_pushAt, if_pos ⟨rfl, hidx⟩, hempty]; rfl
  rw [hrow]
  refine ⟨⟨rfl, ?_, List.nodup_singleton v⟩, ?_, ?_⟩
  · intro x hx; rw [List.mem_singleton.mp hx]; exact hv
  · exact Or.inr ⟨[], v, rfl, ht, fun x hx => absurd hx (List.not_mem_nil x)⟩
  · intro j hj
    rw [getD_pushAt, if_neg (fun h => hj h.1)]

theorem start_no_target {n : Nat} {hG hGT : List (List Nat)} {s : Sfmt} {v rr : Nat}
    {is_target : List Bool} (ht : ¬ is_target.getD v false = true) :
    ∀ x, x ∈ (RRWalk.start n hG hGT s v rr).q → is_target.getD x false = false := by
  intro x hx
  have hx' : x ∈ [v] := hx
  rw [List.mem_singleton.mp hx']
  cases hb : is_target.getD v false with
  | false => rfl
  | true => exact absurd hb ht

theorem generate_rr_set_ic_stoppable_row {g : InfGraph} (hG : GraphOK g.toGraph)
    {rr v : Nat} (is_target : List Bool) (hv : v < g.n) (hidx : rr < g.hyperGT.length)
    (hempty : g.hyperGT.getD rr [] = []) :
    RowShape g.n v ((g.generate_rr_set_ic_stoppable v rr is_target).hyperGT.getD rr []) ∧
      StopsAtTarget is_target
        ((g.generate_rr_set_ic_stoppable v rr is_target).hyperGT.getD rr []) ∧
      ∀ j, j ≠ rr →
        (g.generate_rr_set_ic_stoppable v rr is_target).hyperGT.getD j []
          = g.hyperGT.getD j [] := by
  unfold InfGraph.generate_rr_set_ic_stoppable
  split_ifs with ht
  · exact row_of_target is_target hv hidx hempty ht
  · obtain ⟨h1, h2, h3⟩ := row_of_walk hv hidx hempty
      (ic_loop_stoppable_steps g hG.gT_lt rr is_target g.n 0 _)
    refine ⟨h1, ?_, h3⟩
    rw [h2]
    exact ic_loop_stoppable_target g rr is_target g.n 0 _ (start_no_target ht)

theorem generate_rr_set_lt_stoppable_row {g : InfGraph} (hG : GraphOK g.toGraph)
    {rr v : Nat} (is_target : List Bool) (hv : v < g.n) (hidx : rr < g.hyperGT.length)
    (hempty : g.hyperGT.getD rr [] = []) :
    RowShape g.n v ((g.generate_rr_set_lt_stoppable v rr is_target).hyperGT.getD rr []) ∧
      StopsAtTarget is_target
        ((g.generate_rr_set_lt_stoppable v rr is_target).hyperGT.getD rr []) ∧
      ∀ j, j ≠ rr →
        (g.generate_rr_set_lt_stoppable v rr is_target).hyperGT.getD j []
          = g.hyperGT.getD j [] := by
  unfold InfGraph.generate_rr_set_lt_stoppable
  split_ifs with ht
  · exact row_of_target is_target hv hidx hempty ht
  · obtain ⟨h1, h2, h3⟩ := row_of_walk hv hidx hempty
      (lt_loop_stoppable_steps g hG.gT_lt rr is_target g.n 0 _)
    refine ⟨h1, ?_, h3⟩
    rw [h2]
    exact lt_loop_stoppable_target g rr is_target g.n 0 _ (start_no_target ht)

/-- Pass `i` of the loop of `build_hyper_graph_for_minimization`, entered with `i` RR
sets in the store, writes at index `i` a well-shaped set that stops at the first
flagged node, and leaves the earlier sets alone. -/
theorem build_min_step_row {g : InfGraph} {i : Nat} (is_target : List Bool)
    (hI : RRInv g) (hi : g.hyperGT.length = i) :
    RowShape g.n ((sfmt_genrand_uint32 g.sfmt).1 % g.n)
        ((InfGraph.build_min_step is_target g i).hyperGT.getD i []) ∧
      StopsAtTarget is_target ((InfGraph.build_min_step is_target g i).hyperGT.getD i []) ∧
      ∀ j, j < i →
        (InfGraph.build_min_step is_target g i).hyperGT.getD j [] = g.hyperGT.getD j [] := by
  have hv : (sfmt_genrand_uint32 g.sfmt).1 % g.n < g.n := Nat.mod_lt _ hI.graph.n_pos
  have hidx : i < (g.hyperGT ++ [[]]).length := by
    rw [List.length_append, List.length_singleton]; omega
  have hempty : (g.hyperGT ++ [[]]).getD i [] = [] := by
    rw [← hi]; exact getD_snoc_nil_last _
  have hold : ∀ j, j < i → (g.hyperGT ++ [[]]).getD j [] = g.hyperGT.getD j [] :=
    fun j hj => getD_snoc_nil_lt _ j (by omega)
  unfold InfGraph.build_min_step
  split
  · obtain ⟨h1, h2, h3⟩ := generate_rr_set_lt_stoppable_row
      (g := { g with hyperGT := g.hyperGT ++ [[]], sfmt := (sfmt_genrand_uint32 g.sfmt).2 })
      hI.graph is_target hv hidx hempty
    exact ⟨h1, h2, fun j hj => (h3 j (by omega)).trans (hold j hj)⟩
  · obtain ⟨h1, h2, h3⟩ := generate_rr_set_ic_stoppable_row
      (g := { g with hyperGT := g.hyperGT ++ [[]], sfmt := (sfmt_genrand_uint32 g.sfmt).2 })
      hI.graph is_target hv hidx hempty
    exact ⟨h1, h2, fun j hj => (h3 j (by omega)).trans (hold j hj)⟩

/-- The store after `R` passes of the loop of `build_hyper_graph_for_minimization` on
an empty store. -/
theorem build_min_rows {g0 : InfGraph} (is_target : List Bool) (hI : RRInv g0)
    (h0 : g0.hyperGT = []) :
    ∀ R, RRInv (state_before_pass (InfGraph.build_min_step is_target) g0 R) ∧
      (state_before_pass (InfGraph.build_min_step is_target) g0 R).toGraph = g0.toGraph ∧
      (state_before_pass (InfGraph.build_min_step is_target) g0 R).hyperGT.length = R ∧
      ∀ i, i < R →
        RowShape g0.n (root_of_pass (InfGraph.build_min_step is_target) g0 i)
          ((state_before_pass (InfGraph.build_min_step is_target) g0 R).hyperGT.getD i []) ∧
        StopsAtTarget is_target
          ((state_before_pass (InfGraph.build_min_step is_target) g0 R).hyperGT.getD i []) := by
  intro R
  induction R with
  | zero =>
    refine ⟨hI, rfl, ?_, ?_⟩
    · show g0.hyperGT.length = 0
      rw [h0]; rfl
    · intro i hi; exact absurd hi (Nat.not_lt_zero i)
  | succ R ih =>
    obtain ⟨i1, i2, i3, i4⟩ := ih
    rw [state_before_pass_succ]
    obtain ⟨k1, k2, k3⟩ := build_min_step_keeps is_target i1 (Nat.le_of_eq i3.symm)
    obtain ⟨r1, r2, r3⟩ := build_min_step_row is_target i1 i3
    have hn : (state_before_pass (InfGraph.build_min_step is_target) g0 R).n = g0.n :=
      congrArg Graph.n i2
    refine ⟨k1, k3.trans i2, by rw [k2, i3], ?_⟩
    intro i hi
    by_cases hiR : i < R
    · rw [r3 i hiR]; exact i4 i hiR
    · have hiR' : i = R := by omega
      subst hiR'
      rw [hn] at r1
      exact ⟨r1, r2⟩

end RRShapeLemmas

/-! ## The blocker selection -/

section BlockingLemmas

theorem block_sets_spec {n : Nat} (hyperGT : List (List Nat)) (excl risky : List Bool)
    (hnodes : ∀ rr v, v ∈ hyperGT.getD rr [] → v < n) :
    ∀ (rrs : List Nat) (covered : List Bool) (h : iHeap Int), WellFormed n h →
      (∀ j, j < n → h.contains j → excl.getD j false = false) →
      WellFormed n (InfGraph.block_sets hyperGT excl risky rrs (covered, h)).2 ∧
      (InfGraph.block_sets hyperGT excl risky rrs (covered, h)).2.m_data.m_num
        = h.m_data.m_num ∧
      (∀ j, j < n →
        ((InfGraph.block_sets hyperGT excl risky rrs (covered, h)).2.contains j
          ↔ h.contains j)) := by
  intro rrs
  induction rrs with
  | nil =>
    intro covered h hW _
    exact ⟨hW, rfl, fun _ _ => Iff.rfl⟩
  | cons rr rest ih =>
    intro covered h hW hex
    simp only [InfGraph.block_sets]
    split_ifs with hc
    · obtain ⟨hW1, hn1, hc1, _⟩ := cover_nodes_spec excl _ h hW (hnodes rr) hex
      obtain ⟨h1, h2, h3⟩ := ih (covered.set rr true) _ hW1
        (fun j hj hcj => hex j hj ((hc1 j hj).1 hcj))
      exact ⟨h1, h2.trans hn1, fun j hj => (h3 j hj).trans (hc1 j hj)⟩
    · exact ih covered h hW hex

/-- One pass of the selection loop of `build_blocking_set` on a non-empty heap. -/
theorem block_step_spec {n c : Nat} {cand : Nat → Prop} (hyperG : List (List Nat))
    {hyperGT : List (List Nat)} {excl : List Bool} (risky : List Bool) (hnodes : ∀ rr v, v ∈ hyperGT.getD rr [] → v < n)
    (s : InfGraph.Greedy) (hI : BInv n cand excl c s)
    (hne : 0 < s.degree_heap.m_data.m_num) :
    ∃ u, (InfGraph.block_step hyperG hyperGT excl risky s).result_node_set
          = s.result_node_set ++ [u] ∧
      BInv n cand excl c (InfGraph.block_step hyperG hyperGT excl risky s) ∧
      (InfGraph.block_step hyperG hyperGT excl risky s).degree_heap.m_data.m_num + 1
        = s.degree_heap.m_data.m_num := by
  obtain ⟨u, h1, hpop, hW1, hu, hcu, _, hncu, hfr, hnum⟩ := hI.wf.pop_abs hne
  have hex1 : ∀ j, j < n → h1.contains j → excl.getD j false = false := by
    intro j hj hc
    have hju : j ≠ u := fun e => hncu (e ▸ hc)
    exact hI.unflagged j ((hI.mem j hj).1 ((hfr j hj hju).1.1 hc)).1
  obtain ⟨c1, c3, c4⟩ := block_sets_spec hyperGT excl risky hnodes (hyperG.getD u [])
    s.covered h1 hW1 hex1
  have hstep : InfGraph.block_step hyperG hyperGT excl risky s =
      { degree_heap :=
          (InfGraph.block_sets hyperGT excl risky (hyperG.getD u []) (s.covered, h1)).2
        covered :=
          (InfGraph.block_sets hyperGT excl risky (hyperG.getD u []) (s.covered, h1)).1
        result_node_set := s.result_node_set ++ [u] } := by
    simp only [InfGraph.block_step, hpop]
  rw [hstep]
  have hures : u ∉ s.result_node_set := ((hI.mem u hu).1 hcu).2
  have hucand : cand u := ((hI.mem u hu).1 hcu).1
  refine ⟨u, rfl, ⟨c1, ?_, hI.unflagged, ?_, ?_, ?_⟩, ?_⟩
  · intro w hw
    show (InfGraph.block_sets _ _ _ _ _).2.contains w ↔ _
    rw [c4 w hw]
    by_cases hwu : w = u
    · subst hwu
      constructor
      · intro h; exact absurd h hncu
      · rintro ⟨_, h⟩; exact absurd (List.mem_append_right _ (List.mem_singleton_self w)) h
    · rw [(hfr w hw hwu).1, hI.mem w hw]
      constructor
      · rintro ⟨h2, h3⟩
        refine ⟨h2, fun h4 => ?_⟩
        rcases List.mem_append.mp h4 with h5 | h5
        · exact h3 h5
        · exact hwu (List.mem_singleton.mp h5)
      · rintro ⟨h2, h3⟩
        exact ⟨h2, fun h4 => h3 (List.mem_append_left _ h4)⟩
  · show (s.result_node_set ++ [u]).Nodup
    rw [List.nodup_append]
    refine ⟨hI.nodup, List.nodup_singleton u, ?_⟩
    intro a ha hb
    rw [List.mem_singleton] at hb
    subst hb
    exact hures ha
  · intro v hv
    rcases List.mem_append.mp hv with h5 | h5
    · exact hI.res_cand v h5
    · rw [List.mem_singleton] at h5; subst h5; exact ⟨hu, hucand⟩
  · show (InfGraph.block_sets _ _ _ _ _).2.m_data.m_num + (s.result_node_set ++ [u]).length = c
    rw [c3, List.length_append, List.length_singleton, ← hI.count]
    omega
  · show (InfGraph.block_sets _ _ _ _ _).2.m_data.m_num + 1 = _
    rw [c3]; exact hnum

/-- The selection loop of `build_blocking_set` keeps the invariant and makes as many
passes as `k` and the heap allow. -/
theorem block_loop_spec {n c : Nat} {cand : Nat → Prop} (hyperG : List (List Nat))
    {hyperGT : List (List Nat)} {excl : List Bool} (risky : List Bool) (hnodes : ∀ rr v, v ∈ hyperGT.getD rr [] → v < n) :
    ∀ (k : Nat) (s : InfGraph.Greedy), BInv n cand excl c s →
      BInv n cand excl c (InfGraph.block_loop hyperG hyperGT excl risky k s) ∧
      (InfGraph.block_loop hyperG hyperGT excl risky k s).result_node_set.length
        = s.result_node_set.length + min k s.degree_heap.m_data.m_num := by
  intro k
  induction k with
  | zero => intro s hI; exact ⟨hI, by simp [InfGraph.block_loop]⟩
  | succ k ih =>
    intro s hI
    simp only [InfGraph.block_loop]
    split_ifs with he
    · rw [empty_iff] at he
      exact ⟨hI, by rw [he]; simp⟩
    · rw [empty_iff] at he
      have hne : 0 < s.degree_heap.m_data.m_num := Nat.pos_of_ne_zero he
      obtain ⟨u, hres, hI', hnum⟩ :=
        block_step_spec hyperG risky hnodes s hI hne
      obtain ⟨h1, h2⟩ := ih _ hI'
      refine ⟨h1, ?_⟩
      rw [h2, hres, List.length_append, List.length_singleton]
      omega

theorem fill_block_heap_spec {n : Nat} (excl : List Bool) (deg : List Nat) :
    ∀ (l : List Nat) (h : iHeap Int), WellFormed n h → l.Nodup → (∀ i, i ∈ l → i < n) →
      (∀ i, i ∈ l → ¬ h.contains i) →
      WellFormed n (InfGraph.fill_block_heap excl deg l h) ∧
      (InfGraph.fill_block_heap excl deg l h).m_data.m_num
        = h.m_data.m_num
          + (l.filter (fun i => decide (excl.getD i false = false ∧ 0 < deg.getD i 0))).length ∧
      (∀ j, j < n → ((InfGraph.fill_block_heap excl deg l h).contains j ↔
        (h.contains j ∨ (j ∈ l ∧ excl.getD j false = false ∧ 0 < deg.getD j 0)))) := by
  intro l
  induction l with
  | nil =>
    intro h hW _ _ _
    refine ⟨hW, by simp [InfGraph.fill_block_heap], fun j _ => ?_⟩
    simp [InfGraph.fill_block_heap]
  | cons i rest ih =>
    intro h hW hnd hlt hnc
    have hi : i < n := hlt i (List.mem_cons_self i rest)
    have hrest : ∀ w, w ∈ rest → w < n := fun w hw => hlt w (List.mem_cons_of_mem i hw)
    have hnd' := (List.nodup_cons.mp hnd)
    simp only [InfGraph.fill_block_heap]
    split_ifs with hcand
    · have hnci := hnc i (List.mem_cons_self i rest)
      obtain ⟨hW1, hc1, _, hfr, hgrow, _⟩ :=
        hW.insert_abs hi (-((deg.getD i 0 : Nat) : Int))
      have hnc1 : ∀ w, w ∈ rest →
          ¬ (h.insert i (-((deg.getD i 0 : Nat) : Int))).contains w := by
        intro w hw hc
        have hwi : w ≠ i := fun e => hnd'.1 (e ▸ hw)
        exact hnc w (List.mem_cons_of_mem i hw) ((hfr w (hrest w hw) hwi).1.1 hc)
      obtain ⟨h1, h2, h3⟩ := ih _ hW1 hnd'.2 hrest hnc1
      refine ⟨h1, ?_, ?_⟩
      · rw [h2, hgrow hnci, List.filter_cons, if_pos (decide_eq_true hcand), List.length_cons]
        omega
      · intro j hj
        rw [h3 j hj]
        by_cases hji : j = i
        · subst hji
          constructor
          · intro _; exact Or.inr ⟨List.mem_cons_self _ _, hcand⟩
          · intro _; exact Or.inl hc1
        · rw [(hfr j hj hji).1]
          constructor
          · rintro (h5 | h5)
            · exact Or.inl h5
            · exact Or.inr ⟨List.mem_cons_of_mem i h5.1, h5.2⟩
          · rintro (h5 | ⟨h5, h6⟩)
            · exact Or.inl h5
            · rcases List.mem_cons.mp h5 with h7 | h7
              · exact absurd h7 hji
              · exact Or.inr ⟨h7, h6⟩
    · obtain ⟨h1, h2, h3⟩ := ih h hW hnd'.2 hrest
        (fun w hw => hnc w (List.mem_cons_of_mem i hw))
      refine ⟨h1, ?_, ?_⟩
      · rw [h2, List.filter_cons, if_neg (by simpa using hcand)]
      · intro j hj
        rw [h3 j hj]
        constructor
        · rintro (h5 | h5)
          · exact Or.inl h5
          · exact Or.inr ⟨List.mem_cons_of_mem i h5.1, h5.2⟩
        · rintro (h5 | ⟨h5, h6⟩)
          · exact Or.inl h5
          · rcases List.mem_cons.mp h5 with h7 | h7
            · subst h7; exact absurd h6 hcand
            · exact Or.inr ⟨h7, h6⟩

/-- The state in which the selection loop of `build_blocking_set` is entered satisfies
the invariant. -/
theorem block_start_inv (g : InfGraph) (S : List Int) :
    BInv g.n
      (fun w => (InfGraph.flag_nodes g.n S).getD w false = false ∧
        0 < (InfGraph.risky_degrees g (InfGraph.flag_nodes g.n S)
          (InfGraph.risky_sets g S).2).getD w 0)
      (InfGraph.flag_nodes g.n S)
      ((List.range g.n).filter (fun i =>
        decide ((InfGraph.flag_nodes g.n S).getD i false = false ∧
          0 < (InfGraph.risky_degrees g (InfGraph.flag_nodes g.n S)
            (InfGraph.risky_sets g S).2).getD i 0))).length
      (g.block_start S) := by
  obtain ⟨h1, h2, h3⟩ := fill_block_heap_spec (n := g.n) (InfGraph.flag_nodes g.n S)
    (InfGraph.risky_degrees g (InfGraph.flag_nodes g.n S) (InfGraph.risky_sets g S).2)
    (List.range g.n) (blankHeap.init g.n)
    (wellFormed_init blankHeap g.n) (List.nodup_range g.n)
    (fun i hi => List.mem_range.mp hi) (fun i _ => blank_init_contains g.n i)
  refine ⟨h1, ?_, fun w hw => hw.1, List.nodup_nil, ?_, ?_⟩
  · intro w hw
    show (InfGraph.fill_block_heap _ _ _ _).contains w ↔ _
    rw [h3 w hw]
    constructor
    · rintro (h5 | h5)
      · exact absurd h5 (blank_init_contains g.n w)
      · exact ⟨h5.2, List.not_mem_nil w⟩
    · rintro ⟨h5, _⟩
      exact Or.inr ⟨List.mem_range.mpr hw, h5⟩
  · intro u hu; exact absurd hu (List.not_mem_nil u)
  · show (InfGraph.fill_block_heap _ _ _ _).m_data.m_num + 0 = _
    rw [h2]
    show 0 + _ + 0 = _
    omega

/-! ### The risky RR sets and the candidates -/

theorem mark_risky_spec {L : Nat} :
    ∀ (rrs : List Nat) (s : List Bool × List Nat), s.1.length = L →
      (∀ rr, rr ∈ rrs → rr < L) → (∀ x, s.1.getD x false = true ↔ x ∈ s.2) →
      (InfGraph.mark_risky rrs s).1.length = L ∧
      (∀ x, (InfGraph.mark_risky rrs s).1.getD x false = true ↔
        x ∈ (InfGraph.mark_risky rrs s).2) ∧
      (∀ x, x ∈ (InfGraph.mark_risky rrs s).2 ↔ x ∈ s.2 ∨ x ∈ rrs) := by
  intro rrs
  induction rrs with
  | nil =>
    intro s hl _ hs
    exact ⟨hl, hs, fun x => by simp [InfGraph.mark_risky]⟩
  | cons rr rest ih =>
    intro s hl hlt hs
    have hrr : rr < L := hlt rr (List.mem_cons_self rr rest)
    have hrest : ∀ x, x ∈ rest → x < L := fun x hx => hlt x (List.mem_cons_of_mem rr hx)
    simp only [InfGraph.mark_risky]
    split_ifs with hc
    · obtain ⟨h1, h2, h3⟩ := ih (s.1.set rr true, s.2 ++ [rr])
        (by show (s.1.set rr true).length = L; rw [List.length_set]; exact hl) hrest
        (by
          intro x
          show (s.1.set rr true).getD x false = true ↔ x ∈ s.2 ++ [rr]
          rw [getD_set_bool, List.mem_append, List.mem_singleton]
          by_cases hx : rr = x
          · rw [if_pos ⟨hx, by rw [hl]; exact hrr⟩]
            exact ⟨fun _ => Or.inr hx.symm, fun _ => rfl⟩
          · rw [if_neg (fun h => hx h.1), hs x]
            exact ⟨fun h => Or.inl h, fun h => h.elim id (fun e => absurd e.symm hx)⟩)
      refine ⟨h1, h2, ?_⟩
      intro x
      rw [h3 x]
      show x ∈ s.2 ++ [rr] ∨ x ∈ rest ↔ _
      rw [List.mem_append, List.mem_singleton, List.mem_cons]
      tauto
    · obtain ⟨h1, h2, h3⟩ := ih s hl hrest hs
      refine ⟨h1, h2, ?_⟩
      intro x
      rw [h3 x, List.mem_cons]
      have hrrs : rr ∈ s.2 := by
        rw [← hs rr]
        cases hb : s.1.getD rr false with
        | true => rfl
        | false => exact absurd hb hc
      constructor
      · rintro (h | h)
        · exact Or.inl h
        · exact Or.inr (Or.inr h)
      · rintro (h | h | h)
        · exact Or.inl h
        · subst h; exact Or.inl hrrs
        · exact Or.inr h

theorem mem_seed_row {hyperG : List (List Nat)} {seed : Int} {x : Nat}
    (h : x ∈ InfGraph.seed_row hyperG seed) :
    0 ≤ seed ∧ x ∈ hyperG.getD seed.toNat [] := by
  unfold InfGraph.seed_row at h
  split_ifs at h with h0
  · exact ⟨h0, h⟩
  · exact absurd h (List.not_mem_nil x)

/-- The flags `is_rr_risky` and the list `risky_rr_indices` hold the RR sets of the
negative seeds. -/
theorem risky_sets_spec (g : InfGraph) (hbij : RRBij g.hyperG g.hyperGT) (S : List Int) :
    (InfGraph.risky_sets g S).1.length = g.hyperGT.length ∧
    (∀ x, (InfGraph.risky_sets g S).1.getD x false = true ↔ x ∈ (InfGraph.risky_sets g S).2) ∧
    (∀ x, x ∈ (InfGraph.risky_sets g S).2 ↔
      ∃ seed, seed ∈ S ∧ x ∈ InfGraph.seed_row g.hyperG seed) := by
  unfold InfGraph.risky_sets
  have hgen : ∀ (seeds : List Int) (s : List Bool × List Nat),
      s.1.length = g.hyperGT.length → (∀ x, s.1.getD x false = true ↔ x ∈ s.2) →
      (seeds.foldl (fun s seed => InfGraph.mark_risky (InfGraph.seed_row g.hyperG seed) s)
        s).1.length = g.hyperGT.length ∧
      (∀ x, (seeds.foldl
          (fun s seed => InfGraph.mark_risky (InfGraph.seed_row g.hyperG seed) s)
          s).1.getD x false = true ↔
        x ∈ (seeds.foldl
          (fun s seed => InfGraph.mark_risky (InfGraph.seed_row g.hyperG seed) s) s).2) ∧
      (∀ x, x ∈ (seeds.foldl
          (fun s seed => InfGraph.mark_risky (InfGraph.seed_row g.hyperG seed) s) s).2 ↔
        x ∈ s.2 ∨ ∃ seed, seed ∈ seeds ∧ x ∈ InfGraph.seed_row g.hyperG seed) := by
    intro seeds
    induction seeds with
    | nil => intro s hl hs; exact ⟨hl, hs, fun x => by simp⟩
    | cons seed rest ih =>
      intro s hl hs
      rw [List.foldl_cons]
      obtain ⟨m1, m2, m3⟩ := mark_risky_spec (InfGraph.seed_row g.hyperG seed) s hl
        (fun rr hrr => hbij.idx_lt (mem_seed_row hrr).2) hs
      obtain ⟨h1, h2, h3⟩ := ih _ m1 m2
      refine ⟨h1, h2, ?_⟩
      intro x
      rw [h3 x, m3 x]
      constructor
      · rintro ((h | h) | ⟨sd, hsd, hx⟩)
        · exact Or.inl h
        · exact Or.inr ⟨seed, List.mem_cons_self seed rest, h⟩
        · exact Or.inr ⟨sd, List.mem_cons_of_mem seed hsd, hx⟩
      · rintro (h | ⟨sd, hsd, hx⟩)
        · exact Or.inl (Or.inl h)
        · rcases List.mem_cons.mp hsd with e | e
          · subst e; exact Or.inl (Or.inr hx)
          · exact Or.inr ⟨sd, e, hx⟩
  obtain ⟨h1, h2, h3⟩ := hgen S (List.replicate g.hyperGT.length false, [])
    (List.length_replicate _ _)
    (by
      intro x
      show (List.replicate g.hyperGT.length false).getD x false = true ↔ x ∈ []
      have : (List.replicate g.hyperGT.length false).getD x false = false := by
        rw [List.getD_eq_getElem?_getD, List.getElem?_replicate]
        split_ifs
        all_goals rfl
      rw [this]
      simp)
  refine ⟨h1, h2, ?_⟩
  intro x
  rw [h3 x]
  simp

theorem count_risky_spec (neg : List Bool) :
    ∀ (row : List Nat) (d : List Nat) (j : Nat),
      (InfGraph.count_risky neg row d).length = d.length ∧
      (InfGraph.count_risky neg row d).getD j 0 =
        d.getD j 0 + (if neg.getD j false = false ∧ j < d.length then row.count j else 0) := by
  intro row
  induction row with
  | nil => intro d j; simp [InfGraph.count_risky]
  | cons node rest ih =>
    intro d j
    simp only [InfGraph.count_risky]
    by_cases hc : neg.getD node false = false
    · rw [if_pos hc]
      obtain ⟨h1, h2⟩ := ih (d.set node (d.getD node 0 + 1)) j
      refine ⟨by rw [h1, List.length_set], ?_⟩
      rw [h2, getD_set_nat, List.length_set]
      by_cases hj : node = j
      · subst hj
        by_cases hl : node < d.length
        · rw [if_pos ⟨rfl, hl⟩, if_pos ⟨hc, hl⟩, if_pos ⟨hc, hl⟩, List.count_cons_self]
          omega
        · rw [if_neg (fun h => hl h.2), if_neg (fun h => hl h.2), if_neg (fun h => hl h.2)]
      · rw [if_neg (fun h => hj h.1), List.count_cons_of_ne (fun e => hj e.symm)]
    · rw [if_neg hc]
      obtain ⟨h1, h2⟩ := ih d j
      refine ⟨h1, ?_⟩
      rw [h2]
      by_cases hj : node = j
      · subst hj
        rw [if_neg (fun h => hc h.1), if_neg (fun h => hc h.1)]
      · rw [List.count_cons_of_ne (fun e => hj e.symm)]

/-- A node below `n` has a positive degree exactly when it is no negative seed and lies
in a risky RR set. -/
theorem risky_degrees_pos (g : InfGraph) (neg : List Bool) (risky : List Nat) (j : Nat)
    (hj : j < g.n) :
    0 < (InfGraph.risky_degrees g neg risky).getD j 0 ↔
      (neg.getD j false = false ∧ ∃ rr, rr ∈ risky ∧ j ∈ g.hyperGT.getD rr []) := by
  unfold InfGraph.risky_degrees
  have hgen : ∀ (rrs : List Nat) (d : List Nat), d.length = g.n →
      (rrs.foldl (fun d rr_idx => InfGraph.count_risky neg (g.hyperGT.getD rr_idx []) d)
        d).length = g.n ∧
      (0 < (rrs.foldl
          (fun d rr_idx => InfGraph.count_risky neg (g.hyperGT.getD rr_idx []) d)
          d).getD j 0 ↔
        (0 < d.getD j 0 ∨
          (neg.getD j false = false ∧ ∃ rr, rr ∈ rrs ∧ j ∈ g.hyperGT.getD rr []))) := by
    intro rrs
    induction rrs with
    | nil => intro d hd; exact ⟨hd, by simp⟩
    | cons rr rest ih =>
      intro d hd
      rw [List.foldl_cons]
      obtain ⟨c1, c2⟩ := count_risky_spec neg (g.hyperGT.getD rr []) d j
      obtain ⟨h1, h2⟩ := ih _ (c1.trans hd)
      refine ⟨h1, ?_⟩
      rw [h2, c2]
      by_cases hn : neg.getD j false = false
      · rw [if_pos ⟨hn, by rw [hd]; exact hj⟩]
        constructor
        · rintro (h | ⟨_, r, hr, hm⟩)
          · by_cases h0 : 0 < d.getD j 0
            · exact Or.inl h0
            · have hcnt : 0 < (g.hyperGT.getD rr []).count j := by omega
              exact Or.inr ⟨hn, rr, List.mem_cons_self rr rest, List.count_pos_iff.mp hcnt⟩
          · exact Or.inr ⟨hn, r, List.mem_cons_of_mem rr hr, hm⟩
        · rintro (h | ⟨_, r, hr, hm⟩)
          · left; omega
          · rcases List.mem_cons.mp hr with e | e
            · subst e
              have := List.count_pos_iff.mpr hm
              left; omega
            · exact Or.inr ⟨hn, r, e, hm⟩
      · rw [if_neg (fun h => hn h.1), Nat.add_zero]
        constructor
        · rintro (h | ⟨h, _⟩)
          · exact Or.inl h
          · exact absurd h hn
        · rintro (h | ⟨h, _⟩)
          · exact Or.inl h
          · exact absurd h hn
  obtain ⟨_, h2⟩ := hgen risky (List.replicate g.n 0) (List.length_replicate _ _)
  rw [h2, getD_replicate_zero]
  simp

/-- The candidate test of `build_blocking_set`, for a node below `n` of a store whose
two sides agree. -/
theorem block_cand_iff (g : InfGraph) (hbij : RRBij g.hyperG g.hyperGT) (S : List Int)
    (v : Nat) (hv : v < g.n) :
    ((InfGraph.flag_nodes g.n S).getD v false = false ∧
        0 < (InfGraph.risky_degrees g (InfGraph.flag_nodes g.n S)
          (InfGraph.risky_sets g S).2).getD v 0) ↔
      ((v : Int) ∉ S ∧
        ∃ rr, rr ∈ g.hyperGT ∧ v ∈ rr ∧ ∃ s : Nat, s ∈ rr ∧ (s : Int) ∈ S) := by
  have hflag : (InfGraph.flag_nodes g.n S).getD v false = false ↔ (v : Int) ∉ S := by
    rw [← flag_nodes_spec g.n S v hv]
    cases (InfGraph.flag_nodes g.n S).getD v false <;> simp
  obtain ⟨_, _, r3⟩ := risky_sets_spec g hbij S
  rw [risky_degrees_pos g _ _ v hv]
  constructor
  · rintro ⟨h1, _, rr, hrr, hvm⟩
    refine ⟨hflag.1 h1, g.hyperGT.getD rr [], ?_, hvm, ?_⟩
    · exact getD_mem_of_lt (getD_ne_nil_lt (List.ne_nil_of_mem hvm))
    · obtain ⟨seed, hseed, hx⟩ := (r3 rr).1 hrr
      obtain ⟨h0, hx'⟩ := mem_seed_row hx
      refine ⟨seed.toNat, (hbij.mem_iff rr seed.toNat).1 hx', ?_⟩
      rw [Int.toNat_of_nonneg h0]
      exact hseed
  · rintro ⟨h1, row, hrow, hvm, s, hs, hsS⟩
    refine ⟨hflag.2 h1, hflag.2 h1, ?_⟩
    obtain ⟨i, hi, he⟩ := List.getElem_of_mem hrow
    have hget : g.hyperGT.getD i [] = row := by
      rw [List.getD_eq_getElem?_getD, List.getElem?_eq_getElem hi]
      exact he
    refine ⟨i, ?_, by rw [hget]; exact hvm⟩
    rw [r3 i]
    refine ⟨(s : Int), hsS, ?_⟩
    unfold InfGraph.seed_row
    rw [if_pos (Int.natCast_nonneg s), Int.toNat_natCast]
    exact (hbij.mem_iff i s).2 (by rw [hget]; exact hs)

theorem blockable_eq (g : InfGraph) (hbij : RRBij g.hyperG g.hyperGT) (S : List Int) :
    blockable g S =
      (List.range g.n).filter (fun i =>
        decide ((InfGraph.flag_nodes g.n S).getD i false = false ∧
          0 < (InfGraph.risky_degrees g (InfGraph.flag_nodes g.n S)
            (InfGraph.risky_sets g S).2).getD i 0)) := by
  unfold blockable
  apply List.filter_congr
  intro v hv
  have h := block_cand_iff g hbij S v (List.mem_range.mp hv)
  rw [Bool.eq_iff_iff, decide_eq_true_iff, h]
  simp

end BlockingLemmas

/-! ## The probability iterator -/

section SimulationLemmas

theorem getD_set_rat (l : List ℚ) (i j : Nat) (a d : ℚ) :
    (l.set i a).getD j d = if i = j ∧ i < l.length then a else l.getD j d := by
  induction l generalizing i j with
  | nil => simp
  | cons x xs ih =>
    cases i with
    | zero =>
      cases j with
      | zero => simp
      | succ j => simp
    | succ i =>
      cases j with
      | zero => simp
      | succ j =>
        simp only [List.set_cons_succ, List.getD_cons_succ, ih, List.length_cons]
        simp

theorem getD_in01 {row : List ℚ} (h : ∀ p, p ∈ row → 0 ≤ p ∧ p ≤ 1) (j : Nat) :
    0 ≤ row.getD j 0 ∧ row.getD j 0 ≤ 1 := by
  rw [List.getD_eq_getElem?_getD]
  by_cases hj : j < row.length
  · rw [List.getElem?_eq_getElem hj]
    exact h _ (List.getElem_mem hj)
  · rw [List.getElem?_eq_none (Nat.le_of_not_lt hj)]
    exact ⟨le_refl _, zero_le_one⟩

theorem probT_in01 {g : InfGraph} {P : List (List ℚ)} (hP : g.active_probT = some P)
    (h01 : TableIn01 P) (v j : Nat) :
    0 ≤ (g.probT v).getD j 0 ∧ (g.probT v).getD j 0 ≤ 1 := by
  apply getD_in01
  unfold InfGraph.probT
  rw [hP]
  show ∀ p, p ∈ P.getD v [] → _
  intro p hp
  have hv : v < P.length := by
    by_contra hge
    rw [List.getD_eq_getElem?_getD, List.getElem?_eq_none (Nat.le_of_not_lt hge)] at hp
    exact absurd hp (List.not_mem_nil p)
  rw [List.getD_eq_getElem?_getD, List.getElem?_eq_getElem hv] at hp
  exact h01 _ (List.getElem_mem hv) p hp

theorem p_not_activated_bounds (cur probs : List ℚ)
    (hc : ∀ v, 0 ≤ cur.getD v 0 ∧ cur.getD v 0 ≤ 1)
    (hp : ∀ j, 0 ≤ probs.getD j 0 ∧ probs.getD j 0 ≤ 1) :
    ∀ (us : List Nat) (j : Nat) (acc : ℚ), 0 ≤ acc → acc ≤ 1 →
      0 ≤ InfGraph.p_not_activated cur probs us j acc ∧
        InfGraph.p_not_activated cur probs us j acc ≤ 1 := by
  intro us
  induction us with
  | nil => intro j acc h0 h1; exact ⟨h0, h1⟩
  | cons u rest ih =>
    intro j acc h0 h1
    simp only [InfGraph.p_not_activated]
    have hm0 : 0 ≤ cur.getD u 0 * probs.getD j 0 := mul_nonneg (hc u).1 (hp j).1
    have hm1 : cur.getD u 0 * probs.getD j 0 ≤ 1 :=
      mul_le_one₀ (hc u).2 (hp j).1 (hp j).2
    apply ih
    · exact mul_nonneg h0 (by linarith)
    · exact mul_le_one₀ h1 (by linarith) (by linarith)

theorem sum_prob_nonneg (cur probs : List ℚ)
    (hc : ∀ v, 0 ≤ cur.getD v 0 ∧ cur.getD v 0 ≤ 1)
    (hp : ∀ j, 0 ≤ probs.getD j 0 ∧ probs.getD j 0 ≤ 1) :
    ∀ (us : List Nat) (j : Nat) (acc : ℚ), 0 ≤ acc →
      0 ≤ InfGraph.sum_prob cur probs us j acc := by
  intro us
  induction us with
  | nil => intro j acc h0; exact h0
  | cons u rest ih =>
    intro j acc h0
    simp only [InfGraph.sum_prob]
    apply ih
    exact add_nonneg h0 (mul_nonneg (hc u).1 (hp j).1)

theorem getD_map_range_rat (n v : Nat) (f : Nat → ℚ) :
    ((List.range n).map f).getD v 0 = if v < n then f v else 0 := by
  rw [List.getD_eq_getElem?_getD, List.getElem?_map]
  by_cases h : v < n
  · rw [List.getElem?_range h, if_pos h]; rfl
  · rw [List.getElem?_eq_none (by simpa using h), if_neg h]; rfl

/-- One iteration keeps the probabilities between 0 and 1 and the blocked nodes at
0. -/
theorem next_prob_of_probVec {g : InfGraph} {P : List (List ℚ)}
    (hP : g.active_probT = some P) (h01 : TableIn01 P) (is_blocked : List Bool)
    (stop_delta : ℚ) {cur : List ℚ} (hc : ProbVec g.n is_blocked cur) :
    ProbVec g.n is_blocked (InfGraph.next_prob_of g is_blocked stop_delta cur) := by
  unfold InfGraph.next_prob_of
  split
  · refine ⟨by simp, ?_, ?_⟩
    · intro v
      rw [getD_map_range_rat]
      split_ifs with h1 h2
      · exact hc.bounds v
      · have := p_not_activated_bounds cur (g.probT v) hc.bounds (probT_in01 hP h01 v)
          (g.gT.getD v []) 0 1 zero_le_one (le_refl _)
        constructor <;> linarith [this.1, this.2]
      · exact ⟨le_refl _, zero_le_one⟩
    · intro v hb
      rw [getD_map_range_rat]
      split_ifs with h1 h2
      · exact hc.blocked v hb
      · exfalso
        apply h2
        unfold InfGraph.sim_skip
        rw [hb]; rfl
      · rfl
  · refine ⟨by simp, ?_, ?_⟩
    · intro v
      rw [getD_map_range_rat]
      split_ifs with h1 h2
      · exact hc.bounds v
      · have := sum_prob_nonneg cur (g.probT v) hc.bounds (probT_in01 hP h01 v)
          (g.gT.getD v []) 0 0 (le_refl _)
        exact ⟨le_min zero_le_one this, min_le_left _ _⟩
      · exact ⟨le_refl _, zero_le_one⟩
    · intro v hb
      rw [getD_map_range_rat]
      split_ifs with h1 h2
      · exact hc.blocked v hb
      · exfalso
        apply h2
        unfold InfGraph.sim_skip
        rw [hb]; rfl
      · rfl
  · exact hc

/-- The loop that builds step 0 keeps the vector well formed, and the states it records
are unblocked nodes of the graph that hold probability 1 in the vector. -/
theorem seed_step0_spec (n : Nat) (is_blocked : List Bool) :
    ∀ (seeds : List Int) (s : List ℚ × List NodeState), ProbVec n is_blocked s.1 →
      (∀ ns, ns ∈ s.2 → ns.id < n ∧ ns.probability = 1 ∧ s.1.getD ns.id 0 = 1) →
      ProbVec n is_blocked (InfGraph.seed_step0 n is_blocked seeds s).1 ∧
      (∀ ns, ns ∈ (InfGraph.seed_step0 n is_blocked seeds s).2 →
        ns.id < n ∧ ns.probability = 1 ∧
        (InfGraph.seed_step0 n is_blocked seeds s).1.getD ns.id 0 = 1) := by
  intro seeds
  induction seeds with
  | nil => intro s h1 h2; exact ⟨h1, h2⟩
  | cons seed rest ih =>
    intro s h1 h2
    simp only [InfGraph.seed_step0]
    split_ifs with hc
    · have hlt : seed.toNat < n := by omega
      have hl : seed.toNat < s.1.length := by rw [h1.len]; exact hlt
      apply ih
      · refine ⟨?_, ?_, ?_⟩
        · show (s.1.set seed.toNat 1).length = n
          rw [List.length_set]; exact h1.len
        · intro v
          show 0 ≤ (s.1.set seed.toNat 1).getD v 0 ∧ (s.1.set seed.toNat 1).getD v 0 ≤ 1
          rw [getD_set_rat]
          split_ifs
          · exact ⟨zero_le_one, le_refl _⟩
          · exact h1.bounds v
        · intro v hb
          show (s.1.set seed.toNat 1).getD v 0 = 0
          rw [getD_set_rat]
          split_ifs with h3
          · exfalso
            have := hc.2.2
            rw [h3.1, hb] at this
            exact Bool.noConfusion this
          · exact h1.blocked v hb
      · intro ns hns
        have hns' : ns ∈ s.2 ++ [({ id := seed.toNat, state := "active", probability := 1 } :
            NodeState)] := hns
        show ns.id < n ∧ ns.probability = 1 ∧ (s.1.set seed.toNat 1).getD ns.id 0 = 1
        rw [getD_set_rat]
        rcases List.mem_append.mp hns' with h3 | h3
        · obtain ⟨a, b, c⟩ := h2 ns h3
          refine ⟨a, b, ?_⟩
          split_ifs
          · rfl
          · exact c
        · rw [List.mem_singleton.mp h3]
          exact ⟨hlt, rfl, by rw [if_pos ⟨rfl, hl⟩]⟩
    · exact ih s h1 h2

theorem probVec_zero (n : Nat) (is_blocked : List Bool) :
    ProbVec n is_blocked (List.replicate n 0) := by
  have h : ∀ v, (List.replicate n (0 : ℚ)).getD v 0 = 0 := by
    intro v
    rw [List.getD_eq_getElem?_getD, List.getElem?_replicate]
    split_ifs
    all_goals rfl
  refine ⟨List.length_replicate _ _, ?_, fun v _ => h v⟩
  intro v
  rw [h v]
  exact ⟨le_refl _, zero_le_one⟩

/-- Every iterate of the update is a well-formed probability vector. -/
theorem prob_after_probVec {g : InfGraph} {P : List (List ℚ)}
    (hP : g.active_probT = some P) (h01 : TableIn01 P)
    (initial_nodes blocking_nodes : List Int) (stop_delta : ℚ) :
    ∀ k, ProbVec g.n (InfGraph.flag_nodes g.n blocking_nodes)
      (InfGraph.prob_after g initial_nodes blocking_nodes stop_delta k) := by
  intro k
  induction k with
  | zero =>
    exact (seed_step0_spec g.n _ initial_nodes (List.replicate g.n 0, [])
      (probVec_zero g.n _) (fun ns hns => absurd hns (List.not_mem_nil ns))).1
  | succ k ih =>
    unfold InfGraph.prob_after
    rw [Function.iterate_succ_apply']
    exact next_prob_of_probVec hP h01 _ stop_delta ih

theorem prob_after_succ (g : InfGraph) (initial_nodes blocking_nodes : List Int)
    (stop_delta : ℚ) (k : Nat) :
    InfGraph.prob_after g initial_nodes blocking_nodes stop_delta (k + 1) =
      InfGraph.next_prob_of g (InfGraph.flag_nodes g.n blocking_nodes) stop_delta
        (InfGraph.prob_after g initial_nodes blocking_nodes stop_delta k) := by
  unfold InfGraph.prob_after
  rw [Function.iterate_succ_apply']

theorem record_step_spec (n : Nat) (threshold stop_delta : ℚ) (i : Nat)
    (cur next : List ℚ) :
    (InfGraph.record_step n threshold stop_delta i cur next).step = i ∧
    ∀ ns, ns ∈ (InfGraph.record_step n threshold stop_delta i cur next).node_states →
      ns.id < n ∧ ns.probability = next.getD ns.id 0 := by
  refine ⟨rfl, ?_⟩
  intro ns hns
  simp only [InfGraph.record_step, List.mem_filterMap, List.mem_range] at hns
  obtain ⟨a, ha, hsome⟩ := hns
  split_ifs at hsome
  all_goals
    simp only [Option.some.injEq] at hsome
    subst hsome
    exact ⟨ha, rfl⟩

theorem push_step_ok {g : InfGraph} {initial_nodes blocking_nodes : List Int}
    {stop_delta : ℚ} {result : ApiSimulationResult}
    (hR : StepsOK g initial_nodes blocking_nodes stop_delta result) (i : Nat)
    (st : SimulationStep)
    (hst : ∀ ns, ns ∈ st.node_states → ns.id < g.n ∧
      ns.probability
        = (InfGraph.prob_after g initial_nodes blocking_nodes stop_delta st.step).getD ns.id 0) :
    StepsOK g initial_nodes blocking_nodes stop_delta (InfGraph.push_step result i st) := by
  unfold InfGraph.push_step
  split_ifs
  · exact hR
  · intro s hs
    have hs' : s ∈ result.simulation_steps ++ [st] := hs
    rcases List.mem_append.mp hs' with h | h
    · exact hR s h
    · rw [List.mem_singleton.mp h]; exact hst

/-- The iteration loop records only probabilities produced by the iterates. -/
theorem sim_loop_ok (g : InfGraph) (initial_nodes blocking_nodes : List Int)
    (threshold stop_delta : ℚ) :
    ∀ (fuel j : Nat) (result : ApiSimulationResult),
      StepsOK g initial_nodes blocking_nodes stop_delta result →
      StepsOK g initial_nodes blocking_nodes stop_delta
        (InfGraph.sim_loop g (InfGraph.flag_nodes g.n blocking_nodes) threshold stop_delta
          fuel (j + 1)
          (InfGraph.prob_after g initial_nodes blocking_nodes stop_delta j) result) := by
  intro fuel
  induction fuel with
  | zero => intro j result hR; exact hR
  | succ fuel ih =>
    intro j result hR
    have hrec : ∀ ns, ns ∈ (InfGraph.record_step g.n threshold stop_delta (j + 1)
        (InfGraph.prob_after g initial_nodes blocking_nodes stop_delta j)
        (InfGraph.next_prob_of g (InfGraph.flag_nodes g.n blocking_nodes) stop_delta
          (InfGraph.prob_after g initial_nodes blocking_nodes stop_delta j))).node_states →
        ns.id < g.n ∧ ns.probability
          = (InfGraph.prob_after g initial_nodes blocking_nodes stop_delta
              (InfGraph.record_step g.n threshold stop_delta (j + 1)
                (InfGraph.prob_after g initial_nodes blocking_nodes stop_delta j)
                (InfGraph.next_prob_of g (InfGraph.flag_nodes g.n blocking_nodes) stop_delta
                  (InfGraph.prob_after g initial_nodes blocking_nodes stop_delta
                    j))).step).getD ns.id 0 := by
      intro ns hns
      obtain ⟨h1, h2⟩ := record_step_spec g.n threshold stop_delta (j + 1) _ _
      rw [h1, prob_after_succ]
      exact h2 ns hns
    rw [InfGraph.sim_loop]
    split_ifs with h1 h2
    · exact hR
    · exact push_step_ok hR _ _ hrec
    · have h3 := ih (j + 1) _ (push_step_ok hR (j + 1) _ hrec)
      rw [prob_after_succ] at h3
      exact h3

end SimulationLemmas

/-! ## The forward Monte-Carlo estimate -/

section ForwardLemmas

theorem grows_refl (B a : List Bool) (q : List Nat) : Grows B a q a q :=
  ⟨rfl, fun _ h => h, fun _ h => Or.inl h, rfl⟩

theorem grows_trans {B a a1 a2 : List Bool} {q q1 q2 : List Nat} (h1 : Grows B a q a1 q1)
    (h2 : Grows B a1 q1 a2 q2) : Grows B a q a2 q2 := by
  refine ⟨h2.len.trans h1.len, fun v h => h2.keeps v (h1.keeps v h), ?_, ?_⟩
  · intro v h
    rcases h2.unblocked v h with h3 | h3
    · exact h1.unblocked v h3
    · exact Or.inr h3
  · have e1 := h1.queue
    have e2 := h2.queue
    omega

theorem grows_activate (B a : List Bool) (q : List Nat) (v : Nat) (hv : v < a.length)
    (ha : a.getD v false = false) (hb : B.getD v false = false) :
    Grows B a q (a.set v true) (q ++ [v]) := by
  refine ⟨List.length_set _ _ _, ?_, ?_, ?_⟩
  · intro w h
    rw [getD_set_bool]
    split_ifs
    · rfl
    · exact h
  · intro w h
    rw [getD_set_bool] at h
    split_ifs at h with hc
    · right
      rw [← hc.1]
      exact hb
    · left
      exact h
  · rw [count_set_true a v hv ha, List.length_append, List.length_singleton]
    omega

theorem seed_trial_spec (n : Nat) (B : List Bool) :
    ∀ (seeds : List Int) (s : List Bool × List Nat), s.1.length = n →
      Grows B s.1 s.2 (InfGraph.seed_trial n B seeds s).1 (InfGraph.seed_trial n B seeds s).2 ∧
      ∀ v, v < n → (v : Int) ∈ seeds → B.getD v false = false →
        (InfGraph.seed_trial n B seeds s).1.getD v false = true
  | [], s, _ => ⟨grows_refl _ _ _, fun v _ h => absurd h (List.not_mem_nil _)⟩
  | seed :: rest, s, hs => by
    rw [InfGraph.seed_trial]
    split_ifs with hc
    · obtain ⟨h0, h1, h2, h3⟩ := hc
      have hlt : seed.toNat < s.1.length := by omega
      have hstep := grows_activate B s.1 s.2 seed.toNat hlt h3 h2
      have ih := seed_trial_spec n B rest (s.1.set seed.toNat true, s.2 ++ [seed.toNat])
        (by rw [List.length_set]; exact hs)
      refine ⟨grows_trans hstep ih.1, ?_⟩
      intro v hv hmem hb
      rcases List.mem_cons.mp hmem with h | h
      · apply ih.1.keeps
        show (s.1.set seed.toNat true).getD v false = true
        rw [getD_set_bool, if_pos]
        exact ⟨by omega, hlt⟩
      · exact ih.2 v hv h hb
    · have ih := seed_trial_spec n B rest s hs
      refine ⟨ih.1, ?_⟩
      intro v hv hmem hb
      rcases List.mem_cons.mp hmem with h | h
      · apply ih.1.keeps
        by_contra hne
        apply hc
        subst h
        refine ⟨by omega, by omega, ?_, ?_⟩
        · simpa using hb
        · simpa using hne
      · exact ih.2 v hv h hb

theorem ic_fwd_edges_grows (B : List Bool) (probs : List ℚ) :
    ∀ (row : List Nat) (j : Nat) (st : TrialIC), (∀ v, v ∈ row → v < st.activated.length) →
      Grows B st.activated st.q (InfGraph.ic_fwd_edges B probs row j st).activated
        (InfGraph.ic_fwd_edges B probs row j st).q
  | [], _, st, _ => grows_refl _ _ _
  | v :: rest, j, st, h => by
    rw [InfGraph.ic_fwd_edges]
    split_ifs with h1 h2
    · exact ic_fwd_edges_grows B probs rest (j + 1) st
        (fun w hw => h w (List.mem_cons_of_mem _ hw))
    · have hv := h v (List.mem_cons_self _ _)
      simp only [Bool.or_eq_true, not_or, Bool.not_eq_true] at h1
      have hstep := grows_activate B st.activated st.q v hv h1.1 h1.2
      exact grows_trans hstep (ic_fwd_edges_grows B probs rest (j + 1)
        ({ activated := st.activated.set v true
           q := st.q ++ [v]
           sfmt := (sfmt_genrand_real1 st.sfmt).2 } : TrialIC) (fun w hw => by
        show w < (st.activated.set v true).length
        rw [List.length_set]
        exact h w (List.mem_cons_of_mem _ hw)))
    · exact ic_fwd_edges_grows B probs rest (j + 1)
        ({ st with sfmt := (sfmt_genrand_real1 st.sfmt).2 } : TrialIC)
        (fun w hw => h w (List.mem_cons_of_mem _ hw))

theorem lt_fwd_edges_grows (B : List Bool) (thresholds probs : List ℚ) :
    ∀ (row : List Nat) (j : Nat) (st : TrialLT), (∀ v, v ∈ row → v < st.activated.length) →
      Grows B st.activated st.lt_q
        (InfGraph.lt_fwd_edges B thresholds probs row j st).activated
        (InfGraph.lt_fwd_edges B thresholds probs row j st).lt_q
  | [], _, st, _ => grows_refl _ _ _
  | v :: rest, j, st, h => by
    rw [InfGraph.lt_fwd_edges]
    split_ifs with h1 h2
    · exact lt_fwd_edges_grows B thresholds probs rest (j + 1) st
        (fun w hw => h w (List.mem_cons_of_mem _ hw))
    · have hv := h v (List.mem_cons_self _ _)
      simp only [Bool.or_eq_true, not_or, Bool.not_eq_true] at h1
      have hstep := grows_activate B st.activated st.lt_q v hv h1.1 h1.2
      exact grows_trans hstep (lt_fwd_edges_grows B thresholds probs rest (j + 1)
        ({ activated := st.activated.set v true
           total_weights :=
             st.total_weights.set v (st.total_weights.getD v 0 + probs.getD j 0)
           lt_q := st.lt_q ++ [v] } : TrialLT)
        (fun w hw => by
          show w < (st.activated.set v true).length
          rw [List.length_set]
          exact h w (List.mem_cons_of_mem _ hw)))
    · exact lt_fwd_edges_grows B thresholds probs rest (j + 1)
        ({ st with
           total_weights :=
             st.total_weights.set v (st.total_weights.getD v 0 + probs.getD j 0) } : TrialLT)
        (fun w hw => h w (List.mem_cons_of_mem _ hw))

/-- The `while` loop of the IC branch ends with an empty queue within the passes that
the flags still allow, and it changes the flags as a cascade may. -/
theorem ic_fwd_loop_spec (g : InfGraph) (hg : ∀ u v, v ∈ g.g.getD u [] → v < g.n)
    (B : List Bool) :
    ∀ (fuel : Nat) (st : TrialIC), st.activated.length = g.n →
      st.q.length + g.n ≤ fuel + st.activated.count true →
      (InfGraph.ic_fwd_loop g B fuel st).q = [] ∧
      (InfGraph.ic_fwd_loop g B fuel st).activated.length = g.n ∧
      (∀ v, st.activated.getD v false = true →
        (InfGraph.ic_fwd_loop g B fuel st).activated.getD v false = true) ∧
      (∀ v, (InfGraph.ic_fwd_loop g B fuel st).activated.getD v false = true →
        st.activated.getD v false = true ∨ B.getD v false = false) := by
  intro fuel
  induction fuel with
  | zero =>
    intro st hlen hpot
    have hc := List.count_le_length true st.activated
    have hq0 : st.q = [] := List.length_eq_zero.mp (by omega)
    exact ⟨hq0, hlen, fun _ h => h, fun _ h => Or.inl h⟩
  | succ fuel ih =>
    intro st hlen hpot
    rw [InfGraph.ic_fwd_loop]
    cases hq : st.q with
    | nil => exact ⟨hq, hlen, fun _ h => h, fun _ h => Or.inl h⟩
    | cons u rest =>
      have hgr := ic_fwd_edges_grows B (g.probFwd u) (g.g.getD u []) 0 { st with q := rest }
        (fun v hv => by
          show v < st.activated.length
          rw [hlen]
          exact hg u v hv)
      have hq1 : ({ st with q := rest } : TrialIC).q = rest := rfl
      have ha1 : ({ st with q := rest } : TrialIC).activated = st.activated := rfl
      rw [hq1, ha1] at hgr
      have e := hgr.queue
      rw [hq, List.length_cons] at hpot
      obtain ⟨r1, r2, r3, r4⟩ := ih _ (hgr.len.trans hlen) (by omega)
      refine ⟨r1, r2, fun v h => r3 v (hgr.keeps v h), ?_⟩
      intro v h
      rcases r4 v h with h' | h'
      · exact hgr.unblocked v h'
      · exact Or.inr h'

/-- The `while` loop of the LT branch ends with an empty queue within the passes that
the flags still allow, and it changes the flags as a cascade may. -/
theorem lt_fwd_loop_spec (g : InfGraph) (hg : ∀ u v, v ∈ g.g.getD u [] → v < g.n)
    (B : List Bool) (thresholds : List ℚ) :
    ∀ (fuel : Nat) (st : TrialLT), st.activated.length = g.n →
      st.lt_q.length + g.n ≤ fuel + st.activated.count true →
      (InfGraph.lt_fwd_loop g B thresholds fuel st).lt_q = [] ∧
      (InfGraph.lt_fwd_loop g B thresholds fuel st).activated.length = g.n ∧
      (∀ v, st.activated.getD v false = true →
        (InfGraph.lt_fwd_loop g B thresholds fuel st).activated.getD v false = true) ∧
      (∀ v, (InfGraph.lt_fwd_loop g B thresholds fuel st).activated.getD v false = true →
        st.activated.getD v false = true ∨ B.getD v false = false) := by
  intro fuel
  induction fuel with
  | zero =>
    intro st hlen hpot
    have hc := List.count_le_length true st.activated
    have hq0 : st.lt_q = [] := List.length_eq_zero.mp (by omega)
    exact ⟨hq0, hlen, fun _ h => h, fun _ h => Or.inl h⟩
  | succ fuel ih =>
    intro st hlen hpot
    rw [InfGraph.lt_fwd_loop]
    cases hq : st.lt_q with
    | nil => exact ⟨hq, hlen, fun _ h => h, fun _ h => Or.inl h⟩
    | cons u rest =>
      have hgr := lt_fwd_edges_grows B thresholds (g.probFwd u) (g.g.getD u []) 0
        { st with lt_q := rest }
        (fun v hv => by
          show v < st.activated.length
          rw [hlen]
          exact hg u v hv)
      have hq1 : ({ st with lt_q := rest } : TrialLT).lt_q = rest := rfl
      have ha1 : ({ st with lt_q := rest } : TrialLT).activated = st.activated := rfl
      rw [hq1, ha1] at hgr
      have e := hgr.queue
      rw [hq, List.length_cons] at hpot
      obtain ⟨r1, r2, r3, r4⟩ := ih _ (hgr.len.trans hlen) (by omega)
      refine ⟨r1, r2, fun v h => r3 v (hgr.keeps v h), ?_⟩
      intro v h
      rcases r4 v h with h' | h'
      · exact hgr.unblocked v h'
      · exact Or.inr h'

/-- Once the queue is empty further passes of the IC loop change nothing. -/
theorem ic_fwd_loop_done (g : InfGraph) (B : List Bool) :
    ∀ (fuel : Nat) (st : TrialIC), (InfGraph.ic_fwd_loop g B fuel st).q = [] → ∀ k,
      InfGraph.ic_fwd_loop g B (fuel + k) st = InfGraph.ic_fwd_loop g B fuel st := by
  intro fuel
  induction fuel with
  | zero =>
    intro st h k
    have h0 : st.q = [] := h
    cases k with
    | zero => rfl
    | succ k =>
      show InfGraph.ic_fwd_loop g B (0 + k + 1) st = st
      rw [InfGraph.ic_fwd_loop, h0]
  | succ fuel ih =>
    intro st h k
    have e : fuel + 1 + k = (fuel + k) + 1 := by omega
    rw [e, InfGraph.ic_fwd_loop, InfGraph.ic_fwd_loop]
    rw [InfGraph.ic_fwd_loop] at h
    cases hq : st.q with
    | nil => rfl
    | cons u rest =>
      rw [hq] at h
      exact ih _ h k

/-- Once the queue is empty further passes of the LT loop change nothing. -/
theorem lt_fwd_loop_done (g : InfGraph) (B : List Bool) (thresholds : List ℚ) :
    ∀ (fuel : Nat) (st : TrialLT), (InfGraph.lt_fwd_loop g B thresholds fuel st).lt_q = [] →
      ∀ k, InfGraph.lt_fwd_loop g B thresholds (fuel + k) st
        = InfGraph.lt_fwd_loop g B thresholds fuel st := by
  intro fuel
  induction fuel with
  | zero =>
    intro st h k
    have h0 : st.lt_q = [] := h
    cases k with
    | zero => rfl
    | succ k =>
      show InfGraph.lt_fwd_loop g B thresholds (0 + k + 1) st = st
      rw [InfGraph.lt_fwd_loop, h0]
  | succ fuel ih =>
    intro st h k
    have e : fuel + 1 + k = (fuel + k) + 1 := by omega
    rw [e, InfGraph.lt_fwd_loop, InfGraph.lt_fwd_loop]
    rw [InfGraph.lt_fwd_loop] at h
    cases hq : st.lt_q with
    | nil => rfl
    | cons u rest =>
      rw [hq] at h
      exact ih _ h k

theorem count_replicate_false (n : Nat) : (List.replicate n false).count true = 0 := by
  rw [List.count_replicate]
  simp

theorem getD_replicate_false (n v : Nat) : (List.replicate n false).getD v false = false := by
  rw [List.getD_eq_getElem?_getD, List.getElem?_replicate]
  split_ifs
  all_goals rfl

/-- The flags with which the cascade of the IC branch ends, and its queue. -/
theorem ic_trial_ok (g : InfGraph) (hG : GraphOK g.toGraph) (B : List Bool)
    (initial_nodes : List Int) (s : Sfmt) :
    TrialOK g.n B initial_nodes (InfGraph.ic_trial g B initial_nodes s).activated ∧
    (InfGraph.ic_trial g B initial_nodes s).q = [] ∧
    ∀ k, InfGraph.ic_fwd_loop g B (g.n + k)
        { activated :=
            (InfGraph.seed_trial g.n B initial_nodes (List.replicate g.n false, [])).1
          q := (InfGraph.seed_trial g.n B initial_nodes (List.replicate g.n false, [])).2
          sfmt := s }
      = InfGraph.ic_trial g B initial_nodes s := by
  obtain ⟨hgr, hseed⟩ := seed_trial_spec g.n B initial_nodes (List.replicate g.n false, [])
    (List.length_replicate _ _)
  have hlen := hgr.len
  have hq := hgr.queue
  simp only [List.length_replicate, count_replicate_false, List.length_nil] at hlen hq
  have hpot : (InfGraph.seed_trial g.n B initial_nodes (List.replicate g.n false, [])).2.length
      + g.n ≤ g.n
        + (InfGraph.seed_trial g.n B initial_nodes (List.replicate g.n false, [])).1.count
          true := by
    omega
  obtain ⟨r1, r2, r3, r4⟩ := ic_fwd_loop_spec g hG.g_lt B g.n
    { activated := (InfGraph.seed_trial g.n B initial_nodes (List.replicate g.n false, [])).1
      q := (InfGraph.seed_trial g.n B initial_nodes (List.replicate g.n false, [])).2
      sfmt := s } hlen hpot
  refine ⟨⟨r2, ?_, ?_⟩, r1, ic_fwd_loop_done g B g.n _ r1⟩
  · intro v hb
    cases hv : (InfGraph.ic_trial g B initial_nodes s).activated.getD v false with
    | false => rfl
    | true =>
      rcases r4 v hv with h | h
      · rcases hgr.unblocked v h with h' | h'
        · rw [getD_replicate_false] at h'
          exact absurd h' (by decide)
        · rw [hb] at h'
          exact absurd h' (by decide)
      · rw [hb] at h
        exact absurd h (by decide)
  · intro v hv hmem hb
    exact r3 v (hseed v hv hmem hb)

/-- The flags with which the cascade of the LT branch ends, and its queue. -/
theorem lt_trial_ok (g : InfGraph) (hG : GraphOK g.toGraph) (B : List Bool)
    (initial_nodes : List Int) (s : Sfmt) :
    TrialOK g.n B initial_nodes (InfGraph.lt_trial g B initial_nodes s).activated ∧
    (InfGraph.lt_trial g B initial_nodes s).lt_q = [] ∧
    ∀ k, InfGraph.lt_fwd_loop g B (InfGraph.draw_thresholds g.n s).1 (g.n + k)
        { activated :=
            (InfGraph.seed_trial g.n B initial_nodes (List.replicate g.n false, [])).1
          total_weights := List.replicate g.n 0
          lt_q := (InfGraph.seed_trial g.n B initial_nodes (List.replicate g.n false, [])).2 }
      = InfGraph.lt_trial g B initial_nodes s := by
  obtain ⟨hgr, hseed⟩ := seed_trial_spec g.n B initial_nodes (List.replicate g.n false, [])
    (List.length_replicate _ _)
  have hlen := hgr.len
  have hq := hgr.queue
  simp only [List.length_replicate, count_replicate_false, List.length_nil] at hlen hq
  have hpot : (InfGraph.seed_trial g.n B initial_nodes (List.replicate g.n false, [])).2.length
      + g.n ≤ g.n
        + (InfGraph.seed_trial g.n B initial_nodes (List.replicate g.n false, [])).1.count
          true := by
    omega
  obtain ⟨r1, r2, r3, r4⟩ := lt_fwd_loop_spec g hG.g_lt B (InfGraph.draw_thresholds g.n s).1 g.n
    { activated := (InfGraph.seed_trial g.n B initial_nodes (List.replicate g.n false, [])).1
      total_weights := List.replicate g.n 0
      lt_q := (InfGraph.seed_trial g.n B initial_nodes (List.replicate g.n false, [])).2 }
    hlen hpot
  refine ⟨⟨r2, ?_, ?_⟩, r1, lt_fwd_loop_done g B _ g.n _ r1⟩
  · intro v hb
    cases hv : (InfGraph.lt_trial g B initial_nodes s).activated.getD v false with
    | false => rfl
    | true =>
      rcases r4 v hv with h | h
      · rcases hgr.unblocked v h with h' | h'
        · rw [getD_replicate_false] at h'
          exact absurd h' (by decide)
        · rw [hb] at h'
          exact absurd h' (by decide)
      · rw [hb] at h
        exact absurd h (by decide)
  · intro v hv hmem hb
    exact r3 v (hseed v hv hmem hb)

/-- Every cascade ends with an empty queue and with flags as `TrialOK` describes. -/
theorem run_trial_ok (g : InfGraph) (hG : GraphOK g.toGraph) (B : List Bool)
    (initial_nodes : List Int) (s : Sfmt) :
    TrialOK g.n B initial_nodes (InfGraph.run_trial g B initial_nodes s).1 ∧
    InfGraph.trial_queue_left g B initial_nodes s = [] := by
  unfold InfGraph.run_trial InfGraph.trial_queue_left
  have h1 := ic_trial_ok g hG B initial_nodes s
  have h2 := lt_trial_ok g hG B initial_nodes s
  cases g.influModel with
  | IC => exact ⟨h1.1, h1.2.1⟩
  | LT => exact ⟨h2.1, h2.2.1⟩
  | WC => exact ⟨h1.1, h1.2.1⟩

theorem count_trial_spec (a : List Bool) (c : List ℚ) : ∀ (n : Nat),
    (InfGraph.count_trial n a c).length = c.length ∧
    ∀ j, (InfGraph.count_trial n a c).getD j 0
      = if j < n ∧ j < c.length ∧ a.getD j false = true then c.getD j 0 + 1
        else c.getD j 0 := by
  intro n
  induction n with
  | zero =>
    refine ⟨rfl, fun j => ?_⟩
    rw [if_neg (by omega)]
    rfl
  | succ n ih =>
    obtain ⟨ih1, ih2⟩ := ih
    have e : InfGraph.count_trial (n + 1) a c
        = if a.getD n false then
            (InfGraph.count_trial n a c).set n ((InfGraph.count_trial n a c).getD n 0 + 1)
          else InfGraph.count_trial n a c := by
      unfold InfGraph.count_trial
      rw [List.range_succ, List.foldl_append]
      rfl
    rw [e]
    by_cases han : a.getD n false = true
    · rw [if_pos han]
      refine ⟨by rw [List.length_set]; exact ih1, fun j => ?_⟩
      have hn : (InfGraph.count_trial n a c).getD n 0 = c.getD n 0 := by
        rw [ih2 n, if_neg (fun h => Nat.lt_irrefl _ h.1)]
      rw [getD_set_rat, ih1, hn]
      by_cases hj : n = j
      · subst hj
        by_cases hl : n < c.length
        · rw [if_pos ⟨rfl, hl⟩, if_pos ⟨by omega, hl, han⟩]
        · rw [if_neg (fun h => hl h.2), if_neg (fun h => hl h.2.1)]
          exact hn
      · rw [if_neg (fun h => hj h.1), ih2 j]
        by_cases hc : j < n ∧ j < c.length ∧ a.getD j false = true
        · rw [if_pos hc, if_pos ⟨by omega, hc.2⟩]
        · rw [if_neg hc, if_neg (fun h => hc ⟨by omega, h.2⟩)]
    · rw [if_neg han]
      refine ⟨ih1, fun j => ?_⟩
      rw [ih2 j]
      by_cases hc : j < n ∧ j < c.length ∧ a.getD j false = true
      · rw [if_pos hc, if_pos ⟨by omega, hc.2⟩]
      · rw [if_neg hc, if_neg]
        intro h
        by_cases hj : j = n
        · subst hj
          exact han h.2.2
        · exact hc ⟨by omega, h.2⟩

theorem divide_counts_spec (T : Int) (c : List ℚ) : ∀ (n : Nat),
    (InfGraph.divide_counts n T c).length = c.length ∧
    ∀ j, (InfGraph.divide_counts n T c).getD j 0
      = if j < n ∧ j < c.length then c.getD j 0 / (T : ℚ) else c.getD j 0 := by
  intro n
  induction n with
  | zero =>
    refine ⟨rfl, fun j => ?_⟩
    rw [if_neg (by omega)]
    rfl
  | succ n ih =>
    obtain ⟨ih1, ih2⟩ := ih
    have e : InfGraph.divide_counts (n + 1) T c
        = (InfGraph.divide_counts n T c).set n
            ((InfGraph.divide_counts n T c).getD n 0 / (T : ℚ)) := by
      unfold InfGraph.divide_counts
      rw [List.range_succ, List.foldl_append]
      rfl
    rw [e]
    refine ⟨by rw [List.length_set]; exact ih1, fun j => ?_⟩
    have hn : (InfGraph.divide_counts n T c).getD n 0 = c.getD n 0 := by
      rw [ih2 n, if_neg (fun h => Nat.lt_irrefl _ h.1)]
    rw [getD_set_rat, ih1, hn]
    by_cases hj : n = j
    · subst hj
      by_cases hl : n < c.length
      · rw [if_pos ⟨rfl, hl⟩, if_pos ⟨by omega, hl⟩]
      · rw [if_neg (fun h => hl h.2), if_neg (fun h => hl h.2)]
        exact hn
    · rw [if_neg (fun h => hj h.1), ih2 j]
      by_cases hc : j < n ∧ j < c.length
      · rw [if_pos hc, if_pos ⟨by omega, hc.2⟩]
      · rw [if_neg hc, if_neg (fun h => hc ⟨by omega, h.2⟩)]

/-- The main loop adds to the count of every node the number of cascades that activated
it. -/
theorem trials_loop_spec (g : InfGraph) (B : List Bool) (initial_nodes : List Int) :
    ∀ (k : Nat) (c : List ℚ) (s : Sfmt), c.length = g.n →
      (InfGraph.trials_loop g B initial_nodes k (c, s)).1.length = g.n ∧
      ∀ j, j < g.n →
        (InfGraph.trials_loop g B initial_nodes k (c, s)).1.getD j 0
          = c.getD j 0 +
            (((List.range k).countP (fun i =>
              (InfGraph.run_trial g B initial_nodes
                ((fun s => (InfGraph.run_trial g B initial_nodes s).2)^[i] s)).1.getD j
                  false) : Nat) : ℚ) := by
  intro k
  induction k with
  | zero =>
    intro c s hc
    refine ⟨hc, fun j _ => ?_⟩
    show c.getD j 0 = c.getD j 0 + ((0 : Nat) : ℚ)
    simp
  | succ k ih =>
    intro c s hc
    have hct := count_trial_spec (InfGraph.run_trial g B initial_nodes s).1 c g.n
    obtain ⟨r1, r2⟩ := ih (InfGraph.count_trial g.n (InfGraph.run_trial g B initial_nodes s).1 c)
      (InfGraph.run_trial g B initial_nodes s).2 (hct.1.trans hc)
    refine ⟨r1, fun j hj => ?_⟩
    have r3 := r2 j hj
    rw [InfGraph.trials_loop]
    rw [r3, hct.2 j, List.range_succ_eq_map, List.countP_cons, List.countP_map]
    have hfun : ((fun i =>
        (InfGraph.run_trial g B initial_nodes
          ((fun s => (InfGraph.run_trial g B initial_nodes s).2)^[i] s)).1.getD j false)
          ∘ Nat.succ)
        = (fun i =>
        (InfGraph.run_trial g B initial_nodes
          ((fun s => (InfGraph.run_trial g B initial_nodes s).2)^[i]
            (InfGraph.run_trial g B initial_nodes s).2)).1.getD j false) := rfl
    rw [hfun]
    by_cases ha : (InfGraph.run_trial g B initial_nodes s).1.getD j false = true
    · rw [if_pos ⟨hj, by omega, ha⟩, if_pos (by simpa using ha)]
      push_cast
      ring
    · rw [if_neg (fun h => ha h.2.2), if_neg (by simpa using ha)]
      push_cast
      ring

/-- The value that `calculate_final_probabilities` returns for a node of the graph. -/
theorem calculate_value (g : InfGraph) (initial_nodes blocking_nodes : List Int) (T : Int) :
    (InfGraph.divide_counts g.n T
      (InfGraph.trials_loop g (InfGraph.flag_nodes g.n blocking_nodes) initial_nodes T.toNat
        (List.replicate g.n 0, g.sfmt)).1).length = g.n ∧
    ∀ j, j < g.n →
      (InfGraph.divide_counts g.n T
        (InfGraph.trials_loop g (InfGraph.flag_nodes g.n blocking_nodes) initial_nodes T.toNat
          (List.replicate g.n 0, g.sfmt)).1).getD j 0
        = (InfGraph.activation_count g initial_nodes blocking_nodes T.toNat j : ℚ) / (T : ℚ) := by
  obtain ⟨t1, t2⟩ := trials_loop_spec g (InfGraph.flag_nodes g.n blocking_nodes) initial_nodes
    T.toNat (List.replicate g.n 0) g.sfmt (List.length_replicate _ _)
  obtain ⟨d1, d2⟩ := divide_counts_spec T
    (InfGraph.trials_loop g (InfGraph.flag_nodes g.n blocking_nodes) initial_nodes T.toNat
      (List.replicate g.n 0, g.sfmt)).1 g.n
  refine ⟨d1.trans t1, fun j hj => ?_⟩
  rw [d2 j, if_pos ⟨hj, by rw [t1]; exact hj⟩, t2 j hj, getD_replicate_rat _ _ _ hj, zero_add]
  rfl

/-- No blocked node is counted and every seed inside the graph that is not blocked is
counted in every cascade. -/
theorem activation_count_spec (g : InfGraph) (hG : GraphOK g.toGraph)
    (initial_nodes blocking_nodes : List Int) (T j : Nat) (hj : j < g.n) :
    InfGraph.activation_count g initial_nodes blocking_nodes T j ≤ T ∧
    ((j : Int) ∈ blocking_nodes →
      InfGraph.activation_count g initial_nodes blocking_nodes T j = 0) ∧
    ((j : Int) ∈ initial_nodes → (j : Int) ∉ blocking_nodes →
      InfGraph.activation_count g initial_nodes blocking_nodes T j = T) := by
  have hok : ∀ i, TrialOK g.n (InfGraph.flag_nodes g.n blocking_nodes) initial_nodes
      (InfGraph.activated_in_trial g initial_nodes blocking_nodes i) :=
    fun i => (run_trial_ok g hG _ initial_nodes _).1
  unfold InfGraph.activation_count
  refine ⟨?_, ?_, ?_⟩
  · have h := List.countP_le_length
      (fun i => (InfGraph.activated_in_trial g initial_nodes blocking_nodes i).getD j false)
      (l := List.range T)
    rw [List.length_range] at h
    exact h
  · intro hb
    rw [List.countP_eq_zero]
    intro i _
    rw [(hok i).blocked j ((flag_nodes_spec g.n blocking_nodes j hj).2 hb)]
    decide
  · intro hs hb
    have h : List.countP
        (fun i => (InfGraph.activated_in_trial g initial_nodes blocking_nodes i).getD j false)
        (List.range T) = (List.range T).length := by
      rw [List.countP_eq_length]
      intro i _
      apply (hok i).seeds j hj hs
      cases hf : (InfGraph.flag_nodes g.n blocking_nodes).getD j false with
      | false => rfl
      | true => exact absurd ((flag_nodes_spec g.n blocking_nodes j hj).1 hf) hb
    rw [h, List.length_range]

end ForwardLemmas
/-! ## Contract of the indexed heap (claims C1, C2, C3) -/

section HeapClaims

variable {V : Type} [LinearOrder V]

theorem Reachable.wellFormed {n : Nat} {h : iHeap V} (hR : Reachable n h) :
    WellFormed n h := by
  induction hR with
  | init h0 => exact wellFormed_init h0 n
  | insert key value _ hk ih => exact (insert_spec ih hk value).1
  | @pop h h' k _ hp ih =>
    by_cases hpos : 0 < h.m_data.m_num
    · obtain ⟨h2, e, hW2, _⟩ := pop_spec ih hpos
      rw [e] at hp
      cases hp
      exact hW2
    · simp [iHeap.pop, hpos] at hp

/-- C1. In every heap state reachable from `initialize(n)` by `insert` and `pop` with
keys in `[0, n)`, a non-empty heap passes the assertion of `pop`; the key `k` that `pop`
returns is stored and its value is less than or equal to the value of every stored
key; afterwards `k` is absent, every other stored key is still present with its value
unchanged, and the number of stored entries has gone down by exactly one. -/
theorem iHeap_pop_returns_min (n : Nat) (h : iHeap V) (hR : Reachable n h)
    (hne : h.empty = false) :
    ∃ k h', h.pop = some (k, h') ∧ k < n ∧ h.contains k ∧
      (∀ j, j < n → h.contains j → h.value_of k ≤ h.value_of j) ∧
      ¬ h'.contains k ∧
      (∀ j, j < n → j ≠ k → h.contains j →
        h'.contains j ∧ h'.value_of j = h.value_of j) ∧
      h'.m_data.m_num + 1 = h.m_data.m_num := by
  have hpos : 0 < h.m_data.m_num := by
    simp [iHeap.empty] at hne
    omega
  obtain ⟨k, h', e, _, hk, hc, hmin, hnc, hframe, hnum⟩ := hR.wellFormed.pop_abs hpos
  exact ⟨k, h', e, hk, hc, hmin, hnc,
    fun j hj hjk hcj => ⟨(hframe j hj hjk).1.2 hcj, (hframe j hj hjk).2 hcj⟩, hnum⟩

/-- Worked instance: the heap over the key space `[0, 3)` that holds key 1 with value 5
and key 0 with value 2. -/
theorem iHeap_pop_returns_min_witness :
    ∃ k h', (((blankHeap.init 3).insert 1 5).insert 0 2).pop = some (k, h') ∧ k < 3 ∧
      (((blankHeap.init 3).insert 1 5).insert 0 2).contains k ∧
      (∀ j, j < 3 → (((blankHeap.init 3).insert 1 5).insert 0 2).contains j →
        (((blankHeap.init 3).insert 1 5).insert 0 2).value_of k
          ≤ (((blankHeap.init 3).insert 1 5).insert 0 2).value_of j) ∧
      ¬ h'.contains k ∧
      (∀ j, j < 3 → j ≠ k → (((blankHeap.init 3).insert 1 5).insert 0 2).contains j →
        h'.contains j ∧
          h'.value_of j = (((blankHeap.init 3).insert 1 5).insert 0 2).value_of j) ∧
      h'.m_data.m_num + 1 = (((blankHeap.init 3).insert 1 5).insert 0 2).m_data.m_num :=
  iHeap_pop_returns_min 3 _
    (Reachable.insert 0 2 (Reachable.insert 1 5 (Reachable.init blankHeap) (by decide))
      (by decide))
    (by decide)

/-- C2. In every reachable heap state, for every key `k` in `[0, n)` and every value
`v`: after `insert(k, v)` the key `k` is present with value `v`, every other key keeps
its presence and (when present) its value, and the number of stored entries grows by
one when `k` was absent and is unchanged when `k` was present. -/
theorem iHeap_insert_frame (n : Nat) (h : iHeap V) (hR : Reachable n h) (k : Nat)
    (hk : k < n) (v : V) :
    (h.insert k v).contains k ∧ (h.insert k v).value_of k = v ∧
      (∀ j, j < n → j ≠ k →
        ((h.insert k v).contains j ↔ h.contains j) ∧
        (h.contains j → (h.insert k v).value_of j = h.value_of j)) ∧
      (¬ h.contains k → (h.insert k v).m_data.m_num = h.m_data.m_num + 1) ∧
      (h.contains k → (h.insert k v).m_data.m_num = h.m_data.m_num) := by
  obtain ⟨_, hc, hv, hframe, hgrow, hsame⟩ := hR.wellFormed.insert_abs hk v
  exact ⟨hc, hv, hframe, hgrow, hsame⟩

/-- Worked instance: updating key 1 of the heap that holds key 1 with value 5. -/
theorem iHeap_insert_frame_witness :
    (((blankHeap.init 3).insert 1 5).insert 1 4).contains 1 ∧
      (((blankHeap.init 3).insert 1 5).insert 1 4).value_of 1 = 4 ∧
      (∀ j, j < 3 → j ≠ 1 →
        ((((blankHeap.init 3).insert 1 5).insert 1 4).contains j ↔
          ((blankHeap.init 3).insert 1 5).contains j) ∧
        (((blankHeap.init 3).insert 1 5).contains j →
          (((blankHeap.init 3).insert 1 5).insert 1 4).value_of j
            = ((blankHeap.init 3).insert 1 5).value_of j)) ∧
      (¬ ((blankHeap.init 3).insert 1 5).contains 1 →
        (((blankHeap.init 3).insert 1 5).insert 1 4).m_data.m_num
          = ((blankHeap.init 3).insert 1 5).m_data.m_num + 1) ∧
      (((blankHeap.init 3).insert 1 5).contains 1 →
        (((blankHeap.init 3).insert 1 5).insert 1 4).m_data.m_num
          = ((blankHeap.init 3).insert 1 5).m_data.m_num) :=
  iHeap_insert_frame 3 _ (Reachable.insert 1 5 (Reachable.init blankHeap) (by decide)) 1
    (by decide) 4

/-- C3. Well-formedness is an invariant of every heap operation: in every state
reachable from `initialize(n)` by `insert` and `pop` (keys in `[0, n)`), an entry with
key `k` stored at position `p < m_num` has `k < n` and `pos[k] = p`, a key of `[0, n)`
that is not stored has `pos[k]` equal to the sentinel, no key is stored twice, and a
non-root entry at position `p` has a value not less than the one at `(p - 1) / 2`. -/
theorem iHeap_wellFormed_invariant (n : Nat) (h : iHeap V) (hR : Reachable n h) :
    (∀ p, p < h.m_data.m_num →
      (h.m_data.m_data p).key < n ∧ h.pos.get (h.m_data.m_data p).key = (p : Int)) ∧
    (∀ k, k < n → (∀ p, p < h.m_data.m_num → (h.m_data.m_data p).key ≠ k) →
      h.pos.get k = iMap.SENTINEL) ∧
    (∀ p q, p < h.m_data.m_num → q < h.m_data.m_num →
      (h.m_data.m_data p).key = (h.m_data.m_data q).key → p = q) ∧
    (∀ p, 0 < p → p < h.m_data.m_num →
      (h.m_data.m_data ((p - 1) / 2)).value ≤ (h.m_data.m_data p).value) := by
  have hW := hR.wellFormed
  refine ⟨fun p hp => ⟨hW.indexed.key_lt p hp, hW.indexed.pos_key p hp⟩, ?_,
    fun p q hp hq hk => hW.indexed.inj hp hq hk, hW.ordered⟩
  intro k hk hno
  rcases hW.indexed.absent_or k hk with h1 | ⟨i, hi, _, h2⟩
  · exact h1
  · exact absurd h2 (hno i hi)

/-- Worked instance: the state reached by one insert. -/
theorem iHeap_wellFormed_invariant_witness :
    (∀ p, p < ((blankHeap.init 3).insert 1 5).m_data.m_num →
      (((blankHeap.init 3).insert 1 5).m_data.m_data p).key < 3 ∧
      ((blankHeap.init 3).insert 1 5).pos.get
        (((blankHeap.init 3).insert 1 5).m_data.m_data p).key = (p : Int)) ∧
    (∀ k, k < 3 → (∀ p, p < ((blankHeap.init 3).insert 1 5).m_data.m_num →
        (((blankHeap.init 3).insert 1 5).m_data.m_data p).key ≠ k) →
      ((blankHeap.init 3).insert 1 5).pos.get k = iMap.SENTINEL) ∧
    (∀ p q, p < ((blankHeap.init 3).insert 1 5).m_data.m_num →
      q < ((blankHeap.init 3).insert 1 5).m_data.m_num →
      (((blankHeap.init 3).insert 1 5).m_data.m_data p).key
        = (((blankHeap.init 3).insert 1 5).m_data.m_data q).key → p = q) ∧
    (∀ p, 0 < p → p < ((blankHeap.init 3).insert 1 5).m_data.m_num →
      (((blankHeap.init 3).insert 1 5).m_data.m_data ((p - 1) / 2)).value
        ≤ (((blankHeap.init 3).insert 1 5).m_data.m_data p).value) :=
  iHeap_wellFormed_invariant 3 _
    (Reachable.insert 1 5 (Reachable.init blankHeap) (by decide))

end HeapClaims

/-! ## RR store (claim C4) -/

section RRClaims

theorem demoInfGraph_ok : GraphOK demoInfGraph.toGraph := by
  refine ⟨by decide, rfl, ?_, rfl, ?_⟩
  · intro u v h
    match u with
    | 0 => simp [demoInfGraph] at h; subst h; decide
    | 1 => simp [demoInfGraph] at h
    | u + 2 => simp [demoInfGraph] at h
  · intro u v h
    match u with
    | 0 => simp [demoInfGraph] at h
    | 1 => simp [demoInfGraph] at h; subst h; decide
    | u + 2 => simp [demoInfGraph] at h

/-- C4. RR bijection: in every state reached from `init_hyper_graph` by any number of
`build_hyper_graph_r` and `build_hyper_graph_for_minimization` calls (several builds
without an intervening init included), for every RR index `i` and node `v`, `i`
occurs in `hyperG[v]` exactly as many times as `v` occurs in `hyperGT[i]`; in
particular `i ∈ hyperG[v]` if and only if `v ∈ hyperGT[i]`. -/
theorem rr_store_bijection (g : InfGraph) (hR : RRReached g) (i v : Nat) :
    (g.hyperG.getD v []).count i = (g.hyperGT.getD i []).count v ∧
      (i ∈ g.hyperG.getD v [] ↔ v ∈ g.hyperGT.getD i []) := by
  have hb := hR.inv.bij i v
  refine ⟨hb, ?_⟩
  rw [← List.count_pos_iff, ← List.count_pos_iff, hb]

/-- Worked instance: two builds of two RR sets each, without an init in between, on
the two-node snapshot; RR index 0 and node 1. -/
theorem rr_store_bijection_witness :
    (((List.range 2).foldl InfGraph.build_r_step
        ((List.range 2).foldl InfGraph.build_r_step demoInfGraph.init_hyper_graph)).hyperG.getD
          1 []).count 0
      = (((List.range 2).foldl InfGraph.build_r_step
        ((List.range 2).foldl InfGraph.build_r_step demoInfGraph.init_hyper_graph)).hyperGT.getD
          0 []).count 1 ∧
    (0 ∈ ((List.range 2).foldl InfGraph.build_r_step
        ((List.range 2).foldl InfGraph.build_r_step demoInfGraph.init_hyper_graph)).hyperG.getD
          1 [] ↔
      1 ∈ ((List.range 2).foldl InfGraph.build_r_step
        ((List.range 2).foldl InfGraph.build_r_step demoInfGraph.init_hyper_graph)).hyperGT.getD
          0 []) :=
  rr_store_bijection _
    (RRReached.build_r 2
      (RRReached.build_r 2 (RRReached.init demoInfGraph demoInfGraph_ok) rfl) rfl) 0 1

end RRClaims

/-! ## Greedy maximum coverage (claims C5, C6) -/

section GreedyClaims

theorem demoStore_nodup : ∀ i, (demoStore.hyperGT.getD i []).Nodup := by
  intro i
  match i with
  | 0 => decide
  | 1 => decide
  | 2 => decide
  | 3 => decide
  | i + 4 => simp [demoStore]

/-- C5. The `(1 - 1/e)` guarantee of `build_max_coverage_set`: for every well-formed RR
store (the two sides agree, no RR set contains a node twice), every `k ≥ 0` and an
empty exclusion list, the number of distinct RR sets containing at least one node of
`result_node_set` is at least `(1 - 1/e)` times the number of RR sets containing at
least one node of `S`, for every node set `S` with `|S| ≤ k`; hence at least
`(1 - 1/e)` times the maximum of that number over all such `S`. -/
theorem max_coverage_approximation (g : InfGraph) (hS : StoreOK g.n g.hyperG g.hyperGT)
    (k : Int) (hk : 0 ≤ k) (S : Finset Nat) (hcard : (S.card : Int) ≤ k) :
    (1 - (Real.exp 1)⁻¹) * ((coveredBy g.hyperGT S).card : ℝ)
      ≤ ((coveredBy g.hyperGT
          (g.build_max_coverage_set k []).result_node_set.toFinset).card : ℝ) := by
  by_cases hK : k.toNat = 0
  · have hS0 : S.card = 0 := by omega
    rw [Finset.card_eq_zero] at hS0
    rw [hS0, coveredBy_empty]
    simp
  · have hK1 : 1 ≤ k.toNat := Nat.one_le_iff_ne_zero.mpr hK
    have hSK : S.card ≤ k.toNat := by omega
    have h := greedy_loop_approx hS (flag_nodes_nil g.n) S k.toNat hK1 hSK k.toNat
      (g.greedy_start []) (greedy_start_inv g [])
    have hstart : (g.greedy_start []).result_node_set.toFinset = ∅ := rfl
    rw [hstart, coveredBy_empty, Finset.card_empty, Nat.cast_zero, sub_zero,
      max_eq_left (Nat.cast_nonneg _)] at h
    have hpow := one_sub_inv_pow_le k.toNat hK1
    have hnn : (0 : ℝ) ≤ ((coveredBy g.hyperGT S).card : ℝ) := Nat.cast_nonneg _
    have h2 : (1 - 1 / (k.toNat : ℝ)) ^ k.toNat * ((coveredBy g.hyperGT S).card : ℝ)
        ≤ Real.exp (-1) * ((coveredBy g.hyperGT S).card : ℝ) :=
      mul_le_mul_of_nonneg_right hpow hnn
    rw [← Real.exp_neg]
    show _ ≤ ((coveredBy g.hyperGT (InfGraph.greedy_loop g.hyperG g.hyperGT
      (InfGraph.flag_nodes g.n []) k.toNat (g.greedy_start [])).result_node_set.toFinset).card : ℝ)
    linarith

/-- Worked instance: budget 2 on the four-set store, against the node set `{0, 1}`. -/
theorem max_coverage_approximation_witness :
    (1 - (Real.exp 1)⁻¹) * ((coveredBy demoStore.hyperGT {0, 1}).card : ℝ)
      ≤ ((coveredBy demoStore.hyperGT
          (demoStore.build_max_coverage_set 2 []).result_node_set.toFinset).card : ℝ) :=
  max_coverage_approximation demoStore
    ⟨rfl, RRBij.of_check (by decide), demoStore_nodup⟩ 2 (by decide) {0, 1} (by decide)

/-- C6. Size and membership of the greedy result: for every RR store whose two sides
agree (with `hyperG` holding one row per node), every integer `k` and every excluded
list `X`, `build_max_coverage_set(k, X)` leaves in `result_node_set` exactly
`min(max(k,0), c)` nodes, where `c` is the number of nodes not in `X` that belong to at
least one RR set; the selected nodes are pairwise distinct, none is in `X`, and each
belongs to at least one RR set. -/
theorem max_coverage_result_size (g : InfGraph) (hlen : g.hyperG.length = g.n)
    (hbij : RRBij g.hyperG g.hyperGT) (k : Int) (X : List Int) :
    ((g.build_max_coverage_set k X).result_node_set.length : Int)
        = min (max k 0) ((coverable g X).length : Int) ∧
      (g.build_max_coverage_set k X).result_node_set.Nodup ∧
      ∀ u, u ∈ (g.build_max_coverage_set k X).result_node_set →
        u < g.n ∧ (u : Int) ∉ X ∧ ∃ rr, rr ∈ g.hyperGT ∧ u ∈ rr := by
  have h0 := greedy_start_inv g X
  obtain ⟨hI, hlenres⟩ := greedy_loop_spec hlen hbij k.toNat _ h0
  have hc := h0.count
  rw [candidates_eq_coverable g hbij X] at hc
  refine ⟨?_, hI.nodup, ?_⟩
  · show ((InfGraph.greedy_loop _ _ _ _ _).result_node_set.length : Int) = _
    rw [hlenres]
    have h1 : (g.greedy_start X).result_node_set.length = 0 := rfl
    rw [h1] at hc ⊢
    simp only [Nat.add_zero] at hc
    rw [hc]
    omega
  · intro u hu
    obtain ⟨h1, h2⟩ := hI.res_cand u hu
    rw [candb_eq_coverable g hbij X u h1] at h2
    have h3 : (u : Int) ∉ X ∧ ∃ rr, rr ∈ g.hyperGT ∧ u ∈ rr := by
      simpa using h2
    exact ⟨h1, h3⟩

/-- Worked instance: budget 2 and node 1 excluded on the four-set store. -/
theorem max_coverage_result_size_witness :
    ((demoStore.build_max_coverage_set 2 [1]).result_node_set.length : Int)
        = min (max 2 0) ((coverable demoStore [1]).length : Int) ∧
      (demoStore.build_max_coverage_set 2 [1]).result_node_set.Nodup ∧
      ∀ u, u ∈ (demoStore.build_max_coverage_set 2 [1]).result_node_set →
        u < demoStore.n ∧ (u : Int) ∉ [1] ∧ ∃ rr, rr ∈ demoStore.hyperGT ∧ u ∈ rr :=
  max_coverage_result_size demoStore rfl (RRBij.of_check (by decide)) 2 [1]

end GreedyClaims

/-! ## Community search (claims C7 to C10) -/

section CommunityClaims

open CommunitySearcher

/-- C7 (amended). Soundness of the (k,l)-core with multiplicity: for every snapshot
whose two adjacency sides agree (as the loader builds them, duplicate edges kept),
every iteration order of the hash sets, every `final_states`, query list and `k`, `l`,
every node `u` of the community returned by `find_most_influenced_community_local` has
at least `k` entries of its in-row `gT[u]` and at least `l` entries of its out-row
`g[u]` inside the returned node set, a repeated edge being counted as often as it is
stored; where the row has no repeated entry these are distinct neighbours. -/
theorem kl_core_soundness (enum : List Nat → List Nat) (henum : ∀ l, (enum l).Perm l)
    (k_core l_core : Int) (final_states : List NodeState) (g : InfGraph)
    (hg : GraphCross g) (query_nodes : List Nat) :
    ∀ u, u ∈ (find_most_influenced_community_local enum k_core l_core final_states g
        query_nodes).node_ids →
      k_core ≤ (count_in (find_most_influenced_community_local enum k_core l_core
        final_states g query_nodes).node_ids (g.gT.getD u []) : Int) ∧
      l_core ≤ (count_in (find_most_influenced_community_local enum k_core l_core
        final_states g query_nodes).node_ids (g.g.getD u []) : Int) ∧
      ((g.gT.getD u []).Nodup →
        k_core ≤ (distinct_in (find_most_influenced_community_local enum k_core l_core
          final_states g query_nodes).node_ids (g.gT.getD u []) : Int)) ∧
      ((g.g.getD u []).Nodup →
        l_core ≤ (distinct_in (find_most_influenced_community_local enum k_core l_core
          final_states g query_nodes).node_ids (g.g.getD u []) : Int)) := by
  intro u hu
  rcases kl_result_cases enum k_core l_core final_states g query_nodes with h | h
  · rw [h] at hu; exact absurd hu (List.not_mem_nil u)
  · obtain ⟨prep, sq, hp, hs, hr⟩ := h
    rw [hr] at hu ⊢
    have hsq := (first_surviving_spec hs).2
    have hD := bfs_from_spec (fun u => g.g.getD u [] ++ g.gT.getD u [])
      (fun v =>
        (kl_core_candidates enum k_core l_core g prep.search_space).candidates.contains v)
      (kl_core_candidates enum k_core l_core g prep.search_space).candidates
      (fun x hx => by simpa using hx) sq hsq
    have hmem : ∀ x, x ∈ enum (bfs_loop (fun u => g.g.getD u [] ++ g.gT.getD u [])
        (fun v =>
          (kl_core_candidates enum k_core l_core g prep.search_space).candidates.contains v)
        (kl_core_candidates enum k_core l_core g prep.search_space).candidates.length
        ([sq], [sq])).2 ↔ x ∈ (bfs_loop (fun u => g.g.getD u [] ++ g.gT.getD u [])
        (fun v =>
          (kl_core_candidates enum k_core l_core g prep.search_space).candidates.contains v)
        (kl_core_candidates enum k_core l_core g prep.search_space).candidates.length
        ([sq], [sq])).2 := fun x => (henum _).mem_iff
    have hu2 := (hmem u).1 hu
    have hsound := kl_core_candidates_sound enum henum k_core l_core g hg prep.search_space
      (prepare_search_space_spec hp).1 u (hD.sub hsq u hu2)
    have e1 := count_in_component hD hsq hu2 (g.gT.getD u [])
      (fun v hv => List.mem_append_right _ hv)
    have e2 := count_in_component hD hsq hu2 (g.g.getD u [])
      (fun v hv => List.mem_append_left _ hv)
    rw [← e1, ← e2] at hsound
    rw [count_in_congr (fun v _ => hmem v), count_in_congr (fun v _ => hmem v)]
    refine ⟨hsound.1, hsound.2, ?_, ?_⟩
    · intro hn
      rw [distinct_in_of_nodup _ hn, count_in_congr (fun v _ => hmem v)]
      exact hsound.1
    · intro hn
      rw [distinct_in_of_nodup _ hn, count_in_congr (fun v _ => hmem v)]
      exact hsound.2

/-- Worked instance: the (1,1)-core of the directed two-cycle, queried at node 0, and
its node 0. -/
theorem kl_core_soundness_witness :
    0 ∈ (find_most_influenced_community_local id 1 1 (allActive 2) cycleGraph
        [0]).node_ids ∧
      (1 : Int) ≤ (count_in (find_most_influenced_community_local id 1 1
        (allActive 2) cycleGraph [0]).node_ids (cycleGraph.gT.getD 0 []) : Int) ∧
      (1 : Int) ≤ (count_in (find_most_influenced_community_local id 1 1
        (allActive 2) cycleGraph [0]).node_ids (cycleGraph.g.getD 0 []) : Int) ∧
      (1 : Int) ≤ (distinct_in (find_most_influenced_community_local id 1 1
        (allActive 2) cycleGraph [0]).node_ids (cycleGraph.gT.getD 0 []) : Int) ∧
      (1 : Int) ≤ (distinct_in (find_most_influenced_community_local id 1 1
        (allActive 2) cycleGraph [0]).node_ids (cycleGraph.g.getD 0 []) : Int) :=
  ⟨by decide,
    (kl_core_soundness id (fun l => List.Perm.refl l) 1 1 (allActive 2) cycleGraph
      (fun u v => @RRBij.of_check cycleGraph.g cycleGraph.gT (by decide) v u) [0] 0
      (by decide)).1,
    (kl_core_soundness id (fun l => List.Perm.refl l) 1 1 (allActive 2) cycleGraph
      (fun u v => @RRBij.of_check cycleGraph.g cycleGraph.gT (by decide) v u) [0] 0
      (by decide)).2.1,
    (kl_core_soundness id (fun l => List.Perm.refl l) 1 1 (allActive 2) cycleGraph
      (fun u v => @RRBij.of_check cycleGraph.g cycleGraph.gT (by decide) v u) [0] 0
      (by decide)).2.2.1 (by decide),
    (kl_core_soundness id (fun l => List.Perm.refl l) 1 1 (allActive 2) cycleGraph
      (fun u v => @RRBij.of_check cycleGraph.g cycleGraph.gT (by decide) v u) [0] 0
      (by decide)).2.2.2 (by decide)⟩

/-- The doubled two-cycle with `k = l = 2`: the result is `[0, 1]`, and its node 0 has
the single distinct in-neighbour 1, fewer than `k`. -/
theorem kl_core_distinct_counterexample :
    GraphCross dupGraph ∧
      (find_most_influenced_community_local id 2 2 (allActive 2) dupGraph [0]).node_ids
        = [0, 1] ∧
      ¬ ((2 : Int) ≤ (distinct_in (find_most_influenced_community_local id 2 2
        (allActive 2) dupGraph [0]).node_ids (dupGraph.gT.getD 0 []) : Int)) :=
  ⟨fun u v => @RRBij.of_check dupGraph.g dupGraph.gT (by decide) v u,
    by decide, by decide⟩

/-- C8. Soundness of the k-core: for every snapshot, every iteration order of the hash
sets, every `final_states`, query list and `k`, every node `u` of the community returned
by `find_k_core_community` is joined by an edge of the graph, in either direction, to at
least `k` nodes of the returned node set (a node with a self-loop is joined to
itself). -/
theorem k_core_soundness (enum : List Nat → List Nat) (henum : ∀ l, (enum l).Perm l)
    (k_core : Int) (final_states : List NodeState) (g : InfGraph)
    (query_nodes : List Nat) :
    ∀ u, u ∈ (find_k_core_community enum k_core final_states g query_nodes).node_ids →
      k_core ≤ (undirected_degree_in g
        (find_k_core_community enum k_core final_states g query_nodes).node_ids u : Int) := by
  intro u hu
  rcases k_result_cases enum k_core final_states g query_nodes with h | h
  · rw [h] at hu; exact absurd hu (List.not_mem_nil u)
  · obtain ⟨prep, sq, hp, hs, hr⟩ := h
    rw [hr] at hu ⊢
    have hsq := (first_surviving_spec hs).2
    have hA := build_undirected_adj_ok enum henum g prep.search_space
    have hD := extract_connected_component_spec
      (build_undirected_adj enum g prep.search_space) _ sq hsq
    have hmem : ∀ x, x ∈ enum (extract_connected_component sq
        (build_undirected_adj enum g prep.search_space)
        (k_core_candidates enum k_core (build_undirected_adj enum g prep.search_space)
          prep.search_space).candidates) ↔ x ∈ extract_connected_component sq
        (build_undirected_adj enum g prep.search_space)
        (k_core_candidates enum k_core (build_undirected_adj enum g prep.search_space)
          prep.search_space).candidates := fun x => (henum _).mem_iff
    have hu2 := (hmem u).1 hu
    have hsound := k_core_candidates_sound enum henum k_core hA
      (prepare_search_space_spec hp).1 u (hD.sub hsq u hu2)
    have e1 := count_in_component hD hsq hu2
      ((build_undirected_adj enum g prep.search_space).nbrs u)
      (fun v hv => by rw [hA.row_eq]; exact hv)
    rw [← e1, ← count_in_congr (fun v _ => hmem v)] at hsound
    have hle := count_in_le_undirected hA (enum (extract_connected_component sq
        (build_undirected_adj enum g prep.search_space)
        (k_core_candidates enum k_core (build_undirected_adj enum g prep.search_space)
          prep.search_space).candidates)) u
    omega

/-- Worked instance: the 2-core of the triangle, queried at node 0, and its node 0. -/
theorem k_core_soundness_witness :
    0 ∈ (find_k_core_community id 2 (allActive 3) triGraph [0]).node_ids ∧
      (2 : Int) ≤ (undirected_degree_in triGraph
        (find_k_core_community id 2 (allActive 3) triGraph [0]).node_ids 0 : Int) :=
  ⟨by decide,
    k_core_soundness id (fun l => List.Perm.refl l) 2 (allActive 3) triGraph [0] 0
      (by decide)⟩

/-- C9 (the code at the failing input). On the single triangle `0 1`, `0 2`, `1 2` with
`k_truss = 4` the enumeration finds the triangle once from each of its three corners, so
every edge gets the support 3; the threshold is 2, nothing is peeled and the community
`[0, 1, 2]` is returned, although the surviving edge `(0, 1)` lies in one triangle
only. -/
theorem k_truss_triangle_counted_thrice :
    (truss_supports (build_undirected_adj id triGraph [0, 1, 2])).edge_supports (0, 1) = 3 ∧
      (k_truss_edges (4 - 2) (build_undirected_adj id triGraph [0, 1, 2])).current_edges
        = [(0, 1), (0, 2), (1, 2)] ∧
      (find_k_truss_community id 4 (allActive 3) triGraph [0]).node_ids = [0, 1, 2] ∧
      triangle_count
        (k_truss_edges (4 - 2) (build_undirected_adj id triGraph [0, 1, 2])).current_edges
        (0, 1) = 1 :=
  ⟨by decide, by decide, by decide, by decide⟩

/-- C10. Connectivity of the community results: for every snapshot, every iteration
order of the hash sets, every `final_states`, query list and thresholds, the node list
returned by each of `find_most_influenced_community_local`, `find_k_core_community` and
`find_k_truss_community` is empty, or it holds one of the query nodes and any two of its
nodes are joined by a path of graph edges, taken in either direction, that stays inside
the list. -/
theorem community_connectivity (enum : List Nat → List Nat)
    (henum : ∀ l, (enum l).Perm l) (k_core l_core k k_truss : Int)
    (final_states : List NodeState) (g : InfGraph) (query_nodes : List Nat) :
    CommunityConnected g query_nodes
        (find_most_influenced_community_local enum k_core l_core final_states g
          query_nodes).node_ids ∧
      CommunityConnected g query_nodes
        (find_k_core_community enum k final_states g query_nodes).node_ids ∧
      CommunityConnected g query_nodes
        (find_k_truss_community enum k_truss final_states g query_nodes).node_ids := by
  refine ⟨?_, ?_, ?_⟩
  · rcases kl_result_cases enum k_core l_core final_states g query_nodes with h | h
    · intro hne; exact absurd h hne
    · obtain ⟨prep, sq, hp, hs, hr⟩ := h
      rw [hr]
      obtain ⟨hsv, hsq⟩ := first_surviving_spec hs
      have hD := bfs_from_spec (fun u => g.g.getD u [] ++ g.gT.getD u [])
        (fun v =>
          (kl_core_candidates enum k_core l_core g prep.search_space).candidates.contains v)
        (kl_core_candidates enum k_core l_core g prep.search_space).candidates
        (fun x hx => by simpa using hx) sq hsq
      refine connected_of_bfs hD ?_ ((prepare_search_space_spec hp).2.1 sq hsv)
        (fun x => (henum _).mem_iff)
      intro x y hy
      rcases List.mem_append.mp hy with h1 | h1
      · exact Or.inl h1
      · exact Or.inr (Or.inl h1)
  · rcases k_result_cases enum k final_states g query_nodes with h | h
    · intro hne; exact absurd h hne
    · obtain ⟨prep, sq, hp, hs, hr⟩ := h
      rw [hr]
      obtain ⟨hsv, hsq⟩ := first_surviving_spec hs
      have hA := build_undirected_adj_ok enum henum g prep.search_space
      have hD := extract_connected_component_spec
        (build_undirected_adj enum g prep.search_space) _ sq hsq
      refine connected_of_bfs hD ?_ ((prepare_search_space_spec hp).2.1 sq hsv)
        (fun x => (henum _).mem_iff)
      intro x y hy
      exact (hA.sound x y (mem_row hy)).2.2
  · rcases truss_result_cases enum k_truss final_states g query_nodes with h | h
    · intro hne; exact absurd h hne
    · obtain ⟨prep, sq, hp, hs, hr⟩ := h
      rw [hr]
      obtain ⟨hsv, hsq⟩ := first_surviving_spec hs
      have hA := build_undirected_adj_ok enum henum g prep.search_space
      have hD := extract_connected_component_spec
        (truss_adj (k_truss_edges (k_truss - 2)
          (build_undirected_adj enum g prep.search_space)).current_edges) _ sq hsq
      refine connected_of_bfs hD ?_ ((prepare_search_space_spec hp).2.1 sq hsv)
        (fun x => (henum _).mem_iff)
      intro x y hy
      exact truss_adj_joined hA (k_truss - 2) x y hy

/-- Worked instance: the three searches on the triangle, queried at node 0, with the
thresholds `k = l = 0` for the (k,l)-core, 2 for the k-core and 3 for the k-truss; each
returns the three nodes. -/
theorem community_connectivity_witness :
    (find_most_influenced_community_local id 0 0 (allActive 3) triGraph [0]).node_ids
        = [0, 1, 2] ∧
      (find_k_core_community id 2 (allActive 3) triGraph [0]).node_ids = [0, 1, 2] ∧
      (find_k_truss_community id 3 (allActive 3) triGraph [0]).node_ids = [0, 1, 2] ∧
      CommunityConnected triGraph [0]
        (find_most_influenced_community_local id 0 0 (allActive 3) triGraph [0]).node_ids ∧
      CommunityConnected triGraph [0]
        (find_k_core_community id 2 (allActive 3) triGraph [0]).node_ids ∧
      CommunityConnected triGraph [0]
        (find_k_truss_community id 3 (allActive 3) triGraph [0]).node_ids :=
  ⟨by decide, by decide, by decide,
    community_connectivity id (fun l => List.Perm.refl l) 0 0 2 3 (allActive 3) triGraph [0]⟩

end CommunityClaims

/-! ## Maximality of the cores (claims C11, C12) -/

section CoreMaxClaims

open CommunitySearcher

/-- C11. Maximality of the (k,l)-core: for every snapshot whose two adjacency sides
agree and whose rows hold no repeated entry (no duplicate edges), every iteration order
of the hash sets and every `k, l ≥ 0`, on a search space delivered by
`prepare_search_space` the set `C` of the nodes that survive the peeling in
`find_most_influenced_community_local` lies in the search space, each of its nodes has
at least `k` in-neighbours and `l` out-neighbours in `C`, and `C` contains every subset
of the search space with that property; the returned node list holds exactly the nodes
joined to the first query node in `C` by a path of edges, taken in either direction,
inside `C`, and is empty when no query node is in `C`. -/
theorem kl_core_maximality (enum : List Nat → List Nat) (henum : ∀ l, (enum l).Perm l)
    (k_core l_core : Int) (hk : 0 ≤ k_core) (hl : 0 ≤ l_core)
    (final_states : List NodeState) (g : InfGraph) (hg : GraphCross g)
    (hrows : ∀ u, (g.g.getD u []).Nodup ∧ (g.gT.getD u []).Nodup)
    (query_nodes : List Nat) (prep : SearchPrep)
    (hp : prepare_search_space final_states g query_nodes = some prep) :
    (∀ u, u ∈ (kl_core_candidates enum k_core l_core g prep.search_space).candidates →
      u ∈ prep.search_space ∧
      k_core ≤ (distinct_in (kl_core_candidates enum k_core l_core g
        prep.search_space).candidates (g.gT.getD u []) : Int) ∧
      l_core ≤ (distinct_in (kl_core_candidates enum k_core l_core g
        prep.search_space).candidates (g.g.getD u []) : Int)) ∧
    (∀ D : List Nat,
      (∀ u, u ∈ D → u ∈ prep.search_space ∧
        k_core ≤ (distinct_in D (g.gT.getD u []) : Int) ∧
        l_core ≤ (distinct_in D (g.g.getD u []) : Int)) →
      ∀ u, u ∈ D →
        u ∈ (kl_core_candidates enum k_core l_core g prep.search_space).candidates) ∧
    (∀ sq, query_nodes.find? (fun q =>
        (kl_core_candidates enum k_core l_core g prep.search_space).candidates.contains q)
          = some sq →
      ∀ x, x ∈ (find_most_influenced_community_local enum k_core l_core final_states g
          query_nodes).node_ids ↔
        ConnectedIn g (kl_core_candidates enum k_core l_core g
          prep.search_space).candidates sq x) ∧
    (query_nodes.find? (fun q =>
        (kl_core_candidates enum k_core l_core g prep.search_space).candidates.contains q)
          = none →
      (find_most_influenced_community_local enum k_core l_core final_states g
        query_nodes).node_ids = []) := by
  obtain ⟨hnd, _, hssU⟩ := prepare_search_space_spec hp
  have hsub := kl_core_candidates_sub enum henum k_core l_core g hg prep.search_space hnd
  have hfirst := first_surviving_filter (final_states.map NodeState.id) query_nodes
    (kl_core_candidates enum k_core l_core g prep.search_space).candidates
    (fun x hx => hssU x (hsub x hx))
  rw [← (prepare_valid_eq hp).1] at hfirst
  have hres := kl_result_eq enum k_core l_core hk hl final_states g query_nodes prep hp
  refine ⟨?_, ?_, ?_, ?_⟩
  · intro u hu
    have h := kl_core_candidates_sound enum henum k_core l_core g hg prep.search_space
      hnd u hu
    rw [distinct_in_of_nodup _ (hrows u).2, distinct_in_of_nodup _ (hrows u).1]
    exact ⟨hsub u hu, h.1, h.2⟩
  · intro D hD
    apply kl_core_candidates_max enum henum k_core l_core g hg prep.search_space D hnd
    intro u hu
    have h := hD u hu
    rw [distinct_in_of_nodup _ (hrows u).2, distinct_in_of_nodup _ (hrows u).1] at h
    exact h
  · intro sq hsq x
    rw [hres, hfirst, hsq]
    dsimp only
    have hsqC : sq ∈ (kl_core_candidates enum k_core l_core g
        prep.search_space).candidates := by
      have := List.find?_some hsq
      simpa using this
    have hD := bfs_from_spec (fun u => g.g.getD u [] ++ g.gT.getD u [])
      (fun v =>
        (kl_core_candidates enum k_core l_core g prep.search_space).candidates.contains v)
      (kl_core_candidates enum k_core l_core g prep.search_space).candidates
      (fun x hx => by simpa using hx) sq hsqC
    rw [(henum _).mem_iff, mem_comp_iff hD hsqC, connectedIn_iff_reach hg]
  · intro hnone
    rw [hres, hfirst, hnone]

/-- Worked instance: the (1,1)-core of the directed two-cycle, queried at node 0, for
the search space `[0, 1]` that `prepare_search_space` delivers. -/
theorem kl_core_maximality_witness :
    (kl_core_candidates id 1 1 cycleGraph [0, 1]).candidates = [0, 1] ∧
    (∀ D : List Nat,
      (∀ u, u ∈ D → u ∈ [0, 1] ∧
        (1 : Int) ≤ (distinct_in D (cycleGraph.gT.getD u []) : Int) ∧
        (1 : Int) ≤ (distinct_in D (cycleGraph.g.getD u []) : Int)) →
      ∀ u, u ∈ D → u ∈ (kl_core_candidates id 1 1 cycleGraph [0, 1]).candidates) ∧
    (∀ x, x ∈ (find_most_influenced_community_local id 1 1 (allActive 2) cycleGraph
          [0]).node_ids ↔
        ConnectedIn cycleGraph (kl_core_candidates id 1 1 cycleGraph [0, 1]).candidates
          0 x) :=
  ⟨by decide,
    (kl_core_maximality id (fun l => List.Perm.refl l) 1 1 (by decide) (by decide)
      (allActive 2) cycleGraph
      (fun u v => @RRBij.of_check cycleGraph.g cycleGraph.gT (by decide) v u)
      (fun u => by
        match u with
        | 0 => exact ⟨by decide, by decide⟩
        | 1 => exact ⟨by decide, by decide⟩
        | u + 2 => exact ⟨by simp [cycleGraph], by simp [cycleGraph]⟩)
      [0]
      { search_space := [0, 1], valid_query_nodes := [0],
        node_probs := collect_probs (allActive 2) } rfl).2.1,
    (kl_core_maximality id (fun l => List.Perm.refl l) 1 1 (by decide) (by decide)
      (allActive 2) cycleGraph
      (fun u v => @RRBij.of_check cycleGraph.g cycleGraph.gT (by decide) v u)
      (fun u => by
        match u with
        | 0 => exact ⟨by decide, by decide⟩
        | 1 => exact ⟨by decide, by decide⟩
        | u + 2 => exact ⟨by simp [cycleGraph], by simp [cycleGraph]⟩)
      [0]
      { search_space := [0, 1], valid_query_nodes := [0],
        node_probs := collect_probs (allActive 2) } rfl).2.2.1 0 (by decide)⟩

/-- C12 (the code at the failing input). On the single edge `0 1` with `k_truss = 2` the
undirected view holds the edge, but the set `current_edges` is filled from the triangle
enumeration only: the edge lies in no triangle, never enters the set, and the community
is empty, although the threshold `k - 2 = 0` asks for no triangle at all. -/
theorem k_truss_misses_edges_without_triangle :
    (build_undirected_adj id demoInfGraph [0, 1]).nbrs 0 = [1] ∧
      (k_truss_edges (2 - 2) (build_undirected_adj id demoInfGraph [0, 1])).current_edges
        = [] ∧
      (find_k_truss_community id 2 (allActive 2) demoInfGraph [0]).node_ids = [] :=
  ⟨by decide, by decide, by decide⟩

end CoreMaxClaims

/-! ## The loader (claims C17 to C19) -/

section LoaderClaims

/-- C17. Cross-index invariant of a loaded graph: for every edge file that is not empty
`loadGraphFromEdgeList` succeeds, and in the graph it leaves `n` is above every node id
and one above the largest, `m` is the number of edge lines, for all `u`, `v` the number
of occurrences of `v` in `g[u]` equals the number of occurrences of `u` in `gT[v]` and
the number of lines `u v`, and `inDeg[v]` is the length of `gT[v]`. -/
theorem loadGraph_cross_index (edges : List (Nat × Nat)) (hne : edges ≠ []) :
    ∃ G, Graph.loadGraphFromEdgeList edges = some G ∧
      (∀ e, e ∈ edges → e.1 < G.n ∧ e.2 < G.n) ∧
      (∃ e, e ∈ edges ∧ (G.n = e.1 + 1 ∨ G.n = e.2 + 1)) ∧
      G.m = edges.length ∧
      (∀ u v, (G.g.getD u []).count v = (G.gT.getD v []).count u ∧
        (G.gT.getD v []).count u = edges.count (u, v)) ∧
      (∀ v, G.inDeg.getD v 0 = (G.gT.getD v []).length) := by
  obtain ⟨G, hG⟩ := loadGraph_some hne
  obtain ⟨h1, h2, h3, _, _, h6, h7, h8⟩ := loadGraph_spec hG
  exact ⟨G, hG, h1, h2, h3, fun u v => ⟨(h6 u v).trans (h7 u v).symm, h7 u v⟩, h8⟩

/-- Worked instance: the file with each of the two edges `0 1` and `1 0` given twice. -/
theorem loadGraph_cross_index_witness :
    dupEdges ≠ [] ∧
    ∃ G, Graph.loadGraphFromEdgeList dupEdges = some G ∧
      (∀ e, e ∈ dupEdges → e.1 < G.n ∧ e.2 < G.n) ∧
      (∃ e, e ∈ dupEdges ∧ (G.n = e.1 + 1 ∨ G.n = e.2 + 1)) ∧
      G.m = dupEdges.length ∧
      (∀ u v, (G.g.getD u []).count v = (G.gT.getD v []).count u ∧
        (G.gT.getD v []).count u = dupEdges.count (u, v)) ∧
      (∀ v, G.inDeg.getD v 0 = (G.gT.getD v []).length) :=
  ⟨by decide, loadGraph_cross_index dupEdges (by decide)⟩

/-- C18. WC and CO probabilities agree on both adjacency views: for every edge file that
is not empty and every outcome of the load-time draws the constructor succeeds, and for
every edge `(u, v)` of the file `inDeg[v]` is positive, the table `prob_fwd_wc` holds
`1 / inDeg[v]` at every position of `v` in `g[u]`, the table `prob_wc` holds
`1 / inDeg[v]` at every position of `u` in `gT[v]`, that value is positive, and
`prob_fwd_co` and `prob_co` hold `1 / 10` at these positions. -/
theorem wc_co_probabilities_agree (draws : Nat → Fin 3) (edges : List (Nat × Nat))
    (hne : edges ≠ []) :
    ∃ G, Graph.construct draws edges = some G ∧
      ∀ u v, (u, v) ∈ edges →
        0 < G.inDeg.getD v 0 ∧ (0 : ℚ) < 1 / (G.inDeg.getD v 0 : ℚ) ∧
        (∃ i, i < (G.g.getD u []).length ∧ (G.g.getD u []).getD i 0 = v) ∧
        (∃ j, j < (G.gT.getD v []).length ∧ (G.gT.getD v []).getD j 0 = u) ∧
        (∀ i, i < (G.g.getD u []).length → (G.g.getD u []).getD i 0 = v →
          probAt G.prob_fwd_wc u i = 1 / (G.inDeg.getD v 0 : ℚ) ∧
          probAt G.prob_fwd_co u i = 1 / 10) ∧
        (∀ j, j < (G.gT.getD v []).length → (G.gT.getD v []).getD j 0 = u →
          probAt G.prob_wc v j = 1 / (G.inDeg.getD v 0 : ℚ) ∧
          probAt G.prob_co v j = 1 / 10) := by
  obtain ⟨G0, hG0⟩ := loadGraph_some hne
  obtain ⟨h1, _, _, _, _, h6, h7, h8⟩ := loadGraph_spec hG0
  refine ⟨Graph.precompute_all_probabilities draws G0, ?_, ?_⟩
  · unfold Graph.construct
    rw [hG0]
    rfl
  · intro u v huv
    have hlt : u < G0.n ∧ v < G0.n := h1 (u, v) huv
    have hcnt : 0 < edges.count (u, v) := List.count_pos_iff.mpr huv
    have hvu : u ∈ G0.gT.getD v [] := by
      rw [← List.count_pos_iff, h7 u v]; exact hcnt
    have huv' : v ∈ G0.g.getD u [] := by
      rw [← List.count_pos_iff, h6 u v]; exact hcnt
    have hdeg : 0 < G0.inDeg.getD v 0 := by
      rw [h8 v]; exact List.length_pos_of_mem hvu
    have hwc : Graph.wc_prob G0.inDeg v = 1 / (G0.inDeg.getD v 0 : ℚ) := by
      unfold Graph.wc_prob
      rw [if_pos hdeg]
    have hposq : (0 : ℚ) < 1 / (G0.inDeg.getD v 0 : ℚ) := by
      apply div_pos one_pos
      exact_mod_cast hdeg
    have hidx : ∀ (l : List Nat) (x : Nat), x ∈ l → ∃ i, i < l.length ∧ l.getD i 0 = x := by
      intro l x hx
      obtain ⟨i, hi, he⟩ := List.getElem_of_mem hx
      refine ⟨i, hi, ?_⟩
      rw [List.getD_eq_getElem?_getD, List.getElem?_eq_getElem hi]
      exact he
    refine ⟨hdeg, hposq, hidx _ _ huv', hidx _ _ hvu, ?_, ?_⟩
    · intro i hi hgi
      have hi' : i < (G0.g.getD u []).length := hi
      have hgi' : (G0.g.getD u []).getD i 0 = v := hgi
      constructor
      · show ((List.map (fun u => (G0.g.getD u []).map (fun v => Graph.wc_prob G0.inDeg v))
          (List.range G0.n)).getD u []).getD i 0 = _
        rw [getD_map_range _ _ _ hlt.1, getD_map_rat _ _ _ hi', hgi', hwc]
        rfl
      · show ((List.map (fun u => List.replicate (G0.g.getD u []).length (1 / 10 : ℚ))
          (List.range G0.n)).getD u []).getD i 0 = _
        rw [getD_map_range _ _ _ hlt.1, getD_replicate_rat _ _ _ hi']
    · intro j hj0 _
      have hj : j < (G0.gT.getD v []).length := hj0
      constructor
      · show ((List.map (fun v =>
            List.replicate (G0.gT.getD v []).length (Graph.wc_prob G0.inDeg v))
          (List.range G0.n)).getD v []).getD j 0 = _
        rw [getD_map_range _ _ _ hlt.2, getD_replicate_rat _ _ _ hj, hwc]
        rfl
      · show ((List.map (fun v => List.replicate (G0.gT.getD v []).length (1 / 10 : ℚ))
          (List.range G0.n)).getD v []).getD j 0 = _
        rw [getD_map_range _ _ _ hlt.2, getD_replicate_rat _ _ _ hj]

/-- Worked instance: the file with each of the two edges `0 1` and `1 0` given twice. -/
theorem wc_co_probabilities_agree_witness :
    dupEdges ≠ [] ∧
    ∃ G, Graph.construct firstZeroDraws dupEdges = some G ∧
      ∀ u v, (u, v) ∈ dupEdges →
        0 < G.inDeg.getD v 0 ∧ (0 : ℚ) < 1 / (G.inDeg.getD v 0 : ℚ) ∧
        (∃ i, i < (G.g.getD u []).length ∧ (G.g.getD u []).getD i 0 = v) ∧
        (∃ j, j < (G.gT.getD v []).length ∧ (G.gT.getD v []).getD j 0 = u) ∧
        (∀ i, i < (G.g.getD u []).length → (G.g.getD u []).getD i 0 = v →
          probAt G.prob_fwd_wc u i = 1 / (G.inDeg.getD v 0 : ℚ) ∧
          probAt G.prob_fwd_co u i = 1 / 10) ∧
        (∀ j, j < (G.gT.getD v []).length → (G.gT.getD v []).getD j 0 = u →
          probAt G.prob_wc v j = 1 / (G.inDeg.getD v 0 : ℚ) ∧
          probAt G.prob_co v j = 1 / 10) :=
  ⟨by decide, wc_co_probabilities_agree firstZeroDraws dupEdges (by decide)⟩

/-- C19 (the code at the failing input). On the file with the single line `0 1`, when
the first load-time draw is 0 and the second is 1, the transposed table `prob_tr` holds
`0.1` for the edge and the forward table `prob_fwd_tr` holds `0.01`: the forward side is
filled from draws of its own. -/
theorem tr_probabilities_drawn_twice :
    (Graph.construct firstZeroDraws [(0, 1)]).map (fun G => probAt G.prob_tr 1 0)
        = some (1 / 10) ∧
      (Graph.construct firstZeroDraws [(0, 1)]).map (fun G => probAt G.prob_fwd_tr 0 0)
        = some (1 / 100) ∧
      (Graph.construct firstZeroDraws [(0, 1)]).map (fun G => (G.g, G.gT))
        = some ([[1], []], [[], [0]]) := by
  refine ⟨?_, ?_, ?_⟩
  · rfl
  · rfl
  · rfl

end LoaderClaims

/-! ## The shape of the RR sets (claims C15, C16) -/

section RRShapeClaims

theorem demoInfGraphOnes_ok : GraphOK demoInfGraphOnes.toGraph := by
  refine ⟨by decide, rfl, ?_, rfl, ?_⟩
  · intro u v h
    match u with
    | 0 => simp [demoInfGraphOnes, demoInfGraph] at h; subst h; decide
    | 1 => simp [demoInfGraphOnes, demoInfGraph] at h
    | u + 2 => simp [demoInfGraphOnes, demoInfGraph] at h
  · intro u v h
    match u with
    | 0 => simp [demoInfGraphOnes, demoInfGraph] at h
    | 1 => simp [demoInfGraphOnes, demoInfGraph] at h; subst h; decide
    | u + 2 => simp [demoInfGraphOnes, demoInfGraph] at h

/-- C15. Shape of a freshly built RR store: for every loaded graph with a bound
probability table, every PRNG stream, every model and every `R ≥ 0`,
`init_hyper_graph` followed by `build_hyper_graph_r(R)` succeeds and leaves exactly `R`
RR sets in `hyperGT`; the set number `i` is not empty, its first element is the root
drawn in pass `i`, all its elements are node ids below `n`, and no node occurs in it
twice. -/
theorem fresh_rr_store_shape (g : InfGraph) (hG : GraphOK g.toGraph)
    (hp : g.active_probT ≠ none) (R : Int) (hR : 0 ≤ R) :
    ∃ g', g.init_hyper_graph.build_hyper_graph_r R = some g' ∧
      g'.hyperGT.length = R.toNat ∧
      ∀ i, i < R.toNat →
        g'.hyperGT.getD i [] ≠ [] ∧
        (g'.hyperGT.getD i []).head?
          = some (root_of_pass InfGraph.build_r_step g.init_hyper_graph i) ∧
        (∀ x, x ∈ g'.hyperGT.getD i [] → x < g.n) ∧
        (g'.hyperGT.getD i []).Nodup := by
  have hpn : ¬ g.init_hyper_graph.active_probT.isNone = true := by
    intro h
    exact hp (Option.isNone_iff_eq_none.mp h)
  obtain ⟨_, _, h3, h4⟩ := build_r_rows (init_hyper_graph_inv g hG) rfl R.toNat
  refine ⟨state_before_pass InfGraph.build_r_step g.init_hyper_graph R.toNat, ?_, h3, ?_⟩
  · unfold InfGraph.build_hyper_graph_r
    rw [if_neg hpn, if_neg (by omega)]
    rfl
  · intro i hi
    have h := h4 i hi
    refine ⟨?_, h.head, h.lt, h.nodup⟩
    intro he
    have := h.head
    rw [he] at this
    exact Option.noConfusion this

/-- Worked instance: two RR sets on the two-node snapshot with the PRNG outputs all
1. -/
theorem fresh_rr_store_shape_witness :
    GraphOK demoInfGraphOnes.toGraph ∧ demoInfGraphOnes.active_probT ≠ none ∧
    ∃ g', demoInfGraphOnes.init_hyper_graph.build_hyper_graph_r 2 = some g' ∧
      g'.hyperGT.length = (2 : Int).toNat ∧
      ∀ i, i < (2 : Int).toNat →
        g'.hyperGT.getD i [] ≠ [] ∧
        (g'.hyperGT.getD i []).head?
          = some (root_of_pass InfGraph.build_r_step demoInfGraphOnes.init_hyper_graph i) ∧
        (∀ x, x ∈ g'.hyperGT.getD i [] → x < demoInfGraphOnes.n) ∧
        (g'.hyperGT.getD i []).Nodup :=
  ⟨demoInfGraphOnes_ok, by simp [demoInfGraphOnes, demoInfGraph],
    fresh_rr_store_shape demoInfGraphOnes demoInfGraphOnes_ok
      (by simp [demoInfGraphOnes, demoInfGraph]) 2 (by decide)⟩

/-- C16. Early termination of the minimization sampler: for every loaded graph with a
bound probability table, every PRNG stream, every model, every negative-seed list `S`
and every `R ≥ 0`, `init_hyper_graph` followed by
`build_hyper_graph_for_minimization(R, S)` succeeds and leaves `R` RR sets. The RR set
number `i` starts with the root drawn in pass `i` and holds no node twice; it either
holds no node of `S`, or ends with a node of `S` and holds no other; and when the root
drawn in pass `i` is in `S`, the set is the one-element set of that root. -/
theorem minimization_sampler_stops (g : InfGraph) (hG : GraphOK g.toGraph)
    (hp : g.active_probT ≠ none) (R : Int) (hR : 0 ≤ R) (S : List Int) :
    ∃ g', g.init_hyper_graph.build_hyper_graph_for_minimization R S = some g' ∧
      g'.hyperGT.length = R.toNat ∧
      ∀ i, i < R.toNat →
        (g'.hyperGT.getD i []).head? =
          some (root_of_pass (InfGraph.build_min_step (InfGraph.flag_nodes g.n S))
            g.init_hyper_graph i) ∧
        (g'.hyperGT.getD i []).Nodup ∧
        ((∀ x, x ∈ g'.hyperGT.getD i [] → (x : Int) ∉ S) ∨
          ∃ (q0 : List Nat) (t : Nat), g'.hyperGT.getD i [] = q0 ++ [t] ∧ (t : Int) ∈ S ∧
            ∀ x : Nat, x ∈ q0 → (x : Int) ∉ S) ∧
        (((root_of_pass (InfGraph.build_min_step (InfGraph.flag_nodes g.n S))
            g.init_hyper_graph i : Nat) : Int) ∈ S →
          g'.hyperGT.getD i [] =
            [root_of_pass (InfGraph.build_min_step (InfGraph.flag_nodes g.n S))
              g.init_hyper_graph i]) := by
  have hpn : ¬ g.init_hyper_graph.active_probT.isNone = true := by
    intro h
    exact hp (Option.isNone_iff_eq_none.mp h)
  obtain ⟨_, _, h3, h4⟩ := build_min_rows (InfGraph.flag_nodes g.n S)
    (init_hyper_graph_inv g hG) rfl R.toNat
  refine ⟨state_before_pass (InfGraph.build_min_step (InfGraph.flag_nodes g.n S))
    g.init_hyper_graph R.toNat, ?_, h3, ?_⟩
  · unfold InfGraph.build_hyper_graph_for_minimization
    rw [if_neg hpn, if_neg (by omega)]
    rfl
  · intro i hi
    obtain ⟨hshape, hstop⟩ := h4 i hi
    have hflag : ∀ x, x ∈ (state_before_pass
        (InfGraph.build_min_step (InfGraph.flag_nodes g.n S)) g.init_hyper_graph
        R.toNat).hyperGT.getD i [] →
        ((InfGraph.flag_nodes g.n S).getD x false = true ↔ (x : Int) ∈ S) :=
      fun x hx => flag_nodes_spec g.n S x (hshape.lt x hx)
    have hfirst : (∀ x, x ∈ (state_before_pass
          (InfGraph.build_min_step (InfGraph.flag_nodes g.n S)) g.init_hyper_graph
          R.toNat).hyperGT.getD i [] → (x : Int) ∉ S) ∨
        ∃ (q0 : List Nat) (t : Nat), (state_before_pass
          (InfGraph.build_min_step (InfGraph.flag_nodes g.n S)) g.init_hyper_graph
          R.toNat).hyperGT.getD i [] = q0 ++ [t] ∧ (t : Int) ∈ S ∧
            ∀ x : Nat, x ∈ q0 → (x : Int) ∉ S := by
      rcases hstop with h | ⟨q0, t, hrow, ht, hq0⟩
      · left
        intro x hx hS
        have := (hflag x hx).2 hS
        rw [h x hx] at this
        exact Bool.noConfusion this
      · right
        refine ⟨q0, t, hrow, ?_, ?_⟩
        · exact (hflag t (by rw [hrow]; simp)).1 ht
        · intro x hx hS
          have := (hflag x (by rw [hrow]; exact List.mem_append_left _ hx)).2 hS
          rw [hq0 x hx] at this
          exact Bool.noConfusion this
    have hr := hshape.head
    refine ⟨hr, hshape.nodup, hfirst, ?_⟩
    intro hrS
    rcases hfirst with h | ⟨q0, t, hrow, _, hq0⟩
    · exact absurd hrS (h _ (List.mem_of_mem_head? hr))
    · rw [hrow] at hr ⊢
      cases q0 with
      | nil =>
        simp only [List.nil_append, List.head?_cons, Option.some.injEq] at hr
        rw [hr]; rfl
      | cons a q1 =>
        simp only [List.cons_append, List.head?_cons, Option.some.injEq] at hr
        exact absurd hrS (hr ▸ hq0 a (List.mem_cons_self a q1))

/-- Worked instance: two RR sets on the two-node snapshot with the PRNG outputs all 1
and the negative seed 0. -/
theorem minimization_sampler_stops_witness :
    GraphOK demoInfGraphOnes.toGraph ∧ demoInfGraphOnes.active_probT ≠ none ∧
    ∃ g', demoInfGraphOnes.init_hyper_graph.build_hyper_graph_for_minimization 2 [0]
        = some g' ∧
      g'.hyperGT.length = (2 : Int).toNat ∧
      ∀ i, i < (2 : Int).toNat →
        (g'.hyperGT.getD i []).head? =
          some (root_of_pass
            (InfGraph.build_min_step (InfGraph.flag_nodes demoInfGraphOnes.n [0]))
            demoInfGraphOnes.init_hyper_graph i) ∧
        (g'.hyperGT.getD i []).Nodup ∧
        ((∀ x, x ∈ g'.hyperGT.getD i [] → (x : Int) ∉ [(0 : Int)]) ∨
          ∃ (q0 : List Nat) (t : Nat), g'.hyperGT.getD i [] = q0 ++ [t] ∧ (t : Int) ∈ [(0 : Int)] ∧
            ∀ x : Nat, x ∈ q0 → (x : Int) ∉ [(0 : Int)]) ∧
        (((root_of_pass
            (InfGraph.build_min_step (InfGraph.flag_nodes demoInfGraphOnes.n [0]))
            demoInfGraphOnes.init_hyper_graph i : Nat) : Int) ∈ [(0 : Int)] →
          g'.hyperGT.getD i [] =
            [root_of_pass
              (InfGraph.build_min_step (InfGraph.flag_nodes demoInfGraphOnes.n [0]))
              demoInfGraphOnes.init_hyper_graph i]) :=
  ⟨demoInfGraphOnes_ok, by simp [demoInfGraphOnes, demoInfGraph],
    minimization_sampler_stops demoInfGraphOnes demoInfGraphOnes_ok
      (by simp [demoInfGraphOnes, demoInfGraph]) 2 (by decide) [0]⟩

end RRShapeClaims

/-! ## Blocker selection (claim C20) -/

section BlockingClaims

/-- C20. Blocker selection respects the restricted universe: for every RR store whose
two sides agree (with `hyperG` holding one row per node), every integer `k` and every
negative-seed list `S`, `build_blocking_set(k, S)` leaves in `result_node_set` exactly
`min(max(k,0), c)` nodes, where `c` is the number of nodes not in `S` that belong to an
RR set holding a node of `S`; the selected nodes are pairwise distinct, none is in `S`,
and each belongs to an RR set that holds a node of `S`. -/
theorem blocking_set_restricted (g : InfGraph) (hlen : g.hyperG.length = g.n)
    (hbij : RRBij g.hyperG g.hyperGT) (k : Int) (S : List Int) :
    ((g.build_blocking_set k S).result_node_set.length : Int)
        = min (max k 0) ((blockable g S).length : Int) ∧
      (g.build_blocking_set k S).result_node_set.Nodup ∧
      ∀ u, u ∈ (g.build_blocking_set k S).result_node_set →
        u < g.n ∧ (u : Int) ∉ S ∧
        ∃ rr, rr ∈ g.hyperGT ∧ u ∈ rr ∧ ∃ s : Nat, s ∈ rr ∧ (s : Int) ∈ S := by
  have hnodes : ∀ rr v, v ∈ g.hyperGT.getD rr [] → v < g.n :=
    fun rr v hv => hlen ▸ hbij.node_lt hv
  have h0 := block_start_inv g S
  obtain ⟨hI, hlenres⟩ := block_loop_spec g.hyperG
    (InfGraph.risky_sets g S).1 hnodes k.toNat _ h0
  have hc := h0.count
  rw [← blockable_eq g hbij S] at hc
  refine ⟨?_, hI.nodup, ?_⟩
  · show ((InfGraph.block_loop _ _ _ _ _ _).result_node_set.length : Int) = _
    rw [hlenres]
    have h1 : (g.block_start S).result_node_set.length = 0 := rfl
    rw [h1] at hc ⊢
    simp only [Nat.add_zero] at hc
    rw [hc]
    omega
  · intro u hu
    obtain ⟨h1, h2⟩ := hI.res_cand u hu
    exact ⟨h1, (block_cand_iff g hbij S u h1).1 h2⟩

/-- Worked instance: budget 2 and the negative seed 0 on the four-set store; node 1 is
the only node outside the seeds in a set that holds node 0. -/
theorem blocking_set_restricted_witness :
    (demoStore.build_blocking_set 2 [0]).result_node_set = [1] ∧
    ((demoStore.build_blocking_set 2 [0]).result_node_set.length : Int)
        = min (max 2 0) ((blockable demoStore [0]).length : Int) ∧
      (demoStore.build_blocking_set 2 [0]).result_node_set.Nodup ∧
      ∀ u, u ∈ (demoStore.build_blocking_set 2 [0]).result_node_set →
        u < demoStore.n ∧ (u : Int) ∉ [(0 : Int)] ∧
        ∃ rr, rr ∈ demoStore.hyperGT ∧ u ∈ rr ∧ ∃ s : Nat, s ∈ rr ∧ (s : Int) ∈ [(0 : Int)] :=
  ⟨by decide, blocking_set_restricted demoStore rfl (RRBij.of_check (by decide)) 2 [0]⟩

end BlockingClaims

/-! ## The probability iterator and the forward simulation (claims C13, C14) -/

section SimulationClaims

/-- C13. Probability bounds of the probability iterator: for every graph whose bound
edge probabilities lie in `[0, 1]`, every seed list, blocker list, model, step limit,
threshold and stopping tolerance, `run_probability_simulation` returns a result in
which every recorded node state holds, for a node of the graph, the probability that
the iteration numbered by its step has produced; every such probability lies in
`[0, 1]` and is 0 for a blocked node; and after every number of iterations all
probabilities lie in `[0, 1]` and a blocked node has probability 0, also when it is a
seed. -/
theorem probability_bounds (g : InfGraph) (P : List (List ℚ))
    (hP : g.active_probT = some P) (h01 : TableIn01 P)
    (initial_nodes blocking_nodes : List Int) (max_steps : Int) (threshold stop_delta : ℚ) :
    ∃ res, g.run_probability_simulation initial_nodes blocking_nodes max_steps threshold
        stop_delta = some res ∧
      StepsOK g initial_nodes blocking_nodes stop_delta res ∧
      (∀ st, st ∈ res.simulation_steps → ∀ ns, ns ∈ st.node_states →
        0 ≤ ns.probability ∧ ns.probability ≤ 1 ∧
        ((ns.id : Int) ∈ blocking_nodes → ns.probability = 0)) ∧
      (∀ k v,
        0 ≤ (InfGraph.prob_after g initial_nodes blocking_nodes stop_delta k).getD v 0 ∧
        (InfGraph.prob_after g initial_nodes blocking_nodes stop_delta k).getD v 0 ≤ 1) ∧
      (∀ k v, v < g.n → (v : Int) ∈ blocking_nodes →
        (InfGraph.prob_after g initial_nodes blocking_nodes stop_delta k).getD v 0 = 0) := by
  have hvec := prob_after_probVec hP h01 initial_nodes blocking_nodes stop_delta
  have hstart : StepsOK g initial_nodes blocking_nodes stop_delta
      { total_steps := 0
        simulation_steps :=
          [{ step := 0
             newly_activated_nodes := []
             node_states :=
               (InfGraph.seed_step0 g.n (InfGraph.flag_nodes g.n blocking_nodes) initial_nodes
                 (List.replicate g.n 0, [])).2 }] } := by
    intro st hst ns hns
    have hst' := List.mem_singleton.mp hst
    rw [hst'] at hns ⊢
    obtain ⟨a, b, c⟩ := (seed_step0_spec g.n _ initial_nodes (List.replicate g.n 0, [])
      (probVec_zero g.n _) (fun ns hns => absurd hns (List.not_mem_nil ns))).2 ns hns
    refine ⟨a, ?_⟩
    rw [b]
    exact c.symm
  have hok := sim_loop_ok g initial_nodes blocking_nodes threshold stop_delta
    (max_steps - 1).toNat 0 _ hstart
  refine ⟨_, ?_, hok, ?_, fun k v => (hvec k).bounds v, ?_⟩
  · unfold InfGraph.run_probability_simulation
    rw [hP]
    rfl
  · intro st hst ns hns
    obtain ⟨hid, hp⟩ := hok st hst ns hns
    rw [hp]
    refine ⟨((hvec st.step).bounds ns.id).1, ((hvec st.step).bounds ns.id).2, ?_⟩
    intro hb
    exact (hvec st.step).blocked ns.id ((flag_nodes_spec g.n blocking_nodes ns.id hid).2 hb)
  · intro k v hv hb
    exact (hvec k).blocked v ((flag_nodes_spec g.n blocking_nodes v hv).2 hb)

/-- Worked instance: the two-node snapshot with the edge `0 → 1` of probability 1, the
seed 0, the blocker 1, ten steps, threshold one half and tolerance one millionth. -/
theorem probability_bounds_witness :
    demoInfGraph.active_probT = some [[], [1]] ∧ TableIn01 [[], [1]] ∧
    ∃ res, demoInfGraph.run_probability_simulation [0] [1] 10 (1 / 2) (1 / 1000000)
        = some res ∧
      StepsOK demoInfGraph [0] [1] (1 / 1000000) res ∧
      (∀ st, st ∈ res.simulation_steps → ∀ ns, ns ∈ st.node_states →
        0 ≤ ns.probability ∧ ns.probability ≤ 1 ∧
        ((ns.id : Int) ∈ [(1 : Int)] → ns.probability = 0)) ∧
      (∀ k v,
        0 ≤ (InfGraph.prob_after demoInfGraph [0] [1] (1 / 1000000) k).getD v 0 ∧
        (InfGraph.prob_after demoInfGraph [0] [1] (1 / 1000000) k).getD v 0 ≤ 1) ∧
      (∀ k v, v < demoInfGraph.n → (v : Int) ∈ [(1 : Int)] →
        (InfGraph.prob_after demoInfGraph [0] [1] (1 / 1000000) k).getD v 0 = 0) :=
  ⟨rfl, by
      intro row hrow p hp
      simp only [List.mem_cons, List.mem_singleton, List.not_mem_nil, or_false] at hrow
      rcases hrow with h | h
      · rw [h] at hp; exact absurd hp (List.not_mem_nil p)
      · rw [h, List.mem_singleton] at hp
        rw [hp]; exact ⟨zero_le_one, le_refl _⟩,
    probability_bounds demoInfGraph [[], [1]] rfl (by
      intro row hrow p hp
      simp only [List.mem_cons, List.mem_singleton, List.not_mem_nil, or_false] at hrow
      rcases hrow with h | h
      · rw [h] at hp; exact absurd hp (List.not_mem_nil p)
      · rw [h, List.mem_singleton] at hp
        rw [hp]; exact ⟨zero_le_one, le_refl _⟩) [0] [1] 10 (1 / 2) (1 / 1000000)⟩

/-- C14. Forward Monte-Carlo estimate: over a loaded graph with a bound forward
probability table, for every PRNG stream, every number `T ≥ 1` of cascades, every seed
list and every blocker list, `calculate_final_probabilities` returns a vector of length
`n` in which the entry of every node is the number of cascades that activated the node
divided by `T` and lies in `[0, 1]`, the entry of a blocked node is 0 and that of a seed
inside the graph that is not blocked is 1; in every cascade no blocked node is activated
and the `while` loop ends with an empty queue within its `n` passes. -/
theorem forward_estimate (g : InfGraph) (hG : GraphOK g.toGraph)
    (hp : g.active_probFwd ≠ none) (initial_nodes blocking_nodes : List Int) (T : Int)
    (hT : 1 ≤ T) :
    ∃ r, g.calculate_final_probabilities initial_nodes T blocking_nodes = some r ∧
      r.1.length = g.n ∧
      (∀ j, j < g.n →
        r.1.getD j 0
          = (InfGraph.activation_count g initial_nodes blocking_nodes T.toNat j : ℚ) / (T : ℚ) ∧
        0 ≤ r.1.getD j 0 ∧ r.1.getD j 0 ≤ 1) ∧
      (∀ j, j < g.n → (j : Int) ∈ blocking_nodes → r.1.getD j 0 = 0) ∧
      (∀ j, j < g.n → (j : Int) ∈ initial_nodes → (j : Int) ∉ blocking_nodes →
        r.1.getD j 0 = 1) ∧
      (∀ i j, j < g.n → (j : Int) ∈ blocking_nodes →
        (InfGraph.activated_in_trial g initial_nodes blocking_nodes i).getD j false = false) ∧
      (∀ i, InfGraph.trial_queue_left g (InfGraph.flag_nodes g.n blocking_nodes) initial_nodes
        (InfGraph.sfmt_before_trial g initial_nodes blocking_nodes i) = []) := by
  obtain ⟨hlen, hval⟩ := calculate_value g initial_nodes blocking_nodes T
  have hTq : (0 : ℚ) < (T : ℚ) := by exact_mod_cast (by omega : 0 < T)
  have hTn : ((T.toNat : Nat) : ℚ) = (T : ℚ) := by
    have h := Int.toNat_of_nonneg (by omega : 0 ≤ T)
    exact_mod_cast h
  refine ⟨(InfGraph.divide_counts g.n T
      (InfGraph.trials_loop g (InfGraph.flag_nodes g.n blocking_nodes) initial_nodes T.toNat
        (List.replicate g.n 0, g.sfmt)).1,
      { g with
        sfmt :=
          (InfGraph.trials_loop g (InfGraph.flag_nodes g.n blocking_nodes) initial_nodes
            T.toNat (List.replicate g.n 0, g.sfmt)).2 }), ?_, hlen, ?_, ?_, ?_, ?_, ?_⟩
  · unfold InfGraph.calculate_final_probabilities
    rw [if_neg (by simpa [Option.isNone_iff_eq_none] using hp), if_neg (by omega)]
  · intro j hj
    have hc := (activation_count_spec g hG initial_nodes blocking_nodes T.toNat j hj).1
    refine ⟨hval j hj, ?_, ?_⟩
    · rw [hval j hj]
      exact div_nonneg (Nat.cast_nonneg _) (le_of_lt hTq)
    · rw [hval j hj, div_le_one hTq, ← hTn]
      exact_mod_cast hc
  · intro j hj hb
    rw [hval j hj,
      (activation_count_spec g hG initial_nodes blocking_nodes T.toNat j hj).2.1 hb]
    simp
  · intro j hj hs hb
    rw [hval j hj,
      (activation_count_spec g hG initial_nodes blocking_nodes T.toNat j hj).2.2 hs hb, hTn]
    exact div_self (ne_of_gt hTq)
  · intro i j hj hb
    exact (run_trial_ok g hG _ initial_nodes _).1.blocked j
      ((flag_nodes_spec g.n blocking_nodes j hj).2 hb)
  · intro i
    exact (run_trial_ok g hG _ initial_nodes _).2

/-- Worked instance: three cascades on the two-node snapshot with the edge `0 → 1`, the
seed 0 and the blocker 1. -/
theorem forward_estimate_witness :
    GraphOK demoInfGraph.toGraph ∧ demoInfGraph.active_probFwd ≠ none ∧ (1 : Int) ≤ 3 ∧
    ∃ r, demoInfGraph.calculate_final_probabilities [0] 3 [1] = some r ∧
      r.1.length = demoInfGraph.n ∧
      (∀ j, j < demoInfGraph.n →
        r.1.getD j 0
          = (InfGraph.activation_count demoInfGraph [0] [1] (3 : Int).toNat j : ℚ)
            / ((3 : Int) : ℚ) ∧
        0 ≤ r.1.getD j 0 ∧ r.1.getD j 0 ≤ 1) ∧
      (∀ j, j < demoInfGraph.n → (j : Int) ∈ [(1 : Int)] → r.1.getD j 0 = 0) ∧
      (∀ j, j < demoInfGraph.n → (j : Int) ∈ [(0 : Int)] → (j : Int) ∉ [(1 : Int)] →
        r.1.getD j 0 = 1) ∧
      (∀ i j, j < demoInfGraph.n → (j : Int) ∈ [(1 : Int)] →
        (InfGraph.activated_in_trial demoInfGraph [0] [1] i).getD j false = false) ∧
      (∀ i, InfGraph.trial_queue_left demoInfGraph (InfGraph.flag_nodes demoInfGraph.n [1])
        [0] (InfGraph.sfmt_before_trial demoInfGraph [0] [1] i) = []) :=
  ⟨demoInfGraph_ok, by simp [demoInfGraph], by decide,
    forward_estimate demoInfGraph demoInfGraph_ok (by simp [demoInfGraph]) [0] [1] 3
      (by decide)⟩

end SimulationClaims

/-! ## Sequences of heap operations -/

section HeapOpsLemmas

variable {V : Type} [LinearOrder V]

/-- Along a sequence of calls that passes the test `inserts_above`, the popped values
are non-decreasing and none is below the value popped last before the sequence. -/
theorem popped_values_sorted (n : Nat) :
    ∀ (ops : List (HeapOp V)) (last : Option V) (h : iHeap V), WellFormed n h →
      (∀ m, last = some m → ∀ e, Stored h e → m ≤ e.value) →
      inserts_above n last ops h = true →
      ∃ vs, popped_values ops h = some vs ∧ vs.Pairwise (fun a b => a ≤ b) ∧
        ∀ m, last = some m → ∀ v, v ∈ vs → m ≤ v
  | [], _, _, _, _, _ => ⟨[], rfl, List.Pairwise.nil, fun _ _ v hv => absurd hv (List.not_mem_nil v)⟩
  | HeapOp.insert key value :: rest, last, h, hW, hlow, hg => by
    simp only [inserts_above, Bool.and_eq_true, decide_eq_true_eq] at hg
    obtain ⟨⟨hk, hv⟩, hrest⟩ := hg
    obtain ⟨hW', _, _, hst⟩ := insert_spec hW hk value
    have hlow' : ∀ m, last = some m → ∀ e, Stored (h.insert key value) e → m ≤ e.value := by
      intro m hm e he
      rcases (hst e).1 he with h1 | h1
      · rw [h1]
        subst hm
        simpa using hv
      · exact hlow m hm e h1.1
    obtain ⟨vs, e1, e2, e3⟩ := popped_values_sorted n rest last _ hW' hlow' hrest
    exact ⟨vs, by rw [popped_values]; exact e1, e2, e3⟩
  | HeapOp.pop :: rest, last, h, hW, hlow, hg => by
    simp only [inserts_above] at hg
    by_cases hpos : 0 < h.m_data.m_num
    · obtain ⟨h', hp, hW', _, hst⟩ := pop_spec hW hpos
      have htop : h.top_value = some (h.m_data.m_data 0).value := by
        unfold iHeap.top_value
        rw [if_pos hpos]
      rw [htop, hp] at hg
      have hroot := hW.ordered.root_le
      have hlow' : ∀ m, some (h.m_data.m_data 0).value = some m → ∀ e, Stored h' e →
          m ≤ e.value := by
        intro m hm e he
        obtain ⟨i, hi, hie⟩ := ((hst e).1 he).1
        rw [← Option.some.inj hm, ← hie]
        exact hroot i hi
      obtain ⟨vs, e1, e2, e3⟩ := popped_values_sorted n rest _ h' hW' hlow' hg
      refine ⟨(h.m_data.m_data 0).value :: vs, ?_, ?_, ?_⟩
      · rw [popped_values, htop, hp]
        show (popped_values rest h').map _ = _
        rw [e1]
        rfl
      · exact List.Pairwise.cons (fun v hv => e3 _ rfl v hv) e2
      · intro m hm v hv
        have h0 : m ≤ (h.m_data.m_data 0).value := hlow m hm _ ⟨0, hpos, rfl⟩
        rcases List.mem_cons.mp hv with h1 | h1
        · rw [h1]
          exact h0
        · exact le_trans h0 (e3 _ rfl v h1)
    · have htop : h.top_value = none := by
        unfold iHeap.top_value
        rw [if_neg hpos]
      rw [htop] at hg
      exact absurd hg (by simp)

end HeapOpsLemmas

/-! ## The model value WC -/

section ModelLemmas

theorem ic_loop_congr {g g' : InfGraph} (h1 : g'.gT = g.gT)
    (h2 : g'.active_probT = g.active_probT) (rr : Nat) :
    ∀ (fuel head : Nat) (st : RRWalk),
      InfGraph.ic_loop g' rr fuel head st = InfGraph.ic_loop g rr fuel head st := by
  intro fuel
  induction fuel with
  | zero => intro head st; rfl
  | succ fuel ih =>
    intro head st
    rw [InfGraph.ic_loop, InfGraph.ic_loop]
    have hp : ∀ u, g'.probT u = g.probT u := fun u => by
      unfold InfGraph.probT
      rw [h2]
    rw [h1, hp, ih]

theorem generate_rr_set_ic_model (g : InfGraph) (p q : InfluModel) (v rr : Nat) :
    ((g.setInfuModel p).generate_rr_set_ic v rr).setInfuModel q
      = (g.setInfuModel q).generate_rr_set_ic v rr := by
  unfold InfGraph.generate_rr_set_ic
  rw [@ic_loop_congr (g.setInfuModel q) (g.setInfuModel p) rfl rfl]
  rfl

/-- One pass of the loop of `build_hyper_graph_r` under the model value WC does what it
does under IC. -/
theorem build_r_step_wc (g : InfGraph) (i : Nat) :
    ((g.setInfuModel InfluModel.WC).build_r_step i).setInfuModel InfluModel.IC
      = (g.setInfuModel InfluModel.IC).build_r_step i ∧
    ((g.setInfuModel InfluModel.WC).build_r_step i).influModel = InfluModel.WC := by
  constructor
  · exact generate_rr_set_ic_model
      { g with hyperGT := g.hyperGT ++ [[]], sfmt := (sfmt_genrand_uint32 g.sfmt).2 }
      InfluModel.WC InfluModel.IC _ i
  · rfl

theorem setInfuModel_self (g : InfGraph) (h : g.influModel = InfluModel.WC) :
    g.setInfuModel InfluModel.WC = g := by
  cases g
  simp only [InfGraph.setInfuModel] at h ⊢
  subst h
  rfl

theorem build_r_fold_wc : ∀ (l : List Nat) (g : InfGraph), g.influModel = InfluModel.WC →
    (l.foldl InfGraph.build_r_step g).setInfuModel InfluModel.IC
      = l.foldl InfGraph.build_r_step (g.setInfuModel InfluModel.IC)
  | [], _, _ => rfl
  | i :: l, g, h => by
    rw [List.foldl_cons, List.foldl_cons]
    have h1 := build_r_step_wc g i
    rw [setInfuModel_self g h] at h1
    rw [build_r_fold_wc l _ h1.2, h1.1]

theorem ic_fwd_loop_congr {g g' : InfGraph} (h1 : g'.g = g.g)
    (h2 : g'.active_probFwd = g.active_probFwd) (B : List Bool) :
    ∀ (fuel : Nat) (st : TrialIC),
      InfGraph.ic_fwd_loop g' B fuel st = InfGraph.ic_fwd_loop g B fuel st := by
  intro fuel
  induction fuel with
  | zero => intro st; rfl
  | succ fuel ih =>
    intro st
    rw [InfGraph.ic_fwd_loop, InfGraph.ic_fwd_loop]
    have hp : ∀ u, g'.probFwd u = g.probFwd u := fun u => by
      unfold InfGraph.probFwd
      rw [h2]
    cases st.q with
    | nil => rfl
    | cons u rest =>
      show InfGraph.ic_fwd_loop g' B fuel _ = InfGraph.ic_fwd_loop g B fuel _
      rw [h1, hp, ih]

/-- A cascade under the model value WC is the cascade under IC. -/
theorem run_trial_wc (g : InfGraph) (B : List Bool) (initial_nodes : List Int) (s : Sfmt) :
    InfGraph.run_trial (g.setInfuModel InfluModel.WC) B initial_nodes s
      = InfGraph.run_trial (g.setInfuModel InfluModel.IC) B initial_nodes s := by
  have h : InfGraph.ic_trial (g.setInfuModel InfluModel.WC) B initial_nodes s
      = InfGraph.ic_trial (g.setInfuModel InfluModel.IC) B initial_nodes s := by
    unfold InfGraph.ic_trial
    exact @ic_fwd_loop_congr (g.setInfuModel InfluModel.IC) (g.setInfuModel InfluModel.WC)
      rfl rfl B _ _
  show ((InfGraph.ic_trial (g.setInfuModel InfluModel.WC) B initial_nodes s).activated,
      (InfGraph.ic_trial (g.setInfuModel InfluModel.WC) B initial_nodes s).sfmt) = _
  rw [h]
  rfl

theorem trials_loop_wc (g : InfGraph) (B : List Bool) (initial_nodes : List Int) :
    ∀ (k : Nat) (s : List ℚ × Sfmt),
      InfGraph.trials_loop (g.setInfuModel InfluModel.WC) B initial_nodes k s
        = InfGraph.trials_loop (g.setInfuModel InfluModel.IC) B initial_nodes k s := by
  intro k
  induction k with
  | zero => intro s; rfl
  | succ k ih =>
    intro s
    rw [InfGraph.trials_loop, InfGraph.trials_loop, run_trial_wc, ih]
    rfl

/-- Under the model value WC the probability iterator takes neither branch and stops
after step 0. -/
theorem sim_loop_wc (g : InfGraph) (h : g.influModel = InfluModel.WC) (B : List Bool)
    (threshold stop_delta : ℚ) (fuel i : Nat) (next_prob : List ℚ)
    (result : ApiSimulationResult) :
    InfGraph.sim_loop g B threshold stop_delta fuel i next_prob result = result := by
  cases fuel with
  | zero => rfl
  | succ fuel =>
    rw [InfGraph.sim_loop]
    have hc : InfGraph.changed_of g B stop_delta next_prob
        (InfGraph.next_prob_of g B stop_delta next_prob) = false := by
      unfold InfGraph.changed_of
      rw [h]
    rw [if_pos hc]

end ModelLemmas

/-! ## The packaged community result -/

section PackageLemmas

open CommunitySearcher

theorem collect_probs_fold : ∀ (l : List NodeState) (m0 : Nat → Option ℚ) (v : Nat),
    (∃ ns, ns ∈ l ∧ ns.id = v ∧
      l.foldl (fun (m : Nat → Option ℚ) (ns : NodeState) =>
          Function.update m ns.id (some ns.probability)) m0 v
        = some ns.probability) ∨
    ((∀ ns, ns ∈ l → ns.id ≠ v) ∧
      l.foldl (fun (m : Nat → Option ℚ) (ns : NodeState) =>
          Function.update m ns.id (some ns.probability)) m0 v = m0 v)
  | [], m0, v => Or.inr ⟨fun ns h => absurd h (List.not_mem_nil ns), rfl⟩
  | a :: l, m0, v => by
    rw [List.foldl_cons]
    rcases collect_probs_fold l (Function.update m0 a.id (some a.probability)) v with
      ⟨ns, h1, h2, h3⟩ | ⟨h1, h2⟩
    · exact Or.inl ⟨ns, List.mem_cons_of_mem _ h1, h2, h3⟩
    · by_cases ha : a.id = v
      · left
        refine ⟨a, List.mem_cons_self _ _, ha, ?_⟩
        rw [h2, ← ha, Function.update_same]
      · right
        refine ⟨?_, ?_⟩
        · intro ns hns
          rcases List.mem_cons.mp hns with h | h
          · rw [h]; exact ha
          · exact h1 ns h
        · rw [h2, Function.update_noteq (fun h => ha h.symm)]

theorem collect_probs_spec (final_states : List NodeState) (v : Nat)
    (hv : v ∈ final_states.map NodeState.id) :
    ∃ ns, ns ∈ final_states ∧ ns.id = v ∧
      collect_probs final_states v = some ns.probability := by
  rcases collect_probs_fold final_states (fun _ => none) v with h | ⟨h1, _⟩
  · exact h
  · obtain ⟨ns, hns, hid⟩ := List.mem_map.mp hv
    exact absurd hid (h1 ns hns)

theorem prob_sum_fold (f : Nat → Option ℚ) : ∀ (l : List Nat) (a : ℚ),
    l.foldl (fun prob_sum node =>
        match f node with
        | some p => prob_sum + p
        | none => prob_sum) a
      = a + (l.map (fun v => (f v).getD 0)).sum
  | [], a => by simp
  | v :: l, a => by
    rw [List.foldl_cons, prob_sum_fold f l, List.map_cons, List.sum_cons]
    cases f v with
    | none => simp
    | some p =>
      show a + p + _ = a + (p + _)
      ring

/-- The result of `package_result` on a component inside the ids of the states. -/
theorem package_result_ok (enum : List Nat → List Nat) (henum : ∀ l, (enum l).Perm l)
    (final_states : List NodeState) (final_component : List Nat)
    (hsub : ∀ v, v ∈ final_component → v ∈ final_states.map NodeState.id) :
    WellPackaged final_states
      (package_result enum final_component (collect_probs final_states)) := by
  have hsub' : ∀ v, v ∈ enum final_component → v ∈ final_states.map NodeState.id :=
    fun v hv => hsub v ((henum _).mem_iff.mp hv)
  refine ⟨rfl, hsub', (enum final_component).map
    (fun v => (collect_probs final_states v).getD 0), ?_, ?_⟩
  · show List.Forall₂ _ (enum final_component) _
    rw [List.forall₂_map_right_iff]
    apply List.forall₂_same.mpr
    intro v hv
    obtain ⟨ns, h1, h2, h3⟩ := collect_probs_spec final_states v (hsub' v hv)
    exact ⟨ns, h1, h2, by rw [h3]; rfl⟩
  · show (if 0 < (enum final_component).length then _ else 0)
      = if enum final_component = [] then 0 else _
    by_cases he : enum final_component = []
    · rw [if_pos he, if_neg (by rw [he]; exact Nat.lt_irrefl 0)]
    · rw [if_neg he, if_pos (List.length_pos.mpr he), prob_sum_fold, zero_add]
      rfl

theorem empty_result_ok (final_states : List NodeState) :
    WellPackaged final_states empty_result :=
  ⟨rfl, fun v h => absurd h (List.not_mem_nil v), [], List.Forall₂.nil, rfl⟩

theorem prepare_probs {final_states : List NodeState} {g : InfGraph}
    {query_nodes : List Nat} {prep : SearchPrep}
    (h : prepare_search_space final_states g query_nodes = some prep) :
    prep.node_probs = collect_probs final_states ∧
      ∀ q, q ∈ prep.valid_query_nodes ↔
        (q ∈ query_nodes ∧ q ∈ final_states.map NodeState.id) := by
  unfold prepare_search_space at h
  split at h
  · exact Option.noConfusion h
  · rename_i q0 qs hq
    have e := Option.some.inj h
    rw [← e]
    refine ⟨rfl, fun q => ?_⟩
    show q ∈ q0 :: qs ↔ _
    rw [← hq, List.mem_filter]
    simp

theorem prepare_none_iff (final_states : List NodeState) (g : InfGraph)
    (query_nodes : List Nat) :
    prepare_search_space final_states g query_nodes = none ↔
      ∀ q, q ∈ query_nodes → q ∉ final_states.map NodeState.id := by
  unfold prepare_search_space
  split
  · rename_i hq
    refine ⟨fun _ q hq1 hq2 => ?_, fun _ => rfl⟩
    have : q ∈ query_nodes.filter (fun qn => (final_states.map NodeState.id).contains qn) := by
      rw [List.mem_filter]
      exact ⟨hq1, by simpa using hq2⟩
    rw [hq] at this
    exact absurd this (List.not_mem_nil q)
  · rename_i q0 qs hq
    refine ⟨fun h => Option.noConfusion h, fun h => ?_⟩
    have : q0 ∈ query_nodes.filter (fun qn => (final_states.map NodeState.id).contains qn) := by
      rw [hq]
      exact List.mem_cons_self _ _
    rw [List.mem_filter] at this
    exact absurd (by simpa using this.2) (h q0 this.1)

theorem first_surviving_none {vq cands : List Nat} (h : ∀ q, q ∈ vq → q ∉ cands) :
    first_surviving vq cands = none := by
  unfold first_surviving
  rw [List.find?_eq_none]
  intro q hq
  simpa using h q hq

theorem kl_peel_cand_sub (k_core l_core : Int) (g : InfGraph) :
    ∀ (fuel : Nat) (s : KLPeel) (x : Nat),
      x ∈ (kl_peel k_core l_core g fuel s).candidates → x ∈ s.candidates := by
  intro fuel
  induction fuel with
  | zero => intro s x h; exact h
  | succ fuel ih =>
    intro s x h
    cases hq : s.removal_q with
    | nil =>
      rw [kl_peel_nil _ _ _ _ _ hq] at h
      exact h
    | cons u q =>
      rw [kl_peel_cons _ _ _ _ _ u q hq] at h
      split_ifs at h
      · have h1 := ih _ x h
        rw [kl_drop_in_eq, kl_drop_out_eq] at h1
        exact ((mem_uset_erase _ _ _).mp h1).1
      · exact ih { s with removal_q := q } x h

theorem kl_candidates_in_space (enum : List Nat → List Nat) (k_core l_core : Int)
    (g : InfGraph) (ss : List Nat) :
    ∀ x, x ∈ (kl_core_candidates enum k_core l_core g ss).candidates → x ∈ ss := by
  intro x h
  have h1 := kl_peel_cand_sub _ _ _ _ _ x h
  have h2 := (kl_init_spec k_core l_core g ss (enum ss)
    { candidates := ss, removal_q := [], already_in_removal_q := [],
      internal_in_degrees := fun _ => 0, internal_out_degrees := fun _ => 0 }).1
  have h3 : x ∈ (kl_init k_core l_core g ss (enum ss)
    { candidates := ss, removal_q := [], already_in_removal_q := [],
      internal_in_degrees := fun _ => 0, internal_out_degrees := fun _ => 0 }).candidates := h1
  rw [h2] at h3
  exact h3

theorem k_peel_cand_sub (k_core : Int) (adj : AdjMap) :
    ∀ (fuel : Nat) (s : KPeel) (x : Nat),
      x ∈ (k_peel k_core adj fuel s).candidates → x ∈ s.candidates := by
  intro fuel
  induction fuel with
  | zero => intro s x h; exact h
  | succ fuel ih =>
    intro s x h
    cases hq : s.removal_q with
    | nil =>
      rw [k_peel_nil _ _ _ _ hq] at h
      exact h
    | cons u q =>
      rw [k_peel_cons _ _ _ _ u q hq] at h
      split_ifs at h
      · have h1 := ih _ x h
        rw [k_drop_eq] at h1
        exact ((mem_uset_erase _ _ _).mp h1).1
      · exact ih { s with removal_q := q } x h

theorem k_candidates_in_space (enum : List Nat → List Nat) (k_core : Int) (adj : AdjMap)
    (ss : List Nat) :
    ∀ x, x ∈ (k_core_candidates enum k_core adj ss).candidates → x ∈ ss := by
  intro x h
  have h1 := k_peel_cand_sub _ _ _ _ x h
  have h2 := (k_init_spec k_core adj (enum ss)
    { candidates := ss, removal_q := [], already_in_removal_q := [],
      internal_degrees := fun _ => 0 }).1
  have h3 : x ∈ (k_init k_core adj (enum ss)
    { candidates := ss, removal_q := [], already_in_removal_q := [],
      internal_degrees := fun _ => 0 }).candidates := h1
  rw [h2] at h3
  exact h3

theorem mem_truss_nodes : ∀ (E : List (Nat × Nat)) (c : List Nat) (x : Nat),
    x ∈ E.foldl (fun c e => uset_insert (uset_insert c e.1) e.2) c →
      x ∈ c ∨ ∃ e, e ∈ E ∧ (x = e.1 ∨ x = e.2)
  | [], _, _, h => Or.inl h
  | e :: E, c, x, h => by
    rw [List.foldl_cons] at h
    rcases mem_truss_nodes E _ x h with h1 | ⟨e', h1, h2⟩
    · rw [mem_uset_insert, mem_uset_insert] at h1
      rcases h1 with (h1 | h1) | h1
      · exact Or.inl h1
      · exact Or.inr ⟨e, List.mem_cons_self _ _, Or.inl h1⟩
      · exact Or.inr ⟨e, List.mem_cons_self _ _, Or.inr h1⟩
    · exact Or.inr ⟨e', List.mem_cons_of_mem _ h1, h2⟩

theorem truss_nodes_in_space {g : InfGraph} {ss : List Nat} {adj : AdjMap}
    (hA : AdjOK g ss adj) (min_support : Int) :
    ∀ x, x ∈ truss_nodes (k_truss_edges min_support adj).current_edges → x ∈ ss := by
  intro x h
  rcases mem_truss_nodes _ [] x h with h1 | ⟨e, he, hx⟩
  · exact absurd h1 (List.not_mem_nil x)
  · obtain ⟨a, b, hab, hE⟩ := k_truss_edges_of min_support adj e he
    obtain ⟨ha, hb, _⟩ := hA.sound a b hab
    rcases make_edge_cases a b with hm | hm
    · rw [hm] at hE
      rcases hx with hx | hx
      · rw [hx, hE]; exact ha
      · rw [hx, hE]; exact hb
    · rw [hm] at hE
      rcases hx with hx | hx
      · rw [hx, hE]; exact hb
      · rw [hx, hE]; exact ha

theorem kl_packaged (enum : List Nat → List Nat) (henum : ∀ l, (enum l).Perm l)
    (k_core l_core : Int) (final_states : List NodeState) (g : InfGraph)
    (query_nodes : List Nat) :
    WellPackaged final_states
      (find_most_influenced_community_local enum k_core l_core final_states g query_nodes) := by
  unfold find_most_influenced_community_local
  split_ifs with h1
  · exact empty_result_ok _
  · cases hp : prepare_search_space final_states g query_nodes with
    | none => exact empty_result_ok _
    | some prep =>
      dsimp only
      split_ifs with h2
      · exact empty_result_ok _
      · cases hs : first_surviving prep.valid_query_nodes
            (kl_core_candidates enum k_core l_core g prep.search_space).candidates with
        | none => exact empty_result_ok _
        | some sq =>
          dsimp only
          rw [(prepare_probs hp).1]
          apply package_result_ok enum henum
          intro v hv
          have hsq := (first_surviving_spec hs).2
          have hD := bfs_from_spec (fun u => g.g.getD u [] ++ g.gT.getD u [])
            (fun v =>
              (kl_core_candidates enum k_core l_core g prep.search_space).candidates.contains v)
            (kl_core_candidates enum k_core l_core g prep.search_space).candidates
            (fun x hx => by simpa using hx) sq hsq
          exact (prepare_search_space_spec hp).2.2 v
            (kl_candidates_in_space enum k_core l_core g _ v (hD.sub hsq v hv))

theorem kl_failure (enum : List Nat → List Nat) (k_core l_core : Int)
    (final_states : List NodeState) (g : InfGraph) (query_nodes : List Nat) :
    EmptyOnFailure final_states g query_nodes (k_core < 0 ∨ l_core < 0)
      (fun prep => (kl_core_candidates enum k_core l_core g prep.search_space).candidates)
      (find_most_influenced_community_local enum k_core l_core final_states g query_nodes) := by
  refine ⟨?_, ?_, ?_, ?_⟩
  · intro h
    unfold find_most_influenced_community_local
    rw [if_pos (Or.inl (by rw [h]; rfl))]
  · intro h
    unfold find_most_influenced_community_local
    rw [if_pos (Or.inr h)]
  · intro h
    unfold find_most_influenced_community_local
    split_ifs
    · rfl
    · rw [(prepare_none_iff final_states g query_nodes).mpr h]
  · intro prep hp h
    unfold find_most_influenced_community_local
    split_ifs
    · rfl
    · rw [hp]
      dsimp only
      split_ifs
      · rfl
      · rw [first_surviving_none (fun q hq => h q (((prepare_probs hp).2 q).mp hq).1)]

theorem k_packaged (enum : List Nat → List Nat) (henum : ∀ l, (enum l).Perm l)
    (k_core : Int) (final_states : List NodeState) (g : InfGraph)
    (query_nodes : List Nat) :
    WellPackaged final_states
      (find_k_core_community enum k_core final_states g query_nodes) := by
  unfold find_k_core_community
  split_ifs with h1
  · exact empty_result_ok _
  · cases hp : prepare_search_space final_states g query_nodes with
    | none => exact empty_result_ok _
    | some prep =>
      dsimp only
      split_ifs with h2
      · exact empty_result_ok _
      · cases hs : first_surviving prep.valid_query_nodes
            (k_core_candidates enum k_core (build_undirected_adj enum g prep.search_space)
              prep.search_space).candidates with
        | none => exact empty_result_ok _
        | some sq =>
          dsimp only
          rw [(prepare_probs hp).1]
          apply package_result_ok enum henum
          intro v hv
          have hsq := (first_surviving_spec hs).2
          have hD := extract_connected_component_spec
            (build_undirected_adj enum g prep.search_space) _ sq hsq
          exact (prepare_search_space_spec hp).2.2 v
            (k_candidates_in_space enum k_core _ _ v (hD.sub hsq v hv))

theorem k_failure (enum : List Nat → List Nat) (k_core : Int)
    (final_states : List NodeState) (g : InfGraph) (query_nodes : List Nat) :
    EmptyOnFailure final_states g query_nodes (k_core < 0)
      (fun prep =>
        (k_core_candidates enum k_core (build_undirected_adj enum g prep.search_space)
          prep.search_space).candidates)
      (find_k_core_community enum k_core final_states g query_nodes) := by
  refine ⟨?_, ?_, ?_, ?_⟩
  · intro h
    unfold find_k_core_community
    rw [if_pos (Or.inl (by rw [h]; rfl))]
  · intro h
    unfold find_k_core_community
    rw [if_pos (Or.inr h)]
  · intro h
    unfold find_k_core_community
    split_ifs
    · rfl
    · rw [(prepare_none_iff final_states g query_nodes).mpr h]
  · intro prep hp h
    unfold find_k_core_community
    split_ifs
    · rfl
    · rw [hp]
      dsimp only
      split_ifs
      · rfl
      · rw [first_surviving_none (fun q hq => h q (((prepare_probs hp).2 q).mp hq).1)]

theorem truss_packaged (enum : List Nat → List Nat) (henum : ∀ l, (enum l).Perm l)
    (k_truss : Int) (final_states : List NodeState) (g : InfGraph)
    (query_nodes : List Nat) :
    WellPackaged final_states
      (find_k_truss_community enum k_truss final_states g query_nodes) := by
  unfold find_k_truss_community
  split_ifs with h1
  · exact empty_result_ok _
  · cases hp : prepare_search_space final_states g query_nodes with
    | none => exact empty_result_ok _
    | some prep =>
      dsimp only
      split_ifs with h2
      · exact empty_result_ok _
      · cases hs : first_surviving prep.valid_query_nodes
            (truss_nodes (k_truss_edges (k_truss - 2)
              (build_undirected_adj enum g prep.search_space)).current_edges) with
        | none => exact empty_result_ok _
        | some sq =>
          dsimp only
          rw [(prepare_probs hp).1]
          apply package_result_ok enum henum
          intro v hv
          have hsq := (first_surviving_spec hs).2
          have hD := extract_connected_component_spec
            (truss_adj (k_truss_edges (k_truss - 2)
              (build_undirected_adj enum g prep.search_space)).current_edges) _ sq hsq
          exact (prepare_search_space_spec hp).2.2 v
            (truss_nodes_in_space (build_undirected_adj_ok enum henum g prep.search_space)
              (k_truss - 2) v (hD.sub hsq v hv))

theorem truss_failure (enum : List Nat → List Nat) (k_truss : Int)
    (final_states : List NodeState) (g : InfGraph) (query_nodes : List Nat) :
    EmptyOnFailure final_states g query_nodes (k_truss < 2)
      (fun prep =>
        truss_nodes (k_truss_edges (k_truss - 2)
          (build_undirected_adj enum g prep.search_space)).current_edges)
      (find_k_truss_community enum k_truss final_states g query_nodes) := by
  refine ⟨?_, ?_, ?_, ?_⟩
  · intro h
    unfold find_k_truss_community
    rw [if_pos (Or.inl (by rw [h]; rfl))]
  · intro h
    unfold find_k_truss_community
    rw [if_pos (Or.inr h)]
  · intro h
    unfold find_k_truss_community
    split_ifs
    · rfl
    · rw [(prepare_none_iff final_states g query_nodes).mpr h]
  · intro prep hp h
    unfold find_k_truss_community
    split_ifs
    · rfl
    · rw [hp]
      dsimp only
      split_ifs
      · rfl
      · rw [first_surviving_none (fun q hq => h q (((prepare_probs hp).2 q).mp hq).1)]

end PackageLemmas

/-! ## The coverage estimate `InfluenceHyperGraph` -/

section CoverageLemmas

theorem count_snoc_bool (l : List Bool) (a : Bool) :
    (l ++ [a]).count true = l.count true + if a = true then 1 else 0 := by
  rw [List.count_append]
  cases a
  all_goals simp

theorem count_true_eq_filter : ∀ (flags : List Bool),
    flags.count true
      = ((List.range flags.length).filter (fun i => flags.getD i false)).length := by
  intro flags
  induction flags using List.reverseRecOn with
  | nil => rfl
  | append_singleton l a ih =>
    rw [count_snoc_bool, List.length_append, List.length_singleton, List.range_succ,
      List.filter_append, List.length_append, ih]
    congr 1
    · congr 1
      apply List.filter_congr
      intro i hi
      rw [List.mem_range] at hi
      rw [List.getD_append _ _ _ _ hi]
    · have h : (l ++ [a]).getD l.length false = a := by
        rw [List.getD_append_right _ _ _ _ (le_refl _)]
        simp
      cases a
      · simp [h]
      · simp [h]

theorem count_true_eq_card (flags : List Bool) :
    flags.count true
      = ((Finset.range flags.length).filter (fun i => flags.getD i false = true)).card := by
  rw [count_true_eq_filter]
  have hnd : ((List.range flags.length).filter (fun i => flags.getD i false)).Nodup :=
    (List.nodup_range _).filter _
  rw [← List.toFinset_card_of_nodup hnd]
  congr 1
  ext i
  simp

/-- The counting loop of `InfluenceHyperGraph` over the RR sets of one node. -/
theorem count_sets_spec (L : Nat) : ∀ (rrs : List Nat) (s : List Bool × Nat),
    s.1.length = L → (∀ rr, rr ∈ rrs → rr < L) → s.2 = s.1.count true →
      (InfGraph.count_sets rrs s).1.length = L ∧
      (InfGraph.count_sets rrs s).2 = (InfGraph.count_sets rrs s).1.count true ∧
      ∀ i, (InfGraph.count_sets rrs s).1.getD i false = true ↔
        (s.1.getD i false = true ∨ i ∈ rrs)
  | [], s, hl, _, hc => ⟨hl, hc, fun i => by simp [InfGraph.count_sets]⟩
  | rr :: rest, s, hl, hrr, hc => by
    rw [InfGraph.count_sets]
    split_ifs with h
    · have hlt : rr < s.1.length := by rw [hl]; exact hrr rr (List.mem_cons_self _ _)
      obtain ⟨r1, r2, r3⟩ := count_sets_spec L rest (s.1.set rr true, s.2 + 1)
        (by rw [List.length_set]; exact hl)
        (fun x hx => hrr x (List.mem_cons_of_mem _ hx))
        (by
          show s.2 + 1 = (s.1.set rr true).count true
          rw [count_set_true _ _ hlt h, hc])
      refine ⟨r1, r2, fun i => ?_⟩
      rw [r3 i]
      show (s.1.set rr true).getD i false = true ∨ i ∈ rest ↔ _
      rw [getD_set_bool, List.mem_cons]
      by_cases hi : rr = i
      · rw [if_pos ⟨hi, hlt⟩]
        simp [hi]
      · rw [if_neg (fun hh => hi hh.1)]
        have : i ≠ rr := fun hh => hi hh.symm
        simp [this]
    · obtain ⟨r1, r2, r3⟩ := count_sets_spec L rest s hl
        (fun x hx => hrr x (List.mem_cons_of_mem _ hx)) hc
      refine ⟨r1, r2, fun i => ?_⟩
      rw [r3 i, List.mem_cons]
      constructor
      · rintro (h1 | h1)
        · exact Or.inl h1
        · exact Or.inr (Or.inr h1)
      · rintro (h1 | h1 | h1)
        · exact Or.inl h1
        · left
          rw [h1]
          simpa using h
        · exact Or.inr h1

theorem count_nodes_spec (hyperG : List (List Nat)) (L : Nat)
    (hidx : ∀ v rr, rr ∈ hyperG.getD v [] → rr < L) :
    ∀ (nodes : List Nat) (s : List Bool × Nat), s.1.length = L → s.2 = s.1.count true →
      (nodes.foldl (fun s node => InfGraph.count_sets (hyperG.getD node []) s) s).1.length = L ∧
      (nodes.foldl (fun s node => InfGraph.count_sets (hyperG.getD node []) s) s).2
        = (nodes.foldl (fun s node => InfGraph.count_sets (hyperG.getD node []) s) s).1.count
            true ∧
      ∀ i, (nodes.foldl (fun s node => InfGraph.count_sets (hyperG.getD node []) s) s).1.getD
          i false = true ↔
        (s.1.getD i false = true ∨ ∃ u, u ∈ nodes ∧ i ∈ hyperG.getD u [])
  | [], s, hl, hc => ⟨hl, hc, fun i => by simp⟩
  | u :: rest, s, hl, hc => by
    rw [List.foldl_cons]
    obtain ⟨c1, c2, c3⟩ := count_sets_spec L (hyperG.getD u []) s hl (hidx u) hc
    obtain ⟨r1, r2, r3⟩ := count_nodes_spec hyperG L hidx rest _ c1 c2
    refine ⟨r1, r2, fun i => ?_⟩
    rw [r3 i, c3 i]
    constructor
    · rintro ((h1 | h1) | ⟨w, h1, h2⟩)
      · exact Or.inl h1
      · exact Or.inr ⟨u, List.mem_cons_self _ _, h1⟩
      · exact Or.inr ⟨w, List.mem_cons_of_mem _ h1, h2⟩
    · rintro (h1 | ⟨w, h1, h2⟩)
      · exact Or.inl (Or.inl h1)
      · rcases List.mem_cons.mp h1 with h3 | h3
        · rw [h3] at h2
          exact Or.inl (Or.inr h2)
        · exact Or.inr ⟨w, h3, h2⟩

/-- The number that `InfluenceHyperGraph` counts is the number of RR sets that hold a
node of the result. -/
theorem covered_count_spec (g : InfGraph) (hbij : RRBij g.hyperG g.hyperGT) :
    g.covered_count
      = if g.result_node_set = [] ∨ g.hyperGT = [] then none
        else some (coveredBy g.hyperGT g.result_node_set.toFinset).card := by
  unfold InfGraph.covered_count
  by_cases h : g.result_node_set = [] ∨ g.hyperGT = []
  · rw [if_pos h, if_pos]
    rcases h with h | h
    · rw [h]; rfl
    · rw [h]; simp
  · rw [if_neg h, if_neg]
    · obtain ⟨r1, r2, r3⟩ := count_nodes_spec g.hyperG g.hyperGT.length
        (fun v rr hrr => hbij.idx_lt hrr) g.result_node_set
        (List.replicate g.hyperGT.length false, 0) (List.length_replicate _ _)
        (by rw [count_replicate_false])
      rw [r2, count_true_eq_card, r1]
      congr 2
      unfold coveredBy
      apply Finset.filter_congr
      intro i _
      rw [r3 i]
      constructor
      · rintro (h1 | ⟨u, h1, h2⟩)
        · rw [getD_replicate_false] at h1
          exact absurd h1 (by decide)
        · exact ⟨u, List.mem_toFinset.mpr h1, (hbij.mem_iff i u).mp h2⟩
      · rintro ⟨u, h1, h2⟩
        exact Or.inr ⟨u, List.mem_toFinset.mp h1, (hbij.mem_iff i u).mpr h2⟩
    · push_neg at h
      simp [h.1, h.2]

theorem coveredBy_mono (hyperGT : List (List Nat)) {S T : Finset Nat} (h : S ⊆ T) :
    (coveredBy hyperGT S).card ≤ (coveredBy hyperGT T).card := by
  apply Finset.card_le_card
  intro i hi
  unfold coveredBy at hi ⊢
  rw [Finset.mem_filter] at hi ⊢
  obtain ⟨h1, v, h2, h3⟩ := hi
  exact ⟨h1, v, h h2, h3⟩

end CoverageLemmas

/-! ## The blocker animation -/

section AnimationLemmas

open CommunitySearcher

/-- The set of active ids that `animation_states` builds holds exactly the ids of the
states reported as active. -/
theorem animation_states_spec (probs : List ℚ) (x : Nat) :
    x ∈ (animation_states probs).2 ↔
      ∃ ns, ns ∈ (animation_states probs).1 ∧ ns.id = x ∧ ns.state = "active" := by
  unfold animation_states
  apply foldl_inv
    (fun s : List NodeState × List Nat =>
      x ∈ s.2 ↔ ∃ ns, ns ∈ s.1 ∧ ns.id = x ∧ ns.state = "active")
  · intro s i _ hs
    dsimp only
    split_ifs with h1 h2
    · show x ∈ set_insert i s.2 ↔ ∃ ns, ns ∈ s.1 ++ [_] ∧ _
      rw [mem_set_insert, hs]
      constructor
      · rintro (h | ⟨ns, h3, h4⟩)
        · exact ⟨_, List.mem_append_right _ (List.mem_singleton_self _), h.symm, rfl⟩
        · exact ⟨ns, List.mem_append_left _ h3, h4⟩
      · rintro ⟨ns, h3, h4, h5⟩
        rcases List.mem_append.mp h3 with h6 | h6
        · exact Or.inr ⟨ns, h6, h4, h5⟩
        · rw [List.mem_singleton.mp h6] at h4
          exact Or.inl h4.symm
    · show x ∈ s.2 ↔ ∃ ns, ns ∈ s.1 ++ [_] ∧ _
      rw [hs]
      constructor
      · rintro ⟨ns, h3, h4⟩
        exact ⟨ns, List.mem_append_left _ h3, h4⟩
      · rintro ⟨ns, h3, h4, h5⟩
        rcases List.mem_append.mp h3 with h6 | h6
        · exact ⟨ns, h6, h4, h5⟩
        · rw [List.mem_singleton.mp h6] at h5
          have h7 : ("inactive" : String) = "active" := h5
          exact absurd h7 (by decide)
    · exact hs
  · simp

/-- What the loop over `previously_active_ids` appends. -/
theorem recovered_scan_spec (current_active_ids : List Nat) :
    ∀ (prev : List Nat) (s : List Nat × List Nat),
      ∃ ext, (recovered_scan current_active_ids prev s).1 = s.1 ++ ext ∧ ext.Nodup ∧
        (∀ x, x ∈ ext → x ∈ prev ∧ x ∉ current_active_ids ∧ x ∉ s.2) ∧
        ∀ x, x ∈ (recovered_scan current_active_ids prev s).2 ↔ (x ∈ s.2 ∨ x ∈ ext)
  | [], s => ⟨[], by simp [recovered_scan], List.nodup_nil,
      fun x h => absurd h (List.not_mem_nil x), fun x => by simp [recovered_scan]⟩
  | node_id :: rest, s => by
    rw [recovered_scan]
    split_ifs with h
    · obtain ⟨ext, e1, e2, e3, e4⟩ := recovered_scan_spec current_active_ids rest
        (s.1 ++ [node_id], set_insert node_id s.2)
      refine ⟨node_id :: ext, ?_, ?_, ?_, ?_⟩
      · rw [e1]
        simp
      · refine List.nodup_cons.mpr ⟨?_, e2⟩
        intro hmem
        exact (e3 node_id hmem).2.2 ((mem_set_insert _ _ _).mpr (Or.inl rfl))
      · intro x hx
        rcases List.mem_cons.mp hx with h1 | h1
        · rw [h1]
          exact ⟨List.mem_cons_self _ _, h.1, h.2⟩
        · obtain ⟨a, b, c⟩ := e3 x h1
          exact ⟨List.mem_cons_of_mem _ a, b,
            fun hc => c ((mem_set_insert _ _ _).mpr (Or.inr hc))⟩
      · intro x
        rw [e4 x, mem_set_insert, List.mem_cons]
        tauto
    · obtain ⟨ext, e1, e2, e3, e4⟩ := recovered_scan_spec current_active_ids rest s
      exact ⟨ext, e1, e2, fun x hx => ⟨List.mem_cons_of_mem _ (e3 x hx).1, (e3 x hx).2⟩, e4⟩

/-- With a bound forward table an estimate over 10000 cascades passes both assertions
and leaves the table bound. -/
theorem calculate_some (g : InfGraph) (hp : g.active_probFwd ≠ none)
    (initial_nodes blocking_nodes : List Int) :
    ∃ probs g', g.calculate_final_probabilities initial_nodes 10000 blocking_nodes
        = some (probs, g') ∧ g'.active_probFwd ≠ none := by
  unfold InfGraph.calculate_final_probabilities
  rw [if_neg (by simpa [Option.isNone_iff_eq_none] using hp), if_neg (by decide)]
  exact ⟨_, _, rfl, hp⟩

/-- One pass of the main loop keeps the invariant. -/
theorem animation_step_inv (initial_nodes blocking_nodes : List Int) (s : BlockAnim)
    (i : Nat) (hI : AnimInv s) :
    ∃ s', animation_step initial_nodes blocking_nodes s i = some s' ∧ AnimInv s' ∧
      s'.simulation_steps.length = s.simulation_steps.length + 1 := by
  obtain ⟨probs, g', hc, hb⟩ := calculate_some s.g hI.bound initial_nodes
    (blocking_nodes.take (i + 1))
  unfold animation_step
  rw [hc]
  obtain ⟨ext, e1, e2, e3, e4⟩ := recovered_scan_spec (animation_states probs).2
    s.previously_active_ids ([], s.all_recovered_ids)
  rw [List.nil_append] at e1
  refine ⟨_, rfl, ⟨hb, ?_, ?_, ?_, ?_, ?_⟩, ?_⟩
  · intro st hst x
    rw [List.getLast?_append, List.getLast?_singleton] at hst
    have hst' := Option.some.inj hst
    rw [← hst']
    exact animation_states_spec probs x
  · intro st hst x hx
    show x ∈ (recovered_scan _ _ _).2
    rw [e4 x]
    rcases List.mem_append.mp hst with h1 | h1
    · exact Or.inl (hI.recorded st h1 x hx)
    · rw [List.mem_singleton.mp h1] at hx
      right
      rw [← e1]
      exact hx
  · show ((s.simulation_steps ++ [_]).map SimulationStep.newly_recovered_nodes).Pairwise _
    rw [List.map_append, List.pairwise_append]
    refine ⟨hI.disjoint, by simp, ?_⟩
    intro a ha b hb'
    obtain ⟨st, hst, hsa⟩ := List.mem_map.mp ha
    simp only [List.map_cons, List.map_nil, List.mem_singleton] at hb'
    rw [hb', e1, ← hsa]
    intro x hx1 hx2
    exact (e3 x hx2).2.2 (hI.recorded st hst x hx1)
  · intro st hst
    rcases List.mem_append.mp hst with h1 | h1
    · exact hI.nodup st h1
    · rw [List.mem_singleton.mp h1]
      show (recovered_scan _ _ _).1.Nodup
      rw [e1]
      exact e2
  · show (s.simulation_steps ++ [_]).Chain' RecoveredBetween
    refine List.Chain'.append hI.consecutive (List.chain'_singleton _) ?_
    intro a ha b hb'
    simp only [List.head?_cons, Option.mem_def, Option.some.injEq] at hb'
    rw [← hb']
    intro x hx
    have hx' : x ∈ ext := by rw [← e1]; exact hx
    obtain ⟨h1, h2, _⟩ := e3 x hx'
    refine ⟨(hI.last_active a ha x).mp h1, ?_⟩
    intro hact
    exact h2 ((animation_states_spec probs x).mpr hact)
  · show (s.simulation_steps ++ [_]).length = _
    rw [List.length_append, List.length_singleton]

/-- The main loop returns and keeps the invariant. -/
theorem animation_loop_inv (initial_nodes blocking_nodes : List Int) :
    ∀ (l : List Nat) (s : BlockAnim), AnimInv s →
      ∃ s', animation_loop initial_nodes blocking_nodes l s = some s' ∧ AnimInv s' ∧
        s'.simulation_steps.length = s.simulation_steps.length + l.length
  | [], s, hI => ⟨s, rfl, hI, rfl⟩
  | i :: rest, s, hI => by
    obtain ⟨s1, h1, h2, h3⟩ := animation_step_inv initial_nodes blocking_nodes s i hI
    obtain ⟨s2, h4, h5, h6⟩ := animation_loop_inv initial_nodes blocking_nodes rest s1 h2
    refine ⟨s2, ?_, h5, ?_⟩
    · rw [animation_loop, h1]
      exact h4
    · rw [h6, h3, List.length_cons]
      omega

/-- The configuration of a query succeeds for the two propagation models and the three
probability models, and binds the forward table. -/
theorem configure_query_some (dataset : InfGraph) (propagation_model probability_model : String)
    (hm : propagation_model = "IC" ∨ propagation_model = "LT")
    (hp : probability_model = "WC" ∨ probability_model = "TR" ∨ probability_model = "CO") :
    ∃ g, configure_query dataset propagation_model probability_model = some g ∧
      g.active_probFwd ≠ none := by
  unfold configure_query model_str_to_enum InfGraph.setActiveProbabilityModel
  rcases hm with hm | hm
  all_goals
    rcases hp with hp | hp | hp
    all_goals
      subst hm
      subst hp
      simp

/-- The state in which the main loop starts satisfies the invariant. -/
theorem animation_start_inv (g0 : InfGraph) (hb : g0.active_probFwd ≠ none)
    (probs_before : List ℚ) :
    AnimInv
      { g := g0
        previously_active_ids := (animation_states probs_before).2
        all_recovered_ids := []
        simulation_steps :=
          [{ step := 0
             newly_activated_nodes := []
             newly_recovered_nodes := []
             node_states := (animation_states probs_before).1 }] } := by
  refine ⟨hb, ?_, ?_, ?_, ?_, List.chain'_singleton _⟩
  · intro st hst x
    have hst' : some _ = some st := hst
    rw [← Option.some.inj hst']
    exact animation_states_spec probs_before x
  · intro st hst x hx
    have h1 : st ∈ [_] := hst
    rw [List.mem_singleton.mp h1] at hx
    exact absurd hx (List.not_mem_nil x)
  · simp
  · intro st hst
    have h1 : st ∈ [_] := hst
    rw [List.mem_singleton.mp h1]
    exact List.nodup_nil

/-- The steps are numbered in the order in which they are recorded. -/
theorem animation_loop_numbered (initial_nodes blocking_nodes : List Int) :
    ∀ (k a : Nat) (s s' : BlockAnim),
      s.simulation_steps.map SimulationStep.step = List.range (a + 1) →
      animation_loop initial_nodes blocking_nodes (List.range' a k) s = some s' →
      s'.simulation_steps.map SimulationStep.step = List.range (a + k + 1)
  | 0, a, s, s', h0, h => by
    have e : s = s' := Option.some.inj h
    rw [← e]
    exact h0
  | k + 1, a, s, s', h0, h => by
    rw [List.range'_succ, animation_loop] at h
    cases h1 : animation_step initial_nodes blocking_nodes s a with
    | none =>
      rw [h1] at h
      exact Option.noConfusion h
    | some s1 =>
      rw [h1] at h
      have h2 : s1.simulation_steps.map SimulationStep.step = List.range (a + 1 + 1) := by
        unfold animation_step at h1
        split at h1
        · exact Option.noConfusion h1
        · have e := Option.some.inj h1
          rw [← e]
          show (s.simulation_steps ++ [_]).map SimulationStep.step = _
          rw [List.map_append, h0, List.range_succ (a + 1)]
          rfl
      have h3 := animation_loop_numbered initial_nodes blocking_nodes k (a + 1) s1 s' h2 h
      rw [h3]
      congr 1
      omega

end AnimationLemmas

/-! ## The estimate on the two-node snapshot with the alternating PRNG -/

section AlternatingLemmas

/-- The graph object of a query on `alternatingGraph` under the models IC and WC. -/
theorem alternating_configured :
    configure_query alternatingGraph "IC" "WC"
      = some { alternatingGraph with
          influModel := InfluModel.IC
          active_probT := some alternatingGraph.prob_wc
          active_probFwd := some alternatingGraph.prob_fwd_wc } := by
  unfold configure_query
  have h : model_str_to_enum "IC" = some InfluModel.IC := by decide
  rw [h]
  rfl

/-- One cascade from the seed 0 on the two-node snapshot: the node 1 is activated when
the draw lies below 1. -/
theorem alternating_trial (s : Sfmt) :
    InfGraph.run_trial
        { alternatingGraph with
          influModel := InfluModel.IC
          active_probT := some alternatingGraph.prob_wc
          active_probFwd := some alternatingGraph.prob_fwd_wc }
        (InfGraph.flag_nodes 2 []) [0] s
      = ([true, decide ((sfmt_genrand_real1 s).1 < 1)], (sfmt_genrand_real1 s).2) := by
  have hf : InfGraph.flag_nodes 2 [] = [false, false] := rfl
  rw [hf]
  by_cases h : (sfmt_genrand_real1 s).1 < 1
  · simp [InfGraph.run_trial, InfGraph.ic_trial, InfGraph.seed_trial, InfGraph.ic_fwd_loop,
      InfGraph.ic_fwd_edges, InfGraph.probFwd, alternatingGraph, demoInfGraph, h]
  · simp [InfGraph.run_trial, InfGraph.ic_trial, InfGraph.seed_trial, InfGraph.ic_fwd_loop,
      InfGraph.ic_fwd_edges, InfGraph.probFwd, alternatingGraph, demoInfGraph, h]

theorem alternating_draw (i : Nat) :
    ((sfmt_genrand_real1
        { stream := fun k => if k % 2 = 0 then 0 else 4294967295, drawn := i }).1 < 1)
      ↔ i % 2 = 0 := by
  unfold sfmt_genrand_real1
  by_cases h : i % 2 = 0
  · simp [h]
  · simp [h]

theorem alternating_before (i : Nat) :
    InfGraph.sfmt_before_trial
        { alternatingGraph with
          influModel := InfluModel.IC
          active_probT := some alternatingGraph.prob_wc
          active_probFwd := some alternatingGraph.prob_fwd_wc } [0] [] i
      = { stream := fun k => if k % 2 = 0 then 0 else 4294967295, drawn := i } := by
  unfold InfGraph.sfmt_before_trial
  induction i with
  | zero => rfl
  | succ i ih =>
    rw [Function.iterate_succ_apply', ih]
    have h := alternating_trial
      { stream := fun k => if k % 2 = 0 then 0 else 4294967295, drawn := i }
    have h2 := congrArg Prod.snd h
    exact h2

theorem alternating_activated (i : Nat) :
    InfGraph.activated_in_trial
        { alternatingGraph with
          influModel := InfluModel.IC
          active_probT := some alternatingGraph.prob_wc
          active_probFwd := some alternatingGraph.prob_fwd_wc } [0] [] i
      = [true, decide (i % 2 = 0)] := by
  unfold InfGraph.activated_in_trial
  rw [alternating_before]
  have h := congrArg Prod.fst (alternating_trial
    { stream := fun k => if k % 2 = 0 then 0 else 4294967295, drawn := i })
  have h2 : decide ((sfmt_genrand_real1
      { stream := fun k => if k % 2 = 0 then 0 else 4294967295, drawn := i }).1 < 1)
      = decide (i % 2 = 0) := by
    rw [decide_eq_decide]
    exact alternating_draw i
  rw [h2] at h
  exact h

theorem countP_even_range : ∀ k : Nat,
    (List.range (2 * k)).countP (fun i => decide (i % 2 = 0)) = k
  | 0 => rfl
  | k + 1 => by
    have e : 2 * (k + 1) = 2 * k + 1 + 1 := by ring
    rw [e, List.range_succ, List.range_succ, List.countP_append, List.countP_append,
      countP_even_range k]
    have h1 : (2 * k) % 2 = 0 := by omega
    have h2 : (2 * k + 1) % 2 ≠ 0 := by omega
    simp [h1, h2]

/-- The estimate over 10000 cascades on the two-node snapshot with the alternating
PRNG: the seed has probability 1 and the node 1 has probability one half. -/
theorem alternating_estimate :
    ∃ g', InfGraph.calculate_final_probabilities
        { alternatingGraph with
          influModel := InfluModel.IC
          active_probT := some alternatingGraph.prob_wc
          active_probFwd := some alternatingGraph.prob_fwd_wc } [0] 10000 []
      = some ([1, 1 / 2], g') := by
  obtain ⟨hlen, hval⟩ := calculate_value
    { alternatingGraph with
      influModel := InfluModel.IC
      active_probT := some alternatingGraph.prob_wc
      active_probFwd := some alternatingGraph.prob_fwd_wc } [0] [] 10000
  have c0 : InfGraph.activation_count
      { alternatingGraph with
        influModel := InfluModel.IC
        active_probT := some alternatingGraph.prob_wc
        active_probFwd := some alternatingGraph.prob_fwd_wc } [0] [] 10000 0 = 10000 := by
    unfold InfGraph.activation_count
    simp only [alternating_activated]
    simp
  have c1 : InfGraph.activation_count
      { alternatingGraph with
        influModel := InfluModel.IC
        active_probT := some alternatingGraph.prob_wc
        active_probFwd := some alternatingGraph.prob_fwd_wc } [0] [] 10000 1 = 5000 := by
    unfold InfGraph.activation_count
    simp only [alternating_activated]
    exact countP_even_range 5000
  have ht : (10000 : Int).toNat = 10000 := rfl
  have hvec : InfGraph.divide_counts
      ({ alternatingGraph with
        influModel := InfluModel.IC
        active_probT := some alternatingGraph.prob_wc
        active_probFwd := some alternatingGraph.prob_fwd_wc } : InfGraph).n 10000
      (InfGraph.trials_loop
        { alternatingGraph with
          influModel := InfluModel.IC
          active_probT := some alternatingGraph.prob_wc
          active_probFwd := some alternatingGraph.prob_fwd_wc }
        (InfGraph.flag_nodes
          ({ alternatingGraph with
            influModel := InfluModel.IC
            active_probT := some alternatingGraph.prob_wc
            active_probFwd := some alternatingGraph.prob_fwd_wc } : InfGraph).n [])
        [0] (10000 : Int).toNat
        (List.replicate
          ({ alternatingGraph with
            influModel := InfluModel.IC
            active_probT := some alternatingGraph.prob_wc
            active_probFwd := some alternatingGraph.prob_fwd_wc } : InfGraph).n 0,
          ({ alternatingGraph with
            influModel := InfluModel.IC
            active_probT := some alternatingGraph.prob_wc
            active_probFwd := some alternatingGraph.prob_fwd_wc } : InfGraph).sfmt)).1
      = [1, 1 / 2] := by
    apply List.ext_getElem
    · rw [hlen]
      rfl
    · intro i h1 h2
      have hi : i < 2 := by
        rw [hlen] at h1
        exact h1
      rw [← List.getD_eq_getElem _ 0 h1, ← List.getD_eq_getElem _ 0 h2]
      interval_cases i
      · refine (hval 0 (by decide)).trans ?_
        rw [ht, c0]
        norm_num
      · refine (hval 1 (by decide)).trans ?_
        rw [ht, c1]
        norm_num
  unfold InfGraph.calculate_final_probabilities
  rw [if_neg (by simp), if_neg (by decide), hvec]
  exact ⟨_, rfl⟩

end AlternatingLemmas

/-! ## The recorded cascades -/

section TrackingLemmas

open CommunitySearcher

variable {V : Type}

theorem length_set_insert_fresh (x : Nat) : ∀ (l : List Nat), x ∉ l →
    (set_insert x l).length = l.length + 1
  | [], _ => rfl
  | y :: ys, h => by
    rw [set_insert]
    split_ifs with h1 h2
    · rfl
    · exact absurd (h2 ▸ List.mem_cons_self y ys) h
    · rw [List.length_cons, length_set_insert_fresh x ys
        (fun hx => h (List.mem_cons_of_mem _ hx)), List.length_cons]

theorem length_set_insert_le (x : Nat) : ∀ (l : List Nat),
    l.length ≤ (set_insert x l).length
  | [] => Nat.zero_le _
  | y :: ys => by
    rw [set_insert]
    split_ifs with h1 h2
    · exact Nat.le_succ _
    · exact le_refl _
    · rw [List.length_cons, List.length_cons]
      exact Nat.succ_le_succ (length_set_insert_le x ys)

/-- A depth stays a depth in a map that keeps the recorded keys and their values. -/
theorem Depth.keep {root : V} {entry : Nat → ℚ → V} {pm pm' : OrdMap V}
    (hk : ∀ k, k ∈ pm.keys → k ∈ pm'.keys ∧ pm'.val k = pm.val k) {v d : Nat}
    (h : Depth root entry pm v d) : Depth root entry pm' v d := by
  induction h with
  | base v h1 h2 => exact Depth.base v (hk v h1).1 ((hk v h1).2.trans h2)
  | step v u p d h1 h2 _ ih => exact Depth.step v u p d (hk v h1).1 ((hk v h1).2.trans h2) ih

theorem drop_eq_cons {α : Type} : ∀ (l : List α) (j : Nat) (v : α) (rest : List α),
    l.drop j = v :: rest → l[j]? = some v ∧ l.drop (j + 1) = rest
  | [], j, v, rest, h => by simp at h
  | a :: l, 0, v, rest, h => by
    simp only [List.drop_zero, List.cons.injEq] at h
    simp [h.1, h.2]
  | a :: l, j + 1, v, rest, h => by
    rw [List.drop_succ_cons] at h
    obtain ⟨h1, h2⟩ := drop_eq_cons l j v rest h
    simp [h1, h2]

/-- Taking the front entry off the queue keeps the invariant. -/
theorem TInv.pop {g : InfGraph} {S : Nat → Prop} {root : V} {entry : Nat → ℚ → V}
    {a : List Bool} {u : Nat} {q : List Nat} {pm : OrdMap V}
    (h : TInv g S root entry a (u :: q) pm) : TInv g S root entry a q pm :=
  { h with q_keys := fun w hw => h.q_keys w (List.mem_cons_of_mem _ hw) }

/-- The three statements that activate, queue and record a node `v` reached over the
edge number `j` of a recorded node `u` keep the invariant. -/
theorem TInv.activate {g : InfGraph} {S : Nat → Prop} {root : V} {entry : Nat → ℚ → V}
    {a : List Bool} {q : List Nat} {pm : OrdMap V} (h : TInv g S root entry a q pm)
    {u v j : Nat} (hu : u ∈ pm.keys) (hj : (g.g.getD u [])[j]? = some v) (hv : v < g.n)
    (ha : a.getD v false = false) :
    TInv g S root entry (a.set v true) (q ++ [v])
      (pm.assign v (entry u ((g.probFwd u).getD j 0))) := by
  have hvk : v ∉ pm.keys := fun hk => by
    rw [(h.keys_iff v).mp hk] at ha
    exact Bool.noConfusion ha
  have hkeep : ∀ k, k ∈ pm.keys →
      k ∈ (pm.assign v (entry u ((g.probFwd u).getD j 0))).keys ∧
      (pm.assign v (entry u ((g.probFwd u).getD j 0))).val k = pm.val k := by
    intro k hk
    refine ⟨(mem_set_insert _ _ _).mpr (Or.inr hk), ?_⟩
    show Function.update pm.val v _ k = pm.val k
    rw [Function.update_noteq (fun (e : k = v) => hvk (by rw [← e]; exact hk))]
  have hlenk : (pm.assign v (entry u ((g.probFwd u).getD j 0))).keys.length
      = pm.keys.length + 1 := length_set_insert_fresh v pm.keys hvk
  refine ⟨?_, ?_, ?_, ?_, ?_, ?_, ?_⟩
  · rw [List.length_set]
    exact h.len
  · intro w
    show w ∈ set_insert v pm.keys ↔ _
    rw [mem_set_insert, getD_set_bool, h.keys_iff w]
    by_cases hw : v = w
    · rw [if_pos ⟨hw, by rw [h.len]; exact hv⟩]
      simp [hw]
    · rw [if_neg (fun hh => hw hh.1)]
      have : w ≠ v := fun e => hw e.symm
      simp [this]
  · exact set_insert_sorted v pm.keys h.sorted
  · intro w hw
    rcases List.mem_append.mp hw with h1 | h1
    · exact (hkeep w (h.q_keys w h1)).1
    · rw [List.mem_singleton.mp h1]
      exact (mem_set_insert _ _ _).mpr (Or.inl rfl)
  · intro w hw
    exact (hkeep w (h.seeds_in w hw)).1
  · intro w hw
    rcases (mem_set_insert _ _ _).mp hw with h1 | h1
    · right
      refine ⟨u, j, ?_, (hkeep u hu).1, ?_, ?_⟩
      · rw [h1]
        show Function.update pm.val v _ v = _
        rw [Function.update_same]
      · rw [h1]
        exact hj
      · rw [h1]
        exact fun hs => hvk (h.seeds_in v hs)
    · rw [(hkeep w h1).2]
      rcases h.recorded w h1 with h2 | ⟨u', j', h2, h3, h4, h5⟩
      · exact Or.inl h2
      · exact Or.inr ⟨u', j', h2, (hkeep u' h3).1, h4, h5⟩
  · intro w hw
    rcases (mem_set_insert _ _ _).mp hw with h1 | h1
    · obtain ⟨d, hd, hlt⟩ := h.depth u hu
      refine ⟨d + 1, ?_, by rw [hlenk]; omega⟩
      rw [h1]
      refine Depth.step v u ((g.probFwd u).getD j 0) d
        ((mem_set_insert _ _ _).mpr (Or.inl rfl)) ?_ (hd.keep hkeep)
      show Function.update pm.val v _ v = _
      rw [Function.update_same]
    · obtain ⟨d, hd, hlt⟩ := h.depth w h1
      exact ⟨d, hd.keep hkeep, by rw [hlenk]; omega⟩

/-- The statements that activate, queue and record a seed `v` keep the invariant of the
seed loop: every recorded node is a seed recorded with the value `root`. -/
theorem TInv.add_root {g : InfGraph} {S S' : Nat → Prop} {root : V} {entry : Nat → ℚ → V}
    {a : List Bool} {q : List Nat} {pm : OrdMap V} (h : TInv g S root entry a q pm)
    (hroots : ∀ k, k ∈ pm.keys → pm.val k = root ∧ S k) {v : Nat} (hv : v < g.n)
    (hS : ∀ w, S' w ↔ (S w ∨ w = v)) :
    TInv g S' root entry (a.set v true) (q ++ [v]) (pm.assign v root) ∧
      ∀ k, k ∈ (pm.assign v root).keys → (pm.assign v root).val k = root ∧ S' k := by
  have hval : ∀ k, k ∈ (pm.assign v root).keys → (pm.assign v root).val k = root ∧ S' k := by
    intro k hk
    rcases (mem_set_insert _ _ _).mp hk with h1 | h1
    · refine ⟨?_, (hS k).mpr (Or.inr h1)⟩
      rw [h1]
      show Function.update pm.val v root v = root
      rw [Function.update_same]
    · refine ⟨?_, (hS k).mpr (Or.inl (hroots k h1).2)⟩
      show Function.update pm.val v root k = root
      by_cases e : k = v
      · rw [e, Function.update_same]
      · rw [Function.update_noteq e]
        exact (hroots k h1).1
  refine ⟨⟨?_, ?_, ?_, ?_, ?_, ?_, ?_⟩, hval⟩
  · rw [List.length_set]
    exact h.len
  · intro w
    show w ∈ set_insert v pm.keys ↔ _
    rw [mem_set_insert, getD_set_bool, h.keys_iff w]
    by_cases hw : v = w
    · rw [if_pos ⟨hw, by rw [h.len]; exact hv⟩]
      simp [hw]
    · rw [if_neg (fun hh => hw hh.1)]
      have : w ≠ v := fun e => hw e.symm
      simp [this]
  · exact set_insert_sorted v pm.keys h.sorted
  · intro w hw
    rcases List.mem_append.mp hw with h1 | h1
    · exact (mem_set_insert _ _ _).mpr (Or.inr (h.q_keys w h1))
    · rw [List.mem_singleton.mp h1]
      exact (mem_set_insert _ _ _).mpr (Or.inl rfl)
  · intro w hw
    rcases (hS w).mp hw with h1 | h1
    · exact (mem_set_insert _ _ _).mpr (Or.inr (h.seeds_in w h1))
    · exact (mem_set_insert _ _ _).mpr (Or.inl h1)
  · intro w hw
    exact Or.inl (hval w hw)
  · intro w hw
    refine ⟨0, Depth.base w hw (hval w hw).1, ?_⟩
    exact List.length_pos_of_mem hw

theorem not_count_of_inactive {g : InfGraph} {S : Nat → Prop} {root : V}
    {entry : Nat → ℚ → V} {a : List Bool} {q : List Nat} {pm : OrdMap V}
    (h : TInv g S root entry a q pm) {v : Nat} (ha : a.getD v false = false) :
    pm.count v = false := by
  unfold OrdMap.count
  cases hc : pm.keys.contains v with
  | false => rfl
  | true =>
    have hk : v ∈ pm.keys := by simpa using hc
    rw [(h.keys_iff v).mp hk] at ha
    exact Bool.noConfusion ha

/-- The loop over the out-edges of a recorded node `u` in the branch for IC and WC keeps
the invariant, and every new flag comes with one new queue entry. -/
theorem ic_track_edges_inv (g : InfGraph) (hG : ∀ u v, v ∈ g.g.getD u [] → v < g.n)
    (S : Nat → Prop) (root : V) (entry : Nat → ℚ → V) (B : List Bool) (u : Nat) :
    ∀ (row : List Nat) (j : Nat) (st : Track V),
      TInv g S root entry st.activated st.q st.parent_map → u ∈ st.parent_map.keys →
      (g.g.getD u []).drop j = row →
      TInv g S root entry
        (InfGraph.ic_track_edges B (g.probFwd u) (entry u) row j st).activated
        (InfGraph.ic_track_edges B (g.probFwd u) (entry u) row j st).q
        (InfGraph.ic_track_edges B (g.probFwd u) (entry u) row j st).parent_map ∧
      (InfGraph.ic_track_edges B (g.probFwd u) (entry u) row j st).q.length
          + st.activated.count true
        = st.q.length
          + (InfGraph.ic_track_edges B (g.probFwd u) (entry u) row j st).activated.count true
  | [], _, st, hI, _, _ => ⟨hI, rfl⟩
  | v :: rest, j, st, hI, hu, hrow => by
    obtain ⟨hj, hrest⟩ := drop_eq_cons _ _ _ _ hrow
    rw [InfGraph.ic_track_edges]
    split_ifs with h1 h2
    · exact ic_track_edges_inv g hG S root entry B u rest (j + 1) st hI hu hrest
    · simp only [Bool.or_eq_true, not_or, Bool.not_eq_true] at h1
      have hv : v < g.n := hG u v (List.getElem?_mem hj)
      have hI1 := hI.activate hu hj hv h1.1
      obtain ⟨r1, r2⟩ := ic_track_edges_inv g hG S root entry B u rest (j + 1)
        ({ st with
          activated := st.activated.set v true
          q := st.q ++ [v]
          parent_map := st.parent_map.assign v (entry u ((g.probFwd u).getD j 0))
          sfmt := (sfmt_genrand_real1 st.sfmt).2 } : Track V)
        hI1 ((mem_set_insert _ _ _).mpr (Or.inr hu)) hrest
      refine ⟨r1, ?_⟩
      have e1 : (st.activated.set v true).count true = st.activated.count true + 1 :=
        count_set_true _ _ (by rw [hI.len]; exact hv) h1.1
      have e2 : (st.q ++ [v]).length = st.q.length + 1 := by simp
      have r2' : _ + (st.activated.set v true).count true = (st.q ++ [v]).length + _ := r2
      rw [e1, e2] at r2'
      omega
    · exact ic_track_edges_inv g hG S root entry B u rest (j + 1)
        ({ st with sfmt := (sfmt_genrand_real1 st.sfmt).2 } : Track V) hI hu hrest

/-- The loop over the out-edges of a recorded node `u` in the LT branch keeps the
invariant, and every new flag comes with one new queue entry. -/
theorem lt_track_edges_inv (g : InfGraph) (hG : ∀ u v, v ∈ g.g.getD u [] → v < g.n)
    (S : Nat → Prop) (root : V) (entry : Nat → ℚ → V) (B : List Bool)
    (thresholds : List ℚ) (u : Nat) :
    ∀ (row : List Nat) (j : Nat) (st : Track V),
      TInv g S root entry st.activated st.q st.parent_map → u ∈ st.parent_map.keys →
      (g.g.getD u []).drop j = row →
      TInv g S root entry
        (InfGraph.lt_track_edges B thresholds (g.probFwd u) (entry u) row j st).activated
        (InfGraph.lt_track_edges B thresholds (g.probFwd u) (entry u) row j st).q
        (InfGraph.lt_track_edges B thresholds (g.probFwd u) (entry u) row j st).parent_map ∧
      (InfGraph.lt_track_edges B thresholds (g.probFwd u) (entry u) row j st).q.length
          + st.activated.count true
        = st.q.length
          + (InfGraph.lt_track_edges B thresholds (g.probFwd u) (entry u) row j
              st).activated.count true
  | [], _, st, hI, _, _ => ⟨hI, rfl⟩
  | v :: rest, j, st, hI, hu, hrow => by
    obtain ⟨hj, hrest⟩ := drop_eq_cons _ _ _ _ hrow
    rw [InfGraph.lt_track_edges]
    by_cases h1 : (st.activated.getD v false || B.getD v false) = true
    · rw [if_pos h1]
      exact lt_track_edges_inv g hG S root entry B thresholds u rest (j + 1) st hI hu hrest
    · rw [if_neg h1]
      simp only [Bool.or_eq_true, not_or, Bool.not_eq_true] at h1
      by_cases h2 : (st.total_weights.set v
          (st.total_weights.getD v 0 + (g.probFwd u).getD j 0)).getD v 0
          ≥ thresholds.getD v 0
      · rw [if_pos h2, if_neg (by rw [not_count_of_inactive hI h1.1]; exact Bool.false_ne_true)]
        have hv : v < g.n := hG u v (List.getElem?_mem hj)
        have hI1 := hI.activate hu hj hv h1.1
        obtain ⟨r1, r2⟩ := lt_track_edges_inv g hG S root entry B thresholds u rest (j + 1)
          ({ st with
            activated := st.activated.set v true
            q := st.q ++ [v]
            parent_map := st.parent_map.assign v (entry u ((g.probFwd u).getD j 0))
            total_weights :=
              st.total_weights.set v (st.total_weights.getD v 0 + (g.probFwd u).getD j 0) }
            : Track V)
          hI1 ((mem_set_insert _ _ _).mpr (Or.inr hu)) hrest
        refine ⟨r1, ?_⟩
        have e1 : (st.activated.set v true).count true = st.activated.count true + 1 :=
          count_set_true _ _ (by rw [hI.len]; exact hv) h1.1
        have e2 : (st.q ++ [v]).length = st.q.length + 1 := by simp
        have r2' : _ + (st.activated.set v true).count true = (st.q ++ [v]).length + _ := r2
        rw [e1, e2] at r2'
        omega
      · rw [if_neg h2]
        exact lt_track_edges_inv g hG S root entry B thresholds u rest (j + 1)
          ({ st with
            total_weights :=
              st.total_weights.set v (st.total_weights.getD v 0 + (g.probFwd u).getD j 0) }
            : Track V) hI hu hrest

/-- The `while` loop of the branch for IC and WC ends with an empty queue within the
passes that the flags still allow, and keeps the invariant. -/
theorem ic_track_loop_inv (g : InfGraph) (hG : ∀ u v, v ∈ g.g.getD u [] → v < g.n)
    (S : Nat → Prop) (root : V) (entry : Nat → ℚ → V) (B : List Bool) :
    ∀ (fuel : Nat) (st : Track V), TInv g S root entry st.activated st.q st.parent_map →
      st.q.length + g.n ≤ fuel + st.activated.count true →
      TInv g S root entry (InfGraph.ic_track_loop g B entry fuel st).activated
        (InfGraph.ic_track_loop g B entry fuel st).q
        (InfGraph.ic_track_loop g B entry fuel st).parent_map ∧
      (InfGraph.ic_track_loop g B entry fuel st).q = [] := by
  intro fuel
  induction fuel with
  | zero =>
    intro st hI hpot
    have hc := List.count_le_length true st.activated
    rw [hI.len] at hc
    have hq0 : st.q = [] := List.length_eq_zero.mp (by omega)
    exact ⟨hI, hq0⟩
  | succ fuel ih =>
    intro st hI hpot
    rw [InfGraph.ic_track_loop]
    cases hq : st.q with
    | nil => exact ⟨hI, hq⟩
    | cons u rest =>
      have hI0 : TInv g S root entry st.activated (u :: rest) st.parent_map := hq ▸ hI
      obtain ⟨r1, r2⟩ := ic_track_edges_inv g hG S root entry B u (g.g.getD u []) 0
        ({ st with q := rest } : Track V) hI0.pop
        (hI0.q_keys u (List.mem_cons_self _ _)) rfl
      have r2' : _ + st.activated.count true = rest.length + _ := r2
      rw [hq, List.length_cons] at hpot
      exact ih _ r1 (by omega)

/-- The `while` loop of the LT branch ends with an empty queue within the passes that
the flags still allow, and keeps the invariant. -/
theorem lt_track_loop_inv (g : InfGraph) (hG : ∀ u v, v ∈ g.g.getD u [] → v < g.n)
    (S : Nat → Prop) (root : V) (entry : Nat → ℚ → V) (B : List Bool)
    (thresholds : List ℚ) :
    ∀ (fuel : Nat) (st : Track V), TInv g S root entry st.activated st.q st.parent_map →
      st.q.length + g.n ≤ fuel + st.activated.count true →
      TInv g S root entry (InfGraph.lt_track_loop g B thresholds entry fuel st).activated
        (InfGraph.lt_track_loop g B thresholds entry fuel st).q
        (InfGraph.lt_track_loop g B thresholds entry fuel st).parent_map ∧
      (InfGraph.lt_track_loop g B thresholds entry fuel st).q = [] := by
  intro fuel
  induction fuel with
  | zero =>
    intro st hI hpot
    have hc := List.count_le_length true st.activated
    rw [hI.len] at hc
    have hq0 : st.q = [] := List.length_eq_zero.mp (by omega)
    exact ⟨hI, hq0⟩
  | succ fuel ih =>
    intro st hI hpot
    rw [InfGraph.lt_track_loop]
    cases hq : st.q with
    | nil => exact ⟨hI, hq⟩
    | cons u rest =>
      have hI0 : TInv g S root entry st.activated (u :: rest) st.parent_map := hq ▸ hI
      obtain ⟨r1, r2⟩ := lt_track_edges_inv g hG S root entry B thresholds u (g.g.getD u []) 0
        ({ st with q := rest } : Track V) hI0.pop
        (hI0.q_keys u (List.mem_cons_self _ _)) rfl
      have r2' : _ + st.activated.count true = rest.length + _ := r2
      rw [hq, List.length_cons] at hpot
      exact ih _ r1 (by omega)

/-- Once the queue is empty further passes of the loop change nothing. -/
theorem ic_track_loop_done (g : InfGraph) (B : List Bool) (entry : Nat → ℚ → V) :
    ∀ (fuel : Nat) (st : Track V), (InfGraph.ic_track_loop g B entry fuel st).q = [] →
      ∀ k, InfGraph.ic_track_loop g B entry (fuel + k) st
        = InfGraph.ic_track_loop g B entry fuel st := by
  intro fuel
  induction fuel with
  | zero =>
    intro st h k
    have h0 : st.q = [] := h
    cases k with
    | zero => rfl
    | succ k =>
      show InfGraph.ic_track_loop g B entry (0 + k + 1) st = st
      rw [InfGraph.ic_track_loop, h0]
  | succ fuel ih =>
    intro st h k
    have e : fuel + 1 + k = (fuel + k) + 1 := by omega
    rw [e, InfGraph.ic_track_loop, InfGraph.ic_track_loop]
    rw [InfGraph.ic_track_loop] at h
    cases hq : st.q with
    | nil => rfl
    | cons u rest =>
      rw [hq] at h
      exact ih _ h k

/-- Once the queue is empty further passes of the loop change nothing. -/
theorem lt_track_loop_done (g : InfGraph) (B : List Bool) (thresholds : List ℚ)
    (entry : Nat → ℚ → V) :
    ∀ (fuel : Nat) (st : Track V),
      (InfGraph.lt_track_loop g B thresholds entry fuel st).q = [] →
      ∀ k, InfGraph.lt_track_loop g B thresholds entry (fuel + k) st
        = InfGraph.lt_track_loop g B thresholds entry fuel st := by
  intro fuel
  induction fuel with
  | zero =>
    intro st h k
    have h0 : st.q = [] := h
    cases k with
    | zero => rfl
    | succ k =>
      show InfGraph.lt_track_loop g B thresholds entry (0 + k + 1) st = st
      rw [InfGraph.lt_track_loop, h0]
  | succ fuel ih =>
    intro st h k
    have e : fuel + 1 + k = (fuel + k) + 1 := by omega
    rw [e, InfGraph.lt_track_loop, InfGraph.lt_track_loop]
    rw [InfGraph.lt_track_loop] at h
    cases hq : st.q with
    | nil => rfl
    | cons u rest =>
      rw [hq] at h
      exact ih _ h k

/-- Either branch of a recorded cascade ends with an empty queue, keeps the invariant,
and is not cut short by the bound on its passes. -/
theorem track_cascade_inv (g : InfGraph) (hG : ∀ u v, v ∈ g.g.getD u [] → v < g.n)
    (S : Nat → Prop) (root : V) (entry : Nat → ℚ → V) (B : List Bool) (fuel : Nat)
    (st : Track V) (hI : TInv g S root entry st.activated st.q st.parent_map)
    (hpot : st.q.length + g.n ≤ fuel + st.activated.count true) :
    TInv g S root entry (InfGraph.track_cascade g B entry fuel st).activated
      (InfGraph.track_cascade g B entry fuel st).q
      (InfGraph.track_cascade g B entry fuel st).parent_map ∧
    (InfGraph.track_cascade g B entry fuel st).q = [] ∧
    ∀ k, InfGraph.track_cascade g B entry (fuel + k) st
      = InfGraph.track_cascade g B entry fuel st := by
  unfold InfGraph.track_cascade
  have h1 := ic_track_loop_inv g hG S root entry B fuel st hI hpot
  have h2 := lt_track_loop_inv g hG S root entry B (InfGraph.draw_thresholds g.n st.sfmt).1 fuel
    ({ st with
      sfmt := (InfGraph.draw_thresholds g.n st.sfmt).2
      total_weights := List.replicate g.n 0 } : Track V) hI hpot
  cases g.influModel with
  | IC => exact ⟨h1.1, h1.2, ic_track_loop_done g B entry fuel st h1.2⟩
  | LT => exact ⟨h2.1, h2.2, lt_track_loop_done g B _ entry fuel _ h2.2⟩
  | WC => exact ⟨h1.1, h1.2, ic_track_loop_done g B entry fuel st h1.2⟩

theorem TInv.congr {g : InfGraph} {S S' : Nat → Prop} {root : V} {entry : Nat → ℚ → V}
    {a : List Bool} {q : List Nat} {pm : OrdMap V} (h : TInv g S root entry a q pm)
    (hS : ∀ w, S' w ↔ S w) : TInv g S' root entry a q pm := by
  refine ⟨h.len, h.keys_iff, h.sorted, h.q_keys, fun v hv => h.seeds_in v ((hS v).mp hv), ?_,
    h.depth⟩
  intro v hv
  rcases h.recorded v hv with ⟨h1, h2⟩ | ⟨u, j, h1, h2, h3, h4⟩
  · exact Or.inl ⟨h1, (hS v).mpr h2⟩
  · exact Or.inr ⟨u, j, h1, h2, h3, fun hs => h4 ((hS v).mp hs)⟩

/-- The invariant holds before the first seed is looked at. -/
theorem tinv_start (g : InfGraph) (B : List Bool) (root : V) (entry : Nat → ℚ → V) :
    TInv g (AcceptedSeed g.n B []) root entry (List.replicate g.n false) []
      (OrdMap.empty root) := by
  refine ⟨List.length_replicate _ _, ?_, List.Pairwise.nil, ?_, ?_, ?_, ?_⟩
  · intro v
    rw [getD_replicate_false]
    constructor
    · intro h
      exact absurd h (List.not_mem_nil v)
    · intro h
      exact Bool.noConfusion h
  · intro u hu
    exact absurd hu (List.not_mem_nil u)
  · intro v hv
    exact absurd hv.1 (List.not_mem_nil _)
  · intro v hv
    exact absurd hv (List.not_mem_nil v)
  · intro v hv
    exact absurd hv (List.not_mem_nil v)

/-- The seed loop of `run_forward_simulation_with_parent_tracking`: afterwards the
recorded nodes are the accepted seeds, each recorded with the parent `-1` and queued
once. -/
theorem parent_seeds_inv (g : InfGraph) (B : List Bool) (entry : Nat → ℚ → Int) :
    ∀ (rest done : List Int) (st : Track Int),
      TInv g (AcceptedSeed g.n B done) (-1) entry st.activated st.q st.parent_map →
      (∀ k, k ∈ st.parent_map.keys →
        st.parent_map.val k = -1 ∧ AcceptedSeed g.n B done k) →
      st.q.length = st.activated.count true →
      TInv g (AcceptedSeed g.n B (done ++ rest)) (-1) entry
        (InfGraph.parent_seeds g.n B rest st).activated
        (InfGraph.parent_seeds g.n B rest st).q
        (InfGraph.parent_seeds g.n B rest st).parent_map ∧
      (InfGraph.parent_seeds g.n B rest st).q.length
        = (InfGraph.parent_seeds g.n B rest st).activated.count true
  | [], done, st, hI, _, hq => by
    rw [List.append_nil]
    exact ⟨hI, hq⟩
  | seed :: rest, done, st, hI, hroots, hq => by
    have e : done ++ seed :: rest = (done ++ [seed]) ++ rest := by simp
    rw [e, InfGraph.parent_seeds]
    split_ifs with hc
    · obtain ⟨h0, h1, h2, h3⟩ := hc
      have hlt : seed.toNat < g.n := by omega
      have hcast : ((seed.toNat : Nat) : Int) = seed := Int.toNat_of_nonneg h0
      have hS : ∀ w, AcceptedSeed g.n B (done ++ [seed]) w ↔
          (AcceptedSeed g.n B done w ∨ w = seed.toNat) := by
        intro w
        unfold AcceptedSeed
        constructor
        · rintro ⟨a1, a2, a3⟩
          rcases List.mem_append.mp a1 with a4 | a4
          · exact Or.inl ⟨a4, a2, a3⟩
          · right
            have : (w : Int) = seed := List.mem_singleton.mp a4
            omega
        · rintro (⟨a1, a2, a3⟩ | a1)
          · exact ⟨List.mem_append_left _ a1, a2, a3⟩
          · rw [a1]
            exact ⟨by rw [hcast]; simp, hlt, h2⟩
      obtain ⟨r1, r2⟩ := hI.add_root hroots hlt hS
      exact parent_seeds_inv g B entry rest (done ++ [seed])
        ({ st with
          activated := st.activated.set seed.toNat true
          q := st.q ++ [seed.toNat]
          parent_map := st.parent_map.assign seed.toNat (-1) } : Track Int) r1 r2
        (by
          show (st.q ++ [seed.toNat]).length = (st.activated.set seed.toNat true).count true
          rw [count_set_true _ _ (by rw [hI.len]; exact hlt) h3, List.length_append,
            List.length_singleton, hq])
    · have hS : ∀ w, AcceptedSeed g.n B (done ++ [seed]) w ↔ AcceptedSeed g.n B done w := by
        intro w
        unfold AcceptedSeed
        constructor
        · rintro ⟨a1, a2, a3⟩
          rcases List.mem_append.mp a1 with a4 | a4
          · exact ⟨a4, a2, a3⟩
          · have hw : (w : Int) = seed := List.mem_singleton.mp a4
            have hwn : seed.toNat = w := by omega
            by_cases hact : st.activated.getD seed.toNat false = false
            · exact absurd ⟨by omega, by omega, by rw [hwn]; exact a3, hact⟩ hc
            · have hk : w ∈ st.parent_map.keys := by
                rw [hI.keys_iff, ← hwn]
                simpa using hact
              exact (hroots w hk).2
        · rintro ⟨a1, a2, a3⟩
          exact ⟨List.mem_append_left _ a1, a2, a3⟩
      exact parent_seeds_inv g B entry rest (done ++ [seed]) st (hI.congr hS)
        (fun k hk => ⟨(hroots k hk).1, (hS k).mpr (hroots k hk).2⟩) hq

/-- The state in which the cascade of `run_forward_simulation_with_parent_tracking`
ends. -/
theorem parent_trial_inv (g : InfGraph) (hG : GraphOK g.toGraph)
    (initial_nodes blocking_nodes : List Int) :
    TInv g (AcceptedSeed g.n (InfGraph.flag_nodes g.n blocking_nodes) initial_nodes) (-1)
      (fun u _ => (u : Int))
      (g.parent_trial initial_nodes blocking_nodes).activated
      (g.parent_trial initial_nodes blocking_nodes).q
      (g.parent_trial initial_nodes blocking_nodes).parent_map ∧
    (g.parent_trial initial_nodes blocking_nodes).q = [] := by
  obtain ⟨h1, h2⟩ := parent_seeds_inv g (InfGraph.flag_nodes g.n blocking_nodes)
    (fun u _ => (u : Int)) initial_nodes []
    ({ activated := List.replicate g.n false
       q := []
       parent_map := OrdMap.empty (-1)
       sfmt := g.sfmt
       total_weights := [] } : Track Int)
    (tinv_start g _ (-1) _) (fun k hk => absurd hk (List.not_mem_nil k))
    (by
      show ([] : List Nat).length = (List.replicate g.n false).count true
      rw [count_replicate_false]
      rfl)
  rw [List.nil_append] at h1
  have h3 := track_cascade_inv g hG.g_lt _ (-1) (fun u _ => (u : Int))
    (InfGraph.flag_nodes g.n blocking_nodes) g.n _ h1 (by omega)
  exact ⟨h3.1, h3.2.1⟩

/-- The flags that `find_cut_off_edges` derives from the estimate. -/
theorem mark_activated_spec (n : Nat) (after_probs : List ℚ) (j : Nat) :
    (InfGraph.mark_activated n after_probs).getD j false = true ↔
      (j < n ∧ j < after_probs.length ∧ after_probs.getD j 0 > 1 / 2) := by
  unfold InfGraph.mark_activated
  have h := foldl_range_inv
    (fun (flags : List Bool) (j : Nat) =>
      if after_probs.getD j 0 > 1 / 2 then flags.set j true else flags)
    (fun m flags => flags.length = n ∧
      (flags.getD j false = true ↔ (j < n ∧ j < m ∧ after_probs.getD j 0 > 1 / 2)))
    (List.replicate n false)
    ⟨List.length_replicate _ _, by
      rw [getD_replicate_false]
      constructor
      · intro hh
        exact Bool.noConfusion hh
      · intro hh
        exact absurd hh.2.1 (Nat.not_lt_zero j)⟩
    (by
      intro m flags ⟨h1, h2⟩
      dsimp only
      split_ifs with hc
      · refine ⟨by rw [List.length_set]; exact h1, ?_⟩
        rw [getD_set_bool, h1]
        by_cases hm : m = j
        · subst hm
          by_cases hn : m < n
          · rw [if_pos ⟨rfl, hn⟩]
            exact ⟨fun _ => ⟨hn, Nat.lt_succ_self m, hc⟩, fun _ => rfl⟩
          · rw [if_neg (fun hh => hn hh.2), h2]
            exact ⟨fun hh => absurd hh.1 hn, fun hh => absurd hh.1 hn⟩
        · rw [if_neg (fun hh => hm hh.1), h2]
          constructor
          · rintro ⟨a1, a2, a3⟩
            exact ⟨a1, by omega, a3⟩
          · rintro ⟨a1, a2, a3⟩
            exact ⟨a1, by omega, a3⟩
      · refine ⟨h1, ?_⟩
        rw [h2]
        constructor
        · rintro ⟨a1, a2, a3⟩
          exact ⟨a1, by omega, a3⟩
        · rintro ⟨a1, a2, a3⟩
          refine ⟨a1, ?_, a3⟩
          by_cases hm : m = j
          · subst hm
            exact absurd a3 hc
          · omega)
    after_probs.length
  exact h.2

/-- A node that the thresholded single-cascade estimate does not flag was not activated
in that cascade. -/
theorem single_trial_inactive (g : InfGraph) (negative_seeds blocking_nodes : List Int)
    (after_probs : List ℚ) (g2 : InfGraph)
    (hc : g.calculate_final_probabilities negative_seeds 1 blocking_nodes
      = some (after_probs, g2)) (v : Nat) (hv : v < g.n)
    (hm : (InfGraph.mark_activated g.n after_probs).getD v false = false) :
    (InfGraph.activated_in_trial g negative_seeds blocking_nodes 0).getD v false = false := by
  obtain ⟨hlen, hval⟩ := calculate_value g negative_seeds blocking_nodes 1
  unfold InfGraph.calculate_final_probabilities at hc
  split_ifs at hc
  have e := congrArg Prod.fst (Option.some.inj hc)
  have e' : InfGraph.divide_counts g.n 1
      (InfGraph.trials_loop g (InfGraph.flag_nodes g.n blocking_nodes) negative_seeds
        (1 : Int).toNat (List.replicate g.n 0, g.sfmt)).1 = after_probs := e
  rw [e'] at hlen hval
  have h1 := hval v hv
  cases hact : (InfGraph.activated_in_trial g negative_seeds blocking_nodes 0).getD v false with
  | false => rfl
  | true =>
    have hcount : InfGraph.activation_count g negative_seeds blocking_nodes (1 : Int).toNat v
        = 1 := by
      unfold InfGraph.activation_count
      show (List.range 1).countP _ = 1
      have hr : List.range 1 = [0] := rfl
      rw [hr, List.countP_cons, List.countP_nil]
      show 0 + (if (InfGraph.activated_in_trial g negative_seeds blocking_nodes 0).getD v false
        = true then 1 else 0) = 1
      rw [if_pos hact]
    rw [hcount] at h1
    have hgt : after_probs.getD v 0 > 1 / 2 := by
      rw [h1]
      norm_num
    have := (mark_activated_spec g.n after_probs v).mpr ⟨hv, by rw [hlen]; exact hv, hgt⟩
    rw [this] at hm
    exact Bool.noConfusion hm

end TrackingLemmas

/-! ## Main propagation paths -/

section PathsLemmas

open CommunitySearcher

theorem sort_desc_ok : SortsDescending sort_desc := by
  intro l
  refine ⟨List.perm_insertionSort _ l, ?_⟩
  have h := @List.sorted_insertionSort (ℚ × Edge) (fun a b => b.1 ≤ a.1) _
    ⟨fun a b => le_total b.1 a.1⟩ ⟨fun a b c hab hbc => le_trans hbc hab⟩ l
  exact List.Pairwise.imp (fun hab => not_lt.mpr hab) h

/-- The seed loop of `run_forward_simulation_with_tracking` for seeds inside the graph:
afterwards the recorded nodes are the seeds that are not blocked, each recorded with
the parent `-1`, and the queue holds at most one entry per listed seed. -/
theorem witness_seeds_inv (g : InfGraph) (B : List Bool) (entry : Nat → ℚ → Int × ℚ) :
    ∀ (rest done : List Int) (st : Track (Int × ℚ)),
      (∀ s, s ∈ rest → 0 ≤ s ∧ s < (g.n : Int)) →
      TInv g (AcceptedSeed g.n B done) (-1, 1) entry st.activated st.q st.parent_map →
      (∀ k, k ∈ st.parent_map.keys →
        st.parent_map.val k = (-1, 1) ∧ AcceptedSeed g.n B done k) →
      st.q.length ≤ done.length →
      TInv g (AcceptedSeed g.n B (done ++ rest)) (-1, 1) entry
        (InfGraph.witness_seeds B rest st).activated
        (InfGraph.witness_seeds B rest st).q
        (InfGraph.witness_seeds B rest st).parent_map ∧
      (InfGraph.witness_seeds B rest st).q.length ≤ (done ++ rest).length
  | [], done, st, _, hI, _, hq => by
    rw [List.append_nil]
    exact ⟨hI, hq⟩
  | seed :: rest, done, st, hr, hI, hroots, hq => by
    have e : done ++ seed :: rest = (done ++ [seed]) ++ rest := by simp
    obtain ⟨h0, h1⟩ := hr seed (List.mem_cons_self _ _)
    have hlt : seed.toNat < g.n := by omega
    have hcast : ((seed.toNat : Nat) : Int) = seed := Int.toNat_of_nonneg h0
    have hr' : ∀ s, s ∈ rest → 0 ≤ s ∧ s < (g.n : Int) :=
      fun s hs => hr s (List.mem_cons_of_mem _ hs)
    rw [e, InfGraph.witness_seeds]
    split_ifs with hc
    · have hS : ∀ w, AcceptedSeed g.n B (done ++ [seed]) w ↔
          (AcceptedSeed g.n B done w ∨ w = seed.toNat) := by
        intro w
        unfold AcceptedSeed
        constructor
        · rintro ⟨a1, a2, a3⟩
          rcases List.mem_append.mp a1 with a4 | a4
          · exact Or.inl ⟨a4, a2, a3⟩
          · right
            have : (w : Int) = seed := List.mem_singleton.mp a4
            omega
        · rintro (⟨a1, a2, a3⟩ | a1)
          · exact ⟨List.mem_append_left _ a1, a2, a3⟩
          · rw [a1]
            exact ⟨by rw [hcast]; simp, hlt, hc⟩
      obtain ⟨r1, r2⟩ := hI.add_root hroots hlt hS
      exact witness_seeds_inv g B entry rest (done ++ [seed])
        ({ st with
          q := st.q ++ [seed.toNat]
          activated := st.activated.set seed.toNat true
          parent_map := st.parent_map.assign seed.toNat (-1, 1) } : Track (Int × ℚ)) hr' r1 r2
        (by
          show (st.q ++ [seed.toNat]).length ≤ (done ++ [seed]).length
          rw [List.length_append, List.length_append]
          exact Nat.add_le_add_right hq _)
    · have hS : ∀ w, AcceptedSeed g.n B (done ++ [seed]) w ↔ AcceptedSeed g.n B done w := by
        intro w
        unfold AcceptedSeed
        constructor
        · rintro ⟨a1, a2, a3⟩
          rcases List.mem_append.mp a1 with a4 | a4
          · exact ⟨a4, a2, a3⟩
          · have hw : (w : Int) = seed := List.mem_singleton.mp a4
            have hwn : seed.toNat = w := by omega
            rw [hwn] at hc
            exact absurd a3 hc
        · rintro ⟨a1, a2, a3⟩
          exact ⟨List.mem_append_left _ a1, a2, a3⟩
      exact witness_seeds_inv g B entry rest (done ++ [seed]) st hr' (hI.congr hS)
        (fun k hk => ⟨(hroots k hk).1, (hS k).mpr (hroots k hk).2⟩)
        (by rw [List.length_append]; exact Nat.le_succ_of_le hq)

/-- The state in which the cascade of `run_forward_simulation_with_tracking` ends, for
seeds inside the graph and no blocker. -/
theorem witness_trial_inv (g : InfGraph) (hG : GraphOK g.toGraph) (initial_nodes : List Int)
    (hr : ∀ s, s ∈ initial_nodes → 0 ≤ s ∧ s < (g.n : Int)) :
    TInv g (AcceptedSeed g.n (List.replicate g.n false) initial_nodes) (-1, 1)
      (fun u prob => ((u : Int), prob))
      (g.witness_trial initial_nodes []).activated
      (g.witness_trial initial_nodes []).q
      (g.witness_trial initial_nodes []).parent_map ∧
    (g.witness_trial initial_nodes []).q = [] := by
  obtain ⟨h1, h2⟩ := witness_seeds_inv g (List.replicate g.n false)
    (fun u prob => ((u : Int), prob)) initial_nodes []
    ({ activated := List.replicate g.n false
       q := []
       parent_map := OrdMap.empty (-1, 1)
       sfmt := g.sfmt
       total_weights := [] } : Track (Int × ℚ)) hr
    (tinv_start g _ (-1, 1) _) (fun k hk => absurd hk (List.not_mem_nil k))
    (Nat.le_refl 0)
  rw [List.nil_append] at h1 h2
  have h3 := track_cascade_inv g hG.g_lt _ (-1, 1) (fun u prob => ((u : Int), prob))
    (List.replicate g.n false) (initial_nodes.length + g.n) _ h1 (by omega)
  exact ⟨h3.1, h3.2.1⟩

/-- Every entry that is sorted comes from a recorded node whose parent is not `-1`. -/
theorem mem_weighted_edges (pm : OrdMap (Int × ℚ)) (x : ℚ × Edge) :
    x ∈ weighted_edges pm ↔
      ∃ child, child ∈ pm.keys ∧ (pm.val child).1 ≠ -1 ∧
        x = ((pm.val child).2, Edge.mk (pm.val child).1 (child : Int)) := by
  unfold weighted_edges
  rw [List.mem_filterMap]
  constructor
  · rintro ⟨child, h1, h2⟩
    split_ifs at h2 with h3
    exact ⟨child, h1, h3, (Option.some.inj h2).symm⟩
  · rintro ⟨child, h1, h2, h3⟩
    refine ⟨child, h1, ?_⟩
    rw [if_pos h2, h3]

/-- The entries that are sorted name pairwise different children. -/
theorem weighted_edges_nodup (pm : OrdMap (Int × ℚ)) (hnd : pm.keys.Nodup) :
    ((weighted_edges pm).map (fun x => x.2.target)).Nodup := by
  unfold weighted_edges
  have h : ∀ (l : List Nat), l.Nodup →
      ((l.filterMap (fun child =>
        if (pm.val child).1 ≠ -1 then
          some ((pm.val child).2,
            ({ source := (pm.val child).1, target := (child : Int) } : Edge))
        else none)).map (fun x => x.2.target)).Nodup := by
    intro l
    induction l with
    | nil => intro _; exact List.nodup_nil
    | cons a l ih =>
      intro hl
      rw [List.nodup_cons] at hl
      rw [List.filterMap_cons]
      split_ifs with hc
      · rw [List.map_cons, List.nodup_cons]
        refine ⟨?_, ih hl.2⟩
        intro hmem
        obtain ⟨x, hx1, hx2⟩ := List.mem_map.mp hmem
        obtain ⟨c, hc1, hc2⟩ := List.mem_filterMap.mp hx1
        split_ifs at hc2
        rw [← Option.some.inj hc2] at hx2
        have : (c : Int) = (a : Int) := hx2
        have hca : c = a := by omega
        rw [hca] at hc1
        exact hl.1 hc1
      · exact ih hl.2
  exact h pm.keys hnd

/-- The number of entries that are sorted is the number of recorded nodes whose parent
is not `-1`. -/
theorem weighted_edges_length (pm : OrdMap (Int × ℚ)) :
    (weighted_edges pm).length
      = (pm.keys.filter (fun child => decide ((pm.val child).1 ≠ -1))).length := by
  unfold weighted_edges
  induction pm.keys with
  | nil => rfl
  | cons a l ih =>
    rw [List.filterMap_cons, List.filter_cons]
    by_cases hc : (pm.val a).1 ≠ -1
    · rw [if_pos hc, if_pos (by simpa using hc), List.length_cons, List.length_cons, ih]
    · rw [if_neg hc, if_neg (by simpa using hc), ih]

/-- The recorded probability of a sorted entry is its first component. -/
theorem weighted_edges_prob (pm : OrdMap (Int × ℚ)) (x : ℚ × Edge)
    (hx : x ∈ weighted_edges pm) : (pm.val x.2.target.toNat).2 = x.1 := by
  obtain ⟨child, _, _, h3⟩ := (mem_weighted_edges pm x).mp hx
  rw [h3]
  show (pm.val ((child : Int)).toNat).2 = (pm.val child).2
  rw [Int.toNat_ofNat]

/-- The output of `find_main_propagation_paths` for a sorting function that keeps the
contract of `std::sort`: the children are pairwise different, the recorded
probabilities do not increase along the output, and no entry that is left out has a
larger probability than one that is returned. -/
theorem top_edges_spec (sort : List (ℚ × Edge) → List (ℚ × Edge))
    (hsort : SortsDescending sort) (pm : OrdMap (Int × ℚ)) (hnd : pm.keys.Nodup) (m : Nat) :
    ((((sort (weighted_edges pm)).take m).map Prod.snd).map Edge.target).Nodup ∧
    ((((sort (weighted_edges pm)).take m).map Prod.snd).map
      (fun e => (pm.val e.target.toNat).2)).Pairwise (fun a b => b ≤ a) ∧
    (∀ v, v ∈ pm.keys → (pm.val v).1 ≠ -1 →
      (v : Int) ∉ (((sort (weighted_edges pm)).take m).map Prod.snd).map Edge.target →
      ∀ e, e ∈ ((sort (weighted_edges pm)).take m).map Prod.snd →
        (pm.val v).2 ≤ (pm.val e.target.toNat).2) := by
  obtain ⟨hperm, hpw⟩ := hsort (weighted_edges pm)
  have hsub : ((sort (weighted_edges pm)).take m).Sublist (sort (weighted_edges pm)) :=
    List.take_sublist _ _
  have hmem : ∀ x, x ∈ (sort (weighted_edges pm)).take m → x ∈ weighted_edges pm :=
    fun x hx => hperm.subset (hsub.subset hx)
  refine ⟨?_, ?_, ?_⟩
  · rw [List.map_map]
    have h1 : ((sort (weighted_edges pm)).map (fun x => x.2.target)).Nodup :=
      (List.Perm.nodup_iff (hperm.map _)).mpr (weighted_edges_nodup pm hnd)
    exact List.Nodup.sublist (hsub.map _) h1
  · rw [List.map_map, List.pairwise_map]
    refine List.Pairwise.imp_of_mem ?_ (hpw.sublist hsub)
    intro a b ha hb hab
    show (pm.val b.2.target.toNat).2 ≤ (pm.val a.2.target.toNat).2
    rw [weighted_edges_prob pm a (hmem a ha), weighted_edges_prob pm b (hmem b hb)]
    exact not_lt.mp hab
  · intro v hv hroot hout e he
    obtain ⟨x, hx, hxe⟩ := List.mem_map.mp he
    rw [← hxe, weighted_edges_prob pm x (hmem x hx)]
    have hv1 : ((pm.val v).2, Edge.mk (pm.val v).1 (v : Int)) ∈ weighted_edges pm :=
      (mem_weighted_edges pm _).mpr ⟨v, hv, hroot, rfl⟩
    have hv2 := hperm.symm.subset hv1
    rw [← List.take_append_drop m (sort (weighted_edges pm))] at hv2 hpw
    rcases List.mem_append.mp hv2 with h3 | h3
    · exfalso
      apply hout
      rw [List.map_map]
      exact List.mem_map.mpr ⟨_, h3, rfl⟩
    · have h4 := (List.pairwise_append.mp hpw).2.2 x hx _ h3
      exact not_lt.mp h4

/-- The number of entries that are sorted, counted over the nodes of the graph. -/
theorem weighted_edges_count (g : InfGraph) (seeds : List Int) (a : List Bool) (q : List Nat)
    (pm : OrdMap (Int × ℚ))
    (hI : TInv g (AcceptedSeed g.n (List.replicate g.n false) seeds) (-1, 1)
      (fun u prob => ((u : Int), prob)) a q pm) :
    (weighted_edges pm).length
      = ((List.range g.n).filter
          (fun v => a.getD v false && !(seeds.contains (v : Int)))).length := by
  rw [weighted_edges_length]
  apply List.Perm.length_eq
  have hnd : pm.keys.Nodup := hI.sorted.imp (fun h => Nat.ne_of_lt h)
  refine (List.perm_ext_iff_of_nodup (hnd.filter _) ((List.nodup_range g.n).filter _)).mpr ?_
  intro v
  have hfalse : (List.replicate g.n false).getD v false = false := by
    rw [List.getD_eq_getElem?_getD, List.getElem?_replicate]
    split_ifs <;> rfl
  simp only [List.mem_filter, List.mem_range, decide_eq_true_eq, Bool.and_eq_true,
    Bool.not_eq_true', List.contains_eq_any_beq, List.any_eq_false, beq_iff_eq]
  constructor
  · rintro ⟨hk, hroot⟩
    have hact := (hI.keys_iff v).mp hk
    have hlt : v < g.n := by
      by_contra hge
      rw [List.getD_eq_default _ _ (by rw [hI.len]; omega)] at hact
      exact Bool.noConfusion hact
    refine ⟨hlt, hact, ?_⟩
    rcases hI.recorded v hk with ⟨hr, _⟩ | ⟨u, j, _, _, _, hns⟩
    · rw [hr] at hroot
      exact absurd rfl hroot
    · intro s hs e
      apply hns
      refine ⟨?_, hlt, hfalse⟩
      rw [e]
      exact hs
  · rintro ⟨hlt, hact, hns⟩
    have hk := (hI.keys_iff v).mpr hact
    refine ⟨hk, ?_⟩
    rcases hI.recorded v hk with ⟨_, hs⟩ | ⟨u, j, hr, _, _, _⟩
    · exact absurd rfl (hns _ hs.1)
    · rw [hr]
      show (u : Int) ≠ -1
      omega

end PathsLemmas

/-! ## The critical-path query -/

section CriticalLemmas

open CommunitySearcher

/-- A recorded node has one depth. -/
theorem tree_depth_unique {pm : OrdMap Int} {v d : Nat} (h : TreeDepth pm v d) :
    ∀ {d' : Nat}, TreeDepth pm v d' → d = d' := by
  unfold TreeDepth at h
  induction h with
  | base v _ hv =>
    intro d' h'
    unfold TreeDepth at h'
    cases h' with
    | base _ _ _ => rfl
    | step _ u p d0 _ hv' _ =>
      rw [hv] at hv'
      have e : (-1 : Int) = (u : Int) := hv'
      omega
  | step v u p d0 _ hv _ ih =>
    intro d' h'
    unfold TreeDepth at h'
    cases h' with
    | base _ _ hv' =>
      rw [hv'] at hv
      have e : (-1 : Int) = (u : Int) := hv
      omega
    | step _ u' p' d1 _ hv' hd' =>
      rw [hv] at hv'
      have e : (u : Int) = (u' : Int) := hv'
      have e' : u = u' := by omega
      rw [e'] at ih
      rw [ih hd']

/-- Writing the depth of a node into the memo keeps the memo right. -/
theorem memo_assign_ok {pm memo : OrdMap Int} (hm : MemoOK pm memo) {node d : Nat}
    (hd : TreeDepth pm node d) : MemoOK pm (memo.assign node (d : Int)) := by
  intro k hk
  by_cases e : k = node
  · refine ⟨d, by rw [e]; exact hd, ?_⟩
    show Function.update memo.val node (d : Int) k = (d : Int)
    rw [e, Function.update_same]
  · have hk' : k ∈ memo.keys := by
      rcases (mem_set_insert node memo.keys k).mp hk with h | h
      · exact absurd h e
      · exact h
    obtain ⟨d', hd', hv⟩ := hm k hk'
    refine ⟨d', hd', ?_⟩
    show Function.update memo.val node (d : Int) k = (d' : Int)
    rw [Function.update_noteq e]
    exact hv

theorem ordmap_count_iff {V : Type} (m : OrdMap V) (k : Nat) : m.count k = true ↔ k ∈ m.keys := by
  unfold OrdMap.count
  simp

/-- With more steps allowed than the depth of the node,
`get_node_depth_for_critical_path` returns that depth and keeps the memo right. -/
theorem get_node_depth_spec (pm : OrdMap Int) : ∀ (fuel node : Nat) (memo : OrdMap Int) (d : Nat),
    TreeDepth pm node d → d < fuel → MemoOK pm memo →
    ∃ memo', get_node_depth_for_critical_path pm fuel node memo = some ((d : Int), memo') ∧
      MemoOK pm memo'
  | 0, _, _, _, _, hlt, _ => absurd hlt (Nat.not_lt_zero _)
  | fuel + 1, node, memo, d, hd, hlt, hm => by
    rw [get_node_depth_for_critical_path]
    by_cases hc : memo.count node = true
    · rw [if_pos hc]
      obtain ⟨d', hd', hv⟩ := hm node ((ordmap_count_iff memo node).mp hc)
      rw [hv, tree_depth_unique hd' hd]
      exact ⟨memo, rfl, hm⟩
    · rw [if_neg hc]
      have hd0 := hd
      unfold TreeDepth at hd
      cases hd with
      | base _ hk hv =>
        have hcond : (!pm.count node || pm.val node == -1) = true := by
          rw [hv]
          simp
        rw [if_pos hcond]
        exact ⟨_, rfl, memo_assign_ok hm hd0⟩
      | step _ u p d1 hk hv hd1 =>
        have hcond : ¬ ((!pm.count node || pm.val node == -1) = true) := by
          rw [hv, (ordmap_count_iff pm node).mpr hk]
          simp
        rw [if_neg hcond]
        obtain ⟨memo', he, hm'⟩ := get_node_depth_spec pm fuel u memo d1 hd1 (by omega) hm
        have hu : (pm.val node).toNat = u := by
          rw [hv]
          exact Int.toNat_ofNat u
        rw [hu, he]
        have e : (1 + (d1 : Int)) = ((d1 + 1 : Nat) : Int) := by
          push_cast
          ring
        dsimp only
        rw [e]
        exact ⟨_, rfl, memo_assign_ok hm' hd0⟩

/-- The loop that looks for a deepest node comes to an end and keeps its invariant. -/
theorem deepest_scan_spec (pm : OrdMap Int) (fuel : Nat) :
    ∀ (rest done : List Nat) (s : DeepScan),
      (∀ v, v ∈ rest → ∃ d, TreeDepth pm v d ∧ d < fuel) → Best pm done s →
      ∃ s', deepest_scan pm fuel rest s = some s' ∧ Best pm (done ++ rest) s'
  | [], done, s, _, hb => by
    rw [List.append_nil]
    exact ⟨s, rfl, hb⟩
  | child :: rest, done, s, hr, hb => by
    obtain ⟨d, hd, hlt⟩ := hr child (List.mem_cons_self _ _)
    obtain ⟨memo', he, hm'⟩ := get_node_depth_spec pm fuel child s.depth_memo d hd hlt hb.memo
    have hr' : ∀ v, v ∈ rest → ∃ d, TreeDepth pm v d ∧ d < fuel :=
      fun v hv => hr v (List.mem_cons_of_mem _ hv)
    have e : done ++ child :: rest = (done ++ [child]) ++ rest := by simp
    rw [deepest_scan, he, e]
    dsimp only
    by_cases hgt : (d : Int) > s.max_depth
    · rw [if_pos hgt]
      refine deepest_scan_spec pm fuel rest (done ++ [child]) _ hr' ⟨hm', ?_, ?_⟩
      · intro w hw
        rcases List.mem_append.mp hw with h | h
        · obtain ⟨dw, h1, h2⟩ := hb.bound w h
          exact ⟨dw, h1, le_of_lt (lt_of_le_of_lt h2 hgt)⟩
        · rw [List.mem_singleton.mp h]
          exact ⟨d, hd, le_refl _⟩
      · exact Or.inr ⟨child, d, List.mem_append_right _ (List.mem_singleton_self _), rfl, rfl, hd⟩
    · rw [if_neg hgt]
      refine deepest_scan_spec pm fuel rest (done ++ [child]) _ hr' ⟨hm', ?_, ?_⟩
      · intro w hw
        rcases List.mem_append.mp hw with h | h
        · exact hb.bound w h
        · rw [List.mem_singleton.mp h]
          exact ⟨d, hd, not_lt.mp hgt⟩
      · rcases hb.best with ⟨_, h2, _⟩ | ⟨v, dv, h1, h2, h3, h4⟩
        · exfalso
          rw [h2] at hgt
          omega
        · exact Or.inr ⟨v, dv, List.mem_append_left _ h1, h2, h3, h4⟩

/-- The walk from a recorded node of depth `d` back to its seed comes to an end after
`d + 1` nodes: it appends the node, then its recorded parent, and so on, and the last
node appended is recorded with the parent `-1`. -/
theorem backtrack_spec (pm : OrdMap Int) : ∀ (fuel v d : Nat) (acc : List Int),
    TreeDepth pm v d → d + 1 < fuel →
    ∃ chain : List Nat, backtrack pm fuel (v : Int) acc = some (acc ++ chain.map Int.ofNat) ∧
      chain.length = d + 1 ∧ chain.head? = some v ∧
      (∃ r, chain.getLast? = some r ∧ r ∈ pm.keys ∧ pm.val r = -1) ∧
      chain.Chain' (fun b a => b ∈ pm.keys ∧ pm.val b = (a : Int))
  | 0, _, _, _, _, hlt => absurd hlt (Nat.not_lt_zero _)
  | fuel + 1, v, d, acc, hd, hlt => by
    rw [backtrack]
    have hv1 : (v : Int) ≠ -1 := by omega
    have hv2 : ((v : Int)).toNat = v := Int.toNat_ofNat v
    rw [if_pos hv1, hv2]
    unfold TreeDepth at hd
    cases hd with
    | base _ hk hv =>
      rw [if_neg (by rw [(ordmap_count_iff pm v).mpr hk]; simp), hv]
      cases fuel with
      | zero => omega
      | succ fuel =>
        rw [backtrack, if_neg (by simp)]
        exact ⟨[v], rfl, rfl, rfl, ⟨v, rfl, hk, hv⟩, List.chain'_singleton v⟩
    | step _ u p d1 hk hv hd1 =>
      rw [if_neg (by rw [(ordmap_count_iff pm v).mpr hk]; simp), hv]
      obtain ⟨chain, h1, h2, h3, h4, h5⟩ :=
        backtrack_spec pm fuel u d1 (acc ++ [(v : Int)]) hd1 (by omega)
      refine ⟨v :: chain, ?_, ?_, rfl, ?_, ?_⟩
      · show backtrack pm fuel (u : Int) (acc ++ [(v : Int)]) = _
        rw [h1, List.map_cons, List.append_assoc]
        rfl
      · rw [List.length_cons, h2]
      · obtain ⟨r, hr1, hr2, hr3⟩ := h4
        refine ⟨r, ?_, hr2, hr3⟩
        cases chain with
        | nil => exact absurd h2 (by simp)
        | cons c cs =>
          rw [List.getLast?_cons_cons]
          exact hr1
      · cases chain with
        | nil => exact List.chain'_singleton v
        | cons c cs =>
          rw [List.chain'_cons]
          refine ⟨⟨hk, ?_⟩, h5⟩
          have e : c = u := by
            have := h3
            simp at this
            exact this
          rw [e]
          exact hv

/-- The configuration of a query changes neither the loaded graph nor the PRNG, and
binds the forward table. -/
theorem configure_query_graph (dataset g : InfGraph) (propagation_model probability_model : String)
    (hg : configure_query dataset propagation_model probability_model = some g) :
    g.toGraph = dataset.toGraph ∧ g.sfmt = dataset.sfmt ∧ g.active_probFwd ≠ none := by
  unfold configure_query at hg
  cases hm : model_str_to_enum propagation_model with
  | none =>
    rw [hm] at hg
    exact Option.noConfusion hg
  | some model =>
    rw [hm] at hg
    dsimp only at hg
    unfold InfGraph.setActiveProbabilityModel InfGraph.setInfuModel at hg
    split_ifs at hg
    all_goals
      have e := Option.some.inj hg
      rw [← e]
      exact ⟨rfl, rfl, by simp⟩

/-- Every recorded node of the cascade has a root above it that is an accepted seed, so
a cascade that records a node has a seed list that is not empty. -/
theorem recorded_needs_seed (g : InfGraph) (B : List Bool) (initial_nodes : List Int)
    (a : List Bool) (q : List Nat) (pm : OrdMap Int)
    (hI : TInv g (AcceptedSeed g.n B initial_nodes) (-1) (fun u _ => (u : Int)) a q pm)
    (v : Nat) (hv : v ∈ pm.keys) : initial_nodes ≠ [] := by
  obtain ⟨d, hd, _⟩ := hI.depth v hv
  have h : ∀ v d, Depth (-1) (fun u _ => (u : Int)) pm v d → ∃ w, w ∈ pm.keys ∧ pm.val w = -1 := by
    intro v d hd
    induction hd with
    | base v hk hv => exact ⟨v, hk, hv⟩
    | step _ _ _ _ _ _ _ ih => exact ih
  obtain ⟨w, hw, hwv⟩ := h v d hd
  rcases hI.recorded w hw with ⟨_, hs⟩ | ⟨u, j, hr, _, _, _⟩
  · intro e
    rw [e] at hs
    exact absurd hs.1 (List.not_mem_nil _)
  · rw [hwv] at hr
    have e : (-1 : Int) = (u : Int) := hr
    omega

end CriticalLemmas

/-! ## Order of the popped values (claim C28) -/

section HeapOpsClaims

/-- The sequence `insert(0, 5); pop(); insert(1, 3); pop();` on a heap over the key
space `[0, 2)` pops the value 5 and then the value 3: an insertion between two pops can
bring in a value below the one popped before. -/
theorem iHeap_pops_not_monotone_counterexample :
    popped_values [HeapOp.insert 0 5, HeapOp.pop, HeapOp.insert 1 3, HeapOp.pop]
        (blankHeap.init 2) = some [5, 3] ∧
      ¬ ((5 : Int) ≤ 3) := by
  decide

/-- C28, amended. For every sequence of `insert` and `pop` calls on an initialised heap
with keys in `[0, n)`, in which no `pop` meets an empty heap and every value inserted
after a `pop` is not less than the value that the latest `pop` returned (so in
particular for pops with no insertion in between), every `pop` passes its assertion and
the values of the popped entries are non-decreasing. -/
theorem iHeap_pops_sorted_above {V : Type} [LinearOrder V] (n : Nat) (h0 : iHeap V)
    (ops : List (HeapOp V)) (hg : inserts_above n none ops (h0.init n) = true) :
    ∃ vs, popped_values ops (h0.init n) = some vs ∧ vs.Pairwise (fun a b => a ≤ b) := by
  obtain ⟨vs, e1, e2, _⟩ := popped_values_sorted n ops none (h0.init n) (wellFormed_init h0 n)
    (fun m hm => Option.noConfusion hm) hg
  exact ⟨vs, e1, e2⟩

/-- Worked instance: two insertions, a pop, an insertion of a value above the popped
one, and two pops. -/
theorem iHeap_pops_sorted_above_witness :
    inserts_above 2 none
        [HeapOp.insert 0 5, HeapOp.insert 1 3, HeapOp.pop, HeapOp.insert 1 4, HeapOp.pop,
          HeapOp.pop] (blankHeap.init 2) = true ∧
    ∃ vs, popped_values
        [HeapOp.insert 0 5, HeapOp.insert 1 3, HeapOp.pop, HeapOp.insert 1 4, HeapOp.pop,
          HeapOp.pop] (blankHeap.init 2) = some vs ∧
      vs.Pairwise (fun a b => a ≤ b) :=
  ⟨by decide, iHeap_pops_sorted_above 2 blankHeap _ (by decide)⟩

end HeapOpsClaims

/-! ## The probability animation on a chain (claim C30) -/

section ScenarioClaims

/-- C30. On the chain `0 → 1 → 2` with probability one half on each edge, model IC,
seeds `[0]`, no blockers and the default parameters (ten steps, threshold one half,
tolerance one millionth), `run_probability_simulation` returns exactly three steps:
step 0 holds node 0 with probability 1, active; step 1 holds node 1 with probability
one half, active, and lists node 1 as newly activated; step 2 holds node 2 with
probability one quarter, inactive, with no newly activated node; `total_steps` is 2. -/
theorem probability_animation_chain :
    chainGraph.run_probability_simulation [0] [] 10 (1 / 2) (1 / 1000000) =
      some
        { total_steps := 2
          simulation_steps :=
            [{ step := 0
               newly_activated_nodes := []
               node_states := [{ id := 0, state := "active", probability := 1 }] },
             { step := 1
               newly_activated_nodes := [1]
               node_states := [{ id := 1, state := "active", probability := 1 / 2 }] },
             { step := 2
               newly_activated_nodes := []
               node_states := [{ id := 2, state := "inactive", probability := 1 / 4 }] }] } := by
  have hs : (InfGraph.seed_step0 3 (InfGraph.flag_nodes 3 []) [0] (List.replicate 3 0, []))
      = ([1, 0, 0], [{ id := 0, state := "active", probability := 1 }]) := by
    simp [InfGraph.seed_step0, InfGraph.flag_nodes]
  have h1 : InfGraph.next_prob_of chainGraph (InfGraph.flag_nodes 3 []) (1 / 1000000) [1, 0, 0]
      = [1, 1 / 2, 0] := by
    simp [InfGraph.next_prob_of, chainGraph, InfGraph.flag_nodes, InfGraph.sim_skip,
      InfGraph.p_not_activated, InfGraph.probT, List.range, List.range.loop]
    norm_num
  have h2 : InfGraph.next_prob_of chainGraph (InfGraph.flag_nodes 3 []) (1 / 1000000)
      [1, 1 / 2, 0] = [1, 1 / 2, 1 / 4] := by
    simp [InfGraph.next_prob_of, chainGraph, InfGraph.flag_nodes, InfGraph.sim_skip,
      InfGraph.p_not_activated, InfGraph.probT, List.range, List.range.loop]
    norm_num
  have a1 : |(1 : ℚ) / 2| = 1 / 2 := abs_of_pos (by norm_num)
  have a2 : |(1 : ℚ) / 4| = 1 / 4 := abs_of_pos (by norm_num)
  have c1 : InfGraph.changed_of chainGraph (InfGraph.flag_nodes 3 []) (1 / 1000000)
      [1, 0, 0] [1, 1 / 2, 0] = true := by
    simp [InfGraph.changed_of, chainGraph, InfGraph.flag_nodes, InfGraph.sim_skip,
      List.range, List.range.loop]
    norm_num [a1]
  have c2 : InfGraph.changed_of chainGraph (InfGraph.flag_nodes 3 []) (1 / 1000000)
      [1, 1 / 2, 0] [1, 1 / 2, 1 / 4] = true := by
    simp [InfGraph.changed_of, chainGraph, InfGraph.flag_nodes, InfGraph.sim_skip,
      List.range, List.range.loop]
    norm_num [a2]
  have r1 : InfGraph.record_step 3 (1 / 2) (1 / 1000000) 1 [1, 0, 0] [1, 1 / 2, 0]
      = { step := 1
          newly_activated_nodes := [1]
          node_states := [{ id := 1, state := "active", probability := 1 / 2 }] } := by
    simp [InfGraph.record_step, List.range, List.range.loop, List.filterMap, List.filter]
    norm_num
  have r2 : InfGraph.record_step 3 (1 / 2) (1 / 1000000) 2 [1, 1 / 2, 0] [1, 1 / 2, 1 / 4]
      = { step := 2
          newly_activated_nodes := []
          node_states := [{ id := 2, state := "inactive", probability := 1 / 4 }] } := by
    simp [InfGraph.record_step, List.range, List.range.loop, List.filterMap, List.filter]
    norm_num [a2]
  have hn : chainGraph.n = 3 := rfl
  unfold InfGraph.run_probability_simulation
  rw [if_neg (by simp [chainGraph]), hn, hs]
  have hf : ((10 : Int) - 1).toNat = 7 + 1 + 1 := by decide
  rw [hf]
  rw [InfGraph.sim_loop, hn, h1, c1, r1]
  simp only [Bool.true_eq_false, if_false]
  rw [if_neg (by simp)]
  rw [InfGraph.sim_loop, hn, h2, c2, r2]
  simp [InfGraph.push_step]

end ScenarioClaims

/-! ## The propagation-model names (claim C26) -/

section ModelClaims

/-- The name `"WC"` is not accepted: `model_str_to_enum` throws on it, and so does the
configuration of every query, whatever the probability model. -/
theorem model_name_wc_counterexample :
    model_str_to_enum "WC" = none ∧ configure_query demoInfGraph "WC" "WC" = none := by
  constructor
  · decide
  · unfold configure_query
    have h : model_str_to_enum "WC" = none := by decide
    rw [h]

/-- C26, amended. `model_str_to_enum` accepts exactly the names `"IC"` and `"LT"` and
maps them to the models IC and LT; every other name, `"WC"` included, is rejected, so
no query runs under the model value WC. An object whose model is set to the value WC
directly takes the IC branch in the RR sampler `build_hyper_graph_r` and in the
Monte-Carlo simulator `calculate_final_probabilities`: the results are those under
IC. -/
theorem model_names_and_wc_value (g : InfGraph) (model_str : String) (model : InfluModel)
    (R : Int) (initial_nodes blocking_nodes : List Int) (T : Int) :
    (model_str_to_enum model_str = some model ↔
      (model_str = "IC" ∧ model = InfluModel.IC) ∨
        (model_str = "LT" ∧ model = InfluModel.LT)) ∧
    (model_str_to_enum model_str = none ↔ (model_str ≠ "IC" ∧ model_str ≠ "LT")) ∧
    ((g.setInfuModel InfluModel.WC).build_hyper_graph_r R).map
        (fun g' => g'.setInfuModel InfluModel.IC)
      = (g.setInfuModel InfluModel.IC).build_hyper_graph_r R ∧
    ((g.setInfuModel InfluModel.WC).calculate_final_probabilities initial_nodes T
        blocking_nodes).map Prod.fst
      = ((g.setInfuModel InfluModel.IC).calculate_final_probabilities initial_nodes T
        blocking_nodes).map Prod.fst := by
  refine ⟨?_, ?_, ?_, ?_⟩
  · unfold model_str_to_enum
    by_cases h1 : model_str = "IC"
    · rw [if_pos h1]
      constructor
      · intro h
        exact Or.inl ⟨h1, (Option.some.inj h).symm⟩
      · rintro (⟨_, hm⟩ | ⟨h2, _⟩)
        · rw [hm]
        · rw [h1] at h2
          exact absurd h2 (by decide)
    · rw [if_neg h1]
      by_cases h2 : model_str = "LT"
      · rw [if_pos h2]
        constructor
        · intro h
          exact Or.inr ⟨h2, (Option.some.inj h).symm⟩
        · rintro (⟨h3, _⟩ | ⟨_, hm⟩)
          · exact absurd h3 h1
          · rw [hm]
      · rw [if_neg h2]
        constructor
        · intro h
          exact Option.noConfusion h
        · rintro (⟨h3, _⟩ | ⟨h3, _⟩)
          · exact absurd h3 h1
          · exact absurd h3 h2
  · unfold model_str_to_enum
    by_cases h1 : model_str = "IC"
    · rw [if_pos h1]
      exact ⟨fun h => Option.noConfusion h, fun h => absurd h1 h.1⟩
    · rw [if_neg h1]
      by_cases h2 : model_str = "LT"
      · rw [if_pos h2]
        exact ⟨fun h => Option.noConfusion h, fun h => absurd h2 h.2⟩
      · rw [if_neg h2]
        exact ⟨fun _ => ⟨h1, h2⟩, fun _ => rfl⟩
  · unfold InfGraph.build_hyper_graph_r
    have hp : (g.setInfuModel InfluModel.WC).active_probT
        = (g.setInfuModel InfluModel.IC).active_probT := rfl
    rw [hp]
    by_cases h1 : (g.setInfuModel InfluModel.IC).active_probT.isNone = true
    · rw [if_pos h1, if_pos h1]
      rfl
    · rw [if_neg h1, if_neg h1]
      by_cases h2 : R < 0
      · rw [if_pos h2, if_pos h2]
        rfl
      · rw [if_neg h2, if_neg h2]
        exact congrArg some
          (build_r_fold_wc (List.range R.toNat) (g.setInfuModel InfluModel.WC) rfl)
  · unfold InfGraph.calculate_final_probabilities
    have hp : (g.setInfuModel InfluModel.WC).active_probFwd
        = (g.setInfuModel InfluModel.IC).active_probFwd := rfl
    rw [hp]
    by_cases h1 : (g.setInfuModel InfluModel.IC).active_probFwd.isNone = true
    · rw [if_pos h1, if_pos h1]
    · rw [if_neg h1, if_neg h1]
      by_cases h2 : T ≤ 0
      · rw [if_pos h2, if_pos h2]
      · rw [if_neg h2, if_neg h2]
        show some _ = some _
        rw [trials_loop_wc]
        rfl

end ModelClaims

/-! ## The packaged community result (claim C27) -/

section PackageClaims

open CommunitySearcher

/-- C27. Empty community on failure: for every snapshot, every iteration order of the
hash sets, every `final_states`, query list and thresholds, each of the three peelers
returns the empty community (`node_ids` empty, `node_count` 0,
`average_influence_prob` 0) when `final_states` is empty, when a parameter is invalid
(`k < 0` or `l < 0` for the cores, `k < 2` for the truss), when no query node is the id
of a state, and when no query node is among the candidates that the peeling leaves; and
in every result `node_count` is the length of `node_ids`, every returned node is the id
of a state, and `average_influence_prob` is the arithmetic mean of the probabilities
that the states record for the returned nodes. -/
theorem community_result_packaging (enum : List Nat → List Nat)
    (henum : ∀ l, (enum l).Perm l) (k_core l_core k k_truss : Int)
    (final_states : List NodeState) (g : InfGraph) (query_nodes : List Nat) :
    (WellPackaged final_states
        (find_most_influenced_community_local enum k_core l_core final_states g
          query_nodes) ∧
      EmptyOnFailure final_states g query_nodes (k_core < 0 ∨ l_core < 0)
        (fun prep => (kl_core_candidates enum k_core l_core g prep.search_space).candidates)
        (find_most_influenced_community_local enum k_core l_core final_states g
          query_nodes)) ∧
    (WellPackaged final_states (find_k_core_community enum k final_states g query_nodes) ∧
      EmptyOnFailure final_states g query_nodes (k < 0)
        (fun prep =>
          (k_core_candidates enum k (build_undirected_adj enum g prep.search_space)
            prep.search_space).candidates)
        (find_k_core_community enum k final_states g query_nodes)) ∧
    (WellPackaged final_states
        (find_k_truss_community enum k_truss final_states g query_nodes) ∧
      EmptyOnFailure final_states g query_nodes (k_truss < 2)
        (fun prep =>
          truss_nodes (k_truss_edges (k_truss - 2)
            (build_undirected_adj enum g prep.search_space)).current_edges)
        (find_k_truss_community enum k_truss final_states g query_nodes)) :=
  ⟨⟨kl_packaged enum henum k_core l_core final_states g query_nodes,
      kl_failure enum k_core l_core final_states g query_nodes⟩,
    ⟨k_packaged enum henum k final_states g query_nodes,
      k_failure enum k final_states g query_nodes⟩,
    ⟨truss_packaged enum henum k_truss final_states g query_nodes,
      truss_failure enum k_truss final_states g query_nodes⟩⟩

/-- Worked instance: the triangle snapshot with all three nodes influenced and the
query node 0, where every peeler returns the three nodes. -/
theorem community_result_packaging_witness :
    (find_most_influenced_community_local id 0 0 (allActive 3) triGraph [0]).node_ids
        = [0, 1, 2] ∧
    (WellPackaged (allActive 3)
        (find_most_influenced_community_local id 0 0 (allActive 3) triGraph [0]) ∧
      EmptyOnFailure (allActive 3) triGraph [0] ((0 : Int) < 0 ∨ (0 : Int) < 0)
        (fun prep => (kl_core_candidates id 0 0 triGraph prep.search_space).candidates)
        (find_most_influenced_community_local id 0 0 (allActive 3) triGraph [0])) ∧
    (WellPackaged (allActive 3) (find_k_core_community id 2 (allActive 3) triGraph [0]) ∧
      EmptyOnFailure (allActive 3) triGraph [0] ((2 : Int) < 0)
        (fun prep =>
          (k_core_candidates id 2 (build_undirected_adj id triGraph prep.search_space)
            prep.search_space).candidates)
        (find_k_core_community id 2 (allActive 3) triGraph [0])) ∧
    (WellPackaged (allActive 3) (find_k_truss_community id 3 (allActive 3) triGraph [0]) ∧
      EmptyOnFailure (allActive 3) triGraph [0] ((3 : Int) < 2)
        (fun prep =>
          truss_nodes (k_truss_edges (3 - 2)
            (build_undirected_adj id triGraph prep.search_space)).current_edges)
        (find_k_truss_community id 3 (allActive 3) triGraph [0])) :=
  ⟨by decide,
    community_result_packaging id (fun l => List.Perm.refl l) 0 0 2 3 (allActive 3) triGraph
      [0]⟩

end PackageClaims

/-! ## Greedy monotonicity and the coverage estimate (claim C29) -/

section CoverageClaims

/-- C29. Greedy monotonicity: for every RR store whose two sides agree, every `k` and
every excluded list, the number of distinct RR sets that hold at least one of the first
`j` nodes selected by `build_max_coverage_set` does not decrease from `j` to `j + 1`;
and `InfluenceHyperGraph` then returns that number for the whole result, divided by the
number of RR sets and multiplied by `n`, or 0 when the result or the store is empty. -/
theorem greedy_coverage_monotone (g : InfGraph) (hbij : RRBij g.hyperG g.hyperGT) (k : Int)
    (X : List Int) :
    (∀ j,
      (coveredBy g.hyperGT
          ((g.build_max_coverage_set k X).result_node_set.take j).toFinset).card
        ≤ (coveredBy g.hyperGT
          ((g.build_max_coverage_set k X).result_node_set.take (j + 1)).toFinset).card) ∧
    (g.build_max_coverage_set k X).InfluenceHyperGraph
      = if (g.build_max_coverage_set k X).result_node_set = [] ∨ g.hyperGT = [] then 0
        else
          ((coveredBy g.hyperGT
              ((g.build_max_coverage_set k X).result_node_set.take
                (g.build_max_coverage_set k X).result_node_set.length).toFinset).card : ℚ)
            / (g.hyperGT.length : ℚ) * (g.n : ℚ) := by
  constructor
  · intro j
    apply coveredBy_mono
    intro x hx
    rw [List.mem_toFinset] at hx ⊢
    have h : (g.build_max_coverage_set k X).result_node_set.take j
        = ((g.build_max_coverage_set k X).result_node_set.take (j + 1)).take j := by
      rw [List.take_take, min_eq_left (Nat.le_succ j)]
    rw [h] at hx
    exact List.mem_of_mem_take hx
  · unfold InfGraph.InfluenceHyperGraph
    have hb : RRBij (g.build_max_coverage_set k X).hyperG
        (g.build_max_coverage_set k X).hyperGT := hbij
    rw [covered_count_spec _ hb, List.take_length]
    have e1 : (g.build_max_coverage_set k X).hyperGT = g.hyperGT := rfl
    have e2 : (g.build_max_coverage_set k X).n = g.n := rfl
    rw [e1, e2]
    split_ifs
    all_goals rfl

/-- Worked instance: budget 2 and node 1 excluded on the four-set store. -/
theorem greedy_coverage_monotone_witness :
    (demoStore.build_max_coverage_set 2 [1]).result_node_set = [0, 3] ∧
    (∀ j,
      (coveredBy demoStore.hyperGT
          ((demoStore.build_max_coverage_set 2 [1]).result_node_set.take j).toFinset).card
        ≤ (coveredBy demoStore.hyperGT
          ((demoStore.build_max_coverage_set 2 [1]).result_node_set.take
            (j + 1)).toFinset).card) ∧
    (demoStore.build_max_coverage_set 2 [1]).InfluenceHyperGraph
      = if (demoStore.build_max_coverage_set 2 [1]).result_node_set = [] ∨
            demoStore.hyperGT = [] then 0
        else
          ((coveredBy demoStore.hyperGT
              ((demoStore.build_max_coverage_set 2 [1]).result_node_set.take
                (demoStore.build_max_coverage_set 2 [1]).result_node_set.length).toFinset).card
              : ℚ)
            / (demoStore.hyperGT.length : ℚ) * (demoStore.n : ℚ) :=
  ⟨by decide, greedy_coverage_monotone demoStore (RRBij.of_check (by decide)) 2 [1]⟩

end CoverageClaims

/-! ## The blocker animation (claims C24, C25) -/

section AnimationClaims

/-- C24. Monotone recovery: for every loaded graph, propagation model IC or LT,
probability model WC, TR or CO, every PRNG stream (so every outcome of the Monte-Carlo
estimates), every seed list and every ordered blocker list, `get_blocking_animation`
returns one step per blocker after step 0, numbered in order; the lists
`newly_recovered_nodes` of the steps are pairwise disjoint and none holds a node twice;
and every node in the list of a step is reported as active in the step before it and
is not reported as active in the step itself. -/
theorem blocking_animation_recovery (dataset : InfGraph)
    (propagation_model probability_model : String)
    (hm : propagation_model = "IC" ∨ propagation_model = "LT")
    (hp : probability_model = "WC" ∨ probability_model = "TR" ∨ probability_model = "CO")
    (initial_nodes blocking_nodes : List Int) :
    ∃ res, get_blocking_animation dataset propagation_model probability_model initial_nodes
        blocking_nodes = some res ∧
      res.simulation_steps.map SimulationStep.step = List.range (blocking_nodes.length + 1) ∧
      res.total_steps = blocking_nodes.length ∧
      (res.simulation_steps.map SimulationStep.newly_recovered_nodes).Pairwise List.Disjoint ∧
      (∀ st, st ∈ res.simulation_steps → st.newly_recovered_nodes.Nodup) ∧
      res.simulation_steps.Chain' RecoveredBetween := by
  obtain ⟨g, hg, hb⟩ := configure_query_some dataset propagation_model probability_model hm hp
  obtain ⟨probs_before, g0, hc, hb0⟩ := calculate_some g hb initial_nodes []
  obtain ⟨s, hs, hI, hlen⟩ := animation_loop_inv initial_nodes blocking_nodes
    (List.range blocking_nodes.length) _ (animation_start_inv g0 hb0 probs_before)
  have hs' := hs
  rw [List.range_eq_range'] at hs'
  have hnum := animation_loop_numbered initial_nodes blocking_nodes blocking_nodes.length 0
    { g := g0
      previously_active_ids := (animation_states probs_before).2
      all_recovered_ids := []
      simulation_steps :=
        [{ step := 0
           newly_activated_nodes := []
           newly_recovered_nodes := []
           node_states := (animation_states probs_before).1 }] } s rfl hs'
  rw [Nat.zero_add] at hnum
  refine ⟨{ total_steps := s.simulation_steps.length - 1
            simulation_steps := s.simulation_steps }, ?_, hnum, ?_, hI.disjoint, hI.nodup,
    hI.consecutive⟩
  · unfold get_blocking_animation
    rw [hg]
    dsimp only
    rw [hc]
    dsimp only
    rw [hs]
  · show s.simulation_steps.length - 1 = _
    rw [hlen, List.length_range]
    simp

/-- Worked instance: the two-node snapshot with the edge `0 → 1`, models IC and WC,
the seed 0 and the blocker 1. -/
theorem blocking_animation_recovery_witness :
    ∃ res, get_blocking_animation demoInfGraph "IC" "WC" [0] [1] = some res ∧
      res.simulation_steps.map SimulationStep.step
        = List.range (([1] : List Int).length + 1) ∧
      res.total_steps = ([1] : List Int).length ∧
      (res.simulation_steps.map SimulationStep.newly_recovered_nodes).Pairwise List.Disjoint ∧
      (∀ st, st ∈ res.simulation_steps → st.newly_recovered_nodes.Nodup) ∧
      res.simulation_steps.Chain' RecoveredBetween :=
  blocking_animation_recovery demoInfGraph "IC" "WC" (Or.inl rfl) (Or.inl rfl) [0] [1]

/-- C25. The activation threshold of the blocker animation is strict, unlike the one of
`get_final_influence`: on the two-node snapshot with the edge `0 → 1`, models IC and WC,
the seed 0, no blocker and a PRNG whose outputs alternate between 0 and the largest
32-bit value, the node 1 is activated in 5000 of the 10000 cascades, so its estimated
probability is one half; step 0 of `get_blocking_animation` reports it as inactive,
while `get_final_influence` reports it as active. -/
theorem blocking_animation_threshold_strict :
    (get_blocking_animation alternatingGraph "IC" "WC" [0] []).map
        (fun r => r.simulation_steps.map SimulationStep.node_states)
      = some [[{ id := 0, state := "active", probability := 1 },
          { id := 1, state := "inactive", probability := 1 / 2 }]] ∧
    (get_final_influence alternatingGraph "IC" "WC" [0] []).map ApiFinalInfluence.final_states
      = some [{ id := 0, state := "active", probability := 1 },
          { id := 1, state := "active", probability := 1 / 2 }] := by
  obtain ⟨g', hg'⟩ := alternating_estimate
  have ha : (animation_states [1, 1 / 2]).1
      = [{ id := 0, state := "active", probability := 1 },
          { id := 1, state := "inactive", probability := 1 / 2 }] := by
    simp [animation_states, List.range, List.range.loop]
    norm_num
  have hf : (final_states_of [1, 1 / 2]).1
      = [{ id := 0, state := "active", probability := 1 },
          { id := 1, state := "active", probability := 1 / 2 }] := by
    simp [final_states_of, List.range, List.range.loop]
    norm_num
  constructor
  · unfold get_blocking_animation
    rw [alternating_configured]
    dsimp only
    rw [hg']
    dsimp only [List.length_nil, List.range_zero, animation_loop, Option.map_some']
    rw [List.map_cons, List.map_nil, ha]
  · unfold get_final_influence
    rw [alternating_configured]
    dsimp only
    rw [hg']
    dsimp only [Option.map_some']
    rw [hf]

end AnimationClaims

/-! ## The recorded cascades (claims C21, C22, C23) -/

section TrackingClaims

open CommunitySearcher

/-- C21. Cut-off containment: over a loaded graph with a bound forward probability
table, for every PRNG stream, negative-seed list and blocker list, `find_cut_off_edges`
returns, and every edge `(u, v)` that it returns satisfies: `v` was activated in the
cascade without blockers that records the parents, with the recorded parent `u`, so
`u` was activated too, `u → v` is an edge of the graph and `v` is not a seed; and `v`
was not activated in the cascade that was then run with the blockers applied. -/
theorem cut_off_containment (g : InfGraph) (hG : GraphOK g.toGraph)
    (hp : g.active_probFwd ≠ none) (negative_seeds blocking_nodes : List Int) :
    ∃ r, g.find_cut_off_edges negative_seeds blocking_nodes = some r ∧
      ∀ e, e ∈ r.1 → ∃ u v : Nat, e.source = (u : Int) ∧ e.target = (v : Int) ∧
        v < g.n ∧
        (g.parent_trial negative_seeds []).activated.getD v false = true ∧
        (g.parent_trial negative_seeds []).activated.getD u false = true ∧
        (g.parent_trial negative_seeds []).parent_map.count v = true ∧
        (g.parent_trial negative_seeds []).parent_map.val v = (u : Int) ∧
        v ∈ g.g.getD u [] ∧ (v : Int) ∉ negative_seeds ∧
        (InfGraph.activated_in_trial
          { g with sfmt := (g.parent_trial negative_seeds []).sfmt }
          negative_seeds blocking_nodes 0).getD v false = false := by
  unfold InfGraph.find_cut_off_edges
  by_cases h0 : negative_seeds.isEmpty = true
  · rw [if_pos h0]
    exact ⟨_, rfl, fun e he => absurd he (List.not_mem_nil e)⟩
  · rw [if_neg h0]
    have hrun : g.run_forward_simulation_with_parent_tracking negative_seeds []
        = some ((g.parent_trial negative_seeds []).parent_map,
          { g with sfmt := (g.parent_trial negative_seeds []).sfmt }) := by
      unfold InfGraph.run_forward_simulation_with_parent_tracking
      rw [if_neg h0, if_neg (by simpa [Option.isNone_iff_eq_none] using hp)]
    rw [hrun]
    dsimp only
    by_cases h1 : (g.parent_trial negative_seeds []).parent_map.keys.isEmpty = true
    · rw [if_pos h1]
      exact ⟨_, rfl, fun e he => absurd he (List.not_mem_nil e)⟩
    · rw [if_neg h1]
      have hcalc : ∃ after_probs g2,
          InfGraph.calculate_final_probabilities
            { g with sfmt := (g.parent_trial negative_seeds []).sfmt } negative_seeds 1
            blocking_nodes = some (after_probs, g2) := by
        unfold InfGraph.calculate_final_probabilities
        rw [if_neg (by simpa [Option.isNone_iff_eq_none] using hp), if_neg (by decide)]
        exact ⟨_, _, rfl⟩
      obtain ⟨after_probs, g2, hc⟩ := hcalc
      rw [hc]
      refine ⟨_, rfl, ?_⟩
      intro e he
      obtain ⟨hI, _⟩ := parent_trial_inv g hG negative_seeds []
      obtain ⟨child, hchild, hsome⟩ := List.mem_filterMap.mp he
      split_ifs at hsome with hroot hmark
      have he' : e = Edge.mk ((g.parent_trial negative_seeds []).parent_map.val child)
          (child : Int) := (Option.some.inj hsome).symm
      have hact := (hI.keys_iff child).mp hchild
      have hlt : child < g.n := by
        by_contra hge
        rw [List.getD_eq_default _ _ (by rw [hI.len]; omega)] at hact
        exact Bool.noConfusion hact
      rcases hI.recorded child hchild with ⟨hr, _⟩ | ⟨u, j, hr, hu, hedge, hns⟩
      · exact absurd hr hroot
      · refine ⟨u, child, ?_, ?_, hlt, hact, (hI.keys_iff u).mp hu, ?_, hr, List.getElem?_mem hedge,
          ?_, ?_⟩
        · rw [he']
          exact hr
        · rw [he']
        · unfold OrdMap.count
          simpa using hchild
        · intro hs
          exact hns ⟨hs, hlt, flag_nodes_nil g.n child⟩
        · exact single_trial_inactive
            { g with sfmt := (g.parent_trial negative_seeds []).sfmt } negative_seeds
            blocking_nodes after_probs g2 hc child hlt hmark

/-- Worked instance: the two-node snapshot with the edge `0 → 1` of probability 1, the
negative seed 0 and the blocker 1. -/
theorem cut_off_containment_witness :
    GraphOK demoInfGraph.toGraph ∧ demoInfGraph.active_probFwd ≠ none ∧
    ∃ r, demoInfGraph.find_cut_off_edges [0] [1] = some r ∧
      ∀ e, e ∈ r.1 → ∃ u v : Nat, e.source = (u : Int) ∧ e.target = (v : Int) ∧
        v < demoInfGraph.n ∧
        (demoInfGraph.parent_trial [0] []).activated.getD v false = true ∧
        (demoInfGraph.parent_trial [0] []).activated.getD u false = true ∧
        (demoInfGraph.parent_trial [0] []).parent_map.count v = true ∧
        (demoInfGraph.parent_trial [0] []).parent_map.val v = (u : Int) ∧
        v ∈ demoInfGraph.g.getD u [] ∧ (v : Int) ∉ [(0 : Int)] ∧
        (InfGraph.activated_in_trial
          { demoInfGraph with sfmt := (demoInfGraph.parent_trial [0] []).sfmt }
          [0] [1] 0).getD v false = false :=
  ⟨demoInfGraph_ok, by simp [demoInfGraph],
    cut_off_containment demoInfGraph demoInfGraph_ok (by simp [demoInfGraph]) [0] [1]⟩

/-- C22. Main-path extraction: over a loaded graph with a bound forward probability
table, for every PRNG stream, every sorting function that keeps the contract of
`std::sort` and every non-empty seed list inside the graph,
`find_main_propagation_paths` returns exactly `min 50 a` edges, where `a` is the number
of nodes that the witness trial activated and that are not seeds; each returned edge
`(u, v)` is the recorded entry of `v`, with the probability of the graph edge `u → v`
that activated it, and `u` and `v` were activated; no child occurs twice; the recorded
probabilities do not increase along the output; and no recorded edge that is left out
has a strictly larger probability than a returned one. -/
theorem main_paths_extraction (sort : List (ℚ × Edge) → List (ℚ × Edge))
    (hsort : SortsDescending sort) (g : InfGraph) (hG : GraphOK g.toGraph)
    (hp : g.active_probFwd ≠ none) (seed_nodes : List Int) (hne : seed_nodes ≠ [])
    (hr : ∀ s, s ∈ seed_nodes → 0 ≤ s ∧ s < (g.n : Int)) :
    ∃ r, g.find_main_propagation_paths sort seed_nodes = some r ∧
      r.1.length = min 50 ((List.range g.n).filter (fun v =>
        (g.witness_trial seed_nodes []).activated.getD v false
          && !(seed_nodes.contains (v : Int)))).length ∧
      (∀ e, e ∈ r.1 → ∃ u v j : Nat, e.source = (u : Int) ∧ e.target = (v : Int) ∧
        (g.witness_trial seed_nodes []).parent_map.count v = true ∧
        (g.witness_trial seed_nodes []).parent_map.val v
          = ((u : Int), (g.probFwd u).getD j 0) ∧
        (g.g.getD u [])[j]? = some v ∧
        (g.witness_trial seed_nodes []).activated.getD u false = true ∧
        (g.witness_trial seed_nodes []).activated.getD v false = true ∧
        (v : Int) ∉ seed_nodes) ∧
      (r.1.map Edge.target).Nodup ∧
      (r.1.map (fun e =>
        ((g.witness_trial seed_nodes []).parent_map.val e.target.toNat).2)).Pairwise
        (fun a b => b ≤ a) ∧
      (∀ v, (g.witness_trial seed_nodes []).parent_map.count v = true →
        ((g.witness_trial seed_nodes []).parent_map.val v).1 ≠ -1 →
        (v : Int) ∉ r.1.map Edge.target →
        ∀ e, e ∈ r.1 →
          ((g.witness_trial seed_nodes []).parent_map.val v).2
            ≤ ((g.witness_trial seed_nodes []).parent_map.val e.target.toNat).2) := by
  have h0 : ¬ seed_nodes.isEmpty = true := by
    rw [List.isEmpty_iff]
    exact hne
  have hall : ¬ ((seed_nodes ++ []).all (fun x => decide (0 ≤ x ∧ x < (g.n : Int))) = false) := by
    rw [Bool.not_eq_false, List.all_eq_true]
    intro x hx
    rw [List.append_nil] at hx
    exact decide_eq_true (hr x hx)
  have hrun : g.run_forward_simulation_with_tracking seed_nodes []
      = some ((g.witness_trial seed_nodes []).parent_map,
        { g with sfmt := (g.witness_trial seed_nodes []).sfmt }) := by
    unfold InfGraph.run_forward_simulation_with_tracking
    rw [if_neg h0, if_neg hall, if_neg (by simpa [Option.isNone_iff_eq_none] using hp)]
  have hres : g.find_main_propagation_paths sort seed_nodes
      = some (((sort (weighted_edges (g.witness_trial seed_nodes []).parent_map)).take 50).map
          Prod.snd, { g with sfmt := (g.witness_trial seed_nodes []).sfmt }) := by
    unfold InfGraph.find_main_propagation_paths
    rw [if_neg h0, hrun]
    rfl
  obtain ⟨hI, _⟩ := witness_trial_inv g hG seed_nodes hr
  have hnd : (g.witness_trial seed_nodes []).parent_map.keys.Nodup :=
    hI.sorted.imp (fun h => Nat.ne_of_lt h)
  obtain ⟨t1, t2, t3⟩ := top_edges_spec sort hsort
    (g.witness_trial seed_nodes []).parent_map hnd 50
  have hcount : ∀ v, (g.witness_trial seed_nodes []).parent_map.count v = true ↔
      v ∈ (g.witness_trial seed_nodes []).parent_map.keys := by
    intro v
    unfold OrdMap.count
    simp
  refine ⟨_, hres, ?_, ?_, t1, t2, ?_⟩
  · show (((sort (weighted_edges (g.witness_trial seed_nodes []).parent_map)).take 50).map
      Prod.snd).length = _
    rw [List.length_map, List.length_take, ((hsort _).1).length_eq,
      weighted_edges_count g seed_nodes _ _ _ hI]
  · intro e he
    obtain ⟨x, hx, hxe⟩ := List.mem_map.mp he
    have hx1 := ((hsort _).1).subset ((List.take_sublist _ _).subset hx)
    obtain ⟨child, hchild, hroot, hx2⟩ := (mem_weighted_edges _ x).mp hx1
    have hact := (hI.keys_iff child).mp hchild
    have hlt : child < g.n := by
      by_contra hge
      rw [List.getD_eq_default _ _ (by rw [hI.len]; omega)] at hact
      exact Bool.noConfusion hact
    have hfalse : (List.replicate g.n false).getD child false = false := by
      rw [List.getD_eq_getElem?_getD, List.getElem?_replicate]
      split_ifs
      rfl
    rcases hI.recorded child hchild with ⟨hroot', _⟩ | ⟨u, j, hrec, hu, hedge, hns⟩
    · rw [hroot'] at hroot
      exact absurd rfl hroot
    · refine ⟨u, child, j, ?_, ?_, (hcount child).mpr hchild, hrec, hedge,
        (hI.keys_iff u).mp hu, hact, fun hs => hns ⟨hs, hlt, hfalse⟩⟩
      · rw [← hxe, hx2, hrec]
      · rw [← hxe, hx2]
  · intro v hv
    exact t3 v ((hcount v).mp hv)

/-- Worked instance: the two-node snapshot with the edge `0 → 1` of probability 1, the
seed 0 and insertion sort by descending probability. -/
theorem main_paths_extraction_witness :
    SortsDescending sort_desc ∧ GraphOK demoInfGraph.toGraph ∧
    demoInfGraph.active_probFwd ≠ none ∧ ([0] : List Int) ≠ [] ∧
    (∀ s, s ∈ ([0] : List Int) → 0 ≤ s ∧ s < (demoInfGraph.n : Int)) ∧
    ∃ r, demoInfGraph.find_main_propagation_paths sort_desc [0] = some r ∧
      r.1.length = min 50 ((List.range demoInfGraph.n).filter (fun v =>
        (demoInfGraph.witness_trial [0] []).activated.getD v false
          && !(([0] : List Int).contains (v : Int)))).length ∧
      (∀ e, e ∈ r.1 → ∃ u v j : Nat, e.source = (u : Int) ∧ e.target = (v : Int) ∧
        (demoInfGraph.witness_trial [0] []).parent_map.count v = true ∧
        (demoInfGraph.witness_trial [0] []).parent_map.val v
          = ((u : Int), (demoInfGraph.probFwd u).getD j 0) ∧
        (demoInfGraph.g.getD u [])[j]? = some v ∧
        (demoInfGraph.witness_trial [0] []).activated.getD u false = true ∧
        (demoInfGraph.witness_trial [0] []).activated.getD v false = true ∧
        (v : Int) ∉ ([0] : List Int)) ∧
      (r.1.map Edge.target).Nodup ∧
      (r.1.map (fun e =>
        ((demoInfGraph.witness_trial [0] []).parent_map.val e.target.toNat).2)).Pairwise
        (fun a b => b ≤ a) ∧
      (∀ v, (demoInfGraph.witness_trial [0] []).parent_map.count v = true →
        ((demoInfGraph.witness_trial [0] []).parent_map.val v).1 ≠ -1 →
        (v : Int) ∉ r.1.map Edge.target →
        ∀ e, e ∈ r.1 →
          ((demoInfGraph.witness_trial [0] []).parent_map.val v).2
            ≤ ((demoInfGraph.witness_trial [0] []).parent_map.val e.target.toNat).2) :=
  ⟨sort_desc_ok, demoInfGraph_ok, by simp [demoInfGraph], by simp,
    by
      intro s hs
      rw [List.mem_singleton.mp hs]
      exact ⟨by decide, by decide⟩,
    main_paths_extraction sort_desc sort_desc_ok demoInfGraph demoInfGraph_ok
      (by simp [demoInfGraph]) [0] (by simp)
      (by
        intro s hs
        rw [List.mem_singleton.mp hs]
        exact ⟨by decide, by decide⟩)⟩

/-- C23. Deepest critical path: over a loaded graph, for every PRNG stream, every pair
of model names that the configuration accepts and every seed list for which the
recorded cascade activates at least one node, `find_critical_paths` returns one path,
of type "deepest"; its first node is a seed recorded with the parent `-1`; every
consecutive pair `(a, b)` is an edge `a → b` of the graph with `a` the recorded parent
of `b`; its score is the number of its nodes minus one; its last node is an activated
node whose depth in the recorded forest is the score; and every activated node has a
depth in that forest, which is at most the score. -/
theorem deepest_critical_path (dataset g : InfGraph) (hG : GraphOK dataset.toGraph)
    (propagation_model probability_model : String)
    (hg : configure_query dataset propagation_model probability_model = some g)
    (initial_nodes : List Int)
    (hact : ∃ v, (g.parent_trial initial_nodes []).activated.getD v false = true) :
    ∃ res path,
      find_critical_paths dataset propagation_model probability_model initial_nodes = some res ∧
      res.critical_paths = [path] ∧ path.type = "deepest" ∧
      (∃ s : Nat, path.nodes.head? = some (s : Int) ∧ (s : Int) ∈ initial_nodes ∧
        (g.parent_trial initial_nodes []).parent_map.count s = true ∧
        (g.parent_trial initial_nodes []).parent_map.val s = -1) ∧
      path.nodes.Chain' (fun a b => ∃ u v : Nat, a = (u : Int) ∧ b = (v : Int) ∧
        v ∈ dataset.g.getD u [] ∧
        (g.parent_trial initial_nodes []).parent_map.count v = true ∧
        (g.parent_trial initial_nodes []).parent_map.val v = (u : Int)) ∧
      path.score = (path.nodes.length : ℚ) - 1 ∧
      (∃ v d : Nat, path.nodes.getLast? = some (v : Int) ∧
        (g.parent_trial initial_nodes []).activated.getD v false = true ∧
        TreeDepth (g.parent_trial initial_nodes []).parent_map v d ∧ path.score = (d : ℚ)) ∧
      (∀ w, (g.parent_trial initial_nodes []).activated.getD w false = true →
        ∃ dw : Nat, TreeDepth (g.parent_trial initial_nodes []).parent_map w dw ∧
          (dw : ℚ) ≤ path.score) := by
  obtain ⟨hgr, _, hp⟩ := configure_query_graph dataset g propagation_model probability_model hg
  have hG' : GraphOK g.toGraph := by
    rw [hgr]
    exact hG
  have hgg : g.g = dataset.g := congrArg Graph.g hgr
  obtain ⟨hI, _⟩ := parent_trial_inv g hG' initial_nodes []
  obtain ⟨v0, hv0⟩ := hact
  have hk0 : v0 ∈ (g.parent_trial initial_nodes []).parent_map.keys := (hI.keys_iff v0).mpr hv0
  have hne : ¬ initial_nodes.isEmpty = true := by
    rw [List.isEmpty_iff]
    exact recorded_needs_seed g _ initial_nodes _ _ _ hI v0 hk0
  have hkeys : ¬ (g.parent_trial initial_nodes []).parent_map.keys.isEmpty = true := by
    rw [List.isEmpty_iff]
    exact List.ne_nil_of_mem hk0
  have hrun : g.run_forward_simulation_with_parent_tracking initial_nodes []
      = some ((g.parent_trial initial_nodes []).parent_map,
        { g with sfmt := (g.parent_trial initial_nodes []).sfmt }) := by
    unfold InfGraph.run_forward_simulation_with_parent_tracking
    rw [if_neg hne, if_neg (by simpa [Option.isNone_iff_eq_none] using hp)]
  obtain ⟨s, hs, hb⟩ := deepest_scan_spec (g.parent_trial initial_nodes []).parent_map
    ((g.parent_trial initial_nodes []).parent_map.keys.length + 1)
    (g.parent_trial initial_nodes []).parent_map.keys []
    { depth_memo := OrdMap.empty 0, max_depth := -1, deepest_node := -1 }
    (fun v hv => by
      obtain ⟨d, hd, hl⟩ := hI.depth v hv
      exact ⟨d, hd, Nat.lt_succ_of_lt hl⟩)
    ⟨fun k hk => absurd hk (List.not_mem_nil k), fun w hw => absurd hw (List.not_mem_nil w),
      Or.inl ⟨rfl, rfl, rfl⟩⟩
  rw [List.nil_append] at hb
  rcases hb.best with ⟨hnil, _, _⟩ | ⟨v, d, hvk, hdn, hmd, hd⟩
  · exact absurd hnil (List.ne_nil_of_mem hk0)
  · have hdeep : ¬ s.deepest_node = -1 := by
      rw [hdn]
      omega
    have hdlt : d < (g.parent_trial initial_nodes []).parent_map.keys.length := by
      obtain ⟨d', hd', hl⟩ := hI.depth v hvk
      rw [tree_depth_unique hd hd']
      exact hl
    obtain ⟨chain, hc1, hc2, hc3, ⟨r, hr1, hr2, hr3⟩, hc5⟩ :=
      backtrack_spec (g.parent_trial initial_nodes []).parent_map
        ((g.parent_trial initial_nodes []).parent_map.keys.length + 1) v d [] hd (by omega)
    rw [← hdn, List.nil_append] at hc1
    have hres : find_critical_paths dataset propagation_model probability_model initial_nodes
        = some
          { critical_paths :=
              [{ type := "deepest", score := (s.max_depth : ℚ),
                 nodes := (chain.map Int.ofNat).reverse }],
            message := "Successfully found a deepest propagation path with length "
              ++ toString s.max_depth ++ "." } := by
      unfold find_critical_paths
      rw [hg]
      dsimp only
      rw [hrun]
      dsimp only
      rw [if_neg hkeys, hs]
      dsimp only
      rw [if_neg hdeep, hc1]
    refine ⟨_, _, hres, rfl, rfl, ?_, ?_, ?_, ?_, ?_⟩
    · refine ⟨r, ?_, ?_, (ordmap_count_iff _ r).mpr hr2, hr3⟩
      · show ((chain.map Int.ofNat).reverse).head? = some (r : Int)
        rw [List.head?_reverse, List.getLast?_map, hr1]
        rfl
      · rcases hI.recorded r hr2 with ⟨_, hS⟩ | ⟨u, j, hrec, _, _, _⟩
        · exact hS.1
        · rw [hr3] at hrec
          have e : (-1 : Int) = (u : Int) := hrec
          omega
    · show ((chain.map Int.ofNat).reverse).Chain' _
      rw [List.chain'_reverse, List.chain'_map]
      refine List.Chain'.imp ?_ hc5
      intro b a hba
      refine ⟨a, b, rfl, rfl, ?_, (ordmap_count_iff _ b).mpr hba.1, hba.2⟩
      rcases hI.recorded b hba.1 with ⟨hroot, _⟩ | ⟨u, j, hrec, _, hedge, _⟩
      · rw [hba.2] at hroot
        have e : (a : Int) = -1 := hroot
        omega
      · rw [hba.2] at hrec
        have e : (a : Int) = (u : Int) := hrec
        have e' : a = u := by omega
        rw [e', ← hgg]
        exact List.getElem?_mem hedge
    · show ((s.max_depth : Int) : ℚ) = (((chain.map Int.ofNat).reverse).length : ℚ) - 1
      rw [List.length_reverse, List.length_map, hc2, hmd]
      push_cast
      ring
    · refine ⟨v, d, ?_, (hI.keys_iff v).mp hvk, hd, ?_⟩
      · show ((chain.map Int.ofNat).reverse).getLast? = some (v : Int)
        rw [List.getLast?_reverse, List.head?_map, hc3]
        rfl
      · show ((s.max_depth : Int) : ℚ) = (d : ℚ)
        rw [hmd]
        rfl
    · intro w hw
      obtain ⟨dw, h1, h2⟩ := hb.bound w ((hI.keys_iff w).mpr hw)
      refine ⟨dw, h1, ?_⟩
      show (dw : ℚ) ≤ ((s.max_depth : Int) : ℚ)
      exact_mod_cast h2

/-- Worked instance: the two-node snapshot with the edge `0 → 1`, the models IC and WC,
which leave the snapshot as it is, and the seed 0, which the cascade activates. -/
theorem deepest_critical_path_witness :
    GraphOK demoInfGraph.toGraph ∧
    configure_query demoInfGraph "IC" "WC" = some demoInfGraph ∧
    (∃ v, (demoInfGraph.parent_trial [0] []).activated.getD v false = true) ∧
    ∃ res path,
      find_critical_paths demoInfGraph "IC" "WC" [0] = some res ∧
      res.critical_paths = [path] ∧ path.type = "deepest" ∧
      (∃ s : Nat, path.nodes.head? = some (s : Int) ∧ (s : Int) ∈ ([0] : List Int) ∧
        (demoInfGraph.parent_trial [0] []).parent_map.count s = true ∧
        (demoInfGraph.parent_trial [0] []).parent_map.val s = -1) ∧
      path.nodes.Chain' (fun a b => ∃ u v : Nat, a = (u : Int) ∧ b = (v : Int) ∧
        v ∈ demoInfGraph.g.getD u [] ∧
        (demoInfGraph.parent_trial [0] []).parent_map.count v = true ∧
        (demoInfGraph.parent_trial [0] []).parent_map.val v = (u : Int)) ∧
      path.score = (path.nodes.length : ℚ) - 1 ∧
      (∃ v d : Nat, path.nodes.getLast? = some (v : Int) ∧
        (demoInfGraph.parent_trial [0] []).activated.getD v false = true ∧
        TreeDepth (demoInfGraph.parent_trial [0] []).parent_map v d ∧ path.score = (d : ℚ)) ∧
      (∀ w, (demoInfGraph.parent_trial [0] []).activated.getD w false = true →
        ∃ dw : Nat, TreeDepth (demoInfGraph.parent_trial [0] []).parent_map w dw ∧
          (dw : ℚ) ≤ path.score) :=
  have hseed : ∃ v, (demoInfGraph.parent_trial [0] []).activated.getD v false = true :=
    ⟨0, ((parent_trial_inv demoInfGraph demoInfGraph_ok [0] []).1.keys_iff 0).mp
      ((parent_trial_inv demoInfGraph demoInfGraph_ok [0] []).1.seeds_in 0
        ⟨by simp, by decide, flag_nodes_nil 2 0⟩)⟩
  ⟨demoInfGraph_ok, rfl, hseed,
    deepest_critical_path demoInfGraph demoInfGraph demoInfGraph_ok "IC" "WC" rfl [0] hseed⟩

end TrackingClaims

/-! ## One pass of the greedy selection -/

section GreedyStepLemmas

/-- In a well-formed store the residual coverage of a node, read from its row of
`hyperG`, is the number of RR sets that contain it and are not yet covered. -/
theorem residual_eq_open_count {n : Nat} {hG hGT : List (List Nat)} (hS : StoreOK n hG hGT)
    (covered : List Bool) (w : Nat) : residual hG covered w = open_count hGT covered w := by
  rw [residual_eq_card hS]
  unfold open_count openSets
  rw [← List.toFinset_card_of_nodup ((List.nodup_range hGT.length).filter _)]
  congr 1
  ext i
  simp only [Finset.mem_filter, List.mem_toFinset, List.mem_filter, List.mem_range,
    Bool.and_eq_true, decide_eq_true_eq, List.contains_eq_any_beq, List.any_eq_true, beq_iff_eq,
    exists_eq_right]
  constructor
  · rintro ⟨h1, h2⟩
    have h3 := (hS.bij.mem_iff i w).mp h1
    exact ⟨getD_ne_nil_lt (List.ne_nil_of_mem h3), h2, w, h3, rfl⟩
  · rintro ⟨_, h2, x, h3, e⟩
    rw [← e] at h3
    exact ⟨(hS.bij.mem_iff i w).mpr h3, h2⟩

/-- A node that is neither excluded, nor selected, nor in the heap belongs to no RR
set. -/
theorem residual_outside_heap {n c : Nat} {hG hGT : List (List Nat)} {excl : List Bool}
    {s : InfGraph.Greedy} (hI : GInv n hG hGT excl c s) (covered : List Bool) (w : Nat)
    (hw : w < n) (hex : excl.getD w false = false) (hsel : w ∉ s.result_node_set)
    (hnc : ¬ s.degree_heap.contains w) : residual hG covered w = 0 := by
  have hcand : ¬ candb hG excl w = true := fun hc => hnc ((hI.mem w hw).mpr ⟨hc, hsel⟩)
  rw [candb_iff] at hcand
  have hrow : hG.getD w [] = [] := by
    by_contra hne
    exact hcand ⟨hex, hne⟩
  unfold residual uncovered
  rw [hrow]
  rfl

/-- On an empty heap the selection loop makes no pass. -/
theorem greedy_loop_of_empty (hyperG hyperGT : List (List Nat)) (excl : List Bool) (m : Nat)
    (s : InfGraph.Greedy) (he : s.degree_heap.empty = true) :
    InfGraph.greedy_loop hyperG hyperGT excl m s = s := by
  cases m with
  | zero => rfl
  | succ m =>
    simp only [InfGraph.greedy_loop]
    rw [if_pos he]

/-- The state after `j + m` passes is the state after `m` passes from the state after
`j` passes. -/
theorem greedy_loop_add (hyperG hyperGT : List (List Nat)) (excl : List Bool) :
    ∀ (j m : Nat) (s : InfGraph.Greedy),
      InfGraph.greedy_loop hyperG hyperGT excl (j + m) s
        = InfGraph.greedy_loop hyperG hyperGT excl m
            (InfGraph.greedy_loop hyperG hyperGT excl j s)
  | 0, m, s => by
    rw [Nat.zero_add]
    rfl
  | j + 1, m, s => by
    have e : j + 1 + m = (j + m) + 1 := by omega
    rw [e]
    simp only [InfGraph.greedy_loop]
    by_cases he : s.degree_heap.empty = true
    · rw [if_pos he, if_pos he, greedy_loop_of_empty hyperG hyperGT excl m s he]
    · rw [if_neg he, if_neg he]
      exact greedy_loop_add hyperG hyperGT excl j m _

end GreedyStepLemmas

/-! ## The forest of a recorded cascade -/

section ForestLemmas

open CommunitySearcher

variable {V : Type}

/-- For blockers inside the graph the unchecked loop `is_blocked[b] = true` builds the
same flags as the checked one. -/
theorem unchecked_flags_eq (n : Nat) : ∀ (nodes : List Int) (f : List Bool),
    (∀ x, x ∈ nodes → 0 ≤ x ∧ x < (n : Int)) →
    nodes.foldl (fun flags node => flags.set node.toNat true) f
      = nodes.foldl
          (fun flags x => if 0 ≤ x ∧ x < (n : Int) then flags.set x.toNat true else flags) f
  | [], _, _ => rfl
  | x :: rest, f, h => by
    rw [List.foldl_cons, List.foldl_cons, if_pos (h x (List.mem_cons_self _ _))]
    exact unchecked_flags_eq n rest _ (fun y hy => h y (List.mem_cons_of_mem _ hy))

theorem ic_track_edges_unblocked (B : List Bool) (probs : List ℚ) (entry : ℚ → V) :
    ∀ (row : List Nat) (j : Nat) (st : Track V),
      (∀ v, v ∈ st.parent_map.keys → B.getD v false = false) →
      ∀ v, v ∈ (InfGraph.ic_track_edges B probs entry row j st).parent_map.keys →
        B.getD v false = false
  | [], _, st, h => h
  | w :: rest, j, st, h => by
    rw [InfGraph.ic_track_edges]
    split_ifs with h1 h2
    · exact ic_track_edges_unblocked B probs entry rest (j + 1) st h
    · simp only [Bool.or_eq_true, not_or, Bool.not_eq_true] at h1
      refine ic_track_edges_unblocked B probs entry rest (j + 1) _ ?_
      intro v hv
      rcases (mem_set_insert w st.parent_map.keys v).mp hv with e | hk
      · rw [e]
        exact h1.2
      · exact h v hk
    · exact ic_track_edges_unblocked B probs entry rest (j + 1) _ h

theorem lt_track_edges_unblocked (B : List Bool) (thresholds probs : List ℚ) (entry : ℚ → V) :
    ∀ (row : List Nat) (j : Nat) (st : Track V),
      (∀ v, v ∈ st.parent_map.keys → B.getD v false = false) →
      ∀ v, v ∈ (InfGraph.lt_track_edges B thresholds probs entry row j st).parent_map.keys →
        B.getD v false = false
  | [], _, st, h => h
  | w :: rest, j, st, h => by
    rw [InfGraph.lt_track_edges]
    by_cases h1 : (st.activated.getD w false || B.getD w false) = true
    · rw [if_pos h1]
      exact lt_track_edges_unblocked B thresholds probs entry rest (j + 1) st h
    · rw [if_neg h1]
      simp only [Bool.or_eq_true, not_or, Bool.not_eq_true] at h1
      by_cases h2 : (st.total_weights.set w (st.total_weights.getD w 0 + probs.getD j 0)).getD w 0
          ≥ thresholds.getD w 0
      · rw [if_pos h2]
        refine lt_track_edges_unblocked B thresholds probs entry rest (j + 1) _ ?_
        intro v hv
        by_cases hc : st.parent_map.count w = true
        · have hv' : v ∈ (if st.parent_map.count w = true then st.parent_map
              else st.parent_map.assign w (entry (probs.getD j 0))).keys := hv
          rw [if_pos hc] at hv'
          exact h v hv'
        · have hv' : v ∈ (if st.parent_map.count w = true then st.parent_map
              else st.parent_map.assign w (entry (probs.getD j 0))).keys := hv
          rw [if_neg hc] at hv'
          rcases (mem_set_insert w st.parent_map.keys v).mp hv' with e | hk
          · rw [e]
            exact h1.2
          · exact h v hk
      · rw [if_neg h2]
        exact lt_track_edges_unblocked B thresholds probs entry rest (j + 1) _ h

theorem ic_track_loop_unblocked (g : InfGraph) (B : List Bool) (entry : Nat → ℚ → V) :
    ∀ (fuel : Nat) (st : Track V),
      (∀ v, v ∈ st.parent_map.keys → B.getD v false = false) →
      ∀ v, v ∈ (InfGraph.ic_track_loop g B entry fuel st).parent_map.keys →
        B.getD v false = false
  | 0, _, h => h
  | fuel + 1, st, h => by
    rw [InfGraph.ic_track_loop]
    cases hq : st.q with
    | nil => exact h
    | cons u rest =>
      exact ic_track_loop_unblocked g B entry fuel _
        (ic_track_edges_unblocked B _ _ _ 0 ({ st with q := rest } : Track V) h)

theorem lt_track_loop_unblocked (g : InfGraph) (B : List Bool) (thresholds : List ℚ)
    (entry : Nat → ℚ → V) :
    ∀ (fuel : Nat) (st : Track V),
      (∀ v, v ∈ st.parent_map.keys → B.getD v false = false) →
      ∀ v, v ∈ (InfGraph.lt_track_loop g B thresholds entry fuel st).parent_map.keys →
        B.getD v false = false
  | 0, _, h => h
  | fuel + 1, st, h => by
    rw [InfGraph.lt_track_loop]
    cases hq : st.q with
    | nil => exact h
    | cons u rest =>
      exact lt_track_loop_unblocked g B thresholds entry fuel _
        (lt_track_edges_unblocked B thresholds _ _ _ 0 ({ st with q := rest } : Track V) h)

/-- A recorded cascade records no blocked node, if the seed loop recorded none. -/
theorem track_cascade_unblocked (g : InfGraph) (B : List Bool) (entry : Nat → ℚ → V)
    (fuel : Nat) (st : Track V)
    (h : ∀ v, v ∈ st.parent_map.keys → B.getD v false = false) :
    ∀ v, v ∈ (InfGraph.track_cascade g B entry fuel st).parent_map.keys →
      B.getD v false = false := by
  unfold InfGraph.track_cascade
  cases g.influModel with
  | IC => exact ic_track_loop_unblocked g B entry fuel st h
  | LT => exact lt_track_loop_unblocked g B _ entry fuel _ h
  | WC => exact ic_track_loop_unblocked g B entry fuel st h

theorem parent_seeds_unblocked (n : Nat) (B : List Bool) :
    ∀ (seeds : List Int) (st : Track Int),
      (∀ v, v ∈ st.parent_map.keys → B.getD v false = false) →
      ∀ v, v ∈ (InfGraph.parent_seeds n B seeds st).parent_map.keys → B.getD v false = false
  | [], _, h => h
  | seed :: rest, st, h => by
    rw [InfGraph.parent_seeds]
    split_ifs with hc
    · refine parent_seeds_unblocked n B rest _ ?_
      intro v hv
      rcases (mem_set_insert seed.toNat st.parent_map.keys v).mp hv with e | hk
      · rw [e]
        exact hc.2.2.1
      · exact h v hk
    · exact parent_seeds_unblocked n B rest st h

theorem witness_seeds_unblocked (B : List Bool) :
    ∀ (seeds : List Int) (st : Track (Int × ℚ)),
      (∀ v, v ∈ st.parent_map.keys → B.getD v false = false) →
      ∀ v, v ∈ (InfGraph.witness_seeds B seeds st).parent_map.keys → B.getD v false = false
  | [], _, h => h
  | seed :: rest, st, h => by
    rw [InfGraph.witness_seeds]
    split_ifs with hc
    · refine witness_seeds_unblocked B rest _ ?_
      intro v hv
      rcases (mem_set_insert seed.toNat st.parent_map.keys v).mp hv with e | hk
      · rw [e]
        exact hc
      · exact h v hk
    · exact witness_seeds_unblocked B rest st h

/-- The state in which the cascade of `run_forward_simulation_with_tracking` ends, for
seeds inside the graph and any flags. -/
theorem witness_trial_inv_flags (g : InfGraph) (hG : GraphOK g.toGraph)
    (initial_nodes blocking_nodes : List Int)
    (hr : ∀ s, s ∈ initial_nodes → 0 ≤ s ∧ s < (g.n : Int)) :
    TInv g (AcceptedSeed g.n
        (blocking_nodes.foldl (fun flags node => flags.set node.toNat true)
          (List.replicate g.n false)) initial_nodes) (-1, 1)
      (fun u prob => ((u : Int), prob))
      (g.witness_trial initial_nodes blocking_nodes).activated
      (g.witness_trial initial_nodes blocking_nodes).q
      (g.witness_trial initial_nodes blocking_nodes).parent_map ∧
    (∀ v, v ∈ (g.witness_trial initial_nodes blocking_nodes).parent_map.keys →
      (blocking_nodes.foldl (fun flags node => flags.set node.toNat true)
        (List.replicate g.n false)).getD v false = false) := by
  obtain ⟨h1, h2⟩ := witness_seeds_inv g
    (blocking_nodes.foldl (fun flags node => flags.set node.toNat true)
      (List.replicate g.n false))
    (fun u prob => ((u : Int), prob)) initial_nodes []
    ({ activated := List.replicate g.n false
       q := []
       parent_map := OrdMap.empty (-1, 1)
       sfmt := g.sfmt
       total_weights := [] } : Track (Int × ℚ)) hr
    (tinv_start g _ (-1, 1) _) (fun k hk => absurd hk (List.not_mem_nil k))
    (Nat.le_refl 0)
  rw [List.nil_append] at h1 h2
  have h3 := track_cascade_inv g hG.g_lt _ (-1, 1) (fun u prob => ((u : Int), prob))
    (blocking_nodes.foldl (fun flags node => flags.set node.toNat true)
      (List.replicate g.n false)) (initial_nodes.length + g.n) _ h1 (by omega)
  refine ⟨h3.1, ?_⟩
  exact track_cascade_unblocked g _ _ _ _
    (witness_seeds_unblocked _ initial_nodes _ (fun v hv => absurd hv (List.not_mem_nil v)))

/-- The recorded cascade of `run_forward_simulation_with_parent_tracking` records no
blocked node. -/
theorem parent_trial_unblocked (g : InfGraph) (initial_nodes blocking_nodes : List Int) :
    ∀ v, v ∈ (g.parent_trial initial_nodes blocking_nodes).parent_map.keys →
      (InfGraph.flag_nodes g.n blocking_nodes).getD v false = false :=
  track_cascade_unblocked g _ _ _ _
    (parent_seeds_unblocked g.n _ initial_nodes _ (fun v hv => absurd hv (List.not_mem_nil v)))

/-- The empty map is a forest for the empty seed list. -/
theorem forest_empty (g : InfGraph) (blockers : List Int) (root : V) (entry : Nat → ℚ → V) :
    Forest g [] blockers root entry (OrdMap.empty root) :=
  ⟨fun _ hs => absurd hs (List.not_mem_nil _),
    fun v hv => absurd ((ordmap_count_iff _ v).mp hv) (List.not_mem_nil v),
    fun v hv => absurd ((ordmap_count_iff _ v).mp hv) (List.not_mem_nil v),
    fun v hv => absurd ((ordmap_count_iff _ v).mp hv) (List.not_mem_nil v)⟩

/-- The properties of a forest that follow from the invariant of the cascade. -/
theorem forest_of_inv (g : InfGraph) (seeds blockers : List Int) (root : V)
    (entry : Nat → ℚ → V) (B : List Bool) (a : List Bool) (q : List Nat) (pm : OrdMap V)
    (hB : ∀ v, v < g.n → (B.getD v false = true ↔ (v : Int) ∈ blockers))
    (hI : TInv g (AcceptedSeed g.n B seeds) root entry a q pm)
    (hU : ∀ v, v ∈ pm.keys → B.getD v false = false) :
    Forest g seeds blockers root entry pm := by
  have hlt : ∀ v, v ∈ pm.keys → v < g.n := by
    intro v hv
    have hact := (hI.keys_iff v).mp hv
    by_contra hge
    rw [List.getD_eq_default _ _ (by rw [hI.len]; omega)] at hact
    exact Bool.noConfusion hact
  have hnb : ∀ v, v < g.n → B.getD v false = false → (v : Int) ∉ blockers := by
    intro v hv hf hb
    rw [(hB v hv).mpr hb] at hf
    exact Bool.noConfusion hf
  refine ⟨?_, ?_, ?_, ?_⟩
  · intro s hs hsn hsb
    have hf : B.getD s false = false := by
      cases hc : B.getD s false with
      | false => rfl
      | true => exact absurd ((hB s hsn).mp hc) hsb
    have hS : AcceptedSeed g.n B seeds s := ⟨hs, hsn, hf⟩
    have hk := hI.seeds_in s hS
    refine ⟨(ordmap_count_iff pm s).mpr hk, ?_⟩
    rcases hI.recorded s hk with ⟨hr, _⟩ | ⟨_, _, _, _, _, hns⟩
    · exact hr
    · exact absurd hS hns
  · intro v hv
    have hk := (ordmap_count_iff pm v).mp hv
    exact ⟨hlt v hk, hnb v (hlt v hk) (hU v hk)⟩
  · intro v hv
    have hk := (ordmap_count_iff pm v).mp hv
    rcases hI.recorded v hk with ⟨hr, hS⟩ | ⟨u, j, hr, hu, hedge, hns⟩
    · exact Or.inl ⟨hr, hS.1⟩
    · refine Or.inr ⟨fun hs => hns ⟨hs, hlt v hk, hU v hk⟩, u, j, hr,
        (ordmap_count_iff pm u).mpr hu, hedge⟩
  · intro v hv
    exact hI.depth v ((ordmap_count_iff pm v).mp hv)

end ForestLemmas

/-! ## The helper class `Math` -/

section MathLemmas

/-- The loop of `Math::logcnk` as a sum, for any logarithm function. -/
theorem logcnk_fold_eq_sum {R : Type} [LinearOrderedField R] (log : R → R) (n : Int) :
    ∀ m : Nat,
      (List.range m).foldl
          (fun (res : R) (j : Nat) =>
            res + (log ((n - ((j : Int) + 1) + 1 : Int) : R) - log ((((j : Int) + 1 : Int)) : R)))
          0
        = ∑ j ∈ Finset.range m, (log ((n : R) - (j : R)) - log ((j : R) + 1))
  | 0 => rfl
  | m + 1 => by
    rw [List.range_succ, List.foldl_append, logcnk_fold_eq_sum log n m, Finset.sum_range_succ]
    simp only [List.foldl_cons, List.foldl_nil]
    congr 2
    · congr 1
      push_cast
      ring
    · congr 1
      push_cast
      ring

/-- The sum of the differences of logarithms over `m` terms is the logarithm of the
binomial coefficient. -/
theorem sum_log_ratio (N : Nat) : ∀ m : Nat, m ≤ N →
    ∑ j ∈ Finset.range m, (Real.log ((N : ℝ) - (j : ℝ)) - Real.log ((j : ℝ) + 1))
      = Real.log (N.choose m)
  | 0, _ => by simp
  | m + 1, h => by
    rw [Finset.sum_range_succ, sum_log_ratio N m (Nat.le_of_succ_le h)]
    have hc := Nat.choose_succ_right_eq N m
    have h1 : ((N.choose (m + 1) : ℝ)) * ((m : ℝ) + 1) = (N.choose m : ℝ) * ((N : ℝ) - (m : ℝ)) := by
      have := congrArg (fun t : Nat => (t : ℝ)) hc
      simp only [Nat.cast_mul, Nat.cast_add, Nat.cast_one] at this
      rw [this, Nat.cast_sub (Nat.le_of_succ_le h)]
    have p1 : (N.choose (m + 1) : ℝ) ≠ 0 :=
      Nat.cast_ne_zero.mpr (Nat.pos_iff_ne_zero.mp (Nat.choose_pos h))
    have p2 : ((m : ℝ) + 1) ≠ 0 := by positivity
    have p3 : (N.choose m : ℝ) ≠ 0 :=
      Nat.cast_ne_zero.mpr (Nat.pos_iff_ne_zero.mp (Nat.choose_pos (Nat.le_of_succ_le h)))
    have p4 : ((N : ℝ) - (m : ℝ)) ≠ 0 := by
      have : (m : ℝ) + 1 ≤ (N : ℝ) := by exact_mod_cast h
      linarith
    have h2 := congrArg Real.log h1
    rw [Real.log_mul p1 p2, Real.log_mul p3 p4] at h2
    linarith

/-- The value of `Math::logcnk` over the real numbers for `0 ≤ k ≤ n`. -/
theorem logcnk_real (n k : Int) (h0 : 0 ≤ k) (hk : k ≤ n) :
    Math.logcnk Real.log n k = Real.log (n.toNat.choose k.toNat) := by
  unfold Math.logcnk
  rw [if_neg (by omega)]
  by_cases he : k = 0 ∨ k = n
  · rw [if_pos he]
    rcases he with he | he
    · rw [he]
      simp
    · rw [he]
      simp
  · rw [if_neg he, logcnk_fold_eq_sum]
    have hn : ((n.toNat : Nat) : ℝ) = (n : ℝ) := by
      have : ((n.toNat : Nat) : Int) = n := Int.toNat_of_nonneg (by omega)
      exact_mod_cast this
    rw [← hn]
    by_cases hc : k > n.tdiv 2
    · rw [if_pos hc, sum_log_ratio _ _ (by omega)]
      have e : (n - k).toNat = n.toNat - k.toNat := by omega
      rw [e, Nat.choose_symm (by omega)]
    · rw [if_neg hc, sum_log_ratio _ _ (by omega)]

end MathLemmas

/-! ## Phase 1 of IMM -/

section ImmLemmas

variable {R : Type} [LinearOrderedField R]

/-- With a budget that is not positive the selection loop makes no pass. -/
theorem greedy_nonpositive (g : InfGraph) (k : Int) (hk : k ≤ 0) (X : List Int) :
    (g.build_max_coverage_set k X).result_node_set = [] := by
  have h0 : k.toNat = 0 := by omega
  show (InfGraph.greedy_loop _ _ _ k.toNat _).result_node_set = []
  rw [h0]
  rfl

/-- `InfluenceHyperGraph` returns 0 on an empty result. -/
theorem influence_of_empty (g : InfGraph) (h : g.result_node_set = []) :
    g.InfluenceHyperGraph = 0 := by
  unfold InfGraph.InfluenceHyperGraph InfGraph.covered_count
  rw [h]
  rfl

theorem build_r_step_probT (g : InfGraph) (i : Nat) :
    (g.build_r_step i).active_probT = g.active_probT := by
  unfold InfGraph.build_r_step
  split <;> rfl

/-- A call of `build_hyper_graph_r` adds `R` rows to `hyperGT`, whatever rows the store
holds already, and keeps the graph and the probability table. -/
theorem build_hyper_graph_r_adds {g g' : InfGraph} (R : Int) (hI : RRInv g)
    (hb : g.build_hyper_graph_r R = some g') :
    RRInv g' ∧ g'.hyperGT.length = g.hyperGT.length + R.toNat ∧ g'.toGraph = g.toGraph ∧
      g'.active_probT = g.active_probT := by
  unfold InfGraph.build_hyper_graph_r at hb
  split_ifs at hb
  cases hb
  have := foldl_range_inv InfGraph.build_r_step
    (fun k x => RRInv x ∧ x.hyperGT.length = g.hyperGT.length + k ∧ x.toGraph = g.toGraph ∧
      x.active_probT = g.active_probT) g ⟨hI, rfl, rfl, rfl⟩
    (fun k x hx => by
      have hle : k ≤ x.hyperGT.length := by
        rw [hx.2.1]
        omega
      obtain ⟨h1, h2, h3⟩ := build_r_step_keeps (i := k) hx.1 hle
      refine ⟨h1, by rw [h2, hx.2.1]; omega, h3.trans hx.2.2.1, ?_⟩
      rw [build_r_step_probT]
      exact hx.2.2.2) R.toNat
  exact this

/-- A pass of the loop of `Imm::step1` runs exactly when the probability table is bound
and the number of RR sets asked for is not negative. -/
theorem step1_pass_some_iff (lib : Libm R) (arg : Argument R) (x : Nat) (g : InfGraph) :
    Imm.step1_pass lib arg x g ≠ none ↔
      (g.active_probT ≠ none ∧ 0 ≤ Imm.sample_count lib arg g.n x) := by
  unfold Imm.step1_pass InfGraph.build_hyper_graph_r
  by_cases h1 : g.active_probT.isNone = true
  · rw [if_pos h1]
    have : g.active_probT = none := Option.isNone_iff_eq_none.mp h1
    simp [this]
  · rw [if_neg h1]
    have hne : g.active_probT ≠ none := fun h => h1 (Option.isNone_iff_eq_none.mpr h)
    by_cases h2 : Imm.sample_count lib arg g.n x < 0
    · rw [if_pos h2]
      simp only [ne_eq, not_true_eq_false, false_iff, not_and, not_le]
      exact fun _ => h2
    · rw [if_neg h2]
      simp only [ne_eq, reduceCtorEq, not_false_eq_true, true_iff]
      exact ⟨hne, not_lt.mp h2⟩

/-- What a pass of the loop of `Imm::step1` does to the object. -/
theorem step1_pass_spec (lib : Libm R) (arg : Argument R) (x : Nat) (g g' : InfGraph) (ept : R)
    (hI : RRInv g) (h : Imm.step1_pass lib arg x g = some (g', ept)) :
    RRInv g' ∧
      g'.hyperGT.length = g.hyperGT.length + (Imm.sample_count lib arg g.n x).toNat ∧
      g'.toGraph = g.toGraph ∧ g'.active_probT = g.active_probT ∧
      ept = ((g'.InfluenceHyperGraph : ℚ) : R) / (((g'.n : Int)) : R) ∧
      ∃ g1, g.build_hyper_graph_r (Imm.sample_count lib arg g.n x) = some g1 ∧
        g' = g1.build_max_coverage_set arg.k [] := by
  unfold Imm.step1_pass at h
  cases hb : g.build_hyper_graph_r (Imm.sample_count lib arg g.n x) with
  | none =>
    rw [hb] at h
    exact Option.noConfusion h
  | some g1 =>
    rw [hb] at h
    have e := Option.some.inj h
    obtain ⟨a1, a2, a3, a4⟩ := build_hyper_graph_r_adds _ hI hb
    have eg : g' = g1.build_max_coverage_set arg.k [] := (congrArg Prod.fst e).symm
    have ee : ept = _ := (congrArg Prod.snd e).symm
    refine ⟨?_, ?_, ?_, ?_, ?_, g1, rfl, eg⟩
    · rw [eg]
      exact ⟨a1.graph, a1.len, a1.bij⟩
    · rw [eg]
      exact a2
    · rw [eg]
      exact a3
    · rw [eg]
      exact a4
    · rw [ee, eg]

/-- With a budget that is not positive a pass of the loop computes `ept = 0`. -/
theorem step1_pass_nonpositive (lib : Libm R) (arg : Argument R) (hk : arg.k ≤ 0) (x : Nat)
    (g g' : InfGraph) (ept : R) (h : Imm.step1_pass lib arg x g = some (g', ept)) :
    ept = 0 := by
  unfold Imm.step1_pass at h
  cases hb : g.build_hyper_graph_r (Imm.sample_count lib arg g.n x) with
  | none =>
    rw [hb] at h
    exact Option.noConfusion h
  | some g1 =>
    rw [hb] at h
    have e := Option.some.inj h
    have ee : ept = _ := (congrArg Prod.snd e).symm
    rw [ee, influence_of_empty _ (greedy_nonpositive g1 arg.k hk [])]
    simp

/-- With a budget that is not positive the loop of `Imm::step1` never returns: after
any number of passes it has failed or is about to start the next pass. -/
theorem step1_loop_nonpositive (lib : Libm R) (arg : Argument R) (hk : arg.k ≤ 0) :
    ∀ (fuel x : Nat) (g : InfGraph),
      Imm.step1_loop lib arg fuel x g = Step1.failed ∨
        ∃ g', Imm.step1_loop lib arg fuel x g = Step1.running (x + fuel) g'
  | 0, x, g => Or.inr ⟨g, rfl⟩
  | fuel + 1, x, g => by
    rw [Imm.step1_loop]
    cases hpass : Imm.step1_pass lib arg x g with
    | none => exact Or.inl rfl
    | some r =>
      obtain ⟨g', ept⟩ := r
      have h0 := step1_pass_nonpositive lib arg hk x g g' ept hpass
      have hpos : (0 : R) < 1 / 2 ^ x := by positivity
      dsimp only
      rw [if_neg (by rw [h0]; exact not_lt.mpr (le_of_lt hpos))]
      have e : x + (fuel + 1) = (x + 1) + fuel := by omega
      rw [e]
      exact step1_loop_nonpositive lib arg hk fuel (x + 1) g'

/-- After the first pass the trace continues as the trace from the object that the
first pass leaves, with the next counter. -/
theorem step1_trace_shift (lib : Libm R) (arg : Argument R) (x : Nat) (g : InfGraph) :
    ∀ j, Imm.step1_trace lib arg x g (j + 2)
      = (Imm.step1_pass lib arg x g).bind (fun r => Imm.step1_trace lib arg (x + 1) r.1 (j + 1))
  | 0 => by
    show ((some (g, (0 : R))).bind (fun r => Imm.step1_pass lib arg (x + 0) r.1)).bind
        (fun r => Imm.step1_pass lib arg (x + 1) r.1)
      = (Imm.step1_pass lib arg x g).bind
        (fun r => (some (r.1, (0 : R))).bind (fun r => Imm.step1_pass lib arg (x + 1 + 0) r.1))
    rfl
  | j + 1 => by
    show (Imm.step1_trace lib arg x g (j + 2)).bind
        (fun r => Imm.step1_pass lib arg (x + (j + 2)) r.1) = _
    rw [step1_trace_shift lib arg x g j, Option.bind_assoc]
    have e : x + (j + 2) = x + 1 + (j + 1) := by omega
    rw [e]
    rfl

theorem step1_trace_one (lib : Libm R) (arg : Argument R) (x : Nat) (g : InfGraph) :
    Imm.step1_trace lib arg x g 1 = Imm.step1_pass lib arg x g := rfl

/-- When the loop of `Imm::step1` returns, it does so at the first pass whose test
holds, with the value computed from the `ept` of that pass. -/
theorem step1_loop_returned (lib : Libm R) (arg : Argument R) :
    ∀ (fuel x : Nat) (g : InfGraph) (v : R) (g' : InfGraph),
      Imm.step1_loop lib arg fuel x g = Step1.returned v g' →
      ∃ j ept, j < fuel ∧ Imm.step1_trace lib arg x g (j + 1) = some (g', ept) ∧
        ept > 1 / 2 ^ (x + j) ∧
        v = ept * (((g'.n : Int)) : R) / (1 + arg.epsilon * lib.sqrt 2) ∧
        ∀ i, i < j → ∃ gi ei, Imm.step1_trace lib arg x g (i + 1) = some (gi, ei) ∧
          ¬ ei > 1 / 2 ^ (x + i)
  | 0, x, g, v, g', h => Step1.noConfusion h
  | fuel + 1, x, g, v, g', h => by
    rw [Imm.step1_loop] at h
    cases hpass : Imm.step1_pass lib arg x g with
    | none =>
      rw [hpass] at h
      exact Step1.noConfusion h
    | some r =>
      obtain ⟨g1, e1⟩ := r
      rw [hpass] at h
      dsimp only at h
      by_cases ht : e1 > 1 / 2 ^ x
      · rw [if_pos ht] at h
        injection h with hv hg
        refine ⟨0, e1, Nat.succ_pos _, ?_, ht, ?_, fun i hi => absurd hi (Nat.not_lt_zero i)⟩
        · rw [step1_trace_one, hpass, hg]
        · rw [← hv, hg]
      · rw [if_neg ht] at h
        obtain ⟨j, ept, hj, htr, htest, hval, hbefore⟩ :=
          step1_loop_returned lib arg fuel (x + 1) g1 v g' h
        have e : x + 1 + j = x + (j + 1) := by omega
        refine ⟨j + 1, ept, Nat.succ_lt_succ hj, ?_, by rw [← e]; exact htest, hval, ?_⟩
        · rw [step1_trace_shift, hpass]
          exact htr
        · intro i hi
          cases i with
          | zero => exact ⟨g1, e1, by rw [step1_trace_one, hpass], ht⟩
          | succ i =>
            obtain ⟨gi, ei, h1, h2⟩ := hbefore i (Nat.lt_of_succ_lt_succ hi)
            have e' : x + 1 + i = x + (i + 1) := by omega
            refine ⟨gi, ei, ?_, by rw [← e']; exact h2⟩
            rw [step1_trace_shift, hpass]
            exact h1

/-- The loop of `Imm::step1` returns at the first pass whose test holds, if the number
of passes allowed reaches that pass. -/
theorem step1_loop_returns (lib : Libm R) (arg : Argument R) :
    ∀ (j x : Nat) (g : InfGraph) (fuel : Nat) (g' : InfGraph) (ept : R), j < fuel →
      Imm.step1_trace lib arg x g (j + 1) = some (g', ept) → ept > 1 / 2 ^ (x + j) →
      (∀ i, i < j → ∃ gi ei, Imm.step1_trace lib arg x g (i + 1) = some (gi, ei) ∧
        ¬ ei > 1 / 2 ^ (x + i)) →
      Imm.step1_loop lib arg fuel x g
        = Step1.returned (ept * (((g'.n : Int)) : R) / (1 + arg.epsilon * lib.sqrt 2)) g'
  | _, _, _, 0, _, _, hj, _, _, _ => absurd hj (Nat.not_lt_zero _)
  | 0, x, g, fuel + 1, g', ept, _, htr, htest, _ => by
    rw [step1_trace_one] at htr
    rw [Nat.add_zero] at htest
    rw [Imm.step1_loop, htr]
    dsimp only
    rw [if_pos htest]
  | j + 1, x, g, fuel + 1, g', ept, hj, htr, htest, hbefore => by
    obtain ⟨g1, e1, h1, h2⟩ := hbefore 0 (Nat.succ_pos j)
    rw [step1_trace_one] at h1
    rw [Nat.add_zero] at h2
    rw [Imm.step1_loop, h1]
    dsimp only
    rw [if_neg h2]
    rw [step1_trace_shift, h1] at htr
    have e : x + 1 + j = x + (j + 1) := by omega
    refine step1_loop_returns lib arg j (x + 1) g1 fuel g' ept (Nat.lt_of_succ_lt_succ hj) htr
      (by rw [e]; exact htest) ?_
    intro i hi
    obtain ⟨gi, ei, h3, h4⟩ := hbefore (i + 1) (Nat.succ_lt_succ hi)
    rw [step1_trace_shift, h1] at h3
    have e' : x + 1 + i = x + (i + 1) := by omega
    exact ⟨gi, ei, h3, by rw [e']; exact h4⟩

/-- The store invariant holds along the trace of the passes. -/
theorem step1_trace_inv (lib : Libm R) (arg : Argument R) (x : Nat) (g : InfGraph)
    (hI : RRInv g) : ∀ (j : Nat) (r : InfGraph × R),
      Imm.step1_trace lib arg x g j = some r → RRInv r.1 ∧ r.1.n = g.n
  | 0, r, h => by
    have e : (g, (0 : R)) = r := Option.some.inj h
    rw [← e]
    exact ⟨hI, rfl⟩
  | j + 1, r, h => by
    have h' : (Imm.step1_trace lib arg x g j).bind
        (fun r => Imm.step1_pass lib arg (x + j) r.1) = some r := h
    cases hprev : Imm.step1_trace lib arg x g j with
    | none =>
      rw [hprev] at h'
      exact Option.noConfusion h'
    | some r0 =>
      rw [hprev] at h'
      obtain ⟨a1, a2⟩ := step1_trace_inv lib arg x g hI j r0 hprev
      obtain ⟨b1, _, b3, _⟩ := step1_pass_spec lib arg (x + j) r0.1 r.1 r.2 a1 h'
      exact ⟨b1, (congrArg Graph.n b3).trans a2⟩

/-- The value that `InfluenceHyperGraph` returns, in one formula: the number of RR
sets that hold a selected node, divided by the number of RR sets and multiplied by
`n`. -/
theorem influence_formula (g : InfGraph) (hbij : RRBij g.hyperG g.hyperGT) :
    g.InfluenceHyperGraph
      = ((coveredBy g.hyperGT g.result_node_set.toFinset).card : ℚ) / (g.hyperGT.length : ℚ)
          * (g.n : ℚ) := by
  unfold InfGraph.InfluenceHyperGraph
  rw [covered_count_spec g hbij]
  by_cases h : g.result_node_set = [] ∨ g.hyperGT = []
  · rw [if_pos h]
    rcases h with h | h
    · rw [h]
      simp [coveredBy]
    · rw [h]
      simp
  · rw [if_neg h]

/-- The value `ept` of a pass is the covered fraction of the RR sets. -/
theorem step1_ept_fraction (lib : Libm R) (arg : Argument R) (x : Nat) (g g' : InfGraph)
    (ept : R) (hI : RRInv g) (h : Imm.step1_pass lib arg x g = some (g', ept)) :
    ept = ((coveredBy g'.hyperGT g'.result_node_set.toFinset).card : R)
        / (g'.hyperGT.length : R) := by
  obtain ⟨a1, _, _, _, a5, _⟩ := step1_pass_spec lib arg x g g' ept hI h
  have h0 : (g'.n : R) ≠ 0 := Nat.cast_ne_zero.mpr (Nat.pos_iff_ne_zero.mp a1.graph.n_pos)
  rw [a5, influence_formula g' a1.bij]
  push_cast
  rw [mul_div_assoc, div_self h0, mul_one]

/-- Every entry of the trace after at least one pass holds the covered fraction of its
store as `ept`, over the same graph. -/
theorem step1_trace_fraction (lib : Libm R) (arg : Argument R) (x : Nat) (g g' : InfGraph)
    (ept : R) (hI : RRInv g) (j : Nat)
    (h : Imm.step1_trace lib arg x g (j + 1) = some (g', ept)) :
    ept = ((coveredBy g'.hyperGT g'.result_node_set.toFinset).card : R)
        / (g'.hyperGT.length : R) ∧ g'.n = g.n := by
  refine ⟨?_, (step1_trace_inv lib arg x g hI (j + 1) (g', ept) h).2⟩
  have h' : (Imm.step1_trace lib arg x g j).bind
      (fun r => Imm.step1_pass lib arg (x + j) r.1) = some (g', ept) := h
  cases hprev : Imm.step1_trace lib arg x g j with
  | none =>
    rw [hprev] at h'
    exact Option.noConfusion h'
  | some r0 =>
    rw [hprev] at h'
    exact step1_ept_fraction lib arg (x + j) r0.1 g' ept
      (step1_trace_inv lib arg x g hI j r0 hprev).1 h'

/-- The test of a pass, scaled by the number of nodes. -/
theorem step1_test_scaled (ept n : R) (hn : 0 < n) (k : Nat) :
    ept > 1 / 2 ^ k ↔ ept * n > n / 2 ^ k := by
  have e : n / 2 ^ k = 1 / 2 ^ k * n := by ring
  rw [e, gt_iff_lt, gt_iff_lt, mul_lt_mul_right hn]

theorem sqrt_two_bounds : (1.41 : ℝ) < Real.sqrt 2 ∧ Real.sqrt 2 < 1.42 := by
  constructor
  · rw [Real.lt_sqrt (by norm_num)]
    norm_num
  · rw [Real.sqrt_lt' (by norm_num)]
    norm_num

/-- The first pass on the two-node snapshot with the budget 1 and `ε = 1/2`, over the
real numbers, asks for 13 RR sets. -/
theorem demo_sample_count :
    Imm.sample_count (Libm.mk Real.log Real.sqrt (fun r => if 0 ≤ r then ⌊r⌋ else ⌈r⌉))
      (Argument.mk 1 (1 / 2) "" "") 2 1 = 13 := by
  have hl : Math.logcnk Real.log 2 1 = Real.log 2 := by
    rw [logcnk_real 2 1 (by decide) (by decide)]
    have e : ((2 : Int).toNat.choose (1 : Int).toNat) = 2 := by decide
    rw [e]
    norm_num
  have h2 : Math.log2 Real.log 2 = 1 := by
    unfold Math.log2
    norm_num
  have hs : Real.sqrt 2 * Real.sqrt 2 = 2 := Real.mul_self_sqrt (by norm_num)
  obtain ⟨s1, s2⟩ := sqrt_two_bounds
  have l1 := Real.log_two_gt_d9
  have l2 := Real.log_two_lt_d9
  have hval : (2 + 2 / 3 * ((1 / 2 : ℝ) * Real.sqrt 2))
        * (Real.log (((2 : Nat) : Int) : ℝ) + Math.logcnk Real.log ((2 : Nat) : Int) 1
            + Real.log (Math.log2 Real.log ((2 : Nat) : Int)))
        * 2 ^ 1
      / ((1 / 2 : ℝ) * Real.sqrt 2 * ((1 / 2 : ℝ) * Real.sqrt 2))
      = 8 * (2 + Real.sqrt 2 / 3) * Real.log 2 := by
    have e1 : (((2 : Nat) : Int)) = (2 : Int) := rfl
    rw [e1, hl, h2]
    have hden : (1 / 2 : ℝ) * Real.sqrt 2 * ((1 / 2 : ℝ) * Real.sqrt 2) = 1 / 2 := by
      have : (1 / 2 : ℝ) * Real.sqrt 2 * ((1 / 2 : ℝ) * Real.sqrt 2)
          = 1 / 4 * (Real.sqrt 2 * Real.sqrt 2) := by ring
      rw [this, hs]
      norm_num
    rw [hden]
    norm_num
    ring
  unfold Imm.sample_count
  show (if 0 ≤ _ then ⌊_⌋ else ⌈_⌉) = (13 : Int)
  rw [hval]
  have hlo : (13 : ℝ) ≤ 8 * (2 + Real.sqrt 2 / 3) * Real.log 2 := by nlinarith
  have hhi : 8 * (2 + Real.sqrt 2 / 3) * Real.log 2 < 14 := by nlinarith
  rw [if_pos (by linarith), Int.floor_eq_iff]
  constructor
  · exact_mod_cast hlo
  · have : ((13 : Int) : ℝ) + 1 = 14 := by norm_num
    rw [this]
    exact hhi

set_option maxRecDepth 100000 in
/-- The store of the two-node snapshot after the first pass: 13 RR sets, all of them
covered by the selected node. -/
theorem demo_phase1_store :
    demoPhase1.covered_count = some 13 ∧ demoPhase1.hyperGT.length = 13 ∧ demoPhase1.n = 2 ∧
      (coveredBy demoPhase1.hyperGT demoPhase1.result_node_set.toFinset).card = 13 := by
  have hc : demoPhase1.covered_count = some 13 := by decide
  have hl : demoPhase1.hyperGT.length = 13 := by decide
  refine ⟨hc, hl, rfl, ?_⟩
  have hb : RRBij demoPhase1.hyperG demoPhase1.hyperGT := RRBij.of_check (by decide)
  have hs := covered_count_spec demoPhase1 hb
  rw [hc] at hs
  by_cases h : demoPhase1.result_node_set = [] ∨ demoPhase1.hyperGT = []
  · rw [if_pos h] at hs
    exact Option.noConfusion hs
  · rw [if_neg h] at hs
    exact (Option.some.inj hs).symm

/-- The run of `Imm::step1` on the two-node snapshot with the budget 1 and `ε = 1/2`,
over the real numbers: it returns in its first pass. -/
theorem demo_phase1_run :
    Imm.step1 (Libm.mk Real.log Real.sqrt (fun r => if 0 ≤ r then ⌊r⌋ else ⌈r⌉))
        (Argument.mk 1 (1 / 2) "" "") 1 demoInfGraph.init_hyper_graph
      = Step1.returned (2 / (1 + 1 / 2 * Real.sqrt 2)) demoPhase1 := by
  obtain ⟨hc, hl, hn, _⟩ := demo_phase1_store
  have hpass : Imm.step1_pass (Libm.mk Real.log Real.sqrt (fun r => if 0 ≤ r then ⌊r⌋ else ⌈r⌉))
      (Argument.mk 1 (1 / 2) "" "") 1 demoInfGraph.init_hyper_graph
      = some (demoPhase1, 1) := by
    unfold Imm.step1_pass
    have hn0 : demoInfGraph.init_hyper_graph.n = 2 := rfl
    rw [hn0, demo_sample_count]
    have hb : demoInfGraph.init_hyper_graph.build_hyper_graph_r 13
        = some ((List.range 13).foldl InfGraph.build_r_step demoInfGraph.init_hyper_graph) := by
      unfold InfGraph.build_hyper_graph_r
      rw [if_neg (by decide), if_neg (by decide)]
      rfl
    rw [hb]
    show some (demoPhase1, ((demoPhase1.InfluenceHyperGraph : ℚ) : ℝ) / ((demoPhase1.n : Int) : ℝ))
      = some (demoPhase1, 1)
    have hi : demoPhase1.InfluenceHyperGraph = 2 := by
      unfold InfGraph.InfluenceHyperGraph
      rw [hc]
      show ((13 : Nat) : ℚ) / (demoPhase1.hyperGT.length : ℚ) * (demoPhase1.n : ℚ) = 2
      rw [hl, hn]
      norm_num
    rw [hi, hn]
    norm_num
  unfold Imm.step1
  rw [Imm.step1_loop, hpass]
  dsimp only
  rw [if_pos (by norm_num), hn]
  norm_num

end ImmLemmas

/-! ## The passes of the probability iterator -/

section WaveLemmas

/-- A pass in which `changed` is set records at least one node state. -/
theorem changed_records (g : InfGraph) (B : List Bool) (threshold stop_delta : ℚ) (i : Nat)
    (cur next : List ℚ) (h : InfGraph.changed_of g B stop_delta cur next = true) :
    (InfGraph.record_step g.n threshold stop_delta i cur next).node_states ≠ [] := by
  have hany : ∃ v, v < g.n ∧ abs (next.getD v 0 - cur.getD v 0) > stop_delta := by
    unfold InfGraph.changed_of at h
    cases hm : g.influModel with
    | WC =>
      rw [hm] at h
      exact Bool.noConfusion h
    | IC =>
      rw [hm] at h
      simp only [List.any_eq_true, List.mem_range, Bool.and_eq_true, decide_eq_true_eq] at h
      obtain ⟨v, hv, _, hd⟩ := h
      exact ⟨v, hv, hd⟩
    | LT =>
      rw [hm] at h
      simp only [List.any_eq_true, List.mem_range, Bool.and_eq_true, decide_eq_true_eq] at h
      obtain ⟨v, hv, _, hd⟩ := h
      exact ⟨v, hv, hd⟩
  obtain ⟨v, hv, hd⟩ := hany
  intro hnil
  have hmem : ({ id := v
                 state := if next.getD v 0 ≥ threshold then "active" else "inactive"
                 probability := next.getD v 0 } : NodeState)
      ∈ (InfGraph.record_step g.n threshold stop_delta i cur next).node_states := by
    simp only [InfGraph.record_step, List.mem_filterMap, List.mem_range]
    exact ⟨v, hv, by rw [if_pos (Or.inl hd)]⟩
  rw [hnil] at hmem
  exact absurd hmem (List.not_mem_nil _)

/-- For a tolerance that is not negative, `changed` is set by an application of the
update rule exactly when the probability of some node moves by more than the
tolerance: a node that is skipped keeps its probability. -/
theorem changed_iff (g : InfGraph) (B : List Bool) (stop_delta : ℚ) (hd : 0 ≤ stop_delta)
    (cur : List ℚ) :
    InfGraph.changed_of g B stop_delta cur (InfGraph.next_prob_of g B stop_delta cur) = true ↔
      ∃ v, v < g.n ∧
        abs ((InfGraph.next_prob_of g B stop_delta cur).getD v 0 - cur.getD v 0) > stop_delta := by
  have hskip : ∀ v, v < g.n → InfGraph.sim_skip B stop_delta cur v = true →
      ¬ abs ((InfGraph.next_prob_of g B stop_delta cur).getD v 0 - cur.getD v 0) > stop_delta := by
    intro v hv hs
    have e : (InfGraph.next_prob_of g B stop_delta cur).getD v 0 = cur.getD v 0 := by
      unfold InfGraph.next_prob_of
      split
      · rw [getD_map_range_rat, if_pos hv, if_pos hs]
      · rw [getD_map_range_rat, if_pos hv, if_pos hs]
      · rfl
    rw [e, sub_self, abs_zero]
    exact not_lt.mpr hd
  unfold InfGraph.changed_of
  cases hm : g.influModel with
  | WC =>
    simp only [Bool.false_eq_true, false_iff, not_exists, not_and]
    intro v _
    have e : InfGraph.next_prob_of g B stop_delta cur = cur := by
      unfold InfGraph.next_prob_of
      rw [hm]
    rw [e, sub_self, abs_zero]
    exact not_lt.mpr hd
  | IC =>
    simp only [List.any_eq_true, List.mem_range, Bool.and_eq_true, decide_eq_true_eq,
      Bool.not_eq_true']
    constructor
    · rintro ⟨v, hv, _, h⟩
      exact ⟨v, hv, h⟩
    · rintro ⟨v, hv, h⟩
      refine ⟨v, hv, ?_, h⟩
      cases hs : InfGraph.sim_skip B stop_delta cur v with
      | false => rfl
      | true => exact absurd h (hskip v hv hs)
  | LT =>
    simp only [List.any_eq_true, List.mem_range, Bool.and_eq_true, decide_eq_true_eq,
      Bool.not_eq_true']
    constructor
    · rintro ⟨v, hv, _, h⟩
      exact ⟨v, hv, h⟩
    · rintro ⟨v, hv, h⟩
      refine ⟨v, hv, ?_, h⟩
      cases hs : InfGraph.sim_skip B stop_delta cur v with
      | false => rfl
      | true => exact absurd h (hskip v hv hs)

/-- The passes of the loop of `run_probability_simulation`: it makes `j` passes that
are recorded, each with `changed` set and each but the last with a newly activated
node, and then stops because the passes allowed are used up, or because the next pass
leaves `changed` unset, or because the last recorded pass has no newly activated
node. -/
theorem sim_loop_trace (g : InfGraph) (B : List Bool) (threshold stop_delta : ℚ) :
    ∀ (fuel i : Nat) (p : List ℚ) (result : ApiSimulationResult),
      ∃ j, j ≤ fuel ∧
        (InfGraph.sim_loop g B threshold stop_delta fuel i p result).simulation_steps
          = result.simulation_steps ++ (List.range j).map (fun m =>
              InfGraph.record_step g.n threshold stop_delta (i + m)
                ((InfGraph.next_prob_of g B stop_delta)^[m] p)
                ((InfGraph.next_prob_of g B stop_delta)^[m + 1] p)) ∧
        (InfGraph.sim_loop g B threshold stop_delta fuel i p result).total_steps
          = (if j = 0 then result.total_steps else i + j - 1) ∧
        (∀ m, m < j →
          InfGraph.changed_of g B stop_delta ((InfGraph.next_prob_of g B stop_delta)^[m] p)
            ((InfGraph.next_prob_of g B stop_delta)^[m + 1] p) = true) ∧
        (∀ m, m + 1 < j →
          (InfGraph.record_step g.n threshold stop_delta (i + m)
            ((InfGraph.next_prob_of g B stop_delta)^[m] p)
            ((InfGraph.next_prob_of g B stop_delta)^[m + 1] p)).newly_activated_nodes ≠ []) ∧
        (j = fuel ∨
          InfGraph.changed_of g B stop_delta ((InfGraph.next_prob_of g B stop_delta)^[j] p)
            ((InfGraph.next_prob_of g B stop_delta)^[j + 1] p) = false ∨
          ∃ m, j = m + 1 ∧
            (InfGraph.record_step g.n threshold stop_delta (i + m)
              ((InfGraph.next_prob_of g B stop_delta)^[m] p)
              ((InfGraph.next_prob_of g B stop_delta)^[m + 1] p)).newly_activated_nodes = [])
  | 0, i, p, result =>
    ⟨0, Nat.le_refl 0, by simp [InfGraph.sim_loop], by simp [InfGraph.sim_loop],
      fun m hm => absurd hm (Nat.not_lt_zero m), fun m hm => absurd hm (Nat.not_lt_zero _),
      Or.inl rfl⟩
  | fuel + 1, i, p, result => by
    rw [InfGraph.sim_loop]
    by_cases hc : InfGraph.changed_of g B stop_delta p
        (InfGraph.next_prob_of g B stop_delta p) = false
    · rw [if_pos hc]
      exact ⟨0, Nat.zero_le _, by simp, by simp,
        fun m hm => absurd hm (Nat.not_lt_zero m), fun m hm => absurd hm (Nat.not_lt_zero _),
        Or.inr (Or.inl hc)⟩
    · rw [if_neg hc]
      have hct : InfGraph.changed_of g B stop_delta p
          (InfGraph.next_prob_of g B stop_delta p) = true := by
        cases h : InfGraph.changed_of g B stop_delta p (InfGraph.next_prob_of g B stop_delta p)
        · exact absurd h hc
        · rfl
      have hpush : InfGraph.push_step result i
          (InfGraph.record_step g.n threshold stop_delta i p
            (InfGraph.next_prob_of g B stop_delta p))
          = { total_steps := i
              simulation_steps := result.simulation_steps ++
                [InfGraph.record_step g.n threshold stop_delta i p
                  (InfGraph.next_prob_of g B stop_delta p)] } := by
        unfold InfGraph.push_step
        rw [if_neg]
        rw [List.isEmpty_iff]
        exact changed_records g B threshold stop_delta i p _ hct
      by_cases hn : (InfGraph.record_step g.n threshold stop_delta i p
          (InfGraph.next_prob_of g B stop_delta p)).newly_activated_nodes.isEmpty = true
      · rw [if_pos hn, hpush]
        refine ⟨1, by omega, ?_, ?_, ?_, ?_, Or.inr (Or.inr ⟨0, rfl, List.isEmpty_iff.mp hn⟩)⟩
        · simp [List.range_succ]
        · simp
        · intro m hm
          have hm0 : m = 0 := by omega
          rw [hm0]
          exact hct
        · intro m hm
          omega
      · rw [if_neg hn, hpush]
        obtain ⟨j, hj, h1, h2, h3, h4, h5⟩ := sim_loop_trace g B threshold stop_delta fuel (i + 1)
          (InfGraph.next_prob_of g B stop_delta p)
          { total_steps := i
            simulation_steps := result.simulation_steps ++
              [InfGraph.record_step g.n threshold stop_delta i p
                (InfGraph.next_prob_of g B stop_delta p)] }
        have hit : ∀ m, (InfGraph.next_prob_of g B stop_delta)^[m]
            (InfGraph.next_prob_of g B stop_delta p)
            = (InfGraph.next_prob_of g B stop_delta)^[m + 1] p := fun m => rfl
        refine ⟨j + 1, by omega, ?_, ?_, ?_, ?_, ?_⟩
        · rw [h1, List.range_succ_eq_map, List.map_cons, List.map_map, List.append_assoc]
          congr 1
          rw [List.singleton_append]
          congr 1
          apply List.map_congr_left
          intro m _
          show InfGraph.record_step g.n threshold stop_delta (i + 1 + m) _ _
            = InfGraph.record_step g.n threshold stop_delta (i + (m + 1)) _ _
          have e : i + 1 + m = i + (m + 1) := by omega
          rw [e]
          rfl
        · rw [h2]
          by_cases hj0 : j = 0
          · rw [if_pos hj0, if_neg (by omega), hj0]
            rfl
          · rw [if_neg hj0, if_neg (by omega)]
            omega
        · intro m hm
          cases m with
          | zero => exact hct
          | succ m => exact h3 m (by omega)
        · intro m hm
          cases m with
          | zero => exact List.isEmpty_iff.not.mp hn
          | succ m =>
            have := h4 m (by omega)
            have e : i + 1 + m = i + (m + 1) := by omega
            rw [e] at this
            exact this
        · rcases h5 with h5 | h5 | ⟨m, hm, h5⟩
          · exact Or.inl (by omega)
          · exact Or.inr (Or.inl h5)
          · refine Or.inr (Or.inr ⟨m + 1, by omega, ?_⟩)
            have e : i + 1 + m = i + (m + 1) := by omega
            rw [e] at h5
            exact h5

/-- The vector that the seed loop leaves: 1 at every seed inside the graph that is not
blocked, and the old value elsewhere. -/
theorem seed_step0_values (n : Nat) (B : List Bool) :
    ∀ (seeds : List Int) (s : List ℚ × List NodeState), s.1.length = n → ∀ v,
      (InfGraph.seed_step0 n B seeds s).1.getD v 0
        = if (v : Int) ∈ seeds ∧ v < n ∧ B.getD v false = false then 1 else s.1.getD v 0
  | [], s, _, v => by
    simp [InfGraph.seed_step0]
  | seed :: rest, s, hl, v => by
    rw [InfGraph.seed_step0]
    by_cases hc : 0 ≤ seed ∧ seed < (n : Int) ∧ B.getD seed.toNat false = false
    · have hlen : (s.1.set seed.toNat 1).length = n := by
        rw [List.length_set]
        exact hl
      rw [if_pos hc, seed_step0_values n B rest (s.1.set seed.toNat 1, _) hlen v]
      have hset : (s.1.set seed.toNat 1).getD v 0
          = if seed.toNat = v ∧ seed.toNat < s.1.length then 1 else s.1.getD v 0 :=
        getD_set_rat _ _ _ _ _
      show (if _ then (1 : ℚ) else (s.1.set seed.toNat 1).getD v 0) = _
      rw [hset]
      by_cases h1 : (v : Int) ∈ rest ∧ v < n ∧ B.getD v false = false
      · rw [if_pos h1, if_pos ⟨List.mem_cons_of_mem _ h1.1, h1.2⟩]
      · rw [if_neg h1]
        by_cases hv : seed.toNat = v
        · have hvs : (v : Int) = seed := by omega
          have hvn : v < n := by omega
          have hb : B.getD v false = false := by
            rw [← hv]
            exact hc.2.2
          have hmem : (v : Int) ∈ seed :: rest := by
            rw [hvs]
            exact List.mem_cons_self _ _
          rw [if_pos ⟨hv, by rw [hl]; omega⟩, if_pos ⟨hmem, hvn, hb⟩]
        · have hne : (v : Int) ≠ seed := by omega
          rw [if_neg (fun h => hv h.1), if_neg]
          rintro ⟨h2, h3⟩
          rcases List.mem_cons.mp h2 with h4 | h4
          · exact hne h4
          · exact h1 ⟨h4, h3⟩
    · rw [if_neg hc, seed_step0_values n B rest s hl v]
      by_cases h1 : (v : Int) ∈ rest ∧ v < n ∧ B.getD v false = false
      · rw [if_pos h1, if_pos ⟨List.mem_cons_of_mem _ h1.1, h1.2⟩]
      · rw [if_neg h1, if_neg]
        rintro ⟨h2, h3, h4⟩
        rcases List.mem_cons.mp h2 with h5 | h5
        · apply hc
          have e : seed.toNat = v := by omega
          rw [e]
          exact ⟨by omega, by omega, h4⟩
        · exact h1 ⟨h5, h3, h4⟩

/-- The product of the IC update does not grow when the probabilities grow. -/
theorem p_not_activated_anti (cur cur' probs : List ℚ)
    (hc : ∀ v, 0 ≤ cur.getD v 0 ∧ cur.getD v 0 ≤ 1)
    (hc' : ∀ v, 0 ≤ cur'.getD v 0 ∧ cur'.getD v 0 ≤ 1)
    (hle : ∀ v, cur.getD v 0 ≤ cur'.getD v 0)
    (hp : ∀ j, 0 ≤ probs.getD j 0 ∧ probs.getD j 0 ≤ 1) :
    ∀ (us : List Nat) (j : Nat) (acc acc' : ℚ), 0 ≤ acc' → acc' ≤ acc →
      InfGraph.p_not_activated cur' probs us j acc'
        ≤ InfGraph.p_not_activated cur probs us j acc
  | [], _, _, _, _, h => h
  | u :: rest, j, acc, acc', h0, h => by
    simp only [InfGraph.p_not_activated]
    have f1 : 0 ≤ 1 - cur'.getD u 0 * probs.getD j 0 := by
      have := mul_le_one₀ (hc' u).2 (hp j).1 (hp j).2
      linarith
    have f2 : 1 - cur'.getD u 0 * probs.getD j 0 ≤ 1 - cur.getD u 0 * probs.getD j 0 := by
      have := mul_le_mul_of_nonneg_right (hle u) (hp j).1
      linarith
    apply p_not_activated_anti cur cur' probs hc hc' hle hp rest (j + 1)
    · exact mul_nonneg h0 f1
    · exact mul_le_mul h f2 f1 (le_trans h0 h)

/-- The sum of the LT update grows when the probabilities grow. -/
theorem sum_prob_mono (cur cur' probs : List ℚ)
    (hle : ∀ v, cur.getD v 0 ≤ cur'.getD v 0)
    (hp : ∀ j, 0 ≤ probs.getD j 0 ∧ probs.getD j 0 ≤ 1) :
    ∀ (us : List Nat) (j : Nat) (acc acc' : ℚ), acc ≤ acc' →
      InfGraph.sum_prob cur probs us j acc ≤ InfGraph.sum_prob cur' probs us j acc'
  | [], _, _, _, h => h
  | u :: rest, j, acc, acc', h => by
    simp only [InfGraph.sum_prob]
    apply sum_prob_mono cur cur' probs hle hp rest (j + 1)
    have := mul_le_mul_of_nonneg_right (hle u) (hp j).1
    linarith

/-- If an application of the update rule lowers no probability, neither does the
next one. -/
theorem next_prob_mono_step {g : InfGraph} {P : List (List ℚ)}
    (hP : g.active_probT = some P) (h01 : TableIn01 P) (B : List Bool) (stop_delta : ℚ)
    (p : List ℚ) (hv : ProbVec g.n B p)
    (hle : ∀ v, p.getD v 0 ≤ (InfGraph.next_prob_of g B stop_delta p).getD v 0) :
    ∀ v, (InfGraph.next_prob_of g B stop_delta p).getD v 0
      ≤ (InfGraph.next_prob_of g B stop_delta
          (InfGraph.next_prob_of g B stop_delta p)).getD v 0 := by
  have hv' := next_prob_of_probVec hP h01 B stop_delta hv
  have hskip : ∀ v, v < g.n → InfGraph.sim_skip B stop_delta p v = true →
      (InfGraph.next_prob_of g B stop_delta p).getD v 0 = p.getD v 0 := by
    intro v hvn hs
    unfold InfGraph.next_prob_of
    split
    · rw [getD_map_range_rat, if_pos hvn, if_pos hs]
    · rw [getD_map_range_rat, if_pos hvn, if_pos hs]
    · rfl
  have hstay : ∀ v, v < g.n → InfGraph.sim_skip B stop_delta p v = true →
      InfGraph.sim_skip B stop_delta (InfGraph.next_prob_of g B stop_delta p) v = true := by
    intro v hvn hs
    unfold InfGraph.sim_skip at hs ⊢
    rw [hskip v hvn (by unfold InfGraph.sim_skip; exact hs)]
    exact hs
  intro v
  cases hm : g.influModel with
  | WC =>
    have e : ∀ q, InfGraph.next_prob_of g B stop_delta q = q := by
      intro q
      unfold InfGraph.next_prob_of
      rw [hm]
    rw [e, e]
  | IC =>
    have e : ∀ q, InfGraph.next_prob_of g B stop_delta q
        = (List.range g.n).map (fun v =>
            if InfGraph.sim_skip B stop_delta q v then q.getD v 0
            else 1 - InfGraph.p_not_activated q (g.probT v) (g.gT.getD v []) 0 1) := by
      intro q
      unfold InfGraph.next_prob_of
      rw [hm]
    by_cases hvn : v < g.n
    · by_cases hs2 : InfGraph.sim_skip B stop_delta (InfGraph.next_prob_of g B stop_delta p) v
          = true
      · rw [e (InfGraph.next_prob_of g B stop_delta p), getD_map_range_rat, if_pos hvn,
          if_pos hs2]
      · have hs1 : ¬ InfGraph.sim_skip B stop_delta p v = true := fun h => hs2 (hstay v hvn h)
        rw [e (InfGraph.next_prob_of g B stop_delta p), getD_map_range_rat, if_pos hvn,
          if_neg hs2]
        have e1 : (InfGraph.next_prob_of g B stop_delta p).getD v 0
            = 1 - InfGraph.p_not_activated p (g.probT v) (g.gT.getD v []) 0 1 := by
          rw [e p, getD_map_range_rat, if_pos hvn, if_neg hs1]
        rw [e1]
        have := p_not_activated_anti p (InfGraph.next_prob_of g B stop_delta p) (g.probT v)
          hv.bounds hv'.bounds hle (probT_in01 hP h01 v) (g.gT.getD v []) 0 1 1 zero_le_one
          (le_refl _)
        linarith
    · rw [e (InfGraph.next_prob_of g B stop_delta p), e p, getD_map_range_rat,
        getD_map_range_rat, if_neg hvn, if_neg hvn]
  | LT =>
    have e : ∀ q, InfGraph.next_prob_of g B stop_delta q
        = (List.range g.n).map (fun v =>
            if InfGraph.sim_skip B stop_delta q v then q.getD v 0
            else min 1 (InfGraph.sum_prob q (g.probT v) (g.gT.getD v []) 0 0)) := by
      intro q
      unfold InfGraph.next_prob_of
      rw [hm]
    by_cases hvn : v < g.n
    · by_cases hs2 : InfGraph.sim_skip B stop_delta (InfGraph.next_prob_of g B stop_delta p) v
          = true
      · rw [e (InfGraph.next_prob_of g B stop_delta p), getD_map_range_rat, if_pos hvn,
          if_pos hs2]
      · have hs1 : ¬ InfGraph.sim_skip B stop_delta p v = true := fun h => hs2 (hstay v hvn h)
        rw [e (InfGraph.next_prob_of g B stop_delta p), getD_map_range_rat, if_pos hvn,
          if_neg hs2]
        have e1 : (InfGraph.next_prob_of g B stop_delta p).getD v 0
            = min 1 (InfGraph.sum_prob p (g.probT v) (g.gT.getD v []) 0 0) := by
          rw [e p, getD_map_range_rat, if_pos hvn, if_neg hs1]
        rw [e1]
        exact min_le_min (le_refl _)
          (sum_prob_mono p (InfGraph.next_prob_of g B stop_delta p) (g.probT v) hle
            (probT_in01 hP h01 v) (g.gT.getD v []) 0 0 0 (le_refl _))
    · rw [e (InfGraph.next_prob_of g B stop_delta p), e p, getD_map_range_rat,
        getD_map_range_rat, if_neg hvn, if_neg hvn]

/-- For a positive tolerance no probability decreases from one iteration to the
next. -/
theorem prob_after_mono {g : InfGraph} {P : List (List ℚ)}
    (hP : g.active_probT = some P) (h01 : TableIn01 P)
    (initial_nodes blocking_nodes : List Int) (stop_delta : ℚ) (hd : 0 < stop_delta) :
    ∀ k v, (InfGraph.prob_after g initial_nodes blocking_nodes stop_delta k).getD v 0
      ≤ (InfGraph.prob_after g initial_nodes blocking_nodes stop_delta (k + 1)).getD v 0 := by
  have hvec := prob_after_probVec hP h01 initial_nodes blocking_nodes stop_delta
  intro k
  induction k with
  | zero =>
    intro v
    rw [prob_after_succ]
    have h0 : ∀ w, (InfGraph.prob_after g initial_nodes blocking_nodes stop_delta 0).getD w 0
        = if (w : Int) ∈ initial_nodes ∧ w < g.n ∧
            (InfGraph.flag_nodes g.n blocking_nodes).getD w false = false then 1 else 0 := by
      intro w
      have := seed_step0_values g.n (InfGraph.flag_nodes g.n blocking_nodes) initial_nodes
        (List.replicate g.n 0, []) (List.length_replicate _ _) w
      have hz : (List.replicate g.n (0 : ℚ)).getD w 0 = 0 := by
        rw [List.getD_eq_getElem?_getD, List.getElem?_replicate]
        split_ifs <;> rfl
      rw [hz] at this
      exact this
    by_cases hs : (v : Int) ∈ initial_nodes ∧ v < g.n ∧
        (InfGraph.flag_nodes g.n blocking_nodes).getD v false = false
    · have h1 : (InfGraph.prob_after g initial_nodes blocking_nodes stop_delta 0).getD v 0 = 1 := by
        rw [h0 v, if_pos hs]
      have hskip : InfGraph.sim_skip (InfGraph.flag_nodes g.n blocking_nodes) stop_delta
          (InfGraph.prob_after g initial_nodes blocking_nodes stop_delta 0) v = true := by
        unfold InfGraph.sim_skip
        rw [h1]
        simp only [Bool.or_eq_true, decide_eq_true_eq]
        right
        linarith
      have e : (InfGraph.next_prob_of g (InfGraph.flag_nodes g.n blocking_nodes) stop_delta
          (InfGraph.prob_after g initial_nodes blocking_nodes stop_delta 0)).getD v 0
          = (InfGraph.prob_after g initial_nodes blocking_nodes stop_delta 0).getD v 0 := by
        unfold InfGraph.next_prob_of
        split
        · rw [getD_map_range_rat, if_pos hs.2.1, if_pos hskip]
        · rw [getD_map_range_rat, if_pos hs.2.1, if_pos hskip]
        · rfl
      rw [e]
    · rw [h0 v, if_neg hs]
      exact ((next_prob_of_probVec hP h01 _ stop_delta (hvec 0)).bounds v).1
  | succ k ih =>
    intro v
    rw [prob_after_succ g initial_nodes blocking_nodes stop_delta (k + 1),
      prob_after_succ g initial_nodes blocking_nodes stop_delta k]
    apply next_prob_mono_step hP h01 _ stop_delta _ (hvec k)
    intro w
    rw [← prob_after_succ]
    exact ih w

/-- For a positive tolerance the probabilities do not decrease over any number of
iterations. -/
theorem prob_after_mono_le {g : InfGraph} {P : List (List ℚ)}
    (hP : g.active_probT = some P) (h01 : TableIn01 P)
    (initial_nodes blocking_nodes : List Int) (stop_delta : ℚ) (hd : 0 < stop_delta)
    (v : Nat) : ∀ a b, a ≤ b →
      (InfGraph.prob_after g initial_nodes blocking_nodes stop_delta a).getD v 0
        ≤ (InfGraph.prob_after g initial_nodes blocking_nodes stop_delta b).getD v 0 := by
  intro a b hab
  induction b with
  | zero =>
    have : a = 0 := by omega
    rw [this]
  | succ b ih =>
    rcases Nat.eq_or_lt_of_le hab with h | h
    · rw [h]
    · exact le_trans (ih (by omega))
        (prob_after_mono hP h01 initial_nodes blocking_nodes stop_delta hd b v)

/-- For a positive tolerance a seed inside the graph that is not blocked keeps the
probability 1. -/
theorem prob_after_seed {g : InfGraph} (initial_nodes blocking_nodes : List Int)
    (stop_delta : ℚ) (hd : 0 < stop_delta) (s : Nat) (hs : (s : Int) ∈ initial_nodes)
    (hn : s < g.n) (hb : (s : Int) ∉ blocking_nodes) :
    ∀ k, (InfGraph.prob_after g initial_nodes blocking_nodes stop_delta k).getD s 0 = 1 := by
  have hf : (InfGraph.flag_nodes g.n blocking_nodes).getD s false = false := by
    cases h : (InfGraph.flag_nodes g.n blocking_nodes).getD s false with
    | false => rfl
    | true => exact absurd ((flag_nodes_spec g.n blocking_nodes s hn).mp h) hb
  intro k
  induction k with
  | zero =>
    have := seed_step0_values g.n (InfGraph.flag_nodes g.n blocking_nodes) initial_nodes
      (List.replicate g.n 0, []) (List.length_replicate _ _) s
    rw [if_pos ⟨hs, hn, hf⟩] at this
    exact this
  | succ k ih =>
    rw [prob_after_succ]
    have hskip : InfGraph.sim_skip (InfGraph.flag_nodes g.n blocking_nodes) stop_delta
        (InfGraph.prob_after g initial_nodes blocking_nodes stop_delta k) s = true := by
      unfold InfGraph.sim_skip
      rw [ih]
      simp only [Bool.or_eq_true, decide_eq_true_eq]
      right
      linarith
    unfold InfGraph.next_prob_of
    split
    · rw [getD_map_range_rat, if_pos hn, if_pos hskip, ih]
    · rw [getD_map_range_rat, if_pos hn, if_pos hskip, ih]
    · exact ih

/-- The result of `run_probability_simulation`, pass by pass. -/
theorem probability_run_trace (g : InfGraph) (hp : g.active_probT ≠ none)
    (initial_nodes blocking_nodes : List Int) (max_steps : Int) (threshold stop_delta : ℚ) :
    ∃ res j,
      g.run_probability_simulation initial_nodes blocking_nodes max_steps threshold stop_delta
        = some res ∧
      j ≤ (max_steps - 1).toNat ∧ res.total_steps = j ∧
      res.simulation_steps
        = { step := 0
            newly_activated_nodes := []
            node_states :=
              (InfGraph.seed_step0 g.n (InfGraph.flag_nodes g.n blocking_nodes) initial_nodes
                (List.replicate g.n 0, [])).2 }
          :: (List.range j).map (fun m =>
              InfGraph.record_step g.n threshold stop_delta (m + 1)
                (InfGraph.prob_after g initial_nodes blocking_nodes stop_delta m)
                (InfGraph.prob_after g initial_nodes blocking_nodes stop_delta (m + 1))) ∧
      (∀ m, m < j →
        InfGraph.changed_of g (InfGraph.flag_nodes g.n blocking_nodes) stop_delta
          (InfGraph.prob_after g initial_nodes blocking_nodes stop_delta m)
          (InfGraph.prob_after g initial_nodes blocking_nodes stop_delta (m + 1)) = true) ∧
      (∀ m, m + 1 < j →
        (InfGraph.record_step g.n threshold stop_delta (m + 1)
          (InfGraph.prob_after g initial_nodes blocking_nodes stop_delta m)
          (InfGraph.prob_after g initial_nodes blocking_nodes stop_delta
            (m + 1))).newly_activated_nodes ≠ []) ∧
      (j = (max_steps - 1).toNat ∨
        InfGraph.changed_of g (InfGraph.flag_nodes g.n blocking_nodes) stop_delta
          (InfGraph.prob_after g initial_nodes blocking_nodes stop_delta j)
          (InfGraph.prob_after g initial_nodes blocking_nodes stop_delta (j + 1)) = false ∨
        ∃ m, j = m + 1 ∧
          (InfGraph.record_step g.n threshold stop_delta (m + 1)
            (InfGraph.prob_after g initial_nodes blocking_nodes stop_delta m)
            (InfGraph.prob_after g initial_nodes blocking_nodes stop_delta
              (m + 1))).newly_activated_nodes = []) := by
  obtain ⟨j, hj, h1, h2, h3, h4, h5⟩ := sim_loop_trace g
    (InfGraph.flag_nodes g.n blocking_nodes) threshold stop_delta (max_steps - 1).toNat 1
    (InfGraph.seed_step0 g.n (InfGraph.flag_nodes g.n blocking_nodes) initial_nodes
      (List.replicate g.n 0, [])).1
    { total_steps := 0
      simulation_steps :=
        [{ step := 0
           newly_activated_nodes := []
           node_states :=
             (InfGraph.seed_step0 g.n (InfGraph.flag_nodes g.n blocking_nodes) initial_nodes
               (List.replicate g.n 0, [])).2 }] }
  refine ⟨InfGraph.sim_loop g (InfGraph.flag_nodes g.n blocking_nodes) threshold stop_delta
      (max_steps - 1).toNat 1
      (InfGraph.seed_step0 g.n (InfGraph.flag_nodes g.n blocking_nodes) initial_nodes
        (List.replicate g.n 0, [])).1
      { total_steps := 0
        simulation_steps :=
          [{ step := 0
             newly_activated_nodes := []
             node_states :=
               (InfGraph.seed_step0 g.n (InfGraph.flag_nodes g.n blocking_nodes)
                 initial_nodes (List.replicate g.n 0, [])).2 }] },
    j, ?_, hj, ?_, ?_, h3, ?_, ?_⟩
  · unfold InfGraph.run_probability_simulation
    rw [if_neg (by simpa [Option.isNone_iff_eq_none] using hp)]
  · rw [h2]
    by_cases hj0 : j = 0
    · rw [if_pos hj0, hj0]
    · rw [if_neg hj0]
      omega
  · rw [h1, List.singleton_append]
    congr 1
    apply List.map_congr_left
    intro m _
    rw [Nat.add_comm 1 m]
    rfl
  · intro m hm
    have := h4 m hm
    rw [Nat.add_comm 1 m] at this
    exact this
  · rcases h5 with h5 | h5 | ⟨m, hm, h5⟩
    · exact Or.inl h5
    · exact Or.inr (Or.inl h5)
    · refine Or.inr (Or.inr ⟨m, hm, ?_⟩)
      rw [Nat.add_comm 1 m] at h5
      exact h5

end WaveLemmas

/-! ## The k-truss at the threshold of one triangle -/

section TrussScenarioLemmas

open CommunitySearcher

/-- The loop `link_all` only adds to the rows and keys, and it links `u` with every
listed node of the node set. -/
theorem link_all_grows (S : List Nat) (u : Nat) : ∀ (vs : List Nat) (adj : AdjMap),
    (∀ x y, y ∈ adj.nbrs x → y ∈ (link_all S u vs adj).nbrs x) ∧
      (∀ x, x ∈ adj.keys → x ∈ (link_all S u vs adj).keys) ∧
      (∀ v, v ∈ vs → v ∈ S →
        v ∈ (link_all S u vs adj).nbrs u ∧ u ∈ (link_all S u vs adj).nbrs v) := by
  intro vs
  induction vs with
  | nil =>
    intro adj
    exact ⟨fun _ _ h => h, fun _ h => h, fun v hv => absurd hv (List.not_mem_nil v)⟩
  | cons v rest ih =>
    intro adj
    unfold CommunitySearcher.link_all
    split_ifs with hv
    · obtain ⟨h1, h2, h3⟩ := ih ((adj.insert u v).insert v u)
      refine ⟨fun x y h => h1 x y ((mem_insert_pair adj u v x y).2 (Or.inl h)),
        fun x h => h2 x ((keys_insert_pair adj u v x).2 (Or.inl h)), ?_⟩
      intro b hb hbS
      rcases List.mem_cons.mp hb with hb | hb
      · rw [hb]
        exact ⟨h1 u v ((mem_insert_pair adj u v u v).2 (Or.inr (Or.inl ⟨rfl, rfl⟩))),
          h1 v u ((mem_insert_pair adj u v v u).2 (Or.inr (Or.inr ⟨rfl, rfl⟩)))⟩
      · exact h3 b hb hbS
    · obtain ⟨h1, h2, h3⟩ := ih adj
      refine ⟨h1, h2, ?_⟩
      intro b hb hbS
      rcases List.mem_cons.mp hb with hb | hb
      · rw [hb] at hbS; exact absurd hbS hv
      · exact h3 b hb hbS

/-- The loop of `build_undirected_adj` over the nodes `L`: rows and keys only grow, and
every node of `L` gets its key and is linked with its neighbours inside the node set. -/
theorem adj_fold_complete (g : InfGraph) (S : List Nat) : ∀ (L : List Nat) (adj : AdjMap),
    (∀ x y, y ∈ adj.nbrs x →
        y ∈ (L.foldl (fun adj u => link_all S u (g.gT.getD u [])
          (link_all S u (g.g.getD u []) (adj.touch u))) adj).nbrs x) ∧
      (∀ x, x ∈ adj.keys →
        x ∈ (L.foldl (fun adj u => link_all S u (g.gT.getD u [])
          (link_all S u (g.g.getD u []) (adj.touch u))) adj).keys) ∧
      (∀ a, a ∈ L →
        a ∈ (L.foldl (fun adj u => link_all S u (g.gT.getD u [])
          (link_all S u (g.g.getD u []) (adj.touch u))) adj).keys ∧
        ∀ b, b ∈ S → (b ∈ g.g.getD a [] ∨ b ∈ g.gT.getD a []) →
          b ∈ (L.foldl (fun adj u => link_all S u (g.gT.getD u [])
            (link_all S u (g.g.getD u []) (adj.touch u))) adj).nbrs a ∧
          a ∈ (L.foldl (fun adj u => link_all S u (g.gT.getD u [])
            (link_all S u (g.g.getD u []) (adj.touch u))) adj).nbrs b) := by
  intro L
  induction L with
  | nil =>
    intro adj
    exact ⟨fun _ _ h => h, fun _ h => h, fun a ha => absurd ha (List.not_mem_nil a)⟩
  | cons a L ih =>
    intro adj
    rw [List.foldl_cons]
    obtain ⟨m1, m2, c⟩ := ih (link_all S a (g.gT.getD a [])
      (link_all S a (g.g.getD a []) (adj.touch a)))
    obtain ⟨i1, i2, i3⟩ := link_all_grows S a (g.g.getD a []) (adj.touch a)
    obtain ⟨o1, o2, o3⟩ := link_all_grows S a (g.gT.getD a [])
      (link_all S a (g.g.getD a []) (adj.touch a))
    refine ⟨fun x y h => m1 x y (o1 x y (i1 x y h)), ?_, ?_⟩
    · intro x hx
      apply m2; apply o2; apply i2
      simp only [AdjMap.touch]
      exact (mem_set_insert a adj.keys x).2 (Or.inr hx)
    · intro a' ha'
      rcases List.mem_cons.mp ha' with h | h
      · rw [h]
        refine ⟨?_, ?_⟩
        · apply m2; apply o2; apply i2
          simp only [AdjMap.touch]
          exact (mem_set_insert a adj.keys a).2 (Or.inl rfl)
        · intro b hbS hb
          rcases hb with hb | hb
          · have := i3 b hb hbS
            exact ⟨m1 _ _ (o1 _ _ this.1), m1 _ _ (o1 _ _ this.2)⟩
          · have := o3 b hb hbS
            exact ⟨m1 _ _ this.1, m1 _ _ this.2⟩
      · exact c a' h

/-- The undirected view built by `build_undirected_adj` is complete on the node set. -/
theorem build_undirected_adj_complete (enum : List Nat → List Nat)
    (henum : ∀ l, (enum l).Perm l) (g : InfGraph) (S : List Nat) :
    (∀ a, a ∈ S → a ∈ (build_undirected_adj enum g S).keys) ∧
      ∀ a b, a ∈ S → b ∈ S → (b ∈ g.g.getD a [] ∨ b ∈ g.gT.getD a []) →
        b ∈ (build_undirected_adj enum g S).nbrs a ∧
          a ∈ (build_undirected_adj enum g S).nbrs b := by
  unfold build_undirected_adj
  obtain ⟨_, _, c⟩ := adj_fold_complete g S (enum S) AdjMap.empty
  exact ⟨fun a ha => (c a ((henum S).mem_iff.mpr ha)).1,
    fun a b ha hb h => (c a ((henum S).mem_iff.mpr ha)).2 b hb h⟩

theorem make_edge_comm (a b : Nat) : make_edge a b = make_edge b a := by
  unfold make_edge
  rw [min_comm, max_comm]

theorem bump_le (s : Nat × Nat → Int) (a e : Nat × Nat) :
    s e ≤ Function.update s a (s a + 1) e ∧
      (e = a → s e + 1 ≤ Function.update s a (s a + 1) e) := by
  by_cases h : e = a
  · subst h
    rw [Function.update_same]
    exact ⟨by omega, fun _ => le_refl _⟩
  · rw [Function.update_noteq h]
    exact ⟨le_refl _, fun h' => absurd h' h⟩

/-- The supports after the record of one triangle. -/
theorem tri_record_supports (u v w : Nat) (t : Truss) (e : Nat × Nat) :
    t.edge_supports e ≤ (tri_record u v w t).edge_supports e ∧
      ((e = make_edge u v ∨ e = make_edge u w ∨ e = make_edge v w) →
        t.edge_supports e + 1 ≤ (tri_record u v w t).edge_supports e) := by
  have b1 := bump_le t.edge_supports (make_edge u v) e
  have b2 := bump_le (Function.update t.edge_supports (make_edge u v)
    (t.edge_supports (make_edge u v) + 1)) (make_edge u w) e
  have b3 := bump_le (Function.update (Function.update t.edge_supports (make_edge u v)
    (t.edge_supports (make_edge u v) + 1)) (make_edge u w)
    (Function.update t.edge_supports (make_edge u v)
      (t.edge_supports (make_edge u v) + 1) (make_edge u w) + 1)) (make_edge v w) e
  refine ⟨le_trans b1.1 (le_trans b2.1 b3.1), ?_⟩
  rintro (h | h | h)
  · exact le_trans (b1.2 h) (le_trans b2.1 b3.1)
  · exact le_trans (add_le_add_right b1.1 1) (le_trans (b2.2 h) b3.1)
  · exact le_trans (add_le_add_right (le_trans b1.1 b2.1) 1) (b3.2 h)

theorem mem_tri_record (u v w : Nat) (t : Truss) (e : Nat × Nat) :
    e ∈ (tri_record u v w t).current_edges ↔
      e = make_edge v w ∨ e = make_edge u w ∨ e = make_edge u v ∨ e ∈ t.current_edges := by
  simp only [tri_record]
  rw [mem_eset_insert, mem_eset_insert, mem_eset_insert]

theorem tri_record_pos (u v w : Nat) (t : Truss) (h : SupportsPos t) :
    SupportsPos (tri_record u v w t) := by
  refine ⟨fun e => le_trans (h.1 e) (tri_record_supports u v w t e).1, ?_⟩
  intro e he
  rw [mem_tri_record] at he
  have h0 := h.1 e
  rcases he with he | he | he | he
  · have := (tri_record_supports u v w t e).2 (Or.inr (Or.inr he)); omega
  · have := (tri_record_supports u v w t e).2 (Or.inr (Or.inl he)); omega
  · have := (tri_record_supports u v w t e).2 (Or.inl he); omega
  · have := (tri_record_supports u v w t e).1
    have := h.2 e he
    omega

/-- What the record of a triangle preserves, the loop over `j` preserves. -/
theorem tri_inner_keeps (P : Truss → Prop) (hP : ∀ u v w t, P t → P (tri_record u v w t))
    (adj : AdjMap) (u v : Nat) : ∀ (ws : List Nat) (t : Truss), P t →
      P (tri_inner adj u v ws t) := by
  intro ws
  induction ws with
  | nil => intro t h; exact h
  | cons w rest ih =>
    intro t h
    unfold tri_inner
    split_ifs
    · exact ih _ (hP u v w t h)
    · exact ih _ h

/-- What the record of a triangle preserves, the loop over `i` preserves. -/
theorem tri_outer_keeps (P : Truss → Prop) (hP : ∀ u v w t, P t → P (tri_record u v w t))
    (adj : AdjMap) (u : Nat) : ∀ (vs : List Nat) (t : Truss), P t →
      P (tri_outer adj u vs t) := by
  intro vs
  induction vs with
  | nil => intro t h; exact h
  | cons v rest ih =>
    intro t h
    unfold tri_outer
    exact ih _ (tri_inner_keeps P hP adj u v rest t h)

theorem tri_corner_keeps (a b c : Nat) (u v w : Nat) (t : Truss)
    (h : make_edge a b ∈ t.current_edges ∧ make_edge a c ∈ t.current_edges ∧
      make_edge b c ∈ t.current_edges) :
    make_edge a b ∈ (tri_record u v w t).current_edges ∧
      make_edge a c ∈ (tri_record u v w t).current_edges ∧
      make_edge b c ∈ (tri_record u v w t).current_edges := by
  simp only [mem_tri_record]
  exact ⟨Or.inr (Or.inr (Or.inr h.1)), Or.inr (Or.inr (Or.inr h.2.1)),
    Or.inr (Or.inr (Or.inr h.2.2))⟩

/-- The loop over `j` records the triangle closed by a later neighbour `w` of `u` that
is a neighbour of `v`. -/
theorem tri_inner_finds (adj : AdjMap) (u v w : Nat) (hvw : w ∈ adj.nbrs v) :
    ∀ (ws : List Nat) (t : Truss), w ∈ ws →
      make_edge u v ∈ (tri_inner adj u v ws t).current_edges ∧
        make_edge u w ∈ (tri_inner adj u v ws t).current_edges ∧
        make_edge v w ∈ (tri_inner adj u v ws t).current_edges := by
  intro ws
  induction ws with
  | nil => intro t hw; exact absurd hw (List.not_mem_nil w)
  | cons y rest ih =>
    intro t hw
    unfold tri_inner
    rcases List.mem_cons.mp hw with h | h
    · rw [← h]
      have hc : (adj.nbrs v).contains w = true := by simpa using hvw
      rw [if_pos hc]
      apply tri_inner_keeps (fun t => make_edge u v ∈ t.current_edges ∧
        make_edge u w ∈ t.current_edges ∧ make_edge v w ∈ t.current_edges)
        (fun u' v' w' t' => tri_corner_keeps u v w u' v' w' t')
      exact ⟨(mem_tri_record u v w t _).2 (Or.inr (Or.inr (Or.inl rfl))),
        (mem_tri_record u v w t _).2 (Or.inr (Or.inl rfl)),
        (mem_tri_record u v w t _).2 (Or.inl rfl)⟩
    · split_ifs
      · exact ih _ h
      · exact ih _ h

/-- The loop over `i` records the triangle of `a` with two of its listed neighbours
that are neighbours of each other. -/
theorem tri_outer_finds (adj : AdjMap) (a b c : Nat) (hbc : c ∈ adj.nbrs b)
    (hcb : b ∈ adj.nbrs c) (hne : b ≠ c) :
    ∀ (vs : List Nat) (t : Truss), b ∈ vs → c ∈ vs →
      make_edge a b ∈ (tri_outer adj a vs t).current_edges ∧
        make_edge a c ∈ (tri_outer adj a vs t).current_edges ∧
        make_edge b c ∈ (tri_outer adj a vs t).current_edges := by
  intro vs
  induction vs with
  | nil => intro t hb; exact absurd hb (List.not_mem_nil b)
  | cons y rest ih =>
    intro t hb hc
    unfold tri_outer
    rcases List.mem_cons.mp hb with h1 | h1
    · rcases List.mem_cons.mp hc with h2 | h2
      · exact absurd (h1.trans h2.symm) hne
      · rw [← h1]
        exact tri_outer_keeps (fun t => make_edge a b ∈ t.current_edges ∧
          make_edge a c ∈ t.current_edges ∧ make_edge b c ∈ t.current_edges)
          (fun u' v' w' t' => tri_corner_keeps a b c u' v' w' t') adj a rest _
          (tri_inner_finds adj a b c hbc rest t h2)
    · rcases List.mem_cons.mp hc with h2 | h2
      · rw [← h2]
        have := tri_inner_finds adj a c b hcb rest t h1
        rw [make_edge_comm c b] at this
        exact tri_outer_keeps (fun t => make_edge a b ∈ t.current_edges ∧
          make_edge a c ∈ t.current_edges ∧ make_edge b c ∈ t.current_edges)
          (fun u' v' w' t' => tri_corner_keeps a b c u' v' w' t') adj a rest _
          ⟨this.2.1, this.1, this.2.2⟩
      · exact ih _ h1 h2

/-- The triangle enumeration records every triangle of the map. -/
theorem truss_supports_finds (adj : AdjMap) (a b c : Nat) (ha : a ∈ adj.keys)
    (hab : b ∈ adj.nbrs a) (hac : c ∈ adj.nbrs a) (hbc : c ∈ adj.nbrs b)
    (hcb : b ∈ adj.nbrs c) (hne : b ≠ c) :
    make_edge a b ∈ (truss_supports adj).current_edges ∧
      make_edge a c ∈ (truss_supports adj).current_edges ∧
      make_edge b c ∈ (truss_supports adj).current_edges := by
  unfold truss_supports
  have key : ∀ (L : List Nat) (t : Truss), a ∈ L →
      make_edge a b ∈ (L.foldl (fun t u => tri_outer adj u (adj.nbrs u) t) t).current_edges ∧
      make_edge a c ∈ (L.foldl (fun t u => tri_outer adj u (adj.nbrs u) t) t).current_edges ∧
      make_edge b c ∈
        (L.foldl (fun t u => tri_outer adj u (adj.nbrs u) t) t).current_edges := by
    intro L
    induction L with
    | nil => intro t h; exact absurd h (List.not_mem_nil a)
    | cons y rest ih =>
      intro t h
      rw [List.foldl_cons]
      rcases List.mem_cons.mp h with h1 | h1
      · rw [← h1]
        apply foldl_inv (fun t : Truss => make_edge a b ∈ t.current_edges ∧
          make_edge a c ∈ t.current_edges ∧ make_edge b c ∈ t.current_edges)
        · intro t' u' _ ht'
          exact tri_outer_keeps (fun t => make_edge a b ∈ t.current_edges ∧
            make_edge a c ∈ t.current_edges ∧ make_edge b c ∈ t.current_edges)
            (fun u' v' w' t' => tri_corner_keeps a b c u' v' w' t') adj u' _ t' ht'
        · exact tri_outer_finds adj a b c hbc hcb hne (adj.nbrs a) t hab hac
      · exact ih _ h1
  exact key adj.keys _ ha

/-- After the triangle enumeration every recorded edge has a positive support. -/
theorem truss_supports_pos (adj : AdjMap) : SupportsPos (truss_supports adj) := by
  unfold truss_supports
  apply foldl_inv SupportsPos
  · intro t u _ h
    exact tri_outer_keeps SupportsPos (fun u' v' w' t' => tri_record_pos u' v' w' t')
      adj u _ t h
  · exact ⟨fun _ => le_refl _, fun e he => absurd he (List.not_mem_nil e)⟩

theorem truss_peel_idle (min_support : Int) (fuel : Nat) (t : Truss)
    (h : t.removal_q = []) : truss_peel min_support fuel t = t := by
  cases fuel with
  | zero => rfl
  | succ n =>
    unfold truss_peel
    rw [h]

/-- With the threshold of one triangle nothing is peeled: the surviving edges are the
edges recorded by the triangle enumeration. -/
theorem k_truss_edges_one (adj : AdjMap) :
    (k_truss_edges 1 adj).current_edges = (truss_supports adj).current_edges := by
  unfold k_truss_edges
  have hq : (truss_supports adj).current_edges.filter
      (fun e => (truss_supports adj).edge_supports e < 1) = [] := by
    rw [List.filter_eq_nil_iff]
    intro e he
    have := (truss_supports_pos adj).2 e he
    simp only [decide_eq_true_eq]
    omega
  simp only [hq]
  rw [truss_peel_idle _ _ _ rfl]

theorem mem_truss_nodes_iff (E : List (Nat × Nat)) (x : Nat) :
    x ∈ truss_nodes E ↔ ∃ e, e ∈ E ∧ (x = e.1 ∨ x = e.2) := by
  unfold truss_nodes
  have key : ∀ (L : List (Nat × Nat)) (c : List Nat),
      x ∈ L.foldl (fun c e => uset_insert (uset_insert c e.1) e.2) c ↔
        x ∈ c ∨ ∃ e, e ∈ L ∧ (x = e.1 ∨ x = e.2) := by
    intro L
    induction L with
    | nil => intro c; simp
    | cons y rest ih =>
      intro c
      rw [List.foldl_cons, ih, mem_uset_insert, mem_uset_insert]
      constructor
      · rintro (((h | h) | h) | ⟨e, he, h⟩)
        · exact Or.inl h
        · exact Or.inr ⟨y, List.mem_cons_self y rest, Or.inl h⟩
        · exact Or.inr ⟨y, List.mem_cons_self y rest, Or.inr h⟩
        · exact Or.inr ⟨e, List.mem_cons_of_mem y he, h⟩
      · rintro (h | ⟨e, he, h⟩)
        · exact Or.inl (Or.inl (Or.inl h))
        · rcases List.mem_cons.mp he with h1 | h1
          · rw [h1] at h
            rcases h with h | h
            · exact Or.inl (Or.inl (Or.inr h))
            · exact Or.inl (Or.inr h)
          · exact Or.inr ⟨e, h1, h⟩
  rw [key]
  simp

/-- The map built from the surviving edges links the two ends of every edge. -/
theorem truss_adj_links (E : List (Nat × Nat)) (a b : Nat) (h : (a, b) ∈ E) :
    b ∈ (truss_adj E).row a ∧ a ∈ (truss_adj E).row b := by
  unfold truss_adj
  have key : ∀ (L : List (Nat × Nat)) (adj : AdjMap),
      ((∀ x y, y ∈ adj.nbrs x →
          y ∈ (L.foldl (fun adj e => (adj.insert e.1 e.2).insert e.2 e.1) adj).nbrs x) ∧
        (∀ x, x ∈ adj.keys →
          x ∈ (L.foldl (fun adj e => (adj.insert e.1 e.2).insert e.2 e.1) adj).keys)) ∧
      ((a, b) ∈ L →
        (b ∈ (L.foldl (fun adj e => (adj.insert e.1 e.2).insert e.2 e.1) adj).nbrs a ∧
          a ∈ (L.foldl (fun adj e => (adj.insert e.1 e.2).insert e.2 e.1) adj).keys) ∧
        (a ∈ (L.foldl (fun adj e => (adj.insert e.1 e.2).insert e.2 e.1) adj).nbrs b ∧
          b ∈ (L.foldl (fun adj e => (adj.insert e.1 e.2).insert e.2 e.1) adj).keys)) := by
    intro L
    induction L with
    | nil =>
      intro adj
      exact ⟨⟨fun _ _ h => h, fun _ h => h⟩, fun h => absurd h (List.not_mem_nil _)⟩
    | cons y rest ih =>
      intro adj
      rw [List.foldl_cons]
      obtain ⟨⟨m1, m2⟩, c⟩ := ih ((adj.insert y.1 y.2).insert y.2 y.1)
      refine ⟨⟨fun x z hz => m1 x z ((mem_insert_pair adj y.1 y.2 x z).2 (Or.inl hz)),
        fun x hx => m2 x ((keys_insert_pair adj y.1 y.2 x).2 (Or.inl hx))⟩, ?_⟩
      intro hm
      rcases List.mem_cons.mp hm with h1 | h1
      · subst h1
        exact ⟨⟨m1 a b ((mem_insert_pair adj a b a b).2 (Or.inr (Or.inl ⟨rfl, rfl⟩))),
            m2 a ((keys_insert_pair adj a b a).2 (Or.inr (Or.inl rfl)))⟩,
          ⟨m1 b a ((mem_insert_pair adj a b b a).2 (Or.inr (Or.inr ⟨rfl, rfl⟩))),
            m2 b ((keys_insert_pair adj a b b).2 (Or.inr (Or.inr rfl)))⟩⟩
      · exact c h1
  obtain ⟨⟨h1, k1⟩, ⟨h2, k2⟩⟩ := (key E AdjMap.empty).2 h
  unfold AdjMap.row
  rw [if_pos k1, if_pos k2]
  exact ⟨h1, h2⟩

/-- Both ends of a recorded edge see each other in the map of the surviving edges. -/
theorem truss_adj_edge (E : List (Nat × Nat)) (a b : Nat) (h : make_edge a b ∈ E) :
    b ∈ (truss_adj E).row a ∧ a ∈ (truss_adj E).row b := by
  rcases make_edge_cases a b with hm | hm
  · rw [hm] at h; exact truss_adj_links E a b h
  · rw [hm] at h; exact (truss_adj_links E b a h).symm

theorem make_edge_ends (a b : Nat) :
    ((make_edge a b).1 = a ∧ (make_edge a b).2 = b) ∨
      ((make_edge a b).1 = b ∧ (make_edge a b).2 = a) := by
  rcases make_edge_cases a b with hm | hm
  · left; rw [hm]; exact ⟨rfl, rfl⟩
  · right; rw [hm]; exact ⟨rfl, rfl⟩

theorem mem_two_triangles_pairs (u v w x a b : Nat) :
    (a, b) ∈ two_triangles_pairs u v w x →
      a ∈ [u, v, w, x] ∧ b ∈ [u, v, w, x] := by
  intro h
  simp only [two_triangles_pairs, List.mem_cons, Prod.mk.injEq, List.mem_singleton,
    List.not_mem_nil, or_false] at h ⊢
  rcases h with ⟨h1, h2⟩ | ⟨h1, h2⟩ | ⟨h1, h2⟩ | ⟨h1, h2⟩ | ⟨h1, h2⟩ | ⟨h1, h2⟩ |
    ⟨h1, h2⟩ | ⟨h1, h2⟩ | ⟨h1, h2⟩ | ⟨h1, h2⟩ <;> subst h1 <;> subst h2 <;> simp

/-- The snapshot `twoTriGraph` consists of the triangles `(0, 1, 2)` and `(1, 2, 3)`. -/
theorem two_tri_graph_shape : TwoTriangles twoTriGraph 0 1 2 3 := by
  intro a b
  have ha : a = 0 ∨ a = 1 ∨ a = 2 ∨ a = 3 ∨ 4 ≤ a := by omega
  rcases ha with h | h | h | h | h
  · subst h
    simp [twoTriGraph, two_triangles_pairs]
  · subst h
    simp [twoTriGraph, two_triangles_pairs]
    omega
  · subst h
    simp [twoTriGraph, two_triangles_pairs]
  · subst h
    simp [twoTriGraph, two_triangles_pairs]
    omega
  · have h1 : twoTriGraph.g.getD a [] = [] :=
      List.getD_eq_default _ _ (by simpa [twoTriGraph] using h)
    have h2 : twoTriGraph.gT.getD a [] = [] :=
      List.getD_eq_default _ _ (by simpa [twoTriGraph] using h)
    rw [h1, h2]
    simp [two_triangles_pairs]
    omega

end TrussScenarioLemmas

/-! ## The minimization on a chain -/

section ChainScenarioLemmas

theorem chain_in_edges (g : InfGraph) (hgT : g.gT = [[], [0], [1], [2], [3]])
    (hp : g.active_probT = some [[], [1], [1], [1], [1]]) (k : Nat) (hk : k + 1 ≤ 4) :
    g.gT.getD (k + 1) [] = [k] ∧ g.probT (k + 1) = [1] := by
  unfold InfGraph.probT
  rw [hgT, hp]
  have : k = 0 ∨ k = 1 ∨ k = 2 ∨ k = 3 := by omega
  rcases this with h | h | h | h <;> subst h <;> exact ⟨rfl, rfl⟩

theorem chain_target (k : Nat) (hk : k + 1 ≤ 4) :
    [true, false, false, false, false].getD k false = decide (k = 0) := by
  have : k = 0 ∨ k = 1 ∨ k = 2 ∨ k = 3 := by omega
  rcases this with h | h | h | h <;> subst h <;> rfl

/-- The backward walk on the chain from the queue entry `u`: it reaches node 0 through
every node below `u`, or one of its draws does not fall below 1. -/
theorem chain_walk (g : InfGraph) (hgT : g.gT = [[], [0], [1], [2], [3]])
    (hp : g.active_probT = some [[], [1], [1], [1], [1]]) (rr : Nat) :
    ∀ (u : Nat), 1 ≤ u → u ≤ 4 → ∀ (fuel head : Nat) (st : RRWalk), u ≤ fuel →
      head + 1 = st.q.length → st.q.getD head 0 = u →
      (∀ j, j < u → st.visited.getD j false = false) →
      (∀ j, j ∈ st.q → j ≠ u → j ≠ 0 ∧ j - 1 ∈ st.q) →
      (InfGraph.ic_loop_stoppable g rr [true, false, false, false, false] fuel head
          st).sfmt.stream = st.sfmt.stream ∧
        ((0 ∈ (InfGraph.ic_loop_stoppable g rr [true, false, false, false, false] fuel head
              st).q ∧
            DownClosed (InfGraph.ic_loop_stoppable g rr [true, false, false, false, false]
              fuel head st).q) ∨
          ∃ p, st.sfmt.drawn ≤ p ∧
            p < (InfGraph.ic_loop_stoppable g rr [true, false, false, false, false] fuel
              head st).sfmt.drawn ∧ ¬ draw_below st.sfmt p 1) := by
  intro u
  induction u with
  | zero => intro h; omega
  | succ k ih =>
    intro _ hk4 fuel head st hfuel hhead hq hvis hcl
    obtain ⟨f, rfl⟩ : ∃ f, fuel = f + 1 := ⟨fuel - 1, by omega⟩
    obtain ⟨e1, e2⟩ := chain_in_edges g hgT hp k hk4
    have hvk : st.visited.getD k false = false := hvis k (by omega)
    rw [InfGraph.ic_loop_stoppable, if_pos (by omega), hq, e1, e2]
    simp only [InfGraph.ic_edges_stoppable]
    rw [if_pos hvk, chain_target k hk4]
    simp only [List.getD_cons_zero]
    by_cases hx : (sfmt_genrand_real1 st.sfmt).1 < 1
    · rw [if_pos hx]
      by_cases hk0 : k = 0
      · subst hk0
        simp only [decide_True, if_true]
        refine ⟨rfl, Or.inl ⟨?_, ?_⟩⟩
        · show 0 ∈ st.q ++ [0]
          simp
        · intro j hj hj0
          have hj' : j ∈ st.q ++ [0] := hj
          show j - 1 ∈ st.q ++ [0]
          rcases List.mem_append.mp hj' with h | h
          · by_cases hj1 : j = 0 + 1
            · rw [hj1]; simp
            · exact List.mem_append_left _ (hcl j h hj1).2
          · exact absurd (List.mem_singleton.mp h) hj0
      · have hd : decide (k = 0) = false := by simpa using hk0
        simp only [hd, Bool.false_eq_true, if_false]
        have hk1 : 1 ≤ k := by omega
        obtain ⟨i1, i2⟩ := ih hk1 (by omega) f (head + 1)
          ({ st with sfmt := (sfmt_genrand_real1 st.sfmt).2 }.visit rr k) (by omega)
          (by show head + 1 + 1 = (st.q ++ [k]).length
              rw [List.length_append, List.length_singleton]; omega)
          (by show (st.q ++ [k]).getD (head + 1) 0 = k
              rw [hhead, List.getD_eq_getElem?_getD, List.getElem?_append_right (le_refl _)]
              simp)
          (by intro j hj
              show (st.visited.set k true).getD j false = false
              rw [getD_set_bool, if_neg (fun h => by omega)]
              exact hvis j (by omega))
          (by intro j hj hjk
              have hj' : j ∈ st.q ++ [k] := hj
              show j ≠ 0 ∧ j - 1 ∈ st.q ++ [k]
              rcases List.mem_append.mp hj' with h | h
              · by_cases hj1 : j = k + 1
                · rw [hj1]; simp
                · exact ⟨(hcl j h hj1).1, List.mem_append_left _ (hcl j h hj1).2⟩
              · exact absurd (List.mem_singleton.mp h) hjk)
        refine ⟨i1, ?_⟩
        rcases i2 with h | ⟨p, p1, p2, p3⟩
        · exact Or.inl h
        · refine Or.inr ⟨p, ?_, p2, p3⟩
          have : st.sfmt.drawn + 1 ≤ p := p1
          omega
    · rw [if_neg hx]
      simp only [Bool.false_eq_true, if_false]
      have hstop : InfGraph.ic_loop_stoppable g rr [true, false, false, false, false] f
          (head + 1) { st with sfmt := (sfmt_genrand_real1 st.sfmt).2 }
          = { st with sfmt := (sfmt_genrand_real1 st.sfmt).2 } := by
        cases f with
        | zero => rfl
        | succ f' =>
          rw [InfGraph.ic_loop_stoppable, if_neg]
          show ¬ head + 1 < st.q.length
          omega
      rw [hstop]
      refine ⟨rfl, Or.inr ⟨st.sfmt.drawn, le_refl _, ?_, hx⟩⟩
      show st.sfmt.drawn < st.sfmt.drawn + 1
      omega

end ChainScenarioLemmas

section ChainPassLemmas

theorem chain_five_ok (s : Sfmt) : GraphOK (chainFive s).toGraph := by
  refine ⟨by show 0 < 5; omega, rfl, ?_, rfl, ?_⟩
  · intro u v hv
    have hu : u = 0 ∨ u = 1 ∨ u = 2 ∨ u = 3 ∨ 4 ≤ u := by omega
    rcases hu with h | h | h | h | h
    · subst h; simp [chainFive] at hv; subst hv; show _ < 5; omega
    · subst h; simp [chainFive] at hv; subst hv; show _ < 5; omega
    · subst h; simp [chainFive] at hv; subst hv; show _ < 5; omega
    · subst h; simp [chainFive] at hv; subst hv; show _ < 5; omega
    · have hu4 : u = 4 ∨ 5 ≤ u := by omega
      rcases hu4 with h4 | h5
      · subst h4; simp [chainFive] at hv
      · have e : (chainFive s).toGraph.g.getD u [] = [] :=
          List.getD_eq_default _ _ (by simpa [chainFive] using h5)
        rw [e] at hv; exact absurd hv (List.not_mem_nil v)
  · intro u v hv
    have hu : u = 0 ∨ u = 1 ∨ u = 2 ∨ u = 3 ∨ u = 4 ∨ 5 ≤ u := by omega
    rcases hu with h | h | h | h | h | h
    · subst h; simp [chainFive] at hv
    · subst h; simp [chainFive] at hv; subst hv; show _ < 5; omega
    · subst h; simp [chainFive] at hv; subst hv; show _ < 5; omega
    · subst h; simp [chainFive] at hv; subst hv; show _ < 5; omega
    · subst h; simp [chainFive] at hv; subst hv; show _ < 5; omega
    · have e : (chainFive s).toGraph.gT.getD u [] = [] :=
        List.getD_eq_default _ _ (by simpa [chainFive] using h)
      rw [e] at hv; exact absurd hv (List.not_mem_nil v)

/-- One pass of the loop of `build_hyper_graph_for_minimization` on the chain with the
negative seed 0: the new RR set holds node 0 and is closed downwards, or one of the
draws of the pass after the draw of the root does not fall below 1. -/
theorem chain_pass (s0 : Sfmt) (g : InfGraph) (hG : g.toGraph = (chainFive s0).toGraph)
    (hp : g.active_probT = some [[], [1], [1], [1], [1]])
    (hm : g.influModel = InfluModel.IC) (hI : RRInv g) (i : Nat)
    (hi : g.hyperGT.length = i) :
    (InfGraph.build_min_step [true, false, false, false, false] g i).sfmt.stream
        = g.sfmt.stream ∧
      (InfGraph.build_min_step [true, false, false, false, false] g i).active_probT
        = g.active_probT ∧
      (InfGraph.build_min_step [true, false, false, false, false] g i).influModel
        = g.influModel ∧
      (InfGraph.build_min_step [true, false, false, false, false] g i).active_probFwd
        = g.active_probFwd ∧
      ((0 ∈ (InfGraph.build_min_step [true, false, false, false, false] g i).hyperGT.getD i
            [] ∧
          DownClosed
            ((InfGraph.build_min_step [true, false, false, false, false] g i).hyperGT.getD i
              [])) ∨
        ∃ p, g.sfmt.drawn < p ∧
          p < (InfGraph.build_min_step [true, false, false, false, false] g i).sfmt.drawn ∧
          ¬ draw_below g.sfmt p 1) := by
  have hn : g.n = 5 := congrArg Graph.n hG
  have hgT : g.gT = [[], [0], [1], [2], [3]] := congrArg Graph.gT hG
  have hr : (sfmt_genrand_uint32 g.sfmt).1 % g.n < 5 := by
    rw [hn]; exact Nat.mod_lt _ (by decide)
  have hidx : i < (g.hyperGT ++ [[]]).length := by
    rw [List.length_append, List.length_singleton]; omega
  have hempty : (g.hyperGT ++ [[]]).getD i [] = [] := by
    rw [← hi]; exact getD_snoc_nil_last _
  unfold InfGraph.build_min_step
  split
  · rename_i hlt
    rw [hm] at hlt
    exact InfluModel.noConfusion hlt
  unfold InfGraph.generate_rr_set_ic_stoppable
  dsimp only
  split_ifs with ht
  · have hr0 : (sfmt_genrand_uint32 g.sfmt).1 % g.n = 0 := by
      have h5 := hr
      generalize (sfmt_genrand_uint32 g.sfmt).1 % g.n = r at ht h5
      have : r = 0 ∨ r = 1 ∨ r = 2 ∨ r = 3 ∨ r = 4 := by omega
      rcases this with h | h | h | h | h
      · exact h
      all_goals (subst h; exact absurd ht (by decide))
    refine ⟨rfl, rfl, rfl, rfl, Or.inl ?_⟩
    have hrow : (pushAt (g.hyperGT ++ [[]]) i ((sfmt_genrand_uint32 g.sfmt).1 % g.n)).getD i []
        = [0] := by
      rw [getD_pushAt, if_pos ⟨rfl, hidx⟩, hempty, hr0]; rfl
    show 0 ∈ (pushAt (g.hyperGT ++ [[]]) i ((sfmt_genrand_uint32 g.sfmt).1 % g.n)).getD i [] ∧
      DownClosed ((pushAt (g.hyperGT ++ [[]]) i
        ((sfmt_genrand_uint32 g.sfmt).1 % g.n)).getD i [])
    rw [hrow]
    refine ⟨List.mem_singleton_self 0, ?_⟩
    intro j hj hj0
    exact absurd (List.mem_singleton.mp hj) hj0
  · have hr1 : 1 ≤ (sfmt_genrand_uint32 g.sfmt).1 % g.n := by
      rcases Nat.eq_zero_or_pos ((sfmt_genrand_uint32 g.sfmt).1 % g.n) with h | h
      · rw [h] at ht; exact absurd rfl ht
      · exact h
    have hGT_lt : ∀ u v, v ∈ g.gT.getD u [] → v < g.n := hI.graph.gT_lt
    obtain ⟨_, hrow, _⟩ := row_of_walk
      (g := { g with hyperGT := g.hyperGT ++ [[]], sfmt := (sfmt_genrand_uint32 g.sfmt).2 })
      (v := (sfmt_genrand_uint32 g.sfmt).1 % g.n)
      (by show (sfmt_genrand_uint32 g.sfmt).1 % g.n < g.n
          exact Nat.mod_lt _ hI.graph.n_pos) hidx hempty
      (ic_loop_stoppable_steps
        { g with hyperGT := g.hyperGT ++ [[]], sfmt := (sfmt_genrand_uint32 g.sfmt).2 }
        hGT_lt i [true, false, false, false, false] g.n 0 _)
    obtain ⟨w1, w2⟩ := chain_walk
      { g with hyperGT := g.hyperGT ++ [[]], sfmt := (sfmt_genrand_uint32 g.sfmt).2 }
      hgT hp i ((sfmt_genrand_uint32 g.sfmt).1 % g.n) hr1 (by omega) g.n 0
      (RRWalk.start g.n g.hyperG (g.hyperGT ++ [[]]) (sfmt_genrand_uint32 g.sfmt).2
        ((sfmt_genrand_uint32 g.sfmt).1 % g.n) i)
      (by rw [hn]; omega) rfl rfl
      (by intro j hj
          show ((List.replicate g.n false).set ((sfmt_genrand_uint32 g.sfmt).1 % g.n)
            true).getD j false = false
          rw [getD_set_bool, if_neg (fun h => by omega)]
          exact getD_replicate_false _ _)
      (by intro j hj hjr
          exact absurd (List.mem_singleton.mp hj) hjr)
    refine ⟨w1, rfl, rfl, rfl, ?_⟩
    rcases w2 with h | ⟨p, p1, p2, p3⟩
    · rw [← hrow] at h
      exact Or.inl h
    · refine Or.inr ⟨p, ?_, p2, p3⟩
      have : g.sfmt.drawn + 1 ≤ p := p1
      omega

end ChainPassLemmas

section ChainRowsLemmas

/-- The store after `R` passes of the loop of `build_hyper_graph_for_minimization` on
the chain with the negative seed 0: every RR set holds node 0 and is closed downwards,
or a draw made after the root draw of some pass does not fall below 1. -/
theorem chain_rows (s : Sfmt) (R : Nat) :
    (state_before_pass (InfGraph.build_min_step [true, false, false, false, false])
        (chainFive s).init_hyper_graph R).sfmt.stream = s.stream ∧
      (state_before_pass (InfGraph.build_min_step [true, false, false, false, false])
        (chainFive s).init_hyper_graph R).active_probT = some [[], [1], [1], [1], [1]] ∧
      (state_before_pass (InfGraph.build_min_step [true, false, false, false, false])
        (chainFive s).init_hyper_graph R).influModel = InfluModel.IC ∧
      (state_before_pass (InfGraph.build_min_step [true, false, false, false, false])
        (chainFive s).init_hyper_graph R).active_probFwd = some [[1], [1], [1], [1], []] ∧
      ((∀ i, i < R →
          0 ∈ (state_before_pass (InfGraph.build_min_step [true, false, false, false, false])
            (chainFive s).init_hyper_graph R).hyperGT.getD i [] ∧
          DownClosed
            ((state_before_pass (InfGraph.build_min_step [true, false, false, false, false])
              (chainFive s).init_hyper_graph R).hyperGT.getD i [])) ∨
        ∃ i p, i < R ∧
          (state_before_pass (InfGraph.build_min_step [true, false, false, false, false])
            (chainFive s).init_hyper_graph i).sfmt.drawn < p ∧
          p < (state_before_pass (InfGraph.build_min_step [true, false, false, false, false])
            (chainFive s).init_hyper_graph (i + 1)).sfmt.drawn ∧
          ¬ draw_below s p 1) := by
  induction R with
  | zero =>
    exact ⟨rfl, rfl, rfl, rfl, Or.inl (fun i hi => absurd hi (Nat.not_lt_zero i))⟩
  | succ R ih =>
    obtain ⟨a1, a2, a3, a5, a4⟩ := ih
    obtain ⟨hI, hG, hlen, _⟩ := build_min_rows [true, false, false, false, false]
      (init_hyper_graph_inv (chainFive s) (chain_five_ok s)) rfl R
    obtain ⟨b1, b2, b3, b5, b4⟩ := chain_pass s _ hG a2 a3 hI R hlen
    obtain ⟨_, _, hold⟩ := build_min_step_row [true, false, false, false, false] hI hlen
    rw [state_before_pass_succ]
    refine ⟨b1.trans a1, b2.trans a2, b3.trans a3, b5.trans a5, ?_⟩
    rcases a4 with a4 | ⟨i, p, hi, p1, p2, p3⟩
    · rcases b4 with b4 | ⟨p, p1, p2, p3⟩
      · refine Or.inl ?_
        intro i hi
        by_cases hiR : i < R
        · rw [hold i hiR]
          exact a4 i hiR
        · have : i = R := by omega
          rw [this]
          exact b4
      · refine Or.inr ⟨R, p, Nat.lt_succ_self R, p1, ?_, ?_⟩
        · rw [state_before_pass_succ]; exact p2
        · unfold draw_below at p3 ⊢
          rw [a1] at p3
          exact p3
    · exact Or.inr ⟨i, p, Nat.lt_succ_of_lt hi, p1, p2, p3⟩

end ChainRowsLemmas

section ChainHeapLemmas

/-- The sift of `up` from a position other than the root leaves the root entry alone
when the saved entry is not smaller than the root entry. -/
theorem up_loop_root {V : Type} [LinearOrder V] :
    ∀ (fuel p : Nat) (x : KeyValue V) (h : iHeap V), 0 < p →
      ¬ x.value < (h.m_data.m_data 0).value →
      (iHeap.up_loop fuel p x h).m_data.m_data 0 = h.m_data.m_data 0 ∧
        (iHeap.up_loop fuel p x h).m_data.m_num = h.m_data.m_num := by
  intro fuel
  induction fuel with
  | zero =>
    intro p x h hp _
    simp only [iHeap.up_loop, iHeap.place]
    exact ⟨Function.update_noteq (by omega) _ _, trivial⟩
  | succ fuel ih =>
    intro p x h hp hx
    simp only [iHeap.up_loop]
    split_ifs with hc
    · have hpar : 0 < (p - 1) / 2 := by
        rcases Nat.eq_zero_or_pos ((p - 1) / 2) with h0 | h0
        · rw [h0] at hc; exact absurd hc.2 hx
        · exact h0
      have hroot : (iHeap.place h p (h.m_data.m_data ((p - 1) / 2))).m_data.m_data 0
          = h.m_data.m_data 0 := by
        simp only [iHeap.place]
        exact Function.update_noteq (by omega) _ _
      obtain ⟨i1, i2⟩ := ih ((p - 1) / 2) x
        (iHeap.place h p (h.m_data.m_data ((p - 1) / 2))) hpar (by rw [hroot]; exact hx)
      exact ⟨i1.trans hroot, i2⟩
    · simp only [iHeap.place]
      exact ⟨Function.update_noteq (by omega) _ _, trivial⟩

/-- The insertion of a new key whose value is not smaller than the value at the root
of a non-empty heap leaves the root entry alone. -/
theorem insert_keeps_root {V : Type} [LinearOrder V] (h : iHeap V) (key : Nat) (value : V)
    (hne : h.pos.notexist key = true) (hpos : 0 < h.m_data.m_num)
    (hv : (h.m_data.m_data 0).value ≤ value) :
    (h.insert key value).m_data.m_data 0 = h.m_data.m_data 0 := by
  unfold iHeap.insert
  rw [if_pos hne]
  simp only [iHeap.up, iVector.push_back]
  have h0 : h.m_data.m_num + 1 - 1 = h.m_data.m_num := by omega
  rw [h0, Function.update_same]
  have hroot : Function.update h.m_data.m_data h.m_data.m_num (⟨key, value⟩ : KeyValue V) 0
      = h.m_data.m_data 0 := Function.update_noteq (by omega) _ _
  obtain ⟨i1, _⟩ := up_loop_root h.m_data.m_num h.m_data.m_num (⟨key, value⟩ : KeyValue V)
    { pos := h.pos.insert key ((h.m_data.m_num : Nat) : Int),
      m_data := { m_data := Function.update h.m_data.m_data h.m_data.m_num ⟨key, value⟩,
                  m_num := h.m_data.m_num + 1 } }
    hpos (by show ¬ value < (Function.update h.m_data.m_data h.m_data.m_num
                (⟨key, value⟩ : KeyValue V) 0).value
             rw [hroot]; exact not_lt.mpr hv)
  exact i1.trans hroot

end ChainHeapLemmas

section ChainBlockLemmas

/-- The loop that fills the heap of `build_blocking_set` leaves the root entry of a
non-empty heap alone when no later node has a larger degree than the root shows. -/
theorem fill_block_heap_root {n : Nat} (excl : List Bool) (deg : List Nat) :
    ∀ (l : List Nat) (h : iHeap Int), WellFormed n h → 0 < h.m_data.m_num → l.Nodup →
      (∀ i, i ∈ l → i < n) → (∀ i, i ∈ l → ¬ h.contains i) →
      (∀ i, i ∈ l → (h.m_data.m_data 0).value ≤ -((deg.getD i 0 : Nat) : Int)) →
      (InfGraph.fill_block_heap excl deg l h).m_data.m_data 0 = h.m_data.m_data 0 ∧
        0 < (InfGraph.fill_block_heap excl deg l h).m_data.m_num := by
  intro l
  induction l with
  | nil => intro h _ hpos _ _ _ _; exact ⟨rfl, hpos⟩
  | cons i rest ih =>
    intro h hW hpos hnd hlt hnc hval
    have hi : i < n := hlt i (List.mem_cons_self i rest)
    have hrest : ∀ w, w ∈ rest → w < n := fun w hw => hlt w (List.mem_cons_of_mem i hw)
    have hnd' := List.nodup_cons.mp hnd
    simp only [InfGraph.fill_block_heap]
    split_ifs with hcand
    · have hnci := hnc i (List.mem_cons_self i rest)
      have hne : h.pos.notexist i = true := by
        cases hb : h.pos.notexist i with
        | true => rfl
        | false => exact absurd hb hnci
      obtain ⟨hW1, _, _, hfr, hgrow, _⟩ :=
        hW.insert_abs hi (-((deg.getD i 0 : Nat) : Int))
      have hroot := insert_keeps_root h i (-((deg.getD i 0 : Nat) : Int)) hne hpos
        (hval i (List.mem_cons_self i rest))
      obtain ⟨i1, i2⟩ := ih (h.insert i (-((deg.getD i 0 : Nat) : Int))) hW1
        (by rw [hgrow hnci]; omega) hnd'.2 hrest
        (by intro w hw hc
            have hwi : w ≠ i := fun e => hnd'.1 (e ▸ hw)
            exact hnc w (List.mem_cons_of_mem i hw) ((hfr w (hrest w hw) hwi).1.1 hc))
        (by intro w hw
            rw [hroot]
            exact hval w (List.mem_cons_of_mem i hw))
      exact ⟨i1.trans hroot, i2⟩
    · exact ih h hW hpos hnd'.2 hrest (fun w hw => hnc w (List.mem_cons_of_mem i hw))
        (fun w hw => hval w (List.mem_cons_of_mem i hw))

/-- A node that occurs in no RR set more often than node 1 has no larger degree than
node 1. -/
theorem risky_degrees_le (g : InfGraph) (neg : List Bool) (risky : List Nat) (j : Nat)
    (h1 : 1 < g.n) (hn1 : neg.getD 1 false = false)
    (hc : ∀ rr, (g.hyperGT.getD rr []).count j ≤ (g.hyperGT.getD rr []).count 1) :
    (InfGraph.risky_degrees g neg risky).getD j 0 ≤
      (InfGraph.risky_degrees g neg risky).getD 1 0 := by
  unfold InfGraph.risky_degrees
  have hgen : ∀ (rrs : List Nat) (d : List Nat), d.length = g.n →
      d.getD j 0 ≤ d.getD 1 0 →
      (rrs.foldl (fun d rr_idx => InfGraph.count_risky neg (g.hyperGT.getD rr_idx []) d)
        d).getD j 0 ≤
      (rrs.foldl (fun d rr_idx => InfGraph.count_risky neg (g.hyperGT.getD rr_idx []) d)
        d).getD 1 0 := by
    intro rrs
    induction rrs with
    | nil => intro d _ h; exact h
    | cons rr rest ih =>
      intro d hd h
      rw [List.foldl_cons]
      obtain ⟨c1, c2⟩ := count_risky_spec neg (g.hyperGT.getD rr []) d j
      obtain ⟨_, c3⟩ := count_risky_spec neg (g.hyperGT.getD rr []) d 1
      apply ih _ (c1.trans hd)
      have e1 : (if neg.getD 1 false = false ∧ 1 < d.length then
          (g.hyperGT.getD rr []).count 1 else 0) = (g.hyperGT.getD rr []).count 1 :=
        if_pos ⟨hn1, by rw [hd]; exact h1⟩
      have e2 : (if neg.getD j false = false ∧ j < d.length then
          (g.hyperGT.getD rr []).count j else 0) ≤ (g.hyperGT.getD rr []).count j := by
        split_ifs
        · exact le_refl _
        · exact Nat.zero_le _
      rw [e1] at c3
      have := hc rr
      omega
  apply hgen risky (List.replicate g.n 0) (List.length_replicate _ _)
  rw [getD_replicate_zero, getD_replicate_zero]

theorem down_closed_le {row : List Nat} (h : DownClosed row) :
    ∀ (j : Nat), j ∈ row → ∀ k, k ≤ j → k ∈ row := by
  intro j
  induction j with
  | zero =>
    intro hj k hk
    have : k = 0 := by omega
    rw [this]; exact hj
  | succ j ih =>
    intro hj k hk
    by_cases hkj : k = j + 1
    · rw [hkj]; exact hj
    · exact ih (h (j + 1) hj (by omega)) k (by omega)

/-- The selection of one blocker for the negative seed 0 over a store of five nodes
whose RR sets are closed downwards and one of which holds node 1: node 1 is selected. -/
theorem chain_blocker (G : InfGraph) (hn : G.n = 5) (hbij : RRBij G.hyperG G.hyperGT)
    (hnd : ∀ i, (G.hyperGT.getD i []).Nodup) (hcl : ∀ i, DownClosed (G.hyperGT.getD i []))
    (hone : ∃ i, 1 ∈ G.hyperGT.getD i []) :
    (G.build_blocking_set 1 [0]).result_node_set = [1] := by
  have hneg : InfGraph.flag_nodes G.n [0] = [true, false, false, false, false] := by
    rw [hn]; decide
  obtain ⟨deg, hdeg⟩ : ∃ deg, deg = InfGraph.risky_degrees G
    [true, false, false, false, false] (InfGraph.risky_sets G [0]).2 := ⟨_, rfl⟩
  obtain ⟨_, _, r3⟩ := risky_sets_spec G hbij [0]
  have hcount : ∀ (j : Nat), 1 ≤ j → ∀ rr,
      (G.hyperGT.getD rr []).count j ≤ (G.hyperGT.getD rr []).count 1 := by
    intro j hj rr
    by_cases hm : j ∈ G.hyperGT.getD rr []
    · rw [List.count_eq_one_of_mem (hnd rr) hm,
        List.count_eq_one_of_mem (hnd rr) (down_closed_le (hcl rr) j hm 1 hj)]
    · rw [List.count_eq_zero_of_not_mem hm]
      exact Nat.zero_le _
  have hd1 : 0 < deg.getD 1 0 := by
    rw [hdeg, risky_degrees_pos G _ _ 1 (by omega)]
    refine ⟨rfl, ?_⟩
    obtain ⟨i, hi⟩ := hone
    refine ⟨i, ?_, hi⟩
    rw [r3 i]
    refine ⟨0, List.mem_singleton_self 0, ?_⟩
    unfold InfGraph.seed_row
    rw [if_pos (le_refl _)]
    exact (hbij.mem_iff i 0).2 (down_closed_le (hcl i) 1 hi 0 (by omega))
  have hdle : ∀ j, j ∈ [2, 3, 4] → deg.getD j 0 ≤ deg.getD 1 0 := by
    intro j hj
    rw [hdeg]
    have hj' : j = 2 ∨ j = 3 ∨ j = 4 := by simpa using hj
    exact risky_degrees_le G _ _ j (by omega) rfl (hcount j (by omega))
  -- the heap when the selection loop starts
  obtain ⟨hW1, hc1, _, hfr, hgrow, _⟩ :=
    (wellFormed_init blankHeap 5).insert_abs (k := 1) (by omega)
      (-((deg.getD 1 0 : Nat) : Int))
  have hnum1 : ((blankHeap.init 5).insert 1 (-((deg.getD 1 0 : Nat) : Int))).m_data.m_num
      = 1 := hgrow (blank_init_contains 5 1)
  have hroot1 : ((blankHeap.init 5).insert 1 (-((deg.getD 1 0 : Nat) : Int))).m_data.m_data 0
      = ⟨1, -((deg.getD 1 0 : Nat) : Int)⟩ := by
    rw [insert_new_eq _ _ _ (by rfl)]
    rfl
  obtain ⟨f1, f2⟩ := fill_block_heap_root (n := 5) [true, false, false, false, false] deg
    [2, 3, 4] ((blankHeap.init 5).insert 1 (-((deg.getD 1 0 : Nat) : Int))) hW1
    (by rw [hnum1]; omega) (by decide)
    (by intro i hi
        have : i = 2 ∨ i = 3 ∨ i = 4 := by simpa using hi
        omega)
    (by intro i hi hc
        have h3 : i = 2 ∨ i = 3 ∨ i = 4 := by simpa using hi
        exact blank_init_contains 5 i ((hfr i (by omega) (by omega)).1.1 hc))
    (by intro i hi
        rw [hroot1]
        have := hdle i hi
        show -((deg.getD 1 0 : Nat) : Int) ≤ -((deg.getD i 0 : Nat) : Int)
        omega)
  have hstart : (G.block_start [0]).degree_heap =
      InfGraph.fill_block_heap [true, false, false, false, false] deg [2, 3, 4]
        ((blankHeap.init 5).insert 1 (-((deg.getD 1 0 : Nat) : Int))) := by
    unfold InfGraph.block_start
    dsimp only
    rw [hneg, ← hdeg, hn]
    have hr : List.range 5 = [0, 1, 2, 3, 4] := by decide
    rw [hr, InfGraph.fill_block_heap, if_neg (by simp), InfGraph.fill_block_heap,
      if_pos ⟨rfl, hd1⟩]
  have hres : (G.block_start [0]).result_node_set = [] := rfl
  unfold InfGraph.build_blocking_set
  dsimp only
  have hk : (1 : Int).toNat = 1 := rfl
  rw [hk]
  simp only [InfGraph.block_loop]
  have hne : ¬ (G.block_start [0]).degree_heap.empty = true := by
    rw [empty_iff, hstart]
    omega
  rw [if_neg hne]
  unfold InfGraph.block_step
  have hpop : (G.block_start [0]).degree_heap.pop = some
      (1, ((fun h2 : iHeap Int =>
        { h2 with m_data := { h2.m_data with m_num := h2.m_data.m_num - 1 } })
        (if 1 < (G.block_start [0]).degree_heap.m_data.m_num then
          iHeap.down
            { pos := ((G.block_start [0]).degree_heap.pos.erase 1).insert
                ((G.block_start [0]).degree_heap.m_data.m_data
                  ((G.block_start [0]).degree_heap.m_data.m_num - 1)).key 0,
              m_data := { (G.block_start [0]).degree_heap.m_data with
                m_data := Function.update (G.block_start [0]).degree_heap.m_data.m_data 0
                  ((G.block_start [0]).degree_heap.m_data.m_data
                    ((G.block_start [0]).degree_heap.m_data.m_num - 1)) } } 0
        else { (G.block_start [0]).degree_heap with
          pos := (G.block_start [0]).degree_heap.pos.erase 1 }))) := by
    have hkey : ((G.block_start [0]).degree_heap.m_data.m_data 0).key = 1 := by
      rw [hstart, f1, hroot1]
    have hpos : 0 < (G.block_start [0]).degree_heap.m_data.m_num := by
      rw [hstart]; exact f2
    unfold iHeap.pop
    rw [if_pos hpos]
    simp only [hkey, iHeap.store, Function.update_same]
  rw [hpop, hres]
  rfl

end ChainBlockLemmas

section ChainCutLemmas

/-- With node 1 blocked the cascade from node 0 on the chain activates node 0 only,
whatever the PRNG gives. -/
theorem chain_blocked_estimate (s0 : Sfmt) (g : InfGraph)
    (hG : g.toGraph = (chainFive s0).toGraph) (hm : g.influModel = InfluModel.IC)
    (hf : g.active_probFwd = some [[1], [1], [1], [1], []]) :
    (g.calculate_final_probabilities [0] 1 [1]).map
      (fun r => InfGraph.mark_activated 5 r.1) = some [true, false, false, false, false] := by
  obtain ⟨G, sfmt, model, pT, hyG, hyGT, res, pF⟩ := g
  simp only at hG hm hf
  subst hG hm hf
  simp [InfGraph.calculate_final_probabilities, chainFive, InfGraph.trials_loop,
    InfGraph.run_trial, InfGraph.ic_trial, InfGraph.ic_fwd_loop, InfGraph.ic_fwd_edges,
    InfGraph.seed_trial, InfGraph.flag_nodes, InfGraph.probFwd, InfGraph.count_trial,
    InfGraph.divide_counts, InfGraph.mark_activated, List.range, List.range.loop]
  norm_num

/-- The recorded cascade from node 0 on the chain gives node 2 the parent 1 when its
first two draws fall below 1. -/
theorem chain_parent_map (s0 : Sfmt) (g : InfGraph)
    (hG : g.toGraph = (chainFive s0).toGraph) (hm : g.influModel = InfluModel.IC)
    (hf : g.active_probFwd = some [[1], [1], [1], [1], []])
    (h0 : (sfmt_genrand_real1 g.sfmt).1 < 1)
    (h1 : (sfmt_genrand_real1 (sfmt_genrand_real1 g.sfmt).2).1 < 1) :
    2 ∈ (g.parent_trial [0] []).parent_map.keys ∧
      (g.parent_trial [0] []).parent_map.val 2 = 1 := by
  obtain ⟨G, sfmt, model, pT, hyG, hyGT, res, pF⟩ := g
  simp only at hG hm hf h0 h1
  subst hG hm hf
  by_cases h2 : (sfmt_genrand_real1 (sfmt_genrand_real1 (sfmt_genrand_real1 sfmt).2).2).1 < 1
  · by_cases h3 : (sfmt_genrand_real1 (sfmt_genrand_real1 (sfmt_genrand_real1
        (sfmt_genrand_real1 sfmt).2).2).2).1 < 1
    · simp [InfGraph.parent_trial, InfGraph.track_cascade, chainFive, InfGraph.parent_seeds,
        InfGraph.flag_nodes, InfGraph.ic_track_loop, InfGraph.ic_track_edges,
        InfGraph.probFwd, OrdMap.assign, OrdMap.empty, CommunitySearcher.set_insert,
        h0, h1, h2, h3, Function.update]
    · simp [InfGraph.parent_trial, InfGraph.track_cascade, chainFive, InfGraph.parent_seeds,
        InfGraph.flag_nodes, InfGraph.ic_track_loop, InfGraph.ic_track_edges,
        InfGraph.probFwd, OrdMap.assign, OrdMap.empty, CommunitySearcher.set_insert,
        h0, h1, h2, h3, Function.update]
  · simp [InfGraph.parent_trial, InfGraph.track_cascade, chainFive, InfGraph.parent_seeds,
      InfGraph.flag_nodes, InfGraph.ic_track_loop, InfGraph.ic_track_edges,
      InfGraph.probFwd, OrdMap.assign, OrdMap.empty, CommunitySearcher.set_insert,
      h0, h1, h2, Function.update]

/-- The cut-off edges on the chain for the seed 0 and the blocker 1 hold the edge
`(1, 2)` when the first two draws of the recorded cascade fall below 1. -/
theorem chain_cut_off (s0 : Sfmt) (g : InfGraph)
    (hG : g.toGraph = (chainFive s0).toGraph) (hm : g.influModel = InfluModel.IC)
    (hf : g.active_probFwd = some [[1], [1], [1], [1], []])
    (h0 : (sfmt_genrand_real1 g.sfmt).1 < 1)
    (h1 : (sfmt_genrand_real1 (sfmt_genrand_real1 g.sfmt).2).1 < 1) :
    ∃ r, g.find_cut_off_edges [0] [1] = some r ∧
      ({ source := 1, target := 2 } : Edge) ∈ r.1 := by
  obtain ⟨k2, v2⟩ := chain_parent_map s0 g hG hm hf h0 h1
  have hest := chain_blocked_estimate s0
    { g with sfmt := (g.parent_trial [0] []).sfmt } hG hm hf
  obtain ⟨r, hr, hmark⟩ := Option.map_eq_some'.mp hest
  have hrun : g.run_forward_simulation_with_parent_tracking [0] [] =
      some ((g.parent_trial [0] []).parent_map,
        { g with sfmt := (g.parent_trial [0] []).sfmt }) := by
    unfold InfGraph.run_forward_simulation_with_parent_tracking
    rw [if_neg (by simp), if_neg (by rw [hf]; simp)]
  have hne : ¬ (g.parent_trial [0] []).parent_map.keys.isEmpty = true := by
    intro h
    rw [List.isEmpty_iff] at h
    rw [h] at k2
    exact absurd k2 (List.not_mem_nil 2)
  have hn : g.n = 5 := congrArg Graph.n hG
  unfold InfGraph.find_cut_off_edges
  rw [if_neg (by simp), hrun]
  dsimp only
  rw [if_neg hne, hr]
  refine ⟨_, rfl, ?_⟩
  dsimp only
  rw [List.mem_filterMap]
  refine ⟨2, k2, ?_⟩
  rw [v2, if_neg (by decide)]
  have hm2 : (InfGraph.mark_activated g.n r.1).getD 2 false = false := by
    rw [hn, hmark]; rfl
  rw [if_pos hm2]
  rfl

end ChainCutLemmas

/-! ## One pass of the greedy selection (claim C33) -/

section GreedyStepClaims

/-- C33. Greedy step of `build_max_coverage_set`: for every well-formed RR store (one
row of `hyperG` per node, the two sides agree, no RR set holds a node twice), every
excluded list and every number `j` of passes made so far, in the state before the next
pass the `covered` flags mark the RR sets that contain a selected node, the negated
heap value of every node in the heap is the number of RR sets that contain the node
and are not yet covered, and when the heap is not empty the pass pops a node whose
number of not-yet-covered RR sets is at least that of every node that is neither
excluded nor already selected, and appends it to the result. -/
theorem greedy_step_invariant (g : InfGraph) (hS : StoreOK g.n g.hyperG g.hyperGT)
    (excluded_nodes : List Int) (j : Nat) :
    (∀ i, (InfGraph.greedy_loop g.hyperG g.hyperGT (InfGraph.flag_nodes g.n excluded_nodes) j
        (g.greedy_start excluded_nodes)).covered.getD i false = true ↔
      (i < g.hyperGT.length ∧ ∃ u,
        u ∈ (InfGraph.greedy_loop g.hyperG g.hyperGT
          (InfGraph.flag_nodes g.n excluded_nodes) j
          (g.greedy_start excluded_nodes)).result_node_set ∧ u ∈ g.hyperGT.getD i [])) ∧
    (∀ w, w < g.n →
      (InfGraph.greedy_loop g.hyperG g.hyperGT (InfGraph.flag_nodes g.n excluded_nodes) j
        (g.greedy_start excluded_nodes)).degree_heap.contains w →
      -((InfGraph.greedy_loop g.hyperG g.hyperGT (InfGraph.flag_nodes g.n excluded_nodes) j
          (g.greedy_start excluded_nodes)).degree_heap.value_of w)
        = ((open_count g.hyperGT
            (InfGraph.greedy_loop g.hyperG g.hyperGT (InfGraph.flag_nodes g.n excluded_nodes) j
              (g.greedy_start excluded_nodes)).covered w : Nat) : Int)) ∧
    ((InfGraph.greedy_loop g.hyperG g.hyperGT (InfGraph.flag_nodes g.n excluded_nodes) j
        (g.greedy_start excluded_nodes)).degree_heap.empty = false →
      ∃ u h,
        (InfGraph.greedy_loop g.hyperG g.hyperGT (InfGraph.flag_nodes g.n excluded_nodes) j
          (g.greedy_start excluded_nodes)).degree_heap.pop = some (u, h) ∧
        (InfGraph.greedy_loop g.hyperG g.hyperGT (InfGraph.flag_nodes g.n excluded_nodes)
          (j + 1) (g.greedy_start excluded_nodes)).result_node_set
          = (InfGraph.greedy_loop g.hyperG g.hyperGT (InfGraph.flag_nodes g.n excluded_nodes) j
              (g.greedy_start excluded_nodes)).result_node_set ++ [u] ∧
        ∀ w, w < g.n → (excluded_nodes.contains (w : Int)) = false →
          w ∉ (InfGraph.greedy_loop g.hyperG g.hyperGT
            (InfGraph.flag_nodes g.n excluded_nodes) j
            (g.greedy_start excluded_nodes)).result_node_set →
          open_count g.hyperGT
              (InfGraph.greedy_loop g.hyperG g.hyperGT
                (InfGraph.flag_nodes g.n excluded_nodes) j
                (g.greedy_start excluded_nodes)).covered w
            ≤ open_count g.hyperGT
              (InfGraph.greedy_loop g.hyperG g.hyperGT
                (InfGraph.flag_nodes g.n excluded_nodes) j
                (g.greedy_start excluded_nodes)).covered u) := by
  obtain ⟨hI, _⟩ := greedy_loop_spec hS.len hS.bij j _ (greedy_start_inv g excluded_nodes)
  generalize hs : InfGraph.greedy_loop g.hyperG g.hyperGT
    (InfGraph.flag_nodes g.n excluded_nodes) j (g.greedy_start excluded_nodes) = s at hI
  have hnext : InfGraph.greedy_loop g.hyperG g.hyperGT
      (InfGraph.flag_nodes g.n excluded_nodes) (j + 1) (g.greedy_start excluded_nodes)
      = InfGraph.greedy_loop g.hyperG g.hyperGT (InfGraph.flag_nodes g.n excluded_nodes) 1 s := by
    rw [← hs]
    exact greedy_loop_add g.hyperG g.hyperGT _ j 1 _
  rw [hnext]
  refine ⟨?_, ?_, ?_⟩
  · intro i
    rw [hI.covered_iff i]
    constructor
    · rintro ⟨h1, u, hu, h2⟩
      exact ⟨h1, u, hu, (hS.bij.mem_iff i u).mp h2⟩
    · rintro ⟨h1, u, hu, h2⟩
      exact ⟨h1, u, hu, (hS.bij.mem_iff i u).mpr h2⟩
  · intro w hw hc
    rw [hI.value w hw hc, neg_neg, residual_eq_open_count hS]
  · intro hne
    have hpos : 0 < s.degree_heap.m_data.m_num := by
      rcases Nat.eq_zero_or_pos s.degree_heap.m_data.m_num with h0 | h0
      · rw [(empty_iff s.degree_heap).mpr h0] at hne
        exact Bool.noConfusion hne
      · exact h0
    obtain ⟨u, hres, _, _, hmax, _⟩ := greedy_step_spec hS.len hS.bij s hI hpos
    have hstep : InfGraph.greedy_loop g.hyperG g.hyperGT
        (InfGraph.flag_nodes g.n excluded_nodes) 1 s
        = InfGraph.greedy_step g.hyperG g.hyperGT (InfGraph.flag_nodes g.n excluded_nodes) s := by
      simp only [InfGraph.greedy_loop]
      rw [if_neg (by rw [hne]; exact Bool.false_ne_true)]
    rw [hstep]
    cases hpop : s.degree_heap.pop with
    | none =>
      exfalso
      unfold InfGraph.greedy_step at hres
      rw [hpop] at hres
      have hl := congrArg List.length hres
      rw [List.length_append] at hl
      simp at hl
    | some p =>
      obtain ⟨u', h⟩ := p
      have hu : u' = u := by
        unfold InfGraph.greedy_step at hres
        rw [hpop] at hres
        have h1 : s.result_node_set ++ [u'] = s.result_node_set ++ [u] := hres
        exact List.singleton_inj.mp (List.append_cancel_left h1)
      refine ⟨u, h, by rw [hu], hres, ?_⟩
      intro w hw hex hsel
      rw [← residual_eq_open_count hS, ← residual_eq_open_count hS]
      by_cases hc : s.degree_heap.contains w
      · exact hmax w hw hc
      · have hflag : (InfGraph.flag_nodes g.n excluded_nodes).getD w false = false := by
          have h1 := flag_nodes_spec g.n excluded_nodes w hw
          cases hf : (InfGraph.flag_nodes g.n excluded_nodes).getD w false with
          | false => rfl
          | true =>
            have h2 := h1.mp hf
            have h3 : (excluded_nodes.contains (w : Int)) = true := by simpa using h2
            rw [hex] at h3
            exact Bool.noConfusion h3
        rw [residual_outside_heap hI s.covered w hw hflag hsel hc]
        exact Nat.zero_le _

/-- Worked instance: the four-set store, node 1 excluded, before the second pass. -/
theorem greedy_step_invariant_witness :
    StoreOK demoStore.n demoStore.hyperG demoStore.hyperGT ∧
    (InfGraph.greedy_loop demoStore.hyperG demoStore.hyperGT
        (InfGraph.flag_nodes demoStore.n [1]) 1
        (demoStore.greedy_start [1])).degree_heap.empty = false ∧
    ∃ u h,
      (InfGraph.greedy_loop demoStore.hyperG demoStore.hyperGT
        (InfGraph.flag_nodes demoStore.n [1]) 1
        (demoStore.greedy_start [1])).degree_heap.pop = some (u, h) ∧
      (InfGraph.greedy_loop demoStore.hyperG demoStore.hyperGT
        (InfGraph.flag_nodes demoStore.n [1]) (1 + 1)
        (demoStore.greedy_start [1])).result_node_set
        = (InfGraph.greedy_loop demoStore.hyperG demoStore.hyperGT
            (InfGraph.flag_nodes demoStore.n [1]) 1
            (demoStore.greedy_start [1])).result_node_set ++ [u] ∧
      ∀ w, w < demoStore.n → (([1] : List Int).contains (w : Int)) = false →
        w ∉ (InfGraph.greedy_loop demoStore.hyperG demoStore.hyperGT
          (InfGraph.flag_nodes demoStore.n [1]) 1
          (demoStore.greedy_start [1])).result_node_set →
        open_count demoStore.hyperGT
            (InfGraph.greedy_loop demoStore.hyperG demoStore.hyperGT
              (InfGraph.flag_nodes demoStore.n [1]) 1
              (demoStore.greedy_start [1])).covered w
          ≤ open_count demoStore.hyperGT
            (InfGraph.greedy_loop demoStore.hyperG demoStore.hyperGT
              (InfGraph.flag_nodes demoStore.n [1]) 1
              (demoStore.greedy_start [1])).covered u :=
  ⟨⟨rfl, RRBij.of_check (by decide), demoStore_nodup⟩, by decide,
    (greedy_step_invariant demoStore ⟨rfl, RRBij.of_check (by decide), demoStore_nodup⟩
      [1] 1).2.2 (by decide)⟩

end GreedyStepClaims

/-! ## The forest of a recorded cascade (claim C36) -/

section ForestClaims

/-- C36. Parent-witness forest: over a loaded graph with a bound forward probability
table, for every PRNG stream, seed list, blocker list and model,
`run_forward_simulation_with_parent_tracking` returns a map in which every seed inside
the graph that is not blocked is a key with the parent `-1`, every key is a node of the
graph that is not blocked, every key is either a seed with the parent `-1` or no seed
and recorded with a parent `u` that is itself a key with `u → v` an edge of the graph,
and every key has a depth below the number of keys: the parent links lead to a seed
after that many steps, so with at least as many steps allowed as there are keys
`get_node_depth_for_critical_path` returns that depth for every key. For seeds and
blockers inside the graph the map that `run_forward_simulation_with_tracking` returns
has the same properties, with the entry `(-1, 1)` for a seed and the entry
`(u, probability of the edge)` for any other key. -/
theorem parent_witness_forest (g : InfGraph) (hG : GraphOK g.toGraph)
    (hp : g.active_probFwd ≠ none) (initial_nodes blocking_nodes : List Int) :
    (∃ r, g.run_forward_simulation_with_parent_tracking initial_nodes blocking_nodes = some r ∧
      Forest g initial_nodes blocking_nodes (-1) (fun u _ => (u : Int)) r.1 ∧
      ∀ v, r.1.count v = true → ∀ fuel, r.1.keys.length ≤ fuel →
        ∃ (d : Nat) (memo : OrdMap Int),
          get_node_depth_for_critical_path r.1 fuel v (OrdMap.empty 0) = some ((d : Int), memo) ∧
          TreeDepth r.1 v d) ∧
    ((∀ x, x ∈ initial_nodes ++ blocking_nodes → 0 ≤ x ∧ x < (g.n : Int)) →
      ∃ r, g.run_forward_simulation_with_tracking initial_nodes blocking_nodes = some r ∧
        Forest g initial_nodes blocking_nodes (-1, 1) (fun u prob => ((u : Int), prob)) r.1) := by
  have hdepth : ∀ pm : OrdMap Int,
      Forest g initial_nodes blocking_nodes (-1) (fun u _ => (u : Int)) pm →
      ∀ v, pm.count v = true → ∀ fuel, pm.keys.length ≤ fuel →
        ∃ (d : Nat) (memo : OrdMap Int),
          get_node_depth_for_critical_path pm fuel v (OrdMap.empty 0) = some ((d : Int), memo) ∧
          TreeDepth pm v d := by
    intro pm hF v hv fuel hfuel
    obtain ⟨d, hd, hlt⟩ := hF.reaches_seed v hv
    obtain ⟨memo, he, _⟩ := get_node_depth_spec pm fuel v (OrdMap.empty 0) d hd
      (Nat.lt_of_lt_of_le hlt hfuel) (fun k hk => absurd hk (List.not_mem_nil k))
    exact ⟨d, memo, he, hd⟩
  constructor
  · unfold InfGraph.run_forward_simulation_with_parent_tracking
    by_cases h0 : initial_nodes.isEmpty = true
    · rw [if_pos h0]
      have he : initial_nodes = [] := List.isEmpty_iff.mp h0
      have hF : Forest g initial_nodes blocking_nodes (-1) (fun u _ => (u : Int))
          (OrdMap.empty (-1)) := by
        rw [he]
        exact forest_empty g blocking_nodes (-1) _
      exact ⟨_, rfl, hF, hdepth _ hF⟩
    · rw [if_neg h0, if_neg (by simpa [Option.isNone_iff_eq_none] using hp)]
      have hF : Forest g initial_nodes blocking_nodes (-1) (fun u _ => (u : Int))
          (g.parent_trial initial_nodes blocking_nodes).parent_map :=
        forest_of_inv g initial_nodes blocking_nodes (-1) _ _ _ _ _
          (fun v hv => flag_nodes_spec g.n blocking_nodes v hv)
          (parent_trial_inv g hG initial_nodes blocking_nodes).1
          (parent_trial_unblocked g initial_nodes blocking_nodes)
      exact ⟨_, rfl, hF, hdepth _ hF⟩
  · intro hr
    unfold InfGraph.run_forward_simulation_with_tracking
    by_cases h0 : initial_nodes.isEmpty = true
    · rw [if_pos h0]
      have he : initial_nodes = [] := List.isEmpty_iff.mp h0
      refine ⟨_, rfl, ?_⟩
      rw [he]
      exact forest_empty g blocking_nodes (-1, 1) _
    · have hall : ¬ ((initial_nodes ++ blocking_nodes).all
          (fun x => decide (0 ≤ x ∧ x < (g.n : Int))) = false) := by
        rw [Bool.not_eq_false, List.all_eq_true]
        intro x hx
        exact decide_eq_true (hr x hx)
      rw [if_neg h0, if_neg hall, if_neg (by simpa [Option.isNone_iff_eq_none] using hp)]
      refine ⟨_, rfl, ?_⟩
      obtain ⟨hI, hU⟩ := witness_trial_inv_flags g hG initial_nodes blocking_nodes
        (fun s hs => hr s (List.mem_append_left _ hs))
      refine forest_of_inv g initial_nodes blocking_nodes (-1, 1) _ _ _ _ _ ?_ hI hU
      intro v hv
      rw [unchecked_flags_eq g.n blocking_nodes _
        (fun x hx => hr x (List.mem_append_right _ hx))]
      exact flag_nodes_spec g.n blocking_nodes v hv

/-- Worked instance: the two-node snapshot with the edge `0 → 1`, the seed 0 and the
blocker 1. -/
theorem parent_witness_forest_witness :
    GraphOK demoInfGraph.toGraph ∧ demoInfGraph.active_probFwd ≠ none ∧
    (∃ r, demoInfGraph.run_forward_simulation_with_parent_tracking [0] [1] = some r ∧
      Forest demoInfGraph [0] [1] (-1) (fun u _ => (u : Int)) r.1 ∧
      ∀ v, r.1.count v = true → ∀ fuel, r.1.keys.length ≤ fuel →
        ∃ (d : Nat) (memo : OrdMap Int),
          get_node_depth_for_critical_path r.1 fuel v (OrdMap.empty 0) = some ((d : Int), memo) ∧
          TreeDepth r.1 v d) ∧
    (∀ x, x ∈ ([0] : List Int) ++ [1] → 0 ≤ x ∧ x < (demoInfGraph.n : Int)) ∧
    ∃ r, demoInfGraph.run_forward_simulation_with_tracking [0] [1] = some r ∧
      Forest demoInfGraph [0] [1] (-1, 1) (fun u prob => ((u : Int), prob)) r.1 :=
  have hr : ∀ x, x ∈ ([0] : List Int) ++ [1] → 0 ≤ x ∧ x < (demoInfGraph.n : Int) := by
    intro x hx
    have h : x = 0 ∨ x = 1 := by simpa using hx
    rcases h with h | h
    · rw [h]
      exact ⟨by decide, by decide⟩
    · rw [h]
      exact ⟨by decide, by decide⟩
  ⟨demoInfGraph_ok, by simp [demoInfGraph],
    (parent_witness_forest demoInfGraph demoInfGraph_ok (by simp [demoInfGraph]) [0] [1]).1,
    hr,
    (parent_witness_forest demoInfGraph demoInfGraph_ok (by simp [demoInfGraph]) [0] [1]).2 hr⟩

end ForestClaims

/-! ## The logarithm of the binomial coefficient (claim C37) -/

section MathClaims

/-- C37. `Math::logcnk`, read over the real numbers with the natural logarithm: it
returns `-1` when `k < 0` or `k > n`; for `0 ≤ k ≤ n` it returns `ln C(n, k)`, which is
0 for `k = 0` and for `k = n`, and `logcnk(n, k) = logcnk(n, n - k)`; and for
`0 < k < n` the value is the sum of `ln(n - i + 1) - ln(i)` over `i = 1, …, k`, or
over `i = 1, …, n - k` only when `k > n / 2`. -/
theorem logcnk_log_choose (n k : Int) :
    ((k < 0 ∨ k > n) → Math.logcnk Real.log n k = -1) ∧
    ((0 ≤ k ∧ k ≤ n) →
      Math.logcnk Real.log n k = Real.log (n.toNat.choose k.toNat) ∧
      Math.logcnk Real.log n k = Math.logcnk Real.log n (n - k) ∧
      ((k = 0 ∨ k = n) → Math.logcnk Real.log n k = 0)) ∧
    ((0 < k ∧ k < n) →
      Math.logcnk Real.log n k
        = ∑ j ∈ Finset.range (if k > n / 2 then n - k else k).toNat,
            (Real.log ((n : ℝ) - (j : ℝ)) - Real.log ((j : ℝ) + 1))) := by
  refine ⟨?_, ?_, ?_⟩
  · intro h
    unfold Math.logcnk
    rw [if_pos h]
  · rintro ⟨h0, hk⟩
    refine ⟨logcnk_real n k h0 hk, ?_, ?_⟩
    · rw [logcnk_real n k h0 hk, logcnk_real n (n - k) (by omega) (by omega)]
      have e : (n - k).toNat = n.toNat - k.toNat := by omega
      rw [e, Nat.choose_symm (by omega)]
    · intro he
      unfold Math.logcnk
      rw [if_neg (by omega), if_pos he]
  · rintro ⟨h0, hk⟩
    unfold Math.logcnk
    rw [if_neg (by omega), if_neg (by omega), logcnk_fold_eq_sum,
      Int.tdiv_eq_ediv (by omega) (by decide)]

/-- Worked instance: `n = 5` and `k = 3`, where the sum runs over two terms. -/
theorem logcnk_log_choose_witness :
    ((0 : Int) ≤ 3 ∧ (3 : Int) ≤ 5) ∧
    Math.logcnk Real.log 5 3 = Real.log (((5 : Int).toNat).choose ((3 : Int).toNat)) ∧
    Math.logcnk Real.log 5 3 = Math.logcnk Real.log 5 (5 - 3) ∧
    ((0 : Int) < 3 ∧ (3 : Int) < 5) ∧
    Math.logcnk Real.log 5 3
      = ∑ j ∈ Finset.range (if (3 : Int) > 5 / 2 then (5 : Int) - 3 else 3).toNat,
          (Real.log (((5 : Int) : ℝ) - (j : ℝ)) - Real.log ((j : ℝ) + 1)) :=
  ⟨⟨by decide, by decide⟩,
    ((logcnk_log_choose 5 3).2.1 ⟨by decide, by decide⟩).1,
    ((logcnk_log_choose 5 3).2.1 ⟨by decide, by decide⟩).2.1,
    ⟨by decide, by decide⟩,
    (logcnk_log_choose 5 3).2.2 ⟨by decide, by decide⟩⟩

end MathClaims

/-! ## Phase 1 of IMM (claims C34, C38 and C40) -/

section ImmClaims

/-- C34. The RR store in phase 1 of IMM is not fresh: over a loaded graph, for every
PRNG stream, arguments and functions of the mathematical library, when the first two
passes of the loop of `Imm::step1` run (the probability table is bound and both sample
counts are not negative), the store on which the second pass computes holds
`R_1 + R_2` RR sets and not `R_2`: `build_hyper_graph_r` does not clear the store and
writes the new samples from row 0 on. On the two-node snapshot, a call for two RR sets
followed by a call for one leaves the rows `[0, 0]`, `[0]` and `[]`: row 0 holds the
nodes of two samples and the new row is empty. -/
theorem step1_store_accumulates {R : Type} [LinearOrderedField R] (lib : Libm R)
    (arg : Argument R) (g : InfGraph) (hG : GraphOK g.toGraph) :
    (Imm.step1_trace lib arg 1 g.init_hyper_graph 2).map (fun r => r.1.hyperGT.length)
      = (if g.active_probT = none ∨ Imm.sample_count lib arg g.n 1 < 0
            ∨ Imm.sample_count lib arg g.n 2 < 0 then none
          else some ((Imm.sample_count lib arg g.n 1).toNat
            + (Imm.sample_count lib arg g.n 2).toNat)) ∧
    ((demoInfGraph.init_hyper_graph.build_hyper_graph_r 2).bind
        (fun g1 => g1.build_hyper_graph_r 1)).map (fun g2 => (g2.hyperGT, g2.hyperG))
      = some ([[0, 0], [0], []], [[0, 1, 0], []]) := by
  constructor
  · have hI0 := init_hyper_graph_inv g hG
    show ((Imm.step1_pass lib arg 1 g.init_hyper_graph).bind
      (fun r => Imm.step1_pass lib arg 2 r.1)).map _ = _
    have hs1 := step1_pass_some_iff lib arg 1 g.init_hyper_graph
    have hn0 : g.init_hyper_graph.n = g.n := rfl
    have hp0 : g.init_hyper_graph.active_probT = g.active_probT := rfl
    rw [hn0, hp0] at hs1
    cases h1 : Imm.step1_pass lib arg 1 g.init_hyper_graph with
    | none =>
      rw [h1] at hs1
      have hc : ¬ (g.active_probT ≠ none ∧ 0 ≤ Imm.sample_count lib arg g.n 1) :=
        fun h => (hs1.mpr h) rfl
      rw [if_pos]
      · rfl
      · by_cases hp : g.active_probT = none
        · exact Or.inl hp
        · exact Or.inr (Or.inl (not_le.mp (fun h => hc ⟨hp, h⟩)))
    | some r1 =>
      obtain ⟨g1, e1⟩ := r1
      rw [h1] at hs1
      obtain ⟨hp, hc1⟩ := hs1.mp (fun h => Option.noConfusion h)
      obtain ⟨a1, a2, a3, a4, _⟩ := step1_pass_spec lib arg 1 _ g1 e1 hI0 h1
      have hn1 : g1.n = g.n := congrArg Graph.n a3
      have hs2 := step1_pass_some_iff lib arg 2 g1
      rw [hn0] at a2
      rw [hn1, a4, hp0] at hs2
      show (Imm.step1_pass lib arg 2 g1).map _ = _
      cases h2 : Imm.step1_pass lib arg 2 g1 with
      | none =>
        rw [h2] at hs2
        have hc : ¬ (g.active_probT ≠ none ∧ 0 ≤ Imm.sample_count lib arg g.n 2) :=
          fun h => (hs2.mpr h) rfl
        rw [if_pos]
        · rfl
        · exact Or.inr (Or.inr (not_le.mp (fun h => hc ⟨hp, h⟩)))
      | some r2 =>
        obtain ⟨g2, e2⟩ := r2
        rw [h2] at hs2
        obtain ⟨_, hc2⟩ := hs2.mp (fun h => Option.noConfusion h)
        obtain ⟨_, b2, _⟩ := step1_pass_spec lib arg 2 g1 g2 e2 a1 h2
        rw [if_neg (by
          rintro (h | h | h)
          · exact hp h
          · omega
          · omega)]
        have hz : g.init_hyper_graph.hyperGT.length = 0 := rfl
        show some g2.hyperGT.length = _
        rw [b2, a2, hn1, hz, Nat.zero_add]
  · decide

/-- Worked instance: the two-node snapshot with the edge `0 → 1`, the budget 1 and the
real logarithm and square root. -/
theorem step1_store_accumulates_witness :
    GraphOK demoInfGraph.toGraph ∧
    (Imm.step1_trace (Libm.mk Real.log Real.sqrt (fun r => if 0 ≤ r then ⌊r⌋ else ⌈r⌉))
        (Argument.mk 1 (1 / 2) "" "") 1 demoInfGraph.init_hyper_graph 2).map
        (fun r => r.1.hyperGT.length)
      = (if demoInfGraph.active_probT = none
            ∨ Imm.sample_count (Libm.mk Real.log Real.sqrt (fun r => if 0 ≤ r then ⌊r⌋ else ⌈r⌉))
                (Argument.mk 1 (1 / 2) "" "") demoInfGraph.n 1 < 0
            ∨ Imm.sample_count (Libm.mk Real.log Real.sqrt (fun r => if 0 ≤ r then ⌊r⌋ else ⌈r⌉))
                (Argument.mk 1 (1 / 2) "" "") demoInfGraph.n 2 < 0 then none
          else some
            ((Imm.sample_count (Libm.mk Real.log Real.sqrt (fun r => if 0 ≤ r then ⌊r⌋ else ⌈r⌉))
                (Argument.mk 1 (1 / 2) "" "") demoInfGraph.n 1).toNat
              + (Imm.sample_count
                  (Libm.mk Real.log Real.sqrt (fun r => if 0 ≤ r then ⌊r⌋ else ⌈r⌉))
                  (Argument.mk 1 (1 / 2) "" "") demoInfGraph.n 2).toNat)) :=
  ⟨demoInfGraph_ok,
    (step1_store_accumulates (Libm.mk Real.log Real.sqrt (fun r => if 0 ≤ r then ⌊r⌋ else ⌈r⌉))
      (Argument.mk 1 (1 / 2) "" "") demoInfGraph demoInfGraph_ok).1⟩

/-- C40. IMM phase 1 with a budget that is not positive: for every graph, PRNG stream,
functions of the mathematical library and `k ≤ 0`, `build_max_coverage_set(k)` leaves
`result_node_set` empty and `InfluenceHyperGraph` returns 0; in every pass of the loop
of `Imm::step1` that gets as far as the test, the test `ept > 1 / 2 ^ x` is false; and
the loop has no pass at which it returns: after any number of passes the function has
failed in `build_hyper_graph_r` or is about to start the next pass. -/
theorem step1_nonpositive_budget {R : Type} [LinearOrderedField R] (lib : Libm R)
    (arg : Argument R) (hk : arg.k ≤ 0) (g : InfGraph) :
    (g.build_max_coverage_set arg.k []).result_node_set = [] ∧
    (g.build_max_coverage_set arg.k []).InfluenceHyperGraph = 0 ∧
    (∀ x g' ept, Imm.step1_pass lib arg x g = some (g', ept) → ¬ ept > 1 / 2 ^ x) ∧
    ∀ fuel, Imm.step1 lib arg fuel g = Step1.failed ∨
      ∃ g', Imm.step1 lib arg fuel g = Step1.running (1 + fuel) g' := by
  refine ⟨greedy_nonpositive g arg.k hk [],
    influence_of_empty _ (greedy_nonpositive g arg.k hk []), ?_, ?_⟩
  · intro x g' ept h
    rw [step1_pass_nonpositive lib arg hk x g g' ept h]
    have hpos : (0 : R) < 1 / 2 ^ x := by positivity
    exact not_lt.mpr (le_of_lt hpos)
  · intro fuel
    exact step1_loop_nonpositive lib arg hk fuel 1 g

/-- On the two-node snapshot with the budget 1 and `ε = 1/2`, over the real numbers,
`Imm::step1` returns in its first pass with 13 RR sets, all covered: the value returned
is `2 / (1 + ε√2)`, while `ept · n / (1 + ε√2)` with `ept = cov / |RR| · n = 2` is
`4 / (1 + ε√2)`. -/
theorem step1_return_counterexample :
    Imm.step1 (Libm.mk Real.log Real.sqrt (fun r => if 0 ≤ r then ⌊r⌋ else ⌈r⌉))
        (Argument.mk 1 (1 / 2) "" "") 1 demoInfGraph.init_hyper_graph
      = Step1.returned (2 / (1 + 1 / 2 * Real.sqrt 2)) demoPhase1 ∧
    (coveredBy demoPhase1.hyperGT demoPhase1.result_node_set.toFinset).card = 13 ∧
    demoPhase1.hyperGT.length = 13 ∧ demoPhase1.n = 2 ∧
    (2 / (1 + 1 / 2 * Real.sqrt 2) : ℝ)
      ≠ ((13 : ℝ) / 13 * 2) * 2 / (1 + 1 / 2 * Real.sqrt 2) := by
  obtain ⟨_, hl, hn, hc⟩ := demo_phase1_store
  refine ⟨demo_phase1_run, hc, hl, hn, ?_⟩
  have hpos : (0 : ℝ) < 1 + 1 / 2 * Real.sqrt 2 := by
    have := Real.sqrt_nonneg 2
    linarith
  intro h
  rw [div_left_inj' (ne_of_gt hpos)] at h
  norm_num at h

/-- C38, amended. Phase-1 lower bound: over a loaded graph with a fresh RR store, for
every PRNG stream, arguments and functions of the mathematical library, `Imm::step1`
returns the value `v` with the object `g'` within `fuel` passes exactly when `g'` is
the object of the first pass `x` in which `cov / |RR| · n > n / 2 ^ x` holds and
`v = (cov / |RR|) · n / (1 + ε′)` with `ε′ = ε · √2`, where `cov` is the number of RR
sets of the store that hold one of the greedy seeds and `|RR|` the number of RR sets of
the store: the `ept` of the code is the covered fraction `cov / |RR|`. -/
theorem step1_return_value {R : Type} [LinearOrderedField R] (lib : Libm R)
    (arg : Argument R) (g : InfGraph) (hG : GraphOK g.toGraph) (fuel : Nat) (v : R)
    (g' : InfGraph) :
    Imm.step1 lib arg fuel g.init_hyper_graph = Step1.returned v g' ↔
    ∃ j, j < fuel ∧
      (∃ ept, Imm.step1_trace lib arg 1 g.init_hyper_graph (j + 1) = some (g', ept) ∧
        ept = ((coveredBy g'.hyperGT g'.result_node_set.toFinset).card : R)
          / (g'.hyperGT.length : R)) ∧
      v = ((coveredBy g'.hyperGT g'.result_node_set.toFinset).card : R)
          / (g'.hyperGT.length : R) * (g.n : R) / (1 + arg.epsilon * lib.sqrt 2) ∧
      ((coveredBy g'.hyperGT g'.result_node_set.toFinset).card : R)
          / (g'.hyperGT.length : R) * (g.n : R) > (g.n : R) / 2 ^ (1 + j) ∧
      ∀ i, i < j → ∃ gi ei,
        Imm.step1_trace lib arg 1 g.init_hyper_graph (i + 1) = some (gi, ei) ∧
        ¬ (((coveredBy gi.hyperGT gi.result_node_set.toFinset).card : R)
          / (gi.hyperGT.length : R) * (g.n : R) > (g.n : R) / 2 ^ (1 + i)) := by
  have hI0 := init_hyper_graph_inv g hG
  have hn0 : g.init_hyper_graph.n = g.n := rfl
  have hnpos : (0 : R) < (g.n : R) := Nat.cast_pos.mpr hG.n_pos
  constructor
  · intro h
    obtain ⟨j, ept, hj, htr, htest, hval, hbefore⟩ :=
      step1_loop_returned lib arg fuel 1 g.init_hyper_graph v g' h
    obtain ⟨hfr, hn⟩ := step1_trace_fraction lib arg 1 _ g' ept hI0 j htr
    rw [hn0] at hn
    refine ⟨j, hj, ⟨ept, htr, hfr⟩, ?_, ?_, ?_⟩
    · rw [hval, hfr, hn]
      push_cast
      rfl
    · rw [← hfr]
      exact (step1_test_scaled ept _ hnpos _).mp htest
    · intro i hi
      obtain ⟨gi, ei, h1, h2⟩ := hbefore i hi
      obtain ⟨hfi, _⟩ := step1_trace_fraction lib arg 1 _ gi ei hI0 i h1
      refine ⟨gi, ei, h1, ?_⟩
      rw [← hfi]
      exact fun hc => h2 ((step1_test_scaled ei _ hnpos _).mpr hc)
  · rintro ⟨j, hj, ⟨ept, htr, hfr⟩, hval, htest, hbefore⟩
    obtain ⟨_, hn⟩ := step1_trace_fraction lib arg 1 _ g' ept hI0 j htr
    rw [hn0] at hn
    have hret := step1_loop_returns lib arg j 1 g.init_hyper_graph fuel g' ept hj htr
      ((step1_test_scaled ept _ hnpos _).mpr (by rw [hfr]; exact htest))
      (by
        intro i hi
        obtain ⟨gi, ei, h1, h2⟩ := hbefore i hi
        obtain ⟨hfi, _⟩ := step1_trace_fraction lib arg 1 _ gi ei hI0 i h1
        refine ⟨gi, ei, h1, ?_⟩
        intro hc
        apply h2
        rw [← hfi]
        exact (step1_test_scaled ei _ hnpos _).mp hc)
    unfold Imm.step1
    rw [hret, hval, hfr, hn]
    push_cast
    rfl

/-- Worked instance: the two-node snapshot with the budget 1 and `ε = 1/2`, over the
real numbers, where the function returns in its first pass. -/
theorem step1_return_value_witness :
    GraphOK demoInfGraph.toGraph ∧
    Imm.step1 (Libm.mk Real.log Real.sqrt (fun r => if 0 ≤ r then ⌊r⌋ else ⌈r⌉))
        (Argument.mk 1 (1 / 2) "" "") 1 demoInfGraph.init_hyper_graph
      = Step1.returned (2 / (1 + 1 / 2 * Real.sqrt 2)) demoPhase1 ∧
    ∃ j, j < 1 ∧
      (∃ ept,
        Imm.step1_trace (Libm.mk Real.log Real.sqrt (fun r => if 0 ≤ r then ⌊r⌋ else ⌈r⌉))
          (Argument.mk 1 (1 / 2) "" "") 1 demoInfGraph.init_hyper_graph (j + 1)
          = some (demoPhase1, ept) ∧
        ept = ((coveredBy demoPhase1.hyperGT demoPhase1.result_node_set.toFinset).card : ℝ)
          / (demoPhase1.hyperGT.length : ℝ)) ∧
      (2 / (1 + 1 / 2 * Real.sqrt 2) : ℝ)
        = ((coveredBy demoPhase1.hyperGT demoPhase1.result_node_set.toFinset).card : ℝ)
          / (demoPhase1.hyperGT.length : ℝ) * (demoInfGraph.n : ℝ)
          / (1 + (Argument.mk 1 (1 / 2 : ℝ) "" "").epsilon
            * (Libm.mk Real.log Real.sqrt (fun r => if 0 ≤ r then ⌊r⌋ else ⌈r⌉)).sqrt 2) ∧
      ((coveredBy demoPhase1.hyperGT demoPhase1.result_node_set.toFinset).card : ℝ)
          / (demoPhase1.hyperGT.length : ℝ) * (demoInfGraph.n : ℝ)
        > (demoInfGraph.n : ℝ) / 2 ^ (1 + j) ∧
      ∀ i, i < j → ∃ gi ei,
        Imm.step1_trace (Libm.mk Real.log Real.sqrt (fun r => if 0 ≤ r then ⌊r⌋ else ⌈r⌉))
          (Argument.mk 1 (1 / 2) "" "") 1 demoInfGraph.init_hyper_graph (i + 1)
          = some (gi, ei) ∧
        ¬ (((coveredBy gi.hyperGT gi.result_node_set.toFinset).card : ℝ)
          / (gi.hyperGT.length : ℝ) * (demoInfGraph.n : ℝ)
          > (demoInfGraph.n : ℝ) / 2 ^ (1 + i)) :=
  ⟨demoInfGraph_ok, demo_phase1_run,
    (step1_return_value (Libm.mk Real.log Real.sqrt (fun r => if 0 ≤ r then ⌊r⌋ else ⌈r⌉))
      (Argument.mk 1 (1 / 2) "" "") demoInfGraph demoInfGraph_ok 1
      (2 / (1 + 1 / 2 * Real.sqrt 2)) demoPhase1).mp demo_phase1_run⟩

/-- Worked instance: the budget 0 on the two-node snapshot, over the real numbers. -/
theorem step1_nonpositive_budget_witness :
    (Argument.mk 0 (1 / 2 : ℝ) "" "").k ≤ 0 ∧
    (demoInfGraph.build_max_coverage_set (Argument.mk 0 (1 / 2 : ℝ) "" "").k
      []).result_node_set = [] ∧
    (demoInfGraph.build_max_coverage_set (Argument.mk 0 (1 / 2 : ℝ) "" "").k
      []).InfluenceHyperGraph = 0 ∧
    (∀ x g' ept,
      Imm.step1_pass (Libm.mk Real.log Real.sqrt (fun r => if 0 ≤ r then ⌊r⌋ else ⌈r⌉))
        (Argument.mk 0 (1 / 2) "" "") x demoInfGraph = some (g', ept) →
      ¬ ept > 1 / 2 ^ x) ∧
    ∀ fuel,
      Imm.step1 (Libm.mk Real.log Real.sqrt (fun r => if 0 ≤ r then ⌊r⌋ else ⌈r⌉))
        (Argument.mk 0 (1 / 2) "" "") fuel demoInfGraph = Step1.failed ∨
      ∃ g',
        Imm.step1 (Libm.mk Real.log Real.sqrt (fun r => if 0 ≤ r then ⌊r⌋ else ⌈r⌉))
          (Argument.mk 0 (1 / 2) "" "") fuel demoInfGraph = Step1.running (1 + fuel) g' :=
  ⟨le_refl 0,
    step1_nonpositive_budget (Libm.mk Real.log Real.sqrt (fun r => if 0 ≤ r then ⌊r⌋ else ⌈r⌉))
      (Argument.mk 0 (1 / 2) "" "") (le_refl 0) demoInfGraph⟩

end ImmClaims

/-! ## The passes of the probability iterator (claims C35 and C39) -/

section WaveClaims

/-- On the chain `0 → 1 → 2` with probability one tenth on each edge, model IC, seeds
`[0]`, no blockers and the default parameters, `run_probability_simulation` returns
after two steps, step 0 and step 1, since step 1 has no newly activated node; one more
application of the update rule would raise the probability of node 2 from 0 to one
hundredth. -/
theorem probability_iterator_stops_early_counterexample :
    chainGraphTR.run_probability_simulation [0] [] 10 (1 / 2) (1 / 1000000) =
      some
        { total_steps := 1
          simulation_steps :=
            [{ step := 0
               newly_activated_nodes := []
               node_states := [{ id := 0, state := "active", probability := 1 }] },
             { step := 1
               newly_activated_nodes := []
               node_states := [{ id := 1, state := "inactive", probability := 1 / 10 }] }] } ∧
    (2 : Int) < 10 ∧
    InfGraph.prob_after chainGraphTR [0] [] (1 / 1000000) 1 = [1, 1 / 10, 0] ∧
    InfGraph.prob_after chainGraphTR [0] [] (1 / 1000000) 2 = [1, 1 / 10, 1 / 100] ∧
    abs ((1 / 100 : ℚ) - 0) > 1 / 1000000 := by
  have hs : (InfGraph.seed_step0 3 (InfGraph.flag_nodes 3 []) [0] (List.replicate 3 0, []))
      = ([1, 0, 0], [{ id := 0, state := "active", probability := 1 }]) := by
    simp [InfGraph.seed_step0, InfGraph.flag_nodes]
  have h1 : InfGraph.next_prob_of chainGraphTR (InfGraph.flag_nodes 3 []) (1 / 1000000) [1, 0, 0]
      = [1, 1 / 10, 0] := by
    simp [InfGraph.next_prob_of, chainGraphTR, chainGraph, InfGraph.flag_nodes,
      InfGraph.sim_skip, InfGraph.p_not_activated, InfGraph.probT, List.range, List.range.loop]
    norm_num
  have h2 : InfGraph.next_prob_of chainGraphTR (InfGraph.flag_nodes 3 []) (1 / 1000000)
      [1, 1 / 10, 0] = [1, 1 / 10, 1 / 100] := by
    simp [InfGraph.next_prob_of, chainGraphTR, chainGraph, InfGraph.flag_nodes,
      InfGraph.sim_skip, InfGraph.p_not_activated, InfGraph.probT, List.range, List.range.loop]
    norm_num
  have a1 : |(1 : ℚ) / 10| = 1 / 10 := abs_of_pos (by norm_num)
  have c1 : InfGraph.changed_of chainGraphTR (InfGraph.flag_nodes 3 []) (1 / 1000000)
      [1, 0, 0] [1, 1 / 10, 0] = true := by
    simp [InfGraph.changed_of, chainGraphTR, chainGraph, InfGraph.flag_nodes, InfGraph.sim_skip,
      List.range, List.range.loop]
    norm_num [a1]
  have r1 : InfGraph.record_step 3 (1 / 2) (1 / 1000000) 1 [1, 0, 0] [1, 1 / 10, 0]
      = { step := 1
          newly_activated_nodes := []
          node_states := [{ id := 1, state := "inactive", probability := 1 / 10 }] } := by
    simp [InfGraph.record_step, List.range, List.range.loop, List.filterMap, List.filter]
    norm_num [a1]
  have hn : chainGraphTR.n = 3 := rfl
  have hp1 : InfGraph.prob_after chainGraphTR [0] [] (1 / 1000000) 1 = [1, 1 / 10, 0] := by
    rw [prob_after_succ]
    unfold InfGraph.prob_after
    rw [Function.iterate_zero, id_eq, hn, hs, h1]
  refine ⟨?_, by decide, hp1, ?_, ?_⟩
  · unfold InfGraph.run_probability_simulation
    rw [if_neg (by simp [chainGraphTR]), hn, hs]
    have hf : ((10 : Int) - 1).toNat = 8 + 1 := by decide
    rw [hf]
    rw [InfGraph.sim_loop, hn, h1, c1, r1]
    simp [InfGraph.push_step]
  · rw [prob_after_succ, hp1, hn, h2]
  · rw [sub_zero, abs_of_pos (by norm_num)]
    norm_num

/-- C35, amended. Stop rule of the probability iterator: for every graph with a bound
probability table, seed list, blocker list, step limit, threshold and tolerance,
`run_probability_simulation` returns step 0 followed by `j` steps, one for each of the
first `j` applications of the update rule, numbered from 1, with `total_steps = j`;
each of these applications has changed the probability of some node that is neither
blocked nor frozen by more than `δ`, and each but the last has a newly activated node;
and the iteration has stopped for one of three reasons: `j = max_steps - 1`
applications were made, or the next application changes the probability of no such
node by more than `δ`, or the last step recorded has no newly activated node. For
`δ ≥ 0`, an application changes such a node by more than `δ` exactly when it changes
some node of the graph by more than `δ`. -/
theorem probability_iterator_stop_rule (g : InfGraph) (hp : g.active_probT ≠ none)
    (initial_nodes blocking_nodes : List Int) (max_steps : Int) (threshold stop_delta : ℚ) :
    (∃ res j,
      g.run_probability_simulation initial_nodes blocking_nodes max_steps threshold stop_delta
        = some res ∧
      j ≤ (max_steps - 1).toNat ∧ res.total_steps = j ∧
      res.simulation_steps
        = { step := 0
            newly_activated_nodes := []
            node_states :=
              (InfGraph.seed_step0 g.n (InfGraph.flag_nodes g.n blocking_nodes) initial_nodes
                (List.replicate g.n 0, [])).2 }
          :: (List.range j).map (fun m =>
              InfGraph.record_step g.n threshold stop_delta (m + 1)
                (InfGraph.prob_after g initial_nodes blocking_nodes stop_delta m)
                (InfGraph.prob_after g initial_nodes blocking_nodes stop_delta (m + 1))) ∧
      (∀ m, m < j →
        InfGraph.changed_of g (InfGraph.flag_nodes g.n blocking_nodes) stop_delta
          (InfGraph.prob_after g initial_nodes blocking_nodes stop_delta m)
          (InfGraph.prob_after g initial_nodes blocking_nodes stop_delta (m + 1)) = true) ∧
      (∀ m, m + 1 < j →
        (InfGraph.record_step g.n threshold stop_delta (m + 1)
          (InfGraph.prob_after g initial_nodes blocking_nodes stop_delta m)
          (InfGraph.prob_after g initial_nodes blocking_nodes stop_delta
            (m + 1))).newly_activated_nodes ≠ []) ∧
      (j = (max_steps - 1).toNat ∨
        InfGraph.changed_of g (InfGraph.flag_nodes g.n blocking_nodes) stop_delta
          (InfGraph.prob_after g initial_nodes blocking_nodes stop_delta j)
          (InfGraph.prob_after g initial_nodes blocking_nodes stop_delta (j + 1)) = false ∨
        ∃ m, j = m + 1 ∧
          (InfGraph.record_step g.n threshold stop_delta (m + 1)
            (InfGraph.prob_after g initial_nodes blocking_nodes stop_delta m)
            (InfGraph.prob_after g initial_nodes blocking_nodes stop_delta
              (m + 1))).newly_activated_nodes = [])) ∧
    (0 ≤ stop_delta → ∀ k,
      (InfGraph.changed_of g (InfGraph.flag_nodes g.n blocking_nodes) stop_delta
          (InfGraph.prob_after g initial_nodes blocking_nodes stop_delta k)
          (InfGraph.prob_after g initial_nodes blocking_nodes stop_delta (k + 1)) = true ↔
        ∃ v, v < g.n ∧
          abs ((InfGraph.prob_after g initial_nodes blocking_nodes stop_delta (k + 1)).getD v 0
            - (InfGraph.prob_after g initial_nodes blocking_nodes stop_delta k).getD v 0)
            > stop_delta)) := by
  constructor
  · exact probability_run_trace g hp initial_nodes blocking_nodes max_steps threshold stop_delta
  · intro hd k
    rw [prob_after_succ]
    exact changed_iff g _ stop_delta hd _

/-- Worked instance: the chain `0 → 1 → 2` with probability one half on each edge. -/
theorem probability_iterator_stop_rule_witness :
    chainGraph.active_probT ≠ none ∧
    ∃ res j,
      chainGraph.run_probability_simulation [0] [] 10 (1 / 2) (1 / 1000000) = some res ∧
      j ≤ ((10 : Int) - 1).toNat ∧ res.total_steps = j ∧
      res.simulation_steps
        = { step := 0
            newly_activated_nodes := []
            node_states :=
              (InfGraph.seed_step0 chainGraph.n (InfGraph.flag_nodes chainGraph.n []) [0]
                (List.replicate chainGraph.n 0, [])).2 }
          :: (List.range j).map (fun m =>
              InfGraph.record_step chainGraph.n (1 / 2) (1 / 1000000) (m + 1)
                (InfGraph.prob_after chainGraph [0] [] (1 / 1000000) m)
                (InfGraph.prob_after chainGraph [0] [] (1 / 1000000) (m + 1))) ∧
      (∀ m, m < j →
        InfGraph.changed_of chainGraph (InfGraph.flag_nodes chainGraph.n []) (1 / 1000000)
          (InfGraph.prob_after chainGraph [0] [] (1 / 1000000) m)
          (InfGraph.prob_after chainGraph [0] [] (1 / 1000000) (m + 1)) = true) ∧
      (∀ m, m + 1 < j →
        (InfGraph.record_step chainGraph.n (1 / 2) (1 / 1000000) (m + 1)
          (InfGraph.prob_after chainGraph [0] [] (1 / 1000000) m)
          (InfGraph.prob_after chainGraph [0] [] (1 / 1000000)
            (m + 1))).newly_activated_nodes ≠ []) ∧
      (j = ((10 : Int) - 1).toNat ∨
        InfGraph.changed_of chainGraph (InfGraph.flag_nodes chainGraph.n []) (1 / 1000000)
          (InfGraph.prob_after chainGraph [0] [] (1 / 1000000) j)
          (InfGraph.prob_after chainGraph [0] [] (1 / 1000000) (j + 1)) = false ∨
        ∃ m, j = m + 1 ∧
          (InfGraph.record_step chainGraph.n (1 / 2) (1 / 1000000) (m + 1)
            (InfGraph.prob_after chainGraph [0] [] (1 / 1000000) m)
            (InfGraph.prob_after chainGraph [0] [] (1 / 1000000)
              (m + 1))).newly_activated_nodes = []) :=
  ⟨by simp [chainGraph],
    (probability_iterator_stop_rule chainGraph (by simp [chainGraph]) [0] [] 10 (1 / 2)
      (1 / 1000000)).1⟩

/-- C39. Monotone probability wave: for every graph whose bound edge probabilities lie
in `[0, 1]`, every seed list, blocker list, model, step limit and threshold, and every
positive tolerance, the probability of a node never decreases from one iteration of
`run_probability_simulation` to the next; a seed inside the graph that is not blocked
has probability 1 at every iteration; and in the result the `newly_activated_nodes`
lists of the steps are pairwise disjoint and free of repetitions, a node listed in the
step numbered `m + 1` having a probability below the threshold after `m` iterations and
at least the threshold after `m + 1`. -/
theorem probability_wave_monotone (g : InfGraph) (P : List (List ℚ))
    (hP : g.active_probT = some P) (h01 : TableIn01 P)
    (initial_nodes blocking_nodes : List Int) (max_steps : Int) (threshold stop_delta : ℚ)
    (hd : 0 < stop_delta) :
    (∀ k v, (InfGraph.prob_after g initial_nodes blocking_nodes stop_delta k).getD v 0
      ≤ (InfGraph.prob_after g initial_nodes blocking_nodes stop_delta (k + 1)).getD v 0) ∧
    (∀ s : Nat, (s : Int) ∈ initial_nodes → s < g.n → (s : Int) ∉ blocking_nodes →
      ∀ k, (InfGraph.prob_after g initial_nodes blocking_nodes stop_delta k).getD s 0 = 1) ∧
    ∃ res,
      g.run_probability_simulation initial_nodes blocking_nodes max_steps threshold stop_delta
        = some res ∧
      (res.simulation_steps.map SimulationStep.newly_activated_nodes).Pairwise List.Disjoint ∧
      (∀ st, st ∈ res.simulation_steps → st.newly_activated_nodes.Nodup) ∧
      (∀ st, st ∈ res.simulation_steps → ∀ v, v ∈ st.newly_activated_nodes →
        ∃ m, st.step = m + 1 ∧
          (InfGraph.prob_after g initial_nodes blocking_nodes stop_delta m).getD v 0
            < threshold ∧
          threshold
            ≤ (InfGraph.prob_after g initial_nodes blocking_nodes stop_delta (m + 1)).getD v 0) := by
  have hmono := prob_after_mono_le hP h01 initial_nodes blocking_nodes stop_delta hd
  refine ⟨prob_after_mono hP h01 initial_nodes blocking_nodes stop_delta hd,
    fun s hs hn hb => prob_after_seed initial_nodes blocking_nodes stop_delta hd s hs hn hb, ?_⟩
  obtain ⟨res, j, hrun, _, _, hsteps, _⟩ := probability_run_trace g
    (by rw [hP]; exact fun h => Option.noConfusion h) initial_nodes blocking_nodes max_steps
    threshold stop_delta
  have hnew : ∀ m v, v ∈ (InfGraph.record_step g.n threshold stop_delta (m + 1)
      (InfGraph.prob_after g initial_nodes blocking_nodes stop_delta m)
      (InfGraph.prob_after g initial_nodes blocking_nodes stop_delta
        (m + 1))).newly_activated_nodes →
      (InfGraph.prob_after g initial_nodes blocking_nodes stop_delta m).getD v 0 < threshold ∧
      threshold
        ≤ (InfGraph.prob_after g initial_nodes blocking_nodes stop_delta (m + 1)).getD v 0 := by
    intro m v hv
    simp only [InfGraph.record_step, List.mem_filter, List.mem_range, decide_eq_true_eq] at hv
    exact hv.2
  refine ⟨res, hrun, ?_, ?_, ?_⟩
  · rw [hsteps, List.map_cons, List.pairwise_cons]
    constructor
    · intro l _
      exact List.disjoint_nil_left l
    · rw [List.map_map, List.pairwise_map]
      refine List.Pairwise.imp ?_ (List.pairwise_lt_range j)
      intro a b hab v hva hvb
      have h1 := (hnew a v hva).2
      have h2 := (hnew b v hvb).1
      have h3 := hmono v (a + 1) b hab
      linarith
  · intro st hst
    rw [hsteps] at hst
    rcases List.mem_cons.mp hst with h | h
    · rw [h]
      exact List.nodup_nil
    · obtain ⟨m, _, hm⟩ := List.mem_map.mp h
      rw [← hm]
      exact (List.nodup_range g.n).filter _
  · intro st hst v hv
    rw [hsteps] at hst
    rcases List.mem_cons.mp hst with h | h
    · rw [h] at hv
      exact absurd hv (List.not_mem_nil v)
    · obtain ⟨m, _, hm⟩ := List.mem_map.mp h
      rw [← hm] at hv ⊢
      exact ⟨m, rfl, hnew m v hv⟩

/-- Worked instance: the chain `0 → 1 → 2` with probability one half on each edge, the
seed 0 and the default parameters. -/
theorem probability_wave_monotone_witness :
    chainGraph.active_probT = some [[], [1 / 2], [1 / 2]] ∧
    TableIn01 [[], [1 / 2], [1 / 2]] ∧ (0 : ℚ) < 1 / 1000000 ∧
    (∀ k v, (InfGraph.prob_after chainGraph [0] [] (1 / 1000000) k).getD v 0
      ≤ (InfGraph.prob_after chainGraph [0] [] (1 / 1000000) (k + 1)).getD v 0) ∧
    (∀ s : Nat, (s : Int) ∈ ([0] : List Int) → s < chainGraph.n → (s : Int) ∉ ([] : List Int) →
      ∀ k, (InfGraph.prob_after chainGraph [0] [] (1 / 1000000) k).getD s 0 = 1) ∧
    ∃ res,
      chainGraph.run_probability_simulation [0] [] 10 (1 / 2) (1 / 1000000) = some res ∧
      (res.simulation_steps.map SimulationStep.newly_activated_nodes).Pairwise List.Disjoint ∧
      (∀ st, st ∈ res.simulation_steps → st.newly_activated_nodes.Nodup) ∧
      (∀ st, st ∈ res.simulation_steps → ∀ v, v ∈ st.newly_activated_nodes →
        ∃ m, st.step = m + 1 ∧
          (InfGraph.prob_after chainGraph [0] [] (1 / 1000000) m).getD v 0 < 1 / 2 ∧
          (1 / 2 : ℚ) ≤ (InfGraph.prob_after chainGraph [0] [] (1 / 1000000) (m + 1)).getD v 0) :=
  have h01 : TableIn01 [[], [1 / 2], [1 / 2]] := by
    intro row hrow p hp
    simp only [List.mem_cons, List.mem_singleton, List.not_mem_nil, or_false] at hrow
    rcases hrow with h | h | h
    · rw [h] at hp
      exact absurd hp (List.not_mem_nil p)
    · rw [h, List.mem_singleton] at hp
      rw [hp]
      norm_num
    · rw [h, List.mem_singleton] at hp
      rw [hp]
      norm_num
  ⟨rfl, h01, by norm_num,
    probability_wave_monotone chainGraph [[], [1 / 2], [1 / 2]] rfl h01 [0] [] 10 (1 / 2)
      (1 / 1000000) (by norm_num)⟩

end WaveClaims

/-! ## The scenario of the two joined triangles -/

section TrussScenarioClaims

open CommunitySearcher

/-- C31. Scenario of the k-truss: for every snapshot that consists of the two triangles
`(u, v, w)` and `(v, w, x)` sharing the edge `(v, w)`, with the five edges stored in
any direction, every iteration order of the hash sets and every `final_states` that
holds the four distinct nodes, `find_k_truss_community` with the query nodes `[v]` and
`k_truss = 3` returns a listing of exactly the nodes `u`, `v`, `w`, `x`, and the node
count 4. -/
theorem k_truss_two_triangles (enum : List Nat → List Nat) (henum : ∀ l, (enum l).Perm l)
    (g : InfGraph) (u v w x : Nat) (hT : TwoTriangles g u v w x)
    (hd : [u, v, w, x].Nodup) (final_states : List NodeState)
    (hf : ∀ y, y ∈ [u, v, w, x] → y ∈ final_states.map NodeState.id) :
    (find_k_truss_community enum 3 final_states g [v]).node_ids.Perm [u, v, w, x] ∧
      (find_k_truss_community enum 3 final_states g [v]).node_count = 4 := by
  have mu : u ∈ [u, v, w, x] := by simp
  have mv : v ∈ [u, v, w, x] := by simp
  have mw : w ∈ [u, v, w, x] := by simp
  have mx : x ∈ [u, v, w, x] := by simp
  have hcont : ∀ y, y ∈ [u, v, w, x] →
      (final_states.map NodeState.id).contains y = true := by
    intro y hy
    have := hf y hy
    simpa using this
  have hvw : v ≠ w := by
    intro h; rw [h] at hd; simp at hd
  have hwx : w ≠ x := by
    intro h; rw [h] at hd; simp at hd
  -- the search space
  have hfilter : [v].filter (fun qn => (final_states.map NodeState.id).contains qn)
      = [v] := by
    rw [List.filter_cons, if_pos (hcont v mv), List.filter_nil]
  have hD := bfs_from_spec (fun a => g.g.getD a [] ++ g.gT.getD a [])
    (fun y => (final_states.map NodeState.id).contains y) (final_states.map NodeState.id)
    (fun y hy => by simpa using hy) v (hf v mv)
  rw [List.length_map] at hD
  obtain ⟨S, hS⟩ : ∃ S, S = (bfs_loop (fun a => g.g.getD a [] ++ g.gT.getD a [])
    (fun y => (final_states.map NodeState.id).contains y) final_states.length
    ([v], [v])).2 := ⟨_, rfl⟩
  rw [← hS] at hD
  have hprep : prepare_search_space final_states g [v] =
      some { search_space := S, valid_query_nodes := [v],
             node_probs := collect_probs final_states } := by
    unfold prepare_search_space
    rw [hfilter, hS]
  have nb : ∀ a b, (a, b) ∈ two_triangles_pairs u v w x →
      b ∈ g.g.getD a [] ++ g.gT.getD a [] :=
    fun a b h => List.mem_append.2 ((hT a b).2 h)
  have vS : v ∈ S := hD.start
  have inS : ∀ y, y ∈ [u, v, w, x] → y ∈ S := by
    intro y hy
    have hy' := hy
    simp only [List.mem_cons, List.mem_singleton, List.not_mem_nil, or_false] at hy'
    rcases hy' with h | h | h | h
    · rw [h]
      exact hD.closed v vS u (nb v u (by simp [two_triangles_pairs])) (hcont u mu)
    · rw [h]; exact vS
    · rw [h]
      exact hD.closed v vS w (nb v w (by simp [two_triangles_pairs])) (hcont w mw)
    · rw [h]
      exact hD.closed v vS x (nb v x (by simp [two_triangles_pairs])) (hcont x mx)
  -- the undirected view
  have hA := build_undirected_adj_ok enum henum g S
  obtain ⟨hk, hc⟩ := build_undirected_adj_complete enum henum g S
  obtain ⟨adj, hadjdef⟩ : ∃ adj, adj = build_undirected_adj enum g S := ⟨_, rfl⟩
  rw [← hadjdef] at hA hk hc
  have hadj : ∀ a b, (a, b) ∈ two_triangles_pairs u v w x → b ∈ adj.nbrs a :=
    fun a b h => (hc a b (inS a (mem_two_triangles_pairs u v w x a b h).1)
      (inS b (mem_two_triangles_pairs u v w x a b h).2) ((hT a b).2 h)).1
  have hsound : ∀ a b, b ∈ adj.nbrs a → a ∈ [u, v, w, x] ∧ b ∈ [u, v, w, x] := by
    intro a b h
    have hj := (hA.sound a b h).2.2
    unfold Joined at hj
    rcases hj with hj | hj | hj | hj
    · exact mem_two_triangles_pairs u v w x a b ((hT a b).1 (Or.inl hj))
    · exact mem_two_triangles_pairs u v w x a b ((hT a b).1 (Or.inr hj))
    · exact (mem_two_triangles_pairs u v w x b a ((hT b a).1 (Or.inl hj))).symm
    · exact (mem_two_triangles_pairs u v w x b a ((hT b a).1 (Or.inr hj))).symm
  -- the surviving edges
  have h32 : (3 : Int) - 2 = 1 := by norm_num
  have t1 := truss_supports_finds adj u v w (hk u (inS u mu))
    (hadj u v (by simp [two_triangles_pairs])) (hadj u w (by simp [two_triangles_pairs]))
    (hadj v w (by simp [two_triangles_pairs])) (hadj w v (by simp [two_triangles_pairs])) hvw
  have t2 := truss_supports_finds adj v w x (hk v vS)
    (hadj v w (by simp [two_triangles_pairs])) (hadj v x (by simp [two_triangles_pairs]))
    (hadj w x (by simp [two_triangles_pairs])) (hadj x w (by simp [two_triangles_pairs])) hwx
  have hE := k_truss_edges_one adj
  obtain ⟨E, hEdef⟩ : ∃ E, E = (truss_supports adj).current_edges := ⟨_, rfl⟩
  rw [← hEdef] at t1 t2 hE
  have hside : ∀ a b y, make_edge a b ∈ E → (y = a ∨ y = b) → y ∈ truss_nodes E := by
    intro a b y he hy
    rw [mem_truss_nodes_iff]
    refine ⟨make_edge a b, he, ?_⟩
    rcases make_edge_ends a b with ⟨h1, h2⟩ | ⟨h1, h2⟩
    · rw [h1, h2]; exact hy
    · rw [h1, h2]; exact hy.symm
  have hN : ∀ y, y ∈ truss_nodes E ↔ y ∈ [u, v, w, x] := by
    intro y
    constructor
    · intro hy
      obtain ⟨e, he, h⟩ := (mem_truss_nodes_iff E y).1 hy
      rw [hEdef] at he
      obtain ⟨a, b, hab, hab'⟩ := truss_supports_edges adj e he
      have hs := hsound a b hab
      rw [hab'] at h
      rcases make_edge_ends a b with ⟨h1, h2⟩ | ⟨h1, h2⟩
      · rw [h1, h2] at h
        rcases h with h | h
        · rw [h]; exact hs.1
        · rw [h]; exact hs.2
      · rw [h1, h2] at h
        rcases h with h | h
        · rw [h]; exact hs.2
        · rw [h]; exact hs.1
    · intro hy
      simp only [List.mem_cons, List.mem_singleton, List.not_mem_nil, or_false] at hy
      rcases hy with h | h | h | h
      · exact hside u v y t1.1 (Or.inl h)
      · exact hside u v y t1.1 (Or.inr h)
      · exact hside u w y t1.2.1 (Or.inr h)
      · exact hside v x y t2.2.1 (Or.inr h)
  have hfs : first_surviving [v] (truss_nodes E) = some v := by
    unfold first_surviving
    have hc' : (truss_nodes E).contains v = true := by
      have := (hN v).2 mv
      simpa using this
    rw [List.find?_cons, hc']
  -- the component of the query node
  have hB := extract_connected_component_spec (truss_adj E) (truss_nodes E) v ((hN v).2 mv)
  obtain ⟨comp, hcomp⟩ :
    ∃ comp, comp = extract_connected_component v (truss_adj E) (truss_nodes E) := ⟨_, rfl⟩
  rw [← hcomp] at hB
  have hok : ∀ y, y ∈ [u, v, w, x] → (truss_nodes E).contains y = true := by
    intro y hy
    have := (hN y).2 hy
    simpa using this
  have hcm : ∀ y, y ∈ comp ↔ y ∈ [u, v, w, x] := by
    intro y
    constructor
    · intro hy
      rcases hB.okay y hy with h | h
      · rw [h]; exact mv
      · apply (hN y).1
        simpa using h
    · intro hy
      have hy' := hy
      simp only [List.mem_cons, List.mem_singleton, List.not_mem_nil, or_false] at hy'
      rcases hy' with h | h | h | h
      · rw [h]
        exact hB.closed v hB.start u (truss_adj_edge E u v t1.1).2 (hok u mu)
      · rw [h]; exact hB.start
      · rw [h]
        exact hB.closed v hB.start w (truss_adj_edge E v w t1.2.2).1 (hok w mw)
      · rw [h]
        exact hB.closed v hB.start x (truss_adj_edge E v x t2.2.1).1 (hok x mx)
  have hperm : comp.Perm [u, v, w, x] := (List.perm_ext_iff_of_nodup hB.nodup hd).2 hcm
  -- the result
  have h1 : ¬ (final_states.isEmpty ∨ (3 : Int) < 2) := by
    rintro (h | h)
    · have hv' := hf v mv
      cases final_states with
      | nil => simp at hv'
      | cons a l => simp at h
    · omega
  have h2 : ¬ (truss_nodes E).isEmpty = true := by
    intro h
    have := (hN v).2 mv
    cases hn : truss_nodes E with
    | nil => rw [hn] at this; simp at this
    | cons a l => rw [hn] at h; simp at h
  unfold find_k_truss_community
  rw [if_neg h1, hprep]
  dsimp only
  rw [h32, ← hadjdef, hE, if_neg h2, hfs]
  dsimp only [package_result]
  rw [← hcomp]
  exact ⟨(henum comp).trans hperm, by rw [(henum comp).length_eq, hperm.length_eq]; rfl⟩

theorem k_truss_two_triangles_witness :
    TwoTriangles twoTriGraph 0 1 2 3 ∧ [0, 1, 2, 3].Nodup ∧
      (∀ y, y ∈ [0, 1, 2, 3] → y ∈ (allActive 4).map NodeState.id) ∧
      (find_k_truss_community id 3 (allActive 4) twoTriGraph [1]).node_ids.Perm
        [0, 1, 2, 3] ∧
      (find_k_truss_community id 3 (allActive 4) twoTriGraph [1]).node_count = 4 :=
  ⟨two_tri_graph_shape, by decide, by decide,
    k_truss_two_triangles id (fun l => List.Perm.refl l) twoTriGraph 0 1 2 3
      two_tri_graph_shape (by decide) (allActive 4) (by decide)⟩

end TrussScenarioClaims

/-! ## The scenario of the minimization on a chain -/

section ChainScenarioClaims

/-- C32. Scenario of the minimization on the chain `0 → 1 → 2 → 3 → 4` with the
weighted-cascade probabilities, the model IC, the negative seed 0 and the budget 1: for
every PRNG stream and every `R` such that every draw made between the root draws of the
sampling passes (these are the edge draws) falls below the edge probability 1 and the
root of at least one pass is not node 0, `init_hyper_graph`,
`build_hyper_graph_for_minimization(R, {0})` and `build_blocking_set(1, {0})` return
and leave the blocker list `[1]`; and for every state `s2` of the PRNG in which the
draws for the edges `(0, 1)` and `(1, 2)` of the recorded cascade, the first two draws
of the call, fall below 1, `find_cut_off_edges({0}, {1})` on the resulting object
returns a list that holds the edge `(1, 2)`. -/
theorem chain_minimization_scenario (s : Sfmt) (R : Int) (s2 : Sfmt)
    (hdraw : ∀ i p, i < R.toNat →
      (state_before_pass (InfGraph.build_min_step (InfGraph.flag_nodes 5 [0]))
        (chainFive s).init_hyper_graph i).sfmt.drawn < p →
      p < (state_before_pass (InfGraph.build_min_step (InfGraph.flag_nodes 5 [0]))
        (chainFive s).init_hyper_graph (i + 1)).sfmt.drawn →
      draw_below s p 1)
    (hroot : ∃ i, i < R.toNat ∧
      root_of_pass (InfGraph.build_min_step (InfGraph.flag_nodes 5 [0]))
        (chainFive s).init_hyper_graph i ≠ 0)
    (hcut : draw_below s2 s2.drawn 1 ∧ draw_below s2 (s2.drawn + 1) 1) :
    ∃ g1, (chainFive s).init_hyper_graph.build_hyper_graph_for_minimization R [0]
        = some g1 ∧
      (g1.build_blocking_set 1 [0]).result_node_set = [1] ∧
      ∃ r, ({ g1.build_blocking_set 1 [0] with sfmt := s2 } : InfGraph).find_cut_off_edges
          [0] [1] = some r ∧
        ({ source := 1, target := 2 } : Edge) ∈ r.1 := by
  have htgt : InfGraph.flag_nodes 5 [0] = [true, false, false, false, false] := by decide
  rw [htgt] at hdraw hroot
  obtain ⟨i0, hi0, hr0⟩ := hroot
  have hR : ¬ R < 0 := by omega
  obtain ⟨a1, a2, a3, a5, a4⟩ := chain_rows s R.toNat
  obtain ⟨hI, hG, hlen, hshape⟩ := build_min_rows [true, false, false, false, false]
    (init_hyper_graph_inv (chainFive s) (chain_five_ok s)) rfl R.toNat
  have hrows : ∀ i, i < R.toNat →
      0 ∈ (state_before_pass (InfGraph.build_min_step [true, false, false, false, false])
        (chainFive s).init_hyper_graph R.toNat).hyperGT.getD i [] ∧
      DownClosed
        ((state_before_pass (InfGraph.build_min_step [true, false, false, false, false])
          (chainFive s).init_hyper_graph R.toNat).hyperGT.getD i []) := by
    rcases a4 with h | ⟨i, p, hi, p1, p2, p3⟩
    · exact h
    · exact absurd (hdraw i p hi p1 p2) p3
  have hbuild : (chainFive s).init_hyper_graph.build_hyper_graph_for_minimization R [0] =
      some (state_before_pass (InfGraph.build_min_step [true, false, false, false, false])
        (chainFive s).init_hyper_graph R.toNat) := by
    unfold InfGraph.build_hyper_graph_for_minimization
    rw [if_neg (by simp [chainFive, InfGraph.init_hyper_graph]), if_neg hR]
    show some ((List.range R.toNat).foldl
      (InfGraph.build_min_step (InfGraph.flag_nodes 5 [0])) _) = _
    rw [htgt]
    rfl
  have hout : ∀ i, ¬ i < R.toNat →
      (state_before_pass (InfGraph.build_min_step [true, false, false, false, false])
        (chainFive s).init_hyper_graph R.toNat).hyperGT.getD i [] = [] := by
    intro i hi
    exact List.getD_eq_default _ _ (by rw [hlen]; omega)
  refine ⟨_, hbuild, ?_, ?_⟩
  · apply chain_blocker _ (congrArg Graph.n hG) hI.bij
    · intro i
      by_cases hi : i < R.toNat
      · exact (hshape i hi).1.nodup
      · rw [hout i hi]; exact List.nodup_nil
    · intro i
      by_cases hi : i < R.toNat
      · exact (hrows i hi).2
      · rw [hout i hi]
        intro j hj _
        exact absurd hj (List.not_mem_nil j)
    · refine ⟨i0, down_closed_le (hrows i0 hi0).2 _ ?_ 1 (Nat.pos_of_ne_zero hr0)⟩
      have hhead := (hshape i0 hi0).1.head
      exact List.mem_of_mem_head? hhead
  · exact chain_cut_off s _ hG a3 a5 hcut.1 hcut.2

theorem chain_minimization_scenario_witness :
    (∀ i p, i < (1 : Int).toNat →
      (state_before_pass (InfGraph.build_min_step (InfGraph.flag_nodes 5 [0]))
        (chainFive { stream := fun _ => 1, drawn := 0 }).init_hyper_graph i).sfmt.drawn < p →
      p < (state_before_pass (InfGraph.build_min_step (InfGraph.flag_nodes 5 [0]))
        (chainFive { stream := fun _ => 1, drawn := 0 }).init_hyper_graph
          (i + 1)).sfmt.drawn →
      draw_below { stream := fun _ => 1, drawn := 0 } p 1) ∧
    (∃ i, i < (1 : Int).toNat ∧
      root_of_pass (InfGraph.build_min_step (InfGraph.flag_nodes 5 [0]))
        (chainFive { stream := fun _ => 1, drawn := 0 }).init_hyper_graph i ≠ 0) ∧
    (draw_below { stream := fun _ => 1, drawn := 7 } 7 1 ∧
      draw_below { stream := fun _ => 1, drawn := 7 } (7 + 1) 1) ∧
    ∃ g1, InfGraph.build_hyper_graph_for_minimization
          (chainFive { stream := fun _ => 1, drawn := 0 }).init_hyper_graph 1 [0] = some g1 ∧
      (g1.build_blocking_set 1 [0]).result_node_set = [1] ∧
      ∃ r, ({ g1.build_blocking_set 1 [0] with
            sfmt := { stream := fun _ => 1, drawn := 7 } } : InfGraph).find_cut_off_edges
          [0] [1] = some r ∧
        ({ source := 1, target := 2 } : Edge) ∈ r.1 :=
  have hd : ∀ (d p : Nat), draw_below { stream := fun _ => 1, drawn := d } p 1 := by
    intro d p
    unfold draw_below sfmt_genrand_real1
    norm_num
  ⟨fun _ p _ _ _ => hd 0 p, ⟨0, by decide, by decide⟩, ⟨hd 7 7, hd 7 (7 + 1)⟩,
    chain_minimization_scenario { stream := fun _ => 1, drawn := 0 } 1
      { stream := fun _ => 1, drawn := 7 } (fun _ p _ _ _ => hd 0 p)
      ⟨0, by decide, by decide⟩ ⟨hd 7 7, hd 7 (7 + 1)⟩⟩

end ChainScenarioClaims

end CASE
